import Mathlib

/-!
BusTub storage core: buffer pool manager, LRU-K replacer and B+ tree index

A shallow embedding of the C++ sources

* `src/buffer/lru_k_replacer.cpp`
* `src/buffer/buffer_pool_manager_instance.cpp`
* `src/storage/page/b_plus_tree_leaf_page.cpp`
* `src/storage/index/b_plus_tree.cpp`

Member functions become functions on an explicit state.  A result of `none`
(or `Except.error`) stands for a run that does not return normally: a failed
`BUSTUB_ASSERT`, an access outside an array, or a loop that does not end.
-/

namespace bustub

/-- Page identifiers (`page_id_t`, a signed integer). -/
abbrev page_id_t := Int

/-- Frame identifiers (`frame_id_t`); frames are indices into `pages_`. -/
abbrev frame_id_t := Nat

/-- The constant `INVALID_PAGE_ID`. -/
def INVALID_PAGE_ID : page_id_t := -1

/-- One past the largest `size_t` value. -/
def SIZE_T_MOD : Nat := 2 ^ 64

/-- The `size_t` decrement `n--`; it wraps around at zero. -/
def sizeDec (n : Nat) : Nat := if n = 0 then SIZE_T_MOD - 1 else n - 1

/-- The `size_t` subtraction `a - b`; it wraps around when `b > a`. -/
def sizeSub (a b : Nat) : Nat := if b ≤ a then a - b else a + SIZE_T_MOD - b

/-! ## LRU-K replacer -/

/-- State of `LRUKReplacer`.  `frame_ref_` is the map from a tracked frame to
its list of access timestamps, kept as the list of its entries (the order of
the list is the order in which the map is iterated).  `is_evictable_` is read
with `operator[]`, which yields `false` for an absent key, so it is kept as a
total function and `erase` resets the frame to `false`.  The counter
`current_timestamp_` only ever grows by one per `RecordAccess`; it is kept as
a natural number, which is the value of the `size_t` counter during the first
`2 ^ 64 - 1` accesses. -/
structure LRUKReplacer where
  frame_ref_ : List (frame_id_t × List Nat)
  is_evictable_ : frame_id_t → Bool
  current_timestamp_ : Nat
  curr_size_ : Nat
  replacer_size_ : Nat
  k_ : Nat

namespace LRUKReplacer

/-- Constructor `LRUKReplacer(num_frames, k)`. -/
def new (num_frames k : Nat) : LRUKReplacer :=
  { frame_ref_ := [], is_evictable_ := fun _ => false, current_timestamp_ := 0,
    curr_size_ := 0, replacer_size_ := num_frames, k_ := k }

/-- The test `frame_ref_.count(frame_id) != 0`. -/
def tracked (r : LRUKReplacer) (f : frame_id_t) : Bool :=
  (r.frame_ref_.map Prod.fst).contains f

/-- The call `frame_ref_.erase(frame_id)`. -/
def eraseRef (l : List (frame_id_t × List Nat)) (f : frame_id_t) :
    List (frame_id_t × List Nat) :=
  l.filter (fun e => e.1 != f)

/-- The local variables of `Evict` that its two loops update: `flag`,
`max_dst` and the out-parameter `*frame_id`. -/
structure EvictScan where
  flag : Bool
  max_dst : Nat
  frame_id : frame_id_t

/-- One round of a loop of `Evict` over an entry `it` of `frame_ref_`; with
`underK` the entry must also have fewer than `k_` timestamps (first loop).
`it.second.front()` is the head of the timestamp list. -/
def evictVisit (r : LRUKReplacer) (underK : Bool) (st : EvictScan)
    (it : frame_id_t × List Nat) : EvictScan :=
  if r.is_evictable_ it.1 && (!underK || decide (it.2.length < r.k_)) then
    if st.max_dst ≤ sizeSub r.current_timestamp_ (it.2.headD 0) then
      { flag := true, max_dst := sizeSub r.current_timestamp_ (it.2.headD 0), frame_id := it.1 }
    else
      { st with flag := true }
  else st

/-- A whole loop `for (auto &it : frame_ref_)` of `Evict`. -/
def evictLoop (r : LRUKReplacer) (underK : Bool) (st : EvictScan) :
    List (frame_id_t × List Nat) → EvictScan
  | [] => st
  | it :: rest => evictLoop r underK (evictVisit r underK st it) rest

/-- The victim's removal at the end of `Evict`: `curr_size_--`, then both
maps drop the frame. -/
def dropFrame (r : LRUKReplacer) (f : frame_id_t) : LRUKReplacer :=
  { r with curr_size_ := sizeDec r.curr_size_,
           frame_ref_ := eraseRef r.frame_ref_ f,
           is_evictable_ := Function.update r.is_evictable_ f false }

/-- The function `LRUKReplacer::Evict`: the new state and the victim, `none`
when the function returns `false`. -/
def Evict (r : LRUKReplacer) : LRUKReplacer × Option frame_id_t :=
  let s1 := evictLoop r true { flag := false, max_dst := 0, frame_id := 0 } r.frame_ref_
  if s1.flag then (r.dropFrame s1.frame_id, some s1.frame_id)
  else
    let s2 := evictLoop r false s1 r.frame_ref_
    if s2.flag then (r.dropFrame s2.frame_id, some s2.frame_id)
    else (r, none)

/-- The statements `frame_ref_[frame_id].push_back(ts)` followed by the
`pop_front` when the list has grown beyond `k`. -/
def pushAccess (k ts : Nat) (f : frame_id_t) :
    List (frame_id_t × List Nat) → List (frame_id_t × List Nat)
  | [] => [(f, if k < 1 then [] else [ts])]
  | (g, h) :: rest =>
    if g = f then (g, if k < (h ++ [ts]).length then (h ++ [ts]).tail else h ++ [ts]) :: rest
    else (g, h) :: pushAccess k ts f rest

/-- The function `LRUKReplacer::RecordAccess`; `none` when its assertion
`curr_size_ != replacer_size_` fails. -/
def RecordAccess (r : LRUKReplacer) (f : frame_id_t) : Option LRUKReplacer :=
  if !r.tracked f && decide (r.curr_size_ = r.replacer_size_) then none
  else
    some { r with current_timestamp_ := r.current_timestamp_ + 1,
                  frame_ref_ := pushAccess r.k_ (r.current_timestamp_ + 1) f r.frame_ref_ }

/-- The function `LRUKReplacer::SetEvictable`. -/
def SetEvictable (r : LRUKReplacer) (f : frame_id_t) (set_evictable : Bool) : LRUKReplacer :=
  if !r.tracked f then r
  else
    let size :=
      if r.is_evictable_ f && !set_evictable then sizeDec r.curr_size_
      else if !r.is_evictable_ f && set_evictable then r.curr_size_ + 1
      else r.curr_size_
    { r with curr_size_ := size, is_evictable_ := Function.update r.is_evictable_ f set_evictable }

/-- The function `LRUKReplacer::Size`. -/
def Size (r : LRUKReplacer) : Nat := r.curr_size_

/-- The function `LRUKReplacer::Remove`: nothing happens on an untracked
frame; `none` when the assertion `is_evictable_[frame_id]` fails; otherwise
`curr_size_--` and both maps drop the frame. -/
def Remove (r : LRUKReplacer) (f : frame_id_t) : Option LRUKReplacer :=
  if !r.tracked f then some r
  else if !r.is_evictable_ f then none
  else some (r.dropFrame f)

/-- The calls a client makes on the replacer. -/
inductive Call where
  | recordAccess (f : frame_id_t) : Call
  | setEvictable (f : frame_id_t) (set_evictable : Bool) : Call
  | remove (f : frame_id_t) : Call
  | evict : Call

/-- The replacer after a call, `none` when an assertion of the call fails. -/
def applyCall (r : LRUKReplacer) : Call → Option LRUKReplacer
  | .recordAccess f => r.RecordAccess f
  | .setEvictable f b => some (r.SetEvictable f b)
  | .remove f => r.Remove f
  | .evict => some r.Evict.1

/-- The replacer after a sequence of calls. -/
def runCalls (r : LRUKReplacer) : List Call → Option LRUKReplacer
  | [] => some r
  | c :: rest =>
    match applyCall r c with
    | none => none
    | some r1 => runCalls r1 rest

/-- The states of a replacer `LRUKReplacer(num_frames, k)` with `k ≥ 1` that
some sequence of `RecordAccess`, `SetEvictable`, `Remove` and `Evict` calls,
with any arguments, leads to. -/
inductive Reachable (num_frames k : Nat) : LRUKReplacer → Prop where
  | init : 0 < k → Reachable num_frames k (LRUKReplacer.new num_frames k)
  | step {r r' : LRUKReplacer} (c : Call) :
      Reachable num_frames k r → applyCall r c = some r' → Reachable num_frames k r'

/-- The access history `frame_ref_[f]` of a tracked frame, `none` for a frame
that is not tracked. -/
def history (r : LRUKReplacer) (f : frame_id_t) : Option (List Nat) :=
  r.frame_ref_.lookup f

/-- The access log of the frames after a call: a returning `RecordAccess(f)`
appends the timestamp it hands out to the log of `f`, and a frame that
`Remove` or `Evict` stops tracking starts over with the empty log. -/
def logCall (r : LRUKReplacer) (log : frame_id_t → List Nat) : Call → frame_id_t → List Nat
  | .recordAccess f => Function.update log f (log f ++ [r.current_timestamp_ + 1])
  | .setEvictable _ _ => log
  | .remove f => if r.tracked f then Function.update log f [] else log
  | .evict =>
    match r.Evict.2 with
    | some f => Function.update log f []
    | none => log

/-- The reachable states together with the log, for every frame, of the
timestamps of its `RecordAccess` calls since it was last (re)tracked. -/
inductive Logged (num_frames k : Nat) : LRUKReplacer → (frame_id_t → List Nat) → Prop where
  | init : 0 < k → Logged num_frames k (LRUKReplacer.new num_frames k) (fun _ => [])
  | step {r r' : LRUKReplacer} {log : frame_id_t → List Nat} (c : Call) :
      Logged num_frames k r log → applyCall r c = some r' →
      Logged num_frames k r' (logCall r log c)

/-- The number of tracked frames. -/
def numTracked (r : LRUKReplacer) : Nat := r.frame_ref_.length

end LRUKReplacer

/-! ## Buffer pool manager -/

/-- The class `Page`: the frame's bytes and its metadata.  The bytes are
kept abstract; `0` is the all-zero page that `ResetMemory` produces. -/
structure Page (D : Type) where
  data_ : D
  page_id_ : page_id_t
  pin_count_ : Nat
  is_dirty_ : Bool

/-- State of `BufferPoolManagerInstance` together with the stable storage of
its `DiskManager` (`disk`, a map from page id to page bytes).  `page_table_`
is the page-id to frame-id map, used only through `Find`, `Insert` and
`Remove`; it is kept as the partial function it stores.  Page ids are
integers without bound here; the counter `next_page_id_` of the source is a
32-bit `page_id_t`, with which the state agrees as long as the counter stays
below `2^31`. -/
structure BufferPoolManagerInstance (D : Type) where
  pool_size_ : Nat
  pages_ : List (Page D)
  page_table_ : page_id_t → Option frame_id_t
  replacer_ : LRUKReplacer
  free_list_ : List frame_id_t
  next_page_id_ : page_id_t
  disk : page_id_t → D

namespace BufferPoolManagerInstance

variable {D : Type} [Zero D]

/-- Constructor: every frame starts in the free list, no page is resident. -/
def new (pool_size replacer_k : Nat) (disk : page_id_t → D) : BufferPoolManagerInstance D :=
  { pool_size_ := pool_size,
    pages_ := List.replicate pool_size
      { data_ := 0, page_id_ := INVALID_PAGE_ID, pin_count_ := 0, is_dirty_ := false },
    page_table_ := fun _ => none,
    replacer_ := LRUKReplacer.new pool_size replacer_k,
    free_list_ := List.range pool_size,
    next_page_id_ := 0,
    disk := disk }

/-- The victim branch shared by `NewPgImp` and `FetchPgImp`
(`replacer_->Evict(&frame_id)` succeeded): a dirty victim is written to disk
under its own page id, and its page id leaves the page table. -/
def evictFrame (s : BufferPoolManagerInstance D) (r : LRUKReplacer) (f : frame_id_t) :
    Option (BufferPoolManagerInstance D) :=
  match s.pages_[f]? with
  | none => none
  | some page =>
    some { s with replacer_ := r,
                  disk := if page.is_dirty_ then Function.update s.disk page.page_id_ page.data_
                          else s.disk,
                  page_table_ := Function.update s.page_table_ page.page_id_ none }

/-- The first part of `NewPgImp` and of the miss path of `FetchPgImp`: take
the front of the free list, else a victim of the replacer; `some (s, none)`
when neither exists (the function returns `nullptr`). -/
def acquireFrame (s : BufferPoolManagerInstance D) :
    Option (BufferPoolManagerInstance D × Option frame_id_t) :=
  match s.free_list_ with
  | f :: rest => some ({ s with free_list_ := rest }, some f)
  | [] =>
    match s.replacer_.Evict with
    | (r, some f) => (evictFrame s r f).map (fun s1 => (s1, some f))
    | (_, none) => some (s, none)

/-- The last two statements of `NewPgImp` and `FetchPgImp`:
`RecordAccess(frame_id)` then `SetEvictable(frame_id, false)`. -/
def touch (r : LRUKReplacer) (f : frame_id_t) : Option LRUKReplacer :=
  (r.RecordAccess f).map (fun r1 => r1.SetEvictable f false)

/-- The function `NewPgImp`.  The result carries the new page id and the
frame of the returned `Page *`; the inner `none` is `nullptr`. -/
def NewPgImp (s : BufferPoolManagerInstance D) :
    Option (BufferPoolManagerInstance D × Option (page_id_t × frame_id_t)) :=
  match acquireFrame s with
  | none => none
  | some (_, none) => some (s, none)
  | some (s1, some f) =>
    if f < s1.pages_.length then
      match touch s1.replacer_ f with
      | none => none
      | some r =>
        some ({ s1 with
                  pages_ := s1.pages_.set f
                    { data_ := 0, page_id_ := s1.next_page_id_, pin_count_ := 1, is_dirty_ := false },
                  page_table_ := Function.update s1.page_table_ s1.next_page_id_ (some f),
                  next_page_id_ := s1.next_page_id_ + 1,
                  replacer_ := r },
              some (s1.next_page_id_, f))
    else none

/-- The function `FetchPgImp`; the result is the frame of the returned
`Page *`, `none` for `nullptr`. -/
def FetchPgImp (s : BufferPoolManagerInstance D) (page_id : page_id_t) :
    Option (BufferPoolManagerInstance D × Option frame_id_t) :=
  match s.page_table_ page_id with
  | some f =>
    match s.pages_[f]? with
    | none => none
    | some page =>
      match touch s.replacer_ f with
      | none => none
      | some r =>
        some ({ s with pages_ := s.pages_.set f { page with pin_count_ := page.pin_count_ + 1 },
                       replacer_ := r }, some f)
  | none =>
    match acquireFrame s with
    | none => none
    | some (_, none) => some (s, none)
    | some (s1, some f) =>
      if f < s1.pages_.length then
        match touch s1.replacer_ f with
        | none => none
        | some r =>
          some ({ s1 with
                    pages_ := s1.pages_.set f
                      { data_ := s1.disk page_id, page_id_ := page_id, pin_count_ := 1,
                        is_dirty_ := false },
                    page_table_ := Function.update s1.page_table_ page_id (some f),
                    replacer_ := r },
                some f)
      else none

/-- The function `UnpinPgImp`. -/
def UnpinPgImp (s : BufferPoolManagerInstance D) (page_id : page_id_t) (is_dirty : Bool) :
    Option (BufferPoolManagerInstance D × Bool) :=
  match s.page_table_ page_id with
  | none => some (s, false)
  | some f =>
    match s.pages_[f]? with
    | none => none
    | some page =>
      if page.pin_count_ = 0 then some (s, false)
      else
        let page1 : Page D := if is_dirty then { page with is_dirty_ := true } else page
        let page2 : Page D := { page1 with pin_count_ := page1.pin_count_ - 1 }
        some ({ s with pages_ := s.pages_.set f page2,
                       replacer_ := if page2.pin_count_ = 0 then s.replacer_.SetEvictable f true
                                    else s.replacer_ }, true)

/-- The function `FlushPgImp`. -/
def FlushPgImp (s : BufferPoolManagerInstance D) (page_id : page_id_t) :
    Option (BufferPoolManagerInstance D × Bool) :=
  match s.page_table_ page_id with
  | none => some (s, false)
  | some f =>
    match s.pages_[f]? with
    | none => none
    | some page =>
      some ({ s with disk := Function.update s.disk page.page_id_ page.data_,
                     pages_ := s.pages_.set f { page with is_dirty_ := false } }, true)

/-- The loop of `FlushAllPgsImp` from frame `i` on, `n` frames to go. -/
def flushFrom (s : BufferPoolManagerInstance D) (i : Nat) :
    Nat → Option (BufferPoolManagerInstance D)
  | 0 => some s
  | n + 1 =>
    match s.pages_[i]? with
    | none => none
    | some page =>
      match FlushPgImp s page.page_id_ with
      | none => none
      | some (s1, _) => flushFrom s1 (i + 1) n

/-- The function `FlushAllPgsImp`. -/
def FlushAllPgsImp (s : BufferPoolManagerInstance D) : Option (BufferPoolManagerInstance D) :=
  flushFrom s 0 s.pool_size_

/-- The function `DeletePgImp`. -/
def DeletePgImp (s : BufferPoolManagerInstance D) (page_id : page_id_t) :
    Option (BufferPoolManagerInstance D × Bool) :=
  match s.page_table_ page_id with
  | none => some (s, true)
  | some f =>
    match s.pages_[f]? with
    | none => none
    | some page =>
      if 0 < page.pin_count_ then some (s, false)
      else
        some ({ s with page_table_ := Function.update s.page_table_ page_id none,
                       replacer_ := s.replacer_.SetEvictable f true,
                       free_list_ := s.free_list_ ++ [f],
                       pages_ := s.pages_.set f { page with data_ := 0 } }, true)

/-- A holder of the `Page *` of frame `f` overwrites the frame's bytes
(through `Page::GetData`). -/
def writeData (s : BufferPoolManagerInstance D) (f : frame_id_t) (d : D) :
    Option (BufferPoolManagerInstance D) :=
  match s.pages_[f]? with
  | none => none
  | some page => some { s with pages_ := s.pages_.set f { page with data_ := d } }

end BufferPoolManagerInstance

namespace BufferPoolManagerInstance

variable {D : Type}

/-- The calls a client makes on the pool; `write` is a store into the bytes
of a frame through a `Page *` obtained earlier. -/
inductive Op (D : Type) where
  | newPage : Op D
  | fetchPage (p : page_id_t) : Op D
  | unpinPage (p : page_id_t) (is_dirty : Bool) : Op D
  | flushPage (p : page_id_t) : Op D
  | flushAllPages : Op D
  | deletePage (p : page_id_t) : Op D
  | write (f : frame_id_t) (d : D) : Op D

/-- The pool after a call, `none` when the call does not return. -/
def applyOp [Zero D] (s : BufferPoolManagerInstance D) : Op D → Option (BufferPoolManagerInstance D)
  | .newPage => (NewPgImp s).map Prod.fst
  | .fetchPage p => (FetchPgImp s p).map Prod.fst
  | .unpinPage p d => (UnpinPgImp s p d).map Prod.fst
  | .flushPage p => (FlushPgImp s p).map Prod.fst
  | .flushAllPages => FlushAllPgsImp s
  | .deletePage p => (DeletePgImp s p).map Prod.fst
  | .write f d => writeData s f d

/-- The pool after a sequence of calls. -/
def runOps [Zero D] (s : BufferPoolManagerInstance D) :
    List (Op D) → Option (BufferPoolManagerInstance D)
  | [] => some s
  | op :: rest =>
    match applyOp s op with
    | none => none
    | some s1 => runOps s1 rest

end BufferPoolManagerInstance

/-! ## B+ tree index

The tree works on the pages of the buffer pool through `FetchPage`,
`NewPage` and pointers into the frames.  Here the pool is taken to be large
enough never to run out of frames, so a page is found under its page id for
as long as the tree exists: the state holds the map from page id to page
contents and the pool's page-id counter.  Latches and pin counts have no
effect on the contents and are left out; the header page, which only stores
a copy of `root_page_id_`, is left out as well.
-/

/-- Keys (`GenericKey`), ordered by the comparator. -/
abbrev KeyType := Int

/-- Values (`RID`). -/
abbrev ValueType := Nat

/-- The key comparator: `-1`, `0` or `1`. -/
def comparator_ (a b : KeyType) : Int := if a < b then -1 else if b < a then 1 else 0

/-- Ways in which a call on the tree fails to return normally. -/
inductive TreeError where
  /-- The assertion "leaf page is out of size" of the leaf `Insert` failed. -/
  | leafOutOfSize
  /-- The assertion "can't find brother page" failed. -/
  | noBrotherPage
  /-- The assertion "not find page in parent page" failed. -/
  | notInParent
  /-- `FetchPage` was called on a page id under which no tree page was ever
  created, such as `INVALID_PAGE_ID`: the bytes it returns are not a page of
  the tree.  The code has no test for this and goes on with those bytes; the
  definitions that give this error end the call there. -/
  | fetchNoPage (page_id : page_id_t)
  /-- A page was used through a pointer of the other page class: what is
  read then depends on the memory layout of the two classes, and the
  definitions end the call. -/
  | wrongPageClass
  /-- An array slot at or beyond `size` was read, or the size went negative. -/
  | slotOutOfRange
  /-- A loop did not end. -/
  | loopForever
  /-- A null pointer was dereferenced. -/
  | nullPointer
  deriving DecidableEq, Repr

/-- A leaf page: the header fields and the first `size` slots of `array_`
(`GetSize()` is the length of the list). -/
structure LeafPage where
  page_id_ : page_id_t
  parent_page_id_ : page_id_t
  max_size_ : Nat
  next_page_id_ : page_id_t
  array_ : List (KeyType × ValueType)
  deriving DecidableEq, Repr

/-- An internal page: the header fields and the first `size` slots of
`array_`; the key of slot 0 is not used. -/
structure InternalPage where
  page_id_ : page_id_t
  parent_page_id_ : page_id_t
  max_size_ : Nat
  array_ : List (KeyType × page_id_t)
  deriving DecidableEq, Repr

/-- A page of the tree, by `page_type_`. -/
inductive TreePage where
  | leaf (p : LeafPage)
  | internal (p : InternalPage)
  deriving DecidableEq, Repr

namespace TreePage

/-- The function `GetPageId`. -/
def GetPageId : TreePage → page_id_t
  | leaf p => p.page_id_
  | internal p => p.page_id_

/-- The function `GetParentPageId`. -/
def GetParentPageId : TreePage → page_id_t
  | leaf p => p.parent_page_id_
  | internal p => p.parent_page_id_

/-- The function `SetParentPageId`. -/
def SetParentPageId (parent : page_id_t) : TreePage → TreePage
  | leaf p => leaf { p with parent_page_id_ := parent }
  | internal p => internal { p with parent_page_id_ := parent }

/-- The function `GetSize`. -/
def GetSize : TreePage → Nat
  | leaf p => p.array_.length
  | internal p => p.array_.length

/-- The function `GetMaxSize`. -/
def GetMaxSize : TreePage → Nat
  | leaf p => p.max_size_
  | internal p => p.max_size_

/-- The function `IsLeafPage`. -/
def IsLeafPage : TreePage → Bool
  | leaf _ => true
  | internal _ => false

/-- The function `IsRootPage`: the parent page id is `INVALID_PAGE_ID`. -/
def IsRootPage (p : TreePage) : Bool := p.GetParentPageId == INVALID_PAGE_ID

/-- Modelled from the spec: `BPlusTreePage::GetMinSize` is not among the
sources; the spec gives the minimum size of a leaf as `⌈leaf_max_size/2⌉`
and of an internal page as `⌈internal_max_size/2⌉`. -/
def GetMinSize (p : TreePage) : Nat := (p.GetMaxSize + 1) / 2

end TreePage

namespace LeafPage

/-- The function `Init` followed by nothing else: an empty leaf.  The
`next_page_id_` field of the fresh (zeroed) page is set by the caller. -/
def Init (page_id parent_id : page_id_t) (max_size : Nat) (next : page_id_t) : LeafPage :=
  { page_id_ := page_id, parent_page_id_ := parent_id, max_size_ := max_size,
    next_page_id_ := next, array_ := [] }

/-- The first loop of the leaf `Insert`: is `key` among the stored keys. -/
def hasKey (arr : List (KeyType × ValueType)) (key : KeyType) : Bool :=
  arr.any (fun e => comparator_ e.1 key == 0)

/-- The second loop of the leaf `Insert`: the first index whose key does not
compare below `key`. -/
def insertIndex (key : KeyType) : List (KeyType × ValueType) → Nat
  | [] => 0
  | e :: rest => if comparator_ e.1 key == -1 then insertIndex key rest + 1 else 0

/-- The function `BPlusTreeLeafPage::Insert`.  The slots from `index` on move
up by one and the pair is stored at `index`; the read of `array_[index - 1]`
by the last round of the shifting loop is overwritten at once. -/
def Insert (p : LeafPage) (key : KeyType) (value : ValueType) : Except TreeError LeafPage :=
  if p.array_.length < p.max_size_ then
    if hasKey p.array_ key then .ok p
    else
      let index := insertIndex key p.array_
      .ok { p with array_ := p.array_.take index ++ (key, value) :: p.array_.drop index }
  else .error .leafOutOfSize

/-- The function `MoveDataTo(new_page, from, to)`, called on a fresh
`new_page`: the slots `from .. to` are copied to the front of `new_page`,
whose size becomes their number, and the size of this page shrinks by that
number.  The result is this page and the new page. -/
def MoveDataTo (p new_page : LeafPage) (first last : Nat) :
    Except TreeError (LeafPage × LeafPage) :=
  if first ≤ last + 1 ∧ new_page.array_ = [] ∧ (last < p.array_.length ∨ first = last + 1) then
    .ok ({ p with array_ := p.array_.take (p.array_.length - (last + 1 - first)) },
         { new_page with array_ := (p.array_.drop first).take (last + 1 - first) })
  else .error .slotOutOfRange

/-- The loop of the leaf `Remove`: the first entry whose key compares equal
to `key` is dropped, if there is one. -/
def removeKey (key : KeyType) : List (KeyType × ValueType) → List (KeyType × ValueType)
  | [] => []
  | e :: rest => if comparator_ e.1 key != 0 then e :: removeKey key rest else rest

/-- The function `BPlusTreeLeafPage::Remove`. -/
def Remove (p : LeafPage) (key : KeyType) : LeafPage :=
  { p with array_ := removeKey key p.array_ }

/-- The function `BPlusTreeLeafPage::RemoveAt`. -/
def RemoveAt (p : LeafPage) (index : Nat) : Except TreeError LeafPage :=
  if p.array_.length = 0 then .error .slotOutOfRange
  else if index < p.array_.length then .ok { p with array_ := p.array_.eraseIdx index }
  else .ok { p with array_ := p.array_.dropLast }

end LeafPage

namespace InternalPage

/-- Modelled from the spec: `BPlusTreeInternalPage::Insert` is not among the
sources.  The pair `(key, child)` is put in key order among the slots from 1
on (slot 0 has no key), the way the leaf `Insert` does from slot 0 on. -/
def insertSlots (key : KeyType) (value : page_id_t) :
    List (KeyType × page_id_t) → List (KeyType × page_id_t)
  | [] => [(key, value)]
  | e :: rest => if comparator_ e.1 key == -1 then e :: insertSlots key value rest
                 else (key, value) :: e :: rest

/-- Modelled from the spec: `BPlusTreeInternalPage::Insert` is not among the
sources; see `insertSlots`. -/
def Insert (p : InternalPage) (key : KeyType) (value : page_id_t) : InternalPage :=
  match p.array_ with
  | [] => { p with array_ := [(key, value)] }
  | e :: rest => { p with array_ := e :: insertSlots key value rest }

/-- Modelled from the spec: `BPlusTreeInternalPage::FindValue` is not among
the sources; it is the index of the slot whose child is `value`. -/
def FindValue (p : InternalPage) (value : page_id_t) : Except TreeError Nat :=
  match p.array_.findIdx? (fun e => e.2 == value) with
  | some i => .ok i
  | none => .error .slotOutOfRange

/-- Modelled from the spec: `BPlusTreeInternalPage::RemoveAt` is not among
the sources; the slot is deleted and the later slots move down. -/
def RemoveAt (p : InternalPage) (index : Nat) : Except TreeError InternalPage :=
  if index < p.array_.length then .ok { p with array_ := p.array_.eraseIdx index }
  else .error .slotOutOfRange

/-- Modelled from the spec: `KeyAt` and `ValueAt` of the internal page are
not among the sources; they read a slot. -/
def slotAt (p : InternalPage) (index : Nat) : Except TreeError (KeyType × page_id_t) :=
  match p.array_[index]? with
  | some e => .ok e
  | none => .error .slotOutOfRange

/-- Modelled from the spec: `SetKeyAt` of the internal page is not among the
sources; it overwrites the key of a slot. -/
def SetKeyAt (p : InternalPage) (index : Nat) (key : KeyType) : Except TreeError InternalPage :=
  match p.array_[index]? with
  | some e => .ok { p with array_ := p.array_.set index (key, e.2) }
  | none => .error .slotOutOfRange

/-- Modelled from the spec: `SetValueAt` of the internal page is not among
the sources; it overwrites the child of a slot. -/
def SetValueAt (p : InternalPage) (index : Nat) (value : page_id_t) :
    Except TreeError InternalPage :=
  match p.array_[index]? with
  | some e => .ok { p with array_ := p.array_.set index (e.1, value) }
  | none => .error .slotOutOfRange

end InternalPage

/-- State of a `BPlusTree` together with the pages it has created in the
buffer pool (`pages`) and the pool's page-id counter (`next_page_id_`, the id
the next `NewPage` hands out). -/
structure BPlusTree where
  root_page_id_ : page_id_t
  leaf_max_size_ : Nat
  internal_max_size_ : Nat
  pages : page_id_t → Option TreePage
  next_page_id_ : page_id_t

namespace BPlusTree

/-- Constructor: the empty tree.  `first_page_id` is the id the pool hands
out first (page 0 is the header page when the client has allocated it). -/
def new (leaf_max_size internal_max_size : Nat) (first_page_id : page_id_t) : BPlusTree :=
  { root_page_id_ := INVALID_PAGE_ID, leaf_max_size_ := leaf_max_size,
    internal_max_size_ := internal_max_size, pages := fun _ => none,
    next_page_id_ := first_page_id }

/-- The function `IsEmpty`. -/
def IsEmpty (t : BPlusTree) : Bool := t.root_page_id_ == INVALID_PAGE_ID

/-- The call `FetchPage(page_id)` followed by `GetData()`, for the id of a
page of the tree.  `FetchPgImp` has no test of the id: on an id under which
the tree has no page it returns a frame all the same (zeroed, for
`INVALID_PAGE_ID`), and the code uses its bytes as a tree page.  Here such a
call ends with `fetchNoPage`; `Frames.HandleUnderFlow` below goes on as the
code does where `HandleUnderFlow` fetches `INVALID_PAGE_ID`. -/
def fetch (t : BPlusTree) (page_id : page_id_t) : Except TreeError TreePage :=
  match t.pages page_id with
  | some p => .ok p
  | none => .error (.fetchNoPage page_id)

/-- A fetched page used through a `LeafPage *`. -/
def fetchLeaf (t : BPlusTree) (page_id : page_id_t) : Except TreeError LeafPage :=
  match t.pages page_id with
  | some (.leaf p) => .ok p
  | some (.internal _) => .error .wrongPageClass
  | none => .error (.fetchNoPage page_id)

/-- A fetched page used through an `InternalPage *`. -/
def fetchInternal (t : BPlusTree) (page_id : page_id_t) : Except TreeError InternalPage :=
  match t.pages page_id with
  | some (.internal p) => .ok p
  | some (.leaf _) => .error .wrongPageClass
  | none => .error (.fetchNoPage page_id)

/-- A store into the page with id `page_id`. -/
def store (t : BPlusTree) (page_id : page_id_t) (p : TreePage) : BPlusTree :=
  { t with pages := Function.update t.pages page_id (some p) }

/-- The function `UpdateParentPageId`, also the statements
`FetchPage(id)`, `SetParentPageId(parent)` wherever they occur. -/
def UpdateParentPageId (t : BPlusTree) (page_id parent_page_id : page_id_t) :
    Except TreeError BPlusTree :=
  match t.pages page_id with
  | some p => .ok (t.store page_id (p.SetParentPageId parent_page_id))
  | none => .error (.fetchNoPage page_id)

/-- The binary search of `GetLeafPage` in an internal page: the loop
`while (l < r)` with `mid = (l + r) / 2`; the result is the final `l`. -/
def searchLoop (arr : List (KeyType × page_id_t)) (key : KeyType) :
    Nat → Nat → Nat → Except TreeError Nat
  | 0, _, _ => .error .loopForever
  | fuel + 1, l, r =>
    if l < r then
      match arr[(l + r) / 2]? with
      | none => .error .slotOutOfRange
      | some e =>
        if comparator_ e.1 key == 1 then searchLoop arr key fuel l ((l + r) / 2)
        else searchLoop arr key fuel ((l + r) / 2 + 1) r
    else .ok l

/-- The child that `GetLeafPage` follows from an internal page:
`ValueAt(l - 1)` after the binary search from `l = 1`, `r = GetSize()`. -/
def childFor (p : InternalPage) (key : KeyType) : Except TreeError page_id_t :=
  match searchLoop p.array_ key (p.array_.length + 1) 1 p.array_.length with
  | .error e => .error e
  | .ok l =>
    match p.array_[l - 1]? with
    | some e => .ok e.2
    | none => .error .slotOutOfRange

/-- The loop of `GetLeafPage` from the page `page_id` on: the page id of the
leaf reached. -/
def descend (t : BPlusTree) (key : KeyType) : Nat → page_id_t → Except TreeError page_id_t
  | 0, _ => .error .loopForever
  | fuel + 1, page_id =>
    match t.pages page_id with
    | none => .error (.fetchNoPage page_id)
    | some (.leaf _) => .ok page_id
    | some (.internal p) =>
      match childFor p key with
      | .error e => .error e
      | .ok child => descend t key fuel child

/-- A bound on the number of pages of the tree, hence on the rounds of any
loop that visits no page twice: all pages have ids in `[0, next_page_id_)`. -/
def fuel (t : BPlusTree) : Nat := t.next_page_id_.toNat + 1

/-- The function `GetLeafPage`: the page id of the page it returns. -/
def GetLeafPage (t : BPlusTree) (key : KeyType) : Except TreeError page_id_t :=
  descend t key t.fuel t.root_page_id_

/-- The loop of `GetValue` over the leaf: the values whose key compares equal. -/
def matchValues (arr : List (KeyType × ValueType)) (key : KeyType) : List ValueType :=
  (arr.filter (fun e => comparator_ e.1 key == 0)).map Prod.snd

/-- The function `GetValue`: the returned flag and the values appended to
`result`. -/
def GetValue (t : BPlusTree) (key : KeyType) : Except TreeError (Bool × List ValueType) :=
  if t.IsEmpty then .ok (false, [])
  else
    match t.GetLeafPage key with
    | .error e => .error e
    | .ok leaf_id =>
      match t.fetchLeaf leaf_id with
      | .error e => .error e
      | .ok leaf => .ok (LeafPage.hasKey leaf.array_ key, matchValues leaf.array_ key)

/-- The loop over the moved slots in the split of an internal page: every
child moved gets the new page as its parent. -/
def reparent (t : BPlusTree) (parent : page_id_t) :
    List (KeyType × page_id_t) → Except TreeError BPlusTree
  | [] => .ok t
  | e :: rest =>
    match t.UpdateParentPageId e.2 parent with
    | .error err => .error err
    | .ok t1 => reparent t1 parent rest

/-- The loop `while (true)` of `Insert` that hands the separator
`split_key` of the pages `old_tree_page` and `new_tree_page` (given by the
ids under which they were fetched) to their parent, splitting full internal
pages on the way up. -/
def insertInParent : Nat → BPlusTree → page_id_t → page_id_t → KeyType →
    Except TreeError BPlusTree
  | 0, _, _, _, _ => .error .loopForever
  | fuel + 1, t, old_id, new_id, split_key =>
    match t.fetch old_id, t.fetch new_id with
    | .error e, _ => .error e
    | _, .error e => .error e
    | .ok old, .ok new_page =>
      if old.IsRootPage then
        -- a new root with the two pages as children
        let root_id := t.next_page_id_
        let t1 : BPlusTree :=
          { t.store root_id (.internal
              { page_id_ := root_id, parent_page_id_ := INVALID_PAGE_ID,
                max_size_ := t.internal_max_size_,
                array_ := [(split_key, old.GetPageId), (split_key, new_page.GetPageId)] }) with
            root_page_id_ := root_id, next_page_id_ := root_id + 1 }
        match t1.UpdateParentPageId old_id root_id with
        | .error e => .error e
        | .ok t2 => t2.UpdateParentPageId new_id root_id
      else
        let parent_page_id := old.GetParentPageId
        match t.fetchInternal parent_page_id with
        | .error e => .error e
        | .ok parent =>
          let parent1 := parent.Insert split_key new_page.GetPageId
          let t1 := t.store parent_page_id (.internal parent1)
          match t1.UpdateParentPageId new_id parent_page_id with
          | .error e => .error e
          | .ok t2 =>
            if parent1.array_.length ≤ t.internal_max_size_ then .ok t2
            else
              -- the parent splits
              let new_internal_page_id := t2.next_page_id_
              let new_page_size := (t.internal_max_size_ + 1) / 2
              let start_index := parent1.array_.length - new_page_size
              let moved := parent1.array_.drop start_index
              let t3 : BPlusTree :=
                { t2.store new_internal_page_id (.internal
                    { page_id_ := new_internal_page_id, parent_page_id_ := parent1.page_id_,
                      max_size_ := t.internal_max_size_, array_ := moved }) with
                  next_page_id_ := new_internal_page_id + 1 }
              match reparent t3 new_internal_page_id moved with
              | .error e => .error e
              | .ok t4 =>
                match t4.fetchInternal parent_page_id with
                | .error e => .error e
                | .ok parent2 =>
                  let t5 := t4.store parent_page_id
                    (.internal { parent2 with array_ := parent2.array_.take start_index })
                  match moved.head? with
                  | none => .error .slotOutOfRange
                  | some e => insertInParent fuel t5 parent_page_id new_internal_page_id e.1

/-- The function `BPlusTree::Insert`: the tree afterwards and the returned
flag. -/
def Insert (t : BPlusTree) (key : KeyType) (value : ValueType) :
    Except TreeError (BPlusTree × Bool) :=
  if t.IsEmpty then
    let root_id := t.next_page_id_
    .ok ({ t.store root_id (.leaf
            { page_id_ := root_id, parent_page_id_ := INVALID_PAGE_ID,
              max_size_ := t.leaf_max_size_, next_page_id_ := INVALID_PAGE_ID,
              array_ := [(key, value)] }) with
          root_page_id_ := root_id, next_page_id_ := root_id + 1 }, true)
  else
    match t.GetLeafPage key with
    | .error e => .error e
    | .ok leaf_id =>
      match t.fetchLeaf leaf_id with
      | .error e => .error e
      | .ok leaf =>
        if LeafPage.hasKey leaf.array_ key then .ok (t, false)
        else
          match leaf.Insert key value with
          | .error e => .error e
          | .ok leaf1 =>
            if leaf1.array_.length < t.leaf_max_size_ then
              .ok (t.store leaf_id (.leaf leaf1), true)
            else
              -- the leaf splits
              let new_page_id := t.next_page_id_
              let new_leaf := LeafPage.Init new_page_id leaf1.parent_page_id_ t.leaf_max_size_
                leaf1.next_page_id_
              match LeafPage.MoveDataTo { leaf1 with next_page_id_ := new_page_id } new_leaf
                  ((t.leaf_max_size_ + 1) / 2) (t.leaf_max_size_ - 1) with
              | .error e => .error e
              | .ok (leaf2, new_leaf2) =>
                match new_leaf2.array_.head? with
                | none => .error .slotOutOfRange
                | some e =>
                  let t1 : BPlusTree :=
                    { (t.store leaf_id (.leaf leaf2)).store new_page_id (.leaf new_leaf2) with
                      next_page_id_ := new_page_id + 1 }
                  match insertInParent t1.fuel t1 leaf_id new_page_id e.1 with
                  | .error err => .error err
                  | .ok t2 => .ok (t2, true)


/-- The function `GetSiblings`: the ids of the left and of the right sibling
of the page `page` under its parent, `INVALID_PAGE_ID` where there is none. -/
def GetSiblings (t : BPlusTree) (page : TreePage) : Except TreeError (page_id_t × page_id_t) :=
  if page.IsRootPage then .ok (INVALID_PAGE_ID, INVALID_PAGE_ID)
  else
    match t.fetchInternal page.GetParentPageId with
    | .error e => .error e
    | .ok parent =>
      match parent.array_.findIdx? (fun e => e.2 == page.GetPageId) with
      | none => .error .notInParent
      | some index =>
        .ok (if 0 < index then ((parent.array_[index - 1]?).map Prod.snd).getD INVALID_PAGE_ID
             else INVALID_PAGE_ID,
             if index + 1 < parent.array_.length
             then ((parent.array_[index + 1]?).map Prod.snd).getD INVALID_PAGE_ID
             else INVALID_PAGE_ID)

/-- The function `BorrowKey(page, sibling_page, parent_page, is_left)`; the
pages are given by the ids under which they were fetched, `none` is a null
`sibling_page`. -/
def BorrowKey (t : BPlusTree) (page_id : page_id_t) (sibling_id : Option page_id_t)
    (parent_id : page_id_t) (is_left : Bool) : Except TreeError (BPlusTree × Bool) :=
  match sibling_id with
  | none => .ok (t, false)
  | some sibling_id =>
    match t.fetch page_id, t.fetch sibling_id, t.fetchInternal parent_id with
    | .error e, _, _ => .error e
    | _, .error e, _ => .error e
    | _, _, .error e => .error e
    | .ok page, .ok sibling, .ok parent =>
      if sibling.GetSize ≤ sibling.GetMinSize then .ok (t, false)
      else
        let sibling_index_at : Nat :=
          if is_left then sibling.GetSize - 1 else if sibling.IsLeafPage then 0 else 1
        match parent.FindValue page.GetPageId with
        | .error e => .error e
        | .ok found =>
          let parent_index_at := found + (if is_left then 0 else 1)
          match page with
          | .leaf leaf_page =>
            match sibling with
            | .internal _ => .error .wrongPageClass
            | .leaf leaf_page_sibling =>
              match leaf_page_sibling.array_[sibling_index_at]? with
              | none => .error .slotOutOfRange
              | some e =>
                match leaf_page.Insert e.1 e.2, leaf_page_sibling.RemoveAt sibling_index_at with
                | .error err, _ => .error err
                | _, .error err => .error err
                | .ok leaf1, .ok sibling1 =>
                  match (if is_left then leaf1.array_.head? else sibling1.array_.head?) with
                  | none => .error .slotOutOfRange
                  | some first =>
                    let t1 := (t.store page_id (.leaf leaf1)).store sibling_id (.leaf sibling1)
                    match t1.fetchInternal parent_id with
                    | .error err => .error err
                    | .ok parent1 =>
                      match parent1.SetKeyAt parent_index_at first.1 with
                      | .error err => .error err
                      | .ok parent2 => .ok (t1.store parent_id (.internal parent2), true)
          | .internal internal_page =>
            match sibling with
            | .leaf _ => .error .wrongPageClass
            | .internal internal_page_sibling =>
              match internal_page_sibling.slotAt sibling_index_at,
                    parent.slotAt parent_index_at with
              | .error err, _ => .error err
              | _, .error err => .error err
              | .ok update_slot, .ok parent_slot =>
                let moved : Except TreeError (InternalPage × InternalPage × page_id_t) :=
                  if is_left then
                    match internal_page.slotAt 0 with
                    | .error err => .error err
                    | .ok slot0 =>
                      match (internal_page.Insert parent_slot.1 slot0.2).SetValueAt 0
                          update_slot.2 with
                      | .error err => .error err
                      | .ok page1 => .ok (page1, internal_page_sibling, update_slot.2)
                  else
                    match internal_page_sibling.slotAt 0, internal_page_sibling.slotAt 1 with
                    | .error err, _ => .error err
                    | _, .error err => .error err
                    | .ok s0, .ok s1 =>
                      match internal_page_sibling.SetValueAt 0 s1.2 with
                      | .error err => .error err
                      | .ok sibling1 =>
                        .ok ({ internal_page with
                                array_ := internal_page.array_ ++ [(parent_slot.1, s0.2)] },
                             sibling1, s0.2)
                match moved with
                | .error err => .error err
                | .ok (page1, sibling1, child_page_id) =>
                  match sibling1.RemoveAt sibling_index_at with
                  | .error err => .error err
                  | .ok sibling2 =>
                    let t1 := (t.store page_id (.internal page1)).store sibling_id
                      (.internal sibling2)
                    match t1.UpdateParentPageId child_page_id page1.page_id_ with
                    | .error err => .error err
                    | .ok t2 =>
                      match t2.fetchInternal parent_id with
                      | .error err => .error err
                      | .ok parent1 =>
                        match parent1.SetKeyAt parent_index_at update_slot.1 with
                        | .error err => .error err
                        | .ok parent2 => .ok (t2.store parent_id (.internal parent2), true)

/-- The leaf loop of `MergePage`: every entry of the right leaf is inserted
in the left leaf. -/
def mergeLeaf (left : LeafPage) : List (KeyType × ValueType) → Except TreeError LeafPage
  | [] => .ok left
  | e :: rest =>
    match left.Insert e.1 e.2 with
    | .error err => .error err
    | .ok left1 => mergeLeaf left1 rest

/-- The internal loop of `MergePage` over the slots `1 ..` of the right
page: each is inserted in the left page (stored under `left_id`) and its
child gets the left page as parent. -/
def mergeInternal (t : BPlusTree) (left_id : page_id_t) :
    List (KeyType × page_id_t) → Except TreeError BPlusTree
  | [] => .ok t
  | e :: rest =>
    match t.fetchInternal left_id with
    | .error err => .error err
    | .ok left =>
      let t1 := t.store left_id (.internal (left.Insert e.1 e.2))
      match t1.UpdateParentPageId e.2 left.page_id_ with
      | .error err => .error err
      | .ok t2 => mergeInternal t2 left_id rest

/-- The function `MergePage(left_page, right_page, parent_page)`; the pages
are given by the ids under which they were fetched. -/
def MergePage (t : BPlusTree) (left_id right_id parent_id : page_id_t) :
    Except TreeError BPlusTree :=
  match t.fetch left_id, t.fetch right_id, t.fetchInternal parent_id with
  | .error e, _, _ => .error e
  | _, .error e, _ => .error e
  | _, _, .error e => .error e
  | .ok left, .ok right, .ok parent =>
    match left with
    | .leaf left_leaf_page =>
      match right with
      | .internal _ => .error .wrongPageClass
      | .leaf right_leaf_page =>
        match mergeLeaf left_leaf_page right_leaf_page.array_ with
        | .error e => .error e
        | .ok left1 =>
          let t1 := t.store left_id
            (.leaf { left1 with next_page_id_ := right_leaf_page.next_page_id_ })
          match t1.fetchInternal parent_id with
          | .error e => .error e
          | .ok parent1 =>
            match parent1.FindValue right_leaf_page.page_id_ with
            | .error e => .error e
            | .ok index =>
              match parent1.RemoveAt index with
              | .error e => .error e
              | .ok parent2 => .ok (t1.store parent_id (.internal parent2))
    | .internal left_internal_page =>
      match right with
      | .leaf _ => .error .wrongPageClass
      | .internal right_internal_page =>
        match parent.FindValue right_internal_page.page_id_ with
        | .error e => .error e
        | .ok index =>
          match parent.slotAt index, right_internal_page.slotAt 0 with
          | .error e, _ => .error e
          | _, .error e => .error e
          | .ok parent_slot, .ok slot0 =>
            let t1 := t.store left_id
              (.internal (left_internal_page.Insert parent_slot.1 slot0.2))
            match t1.UpdateParentPageId slot0.2 left_internal_page.page_id_ with
            | .error e => .error e
            | .ok t2 =>
              match t2.fetchInternal parent_id with
              | .error e => .error e
              | .ok parent1 =>
                match parent1.FindValue right_internal_page.page_id_ with
                | .error e => .error e
                | .ok index1 =>
                  match parent1.RemoveAt index1 with
                  | .error e => .error e
                  | .ok parent2 =>
                    mergeInternal (t2.store parent_id (.internal parent2)) left_id
                      right_internal_page.array_.tail

/-- The function `HandleUnderFlow(page)`; the page is given by the id under
which it was fetched.  When the page has a left sibling only, the source
fetches `right_sibling_id`, which is `INVALID_PAGE_ID` then: this definition
ends the call there with `fetchNoPage INVALID_PAGE_ID`, although the code
goes on and returns; what the code does from there on is
`Frames.HandleUnderFlow` below.  Whenever this definition returns a state,
`Frames.HandleUnderFlow` returns the same state. -/
def HandleUnderFlow : Nat → BPlusTree → page_id_t → Except TreeError BPlusTree
  | 0, _, _ => .error .loopForever
  | fuel + 1, t, page_id =>
    match t.fetch page_id with
    | .error e => .error e
    | .ok page =>
      if page.IsRootPage then
        if (page.IsLeafPage && page.GetSize == 1) || decide (1 < page.GetSize) then .ok t
        else
          match page with
          | .leaf _ => .error .wrongPageClass
          | .internal old_root_page =>
            match old_root_page.slotAt 0 with
            | .error e => .error e
            | .ok slot0 =>
              ({ t with root_page_id_ := slot0.2 } : BPlusTree).UpdateParentPageId slot0.2
                INVALID_PAGE_ID
      else
        match t.GetSiblings page with
        | .error e => .error e
        | .ok (left_sibling_id, right_sibling_id) =>
          let fetched : Except TreeError (Option page_id_t × Option page_id_t) :=
            if right_sibling_id ≠ INVALID_PAGE_ID then
              match t.fetch right_sibling_id with
              | .error e => .error e
              | .ok _ => .ok (none, some right_sibling_id)
            else if left_sibling_id ≠ INVALID_PAGE_ID then
              match t.fetch right_sibling_id with
              | .error e => .error e
              | .ok _ => .ok (some right_sibling_id, none)
            else .error .noBrotherPage
          match fetched with
          | .error e => .error e
          | .ok (left_page, right_page) =>
            let parent_id := page.GetParentPageId
            match t.BorrowKey page_id left_page parent_id true with
            | .error e => .error e
            | .ok (t1, true) => .ok t1
            | .ok (t1, false) =>
              match t1.BorrowKey page_id right_page parent_id false with
              | .error e => .error e
              | .ok (t2, true) => .ok t2
              | .ok (t2, false) =>
                let merged : Except TreeError BPlusTree :=
                  match left_page, right_page with
                  | some l, _ => t2.MergePage l page_id parent_id
                  | none, some r => t2.MergePage page_id r parent_id
                  | none, none => .error .noBrotherPage
                match merged with
                | .error e => .error e
                | .ok t3 =>
                  match t3.fetch parent_id with
                  | .error e => .error e
                  | .ok parent =>
                    if parent.GetSize < parent.GetMinSize then HandleUnderFlow fuel t3 parent_id
                    else .ok t3

/-- The function `BPlusTree::Remove`. -/
def Remove (t : BPlusTree) (key : KeyType) : Except TreeError BPlusTree :=
  if t.IsEmpty then .ok t
  else
    match t.GetLeafPage key with
    | .error e => .error e
    | .ok leaf_id =>
      match t.fetchLeaf leaf_id with
      | .error e => .error e
      | .ok leaf =>
        let leaf1 := leaf.Remove key
        let t1 := t.store leaf_id (.leaf leaf1)
        if (TreePage.leaf leaf1).IsRootPage then .ok t1
        else if leaf1.array_.length < (TreePage.leaf leaf1).GetMinSize then
          HandleUnderFlow t1.fuel t1 leaf_id
        else .ok t1


/-- The loop of `Begin()`: from the page `page_id` follow `ValueAt(0)` down
to a leaf; the result is the page id of the leftmost leaf. -/
def leftmostLeaf (t : BPlusTree) : Nat → page_id_t → Except TreeError page_id_t
  | 0, _ => .error .loopForever
  | fuel + 1, page_id =>
    match t.pages page_id with
    | none => .error (.fetchNoPage page_id)
    | some (.leaf _) => .ok page_id
    | some (.internal p) =>
      match p.array_.head? with
      | none => .error .slotOutOfRange
      | some e => leftmostLeaf t fuel e.2

/-- The leaves met by following `next_page_id_` from the leaf `page_id` until
`INVALID_PAGE_ID`, as the index iterator does. -/
def leafChain (t : BPlusTree) : Nat → page_id_t → Except TreeError (List LeafPage)
  | 0, _ => .error .loopForever
  | fuel + 1, page_id =>
    if page_id = INVALID_PAGE_ID then .ok []
    else
      match t.fetchLeaf page_id with
      | .error e => .error e
      | .ok leaf =>
        match leafChain t fuel leaf.next_page_id_ with
        | .error e => .error e
        | .ok rest => .ok (leaf :: rest)

/-- The leaves of the tree in the order of the `next_page_id_` chain that
starts at the leftmost leaf. -/
def chainLeaves (t : BPlusTree) : Except TreeError (List LeafPage) :=
  if t.IsEmpty then .ok []
  else
    match leftmostLeaf t t.fuel t.root_page_id_ with
    | .error e => .error e
    | .ok first => leafChain t (t.fuel + 1) first

/-- The entries stored in the leaves of the chain, in the order of the
chain: of every leaf the slots below its size.  The loop of a client over
the index iterator (`iterate` below) reads the same entries when no leaf of
the chain is empty; in an empty leaf it reads the slot 0 beyond the size. -/
def scan (t : BPlusTree) : Except TreeError (List (KeyType × ValueType)) :=
  match t.chainLeaves with
  | .error e => .error e
  | .ok leaves => .ok (leaves.map (fun l => l.array_)).flatten

/-- The tree after a sequence of calls: `(key, some value)` is
`Insert(key, value)`, `(key, none)` is `Remove(key)`. -/
def runCalls (t : BPlusTree) : List (KeyType × Option ValueType) → Except TreeError BPlusTree
  | [] => .ok t
  | (key, some value) :: rest =>
    match t.Insert key value with
    | .error e => .error e
    | .ok (t1, _) => runCalls t1 rest
  | (key, none) :: rest =>
    match t.Remove key with
    | .error e => .error e
    | .ok t1 => runCalls t1 rest

end BPlusTree

/-! ### `FetchPage(INVALID_PAGE_ID)` in `HandleUnderFlow`

`FetchPgImp` has no test of the page id.  Called with `INVALID_PAGE_ID`, under
which no page was ever allocated, it takes a frame, zeroes it with
`ResetMemory`, enters it in the page table under `INVALID_PAGE_ID` and
returns it; `HandleUnderFlow` never unpins that page id, so later calls find
the same frame with what was written to it.  The definitions `fetch` and
`HandleUnderFlow` above end the call at that point; the definitions of
`Frames` go on as the code does, with the frame kept in `pages` under
`INVALID_PAGE_ID`.
-/

namespace BPlusTree

/-- What the code sees in a zeroed frame through a `BPlusTreePage *`:
`page_type_` is not that of a leaf, and size, maximum size, parent page id
and page id are all 0.  Every use of such a frame in `HandleUnderFlow` is
through an `InternalPage *`. -/
def zeroFrame : TreePage :=
  .internal { page_id_ := 0, parent_page_id_ := 0, max_size_ := 0, array_ := [] }

namespace Frames

/-- The call `FetchPage(INVALID_PAGE_ID)`: the frame under `INVALID_PAGE_ID`,
zeroed at the first call. -/
def FetchInvalid (t : BPlusTree) : BPlusTree :=
  match t.pages INVALID_PAGE_ID with
  | some _ => t
  | none => t.store INVALID_PAGE_ID zeroFrame

/-- The function `HandleUnderFlow(page)` with the branch for a page that has
a left sibling only as the source has it: `tmp_page` is
`FetchPage(right_sibling_id)`, that is `FetchPage(INVALID_PAGE_ID)`, and
`left_page` points into that frame.  `BorrowKey(page, left_page, ...)` and
`MergePage(left_page, page, parent_page)` then work on the frame; the left
sibling of the page is not touched.  The frame is not a leaf, so `MergePage`
takes its second branch and reads `page` through an `InternalPage *`: when
`page` is a leaf, what is read depends on the memory layout of the two page
classes, and the call ends with `wrongPageClass` here. -/
def HandleUnderFlow : Nat → BPlusTree → page_id_t → Except TreeError BPlusTree
  | 0, _, _ => .error .loopForever
  | fuel + 1, t, page_id =>
    match t.fetch page_id with
    | .error e => .error e
    | .ok page =>
      if page.IsRootPage then
        if (page.IsLeafPage && page.GetSize == 1) || decide (1 < page.GetSize) then .ok t
        else
          match page with
          | .leaf _ => .error .wrongPageClass
          | .internal old_root_page =>
            match old_root_page.slotAt 0 with
            | .error e => .error e
            | .ok slot0 =>
              ({ t with root_page_id_ := slot0.2 } : BPlusTree).UpdateParentPageId slot0.2
                INVALID_PAGE_ID
      else
        match t.GetSiblings page with
        | .error e => .error e
        | .ok (left_sibling_id, right_sibling_id) =>
          let fetched : Except TreeError (BPlusTree × Option page_id_t × Option page_id_t) :=
            if right_sibling_id ≠ INVALID_PAGE_ID then
              match t.fetch right_sibling_id with
              | .error e => .error e
              | .ok _ => .ok (t, none, some right_sibling_id)
            else if left_sibling_id ≠ INVALID_PAGE_ID then
              .ok (FetchInvalid t, some right_sibling_id, none)
            else .error .noBrotherPage
          match fetched with
          | .error e => .error e
          | .ok (t0, left_page, right_page) =>
            let parent_id := page.GetParentPageId
            match t0.BorrowKey page_id left_page parent_id true with
            | .error e => .error e
            | .ok (t1, true) => .ok t1
            | .ok (t1, false) =>
              match t1.BorrowKey page_id right_page parent_id false with
              | .error e => .error e
              | .ok (t2, true) => .ok t2
              | .ok (t2, false) =>
                let merged : Except TreeError BPlusTree :=
                  match left_page, right_page with
                  | some l, _ => t2.MergePage l page_id parent_id
                  | none, some r => t2.MergePage page_id r parent_id
                  | none, none => .error .noBrotherPage
                match merged with
                | .error e => .error e
                | .ok t3 =>
                  match t3.fetch parent_id with
                  | .error e => .error e
                  | .ok parent =>
                    if parent.GetSize < parent.GetMinSize then HandleUnderFlow fuel t3 parent_id
                    else .ok t3

/-- The function `BPlusTree::Remove`, on `Frames.HandleUnderFlow`. -/
def Remove (t : BPlusTree) (key : KeyType) : Except TreeError BPlusTree :=
  if t.IsEmpty then .ok t
  else
    match t.GetLeafPage key with
    | .error e => .error e
    | .ok leaf_id =>
      match t.fetchLeaf leaf_id with
      | .error e => .error e
      | .ok leaf =>
        let leaf1 := leaf.Remove key
        let t1 := t.store leaf_id (.leaf leaf1)
        if (TreePage.leaf leaf1).IsRootPage then .ok t1
        else if leaf1.array_.length < (TreePage.leaf leaf1).GetMinSize then
          HandleUnderFlow t1.fuel t1 leaf_id
        else .ok t1

/-- The tree after a sequence of calls, as `BPlusTree.runCalls`, with
`Frames.Remove` for `Remove(key)`. -/
def runCalls (t : BPlusTree) : List (KeyType × Option ValueType) → Except TreeError BPlusTree
  | [] => .ok t
  | (key, some value) :: rest =>
    match t.Insert key value with
    | .error e => .error e
    | .ok (t1, _) => runCalls t1 rest
  | (key, none) :: rest =>
    match Remove t key with
    | .error e => .error e
    | .ok t1 => runCalls t1 rest

end Frames

/-- The error with which a call ends, `none` when it returns. -/
def errorOf {α : Type} : Except TreeError α → Option TreeError
  | .error e => some e
  | .ok _ => none

end BPlusTree

/-- Equality of the results of calls is decidable when that of the values
is. -/
instance instDecidableEqExcept {ε α : Type} [DecidableEq ε] [DecidableEq α] :
    DecidableEq (Except ε α)
  | .ok a, .ok b => if h : a = b then isTrue (by rw [h]) else isFalse (fun e => h (by injection e))
  | .error a, .error b =>
    if h : a = b then isTrue (by rw [h]) else isFalse (fun e => h (by injection e))
  | .ok _, .error _ => isFalse (fun e => by cases e)
  | .error _, .ok _ => isFalse (fun e => by cases e)

/-- The class `IndexIterator`: the page id of the current leaf and the index
of the current entry in it; `page_null` is `page_ == nullptr`.  The pointers
`page_` and `leaf_page_` point into the frame that `FetchPage(page_id_)`
returned, so a read through them reads what the pool has for the page
`page_id_`.  Pins are left out, as for the tree. -/
structure IndexIterator where
  page_id_ : page_id_t
  index_in_leaf_ : Int
  page_null : Bool
  deriving DecidableEq, Repr

namespace IndexIterator

/-- Constructor `IndexIterator(page_id, bpm, index_in_leaf)`: `FetchPage`
returns a frame, whatever the page id, so `page_` is not null. -/
def new (page_id : page_id_t) (index_in_leaf : Int) : IndexIterator :=
  { page_id_ := page_id, index_in_leaf_ := index_in_leaf, page_null := false }

/-- The function `IsEnd`. -/
def IsEnd (it : IndexIterator) : Bool := it.page_id_ == INVALID_PAGE_ID

/-- The operator `operator==`: only the page ids are compared. -/
def equals (it itr : IndexIterator) : Bool := it.page_id_ == itr.page_id_

/-- The operator `operator*`: `leaf_page_->GetKeyValueAt(index_in_leaf_)`. -/
def deref (t : BPlusTree) (it : IndexIterator) : Except TreeError (KeyType × ValueType) :=
  if it.page_null then .error .nullPointer
  else
    match t.fetchLeaf it.page_id_ with
    | .error e => .error e
    | .ok leaf =>
      if it.index_in_leaf_ < 0 then .error .slotOutOfRange
      else
        match leaf.array_[it.index_in_leaf_.toNat]? with
        | some e => .ok e
        | none => .error .slotOutOfRange

/-- The operator `operator++`. -/
def advance (t : BPlusTree) (it : IndexIterator) : Except TreeError IndexIterator :=
  if it.page_null then .ok it
  else
    match t.fetchLeaf it.page_id_ with
    | .error e => .error e
    | .ok leaf =>
      if it.index_in_leaf_ < (leaf.array_.length : Int) - 1 then
        .ok { it with index_in_leaf_ := it.index_in_leaf_ + 1 }
      else if leaf.next_page_id_ = INVALID_PAGE_ID then
        .ok { page_id_ := INVALID_PAGE_ID, index_in_leaf_ := 0, page_null := true }
      else
        .ok { page_id_ := leaf.next_page_id_, index_in_leaf_ := 0, page_null := false }

end IndexIterator

namespace BPlusTree

/-- The function `Begin()`: the iterator at index 0 of the leaf that the loop
reaches, under the page id that the leaf page stores. -/
def Begin (t : BPlusTree) : Except TreeError IndexIterator :=
  match leftmostLeaf t t.fuel t.root_page_id_ with
  | .error e => .error e
  | .ok leaf_id =>
    match t.fetch leaf_id with
    | .error e => .error e
    | .ok tree_page => .ok (IndexIterator.new tree_page.GetPageId 0)

/-- The loop of `Begin(key)` over the leaf: the index of the first entry
whose key compares equal to `key`, 0 when there is none. -/
def beginIndex (arr : List (KeyType × ValueType)) (key : KeyType) : Nat :=
  (arr.findIdx? (fun e => comparator_ e.1 key == 0)).getD 0

/-- The function `Begin(key)`. -/
def BeginAt (t : BPlusTree) (key : KeyType) : Except TreeError IndexIterator :=
  match t.GetLeafPage key with
  | .error e => .error e
  | .ok leaf_id =>
    match t.fetchLeaf leaf_id with
    | .error e => .error e
    | .ok leaf_page => .ok (IndexIterator.new leaf_id (beginIndex leaf_page.array_ key))

/-- The function `End()`. -/
def End (_t : BPlusTree) : IndexIterator := IndexIterator.new INVALID_PAGE_ID 0

/-- The loop `for (it = ...; it != End(); ++it)` of a client that reads `*it`
in every round: the entries read and the iterator at the end. -/
def iterate (t : BPlusTree) :
    Nat → IndexIterator → Except TreeError (List (KeyType × ValueType) × IndexIterator)
  | 0, _ => .error .loopForever
  | fuel + 1, it =>
    if it.equals t.End then .ok ([], it)
    else
      match it.deref t with
      | .error e => .error e
      | .ok kv =>
        match it.advance t with
        | .error e => .error e
        | .ok it1 =>
          match iterate t fuel it1 with
          | .error e => .error e
          | .ok (rest, last) => .ok (kv :: rest, last)

end BPlusTree

/-! ## The calls of the B+ tree and of the index iterator on the buffer pool -/

/-- Modelled from the spec: the constant `HEADER_PAGE_ID` of `config.h` is
not among the sources; the comment of `UpdateRootPageId` gives the header
page the page id 0. -/
def HEADER_PAGE_ID : page_id_t := 0

namespace IndexIterator

variable {D : Type}

/-- The calls on the buffer pool of the constructor
`IndexIterator(page_id, bpm, index_in_leaf)`. -/
def newCalls (page_id : page_id_t) : List (BufferPoolManagerInstance.Op D) :=
  [.fetchPage page_id]

/-- The calls on the buffer pool of `operator++`; the destructor makes
none. -/
def advanceCalls (t : BPlusTree) (it : IndexIterator) :
    Except TreeError (List (BufferPoolManagerInstance.Op D)) :=
  if it.page_null then .ok []
  else
    match t.fetchLeaf it.page_id_ with
    | .error e => .error e
    | .ok leaf =>
      if it.index_in_leaf_ < (leaf.array_.length : Int) - 1 then .ok []
      else if leaf.next_page_id_ = INVALID_PAGE_ID then .ok [.unpinPage it.page_id_ false]
      else .ok [.fetchPage leaf.next_page_id_, .unpinPage it.page_id_ false]

end IndexIterator

namespace BPlusTree

variable {D : Type}

/-- The calls on the buffer pool of `Begin()`, from the page `page_id` on:
every page on the way is fetched, an internal page is unpinned again, and the
constructor of the iterator fetches the leaf once more. -/
def BeginCalls (t : BPlusTree) :
    Nat → page_id_t → Except TreeError (List (BufferPoolManagerInstance.Op D))
  | 0, _ => .error .loopForever
  | fuel + 1, page_id =>
    match t.pages page_id with
    | none => .error (.fetchNoPage page_id)
    | some (.leaf l) => .ok (.fetchPage page_id :: IndexIterator.newCalls l.page_id_)
    | some (.internal p) =>
      match p.array_.head? with
      | none => .error .slotOutOfRange
      | some e =>
        match BeginCalls t fuel e.2 with
        | .error err => .error err
        | .ok rest => .ok (.fetchPage page_id :: .unpinPage p.page_id_ false :: rest)

/-- The calls on the buffer pool of `End()`. -/
def EndCalls : List (BufferPoolManagerInstance.Op D) := IndexIterator.newCalls INVALID_PAGE_ID

/-- The calls on the buffer pool of `GetLeafPage(key, Operation::Read, ..)`
from the page `page_id` on, with the page `prev_page` fetched before it, and
the id of the leaf. -/
def GetLeafPageReadCalls (t : BPlusTree) (key : KeyType) :
    Nat → page_id_t → Option page_id_t →
      Except TreeError (List (BufferPoolManagerInstance.Op D) × page_id_t)
  | 0, _, _ => .error .loopForever
  | fuel + 1, page_id, prev_page =>
    match t.pages page_id with
    | none => .error (.fetchNoPage page_id)
    | some page =>
      let here : List (BufferPoolManagerInstance.Op D) :=
        .fetchPage page_id ::
          (match prev_page with
           | none => []
           | some q => [.unpinPage q false])
      match page with
      | .leaf _ => .ok (here, page_id)
      | .internal p =>
        match childFor p key with
        | .error e => .error e
        | .ok child =>
          match GetLeafPageReadCalls t key fuel child (some page_id) with
          | .error e => .error e
          | .ok (calls, leaf_id) => .ok (here ++ calls, leaf_id)

/-- The calls on the buffer pool of `Begin(key)`. -/
def BeginAtCalls (t : BPlusTree) (key : KeyType) :
    Except TreeError (List (BufferPoolManagerInstance.Op D)) :=
  match GetLeafPageReadCalls t key t.fuel t.root_page_id_ none with
  | .error e => .error e
  | .ok (calls, leaf_id) => .ok (calls ++ IndexIterator.newCalls leaf_id)

/-- The calls on the buffer pool of `GetValue`. -/
def GetValueCalls (t : BPlusTree) (key : KeyType) :
    Except TreeError (List (BufferPoolManagerInstance.Op D)) :=
  if t.IsEmpty then .ok []
  else
    match GetLeafPageReadCalls t key t.fuel t.root_page_id_ none with
    | .error e => .error e
    | .ok (calls, leaf_id) => .ok (calls ++ [.unpinPage leaf_id false])

/-- The calls on the buffer pool of `ReleaseWLatches`: every page of the
page set is unpinned (the null entry, which stands for the root latch, is
left out of `page_set`). -/
def ReleaseWLatchesCalls (page_set : List page_id_t) : List (BufferPoolManagerInstance.Op D) :=
  page_set.map (fun p => .unpinPage p true)

/-- The calls on the buffer pool of `UpdateRootPageId`. -/
def UpdateRootPageIdCalls : List (BufferPoolManagerInstance.Op D) :=
  [.fetchPage HEADER_PAGE_ID, .unpinPage HEADER_PAGE_ID true]

/-- The function `IsSafePage` for `Operation::Insert`. -/
def IsSafeInsert (page : TreePage) : Bool :=
  match page with
  | .leaf l => decide ((l.array_.length : Int) < (l.max_size_ : Int) - 1)
  | .internal p => decide (p.array_.length < p.max_size_)

/-- The calls on the buffer pool of `GetLeafPage(key, Operation::Insert, ..)`
from the page `page_id` on with the page set `page_set`, the page set at the
return, and the id of the leaf: a safe page releases the pages of the set
before it joins it. -/
def GetLeafPageInsertCalls (t : BPlusTree) (key : KeyType) :
    Nat → page_id_t → List page_id_t →
      Except TreeError (List (BufferPoolManagerInstance.Op D) × List page_id_t × page_id_t)
  | 0, _, _ => .error .loopForever
  | fuel + 1, page_id, page_set =>
    match t.pages page_id with
    | none => .error (.fetchNoPage page_id)
    | some page =>
      let released : List (BufferPoolManagerInstance.Op D) :=
        if IsSafeInsert page then ReleaseWLatchesCalls page_set else []
      let page_set1 := (if IsSafeInsert page then [] else page_set) ++ [page_id]
      match page with
      | .leaf _ => .ok (.fetchPage page_id :: released, page_set1, page_id)
      | .internal p =>
        match childFor p key with
        | .error e => .error e
        | .ok child =>
          match GetLeafPageInsertCalls t key fuel child page_set1 with
          | .error e => .error e
          | .ok (calls, page_set2, leaf_id) =>
            .ok (.fetchPage page_id :: released ++ calls, page_set2, leaf_id)

/-- The calls on the buffer pool of the loop over the moved slots in the
split of an internal page: every child is fetched and unpinned. -/
def reparentCalls (t : BPlusTree) :
    List (KeyType × page_id_t) → Except TreeError (List (BufferPoolManagerInstance.Op D))
  | [] => .ok []
  | e :: rest =>
    match t.fetch e.2 with
    | .error err => .error err
    | .ok tree_page =>
      match reparentCalls t rest with
      | .error err => .error err
      | .ok calls => .ok (.fetchPage e.2 :: .unpinPage tree_page.GetPageId true :: calls)

end BPlusTree

namespace BPlusTree

variable {D : Type}

/-- The calls on the buffer pool of the loop `while (true)` of `Insert` and
of the `UnpinPage(new_tree_page->GetPageId(), true)` after it; the states are
those of `insertInParent`. -/
def insertInParentCalls : Nat → BPlusTree → page_id_t → page_id_t → KeyType →
    Except TreeError (List (BufferPoolManagerInstance.Op D))
  | 0, _, _, _, _ => .error .loopForever
  | fuel + 1, t, old_id, new_id, split_key =>
    match t.fetch old_id, t.fetch new_id with
    | .error e, _ => .error e
    | _, .error e => .error e
    | .ok old, .ok new_page =>
      if old.IsRootPage then
        .ok (.newPage :: UpdateRootPageIdCalls ++
          [.unpinPage t.next_page_id_ true, .unpinPage new_page.GetPageId true])
      else
        let parent_page_id := old.GetParentPageId
        match t.fetchInternal parent_page_id with
        | .error e => .error e
        | .ok parent =>
          let parent1 := parent.Insert split_key new_page.GetPageId
          let t1 := t.store parent_page_id (.internal parent1)
          match t1.UpdateParentPageId new_id parent_page_id with
          | .error e => .error e
          | .ok t2 =>
            if parent1.array_.length ≤ t.internal_max_size_ then
              .ok [.fetchPage parent_page_id, .unpinPage parent_page_id true,
                .unpinPage new_page.GetPageId true]
            else
              let new_internal_page_id := t2.next_page_id_
              let new_page_size := (t.internal_max_size_ + 1) / 2
              let start_index := parent1.array_.length - new_page_size
              let moved := parent1.array_.drop start_index
              let t3 : BPlusTree :=
                { t2.store new_internal_page_id (.internal
                    { page_id_ := new_internal_page_id, parent_page_id_ := parent1.page_id_,
                      max_size_ := t.internal_max_size_, array_ := moved }) with
                  next_page_id_ := new_internal_page_id + 1 }
              match reparentCalls t3 moved, reparent t3 new_internal_page_id moved with
              | .error e, _ => .error e
              | _, .error e => .error e
              | .ok moved_calls, .ok t4 =>
                match t4.fetchInternal parent_page_id with
                | .error e => .error e
                | .ok parent2 =>
                  let t5 := t4.store parent_page_id
                    (.internal { parent2 with array_ := parent2.array_.take start_index })
                  match moved.head? with
                  | none => .error .slotOutOfRange
                  | some e =>
                    match insertInParentCalls fuel t5 parent_page_id new_internal_page_id
                        e.1 with
                    | .error err => .error err
                    | .ok calls =>
                      .ok (.fetchPage parent_page_id :: .newPage :: moved_calls ++
                        .unpinPage new_page.GetPageId true :: calls)

/-- The calls on the buffer pool of `Insert`, in the order in which the
function makes them. -/
def InsertCalls (t : BPlusTree) (key : KeyType) (value : ValueType) :
    Except TreeError (List (BufferPoolManagerInstance.Op D)) :=
  if t.IsEmpty then
    .ok (.newPage :: UpdateRootPageIdCalls ++ [.unpinPage t.next_page_id_ true])
  else
    match GetLeafPageInsertCalls t key t.fuel t.root_page_id_ [] with
    | .error e => .error e
    | .ok (calls, page_set, leaf_id) =>
      match t.fetchLeaf leaf_id with
      | .error e => .error e
      | .ok leaf =>
        if LeafPage.hasKey leaf.array_ key then .ok (calls ++ ReleaseWLatchesCalls page_set)
        else
          match leaf.Insert key value with
          | .error e => .error e
          | .ok leaf1 =>
            if leaf1.array_.length < t.leaf_max_size_ then
              .ok (calls ++ .unpinPage leaf1.page_id_ true :: ReleaseWLatchesCalls page_set)
            else
              let new_page_id := t.next_page_id_
              let new_leaf := LeafPage.Init new_page_id leaf1.parent_page_id_ t.leaf_max_size_
                leaf1.next_page_id_
              match LeafPage.MoveDataTo { leaf1 with next_page_id_ := new_page_id } new_leaf
                  ((t.leaf_max_size_ + 1) / 2) (t.leaf_max_size_ - 1) with
              | .error e => .error e
              | .ok (leaf2, new_leaf2) =>
                match new_leaf2.array_.head? with
                | none => .error .slotOutOfRange
                | some e =>
                  let t1 : BPlusTree :=
                    { (t.store leaf_id (.leaf leaf2)).store new_page_id (.leaf new_leaf2) with
                      next_page_id_ := new_page_id + 1 }
                  match insertInParentCalls t1.fuel t1 leaf_id new_page_id e.1 with
                  | .error err => .error err
                  | .ok more => .ok (calls ++ .newPage :: more ++ ReleaseWLatchesCalls page_set)

/-- The pin count of the frame that holds the page `page_id`, `none` when the
page is not in the pool. -/
def pinCountOf (s : BufferPoolManagerInstance D) (page_id : page_id_t) : Option Nat :=
  match s.page_table_ page_id with
  | none => none
  | some f => (s.pages_[f]?).map (fun page => page.pin_count_)

end BPlusTree

namespace BPlusTree

variable {D : Type}

/-- The calls on the buffer pool of a sequence of `Insert` calls, one after
the other. -/
def InsertsCalls (t : BPlusTree) :
    List (KeyType × ValueType) → Except TreeError (List (BufferPoolManagerInstance.Op D))
  | [] => .ok []
  | (key, value) :: rest =>
    match InsertCalls t key value, t.Insert key value with
    | .error e, _ => .error e
    | _, .error e => .error e
    | .ok calls, .ok (t1, _) =>
      match InsertsCalls t1 rest with
      | .error e => .error e
      | .ok more => .ok (calls ++ more)

end BPlusTree

/-! ## The root latch, safe pages, and the slots that the leaf `Insert` touches -/

/-- Modelled from the spec: the enumeration `Operation` of `b_plus_tree.h` is
not among the sources; `GetLeafPage` and `IsSafePage` name its values `Read`,
`Insert` and `Delete`. -/
inductive Operation where
  | Read
  | Insert
  | Delete
  deriving DecidableEq, Repr

/-- The function `IsSafePage(tree_page, op)`.  For `Operation::Delete` on a
page that is not the root the source has `return tree_page->GetMinSize();`:
the integer is converted to `bool`, true when it is not 0. -/
def IsSafePage (tree_page : TreePage) (op : Operation) : Bool :=
  match op with
  | .Read => true
  | .Insert =>
    if tree_page.IsLeafPage then
      decide ((tree_page.GetSize : Int) < (tree_page.GetMaxSize : Int) - 1)
    else decide (tree_page.GetSize < tree_page.GetMaxSize)
  | .Delete =>
    if tree_page.IsRootPage then
      if tree_page.IsLeafPage then decide (1 < tree_page.GetSize)
      else decide (2 < tree_page.GetSize)
    else decide (tree_page.GetMinSize ≠ 0)

/-- Modelled from the spec: the class `ReaderWriterLatch` of `rwlatch.h` is
not among the sources; as the spec has it, `root_latch_` is a reader count
and a writer flag. -/
structure RootLatch where
  readers : Nat
  writer : Bool
  deriving DecidableEq, Repr

/-- The calls on `root_latch_`. -/
inductive LatchOp where
  | rLock
  | rUnlock
  | wLock
  | wUnlock
  deriving DecidableEq, Repr

namespace RootLatch

/-- Modelled from the spec: the latch after a call made by the one thread
there is; `none` when the call cannot go through: `RLock` while the writer
flag is set, `WLock` while the flag is set or a reader is counted, and an
unlock of what is not locked. -/
def apply (l : RootLatch) : LatchOp → Option RootLatch
  | .rLock => if l.writer then none else some { l with readers := l.readers + 1 }
  | .rUnlock => if l.readers = 0 then none else some { l with readers := l.readers - 1 }
  | .wLock => if l.writer || decide (l.readers ≠ 0) then none else some { l with writer := true }
  | .wUnlock => if l.writer then some { l with writer := false } else none

/-- The latch after a sequence of calls. -/
def run (l : RootLatch) : List LatchOp → Option RootLatch
  | [] => some l
  | op :: rest =>
    match l.apply op with
    | none => none
    | some l1 => run l1 rest

end RootLatch

namespace BPlusTree

/-- The calls on `root_latch_` of `GetLeafPage(key, Operation::Read, ..)`: the
first round of the loop, where `prev_page` is null, calls `RUnlock` after it
has fetched and latched the root page; the later rounds release the latch of
the page before. -/
def GetLeafPageReadLatchOps (t : BPlusTree) (key : KeyType) : Except TreeError (List LatchOp) :=
  match t.GetLeafPage key with
  | .error e => .error e
  | .ok _ => .ok [.rUnlock]

/-- The calls on `root_latch_` of `GetValue`: `RLock` twice, then on the
empty tree one `RUnlock` before `return false`, and else the calls of
`GetLeafPage` and the `RUnlock` before `return ret`. -/
def GetValueLatchOps (t : BPlusTree) (key : KeyType) : Except TreeError (List LatchOp) :=
  if t.IsEmpty then .ok [.rLock, .rLock, .rUnlock]
  else
    match t.GetLeafPageReadLatchOps key with
    | .error e => .error e
    | .ok ops => .ok ([.rLock, .rLock] ++ ops ++ [.rUnlock])

end BPlusTree

namespace IndexIterator

/-- The operator `operator!=`: only the page ids are compared. -/
def notEquals (it itr : IndexIterator) : Bool := it.page_id_ != itr.page_id_

end IndexIterator

namespace LeafPage

/-- The slots read by the first loop of the leaf `Insert`, from the slot `i`
on: `KeyAt(i)` is read until a key compares equal. -/
def eqScanReads (key : KeyType) : List (KeyType × ValueType) → Nat → List Int
  | [], _ => []
  | e :: rest, i =>
    (i : Int) :: (if comparator_ e.1 key == 0 then [] else eqScanReads key rest (i + 1))

/-- The slots read by the second loop of the leaf `Insert`, from the slot
`index` on: `KeyAt(index)` is read while `index < GetSize()`, until a key
does not compare below `key`. -/
def ltScanReads (key : KeyType) : List (KeyType × ValueType) → Nat → List Int
  | [], _ => []
  | e :: rest, index =>
    (index : Int) :: (if comparator_ e.1 key == -1 then ltScanReads key rest (index + 1) else [])

/-- The third loop of the leaf `Insert`,
`for (int i = GetSize(); i >= index; i--) array_[i] = array_[i - 1];`, from
`i` on: every round reads the slot `i - 1` and writes the slot `i`. -/
def shiftLoop (index : Int) : Nat → Int → List (Int × Int)
  | 0, _ => []
  | fuel + 1, i => if index ≤ i then (i - 1, i) :: shiftLoop index fuel (i - 1) else []

/-- The slots of `array_` that the leaf `Insert` reads and the slots that it
writes, in the order of the accesses; the last write is
`SetKeyValueAt(index, key, value)`. -/
def InsertAccess (p : LeafPage) (key : KeyType) : Except TreeError (List Int × List Int) :=
  if p.array_.length < p.max_size_ then
    if hasKey p.array_ key then .ok (eqScanReads key p.array_ 0, [])
    else
      let index := insertIndex key p.array_
      let shifts := shiftLoop index (p.array_.length + 1) p.array_.length
      .ok (eqScanReads key p.array_ 0 ++ ltScanReads key p.array_ 0 ++ shifts.map Prod.fst,
           shifts.map Prod.snd ++ [(index : Int)])
  else .error .leafOutOfSize

end LeafPage

namespace BufferPoolManagerInstance

variable {D : Type}

/-- The page ids that the `NewPage` calls of a sequence of calls hand out, in
order; a `NewPage` that returns null hands out none. -/
def newPageIds [Zero D] (s : BufferPoolManagerInstance D) : List (Op D) → List page_id_t
  | [] => []
  | .newPage :: rest =>
    match NewPgImp s with
    | none => []
    | some (s1, none) => newPageIds s1 rest
    | some (s1, some (page_id, _)) => page_id :: newPageIds s1 rest
  | op :: rest =>
    match applyOp s op with
    | none => []
    | some s1 => newPageIds s1 rest

end BufferPoolManagerInstance

/-! ### The order invariant of the B+ tree

The pages that make up the tree, the tree states reached by calls, and the
invariant that the calls keep: every page of the tree is responsible for a
range of keys, the slots of an internal page hand its range out to the
children without gap or overlap, and the leaf after a leaf in the chain is
the leaf with the next range.
-/

namespace BPlusTree

/-- The pages of the tree: the root page and the pages found from it through
child pointers. -/
inductive TreeNode (t : BPlusTree) : page_id_t → Prop
  | root : t.IsEmpty = false → TreeNode t t.root_page_id_
  | child {p : page_id_t} {ip : InternalPage} {e : KeyType × page_id_t} :
      TreeNode t p → t.pages p = some (.internal ip) → e ∈ ip.array_ → TreeNode t e.2

/-- The tree states reached from the empty tree by calls of `Insert` and
`Remove` that return without a failed assertion and without a fetch of a
page id that is no page of the tree.  The states that the code reaches after
`HandleUnderFlow` has fetched `INVALID_PAGE_ID` (see `Frames.runCalls`) are
not among them. -/
inductive Reachable (leaf_max_size internal_max_size : Nat) (first_page_id : page_id_t) :
    BPlusTree → Prop
  | init : Reachable leaf_max_size internal_max_size first_page_id
      (BPlusTree.new leaf_max_size internal_max_size first_page_id)
  | insert {t t1 : BPlusTree} {key : KeyType} {value : ValueType} {b : Bool} :
      Reachable leaf_max_size internal_max_size first_page_id t →
      t.Insert key value = .ok (t1, b) →
      Reachable leaf_max_size internal_max_size first_page_id t1
  | remove {t t1 : BPlusTree} {key : KeyType} :
      Reachable leaf_max_size internal_max_size first_page_id t →
      t.Remove key = .ok t1 →
      Reachable leaf_max_size internal_max_size first_page_id t1

/-- The parent page id stored in the page `p` (`INVALID_PAGE_ID` when there
is no such page). -/
def parentOf (t : BPlusTree) (p : page_id_t) : page_id_t :=
  match t.pages p with
  | some pg => pg.GetParentPageId
  | none => INVALID_PAGE_ID

/-- The page `p` is a leaf page. -/
def IsLeaf (t : BPlusTree) (p : page_id_t) : Prop := ∃ l, t.pages p = some (.leaf l)

/-- Bookkeeping for the proof, not part of the program state: the set `S` of
pages that make up the tree, the height `ht` of each, and the key range
`[lo, hi)` each is responsible for (`none` is no bound on that side). -/
structure Ghost where
  S : page_id_t → Prop
  ht : page_id_t → Nat
  lo : page_id_t → Option KeyType
  hi : page_id_t → Option KeyType

/-- The key `x` is not below the lower bound. -/
def geLo (lo : Option KeyType) (x : KeyType) : Prop := ∀ a, lo = some a → a ≤ x

/-- The key `x` is below the upper bound. -/
def ltHi (hi : Option KeyType) (x : KeyType) : Prop := ∀ b, hi = some b → x < b

/-- The range `[lo, hi)` is not empty. -/
def ltRange (lo hi : Option KeyType) : Prop := ∀ a b, lo = some a → hi = some b → a < b

/-- The lower bound `x` lies strictly below the lower bound `y`. -/
def loLT (x y : Option KeyType) : Prop := ∃ b, y = some b ∧ ∀ a, x = some a → a < b

/-- The page `c` is in the tree as a child of the page `P`. -/
def IsChild (t : BPlusTree) (g : Ghost) (P c : page_id_t) : Prop :=
  g.S c ∧ parentOf t c = P ∧ g.ht c + 1 = g.ht P

/-- The slots `1 ..` of an internal page `P`, from the upper bound `m` of the
child before them to the upper bound `h` of the page: each key is the lower
bound of its child and the upper bound of the child before.  The upper bound
of a child is read through `eh`. -/
def SlotsK (t : BPlusTree) (g : Ghost) (eh : page_id_t → Option KeyType) (P : page_id_t) :
    Option KeyType → List (KeyType × page_id_t) → Option KeyType → Prop
  | m, [], h => m = h
  | m, e :: rest, h =>
    m = some e.1 ∧ IsChild t g P e.2 ∧ g.lo e.2 = some e.1 ∧ SlotsK t g eh P (eh e.2) rest h

/-- What the invariant asks of a leaf page `l` stored under `p`. -/
structure LeafOK (t : BPlusTree) (g : Ghost) (p : page_id_t) (l : LeafPage) : Prop where
  max_size : l.max_size_ = t.leaf_max_size_
  sorted : l.array_.Pairwise (fun a b => a.1 < b.1)
  inside : ∀ e ∈ l.array_, geLo (g.lo p) e.1 ∧ ltHi (g.hi p) e.1
  last : g.hi p = none → l.next_page_id_ = INVALID_PAGE_ID
  next : ∀ b, g.hi p = some b →
    g.S l.next_page_id_ ∧ IsLeaf t l.next_page_id_ ∧ g.lo l.next_page_id_ = some b

/-- What the invariant asks of the slots `arr` of an internal page stored
under `p`. -/
def KidsOK (t : BPlusTree) (g : Ghost) (eh : page_id_t → Option KeyType) (p : page_id_t)
    (arr : List (KeyType × page_id_t)) : Prop :=
  ∃ e rest, arr = e :: rest ∧ IsChild t g p e.2 ∧ g.lo e.2 = g.lo p ∧
    SlotsK t g eh p (eh e.2) rest (g.hi p)

/-- What the invariant asks of the parent pointer of the page `p`. -/
structure UpOK (t : BPlusTree) (g : Ghost) (p : page_id_t) : Prop where
  top : parentOf t p = INVALID_PAGE_ID → p = t.root_page_id_
  inner : parentOf t p ≠ INVALID_PAGE_ID →
    g.S (parentOf t p) ∧
    ∃ ip, t.pages (parentOf t p) = some (.internal ip) ∧ p ∈ ip.array_.map Prod.snd

/-- What the invariant asks of a page `p` of the tree. -/
structure NodeOK (t : BPlusTree) (g : Ghost) (eh : page_id_t → Option KeyType)
    (det : page_id_t → Prop) (p : page_id_t) : Prop where
  page : ∃ pg, t.pages p = some pg ∧ pg.GetPageId = p
  range : ltRange (g.lo p) (g.hi p)
  ht_lt : g.ht p < t.next_page_id_.toNat
  leaf : ∀ l, t.pages p = some (.leaf l) → LeafOK t g p l
  kids : ∀ ip, t.pages p = some (.internal ip) → KidsOK t g eh p ip.array_
  up : ¬ det p → UpOK t g p

/-- The invariant of the tree, in the general form that also covers the
state inside `Insert` between the split of a page and the entry of the new
page in the parent: `eh` is the upper bound the parent still has for a
child, `det` holds of the page not yet entered in its parent. -/
structure InvG (t : BPlusTree) (g : Ghost) (eh : page_id_t → Option KeyType)
    (det : page_id_t → Prop) : Prop where
  next_nonneg : 0 ≤ t.next_page_id_
  store_lt : ∀ p pg, t.pages p = some pg → 0 ≤ p ∧ p < t.next_page_id_
  root_ok : t.IsEmpty = false →
    g.S t.root_page_id_ ∧ g.lo t.root_page_id_ = none ∧ eh t.root_page_id_ = none ∧
      parentOf t t.root_page_id_ = INVALID_PAGE_ID
  node : ∀ p, g.S p → NodeOK t g eh det p
  disj : ∀ p q x, g.S p → g.S q → IsLeaf t p → IsLeaf t q →
    geLo (g.lo p) x → ltHi (g.hi p) x → geLo (g.lo q) x → ltHi (g.hi q) x → p = q

/-- The invariant of the tree between calls. -/
def Inv (t : BPlusTree) (g : Ghost) : Prop := InvG t g g.hi (fun _ => False)

/-- The leaves met along the `next_page_id_` pointers from the page `p` on. -/
inductive ChainFrom (t : BPlusTree) : page_id_t → List LeafPage → Prop
  | nil : ChainFrom t INVALID_PAGE_ID []
  | cons {p : page_id_t} {l : LeafPage} {rest : List LeafPage} :
      p ≠ INVALID_PAGE_ID → t.pages p = some (.leaf l) →
      ChainFrom t l.next_page_id_ rest → ChainFrom t p (l :: rest)

/-- The page `c` looks the same from its parent in the state `t1` with
bookkeeping `g1` as in the state `t` with `g`. -/
structure KidView (t : BPlusTree) (g : Ghost) (eh : page_id_t → Option KeyType)
    (t1 : BPlusTree) (g1 : Ghost) (eh1 : page_id_t → Option KeyType) (c : page_id_t) :
    Prop where
  S : g1.S c
  par : parentOf t1 c = parentOf t c
  ht : g1.ht c = g.ht c
  lo : g1.lo c = g.lo c
  eh : eh1 c = eh c

/-- The leaf `c` looks the same from the leaf before it in the state `t1`
with bookkeeping `g1` as in the state `t` with `g`. -/
structure NextView (t : BPlusTree) (g : Ghost) (t1 : BPlusTree) (g1 : Ghost)
    (c : page_id_t) : Prop where
  S : g1.S c
  lo : g1.lo c = g.lo c
  leaf : IsLeaf t c → IsLeaf t1 c

/-- The state inside `Insert` after the page `old` was split and before the
new page `nw` is entered in the parent of `old` under the key `s`: the
parent still has the old upper bound for `old`, which now is the upper bound
of `nw`. -/
structure Pending (t : BPlusTree) (g : Ghost) (old nw : page_id_t) (s : KeyType) : Prop where
  inv : InvG t g (fun c => if c = old then g.hi nw else g.hi c) (fun c => c = nw)
  S_old : g.S old
  S_new : g.S nw
  ne : old ≠ nw
  lo_new : g.lo nw = some s
  hi_old : g.hi old = some s
  ht : g.ht nw = g.ht old
  notKid : ∀ c ip, g.S c → t.pages c = some (.internal ip) → ∀ e ∈ ip.array_, e.2 ≠ nw
  not_root : t.root_page_id_ ≠ nw

/-- The bookkeeping after the page `p` was split at the key `s` and its upper
part moved to the new page `n`. -/
def splitGhost (g : Ghost) (p n : page_id_t) (s : KeyType) : Ghost :=
  { S := fun c => c = n ∨ g.S c
    ht := fun c => if c = n then g.ht p else g.ht c
    lo := fun c => if c = n then some s else g.lo c
    hi := fun c => if c = n then g.hi p else if c = p then some s else g.hi c }

/-- The page `q` has in `t1` the slots and the leaf link it has in `t`; its
parent pointer may differ. -/
structure SameBody (t t1 : BPlusTree) (q : page_id_t) : Prop where
  id : ∃ pg1, t1.pages q = some pg1 ∧ pg1.GetPageId = q
  leaf : ∀ l1, t1.pages q = some (.leaf l1) → ∃ l, t.pages q = some (.leaf l) ∧
    l1.max_size_ = l.max_size_ ∧ l1.next_page_id_ = l.next_page_id_ ∧ l1.array_ = l.array_
  internal : ∀ ip1, t1.pages q = some (.internal ip1) → ∃ ip,
    t.pages q = some (.internal ip) ∧ ip1.array_ = ip.array_

/-- The bookkeeping after a new root `r` was put above the old root `old`. -/
def rootGhost (g : Ghost) (r old : page_id_t) : Ghost :=
  { S := fun c => c = r ∨ g.S c
    ht := fun c => if c = r then g.ht old + 1 else g.ht c
    lo := fun c => if c = r then none else g.lo c
    hi := fun c => if c = r then none else g.hi c }

/-- The bookkeeping of a tree that consists of one leaf `r`. -/
def oneGhost (r : page_id_t) : Ghost :=
  { S := fun c => c = r
    ht := fun _ => 0
    lo := fun _ => none
    hi := fun _ => none }

/-- The bookkeeping after the page `r` left the tree. -/
def dropGhost (g : Ghost) (r : page_id_t) : Ghost :=
  { S := fun c => g.S c ∧ c ≠ r
    ht := g.ht
    lo := g.lo
    hi := g.hi }

/-- The bookkeeping after the page `p` took over the keys below `k` from its
right sibling `r`. -/
def borrowGhost (g : Ghost) (p r : page_id_t) (k : KeyType) : Ghost :=
  { S := g.S
    ht := g.ht
    lo := fun c => if c = r then some k else g.lo c
    hi := fun c => if c = p then some k else g.hi c }

/-- The bookkeeping after the page `p` took over all of its right sibling
`r`, which left the tree. -/
def mergeGhost (g : Ghost) (p r : page_id_t) : Ghost :=
  { S := fun c => g.S c ∧ c ≠ r
    ht := g.ht
    lo := g.lo
    hi := fun c => if c = p then g.hi r else g.hi c }

/-- The bookkeeping of the empty tree. -/
def emptyGhost : Ghost :=
  { S := fun _ => False
    ht := fun _ => 0
    lo := fun _ => none
    hi := fun _ => none }

end BPlusTree

/-! ## Extendible hash table -/

/-- The class `ExtendibleHashTable::Bucket`: capacity `size_`, local depth
`depth_` and the list of key/value pairs. -/
structure Bucket (K V : Type) where
  size_ : Nat
  depth_ : Nat
  list_ : List (K × V)

namespace Bucket

variable {K V : Type} [DecidableEq K]

/-- Modelled from the spec: `IsFull` is declared in the header
`extendible_hash_table.h`, which is not among the sources; a bucket has the
bounded capacity `bucket_size`, so it is full when its list holds `size_`
pairs. -/
def IsFull (b : Bucket K V) : Bool := b.list_.length == b.size_

/-- Modelled from the spec: the accessor `GetDepth` of the header, the local
depth of the bucket. -/
def GetDepth (b : Bucket K V) : Nat := b.depth_

/-- Modelled from the spec: `IncrementDepth` of the header adds one to the
local depth. -/
def IncrementDepth (b : Bucket K V) : Bucket K V := { b with depth_ := b.depth_ + 1 }

/-- The loop of `Bucket::Find` over the list: the value of the first pair
with the key. -/
def findIn : List (K × V) → K → Option V
  | [], _ => none
  | p :: rest, key => if p.1 = key then some p.2 else findIn rest key

/-- The loop of `Bucket::Remove` over the list: the list without the first
pair with the key, `none` when no pair has the key. -/
def removeIn : List (K × V) → K → Option (List (K × V))
  | [], _ => none
  | p :: rest, key =>
    if p.1 = key then some rest
    else
      match removeIn rest key with
      | none => none
      | some rest1 => some (p :: rest1)

/-- The loop of `Bucket::Insert` over the list: the first pair with the key
gets the value, `none` when no pair has the key. -/
def assignIn : List (K × V) → K → V → Option (List (K × V))
  | [], _, _ => none
  | p :: rest, key, value =>
    if p.1 = key then some ((p.1, value) :: rest)
    else
      match assignIn rest key value with
      | none => none
      | some rest1 => some (p :: rest1)

/-- The function `Bucket::Find`: the value found, `none` for `false`. -/
def Find (b : Bucket K V) (key : K) : Option V := findIn b.list_ key

/-- The function `Bucket::Remove`: the bucket afterwards and the result. -/
def Remove (b : Bucket K V) (key : K) : Bucket K V × Bool :=
  match removeIn b.list_ key with
  | none => (b, false)
  | some l => ({ b with list_ := l }, true)

/-- The function `Bucket::Insert`: the bucket afterwards and the result. -/
def Insert (b : Bucket K V) (key : K) (value : V) : Bucket K V × Bool :=
  if b.IsFull then (b, false)
  else
    match assignIn b.list_ key value with
    | some l => ({ b with list_ := l }, true)
    | none => ({ b with list_ := b.list_ ++ [(key, value)] }, true)

end Bucket

/-- The class `ExtendibleHashTable`.  The directory `dir_` is a vector of
shared pointers: `buckets` is the store of the `Bucket` objects ever
allocated and an entry of `dir_` is the position of its bucket in the store,
so that two slots that share a bucket hold the same position. -/
structure ExtendibleHashTable (K V : Type) where
  global_depth_ : Nat
  bucket_size_ : Nat
  num_buckets_ : Nat
  dir_ : List Nat
  buckets : List (Bucket K V)

namespace ExtendibleHashTable

variable {K V : Type} [DecidableEq K]

/-- The largest depth `d` for which the `int` expression `1 << d` and the
mask `(1 << d) - 1` do not overflow. -/
def MAX_DEPTH : Nat := 30

/-- Constructor `ExtendibleHashTable(bucket_size)`: depth 0 and one empty
bucket of depth 0. -/
def new (bucket_size : Nat) : ExtendibleHashTable K V :=
  { global_depth_ := 0, bucket_size_ := bucket_size, num_buckets_ := 1, dir_ := [0],
    buckets := [{ size_ := bucket_size, depth_ := 0, list_ := [] }] }

/-- The function `IndexOf`: the hash of the key masked with
`(1 << global_depth_) - 1`; `hash` is `std::hash<K>`. -/
def IndexOf (hash : K → Nat) (t : ExtendibleHashTable K V) (key : K) : Nat :=
  hash key % 2 ^ t.global_depth_

/-- The bucket `dir_[i]` with its position in the store; `none` when the
index is outside the directory. -/
def bucketAt (t : ExtendibleHashTable K V) (i : Nat) : Option (Nat × Bucket K V) :=
  match t.dir_[i]? with
  | none => none
  | some p =>
    match t.buckets[p]? with
    | none => none
    | some b => some (p, b)

/-- A store into the bucket object at position `p`. -/
def setBucket (t : ExtendibleHashTable K V) (p : Nat) (b : Bucket K V) :
    ExtendibleHashTable K V :=
  { t with buckets := t.buckets.set p b }

/-- The function `Find`: `some (some v)` for `true` with the value `v`,
`some none` for `false`. -/
def Find (hash : K → Nat) (t : ExtendibleHashTable K V) (key : K) : Option (Option V) :=
  match t.bucketAt (IndexOf hash t key) with
  | none => none
  | some (_, b) => some (b.Find key)

/-- The function `Remove`: the table afterwards and the result. -/
def Remove (hash : K → Nat) (t : ExtendibleHashTable K V) (key : K) :
    Option (ExtendibleHashTable K V × Bool) :=
  match t.bucketAt (IndexOf hash t key) with
  | none => none
  | some (p, b) => some (t.setBucket p (b.Remove key).1, (b.Remove key).2)

/-- Case 1 of a split in `InsertInternal`, for the full bucket `b` at
position `p` that slot `idx` points to, with local depth equal to the global
depth: the directory doubles, each new slot aliasing the slot `sz` below it,
the depth of the bucket goes up, a new bucket of the same depth goes to slot
`(1 << global_depth_) + idx`, and the counters go up.  `none` when the new
global depth makes `1 << global_depth_` overflow. -/
def splitDouble (t : ExtendibleHashTable K V) (idx p : Nat) (b : Bucket K V) :
    Option (ExtendibleHashTable K V) :=
  if MAX_DEPTH ≤ t.global_depth_ then none
  else if 2 ^ t.global_depth_ + idx < (t.dir_ ++ t.dir_).length then
    some { t with
      dir_ := (t.dir_ ++ t.dir_).set (2 ^ t.global_depth_ + idx) t.buckets.length,
      buckets := t.buckets.set p b.IncrementDepth ++
        [{ size_ := t.bucket_size_, depth_ := b.IncrementDepth.GetDepth, list_ := [] }],
      num_buckets_ := t.num_buckets_ + 1,
      global_depth_ := t.global_depth_ + 1 }
  else none

/-- The loop of case 2: round `i` stores the new bucket `q` in slot
`(i << depth) + (idx & ((1 << depth) - 1))`; `n` rounds are left.  The depth
read in every round is that of `dir_[idx]`, which is the old bucket before
the round that redirects slot `idx` and the new bucket after it; both have
the incremented depth `depth`. -/
def pointSlots (depth idx q : Nat) : Nat → Nat → List Nat → Option (List Nat)
  | 0, _, dir => some dir
  | n + 1, i, dir =>
    if i * 2 ^ depth + idx % 2 ^ depth < dir.length then
      pointSlots depth idx q n (i + 1) (dir.set (i * 2 ^ depth + idx % 2 ^ depth) q)
    else none

/-- Case 2 of a split in `InsertInternal`, for the full bucket `b` at
position `p` that slot `idx` points to, with local depth below the global
depth: the depth of the bucket goes up, a new bucket of the same depth is
allocated, the bucket count goes up, and the loop redirects slots to it. -/
def splitLocal (t : ExtendibleHashTable K V) (idx p : Nat) (b : Bucket K V) :
    Option (ExtendibleHashTable K V) :=
  match pointSlots b.IncrementDepth.GetDepth idx t.buckets.length
      (2 ^ (t.global_depth_ - b.IncrementDepth.GetDepth)) 0 t.dir_ with
  | none => none
  | some dir =>
    some { t with
      dir_ := dir,
      buckets := t.buckets.set p b.IncrementDepth ++
        [{ size_ := t.bucket_size_, depth_ := b.IncrementDepth.GetDepth, list_ := [] }],
      num_buckets_ := t.num_buckets_ + 1 }

end ExtendibleHashTable

namespace ExtendibleHashTable

variable {K V : Type} [DecidableEq K]

mutual

/-- The function `InsertInternal`; `fuel` bounds the number of nested calls
and loop rounds, `none` when it runs out, when an index leaves the directory
or when a depth overflows. -/
def InsertInternal (hash : K → Nat) :
    Nat → ExtendibleHashTable K V → K → V → Option (ExtendibleHashTable K V)
  | 0, _, _, _ => none
  | fuel + 1, t, key, value =>
    match t.bucketAt (IndexOf hash t key) with
    | none => none
    | some (p, b) =>
      if !b.IsFull then some (t.setBucket p (b.Insert key value).1)
      else splitLoop hash fuel t (IndexOf hash t key) key value

/-- The `do ... while (dir_[idx]->IsFull())` loop of `InsertInternal` with
the `Insert` into the bucket that follows it. -/
def splitLoop (hash : K → Nat) :
    Nat → ExtendibleHashTable K V → Nat → K → V → Option (ExtendibleHashTable K V)
  | 0, _, _, _, _ => none
  | fuel + 1, t, idx, key, value =>
    match t.bucketAt idx with
    | none => none
    | some (p, b) =>
      match (if b.GetDepth = t.global_depth_ then t.splitDouble idx p b
        else t.splitLocal idx p b) with
      | none => none
      | some t1 =>
        match t1.buckets[p]? with
        | none => none
        | some b1 =>
          match RedistributeBucket hash fuel t1 p b1.list_.length with
          | none => none
          | some t2 =>
            match t2.bucketAt (IndexOf hash t2 key) with
            | none => none
            | some (p2, b2) =>
              if b2.IsFull then splitLoop hash fuel t2 (IndexOf hash t2 key) key value
              else some (t2.setBucket p2 (b2.Insert key value).1)

/-- The loop `while ((sz--) != 0)` of `RedistributeBucket` on the bucket at
position `p`; the function starts it with `sz = list.size()`. -/
def RedistributeBucket (hash : K → Nat) :
    Nat → ExtendibleHashTable K V → Nat → Nat → Option (ExtendibleHashTable K V)
  | 0, t, _, sz => if sz = 0 then some t else none
  | fuel + 1, t, p, sz =>
    if sz = 0 then some t
    else
      match t.buckets[p]? with
      | none => none
      | some b =>
        match b.list_ with
        | [] => none
        | (key, value) :: rest =>
          match InsertInternal hash fuel (t.setBucket p { b with list_ := rest }) key value with
          | none => none
          | some t1 => RedistributeBucket hash fuel t1 p (sz - 1)

end

/-- The function `Insert`. -/
def Insert (hash : K → Nat) (fuel : Nat) (t : ExtendibleHashTable K V) (key : K) (value : V) :
    Option (ExtendibleHashTable K V) :=
  InsertInternal hash fuel t key value

end ExtendibleHashTable

namespace ExtendibleHashTable

variable {K V : Type} [DecidableEq K]

/-- The function `GetGlobalDepth`. -/
def GetGlobalDepth (t : ExtendibleHashTable K V) : Nat := t.global_depth_

/-- The function `GetLocalDepth`: the depth of the bucket `dir_[dir_index]`,
`none` when the index is outside the directory. -/
def GetLocalDepth (t : ExtendibleHashTable K V) (dir_index : Nat) : Option Nat :=
  (t.bucketAt dir_index).map (fun x => x.2.GetDepth)

/-- The function `GetNumBuckets`. -/
def GetNumBuckets (t : ExtendibleHashTable K V) : Nat := t.num_buckets_

/-- The tables that `Insert` and `Remove` calls, with any arguments, lead to
from `ExtendibleHashTable(bucket_size)`; `hash` is `std::hash<K>`. -/
inductive Reachable (hash : K → Nat) (bucket_size : Nat) : ExtendibleHashTable K V → Prop where
  | init : Reachable hash bucket_size (new bucket_size)
  | insert {t t1 : ExtendibleHashTable K V} (fuel : Nat) (key : K) (value : V) :
      Reachable hash bucket_size t → Insert hash fuel t key value = some t1 →
      Reachable hash bucket_size t1
  | remove {t t1 : ExtendibleHashTable K V} (key : K) (ret : Bool) :
      Reachable hash bucket_size t → Remove hash t key = some (t1, ret) →
      Reachable hash bucket_size t1

end ExtendibleHashTable

/-! ### Bookkeeping lemmas of the replacer -/

namespace LRUKReplacer


/-- The tracked frames, in iteration order. -/
def keys (r : LRUKReplacer) : List frame_id_t := r.frame_ref_.map Prod.fst

theorem tracked_iff (r : LRUKReplacer) (f : frame_id_t) : r.tracked f = true ↔ f ∈ r.keys := by
  simp [tracked, keys]

theorem keys_pushAccess (k ts : Nat) (f : frame_id_t) (l : List (frame_id_t × List Nat)) :
    (pushAccess k ts f l).map Prod.fst =
      if f ∈ l.map Prod.fst then l.map Prod.fst else l.map Prod.fst ++ [f] := by
  induction l with
  | nil => simp [pushAccess]
  | cons e rest ih =>
    obtain ⟨g, h⟩ := e
    by_cases hg : g = f
    · subst hg; simp [pushAccess]
    · have hne : f ≠ g := fun h => hg h.symm
      simp only [pushAccess, hg, if_false, List.map_cons, ih, List.mem_cons, hne, false_or]
      split <;> simp

theorem keys_eraseRef (l : List (frame_id_t × List Nat)) (f : frame_id_t) :
    (eraseRef l f).map Prod.fst = (l.map Prod.fst).filter (fun g => g != f) := by
  induction l with
  | nil => simp [eraseRef]
  | cons e rest ih =>
    simp only [eraseRef] at ih
    simp only [eraseRef, List.filter_cons, List.map_cons]
    split <;> simp [ih]

theorem countP_update_not_mem (p : frame_id_t → Bool) (f : frame_id_t) (b : Bool)
    (ks : List frame_id_t) (h : f ∉ ks) :
    ks.countP (Function.update p f b) = ks.countP p := by
  apply List.countP_congr
  intro x hx
  have : x ≠ f := fun e => h (e ▸ hx)
  simp [Function.update, this]

theorem countP_update_mem (p : frame_id_t → Bool) (f : frame_id_t) (b : Bool)
    (ks : List frame_id_t) (hn : ks.Nodup) (h : f ∈ ks) :
    ks.countP (Function.update p f b) + (if p f then 1 else 0) =
      ks.countP p + (if b then 1 else 0) := by
  induction ks with
  | nil => simp at h
  | cons g rest ih =>
    rw [List.nodup_cons] at hn
    by_cases hg : g = f
    · subst hg
      rw [List.countP_cons, List.countP_cons, countP_update_not_mem p g b rest hn.1]
      simp only [Function.update_same]
      omega
    · have hf : f ∈ rest := by
        rcases List.mem_cons.1 h with h | h
        · exact absurd h.symm hg
        · exact h
      have := ih hn.2 hf
      rw [List.countP_cons, List.countP_cons]
      simp only [Function.update_noteq hg]
      omega

theorem countP_filter_ne (p : frame_id_t → Bool) (f : frame_id_t)
    (ks : List frame_id_t) (hn : ks.Nodup) (h : f ∈ ks) (hp : p f = true) :
    (ks.filter (fun g => g != f)).countP (Function.update p f false) + 1 = ks.countP p := by
  induction ks with
  | nil => simp at h
  | cons g rest ih =>
    rw [List.nodup_cons] at hn
    by_cases hg : g = f
    · subst hg
      have h1 : (rest.filter (fun x => x != g)) = rest := by
        apply List.filter_eq_self.2
        intro x hx
        have : x ≠ g := fun e => hn.1 (e ▸ hx)
        simp [this]
      simp only [List.filter_cons, bne_self_eq_false, Bool.false_eq_true, if_false, h1,
        List.countP_cons, hp, if_true]
      rw [countP_update_not_mem p g false rest hn.1]
    · have hf : f ∈ rest := by
        rcases List.mem_cons.1 h with h | h
        · exact absurd h.symm hg
        · exact h
      have := ih hn.2 hf
      have hne : (g != f) = true := by simp [hg]
      simp only [List.filter_cons, hne, if_true, List.countP_cons, Function.update_noteq hg]
      omega


/-- Consistency of the replacer's bookkeeping: no frame is tracked twice, an
evictable frame is tracked, and `curr_size_` counts the evictable frames. -/
structure Inv (r : LRUKReplacer) : Prop where
  nodup : r.keys.Nodup
  ev_tracked : ∀ f, r.is_evictable_ f = true → f ∈ r.keys
  size_eq : r.curr_size_ = r.keys.countP r.is_evictable_

theorem inv_new (n k : Nat) : (LRUKReplacer.new n k).Inv :=
  ⟨by simp [LRUKReplacer.new, keys], by simp [LRUKReplacer.new], by simp [LRUKReplacer.new, keys]⟩

theorem sizeDec_pos {n : Nat} (h : 0 < n) : sizeDec n = n - 1 := by
  simp [sizeDec]; omega

theorem RecordAccess_eq {r r' : LRUKReplacer} {f : frame_id_t} (h : r.RecordAccess f = some r') :
    r'.is_evictable_ = r.is_evictable_ ∧ r'.curr_size_ = r.curr_size_ ∧
    r'.replacer_size_ = r.replacer_size_ ∧ r'.k_ = r.k_ ∧
    r'.keys = if f ∈ r.keys then r.keys else r.keys ++ [f] := by
  unfold RecordAccess at h
  split at h
  · exact absurd h (by simp)
  · injection h with h
    subst h
    simp [keys, keys_pushAccess]

theorem RecordAccess_isSome (r : LRUKReplacer) (f : frame_id_t)
    (h : f ∈ r.keys ∨ r.curr_size_ ≠ r.replacer_size_) : ∃ r', r.RecordAccess f = some r' := by
  unfold RecordAccess
  split
  · rename_i hc
    simp only [Bool.and_eq_true, Bool.not_eq_eq_eq_not, Bool.not_true, decide_eq_true_eq] at hc
    rcases h with h | h
    · have := (tracked_iff r f).2 h
      rw [this] at hc
      exact absurd hc.1 (by simp)
    · exact absurd hc.2 h
  · exact ⟨_, rfl⟩

theorem RecordAccess_inv {r r' : LRUKReplacer} {f : frame_id_t} (hi : r.Inv)
    (h : r.RecordAccess f = some r') : r'.Inv := by
  obtain ⟨h1, h2, _, _, h5⟩ := RecordAccess_eq h
  by_cases hf : f ∈ r.keys
  · rw [if_pos hf] at h5
    exact ⟨h5 ▸ hi.nodup, fun g hg => h5 ▸ hi.ev_tracked g (h1 ▸ hg), by rw [h2, h5, h1]; exact hi.size_eq⟩
  · rw [if_neg hf] at h5
    refine ⟨?_, ?_, ?_⟩
    · rw [h5]
      exact List.Nodup.append hi.nodup (List.nodup_singleton f) (by simpa using hf)
    · intro g hg
      rw [h5]
      exact List.mem_append_left _ (hi.ev_tracked g (h1 ▸ hg))
    · have hnf : r.is_evictable_ f = false := by
        cases hb : r.is_evictable_ f
        · rfl
        · exact absurd (hi.ev_tracked f hb) hf
      rw [h2, h5, h1, List.countP_append, hi.size_eq]
      simp [hnf]

theorem SetEvictable_keys (r : LRUKReplacer) (f : frame_id_t) (b : Bool) :
    (r.SetEvictable f b).keys = r.keys := by
  unfold SetEvictable
  split <;> rfl

theorem SetEvictable_untracked (r : LRUKReplacer) (f : frame_id_t) (b : Bool) (h : f ∉ r.keys) :
    r.SetEvictable f b = r := by
  have : r.tracked f = false := by
    cases ht : r.tracked f
    · rfl
    · exact absurd ((tracked_iff r f).1 ht) h
  simp [SetEvictable, this]

theorem SetEvictable_flag (r : LRUKReplacer) (f : frame_id_t) (b : Bool) (h : f ∈ r.keys) :
    (r.SetEvictable f b).is_evictable_ = Function.update r.is_evictable_ f b := by
  have := (tracked_iff r f).2 h
  simp [SetEvictable, this]

theorem SetEvictable_other (r : LRUKReplacer) (f g : frame_id_t) (b : Bool) (h : g ≠ f) :
    (r.SetEvictable f b).is_evictable_ g = r.is_evictable_ g := by
  unfold SetEvictable
  split
  · rfl
  · simp [Function.update_noteq h]

theorem SetEvictable_misc (r : LRUKReplacer) (f : frame_id_t) (b : Bool) :
    (r.SetEvictable f b).replacer_size_ = r.replacer_size_ ∧
    (r.SetEvictable f b).frame_ref_ = r.frame_ref_ ∧
    (r.SetEvictable f b).current_timestamp_ = r.current_timestamp_ ∧
    (r.SetEvictable f b).k_ = r.k_ := by
  unfold SetEvictable
  split <;> simp

theorem SetEvictable_inv {r : LRUKReplacer} (hi : r.Inv) (f : frame_id_t) (b : Bool) :
    (r.SetEvictable f b).Inv := by
  by_cases hf : f ∈ r.keys
  · have hk := SetEvictable_keys r f b
    have hfl := SetEvictable_flag r f b hf
    refine ⟨hk ▸ hi.nodup, ?_, ?_⟩
    · intro g hg
      rw [hk]
      by_cases hgf : g = f
      · exact hgf ▸ hf
      · rw [hfl, Function.update_noteq hgf] at hg
        exact hi.ev_tracked g hg
    · rw [hk, hfl]
      have hc := countP_update_mem r.is_evictable_ f b r.keys hi.nodup hf
      have hs := hi.size_eq
      have ht := (tracked_iff r f).2 hf
      simp only [SetEvictable, ht, Bool.not_true, Bool.false_eq_true, if_false]
      cases hb : b <;> cases he : r.is_evictable_ f <;> simp [hb, he] at hc ⊢ <;>
        first
        | omega
        | (rw [sizeDec_pos (by omega)]; omega)
  · rw [SetEvictable_untracked r f b hf]; exact hi


/-- The condition under which a loop of `Evict` considers an entry. -/
def evictCond (r : LRUKReplacer) (underK : Bool) (it : frame_id_t × List Nat) : Bool :=
  r.is_evictable_ it.1 && (!underK || decide (it.2.length < r.k_))

theorem evictVisit_spec (r : LRUKReplacer) (u : Bool) (P : frame_id_t → Prop)
    (st : EvictScan) (it : frame_id_t × List Nat)
    (h0 : st.flag = false → st.max_dst = 0) (h1 : st.flag = true → P st.frame_id)
    (h2 : evictCond r u it = true → P it.1) :
    ((evictVisit r u st it).flag = false → (evictVisit r u st it).max_dst = 0) ∧
    ((evictVisit r u st it).flag = true → P (evictVisit r u st it).frame_id) ∧
    (evictVisit r u st it).flag = (st.flag || evictCond r u it) := by
  unfold evictVisit
  by_cases hc : evictCond r u it = true
  · have hc' : (r.is_evictable_ it.1 && (!u || decide (it.2.length < r.k_))) = true := hc
    rw [if_pos hc']
    by_cases hm : st.max_dst ≤ sizeSub r.current_timestamp_ (it.2.headD 0)
    · rw [if_pos hm]
      simp [hc, h2 hc]
    · rw [if_neg hm]
      have hf : st.flag = true := by
        cases hfl : st.flag
        · exact absurd (by rw [h0 hfl]; exact Nat.zero_le _) hm
        · rfl
      simp [hc, h1 hf]
  · have hc' : ¬ (r.is_evictable_ it.1 && (!u || decide (it.2.length < r.k_))) = true := hc
    rw [if_neg hc']
    simp only [Bool.not_eq_true] at hc
    simp only [hc, Bool.or_false, and_true]
    exact ⟨h0, h1⟩

theorem evictLoop_spec (r : LRUKReplacer) (u : Bool) (P : frame_id_t → Prop) :
    ∀ (l : List (frame_id_t × List Nat)) (st : EvictScan),
      (st.flag = false → st.max_dst = 0) → (st.flag = true → P st.frame_id) →
      (∀ e ∈ l, evictCond r u e = true → P e.1) →
      ((evictLoop r u st l).flag = false → (evictLoop r u st l).max_dst = 0) ∧
      ((evictLoop r u st l).flag = true → P (evictLoop r u st l).frame_id) ∧
      (evictLoop r u st l).flag = (st.flag || l.any (evictCond r u)) := by
  intro l
  induction l with
  | nil => intro st h0 h1 _; simp only [evictLoop, List.any_nil, Bool.or_false, and_true]; exact ⟨h0, h1⟩
  | cons e rest ih =>
    intro st h0 h1 h2
    obtain ⟨a, b, c⟩ := evictVisit_spec r u P st e h0 h1 (h2 e (List.mem_cons_self _ _))
    obtain ⟨a', b', c'⟩ := ih (evictVisit r u st e) a b
      (fun x hx => h2 x (List.mem_cons_of_mem _ hx))
    refine ⟨a', b', ?_⟩
    simp only [evictLoop]
    rw [c', c, List.any_cons, Bool.or_assoc]

theorem evictCond_imp (r : LRUKReplacer) (u : Bool) (e : frame_id_t × List Nat)
    (he : e ∈ r.frame_ref_) (h : evictCond r u e = true) :
    e.1 ∈ r.keys ∧ r.is_evictable_ e.1 = true := by
  refine ⟨List.mem_map.2 ⟨e, he, rfl⟩, ?_⟩
  unfold evictCond at h
  simp only [Bool.and_eq_true] at h
  exact h.1

theorem Evict_some {r r' : LRUKReplacer} {f : frame_id_t} (h : r.Evict = (r', some f)) :
    f ∈ r.keys ∧ r.is_evictable_ f = true ∧ r' = r.dropFrame f := by
  have init0 : ((⟨false, 0, 0⟩ : EvictScan).flag = false → (⟨false, 0, 0⟩ : EvictScan).max_dst = 0) :=
    fun _ => rfl
  have init1 : ((⟨false, 0, 0⟩ : EvictScan).flag = true →
      (0 : frame_id_t) ∈ r.keys ∧ r.is_evictable_ 0 = true) := fun h => absurd h (by simp)
  obtain ⟨a1, b1, _⟩ := evictLoop_spec r true (fun f => f ∈ r.keys ∧ r.is_evictable_ f = true)
    r.frame_ref_ ⟨false, 0, 0⟩ init0 init1 (fun e he hc => evictCond_imp r true e he hc)
  unfold Evict at h
  simp only at h
  split at h
  · rename_i hfl
    injection h with h1 h2
    injection h2 with h2
    rw [← h2]
    exact ⟨(b1 hfl).1, (b1 hfl).2, h1.symm⟩
  · rename_i hfl
    simp only [Bool.not_eq_true] at hfl
    obtain ⟨_, b2, _⟩ := evictLoop_spec r false (fun f => f ∈ r.keys ∧ r.is_evictable_ f = true)
      r.frame_ref_ _ (fun _ => a1 hfl) (fun h => absurd (hfl ▸ h) (by simp))
      (fun e he hc => evictCond_imp r false e he hc)
    split at h
    · rename_i hfl2
      injection h with h1 h2
      injection h2 with h2
      rw [← h2]
      exact ⟨(b2 hfl2).1, (b2 hfl2).2, h1.symm⟩
    · injection h with h1 h2
      exact absurd h2 (by simp)

theorem Evict_none {r r' : LRUKReplacer} (h : r.Evict = (r', none)) :
    r' = r ∧ ∀ f ∈ r.keys, r.is_evictable_ f = false := by
  have init0 : ((⟨false, 0, 0⟩ : EvictScan).flag = false → (⟨false, 0, 0⟩ : EvictScan).max_dst = 0) :=
    fun _ => rfl
  obtain ⟨a1, _, c1⟩ := evictLoop_spec r true (fun _ => True)
    r.frame_ref_ ⟨false, 0, 0⟩ init0 (fun _ => trivial) (fun _ _ _ => trivial)
  unfold Evict at h
  simp only at h
  split at h
  · injection h with h1 h2
    exact absurd h2 (by simp)
  · rename_i hfl
    simp only [Bool.not_eq_true] at hfl
    obtain ⟨_, _, c2⟩ := evictLoop_spec r false (fun _ => True)
      r.frame_ref_ _ (fun _ => a1 hfl) (fun _ => trivial) (fun _ _ _ => trivial)
    split at h
    · injection h with h1 h2
      exact absurd h2 (by simp)
    · rename_i hfl2
      injection h with h1 h2
      refine ⟨h1.symm, ?_⟩
      intro f hf
      simp only [Bool.not_eq_true] at hfl2
      rw [c2, hfl, Bool.false_or] at hfl2
      obtain ⟨e, he, rfl⟩ := List.mem_map.1 hf
      have := List.any_eq_false.1 hfl2 e he
      simpa [evictCond] using this

theorem dropFrame_keys (r : LRUKReplacer) (f : frame_id_t) :
    (r.dropFrame f).keys = r.keys.filter (fun g => g != f) := by
  simp [dropFrame, keys, keys_eraseRef]

theorem dropFrame_inv {r : LRUKReplacer} (hi : r.Inv) {f : frame_id_t} (hf : f ∈ r.keys)
    (he : r.is_evictable_ f = true) :
    (r.dropFrame f).Inv ∧ (r.dropFrame f).curr_size_ + 1 = r.curr_size_ := by
  have hk := dropFrame_keys r f
  have hc := countP_filter_ne r.is_evictable_ f r.keys hi.nodup hf he
  have hs := hi.size_eq
  have hsz : (r.dropFrame f).curr_size_ = sizeDec r.curr_size_ := rfl
  have hfl : (r.dropFrame f).is_evictable_ = Function.update r.is_evictable_ f false := rfl
  rw [sizeDec_pos (by omega)] at hsz
  refine ⟨⟨?_, ?_, ?_⟩, by omega⟩
  · rw [hk]; exact hi.nodup.filter _
  · intro g hg
    rw [hk]
    rw [hfl] at hg
    by_cases hgf : g = f
    · subst hgf; simp at hg
    · rw [Function.update_noteq hgf] at hg
      exact List.mem_filter.2 ⟨hi.ev_tracked g hg, by simp [hgf]⟩
  · rw [hk, hfl, hsz]; omega

end LRUKReplacer

/-! ### Consistency of the buffer pool -/

namespace BufferPoolManagerInstance

variable {D : Type}



theorem length_lt_of_nodup_lt {ks : List Nat} {n f : Nat} (hn : ks.Nodup)
    (hlt : ∀ g ∈ ks, g < n) (hf : f < n) (hnot : f ∉ ks) : ks.length < n := by
  have hnd : (f :: ks).Nodup := List.nodup_cons.2 ⟨hnot, hn⟩
  have hsub : (f :: ks).toFinset ⊆ Finset.range n := by
    intro x hx
    rw [List.mem_toFinset] at hx
    rw [Finset.mem_range]
    rcases List.mem_cons.1 hx with h | h
    · exact h ▸ hf
    · exact hlt x h
  have hc := Finset.card_le_card hsub
  rw [List.toFinset_card_of_nodup hnd, Finset.card_range] at hc
  simp only [List.length_cons] at hc
  omega

theorem touch_spec {r r' : LRUKReplacer} {f : frame_id_t} (hi : r.Inv)
    (h : touch r f = some r') :
    r'.Inv ∧ r'.replacer_size_ = r.replacer_size_ ∧
    r'.keys = (if f ∈ r.keys then r.keys else r.keys ++ [f]) ∧
    r'.is_evictable_ = Function.update r.is_evictable_ f false := by
  unfold touch at h
  cases hr : r.RecordAccess f with
  | none => rw [hr] at h; exact absurd h (by simp)
  | some r1 =>
    rw [hr] at h
    simp only [Option.map_some'] at h
    injection h with h
    subst h
    obtain ⟨h1, _, h3, _, h5⟩ := LRUKReplacer.RecordAccess_eq hr
    have hi1 := LRUKReplacer.RecordAccess_inv hi hr
    have hmem : f ∈ r1.keys := by
      rw [h5]; split
      · assumption
      · simp
    refine ⟨LRUKReplacer.SetEvictable_inv hi1 f false, ?_, ?_, ?_⟩
    · rw [(LRUKReplacer.SetEvictable_misc r1 f false).1, h3]
    · rw [LRUKReplacer.SetEvictable_keys, h5]
    · rw [LRUKReplacer.SetEvictable_flag r1 f false hmem, h1]

theorem touch_isSome (r : LRUKReplacer) (f : frame_id_t)
    (h : f ∈ r.keys ∨ r.curr_size_ ≠ r.replacer_size_) : ∃ r', touch r f = some r' := by
  obtain ⟨r1, hr⟩ := LRUKReplacer.RecordAccess_isSome r f h
  exact ⟨r1.SetEvictable f false, by simp [touch, hr]⟩

/-- Consistency of a buffer pool: the page table points at frames that carry
the page id, free frames are unpinned and not resident, every frame outside
the free list is tracked by the replacer and is evictable exactly when its pin
count is zero. -/
structure Inv (s : BufferPoolManagerInstance D) : Prop where
  len : s.pages_.length = s.pool_size_
  rsize : s.replacer_.replacer_size_ = s.pool_size_
  rinv : s.replacer_.Inv
  rep_lt : ∀ f ∈ s.replacer_.keys, f < s.pool_size_
  pt : ∀ p f, s.page_table_ p = some f →
    f ∉ s.free_list_ ∧ ∃ pg, s.pages_[f]? = some pg ∧ pg.page_id_ = p
  free_nodup : s.free_list_.Nodup
  free : ∀ f ∈ s.free_list_, ∃ pg, s.pages_[f]? = some pg ∧ pg.pin_count_ = 0
  nonfree : ∀ f pg, s.pages_[f]? = some pg → f ∉ s.free_list_ →
    f ∈ s.replacer_.keys ∧ (s.replacer_.is_evictable_ f = true ↔ pg.pin_count_ = 0)

/-- The state between taking frame `f` (from the free list or from the
replacer) and installing the new page in it. -/
structure Mid (s : BufferPoolManagerInstance D) (f : frame_id_t) : Prop where
  len : s.pages_.length = s.pool_size_
  rsize : s.replacer_.replacer_size_ = s.pool_size_
  rinv : s.replacer_.Inv
  rep_lt : ∀ g ∈ s.replacer_.keys, g < s.pool_size_
  hf : f < s.pool_size_
  hfree : f ∉ s.free_list_
  pt : ∀ p g, s.page_table_ p = some g →
    g ≠ f ∧ g ∉ s.free_list_ ∧ ∃ pg, s.pages_[g]? = some pg ∧ pg.page_id_ = p
  free_nodup : s.free_list_.Nodup
  free : ∀ g ∈ s.free_list_, ∃ pg, s.pages_[g]? = some pg ∧ pg.pin_count_ = 0
  nonfree : ∀ g pg, g ≠ f → s.pages_[g]? = some pg → g ∉ s.free_list_ →
    g ∈ s.replacer_.keys ∧ (s.replacer_.is_evictable_ g = true ↔ pg.pin_count_ = 0)

theorem inv_new_pool [Zero D] (n k : Nat) (d : page_id_t → D) : (new n k d).Inv := by
  refine ⟨by simp [new], rfl, LRUKReplacer.inv_new _ _, ?_, ?_, ?_, ?_, ?_⟩
  · intro f hf; simp [new, LRUKReplacer.new, LRUKReplacer.keys] at hf
  · intro p f h; simp [new] at h
  · exact List.nodup_range n
  · intro f hf
    have : f < n := List.mem_range.1 hf
    exact ⟨{ data_ := 0, page_id_ := INVALID_PAGE_ID, pin_count_ := 0, is_dirty_ := false },
      by simp [new, List.getElem?_replicate, this], rfl⟩
  · intro f pg hpg hnf
    have hlt : f < n := by
      have := (List.getElem?_eq_some.1 hpg).1
      simpa [new] using this
    exact absurd (List.mem_range.2 hlt) hnf

theorem Mid.touch_returns {s : BufferPoolManagerInstance D} {f : frame_id_t} (h : Mid s f) :
    ∃ r, touch s.replacer_ f = some r := by
  by_cases hm : f ∈ s.replacer_.keys
  · exact BufferPoolManagerInstance.touch_isSome _ _ (Or.inl hm)
  · apply BufferPoolManagerInstance.touch_isSome _ _ (Or.inr _)
    have h1 := length_lt_of_nodup_lt h.rinv.nodup h.rep_lt h.hf hm
    have h4 := h.rsize
    have h2 := List.countP_le_length s.replacer_.is_evictable_ (l := s.replacer_.keys)
    have h3 := h.rinv.size_eq
    omega

/-- Installing a page in the frame taken restores consistency. -/
theorem Mid.install {s : BufferPoolManagerInstance D} {f : frame_id_t} (h : Mid s f)
    {r : LRUKReplacer} (hr : touch s.replacer_ f = some r) (d : D) (p n : page_id_t) :
    Inv { s with pages_ := s.pages_.set f
                   { data_ := d, page_id_ := p, pin_count_ := 1, is_dirty_ := false },
                 page_table_ := Function.update s.page_table_ p (some f),
                 next_page_id_ := n,
                 replacer_ := r } := by
  obtain ⟨ri, rs, rk, re⟩ := touch_spec h.rinv hr
  have hflen : f < s.pages_.length := by rw [h.len]; exact h.hf
  have hkeys : ∀ g, g ∈ r.keys ↔ g ∈ s.replacer_.keys ∨ g = f := by
    intro g; rw [rk]; split
    · constructor
      · exact Or.inl
      · rintro (h | h)
        · exact h
        · subst h; assumption
    · simp
  refine ⟨by simp [h.len], by simp [rs, h.rsize], ri, ?_, ?_, h.free_nodup, ?_, ?_⟩
  · intro g hg
    rcases (hkeys g).1 hg with hg | hg
    · exact h.rep_lt g hg
    · exact hg ▸ h.hf
  · intro p' g hp
    simp only at hp ⊢
    by_cases hpp : p' = p
    · subst hpp
      rw [Function.update_same] at hp
      injection hp with hp
      subst hp
      exact ⟨h.hfree, _, List.getElem?_set_self hflen, rfl⟩
    · rw [Function.update_noteq hpp] at hp
      obtain ⟨h1, h2, pg, h3, h4⟩ := h.pt p' g hp
      exact ⟨h2, pg, by rw [List.getElem?_set_ne (Ne.symm h1)]; exact h3, h4⟩
  · intro g hg
    have hne : g ≠ f := fun e => h.hfree (e ▸ hg)
    obtain ⟨pg, h1, h2⟩ := h.free g hg
    exact ⟨pg, by simp only; rw [List.getElem?_set_ne (Ne.symm hne)]; exact h1, h2⟩
  · intro g pg hpg hnf
    simp only at hpg hnf ⊢
    by_cases hgf : g = f
    · subst hgf
      rw [List.getElem?_set_self hflen] at hpg
      injection hpg with hpg
      subst hpg
      refine ⟨(hkeys g).2 (Or.inr rfl), ?_⟩
      rw [re, Function.update_same]
      simp
    · rw [List.getElem?_set_ne (Ne.symm hgf)] at hpg
      obtain ⟨h1, h2⟩ := h.nonfree g pg hgf hpg hnf
      refine ⟨(hkeys g).2 (Or.inl h1), ?_⟩
      rw [re, Function.update_noteq hgf]
      exact h2



/-- The three ways `acquireFrame` can go in a consistent pool. -/
theorem acquireFrame_cases (s : BufferPoolManagerInstance D) (hi : Inv s) :
    (∃ f rest, s.free_list_ = f :: rest ∧
      acquireFrame s = some ({ s with free_list_ := rest }, some f)) ∨
    (s.free_list_ = [] ∧ (∀ f ∈ s.replacer_.keys, s.replacer_.is_evictable_ f = false) ∧
      acquireFrame s = some (s, none)) ∨
    (∃ f page, s.free_list_ = [] ∧ f ∈ s.replacer_.keys ∧ s.replacer_.is_evictable_ f = true ∧
      s.pages_[f]? = some page ∧
      acquireFrame s = some ({ s with
        replacer_ := s.replacer_.dropFrame f,
        disk := if page.is_dirty_ then Function.update s.disk page.page_id_ page.data_ else s.disk,
        page_table_ := Function.update s.page_table_ page.page_id_ none }, some f)) := by
  cases hfl : s.free_list_ with
  | cons f rest =>
    left
    exact ⟨f, rest, rfl, by simp [acquireFrame, hfl]⟩
  | nil =>
    right
    cases he : s.replacer_.Evict with
    | mk r' o =>
      cases o with
      | none =>
        left
        obtain ⟨_, h2⟩ := LRUKReplacer.Evict_none he
        exact ⟨rfl, h2, by simp [acquireFrame, hfl, he]⟩
      | some f =>
        right
        obtain ⟨h1, h2, h3⟩ := LRUKReplacer.Evict_some he
        have hlt : f < s.pages_.length := by rw [hi.len]; exact hi.rep_lt f h1
        have hpg : s.pages_[f]? = some (s.pages_[f]) := List.getElem?_eq_getElem hlt
        refine ⟨f, s.pages_[f], rfl, h1, h2, hpg, ?_⟩
        simp [acquireFrame, hfl, he, evictFrame, hpg, h3]

theorem mid_of_free {s : BufferPoolManagerInstance D} (hi : Inv s) {f : frame_id_t}
    {rest : List frame_id_t} (hfl : s.free_list_ = f :: rest) :
    Mid { s with free_list_ := rest } f := by
  have hnd := hi.free_nodup
  rw [hfl, List.nodup_cons] at hnd
  have hsub : ∀ g, g ∈ rest → g ∈ s.free_list_ := fun g hg => hfl ▸ List.mem_cons_of_mem _ hg
  have hfm : f ∈ s.free_list_ := hfl ▸ List.mem_cons_self _ _
  refine ⟨hi.len, hi.rsize, hi.rinv, hi.rep_lt, ?_, hnd.1, ?_, hnd.2, ?_, ?_⟩
  · obtain ⟨pg, h1, _⟩ := hi.free f hfm
    have := (List.getElem?_eq_some.1 h1).1
    rw [← hi.len]; exact this
  · intro p g hp
    obtain ⟨h1, h2⟩ := hi.pt p g hp
    exact ⟨fun e => h1 (e ▸ hfm), fun hg => h1 (hsub g hg), h2⟩
  · intro g hg
    exact hi.free g (hsub g hg)
  · intro g pg hgf hpg hnf
    apply hi.nonfree g pg hpg
    rw [hfl]
    intro hg
    rcases List.mem_cons.1 hg with hg | hg
    · exact hgf hg
    · exact hnf hg

theorem mid_of_evict {s : BufferPoolManagerInstance D} (hi : Inv s) {f : frame_id_t}
    {page : Page D} (hfl : s.free_list_ = []) (hk : f ∈ s.replacer_.keys)
    (he : s.replacer_.is_evictable_ f = true) (hpg : s.pages_[f]? = some page) (d : page_id_t → D) :
    Mid { s with replacer_ := s.replacer_.dropFrame f, disk := d,
                 page_table_ := Function.update s.page_table_ page.page_id_ none } f := by
  obtain ⟨hri, _⟩ := LRUKReplacer.dropFrame_inv hi.rinv hk he
  have hkeys := LRUKReplacer.dropFrame_keys s.replacer_ f
  refine ⟨hi.len, hi.rsize, hri, ?_, hi.rep_lt f hk, by simp [hfl], ?_, hi.free_nodup, hi.free, ?_⟩
  · intro g hg
    simp only [hkeys] at hg
    exact hi.rep_lt g (List.mem_filter.1 hg).1
  · intro p g hp
    simp only at hp
    by_cases hpp : p = page.page_id_
    · subst hpp; simp at hp
    · rw [Function.update_noteq hpp] at hp
      obtain ⟨h1, pg, h2, h3⟩ := hi.pt p g hp
      refine ⟨?_, h1, pg, h2, h3⟩
      intro e
      subst e
      rw [hpg] at h2
      injection h2 with h2
      exact hpp (h2 ▸ h3.symm)
  · intro g pg hgf hg hnf
    obtain ⟨h1, h2⟩ := hi.nonfree g pg hg hnf
    refine ⟨?_, ?_⟩
    · simp only [hkeys]
      exact List.mem_filter.2 ⟨h1, by simp [hgf]⟩
    · show Function.update s.replacer_.is_evictable_ f false g = true ↔ _
      rw [Function.update_noteq hgf]
      exact h2

/-- In a consistent pool `acquireFrame` either reports that no frame can be
had, leaving the pool as it is, or hands out a frame in a `Mid` state. -/
theorem acquireFrame_spec (s : BufferPoolManagerInstance D) (hi : Inv s) :
    (s.free_list_ = [] ∧ (∀ f ∈ s.replacer_.keys, s.replacer_.is_evictable_ f = false) ∧
      acquireFrame s = some (s, none)) ∨
    (∃ s1 f, acquireFrame s = some (s1, some f) ∧ Mid s1 f ∧
      s1.next_page_id_ = s.next_page_id_ ∧ s1.pool_size_ = s.pool_size_ ∧
      s1.pages_ = s.pages_ ∧
      (s.free_list_ ≠ [] ∨ ∃ g ∈ s.replacer_.keys, s.replacer_.is_evictable_ g = true)) := by
  rcases acquireFrame_cases s hi with ⟨f, rest, h1, h2⟩ | ⟨h1, h2, h3⟩ | ⟨f, page, h1, h2, h3, h4, h5⟩
  · right
    exact ⟨_, f, h2, mid_of_free hi h1, rfl, rfl, rfl, Or.inl (by simp [h1])⟩
  · left; exact ⟨h1, h2, h3⟩
  · right
    exact ⟨_, f, h5, mid_of_evict hi h1 h2 h3 h4 _, rfl, rfl, rfl, Or.inr ⟨f, h2, h3⟩⟩



/-- The two outcomes of `NewPgImp` in a consistent pool. -/
theorem NewPgImp_cases [Zero D] (s : BufferPoolManagerInstance D) (hi : Inv s) :
    (s.free_list_ = [] ∧ (∀ f ∈ s.replacer_.keys, s.replacer_.is_evictable_ f = false) ∧
      NewPgImp s = some (s, none)) ∨
    (∃ s1 f r, acquireFrame s = some (s1, some f) ∧ Mid s1 f ∧ touch s1.replacer_ f = some r ∧
      (s.free_list_ ≠ [] ∨ ∃ g ∈ s.replacer_.keys, s.replacer_.is_evictable_ g = true) ∧
      s1.next_page_id_ = s.next_page_id_ ∧
      NewPgImp s = some ({ s1 with
          pages_ := s1.pages_.set f
            { data_ := 0, page_id_ := s1.next_page_id_, pin_count_ := 1, is_dirty_ := false },
          page_table_ := Function.update s1.page_table_ s1.next_page_id_ (some f),
          next_page_id_ := s1.next_page_id_ + 1,
          replacer_ := r }, some (s1.next_page_id_, f))) := by
  rcases acquireFrame_spec s hi with ⟨h1, h2, h3⟩ | ⟨s1, f, h1, h2, h3, _, _, h6⟩
  · left
    exact ⟨h1, h2, by simp [NewPgImp, h3]⟩
  · right
    obtain ⟨r, hr⟩ := h2.touch_returns
    have hlt : f < s1.pages_.length := by rw [h2.len]; exact h2.hf
    exact ⟨s1, f, r, h1, h2, hr, h6, h3, by simp [NewPgImp, h1, hlt, hr]⟩

theorem NewPgImp_inv [Zero D] {s s' : BufferPoolManagerInstance D}
    {res : Option (page_id_t × frame_id_t)} (hi : Inv s) (h : NewPgImp s = some (s', res)) :
    Inv s' := by
  rcases NewPgImp_cases s hi with ⟨_, _, h3⟩ | ⟨s1, f, r, _, h2, h3, _, _, h5⟩
  · rw [h3] at h; injection h with h; injection h with h _; exact h ▸ hi
  · rw [h5] at h; injection h with h; injection h with h _
    rw [← h]
    exact h2.install h3 _ _ _

/-- The three outcomes of `FetchPgImp` in a consistent pool: a hit, no frame
to be had, or a miss served from the disk. -/
theorem FetchPgImp_cases (s : BufferPoolManagerInstance D) (hi : Inv s) (p : page_id_t) :
    (∃ f page r, s.page_table_ p = some f ∧ s.pages_[f]? = some page ∧
      touch s.replacer_ f = some r ∧
      FetchPgImp s p = some ({ s with
          pages_ := s.pages_.set f { page with pin_count_ := page.pin_count_ + 1 },
          replacer_ := r }, some f)) ∨
    (s.page_table_ p = none ∧ s.free_list_ = [] ∧
      (∀ f ∈ s.replacer_.keys, s.replacer_.is_evictable_ f = false) ∧
      FetchPgImp s p = some (s, none)) ∨
    (∃ s1 f r, s.page_table_ p = none ∧ acquireFrame s = some (s1, some f) ∧ Mid s1 f ∧
      touch s1.replacer_ f = some r ∧
      FetchPgImp s p = some ({ s1 with
          pages_ := s1.pages_.set f
            { data_ := s1.disk p, page_id_ := p, pin_count_ := 1, is_dirty_ := false },
          page_table_ := Function.update s1.page_table_ p (some f),
          replacer_ := r }, some f)) := by
  cases hp : s.page_table_ p with
  | some f =>
    left
    obtain ⟨hnf, page, hpg, _⟩ := hi.pt p f hp
    obtain ⟨hk, _⟩ := hi.nonfree f page hpg hnf
    obtain ⟨r, hr⟩ := touch_isSome s.replacer_ f (Or.inl hk)
    exact ⟨f, page, r, rfl, hpg, hr, by simp [FetchPgImp, hp, hpg, hr]⟩
  | none =>
    right
    rcases acquireFrame_spec s hi with ⟨h1, h2, h3⟩ | ⟨s1, f, h1, h2, _, _, _, _⟩
    · left
      exact ⟨rfl, h1, h2, by simp [FetchPgImp, hp, h3]⟩
    · right
      obtain ⟨r, hr⟩ := h2.touch_returns
      have hlt : f < s1.pages_.length := by rw [h2.len]; exact h2.hf
      exact ⟨s1, f, r, rfl, h1, h2, hr, by simp [FetchPgImp, hp, h1, hlt, hr]⟩

/-- Changing the metadata of a resident frame `f` while keeping its page id,
with the replacer flag following the pin count, keeps the pool consistent. -/
theorem Inv.update_resident {s : BufferPoolManagerInstance D} (hi : Inv s) {f : frame_id_t}
    {page : Page D} (page' : Page D) (hpg : s.pages_[f]? = some page) (hnf : f ∉ s.free_list_)
    (hid : page'.page_id_ = page.page_id_) {r : LRUKReplacer} (hri : r.Inv)
    (hrs : r.replacer_size_ = s.replacer_.replacer_size_) (hrk : r.keys = s.replacer_.keys)
    (hre : ∀ g, g ≠ f → r.is_evictable_ g = s.replacer_.is_evictable_ g)
    (hrf : r.is_evictable_ f = true ↔ page'.pin_count_ = 0) (d : page_id_t → D) :
    Inv { s with pages_ := s.pages_.set f page', replacer_ := r, disk := d } := by
  have hflen : f < s.pages_.length := (List.getElem?_eq_some.1 hpg).1
  refine ⟨by simp [hi.len], by simp [hrs, hi.rsize], hri, ?_, ?_, hi.free_nodup, ?_, ?_⟩
  · intro g hg; exact hi.rep_lt g (hrk ▸ hg)
  · intro p g hp
    obtain ⟨h1, pg, h2, h3⟩ := hi.pt p g hp
    refine ⟨h1, ?_⟩
    by_cases hgf : g = f
    · subst hgf
      rw [hpg] at h2; injection h2 with h2
      exact ⟨page', List.getElem?_set_self hflen, by rw [hid, h2]; exact h3⟩
    · exact ⟨pg, by simp only; rw [List.getElem?_set_ne (Ne.symm hgf)]; exact h2, h3⟩
  · intro g hg
    have hne : g ≠ f := fun e => hnf (e ▸ hg)
    obtain ⟨pg, h1, h2⟩ := hi.free g hg
    exact ⟨pg, by simp only; rw [List.getElem?_set_ne (Ne.symm hne)]; exact h1, h2⟩
  · intro g pg hg hgnf
    simp only at hg hgnf ⊢
    by_cases hgf : g = f
    · subst hgf
      rw [List.getElem?_set_self hflen] at hg
      injection hg with hg
      subst hg
      exact ⟨hrk ▸ (hi.nonfree g page hpg hnf).1, hrf⟩
    · rw [List.getElem?_set_ne (Ne.symm hgf)] at hg
      obtain ⟨h1, h2⟩ := hi.nonfree g pg hg hgnf
      exact ⟨hrk ▸ h1, by rw [hre g hgf]; exact h2⟩

theorem touch_keys_of_mem {r r' : LRUKReplacer} {f : frame_id_t} (hi : r.Inv)
    (h : touch r f = some r') (hk : f ∈ r.keys) : r'.keys = r.keys := by
  obtain ⟨_, _, h3, _⟩ := touch_spec hi h
  rw [h3, if_pos hk]

theorem FetchPgImp_inv {s s' : BufferPoolManagerInstance D} {p : page_id_t}
    {res : Option frame_id_t} (hi : Inv s) (h : FetchPgImp s p = some (s', res)) : Inv s' := by
  rcases FetchPgImp_cases s hi p with ⟨f, page, r, h1, h2, h3, h4⟩ | ⟨_, _, _, h4⟩ |
    ⟨s1, f, r, _, _, h2, h3, h4⟩
  · rw [h4] at h; injection h with h; injection h with h _
    rw [← h]
    obtain ⟨hnf, _⟩ := hi.pt p f h1
    obtain ⟨hk, _⟩ := hi.nonfree f page h2 hnf
    obtain ⟨ri, rs, _, re⟩ := touch_spec hi.rinv h3
    have := hi.update_resident { page with pin_count_ := page.pin_count_ + 1 } h2 hnf
      rfl ri rs (touch_keys_of_mem hi.rinv h3 hk)
      (fun g hg => by rw [re, Function.update_noteq hg])
      (by rw [re, Function.update_same]; simp) s.disk
    exact this
  · rw [h4] at h; injection h with h; injection h with h _; exact h ▸ hi
  · rw [h4] at h; injection h with h; injection h with h _
    rw [← h]
    exact h2.install h3 _ _ _



/-- The three outcomes of `UnpinPgImp` in a consistent pool. -/
theorem UnpinPgImp_cases (s : BufferPoolManagerInstance D) (hi : Inv s) (p : page_id_t)
    (d : Bool) :
    (s.page_table_ p = none ∧ UnpinPgImp s p d = some (s, false)) ∨
    (∃ f page, s.page_table_ p = some f ∧ s.pages_[f]? = some page ∧ page.pin_count_ = 0 ∧
      UnpinPgImp s p d = some (s, false)) ∨
    (∃ f page, s.page_table_ p = some f ∧ s.pages_[f]? = some page ∧ page.pin_count_ ≠ 0 ∧
      UnpinPgImp s p d = some ({ s with
        pages_ := s.pages_.set f
          { page with is_dirty_ := page.is_dirty_ || d, pin_count_ := page.pin_count_ - 1 },
        replacer_ := if page.pin_count_ - 1 = 0 then s.replacer_.SetEvictable f true
                     else s.replacer_ }, true)) := by
  cases hp : s.page_table_ p with
  | none => left; exact ⟨rfl, by simp [UnpinPgImp, hp]⟩
  | some f =>
    right
    obtain ⟨_, page, hpg, _⟩ := hi.pt p f hp
    by_cases hz : page.pin_count_ = 0
    · left; exact ⟨f, page, rfl, hpg, hz, by simp [UnpinPgImp, hp, hpg, hz]⟩
    · right
      refine ⟨f, page, rfl, hpg, hz, ?_⟩
      cases d <;> simp [UnpinPgImp, hp, hpg, hz]

theorem UnpinPgImp_inv {s s' : BufferPoolManagerInstance D} {p : page_id_t} {d b : Bool}
    (hi : Inv s) (h : UnpinPgImp s p d = some (s', b)) : Inv s' := by
  rcases UnpinPgImp_cases s hi p d with ⟨_, h4⟩ | ⟨_, _, _, _, _, h4⟩ | ⟨f, page, h1, h2, h3, h4⟩
  · rw [h4] at h; injection h with h; injection h with h _; exact h ▸ hi
  · rw [h4] at h; injection h with h; injection h with h _; exact h ▸ hi
  · rw [h4] at h; injection h with h; injection h with h _
    rw [← h]
    obtain ⟨hnf, _⟩ := hi.pt p f h1
    obtain ⟨hk, hev⟩ := hi.nonfree f page h2 hnf
    by_cases hz : page.pin_count_ - 1 = 0
    · rw [if_pos hz]
      exact hi.update_resident
        { page with is_dirty_ := page.is_dirty_ || d, pin_count_ := page.pin_count_ - 1 } h2 hnf
        rfl (LRUKReplacer.SetEvictable_inv hi.rinv f true)
        (LRUKReplacer.SetEvictable_misc _ f true).1 (LRUKReplacer.SetEvictable_keys _ f true)
        (fun g hg => LRUKReplacer.SetEvictable_other _ f g true hg)
        (by rw [LRUKReplacer.SetEvictable_flag _ f true hk, Function.update_same]; simp [hz])
        s.disk
    · rw [if_neg hz]
      exact hi.update_resident
        { page with is_dirty_ := page.is_dirty_ || d, pin_count_ := page.pin_count_ - 1 } h2 hnf
        rfl hi.rinv rfl rfl (fun g _ => rfl)
        (by
          constructor
          · intro he; exact absurd (hev.1 he) h3
          · intro he; exact absurd he hz)
        s.disk

/-- The two outcomes of `FlushPgImp` in a consistent pool. -/
theorem FlushPgImp_cases (s : BufferPoolManagerInstance D) (hi : Inv s) (p : page_id_t) :
    (s.page_table_ p = none ∧ FlushPgImp s p = some (s, false)) ∨
    (∃ f page, s.page_table_ p = some f ∧ s.pages_[f]? = some page ∧ page.page_id_ = p ∧
      FlushPgImp s p = some ({ s with
        disk := Function.update s.disk p page.data_,
        pages_ := s.pages_.set f { page with is_dirty_ := false } }, true)) := by
  cases hp : s.page_table_ p with
  | none => left; exact ⟨rfl, by simp [FlushPgImp, hp]⟩
  | some f =>
    right
    obtain ⟨_, page, hpg, hid⟩ := hi.pt p f hp
    exact ⟨f, page, rfl, hpg, hid, by simp [FlushPgImp, hp, hpg, hid]⟩

theorem FlushPgImp_inv {s s' : BufferPoolManagerInstance D} {p : page_id_t} {b : Bool}
    (hi : Inv s) (h : FlushPgImp s p = some (s', b)) : Inv s' := by
  rcases FlushPgImp_cases s hi p with ⟨_, h4⟩ | ⟨f, page, h1, h2, _, h4⟩
  · rw [h4] at h; injection h with h; injection h with h _; exact h ▸ hi
  · rw [h4] at h; injection h with h; injection h with h _
    rw [← h]
    obtain ⟨hnf, _⟩ := hi.pt p f h1
    obtain ⟨_, hev⟩ := hi.nonfree f page h2 hnf
    exact hi.update_resident { page with is_dirty_ := false } h2 hnf
      rfl hi.rinv rfl rfl (fun g _ => rfl) hev _

theorem flushFrom_inv : ∀ (n i : Nat) (s s' : BufferPoolManagerInstance D), Inv s →
    flushFrom s i n = some s' → Inv s' := by
  intro n
  induction n with
  | zero => intro i s s' hi h; simp only [flushFrom] at h; injection h with h; exact h ▸ hi
  | succ n ih =>
    intro i s s' hi h
    simp only [flushFrom] at h
    split at h
    · exact absurd h (by simp)
    · split at h
      · exact absurd h (by simp)
      · rename_i hf
        exact ih _ _ _ (FlushPgImp_inv hi hf) h

theorem FlushAllPgsImp_inv {s s' : BufferPoolManagerInstance D} (hi : Inv s)
    (h : FlushAllPgsImp s = some s') : Inv s' :=
  flushFrom_inv _ _ _ _ hi h

/-- The three outcomes of `DeletePgImp` in a consistent pool. -/
theorem DeletePgImp_cases [Zero D] (s : BufferPoolManagerInstance D) (hi : Inv s)
    (p : page_id_t) :
    (s.page_table_ p = none ∧ DeletePgImp s p = some (s, true)) ∨
    (∃ f page, s.page_table_ p = some f ∧ s.pages_[f]? = some page ∧ 0 < page.pin_count_ ∧
      DeletePgImp s p = some (s, false)) ∨
    (∃ f page, s.page_table_ p = some f ∧ s.pages_[f]? = some page ∧ page.pin_count_ = 0 ∧
      DeletePgImp s p = some ({ s with
        page_table_ := Function.update s.page_table_ p none,
        replacer_ := s.replacer_.SetEvictable f true,
        free_list_ := s.free_list_ ++ [f],
        pages_ := s.pages_.set f { page with data_ := 0 } }, true)) := by
  cases hp : s.page_table_ p with
  | none => left; exact ⟨rfl, by simp [DeletePgImp, hp]⟩
  | some f =>
    right
    obtain ⟨_, page, hpg, _⟩ := hi.pt p f hp
    by_cases hz : 0 < page.pin_count_
    · left; exact ⟨f, page, rfl, hpg, hz, by simp [DeletePgImp, hp, hpg, hz]⟩
    · right
      exact ⟨f, page, rfl, hpg, by omega, by simp [DeletePgImp, hp, hpg, hz]⟩

theorem DeletePgImp_inv [Zero D] {s s' : BufferPoolManagerInstance D} {p : page_id_t} {b : Bool}
    (hi : Inv s) (h : DeletePgImp s p = some (s', b)) : Inv s' := by
  rcases DeletePgImp_cases s hi p with ⟨_, h4⟩ | ⟨_, _, _, _, _, h4⟩ | ⟨f, page, h1, h2, h3, h4⟩
  · rw [h4] at h; injection h with h; injection h with h _; exact h ▸ hi
  · rw [h4] at h; injection h with h; injection h with h _; exact h ▸ hi
  · rw [h4] at h; injection h with h; injection h with h _
    rw [← h]
    obtain ⟨hnf, _⟩ := hi.pt p f h1
    have hflen : f < s.pages_.length := (List.getElem?_eq_some.1 h2).1
    refine ⟨by simp [hi.len], by simp [(LRUKReplacer.SetEvictable_misc _ f true).1, hi.rsize],
      LRUKReplacer.SetEvictable_inv hi.rinv f true, ?_, ?_, ?_, ?_, ?_⟩
    · intro g hg
      rw [LRUKReplacer.SetEvictable_keys] at hg
      exact hi.rep_lt g hg
    · intro p' g hp
      simp only at hp ⊢
      by_cases hpp : p' = p
      · subst hpp; simp at hp
      · rw [Function.update_noteq hpp] at hp
        obtain ⟨g1, pg, g2, g3⟩ := hi.pt p' g hp
        have hgf : g ≠ f := by
          intro e
          subst e
          obtain ⟨_, pg', g2', g3'⟩ := hi.pt p g h1
          rw [g2] at g2'; injection g2' with g2'
          exact hpp (by rw [← g3, g2', g3'])
        refine ⟨?_, pg, ?_, g3⟩
        · simp only [List.mem_append, List.mem_singleton, not_or]
          exact ⟨g1, hgf⟩
        · rw [List.getElem?_set_ne (Ne.symm hgf)]; exact g2
    · simp only
      exact List.Nodup.append hi.free_nodup (List.nodup_singleton f) (by simpa using hnf)
    · intro g hg
      simp only [List.mem_append, List.mem_singleton] at hg
      simp only
      by_cases hgf : g = f
      · subst hgf
        exact ⟨_, List.getElem?_set_self hflen, h3⟩
      · rcases hg with hg | hg
        · obtain ⟨pg, g1, g2⟩ := hi.free g hg
          exact ⟨pg, by rw [List.getElem?_set_ne (Ne.symm hgf)]; exact g1, g2⟩
        · exact absurd hg hgf
    · intro g pg hg hgnf
      simp only [List.mem_append, List.mem_singleton, not_or] at hg hgnf
      rw [List.getElem?_set_ne (Ne.symm hgnf.2)] at hg
      obtain ⟨g1, g2⟩ := hi.nonfree g pg hg hgnf.1
      simp only
      rw [LRUKReplacer.SetEvictable_keys, LRUKReplacer.SetEvictable_other _ f g true hgnf.2]
      exact ⟨g1, g2⟩

theorem writeData_inv {s s' : BufferPoolManagerInstance D} {f : frame_id_t} {d : D}
    (hi : Inv s) (h : writeData s f d = some s') : Inv s' := by
  unfold writeData at h
  split at h
  · exact absurd h (by simp)
  · rename_i page hpg
    injection h with h
    rw [← h]
    have hflen : f < s.pages_.length := (List.getElem?_eq_some.1 hpg).1
    refine ⟨by simp [hi.len], hi.rsize, hi.rinv, hi.rep_lt, ?_, hi.free_nodup, ?_, ?_⟩
    · intro p g hp
      obtain ⟨g1, pg, g2, g3⟩ := hi.pt p g hp
      refine ⟨g1, ?_⟩
      by_cases hgf : g = f
      · subst hgf
        rw [hpg] at g2; injection g2 with g2
        exact ⟨_, List.getElem?_set_self hflen, by rw [← g3, ← g2]⟩
      · exact ⟨pg, by simp only; rw [List.getElem?_set_ne (Ne.symm hgf)]; exact g2, g3⟩
    · intro g hg
      obtain ⟨pg, g1, g2⟩ := hi.free g hg
      by_cases hgf : g = f
      · subst hgf
        rw [hpg] at g1; injection g1 with g1
        exact ⟨_, List.getElem?_set_self hflen, by rw [← g2, ← g1]⟩
      · exact ⟨pg, by simp only; rw [List.getElem?_set_ne (Ne.symm hgf)]; exact g1, g2⟩
    · intro g pg hg hgnf
      simp only at hg hgnf ⊢
      by_cases hgf : g = f
      · subst hgf
        rw [List.getElem?_set_self hflen] at hg
        injection hg with hg
        subst hg
        exact hi.nonfree g page hpg hgnf
      · rw [List.getElem?_set_ne (Ne.symm hgf)] at hg
        exact hi.nonfree g pg hg hgnf

end BufferPoolManagerInstance

/-! ### Reachable pools and the contract of NewPage -/

namespace BufferPoolManagerInstance


variable {D : Type}

/-- The states of a pool of `pool_size` frames with an LRU-`k` replacer
(`k ≥ 1`) and initial disk contents `disk` that some sequence of calls, with
any arguments, leads to. -/
inductive Reachable [Zero D] (pool_size k : Nat) (disk : page_id_t → D) :
    BufferPoolManagerInstance D → Prop where
  | init : 0 < k → Reachable pool_size k disk (new pool_size k disk)
  | step {s s' : BufferPoolManagerInstance D} (op : Op D) :
      Reachable pool_size k disk s → applyOp s op = some s' → Reachable pool_size k disk s'

theorem applyOp_inv [Zero D] {s s' : BufferPoolManagerInstance D} (hi : Inv s) (op : Op D)
    (h : applyOp s op = some s') : Inv s' := by
  cases op with
  | newPage =>
    simp only [applyOp, Option.map_eq_some'] at h
    obtain ⟨⟨s1, r⟩, h1, h2⟩ := h
    exact h2 ▸ NewPgImp_inv hi h1
  | fetchPage p =>
    simp only [applyOp, Option.map_eq_some'] at h
    obtain ⟨⟨s1, r⟩, h1, h2⟩ := h
    exact h2 ▸ FetchPgImp_inv hi h1
  | unpinPage p d =>
    simp only [applyOp, Option.map_eq_some'] at h
    obtain ⟨⟨s1, r⟩, h1, h2⟩ := h
    exact h2 ▸ UnpinPgImp_inv hi h1
  | flushPage p =>
    simp only [applyOp, Option.map_eq_some'] at h
    obtain ⟨⟨s1, r⟩, h1, h2⟩ := h
    exact h2 ▸ FlushPgImp_inv hi h1
  | flushAllPages => exact FlushAllPgsImp_inv hi h
  | deletePage p =>
    simp only [applyOp, Option.map_eq_some'] at h
    obtain ⟨⟨s1, r⟩, h1, h2⟩ := h
    exact h2 ▸ DeletePgImp_inv hi h1
  | write f d => exact writeData_inv hi h

theorem Reachable.inv [Zero D] {n k : Nat} {d : page_id_t → D} {s : BufferPoolManagerInstance D}
    (h : Reachable n k d s) : Inv s := by
  induction h with
  | init _ => exact inv_new_pool n k d
  | step op _ hs ih => exact applyOp_inv ih op hs

theorem Reachable.run [Zero D] {n k : Nat} {d : page_id_t → D} :
    ∀ (ops : List (Op D)) {s s' : BufferPoolManagerInstance D}, Reachable n k d s →
      runOps s ops = some s' → Reachable n k d s' := by
  intro ops
  induction ops with
  | nil => intro s s' hr h; simp only [runOps] at h; injection h with h; exact h ▸ hr
  | cons op rest ih =>
    intro s s' hr h
    simp only [runOps] at h
    split at h
    · exact absurd h (by simp)
    · rename_i s1 h1
      exact ih (Reachable.step op hr h1) h

theorem map_fst_some {α β : Type} {o : Option (α × β)} {a : α} {b : β} (h : o = some (a, b)) :
    o.map Prod.fst = some a := by
  rw [h]; rfl

variable {D : Type}

/-- A pool with one frame and an LRU-2 replacer over an all-zero disk. -/
def pool1 : BufferPoolManagerInstance Nat := new 1 2 (fun _ => 0)

/-- The pool `pool1` after one `NewPage`: page 0 sits pinned in frame 0. -/
def pool1a : BufferPoolManagerInstance Nat := ((NewPgImp pool1).map Prod.fst).getD pool1

/-- The pool `pool1a` after `UnpinPage(0, false)`. -/
def pool1b : BufferPoolManagerInstance Nat :=
  ((UnpinPgImp pool1a 0 false).map Prod.fst).getD pool1

/-- The pool `pool1b` after a further `NewPage`. -/
def pool1c : BufferPoolManagerInstance Nat := ((NewPgImp pool1b).map Prod.fst).getD pool1

/-- C5. In every reachable buffer pool `NewPage` returns; it returns null
exactly when the free list is empty and no tracked frame is evictable, which
is exactly when every frame is pinned; otherwise it returns the newly
allocated page id `next_page_id_` and a frame that the page table now maps
that id to, with pin count 1, clean, and zeroed bytes. -/
theorem NewPage_null_iff_no_frame [Zero D] {n k : Nat} {d : page_id_t → D}
    (s : BufferPoolManagerInstance D) (h : Reachable n k d s) :
    ∃ s' res, NewPgImp s = some (s', res) ∧
      (res = none ↔ (s.free_list_ = [] ∧
        ∀ f, s.replacer_.tracked f = true → s.replacer_.is_evictable_ f = false)) ∧
      (res = none ↔ ∀ (f : frame_id_t) (pg : Page D), s.pages_[f]? = some pg → 0 < pg.pin_count_) ∧
      (∀ pid f, res = some (pid, f) → pid = s.next_page_id_ ∧ s'.page_table_ pid = some f ∧
        s'.pages_[f]? = some { data_ := 0, page_id_ := pid, pin_count_ := 1, is_dirty_ := false }) := by
  have hi := h.inv
  rcases NewPgImp_cases s hi with ⟨h1, h2, h3⟩ | ⟨s1, f, r, _, hm, _, h4, h5, h6⟩
  · refine ⟨s, none, h3, ?_, ?_, ?_⟩
    · simp only [true_iff]
      exact ⟨h1, fun f hf => h2 f ((LRUKReplacer.tracked_iff _ f).1 hf)⟩
    · simp only [true_iff]
      intro f pg hpg
      obtain ⟨g1, g2⟩ := hi.nonfree f pg hpg (by simp [h1])
      have := h2 f g1
      by_contra hc
      have hz : pg.pin_count_ = 0 := by omega
      rw [g2.2 hz] at this
      exact absurd this (by simp)
    · intro pid f hc; exact absurd hc (by simp)
  · refine ⟨_, _, h6, ?_, ?_, ?_⟩
    · constructor
      · intro hc; exact absurd hc (by simp)
      · rintro ⟨g1, g2⟩
        rcases h4 with h4 | ⟨g, g3, g4⟩
        · exact absurd g1 h4
        · rw [g2 g ((LRUKReplacer.tracked_iff _ g).2 g3)] at g4
          exact absurd g4 (by simp)
    · constructor
      · intro hc; exact absurd hc (by simp)
      · intro hall
        exfalso
        rcases h4 with h4 | ⟨g, g3, g4⟩
        · obtain ⟨x, rest, hx⟩ := List.exists_cons_of_ne_nil h4
          obtain ⟨pg, g1, g2⟩ := hi.free x (by rw [hx]; exact List.mem_cons_self _ _)
          have := hall x pg g1
          omega
        · have hlt : g < s.pages_.length := by rw [hi.len]; exact hi.rep_lt g g3
          have hpg := List.getElem?_eq_getElem hlt
          have hpos := hall g _ hpg
          by_cases hgf : g ∈ s.free_list_
          · obtain ⟨pg, g1, g2⟩ := hi.free g hgf
            rw [hpg] at g1; injection g1 with g1
            rw [g1] at hpos; omega
          · obtain ⟨_, g2⟩ := hi.nonfree g _ hpg hgf
            have := g2.1 g4
            omega
    · intro pid g hc
      injection hc with hc
      injection hc with hc1 hc2
      subst hc1; subst hc2
      have hlt : f < s1.pages_.length := by rw [hm.len]; exact hm.hf
      exact ⟨h5, by simp, by simp [List.getElem?_set_self hlt]⟩

/-- The scenario of C5 on a pool of one frame with K = 2: `NewPage` gives page
0 in frame 0, a second `NewPage` gives null, `UnpinPage(0, false)` returns
true, the next `NewPage` gives page 1 in frame 0 and page 0 is no longer
resident; and the general statement applied to the pool after the first call. -/
theorem NewPage_null_iff_no_frame_witness :
    (NewPgImp pool1).map Prod.snd = some (some (0, 0)) ∧
    (NewPgImp pool1a).map Prod.snd = some none ∧
    (UnpinPgImp pool1a 0 false).map Prod.snd = some true ∧
    (NewPgImp pool1b).map Prod.snd = some (some (1, 0)) ∧
    pool1c.page_table_ 0 = none ∧ pool1c.page_table_ 1 = some 0 ∧
    ∃ s' res, NewPgImp pool1a = some (s', res) ∧
      (res = none ↔ (pool1a.free_list_ = [] ∧
        ∀ f, pool1a.replacer_.tracked f = true → pool1a.replacer_.is_evictable_ f = false)) ∧
      (res = none ↔ ∀ (f : frame_id_t) (pg : Page Nat), pool1a.pages_[f]? = some pg →
        0 < pg.pin_count_) ∧
      (∀ pid f, res = some (pid, f) → pid = pool1a.next_page_id_ ∧
        s'.page_table_ pid = some f ∧
        s'.pages_[f]? = some { data_ := 0, page_id_ := pid, pin_count_ := 1, is_dirty_ := false }) :=
  ⟨by decide, by decide, by decide, by decide, by decide, by decide,
    NewPage_null_iff_no_frame pool1a
      (Reachable.run (n := 1) (k := 2) (d := fun _ => 0) [.newPage]
        (Reachable.init (by decide)) rfl)⟩

end BufferPoolManagerInstance

/-! ### The contracts of UnpinPage, DeletePage and FlushPage -/

namespace BufferPoolManagerInstance


variable {D : Type}

/-- C7. In every reachable buffer pool `UnpinPage(p, is_dirty)` returns; it
returns false exactly when `p` is not resident or the pin count of its frame
is zero, and then the pool is unchanged; otherwise it returns true, the pin
count of the frame of `p` has gone down by exactly one (its dirty flag is the
old flag or-ed with `is_dirty`, bytes and page id are kept), and the replacer
holds the frame as evictable exactly when the new pin count is zero. -/
theorem UnpinPage_contract [Zero D] {n k : Nat} {d : page_id_t → D}
    (s : BufferPoolManagerInstance D) (h : Reachable n k d s) (p : page_id_t) (is_dirty : Bool) :
    ∃ s' b, UnpinPgImp s p is_dirty = some (s', b) ∧
      (b = false ↔ (s.page_table_ p = none ∨
        ∃ (f : frame_id_t) (pg : Page D),
          s.page_table_ p = some f ∧ s.pages_[f]? = some pg ∧ pg.pin_count_ = 0)) ∧
      (b = false → s' = s) ∧
      (b = true → ∃ (f : frame_id_t) (pg pg' : Page D),
        s.page_table_ p = some f ∧ s.pages_[f]? = some pg ∧ s'.pages_[f]? = some pg' ∧
        pg'.pin_count_ + 1 = pg.pin_count_ ∧ pg'.is_dirty_ = (pg.is_dirty_ || is_dirty) ∧
        pg'.data_ = pg.data_ ∧ pg'.page_id_ = p ∧
        s'.replacer_.tracked f = true ∧
        (s'.replacer_.is_evictable_ f = true ↔ pg'.pin_count_ = 0)) := by
  have hi := h.inv
  rcases UnpinPgImp_cases s hi p is_dirty with ⟨h1, h4⟩ | ⟨f, page, h1, h2, h3, h4⟩ |
    ⟨f, page, h1, h2, h3, h4⟩
  · exact ⟨s, false, h4, by simp [h1], fun _ => rfl, fun hc => absurd hc (by simp)⟩
  · refine ⟨s, false, h4, ?_, fun _ => rfl, fun hc => absurd hc (by simp)⟩
    simp only [true_iff]
    exact Or.inr ⟨f, page, h1, h2, h3⟩
  · have hi' := UnpinPgImp_inv hi h4
    have hflen : f < s.pages_.length := (List.getElem?_eq_some.1 h2).1
    obtain ⟨hnf, pg0, hpg0, hid⟩ := hi.pt p f h1
    rw [h2] at hpg0; injection hpg0 with hpg0; subst hpg0
    refine ⟨_, true, h4, ?_, fun hc => absurd hc (by simp), fun _ => ?_⟩
    · constructor
      · intro hc; exact absurd hc (by simp)
      · rintro (g | ⟨g, pg, g1, g2, g3⟩)
        · rw [h1] at g; exact absurd g (by simp)
        · rw [h1] at g1; injection g1 with g1; subst g1
          rw [h2] at g2; injection g2 with g2; subst g2
          exact absurd g3 h3
    · have hnew := hi'.nonfree f
        { page with is_dirty_ := page.is_dirty_ || is_dirty, pin_count_ := page.pin_count_ - 1 }
        (by simp [List.getElem?_set_self hflen]) hnf
      refine ⟨f, page,
        { page with is_dirty_ := page.is_dirty_ || is_dirty, pin_count_ := page.pin_count_ - 1 },
        h1, h2, by simp [List.getElem?_set_self hflen], ?_, rfl, rfl, hid,
        (LRUKReplacer.tracked_iff _ f).2 hnew.1, hnew.2⟩
      simp only
      omega

/-- The statement of C7 at the pool `pool1a` (page 0 pinned once in frame 0),
for `UnpinPage(0, false)`. -/
theorem UnpinPage_contract_witness :
    (UnpinPgImp pool1a 0 false).map Prod.snd = some true ∧
    (UnpinPgImp pool1b 0 false).map Prod.snd = some false ∧
    (UnpinPgImp pool1a 7 true).map Prod.snd = some false ∧
    ∃ s' b, UnpinPgImp pool1a 0 false = some (s', b) ∧
      (b = false ↔ (pool1a.page_table_ 0 = none ∨
        ∃ (f : frame_id_t) (pg : Page Nat),
          pool1a.page_table_ 0 = some f ∧ pool1a.pages_[f]? = some pg ∧ pg.pin_count_ = 0)) ∧
      (b = false → s' = pool1a) ∧
      (b = true → ∃ (f : frame_id_t) (pg pg' : Page Nat),
        pool1a.page_table_ 0 = some f ∧ pool1a.pages_[f]? = some pg ∧ s'.pages_[f]? = some pg' ∧
        pg'.pin_count_ + 1 = pg.pin_count_ ∧ pg'.is_dirty_ = (pg.is_dirty_ || false) ∧
        pg'.data_ = pg.data_ ∧ pg'.page_id_ = 0 ∧
        s'.replacer_.tracked f = true ∧
        (s'.replacer_.is_evictable_ f = true ↔ pg'.pin_count_ = 0)) :=
  ⟨by decide, by decide, by decide, UnpinPage_contract pool1a
    (Reachable.run (n := 1) (k := 2) (d := fun _ => 0) [.newPage]
      (Reachable.init (by decide)) rfl) 0 false⟩

/-- C8. In every reachable buffer pool `DeletePage(p)` returns; when `p` is
not resident it returns true and the pool is unchanged; when `p` is resident
with a positive pin count it returns false and the pool is unchanged;
otherwise it returns true, `p` has left the page table, its frame occurs in
the free list exactly once, the frame's bytes are zero, and a following
`FetchPage(p)` is a miss: it takes the frame at the front of the free list
and fills it from the disk. -/
theorem DeletePage_contract [Zero D] {n k : Nat} {d : page_id_t → D}
    (s : BufferPoolManagerInstance D) (h : Reachable n k d s) (p : page_id_t) :
    ∃ s' b, DeletePgImp s p = some (s', b) ∧
      (s.page_table_ p = none → b = true ∧ s' = s) ∧
      (∀ (f : frame_id_t) (pg : Page D), s.page_table_ p = some f → s.pages_[f]? = some pg →
        0 < pg.pin_count_ → b = false ∧ s' = s) ∧
      (∀ (f : frame_id_t) (pg : Page D), s.page_table_ p = some f → s.pages_[f]? = some pg →
        pg.pin_count_ = 0 →
        b = true ∧ s'.page_table_ p = none ∧ s'.free_list_.count f = 1 ∧
        (∃ pg' : Page D, s'.pages_[f]? = some pg' ∧ pg'.data_ = 0) ∧
        (∃ s'' g, FetchPgImp s' p = some (s'', some g) ∧ s'.free_list_.head? = some g ∧
          s''.pages_[g]? =
            some { data_ := s'.disk p, page_id_ := p, pin_count_ := 1, is_dirty_ := false })) := by
  have hi := h.inv
  rcases DeletePgImp_cases s hi p with ⟨h1, h4⟩ | ⟨f, page, h1, h2, h3, h4⟩ |
    ⟨f, page, h1, h2, h3, h4⟩
  · refine ⟨s, true, h4, fun _ => ⟨rfl, rfl⟩, ?_, ?_⟩ <;>
      (intro g pg g1; rw [h1] at g1; exact absurd g1 (by simp))
  · refine ⟨s, false, h4, fun hc => ?_, fun _ _ _ _ _ => ⟨rfl, rfl⟩, ?_⟩
    · rw [h1] at hc; exact absurd hc (by simp)
    · intro g pg g1 g2 g3
      rw [h1] at g1; injection g1 with g1; subst g1
      rw [h2] at g2; injection g2 with g2; subst g2
      omega
  · have hi' := DeletePgImp_inv hi h4
    have hflen : f < s.pages_.length := (List.getElem?_eq_some.1 h2).1
    obtain ⟨hnf, _⟩ := hi.pt p f h1
    refine ⟨_, true, h4, fun hc => ?_, ?_, ?_⟩
    · rw [h1] at hc; exact absurd hc (by simp)
    · intro g pg g1 g2 g3
      rw [h1] at g1; injection g1 with g1; subst g1
      rw [h2] at g2; injection g2 with g2; subst g2
      omega
    · intro g pg g1 _ _
      rw [h1] at g1; injection g1 with g1; subst g1
      refine ⟨rfl, by simp, ?_,
        ⟨{ page with data_ := 0 }, by simp [List.getElem?_set_self hflen], rfl⟩, ?_⟩
      · simp only [List.count_append, List.count_singleton_self]
        rw [List.count_eq_zero_of_not_mem hnf]
      · rcases FetchPgImp_cases _ hi' p with ⟨f', _, _, g1, _⟩ | ⟨_, g2, _⟩ |
          ⟨s1, f', r, _, g2, g3, _, g5⟩
        · simp at g1
        · simp at g2
        · rcases acquireFrame_cases _ hi' with ⟨x, rest, e1, e2⟩ | ⟨e1, _⟩ | ⟨_, _, e1, _⟩
          · rw [e2] at g2
            injection g2 with g2
            injection g2 with g2a g2b
            injection g2b with g2b
            subst g2b
            refine ⟨_, x, g5, by rw [e1]; rfl, ?_⟩
            have hlt : x < s1.pages_.length := by rw [g3.len]; exact g3.hf
            simp only [List.getElem?_set_self hlt]
            rw [← g2a]
          · simp at e1
          · simp at e1

/-- The statement of C8 at the pool `pool1b` (page 0 resident in frame 0 and
unpinned): `DeletePage(0)` frees the frame. -/
theorem DeletePage_contract_witness :
    (DeletePgImp pool1b 0).map Prod.snd = some true ∧
    (DeletePgImp pool1a 0).map Prod.snd = some false ∧
    (DeletePgImp pool1a 7).map Prod.snd = some true ∧
    ∃ s' b, DeletePgImp pool1b 0 = some (s', b) ∧
      (pool1b.page_table_ 0 = none → b = true ∧ s' = pool1b) ∧
      (∀ (f : frame_id_t) (pg : Page Nat), pool1b.page_table_ 0 = some f →
        pool1b.pages_[f]? = some pg → 0 < pg.pin_count_ → b = false ∧ s' = pool1b) ∧
      (∀ (f : frame_id_t) (pg : Page Nat), pool1b.page_table_ 0 = some f →
        pool1b.pages_[f]? = some pg → pg.pin_count_ = 0 →
        b = true ∧ s'.page_table_ 0 = none ∧ s'.free_list_.count f = 1 ∧
        (∃ pg' : Page Nat, s'.pages_[f]? = some pg' ∧ pg'.data_ = 0) ∧
        (∃ s'' g, FetchPgImp s' 0 = some (s'', some g) ∧ s'.free_list_.head? = some g ∧
          s''.pages_[g]? =
            some { data_ := s'.disk 0, page_id_ := 0, pin_count_ := 1, is_dirty_ := false })) :=
  ⟨by decide, by decide, by decide, DeletePage_contract pool1b
    (Reachable.run (n := 1) (k := 2) (d := fun _ => 0) [.newPage, .unpinPage 0 false]
      (Reachable.init (by decide)) rfl) 0⟩

/-- C9. In every reachable buffer pool `FlushPage(p)` returns; on a
non-resident page it returns false and nothing changes, the disk included; on
a resident page it returns true, the disk now holds the frame's bytes under
page id `p` (whatever the dirty flag was), the frame's dirty flag is clear,
and pin counts, bytes, page table, free list, replacer and page-id counter
are unchanged. -/
theorem FlushPage_contract [Zero D] {n k : Nat} {d : page_id_t → D}
    (s : BufferPoolManagerInstance D) (h : Reachable n k d s) (p : page_id_t) :
    ∃ s' b, FlushPgImp s p = some (s', b) ∧
      (s.page_table_ p = none → b = false ∧ s' = s) ∧
      (∀ (f : frame_id_t) (pg : Page D), s.page_table_ p = some f → s.pages_[f]? = some pg →
        b = true ∧ s'.disk = Function.update s.disk p pg.data_ ∧
        s'.pages_ = s.pages_.set f { pg with is_dirty_ := false } ∧
        s'.page_table_ = s.page_table_ ∧ s'.free_list_ = s.free_list_ ∧
        s'.replacer_ = s.replacer_ ∧ s'.next_page_id_ = s.next_page_id_ ∧
        s'.pool_size_ = s.pool_size_) := by
  have hi := h.inv
  rcases FlushPgImp_cases s hi p with ⟨h1, h4⟩ | ⟨f, page, h1, h2, h3, h4⟩
  · refine ⟨s, false, h4, fun _ => ⟨rfl, rfl⟩, ?_⟩
    intro g pg g1; rw [h1] at g1; exact absurd g1 (by simp)
  · refine ⟨_, true, h4, fun hc => ?_, ?_⟩
    · rw [h1] at hc; exact absurd hc (by simp)
    · intro g pg g1 g2
      rw [h1] at g1; injection g1 with g1; subst g1
      rw [h2] at g2; injection g2 with g2; subst g2
      exact ⟨rfl, rfl, rfl, rfl, rfl, rfl, rfl, rfl⟩

/-- The statement of C9 at the pool `pool1a`, for `FlushPage(0)` on the clean
resident page 0. -/
theorem FlushPage_contract_witness :
    (FlushPgImp pool1a 0).map Prod.snd = some true ∧
    (FlushPgImp pool1a 7).map Prod.snd = some false ∧
    ∃ s' b, FlushPgImp pool1a 0 = some (s', b) ∧
      (pool1a.page_table_ 0 = none → b = false ∧ s' = pool1a) ∧
      (∀ (f : frame_id_t) (pg : Page Nat), pool1a.page_table_ 0 = some f →
        pool1a.pages_[f]? = some pg →
        b = true ∧ s'.disk = Function.update pool1a.disk 0 pg.data_ ∧
        s'.pages_ = pool1a.pages_.set f { pg with is_dirty_ := false } ∧
        s'.page_table_ = pool1a.page_table_ ∧ s'.free_list_ = pool1a.free_list_ ∧
        s'.replacer_ = pool1a.replacer_ ∧ s'.next_page_id_ = pool1a.next_page_id_ ∧
        s'.pool_size_ = pool1a.pool_size_) :=
  ⟨by decide, by decide, FlushPage_contract pool1a
    (Reachable.run (n := 1) (k := 2) (d := fun _ => 0) [.newPage]
      (Reachable.init (by decide)) rfl) 0⟩

end BufferPoolManagerInstance

/-! ### Stickiness of the dirty flag -/

namespace BufferPoolManagerInstance


variable {D : Type}

/-- How a frame handed out by `acquireFrame` was obtained. -/
theorem acquireFrame_some {s s1 : BufferPoolManagerInstance D} {g : frame_id_t} (hi : Inv s)
    (h : acquireFrame s = some (s1, some g)) :
    (∃ rest, s.free_list_ = g :: rest ∧ s1 = { s with free_list_ := rest }) ∨
    (∃ page, s.free_list_ = [] ∧ g ∈ s.replacer_.keys ∧ s.replacer_.is_evictable_ g = true ∧
      s.pages_[g]? = some page ∧
      s1 = { s with
        replacer_ := s.replacer_.dropFrame g,
        disk := if page.is_dirty_ then Function.update s.disk page.page_id_ page.data_ else s.disk,
        page_table_ := Function.update s.page_table_ page.page_id_ none }) := by
  rcases acquireFrame_cases s hi with ⟨f, rest, e1, e2⟩ | ⟨_, _, e2⟩ | ⟨f, page, e1, e3, e4, e5, e2⟩
  · rw [e2] at h
    injection h with h; injection h with h1 h2; injection h2 with h2
    subst h2
    exact Or.inl ⟨rest, e1, h1.symm⟩
  · rw [e2] at h
    injection h with h; injection h with h1 h2
    exact absurd h2 (by simp)
  · rw [e2] at h
    injection h with h; injection h with h1 h2; injection h2 with h2
    subst h2
    exact Or.inr ⟨page, e1, e3, e4, e5, h1.symm⟩

/-- Taking a frame for a new page leaves the array of frames alone, and when
the frame taken is the one of a resident dirty page `p`, the disk holds the
bytes of `p` afterwards. -/
theorem acquireFrame_dirty {s s1 : BufferPoolManagerInstance D} {g f : frame_id_t} (hi : Inv s)
    (h : acquireFrame s = some (s1, some g)) {p : page_id_t} {pg : Page D}
    (hp : s.page_table_ p = some f) (hpg : s.pages_[f]? = some pg) (hd : pg.is_dirty_ = true) :
    s1.pages_ = s.pages_ ∧ (g = f → s1.disk p = pg.data_) := by
  obtain ⟨hnf, pg0, hpg0, hid⟩ := hi.pt p f hp
  rw [hpg] at hpg0; injection hpg0 with hpg0; subst hpg0
  rcases acquireFrame_some hi h with ⟨rest, e1, e2⟩ | ⟨page, e1, _, _, e4, e2⟩
  · subst e2
    refine ⟨rfl, fun e => ?_⟩
    subst e
    exact absurd (by rw [e1]; exact List.mem_cons_self _ _) hnf
  · subst e2
    refine ⟨rfl, fun e => ?_⟩
    subst e
    rw [hpg] at e4; injection e4 with e4; subst e4
    show (if pg.is_dirty_ = true then Function.update s.disk pg.page_id_ pg.data_
      else s.disk) p = pg.data_
    rw [if_pos hd, ← hid, Function.update_same]

theorem flushFrom_pages_length : ∀ (n i : Nat) (s s' : BufferPoolManagerInstance D),
    flushFrom s i n = some s' → s'.pages_.length = s.pages_.length := by
  intro n
  induction n with
  | zero => intro i s s' h; simp only [flushFrom] at h; injection h with h; rw [h]
  | succ n ih =>
    intro i s s' h
    simp only [flushFrom] at h
    split at h
    · exact absurd h (by simp)
    · split at h
      · exact absurd h (by simp)
      · rename_i s1 b hf
        rw [ih _ _ _ h]
        unfold FlushPgImp at hf
        split at hf
        · injection hf with hf; injection hf with hf _; rw [← hf]
        · split at hf
          · exact absurd hf (by simp)
          · injection hf with hf; injection hf with hf _; rw [← hf]; simp

/-- The pool `pool1` after `NewPage`, a store of the bytes 42 into frame 0
and `UnpinPage(0, true)`: page 0 is resident in frame 0, unpinned and dirty. -/
def pool1d : BufferPoolManagerInstance Nat :=
  (runOps pool1 [.newPage, .write 0 42, .unpinPage 0 true]).getD pool1

end BufferPoolManagerInstance

/-! ### Bytes of an evicted page -/

namespace BufferPoolManagerInstance


variable {D : Type}

/-- Page id `p` has no stale copy: a frame outside the free list that carries
page id `p` is the frame the page table maps `p` to. -/
def Sole (s : BufferPoolManagerInstance D) (p : page_id_t) : Prop :=
  ∀ (g : frame_id_t) (pg : Page D), s.pages_[g]? = some pg → g ∉ s.free_list_ →
    pg.page_id_ = p → s.page_table_ p = some g

/-- The bytes `d0` of page `p` are safe: `p` is resident with these bytes and
is dirty or already on disk with them, or `p` is not resident and the disk
holds them. -/
def Kept (s : BufferPoolManagerInstance D) (p : page_id_t) (d0 : D) : Prop :=
  (∃ (f : frame_id_t) (pg : Page D), s.page_table_ p = some f ∧ s.pages_[f]? = some pg ∧
    pg.data_ = d0 ∧ (pg.is_dirty_ = true ∨ s.disk p = d0)) ∨
  (s.page_table_ p = none ∧ s.disk p = d0)

/-- Every resident page id has been handed out by `NewPage`. -/
def Alloc (s : BufferPoolManagerInstance D) : Prop :=
  ∀ (q : page_id_t) (g : frame_id_t), s.page_table_ q = some g → q < s.next_page_id_

theorem sole_set {s s' : BufferPoolManagerInstance D} {p : page_id_t} (hs : Sole s p)
    {g : frame_id_t} {page : Page D} (page' : Page D) (hpg : s.pages_[g]? = some page)
    (hid : page'.page_id_ = page.page_id_) (h1 : s'.pages_ = s.pages_.set g page')
    (h2 : s'.free_list_ = s.free_list_) (h3 : s'.page_table_ = s.page_table_) : Sole s' p := by
  intro x pgx hx hxnf hxp
  rw [h3]
  rw [h1] at hx
  rw [h2] at hxnf
  have hglen : g < s.pages_.length := (List.getElem?_eq_some.1 hpg).1
  by_cases hxg : x = g
  · subst hxg
    rw [List.getElem?_set_self hglen] at hx
    injection hx with hx
    subst hx
    exact hs x page hpg hxnf (hid ▸ hxp)
  · rw [List.getElem?_set_ne (Ne.symm hxg)] at hx
    exact hs x pgx hx hxnf hxp

theorem install_sole {s s1 : BufferPoolManagerInstance D} {g : frame_id_t} {p : page_id_t}
    (hi : Inv s) (hs : Sole s p) (ha : acquireFrame s = some (s1, some g)) (q : page_id_t)
    (hq : q ≠ p ∨ s.page_table_ p = none) (dq : D) (nn : page_id_t) (r : LRUKReplacer) :
    Sole { s1 with
      pages_ := s1.pages_.set g { data_ := dq, page_id_ := q, pin_count_ := 1, is_dirty_ := false },
      page_table_ := Function.update s1.page_table_ q (some g),
      next_page_id_ := nn,
      replacer_ := r } p := by
  intro x pgx hx hxnf hxp
  simp only at hx hxnf ⊢
  by_cases hxg : x = g
  · subst hxg
    have hlt : x < s1.pages_.length := by
      have := (List.getElem?_eq_some.1 hx).1
      simpa using this
    rw [List.getElem?_set_self hlt] at hx
    injection hx with hx
    subst hx
    simp only at hxp
    subst hxp
    rw [Function.update_same]
  · rw [List.getElem?_set_ne (Ne.symm hxg)] at hx
    rcases acquireFrame_some hi ha with ⟨rest, e1, e2⟩ | ⟨page, e1, _, _, e4, e2⟩
    · subst e2
      simp only at hx hxnf ⊢
      have hxs : x ∉ s.free_list_ := by
        rw [e1]
        intro hm
        rcases List.mem_cons.1 hm with hm | hm
        · exact hxg hm
        · exact hxnf hm
      have ht := hs x pgx hx hxs hxp
      have hqp : q ≠ p := by
        rcases hq with hq | hq
        · exact hq
        · rw [hq] at ht; exact absurd ht (by simp)
      rw [Function.update_noteq (Ne.symm hqp)]
      exact ht
    · subst e2
      simp only at hx hxnf ⊢
      have ht := hs x pgx hx hxnf hxp
      have hqp : q ≠ p := by
        rcases hq with hq | hq
        · exact hq
        · rw [hq] at ht; exact absurd ht (by simp)
      have hpp : page.page_id_ ≠ p := by
        intro e
        have := hs g page e4 (by rw [e1]; simp) e
        rw [this] at ht
        injection ht with ht
        exact hxg ht.symm
      rw [Function.update_noteq (Ne.symm hqp), Function.update_noteq (Ne.symm hpp)]
      exact ht

theorem install_kept {s s1 : BufferPoolManagerInstance D} {g : frame_id_t} {p : page_id_t}
    {d0 : D} (hi : Inv s) (hs : Sole s p) (hk : Kept s p d0)
    (ha : acquireFrame s = some (s1, some g)) (q : page_id_t) (hq : q ≠ p) (dq : D)
    (nn : page_id_t) (r : LRUKReplacer) :
    Kept { s1 with
      pages_ := s1.pages_.set g { data_ := dq, page_id_ := q, pin_count_ := 1, is_dirty_ := false },
      page_table_ := Function.update s1.page_table_ q (some g),
      next_page_id_ := nn,
      replacer_ := r } p d0 := by
  rcases hk with ⟨f, pg, k1, k2, k3, k4⟩ | ⟨k1, k2⟩
  · obtain ⟨hnf, pg0, hpg0, hid⟩ := hi.pt p f k1
    rw [k2] at hpg0; injection hpg0 with hpg0; subst hpg0
    rcases acquireFrame_some hi ha with ⟨rest, e1, e2⟩ | ⟨page, e1, _, _, e4, e2⟩
    · subst e2
      have hgf : g ≠ f := fun e => hnf (by rw [e1, ← e]; exact List.mem_cons_self _ _)
      left
      refine ⟨f, pg, ?_, ?_, k3, k4⟩
      · simp only; rw [Function.update_noteq (Ne.symm hq)]; exact k1
      · simp only; rw [List.getElem?_set_ne hgf]; exact k2
    · subst e2
      by_cases hgf : g = f
      · subst hgf
        rw [k2] at e4; injection e4 with e4; subst e4
        right
        refine ⟨?_, ?_⟩
        · simp only
          rw [Function.update_noteq (Ne.symm hq), hid, Function.update_same]
        · simp only
          cases hdirty : pg.is_dirty_
          · rcases k4 with k4 | k4
            · rw [hdirty] at k4; exact absurd k4 (by simp)
            · simpa using k4
          · simp only [if_true]
            rw [hid, Function.update_same]; exact k3
      · have hpp : page.page_id_ ≠ p := by
          intro e
          have := hs g page e4 (by rw [e1]; simp) e
          rw [this] at k1
          injection k1 with k1
          exact hgf k1
        left
        refine ⟨f, pg, ?_, ?_, k3, ?_⟩
        · simp only
          rw [Function.update_noteq (Ne.symm hq), Function.update_noteq (Ne.symm hpp)]; exact k1
        · simp only; rw [List.getElem?_set_ne hgf]; exact k2
        · rcases k4 with k4 | k4
          · exact Or.inl k4
          · right
            simp only
            split
            · rw [Function.update_noteq (Ne.symm hpp)]; exact k4
            · exact k4
  · right
    rcases acquireFrame_some hi ha with ⟨rest, e1, e2⟩ | ⟨page, e1, _, _, e4, e2⟩
    · subst e2
      refine ⟨?_, k2⟩
      simp only; rw [Function.update_noteq (Ne.symm hq)]; exact k1
    · subst e2
      have hpp : page.page_id_ ≠ p := by
        intro e
        have := hs g page e4 (by rw [e1]; simp) e
        rw [this] at k1
        exact absurd k1 (by simp)
      refine ⟨?_, ?_⟩
      · simp only
        rw [Function.update_noteq (Ne.symm hq), Function.update_noteq (Ne.symm hpp)]; exact k1
      · simp only
        split
        · rw [Function.update_noteq (Ne.symm hpp)]; exact k2
        · exact k2

/-- Changing the metadata of the frame of a page other than `p` keeps the
bytes of `p` safe. -/
theorem kept_set {s s' : BufferPoolManagerInstance D} {p q : page_id_t} {d0 : D} (hi : Inv s)
    (hk : Kept s p d0) {g : frame_id_t} (page' : Page D) (hq : s.page_table_ q = some g)
    (hqp : q ≠ p) (h1 : s'.pages_ = s.pages_.set g page')
    (h3 : s'.page_table_ = s.page_table_) (h4 : s'.disk = s.disk) : Kept s' p d0 := by
  rcases hk with ⟨f, pg, k1, k2, k3, k4⟩ | ⟨k1, k2⟩
  · left
    have hgf : g ≠ f := by
      intro e
      subst e
      obtain ⟨_, pg1, g1, g2⟩ := hi.pt q g hq
      obtain ⟨_, pg2, g3, g4⟩ := hi.pt p g k1
      rw [g1] at g3; injection g3 with g3
      exact hqp (by rw [← g2, g3, g4])
    exact ⟨f, pg, by rw [h3]; exact k1, by rw [h1, List.getElem?_set_ne hgf]; exact k2, k3,
      by rw [h4]; exact k4⟩
  · right
    exact ⟨by rw [h3]; exact k1, by rw [h4]; exact k2⟩


variable {D : Type}

theorem flushPg_sole {s s' : BufferPoolManagerInstance D} {p q : page_id_t} {b : Bool}
    (hi : Inv s) (hs : Sole s p) (h : FlushPgImp s q = some (s', b)) : Sole s' p := by
  rcases FlushPgImp_cases s hi q with ⟨_, h4⟩ | ⟨g, page, _, e2, _, h4⟩
  · rw [h4] at h; injection h with h; injection h with h _; exact h ▸ hs
  · rw [h4] at h; injection h with h; injection h with h _
    subst h
    exact sole_set hs { page with is_dirty_ := false } e2 rfl rfl rfl rfl

theorem flushPg_same {s s' : BufferPoolManagerInstance D} {q : page_id_t} {b : Bool}
    (h : FlushPgImp s q = some (s', b)) :
    s'.page_table_ = s.page_table_ ∧ s'.next_page_id_ = s.next_page_id_ := by
  unfold FlushPgImp at h
  split at h
  · injection h with h; injection h with h _; subst h; exact ⟨rfl, rfl⟩
  · split at h
    · exact absurd h (by simp)
    · injection h with h; injection h with h _; subst h; exact ⟨rfl, rfl⟩

theorem flushFrom_sole {p : page_id_t} : ∀ (n i : Nat) (s s' : BufferPoolManagerInstance D),
    Inv s → Sole s p → flushFrom s i n = some s' → Sole s' p := by
  intro n
  induction n with
  | zero => intro i s s' _ hs h; simp only [flushFrom] at h; injection h with h; exact h ▸ hs
  | succ n ih =>
    intro i s s' hi hs h
    simp only [flushFrom] at h
    split at h
    · exact absurd h (by simp)
    · split at h
      · exact absurd h (by simp)
      · rename_i hf
        exact ih _ _ _ (FlushPgImp_inv hi hf) (flushPg_sole hi hs hf) h

theorem flushFrom_same : ∀ (n i : Nat) (s s' : BufferPoolManagerInstance D),
    flushFrom s i n = some s' →
    s'.page_table_ = s.page_table_ ∧ s'.next_page_id_ = s.next_page_id_ := by
  intro n
  induction n with
  | zero => intro i s s' h; simp only [flushFrom] at h; injection h with h; subst h; exact ⟨rfl, rfl⟩
  | succ n ih =>
    intro i s s' h
    simp only [flushFrom] at h
    split at h
    · exact absurd h (by simp)
    · split at h
      · exact absurd h (by simp)
      · rename_i hf
        obtain ⟨a, b⟩ := ih _ _ _ h
        obtain ⟨a', b'⟩ := flushPg_same hf
        exact ⟨a.trans a', b.trans b'⟩

/-- No call creates a stale copy of page `p`, provided `NewPage` does not
hand out the id `p` while `p` is resident. -/
theorem applyOp_sole [Zero D] {s s' : BufferPoolManagerInstance D} {p : page_id_t} (hi : Inv s)
    (hs : Sole s p) (op : Op D)
    (hn : op = .newPage → s.next_page_id_ ≠ p ∨ s.page_table_ p = none)
    (h : applyOp s op = some s') : Sole s' p := by
  cases op with
  | newPage =>
    simp only [applyOp, Option.map_eq_some'] at h
    obtain ⟨⟨s1', r'⟩, h1, h2⟩ := h
    simp only at h2; subst h2
    rcases NewPgImp_cases s hi with ⟨_, _, h3⟩ | ⟨s1, g, r, ha, _, _, _, h5, h6⟩
    · rw [h3] at h1; injection h1 with h1; injection h1 with h1 _
      exact h1 ▸ hs
    · rw [h6] at h1; injection h1 with h1; injection h1 with h1 _
      subst h1
      exact install_sole hi hs ha _ (by rw [h5]; exact hn rfl) _ _ _
  | fetchPage q =>
    simp only [applyOp, Option.map_eq_some'] at h
    obtain ⟨⟨s1', r'⟩, h1, h2⟩ := h
    simp only at h2; subst h2
    rcases FetchPgImp_cases s hi q with ⟨g, page, r, _, e2, _, h4⟩ | ⟨_, _, _, h4⟩ |
      ⟨s1, g, r, e1, ha, _, _, h4⟩
    · rw [h4] at h1; injection h1 with h1; injection h1 with h1 _
      subst h1
      exact sole_set hs { page with pin_count_ := page.pin_count_ + 1 } e2 rfl rfl rfl rfl
    · rw [h4] at h1; injection h1 with h1; injection h1 with h1 _
      exact h1 ▸ hs
    · rw [h4] at h1; injection h1 with h1; injection h1 with h1 _
      subst h1
      refine install_sole hi hs ha q ?_ _ _ _
      by_cases hqp : q = p
      · right; rw [← hqp]; exact e1
      · left; exact hqp
  | unpinPage q b =>
    simp only [applyOp, Option.map_eq_some'] at h
    obtain ⟨⟨s1', r'⟩, h1, h2⟩ := h
    simp only at h2; subst h2
    rcases UnpinPgImp_cases s hi q b with ⟨_, h4⟩ | ⟨_, _, _, _, _, h4⟩ | ⟨g, page, _, e2, _, h4⟩
    · rw [h4] at h1; injection h1 with h1; injection h1 with h1 _
      exact h1 ▸ hs
    · rw [h4] at h1; injection h1 with h1; injection h1 with h1 _
      exact h1 ▸ hs
    · rw [h4] at h1; injection h1 with h1; injection h1 with h1 _
      subst h1
      exact sole_set hs
        { page with is_dirty_ := page.is_dirty_ || b, pin_count_ := page.pin_count_ - 1 }
        e2 rfl rfl rfl rfl
  | flushPage q =>
    simp only [applyOp, Option.map_eq_some'] at h
    obtain ⟨⟨s1', r'⟩, h1, h2⟩ := h
    simp only at h2; subst h2
    exact flushPg_sole hi hs h1
  | flushAllPages => exact flushFrom_sole _ _ _ _ hi hs h
  | deletePage q =>
    simp only [applyOp, Option.map_eq_some'] at h
    obtain ⟨⟨s1', r'⟩, h1, h2⟩ := h
    simp only at h2; subst h2
    rcases DeletePgImp_cases s hi q with ⟨_, h4⟩ | ⟨_, _, _, _, _, h4⟩ | ⟨f, page, e1, e2, _, h4⟩
    · rw [h4] at h1; injection h1 with h1; injection h1 with h1 _
      exact h1 ▸ hs
    · rw [h4] at h1; injection h1 with h1; injection h1 with h1 _
      exact h1 ▸ hs
    · rw [h4] at h1; injection h1 with h1; injection h1 with h1 _
      subst h1
      intro x pgx hx hxnf hxp
      simp only [List.mem_append, List.mem_singleton, not_or] at hx hxnf ⊢
      rw [List.getElem?_set_ne (Ne.symm hxnf.2)] at hx
      have ht := hs x pgx hx hxnf.1 hxp
      have hqp : q ≠ p := by
        intro e
        subst e
        rw [e1] at ht; injection ht with ht
        exact hxnf.2 ht.symm
      rw [Function.update_noteq (Ne.symm hqp)]
      exact ht
  | write g dd =>
    simp only [applyOp, writeData] at h
    split at h
    · exact absurd h (by simp)
    · rename_i page e2
      injection h with h
      subst h
      exact sole_set hs { page with data_ := dd } e2 rfl rfl rfl rfl

/-- The states a client reaches that fetches only page ids that `NewPage`
has handed out (ids below `next_page_id_`); all other calls are free. -/
inductive ReachableAlloc [Zero D] (pool_size k : Nat) (disk : page_id_t → D) :
    BufferPoolManagerInstance D → Prop where
  | init : 0 < k → ReachableAlloc pool_size k disk (new pool_size k disk)
  | step {s s' : BufferPoolManagerInstance D} (op : Op D) :
      ReachableAlloc pool_size k disk s → (∀ q, op = .fetchPage q → q < s.next_page_id_) →
      applyOp s op = some s' → ReachableAlloc pool_size k disk s'

/-- The pool after a sequence of calls in which every `FetchPage` is on an
allocated page id; `none` when a call does not return or fetches another id. -/
def runAlloc [Zero D] (s : BufferPoolManagerInstance D) :
    List (Op D) → Option (BufferPoolManagerInstance D)
  | [] => some s
  | op :: rest =>
    let ok : Bool := match op with
      | .fetchPage q => decide (q < s.next_page_id_)
      | _ => true
    if ok then
      match applyOp s op with
      | none => none
      | some s1 => runAlloc s1 rest
    else none

theorem ReachableAlloc.run_alloc [Zero D] {n k : Nat} {d : page_id_t → D} :
    ∀ (ops : List (Op D)) {s s' : BufferPoolManagerInstance D}, ReachableAlloc n k d s →
      runAlloc s ops = some s' → ReachableAlloc n k d s' := by
  intro ops
  induction ops with
  | nil => intro s s' hr h; simp only [runAlloc] at h; injection h with h; exact h ▸ hr
  | cons op rest ih =>
    intro s s' hr h
    simp only [runAlloc] at h
    split at h
    · rename_i hok
      split at h
      · exact absurd h (by simp)
      · rename_i s1 h1
        refine ih (ReachableAlloc.step op hr ?_ h1) h
        intro q e
        subst e
        simpa using hok
    · exact absurd h (by simp)

theorem ReachableAlloc.to_reachable [Zero D] {n k : Nat} {d : page_id_t → D}
    {s : BufferPoolManagerInstance D} (h : ReachableAlloc n k d s) : Reachable n k d s := by
  induction h with
  | init hk => exact Reachable.init hk
  | step op _ _ hs ih => exact Reachable.step op ih hs

theorem acquireFrame_table {s s1 : BufferPoolManagerInstance D} {g : frame_id_t} (hi : Inv s)
    (ha : acquireFrame s = some (s1, some g)) :
    s1.next_page_id_ = s.next_page_id_ ∧
    ∀ q x, s1.page_table_ q = some x → s.page_table_ q = some x := by
  rcases acquireFrame_some hi ha with ⟨rest, _, e2⟩ | ⟨page, _, _, _, _, e2⟩
  · subst e2; exact ⟨rfl, fun _ _ h => h⟩
  · subst e2
    refine ⟨rfl, fun q x h => ?_⟩
    simp only at h
    by_cases hq : q = page.page_id_
    · subst hq; simp at h
    · rw [Function.update_noteq hq] at h; exact h

theorem applyOp_alloc [Zero D] {s s' : BufferPoolManagerInstance D} (hi : Inv s)
    (hal : Alloc s) (op : Op D) (hq : ∀ q, op = .fetchPage q → q < s.next_page_id_)
    (h : applyOp s op = some s') : Alloc s' := by
  cases op with
  | newPage =>
    simp only [applyOp, Option.map_eq_some'] at h
    obtain ⟨⟨s1', r'⟩, h1, h2⟩ := h
    simp only at h2; subst h2
    rcases NewPgImp_cases s hi with ⟨_, _, h3⟩ | ⟨s1, g, r, ha, _, _, _, _, h6⟩
    · rw [h3] at h1; injection h1 with h1; injection h1 with h1 _
      exact h1 ▸ hal
    · rw [h6] at h1; injection h1 with h1; injection h1 with h1 _
      subst h1
      obtain ⟨t1, t2⟩ := acquireFrame_table hi ha
      intro q x hx
      simp only at hx ⊢
      by_cases hqn : q = s1.next_page_id_
      · rw [hqn]; exact Int.lt_succ_self _
      · rw [Function.update_noteq hqn] at hx
        have := hal q x (t2 q x hx)
        rw [t1]
        exact Int.lt_trans this (Int.lt_succ_self _)
  | fetchPage q0 =>
    simp only [applyOp, Option.map_eq_some'] at h
    obtain ⟨⟨s1', r'⟩, h1, h2⟩ := h
    simp only at h2; subst h2
    rcases FetchPgImp_cases s hi q0 with ⟨g, page, r, _, e2, _, h4⟩ | ⟨_, _, _, h4⟩ |
      ⟨s1, g, r, e1, ha, _, _, h4⟩
    · rw [h4] at h1; injection h1 with h1; injection h1 with h1 _
      subst h1
      exact hal
    · rw [h4] at h1; injection h1 with h1; injection h1 with h1 _
      exact h1 ▸ hal
    · rw [h4] at h1; injection h1 with h1; injection h1 with h1 _
      subst h1
      obtain ⟨t1, t2⟩ := acquireFrame_table hi ha
      intro q x hx
      simp only at hx ⊢
      by_cases hqn : q = q0
      · rw [hqn, t1]; exact hq q0 rfl
      · rw [Function.update_noteq hqn] at hx
        rw [t1]
        exact hal q x (t2 q x hx)
  | unpinPage q b =>
    simp only [applyOp, Option.map_eq_some'] at h
    obtain ⟨⟨s1', r'⟩, h1, h2⟩ := h
    simp only at h2; subst h2
    rcases UnpinPgImp_cases s hi q b with ⟨_, h4⟩ | ⟨_, _, _, _, _, h4⟩ | ⟨g, page, _, e2, _, h4⟩
    · rw [h4] at h1; injection h1 with h1; injection h1 with h1 _
      exact h1 ▸ hal
    · rw [h4] at h1; injection h1 with h1; injection h1 with h1 _
      exact h1 ▸ hal
    · rw [h4] at h1; injection h1 with h1; injection h1 with h1 _
      subst h1
      exact hal
  | flushPage q =>
    simp only [applyOp, Option.map_eq_some'] at h
    obtain ⟨⟨s1', r'⟩, h1, h2⟩ := h
    simp only at h2; subst h2
    obtain ⟨a, b⟩ := flushPg_same h1
    intro q x hx
    rw [b]; exact hal q x (a ▸ hx)
  | flushAllPages =>
    obtain ⟨a, b⟩ := flushFrom_same _ _ _ _ h
    intro q x hx
    rw [b]; exact hal q x (a ▸ hx)
  | deletePage q0 =>
    simp only [applyOp, Option.map_eq_some'] at h
    obtain ⟨⟨s1', r'⟩, h1, h2⟩ := h
    simp only at h2; subst h2
    rcases DeletePgImp_cases s hi q0 with ⟨_, h4⟩ | ⟨_, _, _, _, _, h4⟩ | ⟨f, page, e1, e2, _, h4⟩
    · rw [h4] at h1; injection h1 with h1; injection h1 with h1 _
      exact h1 ▸ hal
    · rw [h4] at h1; injection h1 with h1; injection h1 with h1 _
      exact h1 ▸ hal
    · rw [h4] at h1; injection h1 with h1; injection h1 with h1 _
      subst h1
      intro q x hx
      simp only at hx ⊢
      by_cases hqn : q = q0
      · subst hqn; simp at hx
      · rw [Function.update_noteq hqn] at hx
        exact hal q x hx
  | write g dd =>
    simp only [applyOp, writeData] at h
    split at h
    · exact absurd h (by simp)
    · injection h with h
      subst h
      exact hal

/-- A client that fetches only allocated page ids never sees a stale copy of
a page, and every resident page id has been allocated. -/
theorem ReachableAlloc.sole [Zero D] {n k : Nat} {d : page_id_t → D}
    {s : BufferPoolManagerInstance D} (h : ReachableAlloc n k d s) :
    Alloc s ∧ ∀ p, Sole s p := by
  induction h with
  | init _ =>
    refine ⟨fun q g hq => by simp [new] at hq, fun p g pg hg hnf _ => ?_⟩
    have hlt : g < n := by
      have := (List.getElem?_eq_some.1 hg).1
      simpa [new] using this
    exact absurd (List.mem_range.2 hlt) hnf
  | @step s s' op hr hq hs ih =>
    have hi := hr.to_reachable.inv
    refine ⟨applyOp_alloc hi ih.1 op hq hs, fun p => ?_⟩
    refine applyOp_sole hi (ih.2 p) op (fun _ => ?_) hs
    by_cases hp : s.page_table_ p = none
    · exact Or.inr hp
    · left
      intro e
      obtain ⟨g, hg⟩ := Option.ne_none_iff_exists'.1 hp
      have := ih.1 p g hg
      rw [e] at this
      exact absurd this (Int.lt_irrefl _)


variable {D : Type}

/-- The call `op`, made in state `s`, is a `NewPage`, `FetchPage` or
`UnpinPage` on a page other than `p`. -/
def Op.avoids (p : page_id_t) (s : BufferPoolManagerInstance D) : Op D → Prop
  | .newPage => s.next_page_id_ ≠ p
  | .fetchPage q => q ≠ p
  | .unpinPage q _ => q ≠ p
  | _ => False

/-- A sequence of `NewPage`, `FetchPage` and `UnpinPage` calls on pages other
than `p` leads from the first state to the second. -/
inductive RunOther [Zero D] (p : page_id_t) :
    BufferPoolManagerInstance D → BufferPoolManagerInstance D → Prop where
  | refl (s : BufferPoolManagerInstance D) : RunOther p s s
  | step {s s1 s2 : BufferPoolManagerInstance D} (op : Op D) :
      Op.avoids p s op → applyOp s op = some s1 → RunOther p s1 s2 → RunOther p s s2

theorem step_other [Zero D] {s s1 : BufferPoolManagerInstance D} {p : page_id_t} {d0 : D}
    (hi : Inv s) (hs : Sole s p) (hk : Kept s p d0) (op : Op D) (hav : Op.avoids p s op)
    (h : applyOp s op = some s1) : Inv s1 ∧ Sole s1 p ∧ Kept s1 p d0 := by
  refine ⟨applyOp_inv hi op h, ?_, ?_⟩
  · refine applyOp_sole hi hs op (fun e => ?_) h
    subst e
    exact Or.inl hav
  · cases op with
    | newPage =>
      simp only [applyOp, Option.map_eq_some'] at h
      obtain ⟨⟨s1', r'⟩, h1, h2⟩ := h
      simp only at h2; subst h2
      rcases NewPgImp_cases s hi with ⟨_, _, h3⟩ | ⟨s0, g, r, ha, _, _, _, h5, h6⟩
      · rw [h3] at h1; injection h1 with h1; injection h1 with h1 _
        exact h1 ▸ hk
      · rw [h6] at h1; injection h1 with h1; injection h1 with h1 _
        subst h1
        exact install_kept hi hs hk ha _ (by rw [h5]; exact hav) _ _ _
    | fetchPage q =>
      have hqp : q ≠ p := hav
      simp only [applyOp, Option.map_eq_some'] at h
      obtain ⟨⟨s1', r'⟩, h1, h2⟩ := h
      simp only at h2; subst h2
      rcases FetchPgImp_cases s hi q with ⟨g, page, r, e1, e2, _, h4⟩ | ⟨_, _, _, h4⟩ |
        ⟨s0, g, r, e1, ha, _, _, h4⟩
      · rw [h4] at h1; injection h1 with h1; injection h1 with h1 _
        subst h1
        exact kept_set hi hk { page with pin_count_ := page.pin_count_ + 1 } e1 hqp rfl rfl rfl
      · rw [h4] at h1; injection h1 with h1; injection h1 with h1 _
        exact h1 ▸ hk
      · rw [h4] at h1; injection h1 with h1; injection h1 with h1 _
        subst h1
        exact install_kept hi hs hk ha q hqp _ _ _
    | unpinPage q b =>
      have hqp : q ≠ p := hav
      simp only [applyOp, Option.map_eq_some'] at h
      obtain ⟨⟨s1', r'⟩, h1, h2⟩ := h
      simp only at h2; subst h2
      rcases UnpinPgImp_cases s hi q b with ⟨_, h4⟩ | ⟨_, _, _, _, _, h4⟩ | ⟨g, page, e1, e2, _, h4⟩
      · rw [h4] at h1; injection h1 with h1; injection h1 with h1 _
        exact h1 ▸ hk
      · rw [h4] at h1; injection h1 with h1; injection h1 with h1 _
        exact h1 ▸ hk
      · rw [h4] at h1; injection h1 with h1; injection h1 with h1 _
        subst h1
        exact kept_set hi hk
          { page with is_dirty_ := page.is_dirty_ || b, pin_count_ := page.pin_count_ - 1 }
          e1 hqp rfl rfl rfl
    | flushPage q => exact absurd hav (by simp [Op.avoids])
    | flushAllPages => exact absurd hav (by simp [Op.avoids])
    | deletePage q => exact absurd hav (by simp [Op.avoids])
    | write g dd => exact absurd hav (by simp [Op.avoids])

theorem run_other [Zero D] {s s2 : BufferPoolManagerInstance D} {p : page_id_t} {d0 : D}
    (hr : RunOther p s s2) (hi : Inv s) (hs : Sole s p) (hk : Kept s p d0) :
    Inv s2 ∧ Sole s2 p ∧ Kept s2 p d0 := by
  induction hr with
  | refl s => exact ⟨hi, hs, hk⟩
  | step op hav h _ ih =>
    obtain ⟨a, b, c⟩ := step_other hi hs hk op hav h
    exact ih a b c

/-- C6. With the disk a map from page id to page bytes: let page `p` be
resident with bytes `pg.data_` in a pool reached by a client that fetches
only allocated page ids, and let `UnpinPage(p, true)` return true, or
`FlushPage(p)` be called.  After any further `NewPage`, `FetchPage` and
`UnpinPage` calls on other pages after which `p` is no longer resident, the
disk holds these bytes under page id `p` (a dirty page is written under its
own id before its frame is reused), and a `FetchPage(p)` that returns a frame
returns one whose bytes are these bytes. -/
theorem evicted_page_read_back [Zero D] {n k : Nat} {d : page_id_t → D}
    (s0 s1 s2 s3 : BufferPoolManagerInstance D) (h : ReachableAlloc n k d s0)
    (p : page_id_t) (f g : frame_id_t) (pg : Page D)
    (hp : s0.page_table_ p = some f) (hpg : s0.pages_[f]? = some pg)
    (h1 : UnpinPgImp s0 p true = some (s1, true) ∨ FlushPgImp s0 p = some (s1, true))
    (h2 : RunOther p s1 s2) (h3 : s2.page_table_ p = none)
    (h4 : FetchPgImp s2 p = some (s3, some g)) :
    s2.disk p = pg.data_ ∧
    ∃ pg3 : Page D, s3.pages_[g]? = some pg3 ∧ pg3.data_ = pg.data_ ∧ pg3.page_id_ = p := by
  have hi := h.to_reachable.inv
  have hs := h.sole.2 p
  have hflen : f < s0.pages_.length := (List.getElem?_eq_some.1 hpg).1
  -- the state after the unpin or the flush
  have hstart : Inv s1 ∧ Sole s1 p ∧ Kept s1 p pg.data_ := by
    rcases h1 with h1 | h1
    · refine ⟨UnpinPgImp_inv hi h1, ?_, ?_⟩
      · exact applyOp_sole hi hs (.unpinPage p true) (fun e => by cases e) (map_fst_some h1)
      · rcases UnpinPgImp_cases s0 hi p true with ⟨_, e4⟩ | ⟨_, _, _, _, _, e4⟩ |
          ⟨g', page, e1, e2, _, e4⟩
        · rw [e4] at h1; injection h1 with h1; injection h1 with _ h1; cases h1
        · rw [e4] at h1; injection h1 with h1; injection h1 with _ h1; cases h1
        · rw [e4] at h1; injection h1 with h1; injection h1 with h1 _
          subst h1
          rw [hp] at e1; injection e1 with e1; subst e1
          rw [hpg] at e2; injection e2 with e2; subst e2
          left
          exact ⟨f, { pg with is_dirty_ := pg.is_dirty_ || true, pin_count_ := pg.pin_count_ - 1 },
            hp, by simp [List.getElem?_set_self hflen], rfl, Or.inl (by simp)⟩
    · refine ⟨FlushPgImp_inv hi h1, flushPg_sole hi hs h1, ?_⟩
      rcases FlushPgImp_cases s0 hi p with ⟨_, e4⟩ | ⟨g', page, e1, e2, _, e4⟩
      · rw [e4] at h1; injection h1 with h1; injection h1 with _ h1; cases h1
      · rw [e4] at h1; injection h1 with h1; injection h1 with h1 _
        subst h1
        rw [hp] at e1; injection e1 with e1; subst e1
        rw [hpg] at e2; injection e2 with e2; subst e2
        left
        exact ⟨f, { pg with is_dirty_ := false }, hp, by simp [List.getElem?_set_self hflen], rfl,
          Or.inr (by simp)⟩
  obtain ⟨hi2, hs2, hk2⟩ := run_other h2 hstart.1 hstart.2.1 hstart.2.2
  have hdisk : s2.disk p = pg.data_ := by
    rcases hk2 with ⟨_, _, k1, _⟩ | ⟨_, k2⟩
    · rw [h3] at k1; exact absurd k1 (by simp)
    · exact k2
  refine ⟨hdisk, ?_⟩
  rcases FetchPgImp_cases s2 hi2 p with ⟨_, _, _, e1, _⟩ | ⟨_, _, _, e4⟩ |
    ⟨sm, g', r, _, ha, hm, _, e4⟩
  · rw [h3] at e1; exact absurd e1 (by simp)
  · rw [e4] at h4; injection h4 with h4; injection h4 with _ h4; cases h4
  · rw [e4] at h4; injection h4 with h4; injection h4 with h4 h5
    injection h5 with h5
    subst h5; subst h4
    have hlt : g' < sm.pages_.length := by rw [hm.len]; exact hm.hf
    refine ⟨_, List.getElem?_set_self hlt, ?_, rfl⟩
    simp only
    -- the victim written back, if any, is not page `p`
    rcases acquireFrame_some hi2 ha with ⟨rest, _, e2⟩ | ⟨page, e1, _, _, e5, e2⟩
    · subst e2; exact hdisk
    · subst e2
      have hpp : page.page_id_ ≠ p := by
        intro e
        have := hs2 g' page e5 (by rw [e1]; simp) e
        rw [h3] at this
        exact absurd this (by simp)
      simp only
      split
      · rw [Function.update_noteq (Ne.symm hpp)]; exact hdisk
      · exact hdisk


/-- The pool `pool1` after `NewPage` and a store of the bytes 42 into frame
0: page 0 is resident and pinned with these bytes. -/
def pool1e : BufferPoolManagerInstance Nat :=
  (runOps pool1 [.newPage, .write 0 42]).getD pool1

/-- The pool `pool1d` (page 0 unpinned dirty) after `NewPage`, which reuses
the only frame for page 1, and `UnpinPage(1, false)`. -/
def pool1f : BufferPoolManagerInstance Nat :=
  (runOps pool1d [.newPage, .unpinPage 1 false]).getD pool1

/-- The pool `pool1f` after `FetchPage(0)`. -/
def pool1g : BufferPoolManagerInstance Nat := ((FetchPgImp pool1f 0).map Prod.fst).getD pool1

/-- The statement of C6 on the one-frame pool: page 0 holds the bytes 42 when
`UnpinPage(0, true)` is called, `NewPage` then evicts it, and the later
`FetchPage(0)` returns frame 0 with the bytes 42 read back from the disk. -/
theorem evicted_page_read_back_witness :
    pool1f.page_table_ 0 = none ∧ pool1f.disk 0 = 42 ∧
    ∃ pg3 : Page Nat, pool1g.pages_[0]? = some pg3 ∧ pg3.data_ = 42 ∧ pg3.page_id_ = 0 :=
  ⟨by decide,
    evicted_page_read_back pool1e pool1d pool1f pool1g
      (ReachableAlloc.run_alloc (n := 1) (k := 2) (d := fun _ => 0) [.newPage, .write 0 42]
        (ReachableAlloc.init (by decide)) rfl)
      0 0 0 { data_ := 42, page_id_ := 0, pin_count_ := 1, is_dirty_ := false }
      (by decide) rfl (Or.inl rfl)
      (RunOther.step .newPage (by unfold Op.avoids; decide) rfl
        (RunOther.step (.unpinPage 1 false) (by unfold Op.avoids; decide) rfl
          (RunOther.refl _)))
      (by decide) rfl⟩

end BufferPoolManagerInstance

/-! ### The dirty flag over runs of calls -/

namespace BufferPoolManagerInstance

variable {D : Type}

end BufferPoolManagerInstance

/-! ### A stale copy defeats the read-back -/

namespace BufferPoolManagerInstance


/-- A pool with two frames and an LRU-2 replacer over an all-zero disk. -/
def pool2 : BufferPoolManagerInstance Nat := new 2 2 (fun _ => 0)

/-- The pool `pool2` after a client fetched page id 0 twice before any
`NewPage`, stored 7 in its frame, unpinned it (dirty) and then called
`NewPage`, which hands out page id 0 again, in frame 1, and stored 42 there:
page 0 is resident in frame 1 with bytes 42, frame 0 is a stale dirty copy. -/
def pool2a : BufferPoolManagerInstance Nat :=
  (runOps pool2 [.fetchPage 0, .fetchPage 0, .write 0 7, .unpinPage 0 true, .unpinPage 0 false,
    .newPage, .write 1 42]).getD pool2

/-- The pool `pool2a` after `UnpinPage(0, true)`. -/
def pool2b : BufferPoolManagerInstance Nat :=
  ((UnpinPgImp pool2a 0 true).map Prod.fst).getD pool2

/-- The pool `pool2b` after `NewPage`, which evicts frame 1. -/
def pool2c : BufferPoolManagerInstance Nat := ((NewPgImp pool2b).map Prod.fst).getD pool2

/-- The pool `pool2c` after `FetchPage(0)`. -/
def pool2d : BufferPoolManagerInstance Nat := ((FetchPgImp pool2c 0).map Prod.fst).getD pool2

/-- C6 as stated fails in a pool whose client once fetched a page id that had
not been allocated: page 0 is resident with bytes 42 when `UnpinPage(0, true)`
returns true, a `NewPage` evicts it (writing 42 to the disk), and the later
`FetchPage(0)` first writes the stale copy back and returns the bytes 7. -/
theorem evicted_page_read_back_needs_allocated_ids :
    Reachable 2 2 (fun _ => 0) pool2a ∧
    pool2a.page_table_ 0 = some 1 ∧
    pool2a.pages_[1]? = some { data_ := 42, page_id_ := 0, pin_count_ := 1, is_dirty_ := false } ∧
    UnpinPgImp pool2a 0 true = some (pool2b, true) ∧
    RunOther 0 pool2b pool2c ∧ pool2c.page_table_ 0 = none ∧ pool2c.disk 0 = 42 ∧
    FetchPgImp pool2c 0 = some (pool2d, some 0) ∧
    pool2d.pages_[0]? = some { data_ := 7, page_id_ := 0, pin_count_ := 1, is_dirty_ := false } ∧
    ¬ ∃ pg3 : Page Nat, pool2d.pages_[0]? = some pg3 ∧ pg3.data_ = 42 :=
  ⟨Reachable.run [.fetchPage 0, .fetchPage 0, .write 0 7, .unpinPage 0 true, .unpinPage 0 false,
      .newPage, .write 1 42] (Reachable.init (by decide)) rfl,
    by decide, rfl, rfl,
    RunOther.step .newPage (by unfold Op.avoids; decide) rfl (RunOther.refl _),
    by decide, by decide, rfl, rfl,
    fun ⟨pg3, h1, h2⟩ => by
      have h7 : pool2d.pages_[0]? =
          some { data_ := 7, page_id_ := 0, pin_count_ := 1, is_dirty_ := false } := rfl
      rw [h7] at h1
      injection h1 with h1
      rw [← h1] at h2
      exact absurd h2 (by decide)⟩

end BufferPoolManagerInstance

/-! ### Insert, Remove and lookup on the B+ tree -/

namespace BPlusTree

/-- The empty tree with `leaf_max_size = 3` and `internal_max_size = 3` in a
pool that has handed out page 0 (the header page). -/
def tree33 : BPlusTree := BPlusTree.new 3 3 1

/-- The inserts of the keys 1 to 5, in order, with values 10 to 50. -/
def insert1to5 : List (KeyType × Option ValueType) :=
  [(1, some 10), (2, some 20), (3, some 30), (4, some 40), (5, some 50)]

/-- The tree `tree33` after the keys 1 to 5 were inserted. -/
def tree33a : BPlusTree :=
  match tree33.runCalls insert1to5 with
  | .ok t => t
  | .error _ => tree33

/-- The tree `tree33a` after `Remove(2)`. -/
def tree33b : BPlusTree :=
  match tree33a.Remove 2 with
  | .ok t => t
  | .error _ => tree33

/-- The tree `tree33b` after `Remove(1)`. -/
def tree33c : BPlusTree :=
  match tree33b.Remove 1 with
  | .ok t => t
  | .error _ => tree33

/-- The tree `tree33a` after `Insert(6, 60)`. -/
def tree33d : BPlusTree :=
  match tree33a.Insert 6 60 with
  | .ok (t, _) => t
  | .error _ => tree33

/-- The tree `tree33d` is `tree33` after the keys 1 to 6 were inserted. -/
theorem tree33d_run : tree33.runCalls (insert1to5 ++ [(6, some 60)]) = .ok tree33d := rfl

/-- C1, the code at the failing input.  With `leaf_max_size = 3` and
`internal_max_size = 3` the inserts of 1 .. 5 succeed and `GetValue(3)` then
yields the value inserted for 3; `Remove(2)` returns and leaves the leaf
`[1, 3, 4]` with as many entries as `max_size`; `Insert(0, 7)` of the absent
key 0 then does not return true: the leaf `Insert` fails its assertion
"leaf page is out of size". -/
theorem Insert_after_merge_fails_assertion :
    tree33.runCalls insert1to5 = .ok tree33a ∧
    tree33a.GetValue 3 = .ok (true, [30]) ∧
    tree33a.Remove 2 = .ok tree33b ∧
    tree33b.fetchLeaf 1 = .ok (LeafPage.mk 1 3 3 4 [(1, 10), (3, 30), (4, 40)]) ∧
    tree33b.GetValue 0 = .ok (false, []) ∧
    tree33b.Insert 0 7 = .error .leafOutOfSize :=
  ⟨rfl, rfl, rfl, rfl, rfl, rfl⟩

/-- C2, the code at the failing input.  With `leaf_max_size = 3` and
`internal_max_size = 3`, after the inserts of 1 .. 6 the rightmost leaf holds
5 and 6; `Remove(6)` makes it underflow, and `HandleUnderFlow`, finding no
right sibling, calls `FetchPage(right_sibling_id)` with
`right_sibling_id = INVALID_PAGE_ID` instead of fetching the left sibling:
the call does not end with key 5 kept in a repaired tree.  The scenario of
the claim (`Remove(2)`, `Remove(1)` after the inserts of 1 .. 5) does go
through, and the scan then yields 3, 4, 5. -/
theorem Remove_rightmost_leaf_fetches_invalid_page :
    tree33a.Insert 6 60 = .ok (tree33d, true) ∧
    tree33d.GetValue 5 = .ok (true, [50]) ∧ tree33d.GetValue 6 = .ok (true, [60]) ∧
    tree33d.Remove 6 = .error (.fetchNoPage INVALID_PAGE_ID) ∧
    tree33a.Remove 5 = .error (.fetchNoPage INVALID_PAGE_ID) ∧
    tree33b.Remove 1 = .ok tree33c ∧
    tree33c.scan = .ok [(3, 30), (4, 40), (5, 50)] :=
  ⟨rfl, rfl, rfl, rfl, rfl, rfl, rfl⟩

theorem Insert_false_iff (t : BPlusTree) (key : KeyType) (value : ValueType)
    (r : BPlusTree × Bool) (h : t.Insert key value = .ok r) :
    (r.2 = false → r.1 = t) ∧
    (r.2 = false ↔ ∃ vs, t.GetValue key = .ok (true, vs)) := by
  unfold Insert at h
  unfold GetValue
  cases he : t.IsEmpty
  · simp only [he, Bool.false_eq_true, if_false] at h ⊢
    cases hg : t.GetLeafPage key with
    | error e => rw [hg] at h; exact absurd h (by simp)
    | ok leaf_id =>
      simp only [hg] at h ⊢
      cases hl : t.fetchLeaf leaf_id with
      | error e => rw [hl] at h; exact absurd h (by simp)
      | ok leaf =>
        simp only [hl] at h ⊢
        cases hk : LeafPage.hasKey leaf.array_ key
        · simp only [hk, Bool.false_eq_true, if_false] at h
          have hr : r.2 = true := by
            split at h
            · exact absurd h (by simp)
            · split at h
              · injection h with h; subst h; rfl
              · split at h
                · exact absurd h (by simp)
                · split at h
                  · exact absurd h (by simp)
                  · split at h
                    · exact absurd h (by simp)
                    · injection h with h; subst h; rfl
          simp [hr]
        · simp only [hk, if_true] at h
          injection h with h
          subst h
          simp
  · simp only [he, if_true] at h ⊢
    injection h with h
    subst h
    simp

/-- For every state of the tree, reachable or not: `Insert(k, v)` returns
false exactly when `GetValue(k)` finds `k` (the search reaches a leaf that
stores `k`), and then the tree is left exactly as it was: root page id,
every page with its entries, size, next and parent pointers, and the page-id
counter; so `GetValue(k)` still yields the old value, which is one that the
leaf stores. -/
theorem Insert_duplicate_rejected (t : BPlusTree) (key : KeyType) (value : ValueType) :
    ((∃ t', t.Insert key value = .ok (t', false)) ↔ ∃ vs, t.GetValue key = .ok (true, vs)) ∧
    (∀ t', t.Insert key value = .ok (t', false) →
      t' = t ∧ t'.GetValue key = t.GetValue key) ∧
    (∀ vs, t.GetValue key = .ok (true, vs) → vs ≠ [] ∧
      ∃ leaf_id leaf, t.GetLeafPage key = .ok leaf_id ∧ t.pages leaf_id = some (.leaf leaf) ∧
        ∀ v ∈ vs, (key, v) ∈ leaf.array_) := by
  refine ⟨⟨?_, ?_⟩, ?_, ?_⟩
  · rintro ⟨t', h⟩
    exact (Insert_false_iff t key value _ h).2.1 rfl
  · rintro ⟨vs, h⟩
    -- the two functions follow the same search
    unfold GetValue at h
    unfold Insert
    cases he : t.IsEmpty
    · simp only [he, Bool.false_eq_true, if_false] at h ⊢
      cases hg : t.GetLeafPage key with
      | error e => rw [hg] at h; exact absurd h (by simp)
      | ok leaf_id =>
        simp only [hg] at h ⊢
        cases hl : t.fetchLeaf leaf_id with
        | error e => rw [hl] at h; exact absurd h (by simp)
        | ok leaf =>
          simp only [hl] at h ⊢
          injection h with h; injection h with h _
          simp only [h, if_true]
          exact ⟨t, rfl⟩
    · simp only [he, if_true] at h
      injection h with h; injection h with h _; exact absurd h (by simp)
  · intro t' h
    have := (Insert_false_iff t key value _ h).1 rfl
    simp only at this
    subst this
    exact ⟨rfl, rfl⟩
  · intro vs h
    unfold GetValue at h
    split at h
    · injection h with h; injection h with h _; exact absurd h (by simp)
    · split at h
      · exact absurd h (by simp)
      · rename_i leaf_id hg
        split at h
        · exact absurd h (by simp)
        · rename_i leaf hl
          injection h with h; injection h with h1 h2
          have hpage : t.pages leaf_id = some (.leaf leaf) := by
            unfold fetchLeaf at hl
            split at hl
            · rename_i p hp; injection hl with hl; subst hl; exact hp
            · exact absurd hl (by simp)
            · exact absurd hl (by simp)
          subst h2
          refine ⟨?_, leaf_id, leaf, hg, hpage, ?_⟩
          · -- a leaf that has the key yields a value for it
            unfold LeafPage.hasKey at h1
            rw [List.any_eq_true] at h1
            obtain ⟨e, he, hc⟩ := h1
            intro hnil
            have : e.2 ∈ matchValues leaf.array_ key :=
              List.mem_map.2 ⟨e, List.mem_filter.2 ⟨he, hc⟩, rfl⟩
            rw [hnil] at this
            exact absurd this (by simp)
          · intro v hv
            obtain ⟨e, he, rfl⟩ := List.mem_map.1 hv
            obtain ⟨he1, he2⟩ := List.mem_filter.1 he
            have hkey : e.1 = key := by
              unfold comparator_ at he2
              by_contra hne
              rcases lt_or_gt_of_ne hne with hlt | hgt
              · simp [hlt] at he2
              · have : ¬ e.1 < key := not_lt.2 (le_of_lt hgt)
                simp [this, hgt] at he2
            rw [← hkey]
            exact he1

end BPlusTree

/-! ### The leaf chain of a reachable B+ tree -/

namespace BPlusTree

theorem store_pages (t : BPlusTree) (q : page_id_t) (pg : TreePage) (p : page_id_t) :
    (t.store q pg).pages p = if p = q then some pg else t.pages p := by
  unfold store
  simp only [Function.update_apply]

theorem store_pages_same (t : BPlusTree) (q : page_id_t) (pg : TreePage) :
    (t.store q pg).pages q = some pg := by
  rw [store_pages, if_pos rfl]

theorem store_pages_ne (t : BPlusTree) (q : page_id_t) (pg : TreePage) {p : page_id_t}
    (h : p ≠ q) : (t.store q pg).pages p = t.pages p := by
  rw [store_pages, if_neg h]

theorem store_next (t : BPlusTree) (q : page_id_t) (pg : TreePage) :
    (t.store q pg).next_page_id_ = t.next_page_id_ := rfl

theorem store_root (t : BPlusTree) (q : page_id_t) (pg : TreePage) :
    (t.store q pg).root_page_id_ = t.root_page_id_ := rfl

theorem store_leaf_max (t : BPlusTree) (q : page_id_t) (pg : TreePage) :
    (t.store q pg).leaf_max_size_ = t.leaf_max_size_ := rfl

theorem store_internal_max (t : BPlusTree) (q : page_id_t) (pg : TreePage) :
    (t.store q pg).internal_max_size_ = t.internal_max_size_ := rfl

theorem loLT_trans {x y z : Option KeyType} (h1 : loLT x y) (h2 : loLT y z) : loLT x z := by
  obtain ⟨b, hb, h1⟩ := h1
  obtain ⟨c, hc, h2⟩ := h2
  exact ⟨c, hc, fun a ha => lt_trans (h1 a ha) (h2 b hb)⟩

theorem loLT_irrefl {x : Option KeyType} (h : loLT x x) : False := by
  obtain ⟨b, hb, h1⟩ := h
  exact lt_irrefl _ (h1 b hb)

theorem loLT_of_range {lo hi : Option KeyType} {b : KeyType} (h : ltRange lo hi)
    (hb : hi = some b) : loLT lo (some b) :=
  ⟨b, rfl, fun a ha => h a b ha hb⟩

theorem geLo_of_loLT {x y : Option KeyType} {k : KeyType} (h : loLT x y) (hk : geLo y k) :
    geLo x k := by
  obtain ⟨b, hb, h1⟩ := h
  intro a ha
  exact le_of_lt (lt_of_lt_of_le (h1 a ha) (hk b hb))

/-- A page of the tree is stored under a valid page id. -/
theorem InvG.ne_invalid {t : BPlusTree} {g : Ghost} {eh : page_id_t → Option KeyType}
    {det : page_id_t → Prop} (h : InvG t g eh det) {p : page_id_t} (hp : g.S p) :
    p ≠ INVALID_PAGE_ID := by
  obtain ⟨pg, hpg, _⟩ := (h.node p hp).page
  have := (h.store_lt p pg hpg).1
  intro hc
  rw [hc] at this
  exact absurd this (by decide)

theorem InvG.lt_next {t : BPlusTree} {g : Ghost} {eh : page_id_t → Option KeyType}
    {det : page_id_t → Prop} (h : InvG t g eh det) {p : page_id_t} (hp : g.S p) :
    0 ≤ p ∧ p < t.next_page_id_ := by
  obtain ⟨pg, hpg, _⟩ := (h.node p hp).page
  exact h.store_lt p pg hpg

/-- The loop of `Begin()` ends at a leaf of the tree with the lower bound of
the page it started from. -/
theorem InvG.leftmost_ok {t : BPlusTree} {g : Ghost} {eh : page_id_t → Option KeyType}
    {det : page_id_t → Prop} (h : InvG t g eh det) :
    ∀ (f : Nat) (p : page_id_t), g.S p → g.ht p < f →
      ∃ q, leftmostLeaf t f p = .ok q ∧ g.S q ∧ IsLeaf t q ∧ g.lo q = g.lo p := by
  intro f
  induction f with
  | zero => intro p _ hf; exact absurd hf (Nat.not_lt_zero _)
  | succ f ih =>
    intro p hp hf
    obtain ⟨pg, hpg, _⟩ := (h.node p hp).page
    cases pg with
    | leaf l =>
      refine ⟨p, ?_, hp, ⟨l, hpg⟩, rfl⟩
      unfold leftmostLeaf
      simp only [hpg]
    | internal ip =>
      obtain ⟨e, rest, harr, hc, hlo, _⟩ := (h.node p hp).kids ip hpg
      obtain ⟨q, hq, hS, hl, hlo2⟩ := ih e.2 hc.1 (by have := hc.2.2; omega)
      refine ⟨q, ?_, hS, hl, hlo2.trans hlo⟩
      unfold leftmostLeaf
      simp only [hpg, harr, List.head?_cons]
      exact hq

theorem fetchLeaf_ok {t : BPlusTree} {p : page_id_t} {l : LeafPage}
    (h : t.fetchLeaf p = .ok l) : t.pages p = some (.leaf l) := by
  unfold fetchLeaf at h
  split at h
  · rename_i q hq; injection h with h; subst h; exact hq
  · exact absurd h (by simp)
  · exact absurd h (by simp)

theorem fetchLeaf_of_pages {t : BPlusTree} {p : page_id_t} {l : LeafPage}
    (h : t.pages p = some (.leaf l)) : t.fetchLeaf p = .ok l := by
  unfold fetchLeaf
  simp only [h]

theorem fetchInternal_ok {t : BPlusTree} {p : page_id_t} {ip : InternalPage}
    (h : t.fetchInternal p = .ok ip) : t.pages p = some (.internal ip) := by
  unfold fetchInternal at h
  split at h
  · rename_i q hq; injection h with h; subst h; exact hq
  · exact absurd h (by simp)
  · exact absurd h (by simp)

theorem leafChain_chain (t : BPlusTree) :
    ∀ (f : Nat) (p : page_id_t) (ls : List LeafPage),
      leafChain t f p = .ok ls → ChainFrom t p ls := by
  intro f
  induction f with
  | zero => intro p ls h; unfold leafChain at h; exact absurd h (by simp)
  | succ f ih =>
    intro p ls h
    unfold leafChain at h
    split at h
    · rename_i hp
      injection h with h
      subst h; subst hp
      exact ChainFrom.nil
    · rename_i hp
      split at h
      · exact absurd h (by simp)
      · rename_i l hl
        split at h
        · exact absurd h (by simp)
        · rename_i rest hrest
          injection h with h
          subst h
          exact ChainFrom.cons hp (fetchLeaf_ok hl) (ih _ _ hrest)

theorem SlotsK.slot_child_of_mem {t : BPlusTree} {g : Ghost} {eh : page_id_t → Option KeyType}
    {P : page_id_t} {h : Option KeyType} :
    ∀ {arr : List (KeyType × page_id_t)} {m : Option KeyType},
      SlotsK t g eh P m arr h → ∀ e ∈ arr, IsChild t g P e.2 ∧ g.lo e.2 = some e.1 := by
  intro arr
  induction arr with
  | nil => intro m _ e he; exact absurd he (List.not_mem_nil _)
  | cons a rest ih =>
    intro m hs e he
    obtain ⟨_, hc, hlo, hrest⟩ := hs
    rcases List.mem_cons.1 he with rfl | he
    · exact ⟨hc, hlo⟩
    · exact ih hrest e he

theorem KidsOK.child_of_mem {t : BPlusTree} {g : Ghost} {eh : page_id_t → Option KeyType}
    {P : page_id_t} {arr : List (KeyType × page_id_t)} (h : KidsOK t g eh P arr) :
    ∀ e ∈ arr, IsChild t g P e.2 := by
  obtain ⟨e0, rest, harr, hc, _, hs⟩ := h
  intro e he
  rw [harr] at he
  rcases List.mem_cons.1 he with rfl | he
  · exact hc
  · exact (hs.slot_child_of_mem e he).1

theorem range_nonempty {lo hi : Option KeyType} (h : ltRange lo hi) :
    ∃ x, geLo lo x ∧ ltHi hi x := by
  cases lo with
  | some a =>
    refine ⟨a, fun a1 h1 => ?_, fun b hb => h a b rfl hb⟩
    injection h1 with h1
    exact le_of_eq h1.symm
  | none =>
    cases hi with
    | some b =>
      refine ⟨b - 1, fun a1 h1 => (by cases h1), fun b1 h1 => ?_⟩
      injection h1 with h1
      linarith
    | none => exact ⟨0, fun a1 h1 => (by cases h1), fun b1 h1 => (by cases h1)⟩

theorem ChainFrom.of_invalid {t : BPlusTree} {ls : List LeafPage}
    (h : ChainFrom t INVALID_PAGE_ID ls) : ls = [] := by
  cases h with
  | nil => rfl
  | cons hp _ _ => exact absurd rfl hp

theorem ChainFrom.start_of_nil {t : BPlusTree} {p : page_id_t} {ls : List LeafPage}
    (h : ChainFrom t p ls) (hl : ls = []) : p = INVALID_PAGE_ID := by
  cases h with
  | nil => rfl
  | cons _ _ _ => cases hl

theorem nodup_ids_length (l : List page_id_t) (n : page_id_t) (hl : l.Nodup)
    (hb : ∀ x ∈ l, 0 ≤ x ∧ x < n) : l.length ≤ n.toNat := by
  have hsub : l.toFinset ⊆ Finset.Ico 0 n := by
    intro x hx
    rw [List.mem_toFinset] at hx
    exact Finset.mem_Ico.2 (hb x hx)
  have := Finset.card_le_card hsub
  rw [List.toFinset_card_of_nodup hl, Int.card_Ico] at this
  simpa using this

/-- Facts about the leaves along the chain from a leaf of the tree. -/
theorem InvG.chain_props {t : BPlusTree} {g : Ghost} {eh : page_id_t → Option KeyType}
    {det : page_id_t → Prop} (h : InvG t g eh det) {p : page_id_t} {ls : List LeafPage}
    (hc : ChainFrom t p ls) : (p ≠ INVALID_PAGE_ID → g.S p) →
    (∀ l ∈ ls, g.S l.page_id_ ∧ t.pages l.page_id_ = some (.leaf l) ∧
      (l.page_id_ = p ∨ loLT (g.lo p) (g.lo l.page_id_))) ∧
    (∀ x, geLo (g.lo p) x →
      ls = [] ∨ ∃ l ∈ ls, geLo (g.lo l.page_id_) x ∧ ltHi (g.hi l.page_id_) x) ∧
    ((ls.map (fun l => l.array_)).flatten.Pairwise (fun a b => a.1 < b.1)) ∧
    (∀ e ∈ (ls.map (fun l => l.array_)).flatten, geLo (g.lo p) e.1) ∧
    (ls.map (fun l => l.page_id_)).Nodup := by
  induction hc with
  | nil =>
    intro _
    refine ⟨fun l hl => absurd hl (List.not_mem_nil _), fun x _ => Or.inl rfl, ?_, ?_, ?_⟩
    · simp
    · intro e he; simp at he
    · simp
  | @cons p l rest hp hpg hrest ih =>
    intro hS
    have hS := hS hp
    have hn := h.node p hS
    have hid : l.page_id_ = p := by
      obtain ⟨pg, h1, h2⟩ := hn.page
      rw [hpg] at h1
      injection h1 with h1
      subst h1
      exact h2
    have hl := hn.leaf l hpg
    cases hhi : g.hi p with
    | none =>
      have hnext := hl.last hhi
      rw [hnext] at hrest
      have hr := hrest.of_invalid
      subst hr
      refine ⟨?_, ?_, ?_, ?_, ?_⟩
      · intro l1 h1
        simp only [List.mem_singleton] at h1
        subst h1
        exact ⟨hid ▸ hS, hid ▸ hpg, Or.inl hid⟩
      · intro x hx
        refine Or.inr ⟨l, List.mem_singleton.2 rfl, hid ▸ hx, ?_⟩
        rw [hid, hhi]
        intro b hb
        cases hb
      · simpa using hl.sorted
      · intro e he
        simp only [List.map_cons, List.map_nil, List.flatten_cons, List.flatten_nil,
          List.append_nil] at he
        exact (hl.inside e he).1
      · simp
    | some b =>
      obtain ⟨hSn, hLn, hlon⟩ := hl.next b hhi
      obtain ⟨i1, i2, i3, i4, i5⟩ := ih (fun _ => hSn)
      have hlt : loLT (g.lo p) (g.lo l.next_page_id_) := by
        rw [hlon]
        exact loLT_of_range hn.range hhi
      have hfar : ∀ l1 ∈ rest, loLT (g.lo p) (g.lo l1.page_id_) := by
        intro l1 h1
        rcases (i1 l1 h1).2.2 with h2 | h2
        · rw [h2]; exact hlt
        · exact loLT_trans hlt h2
      refine ⟨?_, ?_, ?_, ?_, ?_⟩
      · intro l1 h1
        rcases List.mem_cons.1 h1 with h1 | h1
        · subst h1
          exact ⟨hid ▸ hS, hid ▸ hpg, Or.inl hid⟩
        · exact ⟨(i1 l1 h1).1, (i1 l1 h1).2.1, Or.inr (hfar l1 h1)⟩
      · intro x hx
        right
        by_cases hxb : x < b
        · refine ⟨l, List.mem_cons_self _ _, hid ▸ hx, ?_⟩
          rw [hid, hhi]
          intro b1 hb1
          injection hb1 with hb1
          linarith
        · have : geLo (g.lo l.next_page_id_) x := by
            rw [hlon]
            intro a ha
            injection ha with ha
            linarith
          rcases i2 x this with h3 | ⟨l1, h1, h2⟩
          · -- the chain cannot end at a leaf of the tree
            exact absurd (hrest.start_of_nil h3) (h.ne_invalid hSn)
          · exact ⟨l1, List.mem_cons_of_mem _ h1, h2⟩
      · simp only [List.map_cons, List.flatten_cons]
        rw [List.pairwise_append]
        refine ⟨hl.sorted, i3, ?_⟩
        intro a ha c hc
        have h1 := (hl.inside a ha).2 b hhi
        have h2 := i4 c hc b hlon
        linarith
      · intro e he
        simp only [List.map_cons, List.flatten_cons, List.mem_append] at he
        rcases he with he | he
        · exact (hl.inside e he).1
        · exact geLo_of_loLT hlt (i4 e he)
      · simp only [List.map_cons, List.nodup_cons]
        refine ⟨?_, i5⟩
        intro hmem
        obtain ⟨l1, h1, h2⟩ := List.mem_map.1 hmem
        have := hfar l1 h1
        rw [h2, hid] at this
        exact loLT_irrefl this

/-- The walk along the `next_page_id_` pointers ends: the leaves met have
strictly growing lower bounds, so none is met twice, and there are fewer than
`next_page_id_` of them. -/
theorem InvG.chain_total {t : BPlusTree} {g : Ghost} {eh : page_id_t → Option KeyType}
    {det : page_id_t → Prop} (h : InvG t g eh det) :
    ∀ (f : Nat) (vis : List page_id_t) (p : page_id_t), g.S p → IsLeaf t p → vis.Nodup →
      (∀ v ∈ vis, g.S v ∧ loLT (g.lo v) (g.lo p)) →
      t.next_page_id_.toNat + 2 ≤ f + vis.length →
      ∃ ls, leafChain t f p = .ok ls := by
  intro f
  induction f with
  | zero =>
    intro vis p hp _ hvis hall hf
    have hnd : (p :: vis).Nodup := by
      refine List.nodup_cons.2 ⟨fun hmem => ?_, hvis⟩
      exact loLT_irrefl (hall p hmem).2
    have hlen := nodup_ids_length (p :: vis) t.next_page_id_ hnd (by
      intro x hx
      rcases List.mem_cons.1 hx with rfl | hx
      · exact h.lt_next hp
      · exact h.lt_next (hall x hx).1)
    simp only [List.length_cons] at hlen
    omega
  | succ f ih =>
    intro vis p hp hleaf hvis hall hf
    have hnd : (p :: vis).Nodup := by
      refine List.nodup_cons.2 ⟨fun hmem => ?_, hvis⟩
      exact loLT_irrefl (hall p hmem).2
    have hlen := nodup_ids_length (p :: vis) t.next_page_id_ hnd (by
      intro x hx
      rcases List.mem_cons.1 hx with rfl | hx
      · exact h.lt_next hp
      · exact h.lt_next (hall x hx).1)
    simp only [List.length_cons] at hlen
    obtain ⟨l, hpg⟩ := hleaf
    have hl := (h.node p hp).leaf l hpg
    have hne := h.ne_invalid hp
    unfold leafChain
    rw [if_neg hne, fetchLeaf_of_pages hpg]
    simp only []
    cases hhi : g.hi p with
    | none =>
      have hnext := hl.last hhi
      rw [hnext]
      obtain ⟨f1, rfl⟩ : ∃ f1, f = f1 + 1 := ⟨f - 1, by omega⟩
      refine ⟨[l], ?_⟩
      simp only [leafChain, if_true]
    | some b =>
      obtain ⟨hSn, hLn, hlon⟩ := hl.next b hhi
      have hlt : loLT (g.lo p) (g.lo l.next_page_id_) := by
        rw [hlon]
        exact loLT_of_range (h.node p hp).range hhi
      obtain ⟨rest, hrest⟩ := ih (p :: vis) l.next_page_id_ hSn hLn hnd (by
        intro v hv
        rcases List.mem_cons.1 hv with rfl | hv
        · exact ⟨hp, hlt⟩
        · exact ⟨(hall v hv).1, loLT_trans (hall v hv).2 hlt⟩) (by
        simp only [List.length_cons]; omega)
      exact ⟨l :: rest, by simp only [hrest]⟩

/-- A page reached from the root is in the set of the invariant. -/
theorem InvG.S_of_treeNode {t : BPlusTree} {g : Ghost} {eh : page_id_t → Option KeyType}
    {det : page_id_t → Prop} (h : InvG t g eh det) {p : page_id_t} (hp : TreeNode t p) :
    g.S p := by
  induction hp with
  | root he => exact (h.root_ok he).1
  | child _ hpg he ih => exact (((h.node _ ih).kids _ hpg).child_of_mem _ he).1

/-- A page in the set of the invariant is reached from the root. -/
theorem Inv.treeNode_of_S {t : BPlusTree} {g : Ghost} (h : Inv t g) :
    ∀ (n : Nat) (p : page_id_t), g.S p → t.next_page_id_.toNat ≤ n + g.ht p →
      TreeNode t p := by
  intro n
  induction n with
  | zero =>
    intro p hp hn
    have := (h.node p hp).ht_lt
    omega
  | succ n ih =>
    intro p hp hn
    have hup := (h.node p hp).up (fun hf => hf)
    by_cases hpar : parentOf t p = INVALID_PAGE_ID
    · have hroot := hup.top hpar
      have hne : t.IsEmpty = false := by
        unfold IsEmpty
        rw [← hroot]
        exact beq_false_of_ne (InvG.ne_invalid h hp)
      rw [hroot]
      exact TreeNode.root hne
    · obtain ⟨hSP, ip, hip, hmem⟩ := hup.inner hpar
      obtain ⟨e, he, hep⟩ := List.mem_map.1 hmem
      have hc := ((h.node _ hSP).kids ip hip).child_of_mem e he
      rw [hep] at hc
      have hP := ih (parentOf t p) hSP (by have := hc.2.2; omega)
      have := TreeNode.child hP hip he
      rw [hep] at this
      exact this

theorem TreeNode.not_of_empty {t : BPlusTree} (he : t.IsEmpty = true) {p : page_id_t}
    (hp : TreeNode t p) : False := by
  induction hp with
  | root h => rw [he] at h; cases h
  | child _ _ _ ih => exact ih

/-- The property of the leaf chain, for a state with the invariant: the walk
from the leftmost leaf along `next_page_id_` ends, meets no leaf twice, meets
exactly the leaves of the tree, and the keys along it ascend strictly. -/
theorem Inv.leaf_chain {t : BPlusTree} {g : Ghost} (h : Inv t g) :
    ∃ ls, t.chainLeaves = .ok ls ∧
      (ls.map (fun l => l.page_id_)).Nodup ∧
      (∀ p, (TreeNode t p ∧ IsLeaf t p) ↔ p ∈ ls.map (fun l => l.page_id_)) ∧
      (∀ l ∈ ls, t.pages l.page_id_ = some (.leaf l)) ∧
      (ls.map (fun l => l.array_)).flatten.Pairwise (fun a b => a.1 < b.1) := by
  cases he : t.IsEmpty with
  | true =>
    refine ⟨[], ?_, by simp, ?_, by simp, by simp⟩
    · unfold chainLeaves; simp only [he, if_true]
    · intro p
      constructor
      · rintro ⟨hp, _⟩
        exact (hp.not_of_empty he).elim
      · intro hp; simp at hp
  | false =>
    obtain ⟨hSr, hlor, _, _⟩ := h.root_ok he
    obtain ⟨q, hq, hSq, hLq, hloq⟩ := InvG.leftmost_ok h t.fuel t.root_page_id_ hSr (by
      have := (h.node _ hSr).ht_lt
      unfold fuel; omega)
    obtain ⟨ls, hls⟩ := InvG.chain_total h (t.fuel + 1) [] q hSq hLq List.nodup_nil
      (fun v hv => absurd hv (List.not_mem_nil _)) (by unfold fuel; simp)
    have hch := leafChain_chain t _ _ _ hls
    obtain ⟨p1, p2, p3, _, p5⟩ := InvG.chain_props h hch (fun _ => hSq)
    refine ⟨ls, ?_, p5, ?_, fun l hl => (p1 l hl).2.1, p3⟩
    · unfold chainLeaves
      simp only [he, hq, Bool.false_eq_true, if_false]
      exact hls
    · intro p
      constructor
      · rintro ⟨hp, hleaf⟩
        have hSp := InvG.S_of_treeNode h hp
        obtain ⟨x, hx1, hx2⟩ := range_nonempty (h.node p hSp).range
        have hx0 : geLo (g.lo q) x := by
          rw [hloq, hlor]
          intro a ha
          cases ha
        rcases p2 x hx0 with hnil | ⟨l, hl, h1, h2⟩
        · exact absurd (hch.start_of_nil hnil) (InvG.ne_invalid h hSq)
        · have := h.disj p l.page_id_ x hSp (p1 l hl).1 hleaf ⟨l, (p1 l hl).2.1⟩ hx1 hx2 h1 h2
          rw [this]
          exact List.mem_map.2 ⟨l, hl, rfl⟩
      · intro hp
        obtain ⟨l, hl, rfl⟩ := List.mem_map.1 hp
        exact ⟨h.treeNode_of_S t.next_page_id_.toNat _ (p1 l hl).1 (Nat.le_add_right _ _),
          ⟨l, (p1 l hl).2.1⟩⟩

theorem comparator_gt {a b : KeyType} : (comparator_ a b == 1) = true ↔ b < a := by
  unfold comparator_
  by_cases h1 : a < b
  · simp only [h1, if_true]
    constructor
    · intro h; exact absurd h (by decide)
    · intro h; exact absurd h (not_lt.2 (le_of_lt h1))
  · by_cases h2 : b < a
    · simp [h1, h2]
    · simp [h1, h2]

theorem comparator_lt {a b : KeyType} : (comparator_ a b == -1) = true ↔ a < b := by
  unfold comparator_
  by_cases h1 : a < b
  · simp [h1]
  · by_cases h2 : b < a
    · rw [if_neg h1, if_pos h2]
      constructor
      · intro h; exact absurd h (by decide)
      · intro h; exact absurd h h1
    · rw [if_neg h1, if_neg h2]
      constructor
      · intro h; exact absurd h (by decide)
      · intro h; exact absurd h h1

theorem comparator_eq {a b : KeyType} : (comparator_ a b == 0) = true ↔ a = b := by
  unfold comparator_
  by_cases h1 : a < b
  · simp only [h1, if_true]
    constructor
    · intro h; exact absurd h (by decide)
    · intro h; rw [h] at h1; exact absurd h1 (lt_irrefl _)
  · by_cases h2 : b < a
    · simp only [h1, h2, if_false, if_true]
      constructor
      · intro h; exact absurd h (by decide)
      · intro h; rw [h] at h2; exact absurd h2 (lt_irrefl _)
    · simp only [h1, h2, if_false]
      constructor
      · intro _; exact le_antisymm (not_lt.1 h2) (not_lt.1 h1)
      · intro _; rfl

/-- What the chain of slots says about the slot at index `i`. -/
theorem SlotsK.get_slot {t : BPlusTree} {g : Ghost} {eh : page_id_t → Option KeyType}
    {P : page_id_t} {h : Option KeyType} :
    ∀ {arr : List (KeyType × page_id_t)} {m : Option KeyType},
      SlotsK t g eh P m arr h → ∀ (i : Nat) (e : KeyType × page_id_t), arr[i]? = some e →
        IsChild t g P e.2 ∧ g.lo e.2 = some e.1 ∧
        (∀ e1, arr[i + 1]? = some e1 → eh e.2 = some e1.1) ∧
        (arr[i + 1]? = none → eh e.2 = h) := by
  intro arr
  induction arr with
  | nil => intro m _ i e he; simp at he
  | cons a rest ih =>
    intro m hs i e he
    obtain ⟨_, hc, hlo, hrest⟩ := hs
    cases i with
    | zero =>
      simp only [List.getElem?_cons_zero, Option.some.injEq] at he
      subst he
      refine ⟨hc, hlo, ?_, ?_⟩
      · intro e1 h1
        simp only [zero_add, List.getElem?_cons_succ] at h1
        cases rest with
        | nil => simp at h1
        | cons b rest2 =>
          simp only [List.getElem?_cons_zero, Option.some.injEq] at h1
          subst h1
          exact hrest.1
      · intro h1
        simp only [zero_add, List.getElem?_cons_succ] at h1
        cases rest with
        | nil => exact hrest
        | cons b rest2 => simp at h1
    | succ i =>
      simp only [List.getElem?_cons_succ] at he
      have := ih hrest i e he
      simpa only [List.getElem?_cons_succ] using this

/-- What the invariant of an internal page says about the slot at index `i`. -/
theorem KidsOK.get_kid {t : BPlusTree} {g : Ghost} {eh : page_id_t → Option KeyType}
    {P : page_id_t} {arr : List (KeyType × page_id_t)} (h : KidsOK t g eh P arr)
    (i : Nat) (e : KeyType × page_id_t) (he : arr[i]? = some e) :
    IsChild t g P e.2 ∧ (i = 0 → g.lo e.2 = g.lo P) ∧ (0 < i → g.lo e.2 = some e.1) ∧
    (∀ e1, arr[i + 1]? = some e1 → eh e.2 = some e1.1) ∧
    (arr[i + 1]? = none → eh e.2 = g.hi P) := by
  obtain ⟨e0, rest, harr, hc, hlo, hs⟩ := h
  subst harr
  cases i with
  | zero =>
    simp only [List.getElem?_cons_zero, Option.some.injEq] at he
    subst he
    refine ⟨hc, fun _ => hlo, fun h0 => absurd h0 (lt_irrefl _), ?_, ?_⟩
    · intro e1 h1
      simp only [zero_add, List.getElem?_cons_succ] at h1
      cases rest with
      | nil => simp at h1
      | cons b rest2 =>
        simp only [List.getElem?_cons_zero, Option.some.injEq] at h1
        subst h1
        exact hs.1
    · intro h1
      simp only [zero_add, List.getElem?_cons_succ] at h1
      cases rest with
      | nil => exact hs
      | cons b rest2 => simp at h1
  | succ i =>
    simp only [List.getElem?_cons_succ] at he
    obtain ⟨h1, h2, h3, h4⟩ := hs.get_slot i e he
    exact ⟨h1, fun h0 => absurd h0 (Nat.succ_ne_zero _), fun _ => h2,
      by simpa only [List.getElem?_cons_succ] using h3,
      by simpa only [List.getElem?_cons_succ] using h4⟩

/-- The binary search of `GetLeafPage`: the slot before the result holds a
key not above `key` (or is slot 0) and the slot at the result, if there is
one, a key above `key`. -/
theorem searchLoop_spec (arr : List (KeyType × page_id_t)) (key : KeyType) :
    ∀ (fuel l r res : Nat), searchLoop arr key fuel l r = .ok res →
      1 ≤ l → l ≤ r → r ≤ arr.length →
      (l = 1 ∨ ∃ e, arr[l - 1]? = some e ∧ e.1 ≤ key) →
      (r = arr.length ∨ ∃ e, arr[r]? = some e ∧ key < e.1) →
      1 ≤ res ∧ res ≤ arr.length ∧
      (res = 1 ∨ ∃ e, arr[res - 1]? = some e ∧ e.1 ≤ key) ∧
      (res = arr.length ∨ ∃ e, arr[res]? = some e ∧ key < e.1) := by
  intro fuel
  induction fuel with
  | zero => intro l r res h; unfold searchLoop at h; exact absurd h (by simp)
  | succ fuel ih =>
    intro l r res h hl hlr hr h1 h2
    unfold searchLoop at h
    by_cases hlt : l < r
    · rw [if_pos hlt] at h
      split at h
      · exact absurd h (by simp)
      · rename_i e he
        by_cases hc : (comparator_ e.1 key == 1) = true
        · rw [if_pos hc] at h
          exact ih l ((l + r) / 2) res h hl (by omega) (by omega) h1
            (Or.inr ⟨e, he, comparator_gt.1 hc⟩)
        · rw [if_neg hc] at h
          have hle : e.1 ≤ key := not_lt.1 (fun hgt => hc (comparator_gt.2 hgt))
          exact ih ((l + r) / 2 + 1) r res h (by omega) (by omega) hr
            (Or.inr ⟨e, by simpa using he, hle⟩) h2
    · rw [if_neg hlt] at h
      injection h with h
      subst h
      have : l = r := by omega
      subst this
      exact ⟨hl, hr, h1, h2⟩

/-- The child `GetLeafPage` follows from an internal page of the tree is a
child whose key range holds the key. -/
theorem KidsOK.childFor_spec {t : BPlusTree} {g : Ghost} {eh : page_id_t → Option KeyType}
    {P : page_id_t} {ip : InternalPage} (h : KidsOK t g eh P ip.array_) {key : KeyType}
    {c : page_id_t} (hc : childFor ip key = .ok c) (hlo : geLo (g.lo P) key)
    (hhi : ltHi (g.hi P) key) :
    (∃ e ∈ ip.array_, e.2 = c) ∧ IsChild t g P c ∧ geLo (g.lo c) key ∧ ltHi (eh c) key := by
  unfold childFor at hc
  split at hc
  · exact absurd hc (by simp)
  · rename_i res hres
    split at hc
    · rename_i e he
      injection hc with hc
      subst hc
      have hlen : 1 ≤ ip.array_.length := by
        obtain ⟨e0, rest, harr, _⟩ := h
        rw [harr]; simp
      obtain ⟨r1, r2, r3, r4⟩ := searchLoop_spec ip.array_ key _ 1 ip.array_.length res hres
        (le_refl _) hlen (le_refl _) (Or.inl rfl) (Or.inl rfl)
      obtain ⟨k1, k2, k3, k4, k5⟩ := h.get_kid (res - 1) e he
      refine ⟨⟨e, List.getElem?_mem he, rfl⟩, k1, ?_, ?_⟩
      · rcases r3 with r3 | ⟨e1, he1, hle⟩
        · rw [k2 (by omega)]; exact hlo
        · rw [he] at he1
          injection he1 with he1
          subst he1
          by_cases h0 : res - 1 = 0
          · rw [k2 h0]; exact hlo
          · rw [k3 (by omega)]
            intro a ha
            injection ha with ha
            rw [← ha]; exact hle
      · have hidx : res - 1 + 1 = res := by omega
        rw [hidx] at k4 k5
        rcases r4 with r4 | ⟨e1, he1, hlt⟩
        · rw [k5 (by rw [r4]; simp)]; exact hhi
        · rw [k4 e1 he1]
          intro b hb
          injection hb with hb
          rw [← hb]; exact hlt
    · exact absurd hc (by simp)

/-- The walk of `GetLeafPage` from a page of the tree whose key range holds
the key ends, if it ends, at a leaf of the tree whose key range holds the key. -/
theorem Inv.descend_spec {t : BPlusTree} {g : Ghost} (h : Inv t g) (key : KeyType) :
    ∀ (f : Nat) (p q : page_id_t), descend t key f p = .ok q → g.S p →
      geLo (g.lo p) key → ltHi (g.hi p) key →
      g.S q ∧ IsLeaf t q ∧ geLo (g.lo q) key ∧ ltHi (g.hi q) key := by
  intro f
  induction f with
  | zero => intro p q hd; unfold descend at hd; exact absurd hd (by simp)
  | succ f ih =>
    intro p q hd hp hlo hhi
    unfold descend at hd
    split at hd
    · exact absurd hd (by simp)
    · rename_i l hl
      injection hd with hd
      subst hd
      exact ⟨hp, ⟨l, hl⟩, hlo, hhi⟩
    · rename_i ip hip
      split at hd
      · exact absurd hd (by simp)
      · rename_i c hc
        obtain ⟨_, k1, k2, k3⟩ := ((h.node p hp).kids ip hip).childFor_spec hc hlo hhi
        exact ih c q hd k1.1 k2 k3

/-- The leaf `GetLeafPage` returns is a leaf of the tree whose key range
holds the key. -/
theorem Inv.GetLeafPage_spec {t : BPlusTree} {g : Ghost} (h : Inv t g) {key : KeyType}
    {q : page_id_t} (hne : t.IsEmpty = false) (hq : t.GetLeafPage key = .ok q) :
    g.S q ∧ IsLeaf t q ∧ geLo (g.lo q) key ∧ ltHi (g.hi q) key := by
  obtain ⟨h1, h2, h3, _⟩ := h.root_ok hne
  refine h.descend_spec key _ _ _ hq h1 ?_ ?_
  · rw [h2]; intro a ha; cases ha
  · rw [h3]; intro a ha; cases ha

theorem parentOf_congr {t t1 : BPlusTree} {c : page_id_t} (h : t1.pages c = t.pages c) :
    parentOf t1 c = parentOf t c := by
  unfold parentOf
  rw [h]

theorem parentOf_of_pages {t : BPlusTree} {c : page_id_t} {pg : TreePage}
    (h : t.pages c = some pg) : parentOf t c = pg.GetParentPageId := by
  unfold parentOf
  rw [h]

theorem IsChild.transfer_child {t t1 : BPlusTree} {g g1 : Ghost} {eh eh1 : page_id_t → Option KeyType}
    {P c : page_id_t} (hht : g1.ht P = g.ht P) (hv : KidView t g eh t1 g1 eh1 c)
    (h : IsChild t g P c) : IsChild t1 g1 P c :=
  ⟨hv.S, hv.par.trans h.2.1, by rw [hv.ht, hht]; exact h.2.2⟩

theorem SlotsK.transfer_slots {t t1 : BPlusTree} {g g1 : Ghost} {eh eh1 : page_id_t → Option KeyType}
    {P : page_id_t} {h : Option KeyType} (hht : g1.ht P = g.ht P) :
    ∀ {arr : List (KeyType × page_id_t)} {m : Option KeyType},
      (∀ e ∈ arr, KidView t g eh t1 g1 eh1 e.2) →
      SlotsK t g eh P m arr h → SlotsK t1 g1 eh1 P m arr h := by
  intro arr
  induction arr with
  | nil => intro m _ hs; exact hs
  | cons a rest ih =>
    intro m hv hs
    obtain ⟨h1, h2, h3, h4⟩ := hs
    have hva := hv a (List.mem_cons_self _ _)
    refine ⟨h1, h2.transfer_child hht hva, by rw [hva.lo]; exact h3, ?_⟩
    rw [hva.eh]
    exact ih (fun e he => hv e (List.mem_cons_of_mem _ he)) h4

theorem KidsOK.transfer_kids {t t1 : BPlusTree} {g g1 : Ghost} {eh eh1 : page_id_t → Option KeyType}
    {P : page_id_t} {arr : List (KeyType × page_id_t)} (hht : g1.ht P = g.ht P)
    (hlo : g1.lo P = g.lo P) (hhi : g1.hi P = g.hi P)
    (hv : ∀ e ∈ arr, KidView t g eh t1 g1 eh1 e.2)
    (h : KidsOK t g eh P arr) : KidsOK t1 g1 eh1 P arr := by
  obtain ⟨e0, rest, harr, hc, hl, hs⟩ := h
  subst harr
  have hv0 := hv e0 (List.mem_cons_self _ _)
  refine ⟨e0, rest, rfl, hc.transfer_child hht hv0, by rw [hv0.lo, hlo]; exact hl, ?_⟩
  rw [hv0.eh, hhi]
  exact hs.transfer_slots hht (fun e he => hv e (List.mem_cons_of_mem _ he))

theorem LeafOK.transfer_leaf {t t1 : BPlusTree} {g g1 : Ghost}
    {p : page_id_t} {l : LeafPage} (hlm : t1.leaf_max_size_ = t.leaf_max_size_)
    (hlo : g1.lo p = g.lo p) (hhi : g1.hi p = g.hi p)
    (hv : ∀ b, g.hi p = some b → NextView t g t1 g1 l.next_page_id_)
    (h : LeafOK t g p l) : LeafOK t1 g1 p l := by
  refine ⟨by rw [hlm]; exact h.max_size, h.sorted, ?_, ?_, ?_⟩
  · rw [hlo, hhi]; exact h.inside
  · rw [hhi]; exact h.last
  · rw [hhi]
    intro b hb
    obtain ⟨h1, h2, h3⟩ := h.next b hb
    have hvb := hv b hb
    exact ⟨hvb.S, hvb.leaf h2, by rw [hvb.lo]; exact h3⟩

/-- The pages that a step does not touch keep what the invariant asks of
them.  `X` holds of the pages the step touches, `VK` of those that look
different afterwards from their parent, `VN` of those that look different
from the leaf before them. -/
theorem InvG.frame {t : BPlusTree} {g : Ghost} {eh : page_id_t → Option KeyType}
    {det : page_id_t → Prop} (h : InvG t g eh det) (t1 : BPlusTree) (g1 : Ghost)
    (eh1 : page_id_t → Option KeyType) (det1 : page_id_t → Prop)
    (X VK VN : page_id_t → Prop)
    (hnext : t.next_page_id_ ≤ t1.next_page_id_)
    (hlm : t1.leaf_max_size_ = t.leaf_max_size_)
    (hroot : t1.root_page_id_ = t.root_page_id_ ∨ X t.root_page_id_)
    (hsame : ∀ c, g.S c → ¬ X c → t1.pages c = t.pages c ∧ g1.S c ∧ g1.ht c = g.ht c ∧
      g1.lo c = g.lo c ∧ g1.hi c = g.hi c ∧ eh1 c = eh c ∧ (det c → det1 c))
    (hS : ∀ c, g1.S c → ¬ X c → g.S c)
    (hkv : ∀ c, g.S c → X c → ¬ VK c → KidView t g eh t1 g1 eh1 c)
    (hnv : ∀ c, g.S c → X c → ¬ VN c → NextView t g t1 g1 c)
    (hkid : ∀ p ip, g.S p → ¬ X p → t.pages p = some (.internal ip) →
      ∀ e ∈ ip.array_, ¬ VK e.2)
    (hnxt : ∀ p l b, g.S p → ¬ X p → t.pages p = some (.leaf l) → g.hi p = some b →
      ¬ VN l.next_page_id_)
    (hup : ∀ p, g.S p → ¬ X p → ¬ det p → parentOf t p ≠ INVALID_PAGE_ID →
      X (parentOf t p) →
      g1.S (parentOf t p) ∧
      ∃ ip, t1.pages (parentOf t p) = some (.internal ip) ∧ p ∈ ip.array_.map Prod.snd) :
    ∀ p, g1.S p → ¬ X p → NodeOK t1 g1 eh1 det1 p := by
  have hk : ∀ c, g.S c → ¬ VK c → KidView t g eh t1 g1 eh1 c := by
    intro c hc hV
    by_cases hX : X c
    · exact hkv c hc hX hV
    · obtain ⟨s1, s2, s3, s4, _, s6, _⟩ := hsame c hc hX
      exact ⟨s2, parentOf_congr s1, s3, s4, s6⟩
  have hn : ∀ c, g.S c → ¬ VN c → NextView t g t1 g1 c := by
    intro c hc hV
    by_cases hX : X c
    · exact hnv c hc hX hV
    · obtain ⟨s1, s2, _, s4, _, _, _⟩ := hsame c hc hX
      exact ⟨s2, s4, fun ⟨l, hl⟩ => ⟨l, by rw [s1]; exact hl⟩⟩
  intro p hp1 hX
  have hp := hS p hp1 hX
  obtain ⟨s1, s2, s3, s4, s5, s6, s7⟩ := hsame p hp hX
  have n := h.node p hp
  refine ⟨?_, ?_, ?_, ?_, ?_, ?_⟩
  · rw [s1]; exact n.page
  · rw [s4, s5]; exact n.range
  · rw [s3]
    exact lt_of_lt_of_le n.ht_lt (Int.toNat_le_toNat hnext)
  · intro l hl
    rw [s1] at hl
    refine (n.leaf l hl).transfer_leaf hlm s4 s5 ?_
    intro b hb
    exact hn _ ((n.leaf l hl).next b hb).1 (hnxt p l b hp hX hl hb)
  · intro ip hip
    rw [s1] at hip
    have hkk := n.kids ip hip
    refine hkk.transfer_kids s3 s4 s5 ?_
    intro e he
    exact hk _ (hkk.child_of_mem e he).1 (hkid p ip hp hX hip e he)
  · intro hd1
    have hd : ¬ det p := fun hd0 => hd1 (s7 hd0)
    have u := n.up hd
    have hpar : parentOf t1 p = parentOf t p := parentOf_congr s1
    refine ⟨?_, ?_⟩
    · rw [hpar]
      intro h0
      have hr := u.top h0
      rcases hroot with hroot | hroot
      · rw [hroot]; exact hr
      · rw [← hr] at hroot
        exact absurd hroot hX
    · rw [hpar]
      intro h0
      obtain ⟨u1, ip, u2, u3⟩ := u.inner h0
      by_cases hXP : X (parentOf t p)
      · exact hup p hp hX hd h0 hXP
      · obtain ⟨q1, q2, _⟩ := hsame _ u1 hXP
        exact ⟨q2, ip, by rw [q1]; exact u2, u3⟩

theorem hasKey_true_iff {arr : List (KeyType × ValueType)} {key : KeyType} :
    LeafPage.hasKey arr key = true ↔ ∃ e ∈ arr, e.1 = key := by
  unfold LeafPage.hasKey
  rw [List.any_eq_true]
  constructor
  · rintro ⟨e, he, hc⟩; exact ⟨e, he, comparator_eq.1 hc⟩
  · rintro ⟨e, he, hc⟩; exact ⟨e, he, comparator_eq.2 hc⟩

theorem hasKey_false_iff {arr : List (KeyType × ValueType)} {key : KeyType} :
    LeafPage.hasKey arr key = false ↔ ∀ e ∈ arr, e.1 ≠ key := by
  constructor
  · intro h e he hk
    have := hasKey_true_iff.2 ⟨e, he, hk⟩
    rw [h] at this
    cases this
  · intro h
    cases hk : LeafPage.hasKey arr key with
    | false => rfl
    | true =>
      obtain ⟨e, he, hk⟩ := hasKey_true_iff.1 hk
      exact absurd hk (h e he)

/-- The entry put at `insertIndex` keeps a sorted array sorted. -/
theorem insertIndex_sorted (key : KeyType) (value : ValueType) :
    ∀ arr : List (KeyType × ValueType), arr.Pairwise (fun a b => a.1 < b.1) →
      (∀ e ∈ arr, e.1 ≠ key) →
      (arr.take (LeafPage.insertIndex key arr) ++
        (key, value) :: arr.drop (LeafPage.insertIndex key arr)).Pairwise
          (fun a b => a.1 < b.1) := by
  intro arr
  induction arr with
  | nil => intro _ _; simp [LeafPage.insertIndex]
  | cons a rest ih =>
    intro hs hne
    rw [List.pairwise_cons] at hs
    unfold LeafPage.insertIndex
    by_cases hc : (comparator_ a.1 key == -1) = true
    · rw [if_pos hc]
      simp only [List.take_succ_cons, List.drop_succ_cons, List.cons_append]
      rw [List.pairwise_cons]
      refine ⟨?_, ih hs.2 (fun e he => hne e (List.mem_cons_of_mem _ he))⟩
      intro e he
      rcases List.mem_append.1 he with he | he
      · exact hs.1 e (List.mem_of_mem_take he)
      · rcases List.mem_cons.1 he with he | he
        · rw [he]; exact comparator_lt.1 hc
        · exact hs.1 e (List.mem_of_mem_drop he)
    · rw [if_neg hc]
      simp only [List.take_zero, List.drop_zero, List.nil_append]
      have hlt : key < a.1 := by
        have h1 : ¬ a.1 < key := fun h => hc (comparator_lt.2 h)
        have h2 : a.1 ≠ key := hne a (List.mem_cons_self _ _)
        exact lt_of_le_of_ne (not_lt.1 h1) (Ne.symm h2)
      rw [List.pairwise_cons]
      refine ⟨?_, List.pairwise_cons.2 hs⟩
      intro e he
      rcases List.mem_cons.1 he with he | he
      · rw [he]; exact hlt
      · exact lt_trans hlt (hs.1 e he)

theorem insertIndex_le (key : KeyType) :
    ∀ arr : List (KeyType × ValueType), LeafPage.insertIndex key arr ≤ arr.length := by
  intro arr
  induction arr with
  | nil => simp [LeafPage.insertIndex]
  | cons a rest ih =>
    unfold LeafPage.insertIndex
    split
    · simp only [List.length_cons]; omega
    · exact Nat.zero_le _

/-- A key above all stored keys goes to the end. -/
theorem insertIndex_all_lt (key : KeyType) :
    ∀ arr : List (KeyType × ValueType), (∀ e ∈ arr, e.1 < key) →
      LeafPage.insertIndex key arr = arr.length := by
  intro arr
  induction arr with
  | nil => intro _; simp [LeafPage.insertIndex]
  | cons a rest ih =>
    intro h
    unfold LeafPage.insertIndex
    rw [if_pos (comparator_lt.2 (h a (List.mem_cons_self _ _)))]
    rw [ih (fun e he => h e (List.mem_cons_of_mem _ he))]
    simp

theorem mem_insertAt {α : Type} (arr : List α) (i : Nat) (x e : α) :
    e ∈ arr.take i ++ x :: arr.drop i ↔ e = x ∨ e ∈ arr := by
  constructor
  · intro h
    rcases List.mem_append.1 h with h | h
    · exact Or.inr (List.mem_of_mem_take h)
    · rcases List.mem_cons.1 h with h | h
      · exact Or.inl h
      · exact Or.inr (List.mem_of_mem_drop h)
  · intro h
    rcases h with h | h
    · exact List.mem_append.2 (Or.inr (List.mem_cons.2 (Or.inl h)))
    · rw [← List.take_append_drop i arr] at h
      rcases List.mem_append.1 h with h | h
      · exact List.mem_append.2 (Or.inl h)
      · exact List.mem_append.2 (Or.inr (List.mem_cons_of_mem _ h))

/-- What a returning leaf `Insert` did. -/
theorem LeafPage.Insert_ok {p l1 : LeafPage} {key : KeyType} {value : ValueType}
    (h : p.Insert key value = .ok l1) :
    p.array_.length < p.max_size_ ∧
    l1.page_id_ = p.page_id_ ∧ l1.parent_page_id_ = p.parent_page_id_ ∧
    l1.max_size_ = p.max_size_ ∧ l1.next_page_id_ = p.next_page_id_ ∧
    (LeafPage.hasKey p.array_ key = true → l1 = p) ∧
    (LeafPage.hasKey p.array_ key = false →
      l1.array_ = p.array_.take (LeafPage.insertIndex key p.array_) ++
        (key, value) :: p.array_.drop (LeafPage.insertIndex key p.array_)) := by
  unfold LeafPage.Insert at h
  split at h
  · rename_i hlt
    split at h
    · rename_i hk
      injection h with h
      subst h
      exact ⟨hlt, rfl, rfl, rfl, rfl, fun _ => rfl, fun hf => by rw [hk] at hf; cases hf⟩
    · rename_i hk
      injection h with h
      subst h
      exact ⟨hlt, rfl, rfl, rfl, rfl, fun ht => absurd ht hk, fun _ => rfl⟩
  · exact absurd h (by simp)

theorem removeKey_sublist (key : KeyType) :
    ∀ arr : List (KeyType × ValueType), (LeafPage.removeKey key arr).Sublist arr := by
  intro arr
  induction arr with
  | nil => exact List.Sublist.slnil
  | cons a rest ih =>
    unfold LeafPage.removeKey
    split
    · exact List.Sublist.cons₂ _ ih
    · exact List.sublist_cons_self _ _

theorem IsLeaf.store_leaf {t : BPlusTree} {c : page_id_t} (h : IsLeaf t c) (p : page_id_t)
    (l1 : LeafPage) : IsLeaf (t.store p (.leaf l1)) c := by
  by_cases hc : c = p
  · subst hc; exact ⟨l1, store_pages_same _ _ _⟩
  · obtain ⟨l, hl⟩ := h
    exact ⟨l, by rw [store_pages_ne _ _ _ hc]; exact hl⟩

/-- A leaf of the tree may get other entries, as long as they are sorted and
lie in its key range: the invariant stays. -/
theorem Inv.leaf_update {t : BPlusTree} {g : Ghost} (h : Inv t g) {p : page_id_t}
    {l l1 : LeafPage} (hp : g.S p) (hpg : t.pages p = some (.leaf l))
    (h1 : l1.page_id_ = l.page_id_) (h2 : l1.parent_page_id_ = l.parent_page_id_)
    (h3 : l1.max_size_ = l.max_size_) (h4 : l1.next_page_id_ = l.next_page_id_)
    (hs : l1.array_.Pairwise (fun a b => a.1 < b.1))
    (hin : ∀ e ∈ l1.array_, geLo (g.lo p) e.1 ∧ ltHi (g.hi p) e.1) :
    Inv (t.store p (.leaf l1)) g := by
  have n := h.node p hp
  have hid : l.page_id_ = p := by
    obtain ⟨pg, q1, q2⟩ := n.page
    rw [hpg] at q1
    injection q1 with q1
    subst q1
    exact q2
  have hpar : ∀ c, parentOf (t.store p (.leaf l1)) c = parentOf t c := by
    intro c
    by_cases hc : c = p
    · subst hc
      rw [parentOf_of_pages (store_pages_same _ _ _), parentOf_of_pages hpg]
      exact h2
    · exact parentOf_congr (store_pages_ne _ _ _ hc)
  have hleaf : ∀ c, IsLeaf (t.store p (.leaf l1)) c → IsLeaf t c := by
    intro c hc
    by_cases hcp : c = p
    · subst hcp; exact ⟨l, hpg⟩
    · obtain ⟨l2, hl2⟩ := hc
      rw [store_pages_ne _ _ _ hcp] at hl2
      exact ⟨l2, hl2⟩
  have hint : ∀ c ip, t.pages c = some (.internal ip) →
      (t.store p (.leaf l1)).pages c = some (.internal ip) := by
    intro c ip hc
    have hcp : c ≠ p := by
      intro hcp
      rw [hcp, hpg] at hc
      cases hc
    rw [store_pages_ne _ _ _ hcp]
    exact hc
  refine ⟨h.next_nonneg, ?_, ?_, ?_, ?_⟩
  · intro c pg hc
    by_cases hcp : c = p
    · subst hcp; exact InvG.lt_next h hp
    · rw [store_pages_ne _ _ _ hcp] at hc
      exact h.store_lt c pg hc
  · intro he
    obtain ⟨r1, r2, r3, r4⟩ := h.root_ok he
    exact ⟨r1, r2, r3, (hpar _).trans r4⟩
  · intro c hc
    by_cases hcp : c = p
    · subst hcp
      refine ⟨⟨.leaf l1, store_pages_same _ _ _, h1.trans hid⟩, n.range, n.ht_lt, ?_, ?_, ?_⟩
      · intro l2 hl2
        rw [store_pages_same] at hl2
        injection hl2 with hl2
        injection hl2 with hl2
        subst hl2
        have o := n.leaf l hpg
        refine ⟨h3.trans o.max_size, hs, hin, ?_, ?_⟩
        · rw [h4]; exact o.last
        · rw [h4]
          intro b hb
          obtain ⟨o1, o2, o3⟩ := o.next b hb
          exact ⟨o1, o2.store_leaf _ _, o3⟩
      · intro ip hip
        rw [store_pages_same] at hip
        cases hip
      · intro hd
        have u := n.up hd
        refine ⟨?_, ?_⟩
        · rw [hpar]; exact u.top
        · rw [hpar]
          intro h0
          obtain ⟨u1, ip, u2, u3⟩ := u.inner h0
          exact ⟨u1, ip, hint _ _ u2, u3⟩
    · refine InvG.frame h (t.store p (.leaf l1)) g g.hi (fun _ => False)
        (fun c => c = p) (fun _ => False) (fun _ => False) (le_refl _) rfl
        (Or.inl rfl) ?_ ?_ ?_ ?_ ?_ ?_ ?_ c hc hcp
      · intro c hc hX
        exact ⟨store_pages_ne _ _ _ hX, hc, rfl, rfl, rfl, rfl, fun hd => hd⟩
      · intro c hc _; exact hc
      · intro c hc _ _
        exact ⟨hc, hpar c, rfl, rfl, rfl⟩
      · intro c hc hX _
        exact ⟨hc, rfl, fun hl => hl.store_leaf _ _⟩
      · intro _ _ _ _ _ _ _ hf; exact hf
      · intro _ _ _ _ _ _ _ hf; exact hf
      · intro c hc _ hd h0 hX
        obtain ⟨_, ip, u2, _⟩ := ((h.node c hc).up hd).inner h0
        rw [hX, hpg] at u2
        cases u2
  · intro c d x hc hd lc ld
    exact h.disj c d x hc hd (hleaf c lc) (hleaf d ld)

theorem splitGhost_eh (g : Ghost) (p n : page_id_t) (s : KeyType) (c : page_id_t) :
    (if c = p then (splitGhost g p n s).hi n else (splitGhost g p n s).hi c) =
      if c = n then g.hi p else g.hi c := by
  unfold splitGhost
  by_cases h1 : c = p
  · by_cases h2 : c = n
    · simp [h1, h2]
    · simp [h1]
  · by_cases h2 : c = n
    · simp [h2]
    · simp [h1, h2]

/-- Facts about a sorted array cut at the index `c`. -/
theorem sorted_cut {arr : List (KeyType × ValueType)} (hs : arr.Pairwise (fun a b => a.1 < b.1))
    {c : Nat} (hc : 0 < c) {e : KeyType × ValueType} (he : (arr.drop c).head? = some e) :
    e ∈ arr ∧ (∀ x ∈ arr.take c, x.1 < e.1) ∧ (∀ x ∈ arr.drop c, e.1 ≤ x.1) ∧
    (∃ x ∈ arr.take c, True) := by
  have hd : ∃ rest, arr.drop c = e :: rest := by
    cases hdr : arr.drop c with
    | nil => rw [hdr] at he; cases he
    | cons a rest =>
      rw [hdr] at he
      simp only [List.head?_cons, Option.some.injEq] at he
      exact ⟨rest, by rw [he]⟩
  obtain ⟨rest, hd⟩ := hd
  have hmem : e ∈ arr.drop c := by rw [hd]; exact List.mem_cons_self _ _
  have hsplit := hs
  rw [← List.take_append_drop c arr, List.pairwise_append] at hsplit
  obtain ⟨_, h2, h3⟩ := hsplit
  refine ⟨List.mem_of_mem_drop hmem, fun x hx => h3 x hx e hmem, ?_, ?_⟩
  · intro x hx
    rw [hd] at hx h2
    rcases List.mem_cons.1 hx with hx | hx
    · rw [hx]
    · exact le_of_lt ((List.pairwise_cons.1 h2).1 x hx)
  · cases arr with
    | nil => simp at hd
    | cons a rest2 =>
      obtain ⟨c1, rfl⟩ : ∃ c1, c = c1 + 1 := ⟨c - 1, by omega⟩
      exact ⟨a, by simp, trivial⟩

/-- The split of a leaf: the entries from index `c` on go to a new leaf,
stored under the next free page id and linked in after the old leaf. -/
theorem Inv.split_leaf {t : BPlusTree} {g : Ghost} (h : Inv t g) {p : page_id_t}
    {l : LeafPage} (hp : g.S p) (hpg : t.pages p = some (.leaf l))
    {c : Nat} (hc : 0 < c) {e : KeyType × ValueType} (he : (l.array_.drop c).head? = some e)
    (t1 : BPlusTree) (l2 n2 : LeafPage)
    (hroot : t1.root_page_id_ = t.root_page_id_)
    (hnext : t1.next_page_id_ = t.next_page_id_ + 1)
    (hlm : t1.leaf_max_size_ = t.leaf_max_size_)
    (hp1 : t1.pages p = some (.leaf l2)) (hn1 : t1.pages t.next_page_id_ = some (.leaf n2))
    (hoth : ∀ q, q ≠ p → q ≠ t.next_page_id_ → t1.pages q = t.pages q)
    (a1 : l2.page_id_ = l.page_id_) (a2 : l2.parent_page_id_ = l.parent_page_id_)
    (a3 : l2.max_size_ = l.max_size_) (a4 : l2.next_page_id_ = t.next_page_id_)
    (a5 : l2.array_ = l.array_.take c)
    (b1 : n2.page_id_ = t.next_page_id_) (b3 : n2.max_size_ = t.leaf_max_size_)
    (b4 : n2.next_page_id_ = l.next_page_id_) (b5 : n2.array_ = l.array_.drop c) :
    Pending t1 (splitGhost g p t.next_page_id_ e.1) p t.next_page_id_ e.1 := by
  have n := h.node p hp
  have o := n.leaf l hpg
  have hid : l.page_id_ = p := by
    obtain ⟨pg, q1, q2⟩ := n.page
    rw [hpg] at q1
    injection q1 with q1
    subst q1
    exact q2
  obtain ⟨k1, k2, k3, x0, hx0, _⟩ := sorted_cut o.sorted hc he
  -- the new page id is fresh
  have hfresh : ∀ q, g.S q → q ≠ t.next_page_id_ := by
    intro q hq hqn
    have := (InvG.lt_next h hq).2
    rw [hqn] at this
    exact lt_irrefl _ this
  have hpn : p ≠ t.next_page_id_ := hfresh p hp
  have hpar : ∀ q, g.S q → parentOf t1 q = parentOf t q := by
    intro q hq
    by_cases hqp : q = p
    · subst hqp
      rw [parentOf_of_pages hp1, parentOf_of_pages hpg]
      exact a2
    · exact parentOf_congr (hoth q hqp (hfresh q hq))
  have hleaf1 : ∀ q, g.S q → IsLeaf t q → IsLeaf t1 q := by
    intro q hq hl
    by_cases hqp : q = p
    · subst hqp; exact ⟨l2, hp1⟩
    · obtain ⟨l3, hl3⟩ := hl
      exact ⟨l3, by rw [hoth q hqp (hfresh q hq)]; exact hl3⟩
  have hleaf0 : ∀ q, g.S q → IsLeaf t1 q → IsLeaf t q := by
    intro q hq hl
    by_cases hqp : q = p
    · subst hqp; exact ⟨l, hpg⟩
    · obtain ⟨l3, hl3⟩ := hl
      rw [hoth q hqp (hfresh q hq)] at hl3
      exact ⟨l3, hl3⟩
  have hint : ∀ q ip, g.S q → t.pages q = some (.internal ip) →
      t1.pages q = some (.internal ip) := by
    intro q ip hq hqi
    have hqp : q ≠ p := by
      intro hqp
      rw [hqp, hpg] at hqi
      cases hqi
    rw [hoth q hqp (hfresh q hq)]
    exact hqi
  have hnextle : t.next_page_id_ ≤ t1.next_page_id_ := by rw [hnext]; linarith
  have hS1 : ∀ q, g.S q → (splitGhost g p t.next_page_id_ e.1).S q := fun q hq => Or.inr hq
  have hlo1 : ∀ q, g.S q → (splitGhost g p t.next_page_id_ e.1).lo q = g.lo q := by
    intro q hq
    show (if q = t.next_page_id_ then some e.1 else g.lo q) = g.lo q
    rw [if_neg (hfresh q hq)]
  have hht1 : ∀ q, g.S q → (splitGhost g p t.next_page_id_ e.1).ht q = g.ht q := by
    intro q hq
    show (if q = t.next_page_id_ then g.ht p else g.ht q) = g.ht q
    rw [if_neg (hfresh q hq)]
  have hhi1 : ∀ q, g.S q → q ≠ p → (splitGhost g p t.next_page_id_ e.1).hi q = g.hi q := by
    intro q hq hqp
    show (if q = t.next_page_id_ then g.hi p else if q = p then some e.1 else g.hi q) = g.hi q
    rw [if_neg (hfresh q hq), if_neg hqp]
  have hhip : (splitGhost g p t.next_page_id_ e.1).hi p = some e.1 := by
    show (if p = t.next_page_id_ then g.hi p else if p = p then some e.1 else g.hi p) = some e.1
    rw [if_neg hpn, if_pos rfl]
  have hhin : (splitGhost g p t.next_page_id_ e.1).hi t.next_page_id_ = g.hi p := by
    show (if t.next_page_id_ = t.next_page_id_ then g.hi p else _) = g.hi p
    rw [if_pos rfl]
  have hlon : (splitGhost g p t.next_page_id_ e.1).lo t.next_page_id_ = some e.1 := by
    show (if t.next_page_id_ = t.next_page_id_ then some e.1 else _) = some e.1
    rw [if_pos rfl]
  have hhtn : (splitGhost g p t.next_page_id_ e.1).ht t.next_page_id_ = g.ht p := by
    show (if t.next_page_id_ = t.next_page_id_ then g.ht p else _) = g.ht p
    rw [if_pos rfl]
  have heh : (fun c => if c = p then (splitGhost g p t.next_page_id_ e.1).hi t.next_page_id_
      else (splitGhost g p t.next_page_id_ e.1).hi c) =
      fun c => if c = t.next_page_id_ then g.hi p else g.hi c :=
    funext (splitGhost_eh g p t.next_page_id_ e.1)
  have hehS : ∀ q, g.S q → (if q = t.next_page_id_ then g.hi p else g.hi q) = g.hi q := by
    intro q hq
    rw [if_neg (hfresh q hq)]
  have hlt_lo : ∀ a, g.lo p = some a → a < e.1 := by
    intro a ha
    have h1 := (o.inside x0 (List.mem_of_mem_take hx0)).1 a ha
    have h2 := k2 x0 hx0
    linarith
  refine ⟨?_, hS1 p hp, Or.inl rfl, hpn, hlon, hhip, by rw [hhtn, hht1 p hp], ?_, ?_⟩
  · rw [heh]
    refine ⟨by rw [hnext]; have := h.next_nonneg; linarith, ?_, ?_, ?_, ?_⟩
    · intro q pg hq
      rw [hnext]
      by_cases hqn : q = t.next_page_id_
      · rw [hqn]; exact ⟨h.next_nonneg, by linarith⟩
      · by_cases hqp : q = p
        · have := InvG.lt_next h hp
          rw [hqp]; exact ⟨this.1, by linarith⟩
        · rw [hoth q hqp hqn] at hq
          have := h.store_lt q pg hq
          exact ⟨this.1, by linarith⟩
    · intro hne
      have hne0 : t.IsEmpty = false := by
        unfold IsEmpty at hne ⊢
        rw [hroot] at hne
        exact hne
      obtain ⟨r1, r2, r3, r4⟩ := h.root_ok hne0
      rw [hroot]
      exact ⟨hS1 _ r1, (hlo1 _ r1).trans r2, (hehS _ r1).trans r3, (hpar _ r1).trans r4⟩
    · intro q hq
      by_cases hqn : q = t.next_page_id_
      · -- the new leaf
        subst hqn
        refine ⟨⟨.leaf n2, hn1, b1⟩, ?_, ?_, ?_, ?_, ?_⟩
        · rw [hlon, hhin]
          intro a b ha hb
          injection ha with ha
          rw [← ha]
          exact (o.inside e k1).2 b hb
        · rw [hhtn, hnext]
          exact lt_of_lt_of_le n.ht_lt (Int.toNat_le_toNat (by linarith))
        · intro l3 hl3
          rw [hn1] at hl3
          injection hl3 with hl3
          injection hl3 with hl3
          subst hl3
          refine ⟨b3.trans hlm.symm, ?_, ?_, ?_, ?_⟩
          · rw [b5]
            exact o.sorted.sublist (List.drop_sublist _ _)
          · intro x hx
            rw [b5] at hx
            rw [hlon, hhin]
            refine ⟨?_, (o.inside x (List.mem_of_mem_drop hx)).2⟩
            intro a ha
            injection ha with ha
            rw [← ha]
            exact k3 x hx
          · rw [hhin, b4]; exact o.last
          · rw [hhin, b4]
            intro b hb
            obtain ⟨o1, o2, o3⟩ := o.next b hb
            exact ⟨hS1 _ o1, hleaf1 _ o1 o2, (hlo1 _ o1).trans o3⟩
        · intro ip hip
          rw [hn1] at hip
          cases hip
        · intro hd
          exact absurd rfl hd
      · by_cases hqp : q = p
        · -- the old leaf
          subst hqp
          refine ⟨⟨.leaf l2, hp1, a1.trans hid⟩, ?_, ?_, ?_, ?_, ?_⟩
          · rw [hlo1 _ hp, hhip]
            intro a b ha hb
            injection hb with hb
            rw [← hb]
            exact hlt_lo a ha
          · rw [hht1 _ hp]
            exact lt_of_lt_of_le n.ht_lt (Int.toNat_le_toNat hnextle)
          · intro l3 hl3
            rw [hp1] at hl3
            injection hl3 with hl3
            injection hl3 with hl3
            subst hl3
            refine ⟨(a3.trans o.max_size).trans hlm.symm, ?_, ?_, ?_, ?_⟩
            · rw [a5]
              exact o.sorted.sublist (List.take_sublist _ _)
            · intro x hx
              rw [a5] at hx
              rw [hlo1 _ hp, hhip]
              refine ⟨(o.inside x (List.mem_of_mem_take hx)).1, ?_⟩
              intro b hb
              injection hb with hb
              rw [← hb]
              exact k2 x hx
            · rw [hhip]
              intro hf
              cases hf
            · rw [hhip, a4]
              intro b hb
              injection hb with hb
              exact ⟨Or.inl rfl, ⟨n2, hn1⟩, by rw [hlon, hb]⟩
          · intro ip hip
            rw [hp1] at hip
            cases hip
          · intro _
            have u := n.up (fun hf => hf)
            refine ⟨?_, ?_⟩
            · rw [hpar _ hp, hroot]; exact u.top
            · rw [hpar _ hp]
              intro h0
              obtain ⟨u1, ip, u2, u3⟩ := u.inner h0
              exact ⟨hS1 _ u1, ip, hint _ _ u1 u2, u3⟩
        · -- every other page
          have hq0 : g.S q := by
            rcases hq with hq | hq
            · exact absurd hq hqn
            · exact hq
          refine InvG.frame h t1 (splitGhost g p t.next_page_id_ e.1)
            (fun c => if c = t.next_page_id_ then g.hi p else g.hi c)
            (fun c => c = t.next_page_id_)
            (fun c => c = p ∨ c = t.next_page_id_) (fun _ => False) (fun _ => False)
            hnextle hlm (Or.inl hroot) ?_ ?_ ?_ ?_ ?_ ?_ ?_ q hq ?_
          · intro c hc hX
            have hcp : c ≠ p := fun hcp => hX (Or.inl hcp)
            exact ⟨hoth c hcp (hfresh c hc), hS1 c hc, hht1 c hc, hlo1 c hc, hhi1 c hc hcp,
              hehS c hc, fun hd => hd.elim⟩
          · intro c hc hX
            rcases hc with hc | hc
            · exact absurd (Or.inr hc) hX
            · exact hc
          · intro c hc _ _
            exact ⟨hS1 c hc, hpar c hc, hht1 c hc, hlo1 c hc, hehS c hc⟩
          · intro c hc _ _
            exact ⟨hS1 c hc, hlo1 c hc, hleaf1 c hc⟩
          · intro _ _ _ _ _ _ _ hf; exact hf
          · intro _ _ _ _ _ _ _ hf; exact hf
          · intro c hc _ hd h0 hX
            obtain ⟨u1, ip, u2, _⟩ := ((h.node c hc).up hd).inner h0
            rcases hX with hX | hX
            · rw [hX, hpg] at u2
              cases u2
            · exact absurd hX (hfresh _ u1)
          · intro hX
            rcases hX with hX | hX
            · exact hqp hX
            · exact hqn hX
    · -- the key ranges of the leaves stay apart
      have key : ∀ q x, (splitGhost g p t.next_page_id_ e.1).S q → IsLeaf t1 q →
          geLo ((splitGhost g p t.next_page_id_ e.1).lo q) x →
          ltHi ((splitGhost g p t.next_page_id_ e.1).hi q) x →
          (q = t.next_page_id_ ∧ e.1 ≤ x ∧ geLo (g.lo p) x ∧ ltHi (g.hi p) x) ∨
          (q = p ∧ x < e.1 ∧ geLo (g.lo p) x ∧ ltHi (g.hi p) x) ∨
          (q ≠ t.next_page_id_ ∧ q ≠ p ∧ g.S q ∧ IsLeaf t q ∧ geLo (g.lo q) x ∧
            ltHi (g.hi q) x) := by
        intro q x hq hl h1 h2
        by_cases hqn : q = t.next_page_id_
        · subst hqn
          rw [hlon] at h1
          rw [hhin] at h2
          have hex := h1 e.1 rfl
          refine Or.inl ⟨rfl, hex, ?_, h2⟩
          intro a ha
          exact le_of_lt (lt_of_lt_of_le (hlt_lo a ha) hex)
        · have hq0 : g.S q := by
            rcases hq with hq | hq
            · exact absurd hq hqn
            · exact hq
          by_cases hqp : q = p
          · subst hqp
            rw [hlo1 _ hq0] at h1
            rw [hhip] at h2
            have hxe := h2 e.1 rfl
            refine Or.inr (Or.inl ⟨rfl, hxe, h1, ?_⟩)
            intro b hb
            exact lt_trans hxe ((o.inside e k1).2 b hb)
          · rw [hlo1 _ hq0] at h1
            rw [hhi1 _ hq0 hqp] at h2
            exact Or.inr (Or.inr ⟨hqn, hqp, hq0, hleaf0 q hq0 hl, h1, h2⟩)
      intro c d x hc hd lc ld c1 c2 d1 d2
      rcases key c x hc lc c1 c2 with ⟨rfl, c3, c4, c5⟩ | ⟨rfl, c3, c4, c5⟩ |
        ⟨c3, c4, c5, c6, c7, c8⟩
      · rcases key d x hd ld d1 d2 with ⟨rfl, d3, d4, d5⟩ | ⟨rfl, d3, d4, d5⟩ |
          ⟨d3, d4, d5, d6, d7, d8⟩
        · rfl
        · exact absurd d3 (not_lt.2 c3)
        · exact absurd (h.disj p d x hp d5 ⟨l, hpg⟩ d6 c4 c5 d7 d8) (Ne.symm d4)
      · rcases key d x hd ld d1 d2 with ⟨rfl, d3, d4, d5⟩ | ⟨rfl, d3, d4, d5⟩ |
          ⟨d3, d4, d5, d6, d7, d8⟩
        · exact absurd c3 (not_lt.2 d3)
        · rfl
        · exact absurd (h.disj c d x hp d5 ⟨l, hpg⟩ d6 c4 c5 d7 d8) (Ne.symm d4)
      · rcases key d x hd ld d1 d2 with ⟨rfl, d3, d4, d5⟩ | ⟨rfl, d3, d4, d5⟩ |
          ⟨d3, d4, d5, d6, d7, d8⟩
        · exact absurd (h.disj c p x c5 hp c6 ⟨l, hpg⟩ c7 c8 d4 d5) c4
        · exact absurd (h.disj c d x c5 hp c6 ⟨l, hpg⟩ c7 c8 d4 d5) c4
        · exact h.disj c d x c5 d5 c6 d6 c7 c8 d7 d8
  · intro c ip hc hci e1 he1
    have hcn : c ≠ t.next_page_id_ := by
      intro hcn
      rw [hcn, hn1] at hci
      cases hci
    have hc0 : g.S c := by
      rcases hc with hc | hc
      · exact absurd hc hcn
      · exact hc
    have hcp : c ≠ p := by
      intro hcp
      rw [hcp, hp1] at hci
      cases hci
    rw [hoth c hcp hcn] at hci
    exact hfresh _ (((h.node c hc0).kids ip hci).child_of_mem e1 he1).1
  · rw [hroot]
    cases hemp : t.IsEmpty with
    | true =>
      unfold IsEmpty at hemp
      rw [beq_iff_eq] at hemp
      rw [hemp]
      intro hf
      have := h.next_nonneg
      rw [← hf] at this
      exact absurd this (by decide)
    | false => exact hfresh _ (h.root_ok hemp).1

theorem SlotsK.append {t : BPlusTree} {g : Ghost} {eh : page_id_t → Option KeyType}
    {P : page_id_t} {h : Option KeyType} :
    ∀ {a b : List (KeyType × page_id_t)} {m : Option KeyType},
      SlotsK t g eh P m (a ++ b) h ↔ ∃ m1, SlotsK t g eh P m a m1 ∧ SlotsK t g eh P m1 b h := by
  intro a
  induction a with
  | nil =>
    intro b m
    constructor
    · intro hs; exact ⟨m, rfl, hs⟩
    · rintro ⟨m1, h1, h2⟩
      have : m = m1 := h1
      rw [this]; exact h2
  | cons x rest ih =>
    intro b m
    constructor
    · intro hs
      obtain ⟨h1, h2, h3, h4⟩ := hs
      obtain ⟨m1, h5, h6⟩ := ih.1 h4
      exact ⟨m1, ⟨h1, h2, h3, h5⟩, h6⟩
    · rintro ⟨m1, ⟨h1, h2, h3, h5⟩, h6⟩
      exact ⟨h1, h2, h3, ih.2 ⟨m1, h5, h6⟩⟩

/-- The chain of slots may be read for another state and another parent when
every child in it is a child there with the same bounds. -/
theorem SlotsK.mono {t t1 : BPlusTree} {g g1 : Ghost} {eh eh1 : page_id_t → Option KeyType}
    {P P1 : page_id_t} {h : Option KeyType} :
    ∀ {arr : List (KeyType × page_id_t)} {m : Option KeyType},
      (∀ e ∈ arr, IsChild t g P e.2 → g.lo e.2 = some e.1 →
        IsChild t1 g1 P1 e.2 ∧ g1.lo e.2 = some e.1 ∧ eh1 e.2 = eh e.2) →
      SlotsK t g eh P m arr h → SlotsK t1 g1 eh1 P1 m arr h := by
  intro arr
  induction arr with
  | nil => intro m _ hs; exact hs
  | cons a rest ih =>
    intro m hv hs
    obtain ⟨h1, h2, h3, h4⟩ := hs
    obtain ⟨v1, v2, v3⟩ := hv a (List.mem_cons_self _ _) h2 h3
    refine ⟨h1, v1, v2, ?_⟩
    rw [v3]
    exact ih (fun e he => hv e (List.mem_cons_of_mem _ he)) h4

/-- Along a chain of slots the keys ascend strictly, from the bound the chain
starts at. -/
theorem SlotsK.keys {t : BPlusTree} {g : Ghost} {eh : page_id_t → Option KeyType}
    {P : page_id_t} {h : Option KeyType}
    (R : ∀ c, g.S c → ltRange (g.lo c) (eh c)) :
    ∀ {arr : List (KeyType × page_id_t)} {m : Option KeyType},
      SlotsK t g eh P m arr h →
      arr.Pairwise (fun a b => a.1 < b.1) ∧ (∀ e ∈ arr, ∀ k, m = some k → k ≤ e.1) ∧
      (∀ e ∈ arr, ltHi h e.1) := by
  intro arr
  induction arr with
  | nil =>
    intro m _
    exact ⟨List.Pairwise.nil, fun e he => absurd he (List.not_mem_nil _),
      fun e he => absurd he (List.not_mem_nil _)⟩
  | cons a rest ih =>
    intro m hs
    obtain ⟨h1, h2, h3, h4⟩ := hs
    obtain ⟨i1, i2, i3⟩ := ih h4
    have hr := R a.2 h2.1
    have hlt : ∀ e ∈ rest, a.1 < e.1 := by
      intro e he
      cases rest with
      | nil => exact absurd he (List.not_mem_nil _)
      | cons a1 r1 =>
        have hm : eh a.2 = some a1.1 := h4.1
        have h5 := hr a.1 a1.1 h3 hm
        have h6 := i2 e he a1.1 hm
        linarith
    refine ⟨List.pairwise_cons.2 ⟨hlt, i1⟩, ?_, ?_⟩
    · intro e he k hk
      rw [h1] at hk
      injection hk with hk
      rcases List.mem_cons.1 he with he | he
      · rw [he, hk]
      · rw [← hk]; exact le_of_lt (hlt e he)
    · intro e he
      rcases List.mem_cons.1 he with he | he
      · rw [he]
        cases rest with
        | nil =>
          have hm : eh a.2 = h := h4
          intro b hb
          exact hr a.1 b h3 (hm.trans hb)
        | cons a1 r1 =>
          intro b hb
          have h5 := hlt a1 (List.mem_cons_self _ _)
          have h6 := i3 a1 (List.mem_cons_self _ _) b hb
          linarith
      · exact i3 e he

/-- The bound a chain of slots starts at is not above the bound it ends at. -/
theorem SlotsK.bound_le {t : BPlusTree} {g : Ghost} {eh : page_id_t → Option KeyType}
    {P : page_id_t} {h : Option KeyType}
    (R : ∀ c, g.S c → ltRange (g.lo c) (eh c))
    {arr : List (KeyType × page_id_t)} {m : Option KeyType}
    (hs : SlotsK t g eh P m arr h) : ∀ k b, m = some k → h = some b → k ≤ b := by
  intro k b hk hb
  cases arr with
  | nil =>
    have : m = h := hs
    rw [hk, hb] at this
    injection this with this
    exact le_of_eq this
  | cons a rest =>
    have h1 := (hs.keys R).2.1 a (List.mem_cons_self _ _) k hk
    have h2 := (hs.keys R).2.2 a (List.mem_cons_self _ _) b hb
    linarith

/-- The children of an internal page of the tree are distinct pages. -/
theorem KidsOK.nodup {t : BPlusTree} {g : Ghost} {eh : page_id_t → Option KeyType}
    {P : page_id_t} (R : ∀ c, g.S c → ltRange (g.lo c) (eh c))
    {arr : List (KeyType × page_id_t)} (h : KidsOK t g eh P arr) :
    (arr.map Prod.snd).Nodup := by
  obtain ⟨e0, rest, harr, hc, hlo, hs⟩ := h
  subst harr
  obtain ⟨k1, k2, _⟩ := hs.keys R
  have hrest : (rest.map Prod.snd).Nodup := by
    rw [List.Nodup, List.pairwise_map]
    have hall : rest.Pairwise (fun a b => (a ∈ rest ∧ b ∈ rest) ∧ a.1 < b.1) :=
      (List.pairwise_and_iff.2 ⟨List.pairwise_of_forall_mem_list (fun a ha b hb => ⟨ha, hb⟩), k1⟩)
    refine hall.imp ?_
    rintro a b ⟨⟨ha, hb⟩, hlt⟩ heq
    have h1 := (hs.slot_child_of_mem a ha).2
    have h2 := (hs.slot_child_of_mem b hb).2
    rw [heq, h2] at h1
    injection h1 with h1
    rw [h1] at hlt
    exact lt_irrefl _ hlt
  simp only [List.map_cons, List.nodup_cons]
  refine ⟨?_, hrest⟩
  intro hmem
  obtain ⟨e, he, heq⟩ := List.mem_map.1 hmem
  have h1 := (hs.slot_child_of_mem e he).2
  rw [heq, hlo] at h1
  have hr := R e0.2 hc.1
  cases rest with
  | nil => exact absurd he (List.not_mem_nil _)
  | cons a1 r1 =>
    have hm : eh e0.2 = some a1.1 := hs.1
    have h5 := hr e.1 a1.1 (hlo.trans h1) hm
    have h6 := k2 e he a1.1 hm
    linarith

/-- The pages of the tree keep a non-empty range also when read with the
upper bound the parent has, in the state between a split and the entry of
the new page. -/
theorem Pending.pending_ranges {t : BPlusTree} {g : Ghost} {old nw : page_id_t} {s : KeyType}
    (h : Pending t g old nw s) :
    ∀ c, g.S c → ltRange (g.lo c) (if c = old then g.hi nw else g.hi c) := by
  intro c hc
  by_cases hco : c = old
  · rw [if_pos hco, hco]
    intro a b ha hb
    have h1 := (h.inv.node old h.S_old).range a s ha h.hi_old
    have h2 := (h.inv.node nw h.S_new).range s b h.lo_new hb
    linarith
  · rw [if_neg hco]
    exact (h.inv.node c hc).range

theorem Inv.ranges {t : BPlusTree} {g : Ghost} (h : Inv t g) :
    ∀ c, g.S c → ltRange (g.lo c) (g.hi c) :=
  fun c hc => (h.node c hc).range

theorem SameBody.body_of_setParent {t t1 : BPlusTree} {q : page_id_t} {pg : TreePage}
    (P : page_id_t) (h : t.pages q = some pg) (hid : pg.GetPageId = q)
    (h1 : t1.pages q = some (pg.SetParentPageId P)) : SameBody t t1 q := by
  cases pg with
  | leaf l =>
    refine ⟨⟨_, h1, hid⟩, ?_, ?_⟩
    · intro l1 hl1
      rw [h1] at hl1
      injection hl1 with hl1
      injection hl1 with hl1
      subst hl1
      exact ⟨l, h, rfl, rfl, rfl⟩
    · intro ip1 hip1
      rw [h1] at hip1
      injection hip1 with hip1
      cases hip1
  | internal ip =>
    refine ⟨⟨_, h1, hid⟩, ?_, ?_⟩
    · intro l1 hl1
      rw [h1] at hl1
      injection hl1 with hl1
      cases hl1
    · intro ip1 hip1
      rw [h1] at hip1
      injection hip1 with hip1
      injection hip1 with hip1
      subst hip1
      exact ⟨ip, h, rfl⟩

theorem SameBody.of_eq {t t1 : BPlusTree} {q : page_id_t} {pg : TreePage}
    (h : t.pages q = some pg) (hid : pg.GetPageId = q)
    (h1 : t1.pages q = t.pages q) : SameBody t t1 q := by
  refine ⟨⟨pg, h1.trans h, hid⟩, ?_, ?_⟩
  · intro l1 hl1
    rw [h1] at hl1
    exact ⟨l1, hl1, rfl, rfl, rfl⟩
  · intro ip1 hip1
    rw [h1] at hip1
    exact ⟨ip1, hip1, rfl⟩

theorem parentOf_setParent {t1 : BPlusTree} {q : page_id_t} {pg : TreePage} (P : page_id_t)
    (h1 : t1.pages q = some (pg.SetParentPageId P)) : parentOf t1 q = P := by
  rw [parentOf_of_pages h1]
  cases pg <;> rfl

theorem IsLeaf.of_setParent {t t1 : BPlusTree} {q : page_id_t} {pg : TreePage} (P : page_id_t)
    (h : t.pages q = some pg) (h1 : t1.pages q = some (pg.SetParentPageId P)) :
    IsLeaf t q ↔ IsLeaf t1 q := by
  cases pg with
  | leaf l =>
    exact ⟨fun _ => ⟨_, h1⟩, fun _ => ⟨_, h⟩⟩
  | internal ip =>
    constructor
    · rintro ⟨l, hl⟩
      rw [h] at hl
      cases hl
    · rintro ⟨l, hl⟩
      rw [h1] at hl
      injection hl with hl
      cases hl

/-- A page whose slots, leaf link and bounds stay, and whose children and
next leaf look the same, keeps what the invariant asks of it, given what it
asks of the parent pointer. -/
theorem NodeOK.transfer_node {t : BPlusTree} {g : Ghost} {eh : page_id_t → Option KeyType}
    {det : page_id_t → Prop} {q : page_id_t} (n : NodeOK t g eh det q)
    (t1 : BPlusTree) (g1 : Ghost) (eh1 : page_id_t → Option KeyType)
    (det1 : page_id_t → Prop) (sb : SameBody t t1 q)
    (hnext : t.next_page_id_ ≤ t1.next_page_id_)
    (hlm : t1.leaf_max_size_ = t.leaf_max_size_)
    (hht : g1.ht q = g.ht q) (hlo : g1.lo q = g.lo q) (hhi : g1.hi q = g.hi q)
    (hk : ∀ ip, t.pages q = some (.internal ip) → ∀ e ∈ ip.array_,
      KidView t g eh t1 g1 eh1 e.2)
    (hn : ∀ l b, t.pages q = some (.leaf l) → g.hi q = some b →
      NextView t g t1 g1 l.next_page_id_)
    (hup : ¬ det1 q → UpOK t1 g1 q) : NodeOK t1 g1 eh1 det1 q := by
  refine ⟨sb.id, by rw [hlo, hhi]; exact n.range, ?_, ?_, ?_, hup⟩
  · rw [hht]
    exact lt_of_lt_of_le n.ht_lt (Int.toNat_le_toNat hnext)
  · intro l1 hl1
    obtain ⟨l, hl, e1, e2, e3⟩ := sb.leaf l1 hl1
    have o := (n.leaf l hl).transfer_leaf hlm hlo hhi (hn l · hl)
    exact ⟨e1.trans o.max_size, by rw [e3]; exact o.sorted, by rw [e3]; exact o.inside,
      by rw [e2]; exact o.last, by rw [e2]; exact o.next⟩
  · intro ip1 hip1
    obtain ⟨ip, hip, e1⟩ := sb.internal ip1 hip1
    rw [e1]
    exact (n.kids ip hip).transfer_kids hht hlo hhi (hk ip hip)

/-- The new root above a split root: the invariant holds again. -/
theorem Pending.new_root {t : BPlusTree} {g : Ghost} {old nw : page_id_t} {s : KeyType}
    (h : Pending t g old nw s) (hpar : parentOf t old = INVALID_PAGE_ID)
    (t1 : BPlusTree) (ipr : InternalPage) (pgo pgn : TreePage)
    (hroot : t1.root_page_id_ = t.next_page_id_)
    (hnext : t1.next_page_id_ = t.next_page_id_ + 1)
    (hlm : t1.leaf_max_size_ = t.leaf_max_size_)
    (hr1 : t1.pages t.next_page_id_ = some (.internal ipr))
    (r1 : ipr.page_id_ = t.next_page_id_) (r2 : ipr.parent_page_id_ = INVALID_PAGE_ID)
    (r3 : ipr.array_ = [(s, old), (s, nw)])
    (ho : t.pages old = some pgo) (hn : t.pages nw = some pgn)
    (ho1 : t1.pages old = some (pgo.SetParentPageId t.next_page_id_))
    (hn1 : t1.pages nw = some (pgn.SetParentPageId t.next_page_id_))
    (hoth : ∀ q, q ≠ old → q ≠ nw → q ≠ t.next_page_id_ → t1.pages q = t.pages q) :
    Inv t1 (rootGhost g t.next_page_id_ old) := by
  have I := h.inv
  have hfresh : ∀ q, g.S q → q ≠ t.next_page_id_ := by
    intro q hq hqn
    have := (InvG.lt_next I hq).2
    rw [hqn] at this
    exact lt_irrefl _ this
  have hold_root : old = t.root_page_id_ := ((I.node old h.S_old).up h.ne).top hpar
  have hemp : t.IsEmpty = false := by
    unfold IsEmpty
    rw [← hold_root]
    exact beq_false_of_ne (InvG.ne_invalid I h.S_old)
  obtain ⟨_, q2, q3, _⟩ := I.root_ok hemp
  rw [← hold_root] at q2 q3
  rw [if_pos rfl] at q3
  have hnextle : t.next_page_id_ ≤ t1.next_page_id_ := by rw [hnext]; linarith
  have hS1 : ∀ q, g.S q → (rootGhost g t.next_page_id_ old).S q := fun q hq => Or.inr hq
  have hlo1 : ∀ q, g.S q → (rootGhost g t.next_page_id_ old).lo q = g.lo q := by
    intro q hq
    show (if q = t.next_page_id_ then none else g.lo q) = g.lo q
    rw [if_neg (hfresh q hq)]
  have hhi1 : ∀ q, g.S q → (rootGhost g t.next_page_id_ old).hi q = g.hi q := by
    intro q hq
    show (if q = t.next_page_id_ then none else g.hi q) = g.hi q
    rw [if_neg (hfresh q hq)]
  have hht1 : ∀ q, g.S q → (rootGhost g t.next_page_id_ old).ht q = g.ht q := by
    intro q hq
    show (if q = t.next_page_id_ then g.ht old + 1 else g.ht q) = g.ht q
    rw [if_neg (hfresh q hq)]
  have hidp : ∀ q pg, g.S q → t.pages q = some pg → pg.GetPageId = q := by
    intro q pg hq hpg
    obtain ⟨pg1, p1, p2⟩ := (I.node q hq).page
    rw [hpg] at p1
    injection p1 with p1
    rw [p1]; exact p2
  have hsb : ∀ q, g.S q → SameBody t t1 q := by
    intro q hq
    by_cases hqo : q = old
    · subst hqo
      exact SameBody.body_of_setParent _ ho (hidp _ _ hq ho) ho1
    · by_cases hqn : q = nw
      · subst hqn
        exact SameBody.body_of_setParent _ hn (hidp _ _ hq hn) hn1
      · obtain ⟨pg, p1, p2⟩ := (I.node q hq).page
        exact SameBody.of_eq p1 p2 (hoth q hqo hqn (hfresh q hq))
  have hleaf : ∀ q, g.S q → (IsLeaf t q ↔ IsLeaf t1 q) := by
    intro q hq
    by_cases hqo : q = old
    · subst hqo
      exact IsLeaf.of_setParent _ ho ho1
    · by_cases hqn : q = nw
      · subst hqn
        exact IsLeaf.of_setParent _ hn hn1
      · unfold IsLeaf
        rw [hoth q hqo hqn (hfresh q hq)]
  have hnv : ∀ q, g.S q → NextView t g t1 (rootGhost g t.next_page_id_ old) q :=
    fun q hq => ⟨hS1 q hq, hlo1 q hq, (hleaf q hq).1⟩
  have hkv : ∀ q, g.S q → q ≠ old → q ≠ nw →
      KidView t g (fun c => if c = old then g.hi nw else g.hi c) t1
        (rootGhost g t.next_page_id_ old) (rootGhost g t.next_page_id_ old).hi q := by
    intro q hq hqo hqn
    refine ⟨hS1 q hq, parentOf_congr (hoth q hqo hqn (hfresh q hq)), hht1 q hq, hlo1 q hq, ?_⟩
    rw [hhi1 q hq, if_neg hqo]
  -- the children of the two pages are other pages
  have hkids : ∀ q ip, (q = old ∨ q = nw) → t.pages q = some (.internal ip) →
      ∀ e ∈ ip.array_, KidView t g (fun c => if c = old then g.hi nw else g.hi c) t1
        (rootGhost g t.next_page_id_ old) (rootGhost g t.next_page_id_ old).hi e.2 := by
    intro q ip hq hip e he
    have hqS : g.S q := by
      rcases hq with hq | hq
      · rw [hq]; exact h.S_old
      · rw [hq]; exact h.S_new
    have hc := ((I.node q hqS).kids ip hip).child_of_mem e he
    have hht : g.ht q = g.ht old := by
      rcases hq with hq | hq
      · rw [hq]
      · rw [hq]; exact h.ht
    refine hkv e.2 hc.1 ?_ (h.notKid q ip hqS hip e he)
    intro heo
    have := hc.2.2
    rw [heo, hht] at this
    omega
  have hr_in : ∀ q, (q = old ∨ q = nw) → UpOK t1 (rootGhost g t.next_page_id_ old) q := by
    intro q hq
    have hp : parentOf t1 q = t.next_page_id_ := by
      rcases hq with hq | hq
      · rw [hq]; exact parentOf_setParent _ ho1
      · rw [hq]; exact parentOf_setParent _ hn1
    refine ⟨?_, ?_⟩
    · rw [hp]
      intro hf
      have := I.next_nonneg
      rw [hf] at this
      exact absurd this (by decide)
    · rw [hp]
      intro _
      refine ⟨Or.inl rfl, ipr, hr1, ?_⟩
      rw [r3]
      rcases hq with hq | hq
      · rw [hq]; simp
      · rw [hq]; simp
  have hrht : (rootGhost g t.next_page_id_ old).ht t.next_page_id_ = g.ht old + 1 := by
    show (if t.next_page_id_ = t.next_page_id_ then g.ht old + 1 else _) = g.ht old + 1
    rw [if_pos rfl]
  have hrlo : (rootGhost g t.next_page_id_ old).lo t.next_page_id_ = none := by
    show (if t.next_page_id_ = t.next_page_id_ then none else _) = none
    rw [if_pos rfl]
  have hrhi : (rootGhost g t.next_page_id_ old).hi t.next_page_id_ = none := by
    show (if t.next_page_id_ = t.next_page_id_ then none else _) = none
    rw [if_pos rfl]
  have hparr : parentOf t1 t.next_page_id_ = INVALID_PAGE_ID := by
    rw [parentOf_of_pages hr1]; exact r2
  refine ⟨by rw [hnext]; have := I.next_nonneg; linarith, ?_, ?_, ?_, ?_⟩
  · intro q pg hq
    rw [hnext]
    by_cases hqr : q = t.next_page_id_
    · rw [hqr]; exact ⟨I.next_nonneg, by linarith⟩
    · by_cases hqo : q = old
      · have := InvG.lt_next I h.S_old
        rw [hqo]; exact ⟨this.1, by linarith⟩
      · by_cases hqn : q = nw
        · have := InvG.lt_next I h.S_new
          rw [hqn]; exact ⟨this.1, by linarith⟩
        · rw [hoth q hqo hqn hqr] at hq
          have := I.store_lt q pg hq
          exact ⟨this.1, by linarith⟩
  · intro _
    rw [hroot]
    exact ⟨Or.inl rfl, hrlo, hrhi, hparr⟩
  · intro q hq
    by_cases hqr : q = t.next_page_id_
    · -- the new root
      subst hqr
      refine ⟨⟨_, hr1, r1⟩, ?_, ?_, ?_, ?_, ?_⟩
      · rw [hrlo]
        intro a b ha
        cases ha
      · rw [hrht, hnext]
        have h1 := (I.node old h.S_old).ht_lt
        have h2 := I.next_nonneg
        omega
      · intro l hl
        rw [hr1] at hl
        cases hl
      · intro ip hip
        rw [hr1] at hip
        injection hip with hip
        injection hip with hip
        subst hip
        refine ⟨(s, old), [(s, nw)], r3, ?_, ?_, ?_⟩
        · exact ⟨hS1 _ h.S_old, parentOf_setParent _ ho1, by rw [hht1 _ h.S_old, hrht]⟩
        · show (rootGhost g t.next_page_id_ old).lo old = _
          rw [hlo1 _ h.S_old, hrlo]; exact q2
        · show SlotsK _ _ _ _ ((rootGhost g t.next_page_id_ old).hi old) _ _
          rw [hhi1 _ h.S_old]
          refine ⟨h.hi_old, ?_, ?_, ?_⟩
          · exact ⟨hS1 _ h.S_new, parentOf_setParent _ hn1,
              by rw [hht1 _ h.S_new, hrht, h.ht]⟩
          · show (rootGhost g t.next_page_id_ old).lo nw = _
            rw [hlo1 _ h.S_new]; exact h.lo_new
          · show (rootGhost g t.next_page_id_ old).hi nw = _
            rw [hhi1 _ h.S_new, hrhi]; exact q3
      · intro _
        refine ⟨fun _ => hroot.symm, fun hf => absurd hparr hf⟩
    · have hq0 : g.S q := by
        rcases hq with hq | hq
        · exact absurd hq hqr
        · exact hq
      by_cases hqX : q = old ∨ q = nw
      · refine (I.node q hq0).transfer_node t1 _ _ _ (hsb q hq0) hnextle hlm (hht1 q hq0)
          (hlo1 q hq0) (hhi1 q hq0) (hkids q · hqX) ?_ (fun _ => hr_in q hqX)
        intro l b hl hb
        exact hnv _ (((I.node q hq0).leaf l hl).next b hb).1
      · have hqo : q ≠ old := fun hf => hqX (Or.inl hf)
        have hqn : q ≠ nw := fun hf => hqX (Or.inr hf)
        refine InvG.frame I t1 (rootGhost g t.next_page_id_ old)
          (rootGhost g t.next_page_id_ old).hi (fun _ => False)
          (fun c => c = old ∨ c = nw ∨ c = t.next_page_id_) (fun c => c = old ∨ c = nw)
          (fun _ => False) hnextle hlm (Or.inr (Or.inl hold_root.symm))
          ?_ ?_ ?_ ?_ ?_ ?_ ?_ q hq ?_
        · intro c hc hX
          have hco : c ≠ old := fun hf => hX (Or.inl hf)
          have hcn : c ≠ nw := fun hf => hX (Or.inr (Or.inl hf))
          refine ⟨hoth c hco hcn (hfresh c hc), hS1 c hc, hht1 c hc, hlo1 c hc, hhi1 c hc, ?_,
            fun hd => absurd hd hcn⟩
          rw [hhi1 c hc, if_neg hco]
        · intro c hc hX
          rcases hc with hc | hc
          · exact absurd (Or.inr (Or.inr hc)) hX
          · exact hc
        · intro c hc hX hV
          rcases hX with hX | hX | hX
          · exact absurd (Or.inl hX) hV
          · exact absurd (Or.inr hX) hV
          · exact absurd hX (hfresh c hc)
        · intro c hc _ _
          exact hnv c hc
        · intro p ip hp hX hip e he hV
          have hc := ((I.node p hp).kids ip hip).child_of_mem e he
          rcases hV with hV | hV
          · have := hc.2.1
            rw [hV, hpar] at this
            exact InvG.ne_invalid I hp this.symm
          · exact h.notKid p ip hp hip e he hV
        · intro _ _ _ _ _ _ _ hf; exact hf
        · intro c hc hX hd h0 hXP
          obtain ⟨u1, ip, u2, u3⟩ := ((I.node c hc).up hd).inner h0
          have hXP2 : parentOf t c = old ∨ parentOf t c = nw := by
            rcases hXP with hXP | hXP | hXP
            · exact Or.inl hXP
            · exact Or.inr hXP
            · exact absurd hXP (hfresh _ u1)
          obtain ⟨pg1, p1, _⟩ := (hsb _ u1).id
          refine ⟨hS1 _ u1, ?_⟩
          cases pg1 with
          | leaf l1 =>
            obtain ⟨l, hl, _⟩ := (hsb _ u1).leaf l1 p1
            rw [u2] at hl
            cases hl
          | internal ip1 =>
            obtain ⟨ip0, hip0, e1⟩ := (hsb _ u1).internal ip1 p1
            rw [u2] at hip0
            injection hip0 with hip0
            injection hip0 with hip0
            subst hip0
            exact ⟨ip1, p1, by rw [e1]; exact u3⟩
        · intro hX
          rcases hX with hX | hX | hX
          · exact hqo hX
          · exact hqn hX
          · exact hqr hX
  · intro c d x hc hd lc ld c1 c2 d1 d2
    have hc0 : g.S c := by
      rcases hc with hc | hc
      · obtain ⟨l, hl⟩ := lc
        rw [hc, hr1] at hl
        cases hl
      · exact hc
    have hd0 : g.S d := by
      rcases hd with hd | hd
      · obtain ⟨l, hl⟩ := ld
        rw [hd, hr1] at hl
        cases hl
      · exact hd
    rw [hlo1 c hc0] at c1
    rw [hhi1 c hc0] at c2
    rw [hlo1 d hd0] at d1
    rw [hhi1 d hd0] at d2
    exact I.disj c d x hc0 hd0 ((hleaf c hc0).2 lc) ((hleaf d hd0).2 ld) c1 c2 d1 d2

/-- The slots after the slot of the split page `old` all have keys above the
split key, so the new slot goes in front of them. -/
theorem Pending.slots_after {t : BPlusTree} {g : Ghost} {old nw : page_id_t} {s : KeyType}
    (h : Pending t g old nw s) {P : page_id_t} (hP : g.S P) (t2 : BPlusTree)
    (hkv : ∀ c, g.S c → c ≠ old → c ≠ nw → IsChild t g P c → IsChild t2 g P c)
    {ip : InternalPage} (hip : t.pages P = some (.internal ip))
    {rest : List (KeyType × page_id_t)} (hsub : ∀ e ∈ rest, e ∈ ip.array_) {hh : Option KeyType}
    (hs : SlotsK t g (fun c => if c = old then g.hi nw else g.hi c) P (g.hi nw) rest hh) :
    InternalPage.insertSlots s nw rest = (s, nw) :: rest ∧
    SlotsK t2 g g.hi P (g.hi nw) rest hh := by
  have R := h.pending_ranges
  obtain ⟨_, k2, _⟩ := hs.keys R
  have hsn : ∀ b, g.hi nw = some b → s < b :=
    fun b hb => (h.inv.node nw h.S_new).range s b h.lo_new hb
  constructor
  · cases rest with
    | nil => rfl
    | cons a r =>
      have hm : g.hi nw = some a.1 := hs.1
      have hlt := hsn a.1 hm
      unfold InternalPage.insertSlots
      rw [if_neg]
      intro hc
      have := comparator_lt.1 hc
      linarith
  · refine SlotsK.mono ?_ hs
    intro e he hc hlo
    have hne_old : e.2 ≠ old := by
      intro heo
      obtain ⟨b, hb⟩ : ∃ b, g.hi nw = some b := by
        cases rest with
        | nil => exact absurd he (List.not_mem_nil _)
        | cons a r => exact ⟨a.1, hs.1⟩
      have h1 := k2 e he b hb
      have h2 := hsn b hb
      rw [heo] at hlo
      have h3 := (h.inv.node old h.S_old).range e.1 s hlo h.hi_old
      linarith
    have hne_new : e.2 ≠ nw := h.notKid P ip hP hip e (hsub e he)
    exact ⟨hkv e.2 hc.1 hne_old hne_new hc, hlo, by rw [if_neg hne_old]⟩

/-- The slots that hold the slot of the split page `old`: the new slot goes
right behind it. -/
theorem Pending.slots_insert {t : BPlusTree} {g : Ghost} {old nw : page_id_t} {s : KeyType}
    (h : Pending t g old nw s) {P : page_id_t} (hP : g.S P) (t2 : BPlusTree)
    (hkv : ∀ c, g.S c → c ≠ old → c ≠ nw → IsChild t g P c → IsChild t2 g P c)
    (hco : IsChild t2 g P old) (hcn : IsChild t2 g P nw)
    {ip : InternalPage} (hip : t.pages P = some (.internal ip)) {hh : Option KeyType} :
    ∀ (rest : List (KeyType × page_id_t)) (m : Option KeyType),
      (∀ e ∈ rest, e ∈ ip.array_) →
      SlotsK t g (fun c => if c = old then g.hi nw else g.hi c) P m rest hh →
      old ∈ rest.map Prod.snd →
      SlotsK t2 g g.hi P m (InternalPage.insertSlots s nw rest) hh := by
  have R := h.pending_ranges
  have hlo_old : ∀ a, g.lo old = some a → a < s :=
    fun a ha => (h.inv.node old h.S_old).range a s ha h.hi_old
  intro rest
  induction rest with
  | nil => intro m _ _ hmem; simp at hmem
  | cons a r ih =>
    intro m hsub hs hmem
    obtain ⟨k1, _, _⟩ := hs.keys R
    obtain ⟨h1, h2, h3, h4⟩ := hs
    by_cases hao : a.2 = old
    · have hlt : a.1 < s := hlo_old a.1 (by rw [← hao]; exact h3)
      unfold InternalPage.insertSlots
      rw [if_pos (comparator_lt.2 hlt)]
      rw [hao] at h4
      simp only [if_true] at h4
      obtain ⟨q1, q2⟩ := h.slots_after hP t2 hkv hip
        (fun e he => hsub e (List.mem_cons_of_mem _ he)) h4
      rw [q1]
      refine ⟨h1, by rw [hao]; exact hco, h3, ?_⟩
      rw [hao, h.hi_old]
      exact ⟨rfl, hcn, h.lo_new, q2⟩
    · have hmem2 : old ∈ r.map Prod.snd := by
        simp only [List.map_cons, List.mem_cons] at hmem
        rcases hmem with hmem | hmem
        · exact absurd hmem.symm hao
        · exact hmem
      obtain ⟨e, he, heo⟩ := List.mem_map.1 hmem2
      have hlt : a.1 < s := by
        have h5 := (List.pairwise_cons.1 k1).1 e he
        have h6 := ((SlotsK.slot_child_of_mem h4) e he).2
        rw [heo] at h6
        have h7 := hlo_old e.1 h6
        linarith
      unfold InternalPage.insertSlots
      rw [if_pos (comparator_lt.2 hlt)]
      have hne_new : a.2 ≠ nw := h.notKid P ip hP hip a (hsub a (List.mem_cons_self _ _))
      simp only [if_neg hao] at h4
      exact ⟨h1, hkv a.2 h2.1 hao hne_new h2, h3,
        ih _ (fun e he => hsub e (List.mem_cons_of_mem _ he)) h4 hmem2⟩

/-- The slots of the parent after the new page was entered. -/
theorem Pending.insert_kids {t : BPlusTree} {g : Ghost} {old nw : page_id_t} {s : KeyType}
    (h : Pending t g old nw s) {P : page_id_t} (hP : g.S P) (t2 : BPlusTree)
    (hkv : ∀ c, g.S c → c ≠ old → c ≠ nw → IsChild t g P c → IsChild t2 g P c)
    (hco : IsChild t2 g P old) (hcn : IsChild t2 g P nw)
    {ip : InternalPage} (hip : t.pages P = some (.internal ip))
    (hold : old ∈ ip.array_.map Prod.snd) :
    KidsOK t2 g g.hi P (ip.Insert s nw).array_ := by
  obtain ⟨e0, rest, harr, hc0, hlo0, hs⟩ := (h.inv.node P hP).kids ip hip
  have hsub : ∀ e ∈ rest, e ∈ ip.array_ := by
    intro e he
    rw [harr]; exact List.mem_cons_of_mem _ he
  have harr2 : (ip.Insert s nw).array_ = e0 :: InternalPage.insertSlots s nw rest := by
    unfold InternalPage.Insert
    rw [harr]
  rw [harr2]
  by_cases h0 : e0.2 = old
  · rw [h0] at hs
    simp only [if_true] at hs
    obtain ⟨q1, q2⟩ := h.slots_after hP t2 hkv hip hsub hs
    rw [q1]
    refine ⟨e0, _, rfl, by rw [h0]; exact hco, hlo0, ?_⟩
    rw [h0, h.hi_old]
    exact ⟨rfl, hcn, h.lo_new, q2⟩
  · have hne_new : e0.2 ≠ nw :=
      h.notKid P ip hP hip e0 (by rw [harr]; exact List.mem_cons_self _ _)
    simp only [if_neg h0] at hs
    have hmem2 : old ∈ rest.map Prod.snd := by
      rw [harr] at hold
      simp only [List.map_cons, List.mem_cons] at hold
      rcases hold with hold | hold
      · exact absurd hold.symm h0
      · exact hold
    exact ⟨e0, _, rfl, hkv e0.2 hc0.1 h0 hne_new hc0, hlo0,
      h.slots_insert hP t2 hkv hco hcn hip rest _ hsub hs hmem2⟩

theorem mem_insertSlots (key : KeyType) (value : page_id_t) :
    ∀ (rest : List (KeyType × page_id_t)) (e : KeyType × page_id_t),
      e ∈ InternalPage.insertSlots key value rest ↔ e = (key, value) ∨ e ∈ rest := by
  intro rest
  induction rest with
  | nil => intro e; simp [InternalPage.insertSlots]
  | cons a r ih =>
    intro e
    unfold InternalPage.insertSlots
    split
    · simp only [List.mem_cons, ih]
      constructor
      · rintro (h | h | h)
        · exact Or.inr (Or.inl h)
        · exact Or.inl h
        · exact Or.inr (Or.inr h)
      · rintro (h | h | h)
        · exact Or.inr (Or.inl h)
        · exact Or.inl h
        · exact Or.inr (Or.inr h)
    · simp only [List.mem_cons]

theorem mem_Insert (ip : InternalPage) (key : KeyType) (value : page_id_t)
    (e : KeyType × page_id_t) :
    e ∈ (ip.Insert key value).array_ ↔ e = (key, value) ∨ e ∈ ip.array_ := by
  unfold InternalPage.Insert
  cases harr : ip.array_ with
  | nil => simp
  | cons a r =>
    simp only [List.mem_cons, mem_insertSlots]
    constructor
    · rintro (h | h | h)
      · exact Or.inr (Or.inl h)
      · exact Or.inl h
      · exact Or.inr (Or.inr h)
    · rintro (h | h | h)
      · exact Or.inr (Or.inl h)
      · exact Or.inl h
      · exact Or.inr (Or.inr h)

/-- The new page entered in the parent of the split page: the invariant
holds again (whatever the size of the parent now is). -/
theorem Pending.insert_parent {t : BPlusTree} {g : Ghost} {old nw : page_id_t} {s : KeyType}
    (h : Pending t g old nw s) (hpar : parentOf t old ≠ INVALID_PAGE_ID)
    {ip : InternalPage} (hip : t.pages (parentOf t old) = some (.internal ip))
    (t2 : BPlusTree) (ip1 : InternalPage) (pgn : TreePage)
    (hroot : t2.root_page_id_ = t.root_page_id_)
    (hnext : t2.next_page_id_ = t.next_page_id_)
    (hlm : t2.leaf_max_size_ = t.leaf_max_size_)
    (hP2 : t2.pages (parentOf t old) = some (.internal ip1))
    (p1 : ip1.page_id_ = ip.page_id_) (p2 : ip1.parent_page_id_ = ip.parent_page_id_)
    (p3 : ip1.array_ = (ip.Insert s nw).array_)
    (hn : t.pages nw = some pgn)
    (hn2 : t2.pages nw = some (pgn.SetParentPageId (parentOf t old)))
    (hoth : ∀ q, q ≠ parentOf t old → q ≠ nw → t2.pages q = t.pages q) :
    Inv t2 g := by
  have I := h.inv
  obtain ⟨hSP, ip0, hip0, hmem⟩ := ((I.node old h.S_old).up h.ne).inner hpar
  rw [hip] at hip0
  injection hip0 with hip0
  injection hip0 with hip0
  subst hip0
  have nP := I.node _ hSP
  have hcold : IsChild t g (parentOf t old) old := by
    obtain ⟨e, he, heo⟩ := List.mem_map.1 hmem
    have := (nP.kids ip hip).child_of_mem e he
    rw [heo] at this
    exact this
  have hPo : parentOf t old ≠ old := by
    intro hf
    have := hcold.2.2
    rw [hf] at this
    omega
  have hPn : parentOf t old ≠ nw := by
    intro hf
    have := hcold.2.2
    rw [hf, h.ht] at this
    omega
  have hidp : ∀ q pg, g.S q → t.pages q = some pg → pg.GetPageId = q := by
    intro q pg hq hpg
    obtain ⟨pg1, q1, q2⟩ := (I.node q hq).page
    rw [hpg] at q1
    injection q1 with q1
    rw [q1]; exact q2
  have hold2 : t2.pages old = t.pages old := hoth old (Ne.symm hPo) h.ne
  have hsb : ∀ q, g.S q → q ≠ parentOf t old → SameBody t t2 q := by
    intro q hq hqP
    by_cases hqn : q = nw
    · subst hqn
      exact SameBody.body_of_setParent _ hn (hidp _ _ hq hn) hn2
    · obtain ⟨pg, q1, q2⟩ := (I.node q hq).page
      exact SameBody.of_eq q1 q2 (hoth q hqP hqn)
  have hleaf : ∀ q, g.S q → (IsLeaf t q ↔ IsLeaf t2 q) := by
    intro q hq
    by_cases hqP : q = parentOf t old
    · rw [hqP]
      constructor
      · rintro ⟨l, hl⟩
        rw [hip] at hl
        cases hl
      · rintro ⟨l, hl⟩
        rw [hP2] at hl
        cases hl
    · by_cases hqn : q = nw
      · subst hqn
        exact IsLeaf.of_setParent _ hn hn2
      · unfold IsLeaf
        rw [hoth q hqP hqn]
  have hnv : ∀ q, g.S q → NextView t g t2 g q :=
    fun q hq => ⟨hq, rfl, (hleaf q hq).1⟩
  have hparP : parentOf t2 (parentOf t old) = parentOf t (parentOf t old) := by
    rw [parentOf_of_pages hP2, parentOf_of_pages hip]
    exact p2
  have hkv : ∀ q, g.S q → q ≠ old → q ≠ nw →
      KidView t g (fun c => if c = old then g.hi nw else g.hi c) t2 g g.hi q := by
    intro q hq hqo hqn
    refine ⟨hq, ?_, rfl, rfl, by rw [if_neg hqo]⟩
    by_cases hqP : q = parentOf t old
    · rw [hqP]; exact hparP
    · exact parentOf_congr (hoth q hqP hqn)
  have hkids : ∀ q ip2, (q = old ∨ q = nw) → t.pages q = some (.internal ip2) →
      ∀ e ∈ ip2.array_, KidView t g (fun c => if c = old then g.hi nw else g.hi c) t2 g
        g.hi e.2 := by
    intro q ip2 hq hip2 e he
    have hqS : g.S q := by
      rcases hq with hq | hq
      · rw [hq]; exact h.S_old
      · rw [hq]; exact h.S_new
    have hc := ((I.node q hqS).kids ip2 hip2).child_of_mem e he
    have hht : g.ht q = g.ht old := by
      rcases hq with hq | hq
      · rw [hq]
      · rw [hq]; exact h.ht
    refine hkv e.2 hc.1 ?_ (h.notKid q ip2 hqS hip2 e he)
    intro heo
    have := hc.2.2
    rw [heo, hht] at this
    omega
  have hup_in : ∀ q, (q = old ∨ q = nw) → UpOK t2 g q := by
    intro q hq
    have hp : parentOf t2 q = parentOf t old := by
      rcases hq with hq | hq
      · rw [hq]; exact parentOf_congr hold2
      · rw [hq]; exact parentOf_setParent _ hn2
    refine ⟨?_, ?_⟩
    · rw [hp]
      intro hf
      exact absurd hf hpar
    · rw [hp]
      intro _
      refine ⟨hSP, ip1, hP2, ?_⟩
      rw [p3]
      rcases hq with hq | hq
      · obtain ⟨e, he, heo⟩ := List.mem_map.1 hmem
        rw [hq]
        exact List.mem_map.2 ⟨e, (mem_Insert ip s nw e).2 (Or.inr he), heo⟩
      · rw [hq]
        exact List.mem_map.2 ⟨(s, nw), (mem_Insert ip s nw _).2 (Or.inl rfl), rfl⟩
  have hroot_old : t.root_page_id_ ≠ old := by
    intro hf
    cases hemp : t.IsEmpty with
    | true =>
      unfold IsEmpty at hemp
      rw [beq_iff_eq] at hemp
      rw [hemp] at hf
      exact InvG.ne_invalid I h.S_old hf.symm
    | false =>
      have := (I.root_ok hemp).2.2.2
      rw [hf] at this
      exact hpar this
  refine ⟨by rw [hnext]; exact I.next_nonneg, ?_, ?_, ?_, ?_⟩
  · intro q pg hq
    rw [hnext]
    by_cases hqP : q = parentOf t old
    · rw [hqP]; exact InvG.lt_next I hSP
    · by_cases hqn : q = nw
      · rw [hqn]; exact InvG.lt_next I h.S_new
      · rw [hoth q hqP hqn] at hq
        exact I.store_lt q pg hq
  · intro hne
    have hne0 : t.IsEmpty = false := by
      unfold IsEmpty at hne ⊢
      rw [hroot] at hne
      exact hne
    obtain ⟨r1, r2, r3, r4⟩ := I.root_ok hne0
    rw [if_neg hroot_old] at r3
    rw [hroot]
    refine ⟨r1, r2, r3, ?_⟩
    by_cases hrP : t.root_page_id_ = parentOf t old
    · rw [hrP, hparP, ← hrP]; exact r4
    · rw [parentOf_congr (hoth _ hrP h.not_root)]; exact r4
  · intro q hq
    by_cases hqP : q = parentOf t old
    · -- the parent
      rw [hqP]
      refine ⟨⟨_, hP2, p1.trans (hidp _ _ hSP hip)⟩, nP.range, by rw [hnext]; exact nP.ht_lt,
        ?_, ?_, ?_⟩
      · intro l hl
        rw [hP2] at hl
        cases hl
      · intro ip2 hip2
        rw [hP2] at hip2
        injection hip2 with hip2
        injection hip2 with hip2
        subst hip2
        rw [p3]
        refine h.insert_kids hSP t2 ?_ ?_ ?_ hip hmem
        · intro c hc hco hcn hch
          exact ⟨hc, (hkv c hc hco hcn).par.trans hch.2.1, hch.2.2⟩
        · exact ⟨h.S_old, parentOf_congr hold2, hcold.2.2⟩
        · exact ⟨h.S_new, parentOf_setParent _ hn2, by rw [h.ht]; exact hcold.2.2⟩
      · intro _
        have u := nP.up hPn
        refine ⟨?_, ?_⟩
        · rw [hparP, hroot]; exact u.top
        · rw [hparP]
          intro h0
          obtain ⟨u1, ipp, u2, u3⟩ := u.inner h0
          obtain ⟨e, he, heo⟩ := List.mem_map.1 u3
          have hc := ((I.node _ u1).kids ipp u2).child_of_mem e he
          rw [heo] at hc
          have hne1 : parentOf t (parentOf t old) ≠ parentOf t old := by
            intro hf
            have := hc.2.2
            rw [hf] at this
            omega
          have hne2 : parentOf t (parentOf t old) ≠ nw := by
            intro hf
            have h1 := hc.2.2
            have h2 := hcold.2.2
            rw [hf, h.ht] at h1
            omega
          exact ⟨u1, ipp, by rw [hoth _ hne1 hne2]; exact u2, u3⟩
    · by_cases hqX : q = old ∨ q = nw
      · refine (I.node q hq).transfer_node t2 g g.hi (fun _ => False) (hsb q hq hqP)
          (by rw [hnext]) hlm rfl rfl rfl (hkids q · hqX) ?_ (fun _ => hup_in q hqX)
        intro l b hl hb
        exact hnv _ (((I.node q hq).leaf l hl).next b hb).1
      · have hqo : q ≠ old := fun hf => hqX (Or.inl hf)
        have hqn : q ≠ nw := fun hf => hqX (Or.inr hf)
        refine InvG.frame I t2 g g.hi (fun _ => False)
          (fun c => c = parentOf t old ∨ c = old ∨ c = nw) (fun c => c = old ∨ c = nw)
          (fun _ => False) (by rw [hnext]) hlm (Or.inl hroot)
          ?_ ?_ ?_ ?_ ?_ ?_ ?_ q hq ?_
        · intro c hc hX
          have hcP : c ≠ parentOf t old := fun hf => hX (Or.inl hf)
          have hco : c ≠ old := fun hf => hX (Or.inr (Or.inl hf))
          have hcn : c ≠ nw := fun hf => hX (Or.inr (Or.inr hf))
          exact ⟨hoth c hcP hcn, hc, rfl, rfl, rfl, by rw [if_neg hco],
            fun hd => absurd hd hcn⟩
        · intro c hc _; exact hc
        · intro c hc hX hV
          exact hkv c hc (fun hf => hV (Or.inl hf)) (fun hf => hV (Or.inr hf))
        · intro c hc _ _
          exact hnv c hc
        · intro p ip2 hp hX hip2 e he hV
          have hc := ((I.node p hp).kids ip2 hip2).child_of_mem e he
          rcases hV with hV | hV
          · have := hc.2.1
            rw [hV] at this
            exact hX (Or.inl this.symm)
          · exact h.notKid p ip2 hp hip2 e he hV
        · intro _ _ _ _ _ _ _ hf; exact hf
        · intro c hc hX hd h0 hXP
          obtain ⟨u1, ip2, u2, u3⟩ := ((I.node c hc).up hd).inner h0
          by_cases hcP : parentOf t c = parentOf t old
          · rw [hcP] at u2 ⊢
            rw [hip] at u2
            injection u2 with u2
            injection u2 with u2
            subst u2
            refine ⟨hSP, ip1, hP2, ?_⟩
            rw [p3]
            obtain ⟨e, he, hec⟩ := List.mem_map.1 u3
            exact List.mem_map.2 ⟨e, (mem_Insert ip s nw e).2 (Or.inr he), hec⟩
          · obtain ⟨pg1, q1, _⟩ := (hsb _ u1 hcP).id
            refine ⟨u1, ?_⟩
            cases pg1 with
            | leaf l1 =>
              obtain ⟨l, hl, _⟩ := (hsb _ u1 hcP).leaf l1 q1
              rw [u2] at hl
              cases hl
            | internal ip3 =>
              obtain ⟨ip0, hip0, e1⟩ := (hsb _ u1 hcP).internal ip3 q1
              rw [u2] at hip0
              injection hip0 with hip0
              injection hip0 with hip0
              subst hip0
              exact ⟨ip3, q1, by rw [e1]; exact u3⟩
        · intro hX
          rcases hX with hX | hX | hX
          · exact hqP hX
          · exact hqo hX
          · exact hqn hX
  · intro c d x hc hd lc ld
    exact I.disj c d x hc hd ((hleaf c hc).2 lc) ((hleaf d hd).2 ld)

theorem SlotsK.start_some {t : BPlusTree} {g : Ghost} {eh : page_id_t → Option KeyType}
    {P : page_id_t} (R : ∀ c, g.S c → ltRange (g.lo c) (eh c))
    {arr : List (KeyType × page_id_t)} {m : Option KeyType} {b : KeyType}
    (hs : SlotsK t g eh P m arr (some b)) : ∃ k, m = some k ∧ k ≤ b := by
  cases arr with
  | nil =>
    have : m = some b := hs
    exact ⟨b, this, le_refl _⟩
  | cons a rest =>
    exact ⟨a.1, hs.1, hs.bound_le R a.1 b hs.1 rfl⟩

/-- The split of an internal page: the slots from index `c` on go to a new
page, stored under the next free page id, and their children get the new page
as parent. -/
theorem Inv.split_internal {t : BPlusTree} {g : Ghost} (h : Inv t g) {P : page_id_t}
    {ip : InternalPage} (hP : g.S P) (hip : t.pages P = some (.internal ip))
    {c : Nat} (hc : 0 < c) {e : KeyType × page_id_t}
    (he : (ip.array_.drop c).head? = some e)
    (t5 : BPlusTree) (ipP ipN : InternalPage)
    (hroot : t5.root_page_id_ = t.root_page_id_)
    (hnext : t5.next_page_id_ = t.next_page_id_ + 1)
    (hlm : t5.leaf_max_size_ = t.leaf_max_size_)
    (hP5 : t5.pages P = some (.internal ipP))
    (hN5 : t5.pages t.next_page_id_ = some (.internal ipN))
    (a1 : ipP.page_id_ = ip.page_id_) (a2 : ipP.parent_page_id_ = ip.parent_page_id_)
    (a5 : ipP.array_ = ip.array_.take c)
    (b1 : ipN.page_id_ = t.next_page_id_) (b5 : ipN.array_ = ip.array_.drop c)
    (hmv : ∀ x ∈ ip.array_.drop c, ∃ pg, t.pages x.2 = some pg ∧
      t5.pages x.2 = some (pg.SetParentPageId t.next_page_id_))
    (hoth : ∀ q, q ≠ P → q ≠ t.next_page_id_ → q ∉ (ip.array_.drop c).map Prod.snd →
      t5.pages q = t.pages q) :
    Pending t5 (splitGhost g P t.next_page_id_ e.1) P t.next_page_id_ e.1 := by
  have R := h.ranges
  have nP := h.node P hP
  have K := nP.kids ip hip
  have hnd := K.nodup R
  obtain ⟨e0, rest, harr, hc0, hlo0, hs⟩ := K
  obtain ⟨c1, rfl⟩ : ∃ c1, c = c1 + 1 := ⟨c - 1, by omega⟩
  have htake : ip.array_.take (c1 + 1) = e0 :: rest.take c1 := by rw [harr]; rfl
  have hdrop : ip.array_.drop (c1 + 1) = rest.drop c1 := by rw [harr]; rfl
  obtain ⟨r1, hdr⟩ : ∃ r1, rest.drop c1 = e :: r1 := by
    rw [hdrop] at he
    cases hd : rest.drop c1 with
    | nil => rw [hd] at he; cases he
    | cons a r =>
      rw [hd] at he
      simp only [List.head?_cons, Option.some.injEq] at he
      exact ⟨r, by rw [he]⟩
  have hs2 := hs
  rw [← List.take_append_drop c1 rest, SlotsK.append] at hs2
  obtain ⟨m1, s1, s2⟩ := hs2
  rw [hdr] at s2
  have hm1 : m1 = some e.1 := s2.1
  rw [hm1] at s1
  obtain ⟨_, s3, s4, s5⟩ := s2
  have hfresh : ∀ q, g.S q → q ≠ t.next_page_id_ := by
    intro q hq hqn
    have := (InvG.lt_next h hq).2
    rw [hqn] at this
    exact lt_irrefl _ this
  have hPN : P ≠ t.next_page_id_ := hfresh P hP
  have hidp : ∀ q pg, g.S q → t.pages q = some pg → pg.GetPageId = q := by
    intro q pg hq hpg
    obtain ⟨pg1, q1, q2⟩ := (h.node q hq).page
    rw [hpg] at q1
    injection q1 with q1
    rw [q1]; exact q2
  -- the moved children
  have hM : ∀ q, q ∈ (ip.array_.drop (c1 + 1)).map Prod.snd → IsChild t g P q := by
    intro q hq
    obtain ⟨x, hx, hxq⟩ := List.mem_map.1 hq
    have := (nP.kids ip hip).child_of_mem x (List.mem_of_mem_drop hx)
    rw [hxq] at this
    exact this
  have hMP : ∀ q, q ∈ (ip.array_.drop (c1 + 1)).map Prod.snd → q ≠ P := by
    intro q hq hf
    have := (hM q hq).2.2
    rw [hf] at this
    omega
  have hM5 : ∀ q, q ∈ (ip.array_.drop (c1 + 1)).map Prod.snd →
      parentOf t5 q = t.next_page_id_ := by
    intro q hq
    obtain ⟨x, hx, hxq⟩ := List.mem_map.1 hq
    obtain ⟨pg, _, p2⟩ := hmv x hx
    rw [← hxq]
    exact parentOf_setParent _ p2
  have hretained : ∀ x ∈ ip.array_.take (c1 + 1),
      x.2 ∉ (ip.array_.drop (c1 + 1)).map Prod.snd := by
    intro x hx hf
    rw [← List.take_append_drop (c1 + 1) ip.array_, List.map_append] at hnd
    exact (List.nodup_append.1 hnd).2.2 (List.mem_map.2 ⟨x, hx, rfl⟩) hf
  have hsb : ∀ q, g.S q → q ≠ P → SameBody t t5 q := by
    intro q hq hqP
    by_cases hqM : q ∈ (ip.array_.drop (c1 + 1)).map Prod.snd
    · obtain ⟨x, hx, hxq⟩ := List.mem_map.1 hqM
      obtain ⟨pg, q1, q2⟩ := hmv x hx
      rw [hxq] at q1 q2
      exact SameBody.body_of_setParent _ q1 (hidp _ _ hq q1) q2
    · obtain ⟨pg, q1, q2⟩ := (h.node q hq).page
      exact SameBody.of_eq q1 q2 (hoth q hqP (hfresh q hq) hqM)
  have hleaf : ∀ q, g.S q → (IsLeaf t q ↔ IsLeaf t5 q) := by
    intro q hq
    by_cases hqP : q = P
    · rw [hqP]
      constructor
      · rintro ⟨l, hl⟩
        rw [hip] at hl
        cases hl
      · rintro ⟨l, hl⟩
        rw [hP5] at hl
        cases hl
    · by_cases hqM : q ∈ (ip.array_.drop (c1 + 1)).map Prod.snd
      · obtain ⟨x, hx, hxq⟩ := List.mem_map.1 hqM
        obtain ⟨pg, q1, q2⟩ := hmv x hx
        rw [hxq] at q1 q2
        exact IsLeaf.of_setParent _ q1 q2
      · unfold IsLeaf
        rw [hoth q hqP (hfresh q hq) hqM]
  have hnextle : t.next_page_id_ ≤ t5.next_page_id_ := by rw [hnext]; linarith
  have hS1 : ∀ q, g.S q → (splitGhost g P t.next_page_id_ e.1).S q := fun q hq => Or.inr hq
  have hlo1 : ∀ q, g.S q → (splitGhost g P t.next_page_id_ e.1).lo q = g.lo q := by
    intro q hq
    show (if q = t.next_page_id_ then some e.1 else g.lo q) = g.lo q
    rw [if_neg (hfresh q hq)]
  have hht1 : ∀ q, g.S q → (splitGhost g P t.next_page_id_ e.1).ht q = g.ht q := by
    intro q hq
    show (if q = t.next_page_id_ then g.ht P else g.ht q) = g.ht q
    rw [if_neg (hfresh q hq)]
  have hhi1 : ∀ q, g.S q → q ≠ P → (splitGhost g P t.next_page_id_ e.1).hi q = g.hi q := by
    intro q hq hqp
    show (if q = t.next_page_id_ then g.hi P else if q = P then some e.1 else g.hi q) = g.hi q
    rw [if_neg (hfresh q hq), if_neg hqp]
  have hhip : (splitGhost g P t.next_page_id_ e.1).hi P = some e.1 := by
    show (if P = t.next_page_id_ then g.hi P else if P = P then some e.1 else g.hi P) = some e.1
    rw [if_neg hPN, if_pos rfl]
  have hhin : (splitGhost g P t.next_page_id_ e.1).hi t.next_page_id_ = g.hi P := by
    show (if t.next_page_id_ = t.next_page_id_ then g.hi P else _) = g.hi P
    rw [if_pos rfl]
  have hlon : (splitGhost g P t.next_page_id_ e.1).lo t.next_page_id_ = some e.1 := by
    show (if t.next_page_id_ = t.next_page_id_ then some e.1 else _) = some e.1
    rw [if_pos rfl]
  have hhtn : (splitGhost g P t.next_page_id_ e.1).ht t.next_page_id_ = g.ht P := by
    show (if t.next_page_id_ = t.next_page_id_ then g.ht P else _) = g.ht P
    rw [if_pos rfl]
  have heh : (fun c => if c = P then (splitGhost g P t.next_page_id_ e.1).hi t.next_page_id_
      else (splitGhost g P t.next_page_id_ e.1).hi c) =
      fun c => if c = t.next_page_id_ then g.hi P else g.hi c :=
    funext (splitGhost_eh g P t.next_page_id_ e.1)
  have hehS : ∀ q, g.S q → (if q = t.next_page_id_ then g.hi P else g.hi q) = g.hi q := by
    intro q hq
    rw [if_neg (hfresh q hq)]
  have hnv : ∀ q, g.S q → NextView t g t5 (splitGhost g P t.next_page_id_ e.1) q :=
    fun q hq => ⟨hS1 q hq, hlo1 q hq, (hleaf q hq).1⟩
  have hparP : parentOf t5 P = parentOf t P := by
    rw [parentOf_of_pages hP5, parentOf_of_pages hip]
    exact a2
  have hkv : ∀ q, g.S q → q ∉ (ip.array_.drop (c1 + 1)).map Prod.snd →
      KidView t g g.hi t5 (splitGhost g P t.next_page_id_ e.1)
        (fun c => if c = t.next_page_id_ then g.hi P else g.hi c) q := by
    intro q hq hqM
    refine ⟨hS1 q hq, ?_, hht1 q hq, hlo1 q hq, hehS q hq⟩
    by_cases hqP : q = P
    · rw [hqP]; exact hparP
    · exact parentOf_congr (hoth q hqP (hfresh q hq) hqM)
  have hlt_lo : ∀ a, g.lo P = some a → a < e.1 := by
    intro a ha
    obtain ⟨k, hk, hke⟩ := s1.start_some R
    have := R e0.2 hc0.1 a k (hlo0.trans ha) hk
    linarith
  have hlt_hi : ∀ b, g.hi P = some b → e.1 < b := by
    intro b hb
    have hs3 : SlotsK t g g.hi P (some e.1) (e :: r1) (g.hi P) := ⟨rfl, s3, s4, s5⟩
    exact (hs3.keys R).2.2 e (List.mem_cons_self _ _) b hb
  refine ⟨?_, hS1 P hP, Or.inl rfl, hPN, hlon, hhip, by rw [hhtn, hht1 P hP], ?_, ?_⟩
  · rw [heh]
    refine ⟨by rw [hnext]; have := h.next_nonneg; linarith, ?_, ?_, ?_, ?_⟩
    · intro q pg hq
      rw [hnext]
      by_cases hqn : q = t.next_page_id_
      · rw [hqn]; exact ⟨h.next_nonneg, by linarith⟩
      · by_cases hqp : q = P
        · have := InvG.lt_next h hP
          rw [hqp]; exact ⟨this.1, by linarith⟩
        · by_cases hqM : q ∈ (ip.array_.drop (c1 + 1)).map Prod.snd
          · have := InvG.lt_next h (hM q hqM).1
            exact ⟨this.1, by linarith⟩
          · rw [hoth q hqp hqn hqM] at hq
            have := h.store_lt q pg hq
            exact ⟨this.1, by linarith⟩
    · intro hne
      have hne0 : t.IsEmpty = false := by
        unfold IsEmpty at hne ⊢
        rw [hroot] at hne
        exact hne
      obtain ⟨r1, r2, r3, r4⟩ := h.root_ok hne0
      rw [hroot]
      refine ⟨hS1 _ r1, (hlo1 _ r1).trans r2, (hehS _ r1).trans r3, ?_⟩
      rw [(hkv _ r1 ?_).par]
      · exact r4
      · intro hf
        have := (hM _ hf).2.1
        rw [r4] at this
        exact InvG.ne_invalid h hP this.symm
    · intro q hq
      by_cases hqn : q = t.next_page_id_
      · -- the new page
        subst hqn
        refine ⟨⟨_, hN5, b1⟩, ?_, ?_, ?_, ?_, ?_⟩
        · rw [hlon, hhin]
          intro a b ha hb
          injection ha with ha
          rw [← ha]
          exact hlt_hi b hb
        · rw [hhtn, hnext]
          exact lt_of_lt_of_le nP.ht_lt (Int.toNat_le_toNat (by linarith))
        · intro l hl
          rw [hN5] at hl
          cases hl
        · intro ip2 hip2
          rw [hN5] at hip2
          injection hip2 with hip2
          injection hip2 with hip2
          subst hip2
          have hin : ∀ x ∈ e :: r1, x.2 ∈ (ip.array_.drop (c1 + 1)).map Prod.snd := by
            intro x hx
            rw [hdrop, hdr]
            exact List.mem_map.2 ⟨x, hx, rfl⟩
          have hch : ∀ x ∈ e :: r1, IsChild t5 (splitGhost g P t.next_page_id_ e.1)
              t.next_page_id_ x.2 := by
            intro x hx
            have hx2 := hM x.2 (hin x hx)
            exact ⟨hS1 _ hx2.1, hM5 _ (hin x hx), by rw [hht1 _ hx2.1, hhtn]; exact hx2.2.2⟩
          refine ⟨e, r1, by rw [b5, hdrop, hdr], hch e (List.mem_cons_self _ _), ?_, ?_⟩
          · rw [hlo1 _ s3.1, hlon]; exact s4
          · beta_reduce
            rw [hehS _ s3.1, hhin]
            refine SlotsK.mono ?_ s5
            intro x hx hxc hxlo
            exact ⟨hch x (List.mem_cons_of_mem _ hx), (hlo1 _ hxc.1).trans hxlo, hehS _ hxc.1⟩
        · intro hd
          exact absurd rfl hd
      · have hq0 : g.S q := by
          rcases hq with hq | hq
          · exact absurd hq hqn
          · exact hq
        by_cases hqp : q = P
        · -- the old page
          subst hqp
          refine ⟨⟨_, hP5, a1.trans (hidp _ _ hP hip)⟩, ?_, ?_, ?_, ?_, ?_⟩
          · rw [hlo1 _ hP, hhip]
            intro a b ha hb
            injection hb with hb
            rw [← hb]
            exact hlt_lo a ha
          · rw [hht1 _ hP]
            exact lt_of_lt_of_le nP.ht_lt (Int.toNat_le_toNat hnextle)
          · intro l hl
            rw [hP5] at hl
            cases hl
          · intro ip2 hip2
            rw [hP5] at hip2
            injection hip2 with hip2
            injection hip2 with hip2
            subst hip2
            have hkt : ∀ x ∈ e0 :: rest.take c1, KidView t g g.hi t5
                (splitGhost g q t.next_page_id_ e.1)
                (fun c => if c = t.next_page_id_ then g.hi q else g.hi c) x.2 := by
              intro x hx
              rw [← htake] at hx
              exact hkv x.2 ((nP.kids ip hip).child_of_mem x (List.mem_of_mem_take hx)).1
                (hretained x hx)
            refine ⟨e0, rest.take c1, by rw [a5, htake], ?_, ?_, ?_⟩
            · exact hc0.transfer_child (hht1 _ hP) (hkt e0 (List.mem_cons_self _ _))
            · rw [hlo1 _ hc0.1, hlo1 _ hP]; exact hlo0
            · beta_reduce
              rw [hehS _ hc0.1, hhip]
              exact s1.transfer_slots (hht1 _ hP) (fun x hx => hkt x (List.mem_cons_of_mem _ hx))
          · intro _
            have u := nP.up (fun hf => hf)
            refine ⟨?_, ?_⟩
            · rw [hparP, hroot]; exact u.top
            · rw [hparP]
              intro h0
              obtain ⟨u1, ipp, u2, u3⟩ := u.inner h0
              obtain ⟨x, hx, hxo⟩ := List.mem_map.1 u3
              have hcP := ((h.node _ u1).kids ipp u2).child_of_mem x hx
              rw [hxo] at hcP
              have hne1 : parentOf t q ≠ q := by
                intro hf
                have := hcP.2.2
                rw [hf] at this
                omega
              have hne2 : parentOf t q ∉ (ip.array_.drop (c1 + 1)).map Prod.snd := by
                intro hf
                have h1 := hcP.2.2
                have h2 := (hM _ hf).2.2
                omega
              exact ⟨hS1 _ u1, ipp, by rw [hoth _ hne1 (hfresh _ u1) hne2]; exact u2, u3⟩
        · by_cases hqM : q ∈ (ip.array_.drop (c1 + 1)).map Prod.snd
          · -- a moved child
            refine (h.node q hq0).transfer_node t5 _ _ _ (hsb q hq0 hqp) hnextle hlm (hht1 q hq0)
              (hlo1 q hq0) (hhi1 q hq0 hqp) ?_ ?_ ?_
            · intro ip2 hip2 x hx
              have hcx := ((h.node q hq0).kids ip2 hip2).child_of_mem x hx
              refine hkv x.2 hcx.1 ?_
              intro hf
              have h1 := hcx.2.2
              have h2 := (hM _ hf).2.2
              have h3 := (hM _ hqM).2.2
              omega
            · intro l b hl hb
              exact hnv _ (((h.node q hq0).leaf l hl).next b hb).1
            · intro _
              refine ⟨?_, ?_⟩
              · rw [hM5 q hqM]
                intro hf
                have := h.next_nonneg
                rw [hf] at this
                exact absurd this (by decide)
              · rw [hM5 q hqM]
                intro _
                exact ⟨Or.inl rfl, ipN, hN5, by rw [b5]; exact hqM⟩
          · -- every other page
            refine InvG.frame h t5 (splitGhost g P t.next_page_id_ e.1)
              (fun c => if c = t.next_page_id_ then g.hi P else g.hi c)
              (fun c => c = t.next_page_id_)
              (fun c => c = P ∨ c = t.next_page_id_ ∨
                c ∈ (ip.array_.drop (c1 + 1)).map Prod.snd)
              (fun c => c ∈ (ip.array_.drop (c1 + 1)).map Prod.snd) (fun _ => False)
              hnextle hlm (Or.inl hroot) ?_ ?_ ?_ ?_ ?_ ?_ ?_ q hq ?_
            · intro c hc hX
              have hcp : c ≠ P := fun hf => hX (Or.inl hf)
              have hcM : c ∉ (ip.array_.drop (c1 + 1)).map Prod.snd :=
                fun hf => hX (Or.inr (Or.inr hf))
              exact ⟨hoth c hcp (hfresh c hc) hcM, hS1 c hc, hht1 c hc, hlo1 c hc,
                hhi1 c hc hcp, hehS c hc, fun hd => hd.elim⟩
            · intro c hc hX
              rcases hc with hc | hc
              · exact absurd (Or.inr (Or.inl hc)) hX
              · exact hc
            · intro c hc _ hV
              exact hkv c hc hV
            · intro c hc _ _
              exact hnv c hc
            · intro p ip2 hp hX hip2 x hx hV
              have hcx := ((h.node p hp).kids ip2 hip2).child_of_mem x hx
              have := (hM _ hV).2.1
              rw [hcx.2.1] at this
              exact hX (Or.inl this)
            · intro _ _ _ _ _ _ _ hf; exact hf
            · intro c hc hX hd h0 hXP
              obtain ⟨u1, ip2, u2, u3⟩ := ((h.node c hc).up hd).inner h0
              by_cases hcP : parentOf t c = P
              · rw [hcP] at u2 ⊢
                rw [hip] at u2
                injection u2 with u2
                injection u2 with u2
                subst u2
                refine ⟨hS1 _ hP, ipP, hP5, ?_⟩
                rw [a5]
                rw [← List.take_append_drop (c1 + 1) ip.array_, List.map_append,
                  List.mem_append] at u3
                rcases u3 with u3 | u3
                · exact u3
                · exact absurd (Or.inr (Or.inr u3)) hX
              · obtain ⟨pg1, q1, _⟩ := (hsb _ u1 hcP).id
                refine ⟨hS1 _ u1, ?_⟩
                cases pg1 with
                | leaf l1 =>
                  obtain ⟨l, hl, _⟩ := (hsb _ u1 hcP).leaf l1 q1
                  rw [u2] at hl
                  cases hl
                | internal ip3 =>
                  obtain ⟨ip0, hip0, e1⟩ := (hsb _ u1 hcP).internal ip3 q1
                  rw [u2] at hip0
                  injection hip0 with hip0
                  injection hip0 with hip0
                  subst hip0
                  exact ⟨ip3, q1, by rw [e1]; exact u3⟩
            · intro hX
              rcases hX with hX | hX | hX
              · exact hqp hX
              · exact hqn hX
              · exact hqM hX
    · intro c d x hc hd lc ld c1 c2 d1 d2
      have aux : ∀ q, (splitGhost g P t.next_page_id_ e.1).S q → IsLeaf t5 q →
          g.S q ∧ q ≠ P := by
        intro q hq lq
        have hqn : q ≠ t.next_page_id_ := by
          intro hf
          obtain ⟨l, hl⟩ := lq
          rw [hf, hN5] at hl
          cases hl
        have hqp : q ≠ P := by
          intro hf
          obtain ⟨l, hl⟩ := lq
          rw [hf, hP5] at hl
          cases hl
        rcases hq with hq | hq
        · exact absurd hq hqn
        · exact ⟨hq, hqp⟩
      obtain ⟨hc0, hcp⟩ := aux c hc lc
      obtain ⟨hd0, hdp⟩ := aux d hd ld
      rw [hlo1 c hc0] at c1
      rw [hhi1 c hc0 hcp] at c2
      rw [hlo1 d hd0] at d1
      rw [hhi1 d hd0 hdp] at d2
      exact h.disj c d x hc0 hd0 ((hleaf c hc0).2 lc) ((hleaf d hd0).2 ld) c1 c2 d1 d2
  · intro q ipq hq hqi x hx
    by_cases hqn : q = t.next_page_id_
    · rw [hqn, hN5] at hqi
      injection hqi with hqi
      injection hqi with hqi
      subst hqi
      rw [b5] at hx
      exact hfresh _ (hM x.2 (List.mem_map.2 ⟨x, hx, rfl⟩)).1
    · have hq0 : g.S q := by
        rcases hq with hq | hq
        · exact absurd hq hqn
        · exact hq
      by_cases hqp : q = P
      · rw [hqp, hP5] at hqi
        injection hqi with hqi
        injection hqi with hqi
        subst hqi
        rw [a5] at hx
        exact hfresh _ ((nP.kids ip hip).child_of_mem x (List.mem_of_mem_take hx)).1
      · obtain ⟨ip0, hip0, e1⟩ := (hsb q hq0 hqp).internal ipq hqi
        rw [e1] at hx
        exact hfresh _ (((h.node q hq0).kids ip0 hip0).child_of_mem x hx).1
  · rw [hroot]
    cases hemp : t.IsEmpty with
    | true =>
      unfold IsEmpty at hemp
      rw [beq_iff_eq] at hemp
      rw [hemp]
      intro hf
      have := h.next_nonneg
      rw [← hf] at this
      exact absurd this (by decide)
    | false => exact hfresh _ (h.root_ok hemp).1

theorem UpdateParentPageId_ok {t t1 : BPlusTree} {q P : page_id_t}
    (h : t.UpdateParentPageId q P = .ok t1) :
    ∃ pg, t.pages q = some pg ∧ t1 = t.store q (pg.SetParentPageId P) := by
  unfold UpdateParentPageId at h
  split at h
  · rename_i pg hpg
    injection h with h
    exact ⟨pg, hpg, h.symm⟩
  · exact absurd h (by simp)

theorem setParent_idem (pg : TreePage) (P : page_id_t) :
    (pg.SetParentPageId P).SetParentPageId P = pg.SetParentPageId P := by
  cases pg <;> rfl

/-- What the loop over the moved slots did: each child named in them has the
new parent, nothing else changed. -/
theorem reparent_spec (N : page_id_t) :
    ∀ (moved : List (KeyType × page_id_t)) (t3 t4 : BPlusTree),
      reparent t3 N moved = .ok t4 →
      t4.root_page_id_ = t3.root_page_id_ ∧ t4.next_page_id_ = t3.next_page_id_ ∧
      t4.leaf_max_size_ = t3.leaf_max_size_ ∧
      t4.internal_max_size_ = t3.internal_max_size_ ∧
      (∀ q, q ∉ moved.map Prod.snd → t4.pages q = t3.pages q) ∧
      (∀ q, q ∈ moved.map Prod.snd →
        ∃ pg, t3.pages q = some pg ∧ t4.pages q = some (pg.SetParentPageId N)) := by
  intro moved
  induction moved with
  | nil =>
    intro t3 t4 h
    unfold reparent at h
    injection h with h
    subst h
    exact ⟨rfl, rfl, rfl, rfl, fun _ _ => rfl, fun q hq => absurd hq (by simp)⟩
  | cons a rest ih =>
    intro t3 t4 h
    unfold reparent at h
    split at h
    · exact absurd h (by simp)
    · rename_i t1 hu
      obtain ⟨pg, hpg, rfl⟩ := UpdateParentPageId_ok hu
      obtain ⟨i1, i2, i3, i4, i5, i6⟩ := ih _ _ h
      refine ⟨i1, i2, i3, i4, ?_, ?_⟩
      · intro q hq
        simp only [List.map_cons, List.mem_cons, not_or] at hq
        rw [i5 q hq.2, store_pages_ne _ _ _ hq.1]
      · intro q hq
        by_cases hqr : q ∈ rest.map Prod.snd
        · obtain ⟨pg1, p1, p2⟩ := i6 q hqr
          by_cases hqa : q = a.2
          · rw [hqa] at p1 p2 ⊢
            rw [store_pages_same] at p1
            injection p1 with p1
            rw [← p1, setParent_idem] at p2
            exact ⟨pg, hpg, p2⟩
          · rw [store_pages_ne _ _ _ hqa] at p1
            exact ⟨pg1, p1, p2⟩
        · have hqa : q = a.2 := by
            simp only [List.map_cons, List.mem_cons] at hq
            rcases hq with hq | hq
            · exact hq
            · exact absurd hq hqr
          rw [hqa] at hqr ⊢
          rw [i5 a.2 hqr, store_pages_same]
          exact ⟨pg, hpg, rfl⟩

theorem InternalPage.Insert_fields (ip : InternalPage) (key : KeyType) (value : page_id_t) :
    (ip.Insert key value).page_id_ = ip.page_id_ ∧
    (ip.Insert key value).parent_page_id_ = ip.parent_page_id_ := by
  unfold InternalPage.Insert
  cases ip.array_ <;> exact ⟨rfl, rfl⟩

theorem isRootPage_iff {t : BPlusTree} {q : page_id_t} {pg : TreePage}
    (h : t.pages q = some pg) :
    pg.IsRootPage = true ↔ parentOf t q = INVALID_PAGE_ID := by
  rw [parentOf_of_pages h]
  unfold TreePage.IsRootPage
  exact beq_iff_eq

/-- The loop of `Insert` that enters the new page in the parent, started
between a split and that entry, ends (if it returns) in a state with the
invariant. -/
theorem Pending.insertInParent_inv :
    ∀ (f : Nat) (t : BPlusTree) (g : Ghost) (old nw : page_id_t) (s : KeyType)
      (t1 : BPlusTree),
      Pending t g old nw s → insertInParent f t old nw s = .ok t1 → ∃ g1, Inv t1 g1 := by
  intro f
  induction f with
  | zero =>
    intro t g old nw s t1 _ hr
    unfold insertInParent at hr
    exact absurd hr (by simp)
  | succ f ih =>
    intro t g old nw s t1 h hr
    have I := h.inv
    obtain ⟨pgo, ho, hoid⟩ := (I.node old h.S_old).page
    obtain ⟨pgn, hn, hnid⟩ := (I.node nw h.S_new).page
    have hfresh : ∀ q, g.S q → q ≠ t.next_page_id_ := by
      intro q hq hqn
      have := (InvG.lt_next I hq).2
      rw [hqn] at this
      exact lt_irrefl _ this
    have fo : t.fetch old = .ok pgo := by unfold fetch; rw [ho]
    have fn : t.fetch nw = .ok pgn := by unfold fetch; rw [hn]
    unfold insertInParent at hr
    rw [fo, fn] at hr
    simp only [] at hr
    by_cases hroot : pgo.IsRootPage = true
    · -- a new root
      rw [if_pos hroot] at hr
      split at hr
      · exact absurd hr (by simp)
      · rename_i t2 hu
        obtain ⟨pg2, hpg2, rfl⟩ := UpdateParentPageId_ok hu
        obtain ⟨pg3, hpg3, rfl⟩ := UpdateParentPageId_ok hr
        simp only [store_pages] at hpg2 hpg3
        rw [if_neg (hfresh old h.S_old), ho] at hpg2
        injection hpg2 with hpg2
        subst hpg2
        rw [if_neg (Ne.symm h.ne), if_neg (hfresh nw h.S_new), hn] at hpg3
        injection hpg3 with hpg3
        subst hpg3
        refine ⟨_, h.new_root ((isRootPage_iff ho).1 hroot) _
          { page_id_ := t.next_page_id_, parent_page_id_ := INVALID_PAGE_ID,
            max_size_ := t.internal_max_size_, array_ := [(s, old), (s, nw)] }
          pgo pgn rfl rfl rfl ?_ rfl rfl rfl ho hn ?_ ?_ ?_⟩
        · simp only [store_pages, if_true, hoid, hnid,
            if_neg (Ne.symm (hfresh nw h.S_new)), if_neg (Ne.symm (hfresh old h.S_old))]
        · simp only [store_pages, if_true, if_neg h.ne]
        · simp only [store_pages, if_true]
        · intro q q1 q2 q3
          simp only [store_pages, if_neg q2, if_neg q1, if_neg q3]
    · -- the parent gets the new page
      rw [if_neg hroot] at hr
      have hpar : parentOf t old ≠ INVALID_PAGE_ID := fun hf => hroot ((isRootPage_iff ho).2 hf)
      have hpgo : pgo.GetParentPageId = parentOf t old := (parentOf_of_pages ho).symm
      rw [hpgo] at hr
      split at hr
      · exact absurd hr (by simp)
      · rename_i parent hfp
        have hip := fetchInternal_ok hfp
        rw [hnid] at hr
        obtain ⟨hf1, hf2⟩ := InternalPage.Insert_fields parent s nw
        generalize hp1 : parent.Insert s nw = p1 at hr hf1 hf2
        have hf3 : p1.array_ = (parent.Insert s nw).array_ := by rw [hp1]
        split at hr
        · exact absurd hr (by simp)
        · rename_i t2 hu
          obtain ⟨pg2, hpg2, rfl⟩ := UpdateParentPageId_ok hu
          obtain ⟨hSP, ip0, hip0, hmem⟩ := ((I.node old h.S_old).up h.ne).inner hpar
          have hcold : IsChild t g (parentOf t old) old := by
            obtain ⟨e, he, heo⟩ := List.mem_map.1 hmem
            have := ((I.node _ hSP).kids ip0 hip0).child_of_mem e he
            rw [heo] at this
            exact this
          have hPn : parentOf t old ≠ nw := by
            intro hf
            have := hcold.2.2
            rw [hf, h.ht] at this
            omega
          rw [store_pages_ne _ _ _ (Ne.symm hPn), hn] at hpg2
          injection hpg2 with hpg2
          subst hpg2
          have hP2 : ((t.store (parentOf t old) (.internal p1)).store nw
              (pgn.SetParentPageId (parentOf t old))).pages (parentOf t old) =
              some (.internal p1) := by
            rw [store_pages_ne _ _ _ hPn, store_pages_same]
          have hInv2 : Inv ((t.store (parentOf t old) (.internal p1)).store nw
              (pgn.SetParentPageId (parentOf t old))) g := by
            refine h.insert_parent hpar hip _ p1 pgn rfl rfl rfl hP2 hf1 hf2 hf3 hn ?_ ?_
            · rw [store_pages_same]
            · intro q q1 q2
              rw [store_pages_ne _ _ _ q2, store_pages_ne _ _ _ q1]
          by_cases hsize : p1.array_.length ≤ t.internal_max_size_
          · rw [if_pos hsize] at hr
            injection hr with hr
            subst hr
            exact ⟨g, hInv2⟩
          · rw [if_neg hsize] at hr
            simp only [store_next, store_internal_max] at hr
            have hkids2 := (hInv2.node _ hSP).kids _ hP2
            have hpos : 0 < p1.array_.length - (t.internal_max_size_ + 1) / 2 := by omega
            generalize p1.array_.length - (t.internal_max_size_ + 1) / 2 = st at hr hpos
            split at hr
            · exact absurd hr (by simp)
            · rename_i t4 hrep
              obtain ⟨i1, i2, i3, i4, i5, i6⟩ := reparent_spec _ _ _ _ hrep
              split at hr
              · exact absurd hr (by simp)
              · rename_i parent2 hfi2
                have hfi3 := fetchInternal_ok hfi2
                split at hr
                · exact absurd hr (by simp)
                · rename_i e hhead
                  have hPM : parentOf t old ∉ (List.drop st p1.array_).map Prod.snd := by
                    intro hf
                    obtain ⟨x, hx, hxP⟩ := List.mem_map.1 hf
                    have := (hkids2.child_of_mem x (List.mem_of_mem_drop hx)).2.2
                    rw [hxP] at this
                    omega
                  have hNM : t.next_page_id_ ∉ (List.drop st p1.array_).map Prod.snd := by
                    intro hf
                    obtain ⟨x, hx, hxP⟩ := List.mem_map.1 hf
                    have := (hkids2.child_of_mem x (List.mem_of_mem_drop hx)).1
                    rw [hxP] at this
                    exact hfresh _ this rfl
                  have hp2 : parent2 = p1 := by
                    have := i5 _ hPM
                    rw [hfi3] at this
                    simp only [store_pages, if_neg (hfresh _ hSP), if_neg hPn, if_true] at this
                    injection this with this
                    injection this with this
                  subst hp2
                  refine ih _ _ _ _ _ _ (hInv2.split_internal hSP hP2 hpos hhead _
                    (InternalPage.mk parent2.page_id_ parent2.parent_page_id_ parent2.max_size_
                      (parent2.array_.take st))
                    (InternalPage.mk t.next_page_id_ parent2.page_id_ t.internal_max_size_
                      (parent2.array_.drop st))
                    ?_ ?_ ?_ ?_ ?_ rfl rfl rfl rfl rfl ?_ ?_) hr
                  · exact i1
                  · simp only [store_next, i2]
                  · exact i3
                  · rw [store_pages_same]
                  · simp only [store_next]
                    rw [store_pages_ne _ _ _ (Ne.symm (hfresh _ hSP)), i5 _ hNM]
                    simp only [store_pages, if_true]
                  · intro x hx
                    have hxm : x.2 ∈ (List.drop st parent2.array_).map Prod.snd :=
                      List.mem_map.2 ⟨x, hx, rfl⟩
                    obtain ⟨pg, q1, q2⟩ := i6 x.2 hxm
                    have hxS := (hkids2.child_of_mem x (List.mem_of_mem_drop hx)).1
                    have hxP : x.2 ≠ parentOf t old := fun hf => hPM (hf ▸ hxm)
                    refine ⟨pg, ?_, ?_⟩
                    · rw [← q1]
                      simp only [store_pages, if_neg (hfresh _ hxS)]
                    · rw [store_pages_ne _ _ _ hxP]
                      exact q2
                  · intro q q1 q2 q3
                    simp only [store_next] at q2
                    rw [store_pages_ne _ _ _ q1, i5 q q3]
                    simp only [store_pages, if_neg q2]

/-- The first `Insert` makes a root leaf with one entry. -/
theorem Inv.first_leaf {t : BPlusTree} {g : Ghost} (h : Inv t g) (key : KeyType)
    (value : ValueType) (t1 : BPlusTree) (l : LeafPage)
    (hroot : t1.root_page_id_ = t.next_page_id_)
    (hnext : t1.next_page_id_ = t.next_page_id_ + 1)
    (hlm : t1.leaf_max_size_ = t.leaf_max_size_)
    (hr1 : t1.pages t.next_page_id_ = some (.leaf l))
    (hoth : ∀ q, q ≠ t.next_page_id_ → t1.pages q = t.pages q)
    (l1 : l.page_id_ = t.next_page_id_) (l2 : l.parent_page_id_ = INVALID_PAGE_ID)
    (l3 : l.max_size_ = t.leaf_max_size_) (l4 : l.next_page_id_ = INVALID_PAGE_ID)
    (l5 : l.array_ = [(key, value)]) :
    Inv t1 (oneGhost t.next_page_id_) := by
  have h0 := h.next_nonneg
  refine ⟨by rw [hnext]; linarith, ?_, ?_, ?_, ?_⟩
  · intro q pg hq
    rw [hnext]
    by_cases hqr : q = t.next_page_id_
    · rw [hqr]; exact ⟨h0, by linarith⟩
    · rw [hoth q hqr] at hq
      have := h.store_lt q pg hq
      exact ⟨this.1, by linarith⟩
  · intro _
    rw [hroot]
    exact ⟨rfl, rfl, rfl, by rw [parentOf_of_pages hr1]; exact l2⟩
  · intro q hq
    have hq : q = t.next_page_id_ := hq
    subst hq
    refine ⟨⟨_, hr1, l1⟩, fun a b ha => (by cases ha), ?_, ?_, ?_, ?_⟩
    · show 0 < t1.next_page_id_.toNat
      rw [hnext]
      have h00 : (0 : Int) ≤ t.next_page_id_ := h0
      omega
    · intro l6 hl6
      rw [hr1] at hl6
      injection hl6 with hl6
      injection hl6 with hl6
      subst hl6
      refine ⟨l3.trans hlm.symm, by rw [l5]; exact List.pairwise_singleton _ _, ?_,
        fun _ => l4, fun b hb => (by cases hb)⟩
      intro e _
      exact ⟨fun a ha => (by cases ha), fun b hb => (by cases hb)⟩
    · intro ip hip
      rw [hr1] at hip
      cases hip
    · intro _
      have hp : parentOf t1 t.next_page_id_ = INVALID_PAGE_ID := by
        rw [parentOf_of_pages hr1]; exact l2
      exact ⟨fun _ => hroot.symm, fun hf => absurd hp hf⟩
  · intro c d x hc hd _ _ _ _ _ _
    have hc : c = t.next_page_id_ := hc
    have hd : d = t.next_page_id_ := hd
    rw [hc, hd]

/-- What a returning `MoveDataTo` did. -/
theorem LeafPage.MoveDataTo_ok {p np p2 np2 : LeafPage} {first last : Nat}
    (h : p.MoveDataTo np first last = .ok (p2, np2)) :
    p2 = { p with array_ := p.array_.take (p.array_.length - (last + 1 - first)) } ∧
    np2 = { np with array_ := (p.array_.drop first).take (last + 1 - first) } := by
  unfold LeafPage.MoveDataTo at h
  split at h
  · injection h with h
    injection h with h1 h2
    exact ⟨h1.symm, h2.symm⟩
  · exact absurd h (by simp)

/-- A returning `Insert` on a state with the invariant gives a state with the
invariant. -/
theorem Inv.Insert_inv {t : BPlusTree} {g : Ghost} (h : Inv t g) {key : KeyType}
    {value : ValueType} {t1 : BPlusTree} {b : Bool} (hr : t.Insert key value = .ok (t1, b)) :
    ∃ g1, Inv t1 g1 := by
  unfold Insert at hr
  cases hemp : t.IsEmpty with
  | true =>
    rw [hemp] at hr
    simp only [if_true] at hr
    injection hr with hr
    injection hr with hr _
    subst hr
    refine ⟨_, h.first_leaf key value _
      { page_id_ := t.next_page_id_, parent_page_id_ := INVALID_PAGE_ID,
        max_size_ := t.leaf_max_size_, next_page_id_ := INVALID_PAGE_ID,
        array_ := [(key, value)] } rfl rfl rfl ?_ ?_ rfl rfl rfl rfl rfl⟩
    · simp only [store_pages, if_true]
    · intro q hq
      simp only [store_pages, if_neg hq]
  | false =>
    rw [hemp] at hr
    simp only [Bool.false_eq_true, if_false] at hr
    split at hr
    · exact absurd hr (by simp)
    · rename_i leaf_id hg
      obtain ⟨hS, _, hlo, hhi⟩ := h.GetLeafPage_spec hemp hg
      split at hr
      · exact absurd hr (by simp)
      · rename_i leaf hfl
        have hpg := fetchLeaf_ok hfl
        have o := (h.node leaf_id hS).leaf leaf hpg
        by_cases hk : LeafPage.hasKey leaf.array_ key = true
        · rw [if_pos hk] at hr
          injection hr with hr
          injection hr with hr _
          subst hr
          exact ⟨g, h⟩
        · rw [if_neg hk] at hr
          split at hr
          · exact absurd hr (by simp)
          · rename_i leaf1 hins
            obtain ⟨i0, i1, i2, i3, i4, _, i6⟩ := LeafPage.Insert_ok hins
            have hkf : LeafPage.hasKey leaf.array_ key = false := by
              cases hh : LeafPage.hasKey leaf.array_ key with
              | true => exact absurd hh hk
              | false => rfl
            have harr := i6 hkf
            have hne := hasKey_false_iff.1 hkf
            have hsorted : leaf1.array_.Pairwise (fun a b => a.1 < b.1) := by
              rw [harr]
              exact insertIndex_sorted key value leaf.array_ o.sorted hne
            have hinside : ∀ e ∈ leaf1.array_,
                geLo (g.lo leaf_id) e.1 ∧ ltHi (g.hi leaf_id) e.1 := by
              intro e he
              rw [harr] at he
              rcases (mem_insertAt _ _ _ _).1 he with he | he
              · rw [he]; exact ⟨hlo, hhi⟩
              · exact o.inside e he
            have hA := h.leaf_update hS hpg i1 i2 i3 i4 hsorted hinside
            by_cases hsz : leaf1.array_.length < t.leaf_max_size_
            · rw [if_pos hsz] at hr
              injection hr with hr
              injection hr with hr _
              subst hr
              exact ⟨g, hA⟩
            · rw [if_neg hsz] at hr
              split at hr
              · exact absurd hr (by simp)
              · rename_i leaf2 new_leaf2 hmv
                obtain ⟨m1, m2⟩ := LeafPage.MoveDataTo_ok hmv
                split at hr
                · exact absurd hr (by simp)
                · rename_i e hhead
                  split at hr
                  · exact absurd hr (by simp)
                  · rename_i t2 hloop
                    injection hr with hr
                    injection hr with hr _
                    subst hr
                    -- the leaf is full after the insertion
                    have hlen1 : leaf1.array_.length = leaf.array_.length + 1 := by
                      rw [harr]
                      simp only [List.length_append, List.length_cons, List.length_take,
                        List.length_drop]
                      have := insertIndex_le key leaf.array_
                      omega
                    have hlen : leaf1.array_.length = t.leaf_max_size_ := by
                      have h2 := o.max_size
                      omega
                    have hcut : 0 < (t.leaf_max_size_ + 1) / 2 := by omega
                    have htk : leaf1.array_.length -
                        (t.leaf_max_size_ - 1 + 1 - (t.leaf_max_size_ + 1) / 2) =
                        (t.leaf_max_size_ + 1) / 2 := by omega
                    have hdr : (leaf1.array_.drop ((t.leaf_max_size_ + 1) / 2)).take
                        (t.leaf_max_size_ - 1 + 1 - (t.leaf_max_size_ + 1) / 2) =
                        leaf1.array_.drop ((t.leaf_max_size_ + 1) / 2) := by
                      apply List.take_of_length_le
                      rw [List.length_drop]
                      omega
                    subst m1
                    subst m2
                    simp only [htk, hdr, LeafPage.Init] at hhead hloop
                    have hfresh : leaf_id ≠ t.next_page_id_ := by
                      intro hf
                      have := (InvG.lt_next h hS).2
                      rw [hf] at this
                      exact lt_irrefl _ this
                    refine Pending.insertInParent_inv _ _ _ _ _ _ _
                      (hA.split_leaf hS (store_pages_same _ _ _) hcut hhead _
                        { leaf1 with next_page_id_ := t.next_page_id_,
                                     array_ := leaf1.array_.take ((t.leaf_max_size_ + 1) / 2) }
                        { page_id_ := t.next_page_id_,
                          parent_page_id_ := leaf1.parent_page_id_,
                          max_size_ := t.leaf_max_size_,
                          next_page_id_ := leaf1.next_page_id_,
                          array_ := leaf1.array_.drop ((t.leaf_max_size_ + 1) / 2) }
                        ?_ ?_ ?_ ?_ ?_ ?_ rfl rfl rfl rfl rfl rfl rfl rfl rfl) hloop
                    · rfl
                    · rfl
                    · rfl
                    · simp only [store_pages, if_neg hfresh, if_true]
                    · simp only [store_pages, store_next, if_true]
                    · intro q q1 q2
                      simp only [store_next] at q2
                      simp only [store_pages, if_neg q1, if_neg q2]

theorem getElem?_two_split {α : Type} :
    ∀ (arr : List α) (i : Nat) (a b : α), arr[i]? = some a → arr[i + 1]? = some b →
      ∃ A B, arr = A ++ a :: b :: B ∧ A.length = i := by
  intro arr
  induction arr with
  | nil => intro i a b h; simp at h
  | cons x rest ih =>
    intro i a b h1 h2
    cases i with
    | zero =>
      simp only [List.getElem?_cons_zero, Option.some.injEq] at h1
      simp only [zero_add, List.getElem?_cons_succ] at h2
      cases rest with
      | nil => simp at h2
      | cons y r =>
        simp only [List.getElem?_cons_zero, Option.some.injEq] at h2
        subst h1; subst h2
        exact ⟨[], r, rfl, rfl⟩
    | succ i =>
      simp only [List.getElem?_cons_succ] at h1 h2
      obtain ⟨A, B, h3, h4⟩ := ih i a b h1 h2
      exact ⟨x :: A, B, by rw [h3]; rfl, by rw [List.length_cons, h4]⟩

theorem set_after {α : Type} (A : List α) (a b x : α) (B : List α) :
    (A ++ a :: b :: B).set (A.length + 1) x = A ++ a :: x :: B := by
  induction A with
  | nil => rfl
  | cons y r ih =>
    simp only [List.cons_append, List.length_cons, List.set_cons_succ]
    rw [ih]

theorem eraseIdx_after {α : Type} (A : List α) (a b : α) (B : List α) :
    (A ++ a :: b :: B).eraseIdx (A.length + 1) = A ++ a :: B := by
  induction A with
  | nil => rfl
  | cons y r ih =>
    simp only [List.cons_append, List.length_cons, List.eraseIdx_cons_succ]
    rw [ih]

theorem getElem?_after {α : Type} (A : List α) (a b : α) (B : List α) :
    (A ++ a :: b :: B)[A.length]? = some a ∧ (A ++ a :: b :: B)[A.length + 1]? = some b := by
  induction A with
  | nil => exact ⟨rfl, by simp⟩
  | cons y r ih =>
    simp only [List.cons_append, List.length_cons, List.getElem?_cons_succ]
    exact ih

theorem nodup_index_unique {α : Type} :
    ∀ (l : List α), l.Nodup → ∀ (j k : Nat) (v : α), l[j]? = some v → l[k]? = some v →
      j = k := by
  intro l
  induction l with
  | nil => intro _ j k v h; simp at h
  | cons x rest ih =>
    intro hnd j k v h1 h2
    rw [List.nodup_cons] at hnd
    cases j with
    | zero =>
      cases k with
      | zero => rfl
      | succ k =>
        simp only [List.getElem?_cons_zero, Option.some.injEq] at h1
        simp only [List.getElem?_cons_succ] at h2
        rw [← h1] at h2
        exact absurd (List.getElem?_mem h2) hnd.1
    | succ j =>
      cases k with
      | zero =>
        simp only [List.getElem?_cons_zero, Option.some.injEq] at h2
        simp only [List.getElem?_cons_succ] at h1
        rw [← h2] at h1
        exact absurd (List.getElem?_mem h1) hnd.1
      | succ k =>
        simp only [List.getElem?_cons_succ] at h1 h2
        rw [ih hnd.2 j k v h1 h2]

/-- The slot that `FindValue` and the loop of `GetSiblings` find holds the
value looked for. -/
theorem findIdx?_child {arr : List (KeyType × page_id_t)} {v : page_id_t} {i : Nat}
    (h : arr.findIdx? (fun e => e.2 == v) = some i) : ∃ e, arr[i]? = some e ∧ e.2 = v := by
  have := List.findIdx?_of_eq_some h
  cases he : arr[i]? with
  | none => rw [he] at this; cases this
  | some e =>
    rw [he] at this
    exact ⟨e, rfl, beq_iff_eq.1 this⟩

/-- In an internal page of the tree a child stands in one slot only. -/
theorem KidsOK.index_unique {t : BPlusTree} {g : Ghost} {eh : page_id_t → Option KeyType}
    {P : page_id_t} (R : ∀ c, g.S c → ltRange (g.lo c) (eh c))
    {arr : List (KeyType × page_id_t)} (h : KidsOK t g eh P arr) {j k : Nat}
    {e1 e2 : KeyType × page_id_t} (h1 : arr[j]? = some e1) (h2 : arr[k]? = some e2)
    (heq : e1.2 = e2.2) : j = k := by
  refine nodup_index_unique _ (h.nodup R) j k e1.2 ?_ ?_
  · rw [List.getElem?_map, h1]; rfl
  · rw [List.getElem?_map, h2, heq]; rfl

/-- An internal root with one child gives way to that child. -/
theorem Inv.collapse_root {t : BPlusTree} {g : Ghost} (h : Inv t g) {ip : InternalPage}
    {e0 : KeyType × page_id_t} (hemp : t.IsEmpty = false)
    (hip : t.pages t.root_page_id_ = some (.internal ip)) (harr : ip.array_ = [e0])
    (t1 : BPlusTree) (pg : TreePage)
    (hroot : t1.root_page_id_ = e0.2)
    (hnext : t1.next_page_id_ = t.next_page_id_)
    (hlm : t1.leaf_max_size_ = t.leaf_max_size_)
    (hc : t.pages e0.2 = some pg)
    (hc1 : t1.pages e0.2 = some (pg.SetParentPageId INVALID_PAGE_ID))
    (hoth : ∀ q, q ≠ e0.2 → t1.pages q = t.pages q) :
    Inv t1 (dropGhost g t.root_page_id_) := by
  obtain ⟨r1, r2, r3, r4⟩ := h.root_ok hemp
  have nr := h.node _ r1
  obtain ⟨e, rest, harr2, hch, hlo, hs⟩ := nr.kids ip hip
  rw [harr] at harr2
  injection harr2 with a1 a2
  subst a1
  subst a2
  have hhi : g.hi e0.2 = g.hi t.root_page_id_ := hs
  have hcr : e0.2 ≠ t.root_page_id_ := by
    intro hf
    have := hch.2.2
    rw [hf] at this
    omega
  have hidc : pg.GetPageId = e0.2 := by
    obtain ⟨pg1, q1, q2⟩ := (h.node _ hch.1).page
    rw [hc] at q1
    injection q1 with q1
    rw [q1]; exact q2
  have hsb : ∀ q, g.S q → SameBody t t1 q := by
    intro q hq
    by_cases hqc : q = e0.2
    · rw [hqc]
      exact SameBody.body_of_setParent _ hc hidc hc1
    · obtain ⟨pg1, q1, q2⟩ := (h.node q hq).page
      exact SameBody.of_eq q1 q2 (hoth q hqc)
  have hleaf : ∀ q, g.S q → (IsLeaf t q ↔ IsLeaf t1 q) := by
    intro q hq
    by_cases hqc : q = e0.2
    · rw [hqc]
      exact IsLeaf.of_setParent _ hc hc1
    · unfold IsLeaf
      rw [hoth q hqc]
  have hkv : ∀ q, g.S q → q ≠ t.root_page_id_ → q ≠ e0.2 →
      KidView t g g.hi t1 (dropGhost g t.root_page_id_) (dropGhost g t.root_page_id_).hi q :=
    fun q hq hqr hqc => ⟨⟨hq, hqr⟩, parentOf_congr (hoth q hqc), rfl, rfl, rfl⟩
  have hnv : ∀ q, g.S q → q ≠ t.root_page_id_ →
      NextView t g t1 (dropGhost g t.root_page_id_) q :=
    fun q hq hqr => ⟨⟨hq, hqr⟩, rfl, (hleaf q hq).1⟩
  have hnext_ne : ∀ q l b, g.S q → t.pages q = some (.leaf l) → g.hi q = some b →
      l.next_page_id_ ≠ t.root_page_id_ := by
    intro q l b hq hl hb hf
    obtain ⟨_, ⟨l2, hl2⟩, _⟩ := ((h.node q hq).leaf l hl).next b hb
    rw [hf, hip] at hl2
    cases hl2
  have hpc : parentOf t1 e0.2 = INVALID_PAGE_ID := parentOf_setParent _ hc1
  refine ⟨by rw [hnext]; exact h.next_nonneg, ?_, ?_, ?_, ?_⟩
  · intro q pg1 hq
    rw [hnext]
    by_cases hqc : q = e0.2
    · rw [hqc]; exact InvG.lt_next h hch.1
    · rw [hoth q hqc] at hq
      exact h.store_lt q pg1 hq
  · intro _
    rw [hroot]
    exact ⟨⟨hch.1, hcr⟩, hlo.trans r2, hhi.trans r3, hpc⟩
  · intro q hq
    obtain ⟨hq0, hqr⟩ := hq
    by_cases hqc : q = e0.2
    · rw [hqc]
      refine (h.node _ hch.1).transfer_node t1 _ _ _ (hsb _ hch.1) (by rw [hnext]) hlm rfl rfl rfl
        ?_ ?_ ?_
      · intro ip2 hip2 x hx
        have hcx := ((h.node _ hch.1).kids ip2 hip2).child_of_mem x hx
        refine hkv x.2 hcx.1 ?_ ?_
        · intro hf
          have h1 := hcx.2.2
          have h2 := hch.2.2
          rw [hf] at h1
          omega
        · intro hf
          have h1 := hcx.2.2
          rw [hf] at h1
          omega
      · intro l b hl hb
        have := ((h.node _ hch.1).leaf l hl).next b hb
        exact hnv _ this.1 (hnext_ne _ l b hch.1 hl hb)
      · intro _
        exact ⟨fun _ => hroot.symm, fun hf => absurd hpc hf⟩
    · refine InvG.frame h t1 (dropGhost g t.root_page_id_) (dropGhost g t.root_page_id_).hi
        (fun _ => False) (fun c => c = t.root_page_id_ ∨ c = e0.2)
        (fun c => c = t.root_page_id_ ∨ c = e0.2) (fun c => c = t.root_page_id_)
        (by rw [hnext]) hlm (Or.inr (Or.inl rfl)) ?_ ?_ ?_ ?_ ?_ ?_ ?_ q ⟨hq0, hqr⟩ ?_
      · intro c hc0 hX
        have hcr2 : c ≠ t.root_page_id_ := fun hf => hX (Or.inl hf)
        have hcc : c ≠ e0.2 := fun hf => hX (Or.inr hf)
        exact ⟨hoth c hcc, ⟨hc0, hcr2⟩, rfl, rfl, rfl, rfl, fun hd => hd⟩
      · intro c hc0 _
        exact hc0.1
      · intro c _ hX hV
        exact absurd hX hV
      · intro c hc0 _ hV
        exact hnv c hc0 hV
      · intro p ip2 hp hX hip2 x hx hV
        have hcx := ((h.node p hp).kids ip2 hip2).child_of_mem x hx
        rcases hV with hV | hV
        · have := hcx.2.1
          rw [hV, r4] at this
          exact InvG.ne_invalid h hp this.symm
        · have := hcx.2.1
          rw [hV, hch.2.1] at this
          exact hX (Or.inl this.symm)
      · intro p l b hp _ hl hb hV
        exact hnext_ne p l b hp hl hb hV
      · intro c hc0 hX hd h0 hXP
        obtain ⟨u1, ip2, u2, u3⟩ := ((h.node c hc0).up hd).inner h0
        rcases hXP with hXP | hXP
        · rw [hXP, hip] at u2
          injection u2 with u2
          injection u2 with u2
          subst u2
          rw [harr] at u3
          simp only [List.map_cons, List.map_nil, List.mem_singleton] at u3
          exact absurd (Or.inr u3) hX
        · rw [hXP] at u1 u2 ⊢
          obtain ⟨pg1, q1, _⟩ := (hsb _ u1).id
          refine ⟨⟨u1, hcr⟩, ?_⟩
          cases pg1 with
          | leaf l1 =>
            obtain ⟨l, hl, _⟩ := (hsb _ u1).leaf l1 q1
            rw [u2] at hl
            cases hl
          | internal ip3 =>
            obtain ⟨ip0, hip0, e1⟩ := (hsb _ u1).internal ip3 q1
            rw [u2] at hip0
            injection hip0 with hip0
            injection hip0 with hip0
            subst hip0
            exact ⟨ip3, q1, by rw [e1]; exact u3⟩
      · intro hX
        rcases hX with hX | hX
        · exact hqr hX
        · exact hqc hX
  · intro c d x hc0 hd lc ld c1 c2 d1 d2
    exact h.disj c d x hc0.1 hd.1 ((hleaf c hc0.1).2 lc) ((hleaf d hd.1).2 ld) c1 c2 d1 d2

/-- The slots of an internal page when the slot `er` behind the slot `ep` is
replaced (or dropped): the other slots stay as they are, and what stands
behind `ep` now has to continue from the new upper bound of the child of
`ep`. -/
theorem KidsOK.replace_after {t : BPlusTree} {g : Ghost} {P : page_id_t}
    {A B : List (KeyType × page_id_t)} {ep er : KeyType × page_id_t}
    (K : KidsOK t g g.hi P (A ++ ep :: er :: B)) (t1 : BPlusTree) (g1 : Ghost)
    (newtail : List (KeyType × page_id_t))
    (hht : g1.ht P = g.ht P) (hlo : g1.lo P = g.lo P) (hhi : g1.hi P = g.hi P)
    (hv : ∀ x, x ∈ A ∨ x ∈ B → KidView t g g.hi t1 g1 g1.hi x.2)
    (hep : IsChild t1 g1 P ep.2) (hlop : g1.lo ep.2 = g.lo ep.2)
    (hmid : SlotsK t1 g1 g1.hi P (g.hi er.2) B (g.hi P) →
      SlotsK t1 g1 g1.hi P (g1.hi ep.2) newtail (g.hi P)) :
    KidsOK t1 g1 g1.hi P (A ++ ep :: newtail) := by
  obtain ⟨e0, rest, harr, hc0, hl0, hs⟩ := K
  cases A with
  | nil =>
    simp only [List.nil_append] at harr ⊢
    injection harr with a1 a2
    subst a1
    subst a2
    obtain ⟨_, _, _, hB⟩ := hs
    have hB1 := hB.transfer_slots hht (fun x hx => hv x (Or.inr hx))
    exact ⟨ep, newtail, rfl, hep, by rw [hlop, hlo]; exact hl0, by rw [hhi]; exact hmid hB1⟩
  | cons a A1 =>
    simp only [List.cons_append] at harr ⊢
    injection harr with a1 a2
    subst a1
    subst a2
    obtain ⟨m1, sA, sT⟩ := SlotsK.append.1 hs
    obtain ⟨hm1, _, hloep, sT2⟩ := sT
    obtain ⟨_, _, _, hB⟩ := sT2
    have hB1 := hB.transfer_slots hht (fun x hx => hv x (Or.inr hx))
    have hva := hv a (Or.inl (List.mem_cons_self _ _))
    refine ⟨a, A1 ++ ep :: newtail, rfl, hc0.transfer_child hht hva, by rw [hva.lo, hlo]; exact hl0, ?_⟩
    rw [hva.eh, hhi]
    refine SlotsK.append.2 ⟨m1, sA.transfer_slots hht
      (fun x hx => hv x (Or.inl (List.mem_cons_of_mem _ hx))), hm1, hep, ?_, hmid hB1⟩
    rw [hlop]; exact hloep

/-- In the slots `A ++ ep :: er :: B` of an internal page of the tree the
children are distinct, and the children of `ep` and `er` are neighbours in
the key order. -/
theorem KidsOK.neighbours {t : BPlusTree} {g : Ghost} {P : page_id_t}
    {A B : List (KeyType × page_id_t)} {ep er : KeyType × page_id_t}
    (R : ∀ c, g.S c → ltRange (g.lo c) (g.hi c))
    (K : KidsOK t g g.hi P (A ++ ep :: er :: B)) :
    IsChild t g P ep.2 ∧ IsChild t g P er.2 ∧ g.hi ep.2 = some er.1 ∧ g.lo er.2 = some er.1 ∧
    ep.2 ≠ er.2 ∧ (∀ x, x ∈ A ∨ x ∈ B → x.2 ≠ ep.2 ∧ x.2 ≠ er.2) ∧
    SlotsK t g g.hi P (g.hi er.2) B (g.hi P) := by
  have hnd := K.nodup R
  obtain ⟨g1, g2⟩ := getElem?_after A ep er B
  obtain ⟨k1, _, _, k4, _⟩ := K.get_kid A.length ep g1
  obtain ⟨j1, _, j3, _, j5⟩ := K.get_kid (A.length + 1) er g2
  have hne : ep.2 ≠ er.2 := by
    intro hf
    have := K.index_unique R g1 g2 hf
    omega
  have hchain : SlotsK t g g.hi P (g.hi er.2) B (g.hi P) := by
    obtain ⟨e0, rest, harr, _, _, hs⟩ := K
    cases A with
    | nil =>
      simp only [List.nil_append] at harr
      injection harr with a1 a2
      subst a2
      exact hs.2.2.2
    | cons a A1 =>
      simp only [List.cons_append] at harr
      injection harr with a1 a2
      subst a2
      obtain ⟨m1, _, sT⟩ := SlotsK.append.1 hs
      exact sT.2.2.2.2.2.2
  refine ⟨k1, j1, k4 er g2, j3 (by omega), hne, ?_, hchain⟩
  intro x hx
  rw [List.map_append, List.map_cons, List.map_cons] at hnd
  have h1 := List.nodup_append.1 hnd
  have h2 := List.nodup_cons.1 h1.2.1
  have h3 := List.nodup_cons.1 h2.2
  rcases hx with hx | hx
  · have hxm : x.2 ∈ A.map Prod.snd := List.mem_map.2 ⟨x, hx, rfl⟩
    constructor
    · intro hf
      exact h1.2.2 hxm (by rw [hf]; exact List.mem_cons_self _ _)
    · intro hf
      exact h1.2.2 hxm (by rw [hf]; exact List.mem_cons_of_mem _ (List.mem_cons_self _ _))
  · have hxm : x.2 ∈ B.map Prod.snd := List.mem_map.2 ⟨x, hx, rfl⟩
    constructor
    · intro hf
      exact h2.1 (by rw [← hf]; exact List.mem_cons_of_mem _ hxm)
    · intro hf
      exact h3.1 (by rw [← hf]; exact hxm)

/-- Two leaves of the tree whose key ranges start at the same key are one
leaf. -/
theorem Inv.leaf_of_lo {t : BPlusTree} {g : Ghost} (h : Inv t g) {c d : page_id_t}
    {b : KeyType} (hc : g.S c) (hd : g.S d) (lc : IsLeaf t c) (ld : IsLeaf t d)
    (h1 : g.lo c = some b) (h2 : g.lo d = some b) : c = d := by
  refine h.disj c d b hc hd lc ld ?_ ?_ ?_ ?_
  · intro a ha
    rw [h1] at ha
    injection ha with ha
    exact le_of_eq ha.symm
  · intro a ha
    exact (h.node c hc).range b a h1 ha
  · intro a ha
    rw [h2] at ha
    injection ha with ha
    exact le_of_eq ha.symm
  · intro a ha
    exact (h.node d hd).range b a h2 ha

/-- Two leaves of the tree whose key ranges end at the same key are one
leaf. -/
theorem Inv.leaf_of_hi {t : BPlusTree} {g : Ghost} (h : Inv t g) {c d : page_id_t}
    {b : KeyType} (hc : g.S c) (hd : g.S d) (lc : IsLeaf t c) (ld : IsLeaf t d)
    (h1 : g.hi c = some b) (h2 : g.hi d = some b) : c = d := by
  refine h.disj c d (b - 1) hc hd lc ld ?_ ?_ ?_ ?_
  · intro a ha
    have := (h.node c hc).range a b ha h1
    exact Int.le_sub_one_of_lt this
  · intro a ha
    rw [h1] at ha
    injection ha with ha
    rw [← ha]
    exact Int.sub_one_lt_of_le (le_refl _)
  · intro a ha
    have := (h.node d hd).range a b ha h2
    exact Int.le_sub_one_of_lt this
  · intro a ha
    rw [h2] at ha
    injection ha with ha
    rw [← ha]
    exact Int.sub_one_lt_of_le (le_refl _)

theorem map_snd_replace (A B : List (KeyType × page_id_t)) (ep er : KeyType × page_id_t)
    (k : KeyType) :
    (A ++ ep :: (k, er.2) :: B).map Prod.snd = (A ++ ep :: er :: B).map Prod.snd := by
  simp only [List.map_append, List.map_cons]

/-- A leaf takes the first entry of its right sibling; the parent gets the
key of the next entry as the new separator. -/
theorem Inv.borrow_leaf {t : BPlusTree} {g : Ghost} (h : Inv t g) {P p r : page_id_t}
    {ipP : InternalPage} {lp lr : LeafPage} {A B : List (KeyType × page_id_t)}
    {ep er : KeyType × page_id_t}
    (hP : g.S P) (hPpg : t.pages P = some (.internal ipP))
    (harr : ipP.array_ = A ++ ep :: er :: B) (hep : ep.2 = p) (her : er.2 = r)
    (hp : t.pages p = some (.leaf lp)) (hr : t.pages r = some (.leaf lr))
    {e first : KeyType × ValueType} {tl : List (KeyType × ValueType)}
    (hlr : lr.array_ = e :: first :: tl)
    (t1 : BPlusTree) (lp1 lr1 : LeafPage) (ip1 : InternalPage)
    (hroot : t1.root_page_id_ = t.root_page_id_)
    (hnext : t1.next_page_id_ = t.next_page_id_)
    (hlm : t1.leaf_max_size_ = t.leaf_max_size_)
    (hp1 : t1.pages p = some (.leaf lp1)) (hr1 : t1.pages r = some (.leaf lr1))
    (hP1 : t1.pages P = some (.internal ip1))
    (hoth : ∀ q, q ≠ p → q ≠ r → q ≠ P → t1.pages q = t.pages q)
    (a1 : lp1.page_id_ = lp.page_id_) (a2 : lp1.parent_page_id_ = lp.parent_page_id_)
    (a3 : lp1.max_size_ = lp.max_size_) (a4 : lp1.next_page_id_ = lp.next_page_id_)
    (a5 : lp1.array_ = lp.array_ ++ [e])
    (b1 : lr1.page_id_ = lr.page_id_) (b2 : lr1.parent_page_id_ = lr.parent_page_id_)
    (b3 : lr1.max_size_ = lr.max_size_) (b4 : lr1.next_page_id_ = lr.next_page_id_)
    (b5 : lr1.array_ = first :: tl)
    (c1 : ip1.page_id_ = ipP.page_id_) (c2 : ip1.parent_page_id_ = ipP.parent_page_id_)
    (c5 : ip1.array_ = A ++ ep :: (first.1, r) :: B) :
    Inv t1 (borrowGhost g p r first.1) := by
  have R := h.ranges
  have nP := h.node P hP
  have K := nP.kids ipP hPpg
  rw [harr] at K
  obtain ⟨k1, k2, k3, k4, k5, k6, k7⟩ := K.neighbours R
  rw [hep] at k1 k3 k5
  rw [her] at k2 k4 k5 k7
  have hpS := k1.1
  have hrS := k2.1
  have npn := h.node p hpS
  have nrn := h.node r hrS
  have op := npn.leaf lp hp
  have orr := nrn.leaf lr hr
  have hpP : p ≠ P := by
    intro hf
    have := k1.2.2
    rw [hf] at this
    omega
  have hrP : r ≠ P := by
    intro hf
    have := k2.2.2
    rw [hf] at this
    omega
  have hidp : ∀ q pg, g.S q → t.pages q = some pg → pg.GetPageId = q := by
    intro q pg hq hpg
    obtain ⟨pg1, q1, q2⟩ := (h.node q hq).page
    rw [hpg] at q1
    injection q1 with q1
    rw [q1]; exact q2
  -- the leaf after `p` is `r`
  have hnx : lp.next_page_id_ = r := by
    obtain ⟨n1, n2, n3⟩ := op.next er.1 k3
    exact h.leaf_of_lo n1 hrS n2 ⟨lr, hr⟩ n3 k4
  -- the keys
  have hsr := orr.sorted
  rw [hlr] at hsr
  have he_lo : er.1 ≤ e.1 := (orr.inside e (by rw [hlr]; exact List.mem_cons_self _ _)).1 er.1 k4
  have he_first : e.1 < first.1 :=
    (List.pairwise_cons.1 hsr).1 first (List.mem_cons_self _ _)
  have hfirst_hi : ltHi (g.hi r) first.1 :=
    (orr.inside first (by rw [hlr]; exact List.mem_cons_of_mem _ (List.mem_cons_self _ _))).2
  -- the bookkeeping
  have glo : ∀ q, q ≠ r → (borrowGhost g p r first.1).lo q = g.lo q := by
    intro q hq
    show (if q = r then some first.1 else g.lo q) = g.lo q
    rw [if_neg hq]
  have ghi : ∀ q, q ≠ p → (borrowGhost g p r first.1).hi q = g.hi q := by
    intro q hq
    show (if q = p then some first.1 else g.hi q) = g.hi q
    rw [if_neg hq]
  have glor : (borrowGhost g p r first.1).lo r = some first.1 := by
    show (if r = r then some first.1 else g.lo r) = some first.1
    rw [if_pos rfl]
  have ghip : (borrowGhost g p r first.1).hi p = some first.1 := by
    show (if p = p then some first.1 else g.hi p) = some first.1
    rw [if_pos rfl]
  have hleaf : ∀ q, g.S q → (IsLeaf t q ↔ IsLeaf t1 q) := by
    intro q _
    by_cases hqp : q = p
    · rw [hqp]; exact ⟨fun _ => ⟨lp1, hp1⟩, fun _ => ⟨lp, hp⟩⟩
    · by_cases hqr : q = r
      · rw [hqr]; exact ⟨fun _ => ⟨lr1, hr1⟩, fun _ => ⟨lr, hr⟩⟩
      · by_cases hqP : q = P
        · rw [hqP]
          constructor
          · rintro ⟨l, hl⟩
            rw [hPpg] at hl
            cases hl
          · rintro ⟨l, hl⟩
            rw [hP1] at hl
            cases hl
        · unfold IsLeaf
          rw [hoth q hqp hqr hqP]
  have hpar : ∀ q, parentOf t1 q = parentOf t q := by
    intro q
    by_cases hqp : q = p
    · rw [hqp, parentOf_of_pages hp1, parentOf_of_pages hp]; exact a2
    · by_cases hqr : q = r
      · rw [hqr, parentOf_of_pages hr1, parentOf_of_pages hr]; exact b2
      · by_cases hqP : q = P
        · rw [hqP, parentOf_of_pages hP1, parentOf_of_pages hPpg]; exact c2
        · exact parentOf_congr (hoth q hqp hqr hqP)
  have hkv : ∀ q, g.S q → q ≠ p → q ≠ r →
      KidView t g g.hi t1 (borrowGhost g p r first.1) (borrowGhost g p r first.1).hi q :=
    fun q hq hqp hqr => ⟨hq, hpar q, rfl, glo q hqr, ghi q hqp⟩
  have hnv : ∀ q, g.S q → q ≠ r → NextView t g t1 (borrowGhost g p r first.1) q :=
    fun q hq hqr => ⟨hq, glo q hqr, (hleaf q hq).1⟩
  have hmemP : ∀ c, c ∈ ipP.array_.map Prod.snd → c ∈ ip1.array_.map Prod.snd := by
    intro c hc
    rw [c5, ← her, map_snd_replace, ← harr]
    exact hc
  have hup : ∀ q, g.S q → UpOK t1 (borrowGhost g p r first.1) q := by
    intro q hq
    have u := (h.node q hq).up (fun hf => hf)
    refine ⟨?_, ?_⟩
    · rw [hpar, hroot]; exact u.top
    · rw [hpar]
      intro h0
      obtain ⟨u1, ip2, u2, u3⟩ := u.inner h0
      refine ⟨u1, ?_⟩
      by_cases hqP : parentOf t q = P
      · rw [hqP] at u2 ⊢
        rw [hPpg] at u2
        injection u2 with u2
        injection u2 with u2
        subst u2
        exact ⟨ip1, hP1, hmemP _ u3⟩
      · have hq1 : parentOf t q ≠ p := by
          intro hf
          rw [hf, hp] at u2
          cases u2
        have hq2 : parentOf t q ≠ r := by
          intro hf
          rw [hf, hr] at u2
          cases u2
        exact ⟨ip2, by rw [hoth _ hq1 hq2 hqP]; exact u2, u3⟩
  have hlo_p : ∀ a, g.lo p = some a → a < er.1 := fun a ha => npn.range a er.1 ha k3
  refine ⟨by rw [hnext]; exact h.next_nonneg, ?_, ?_, ?_, ?_⟩
  · intro q pg hq
    rw [hnext]
    by_cases hqp : q = p
    · rw [hqp]; exact InvG.lt_next h hpS
    · by_cases hqr : q = r
      · rw [hqr]; exact InvG.lt_next h hrS
      · by_cases hqP : q = P
        · rw [hqP]; exact InvG.lt_next h hP
        · rw [hoth q hqp hqr hqP] at hq
          exact h.store_lt q pg hq
  · intro hne
    have hne0 : t.IsEmpty = false := by
      unfold IsEmpty at hne ⊢
      rw [hroot] at hne
      exact hne
    obtain ⟨r1, r2, r3, r4⟩ := h.root_ok hne0
    rw [hroot]
    have hrr : t.root_page_id_ ≠ r := by
      intro hf
      rw [hf, k4] at r2
      cases r2
    have hrp : t.root_page_id_ ≠ p := by
      intro hf
      rw [hf, k3] at r3
      cases r3
    exact ⟨r1, (glo _ hrr).trans r2, (ghi _ hrp).trans r3, (hpar _).trans r4⟩
  · intro q hq
    have hq0 : g.S q := hq
    by_cases hqp : q = p
    · -- the leaf that borrows
      rw [hqp]
      refine ⟨⟨_, hp1, a1.trans (hidp _ _ hpS hp)⟩, ?_, by rw [hnext]; exact npn.ht_lt, ?_, ?_,
        fun _ => hup p hpS⟩
      · rw [glo p k5, ghip]
        intro a b ha hb
        injection hb with hb
        have := hlo_p a ha
        linarith
      · intro l hl
        rw [hp1] at hl
        injection hl with hl
        injection hl with hl
        subst hl
        refine ⟨(a3.trans op.max_size).trans hlm.symm, ?_, ?_, ?_, ?_⟩
        · rw [a5, List.pairwise_append]
          refine ⟨op.sorted, List.pairwise_singleton _ _, ?_⟩
          intro x hx y hy
          rw [List.mem_singleton] at hy
          rw [hy]
          have := (op.inside x hx).2 er.1 k3
          linarith
        · intro x hx
          rw [a5, List.mem_append, List.mem_singleton] at hx
          rw [glo p k5, ghip]
          rcases hx with hx | hx
          · refine ⟨(op.inside x hx).1, ?_⟩
            intro b hb
            injection hb with hb
            have := (op.inside x hx).2 er.1 k3
            linarith
          · rw [hx]
            refine ⟨?_, ?_⟩
            · intro a ha
              have := hlo_p a ha
              linarith
            · intro b hb
              injection hb with hb
              linarith
        · rw [ghip]
          intro hf
          cases hf
        · rw [ghip, a4, hnx]
          intro b hb
          exact ⟨hrS, ⟨lr1, hr1⟩, by rw [glor, hb]⟩
      · intro ip2 hip2
        rw [hp1] at hip2
        cases hip2
    · by_cases hqr : q = r
      · -- the sibling
        rw [hqr]
        refine ⟨⟨_, hr1, b1.trans (hidp _ _ hrS hr)⟩, ?_, by rw [hnext]; exact nrn.ht_lt, ?_, ?_,
          fun _ => hup r hrS⟩
        · rw [glor, ghi r (Ne.symm k5)]
          intro a b ha hb
          injection ha with ha
          rw [← ha]
          exact hfirst_hi b hb
        · intro l hl
          rw [hr1] at hl
          injection hl with hl
          injection hl with hl
          subst hl
          refine ⟨(b3.trans orr.max_size).trans hlm.symm, ?_, ?_, ?_, ?_⟩
          · rw [b5]
            exact (List.pairwise_cons.1 hsr).2
          · intro x hx
            rw [b5] at hx
            rw [glor, ghi r (Ne.symm k5)]
            refine ⟨?_, (orr.inside x (by rw [hlr]; exact List.mem_cons_of_mem _ hx)).2⟩
            intro a ha
            injection ha with ha
            rw [← ha]
            rcases List.mem_cons.1 hx with hx | hx
            · rw [hx]
            · exact le_of_lt ((List.pairwise_cons.1 (List.pairwise_cons.1 hsr).2).1 x hx)
          · rw [ghi r (Ne.symm k5), b4]; exact orr.last
          · rw [ghi r (Ne.symm k5), b4]
            intro b hb
            obtain ⟨n1, n2, n3⟩ := orr.next b hb
            have hne : lr.next_page_id_ ≠ r := by
              intro hf
              rw [hf, k4] at n3
              injection n3 with n3
              have := nrn.range er.1 b k4 hb
              linarith
            exact ⟨n1, (hleaf _ n1).1 n2, (glo _ hne).trans n3⟩
        · intro ip2 hip2
          rw [hr1] at hip2
          cases hip2
      · by_cases hqP : q = P
        · -- the parent
          rw [hqP]
          refine ⟨⟨_, hP1, c1.trans (hidp _ _ hP hPpg)⟩, ?_, by rw [hnext]; exact nP.ht_lt, ?_, ?_,
            fun _ => hup P hP⟩
          · rw [glo P (Ne.symm hrP), ghi P (Ne.symm hpP)]; exact nP.range
          · intro l hl
            rw [hP1] at hl
            cases hl
          · intro ip2 hip2
            rw [hP1] at hip2
            injection hip2 with hip2
            injection hip2 with hip2
            subst hip2
            rw [c5]
            refine K.replace_after t1 _ _ rfl (glo P (Ne.symm hrP)) (ghi P (Ne.symm hpP)) ?_ ?_
              ?_ ?_
            · intro x hx
              have hxS : g.S x.2 := by
                rcases hx with hx | hx
                · exact (K.child_of_mem x (List.mem_append.2 (Or.inl hx))).1
                · exact (K.child_of_mem x (List.mem_append.2
                    (Or.inr (List.mem_cons_of_mem _ (List.mem_cons_of_mem _ hx))))).1
              have := k6 x hx
              rw [hep, her] at this
              exact hkv x.2 hxS this.1 this.2
            · rw [hep]
              exact ⟨hpS, (hpar p).trans k1.2.1, k1.2.2⟩
            · rw [hep]; exact glo p k5
            · intro hB
              rw [hep, ghip]
              refine ⟨rfl, ⟨hrS, (hpar r).trans k2.2.1, k2.2.2⟩, glor, ?_⟩
              show SlotsK _ _ _ _ ((borrowGhost g p r first.1).hi r) _ _
              rw [ghi r (Ne.symm k5)]
              rw [her] at hB
              exact hB
        · -- every other page
          refine InvG.frame h t1 (borrowGhost g p r first.1) (borrowGhost g p r first.1).hi
            (fun _ => False) (fun c => c = p ∨ c = r ∨ c = P) (fun c => c = p ∨ c = r)
            (fun c => c = r) (by rw [hnext]) hlm (Or.inl hroot) ?_ ?_ ?_ ?_ ?_ ?_ ?_ q hq ?_
          · intro c hc hX
            have hcp : c ≠ p := fun hf => hX (Or.inl hf)
            have hcr : c ≠ r := fun hf => hX (Or.inr (Or.inl hf))
            have hcP : c ≠ P := fun hf => hX (Or.inr (Or.inr hf))
            exact ⟨hoth c hcp hcr hcP, hc, rfl, glo c hcr, ghi c hcp, ghi c hcp, fun hd => hd⟩
          · intro c hc _; exact hc
          · intro c hc _ hV
            exact hkv c hc (fun hf => hV (Or.inl hf)) (fun hf => hV (Or.inr hf))
          · intro c hc _ hV
            exact hnv c hc hV
          · intro q2 ip2 hq2 hX hip2 x hx hV
            have hcx := ((h.node q2 hq2).kids ip2 hip2).child_of_mem x hx
            have : parentOf t x.2 = P := by
              rcases hV with hV | hV
              · rw [hV]; exact k1.2.1
              · rw [hV]; exact k2.2.1
            rw [hcx.2.1] at this
            exact hX (Or.inr (Or.inr this))
          · intro q2 l b hq2 hX hl hb hV
            obtain ⟨n1, n2, n3⟩ := ((h.node q2 hq2).leaf l hl).next b hb
            have hV : l.next_page_id_ = r := hV
            rw [hV, k4] at n3
            injection n3 with n3
            rw [← n3] at hb
            exact hX (Or.inl (h.leaf_of_hi hq2 hpS ⟨l, hl⟩ ⟨lp, hp⟩ hb k3))
          · intro c hc hX _ h0 _
            have hh := (hup c hc).inner (by rw [hpar]; exact h0)
            rw [hpar] at hh
            exact hh
          · intro hX
            rcases hX with hX | hX | hX
            · exact hqp hX
            · exact hqr hX
            · exact hqP hX
  · -- the key ranges of the leaves stay apart
    have key : ∀ q x, g.S q → IsLeaf t1 q →
        geLo ((borrowGhost g p r first.1).lo q) x →
        ltHi ((borrowGhost g p r first.1).hi q) x →
        (q = p ∧ x < first.1 ∧ ((geLo (g.lo p) x ∧ ltHi (g.hi p) x) ∨
          (geLo (g.lo r) x ∧ ltHi (g.hi r) x))) ∨
        (q = r ∧ first.1 ≤ x ∧ geLo (g.lo r) x ∧ ltHi (g.hi r) x) ∨
        (q ≠ p ∧ q ≠ r ∧ IsLeaf t q ∧ geLo (g.lo q) x ∧ ltHi (g.hi q) x) := by
      intro q x hq lq h1 h2
      by_cases hqp : q = p
      · rw [hqp] at h1 h2
        rw [glo p k5] at h1
        rw [ghip] at h2
        have hx := h2 first.1 rfl
        refine Or.inl ⟨hqp, hx, ?_⟩
        by_cases hxe : x < er.1
        · left
          refine ⟨h1, ?_⟩
          intro b hb
          rw [k3] at hb
          injection hb with hb
          linarith
        · right
          refine ⟨?_, ?_⟩
          · intro a ha
            rw [k4] at ha
            injection ha with ha
            linarith
          · intro b hb
            have := hfirst_hi b hb
            linarith
      · by_cases hqr : q = r
        · rw [hqr] at h1 h2
          rw [glor] at h1
          rw [ghi r (Ne.symm k5)] at h2
          have hx := h1 first.1 rfl
          refine Or.inr (Or.inl ⟨hqr, hx, ?_, h2⟩)
          intro a ha
          rw [k4] at ha
          injection ha with ha
          linarith
        · rw [glo q hqr] at h1
          rw [ghi q hqp] at h2
          exact Or.inr (Or.inr ⟨hqp, hqr, (hleaf q hq).2 lq, h1, h2⟩)
    intro c d x hc hd lc ld e1 e2 d1 d2
    rcases key c x hc lc e1 e2 with ⟨f1, f2, f3⟩ | ⟨f1, f2, f3, f4⟩ | ⟨f1, f2, f3, f4, f5⟩
    · rcases key d x hd ld d1 d2 with ⟨g1, g2, g3⟩ | ⟨g1, g2, g3, g4⟩ | ⟨g1, g2, g3, g4, g5⟩
      · rw [f1, g1]
      · linarith
      · rcases f3 with f3 | f3
        · exact absurd (h.disj p d x hpS hd ⟨lp, hp⟩ g3 f3.1 f3.2 g4 g5) (Ne.symm g1)
        · exact absurd (h.disj r d x hrS hd ⟨lr, hr⟩ g3 f3.1 f3.2 g4 g5) (Ne.symm g2)
    · rcases key d x hd ld d1 d2 with ⟨g1, g2, g3⟩ | ⟨g1, g2, g3, g4⟩ | ⟨g1, g2, g3, g4, g5⟩
      · linarith
      · rw [f1, g1]
      · exact absurd (h.disj r d x hrS hd ⟨lr, hr⟩ g3 f3 f4 g4 g5) (Ne.symm g2)
    · rcases key d x hd ld d1 d2 with ⟨g1, g2, g3⟩ | ⟨g1, g2, g3, g4⟩ | ⟨g1, g2, g3, g4, g5⟩
      · rcases g3 with g3 | g3
        · exact absurd (h.disj c p x hc hpS f3 ⟨lp, hp⟩ f4 f5 g3.1 g3.2) f1
        · exact absurd (h.disj c r x hc hrS f3 ⟨lr, hr⟩ f4 f5 g3.1 g3.2) f2
      · exact absurd (h.disj c r x hc hrS f3 ⟨lr, hr⟩ f4 f5 g3 g4) f2
      · exact h.disj c d x hc hd f3 g3 f4 f5 g4 g5

theorem mem_map_snd_drop (A B : List (KeyType × page_id_t)) (ep er : KeyType × page_id_t)
    {c : page_id_t} (hc : c ∈ (A ++ ep :: er :: B).map Prod.snd) (hne : c ≠ er.2) :
    c ∈ (A ++ ep :: B).map Prod.snd := by
  simp only [List.map_append, List.map_cons, List.mem_append, List.mem_cons] at hc ⊢
  rcases hc with hc | hc | hc | hc
  · exact Or.inl hc
  · exact Or.inr (Or.inl hc)
  · exact absurd hc hne
  · exact Or.inr (Or.inr hc)

/-- A leaf takes all entries of its right sibling, which leaves the tree. -/
theorem Inv.merge_leaf {t : BPlusTree} {g : Ghost} (h : Inv t g) {P p r : page_id_t}
    {ipP : InternalPage} {lp lr : LeafPage} {A B : List (KeyType × page_id_t)}
    {ep er : KeyType × page_id_t}
    (hP : g.S P) (hPpg : t.pages P = some (.internal ipP))
    (harr : ipP.array_ = A ++ ep :: er :: B) (hep : ep.2 = p) (her : er.2 = r)
    (hp : t.pages p = some (.leaf lp)) (hr : t.pages r = some (.leaf lr))
    (t1 : BPlusTree) (lp1 : LeafPage) (ip1 : InternalPage)
    (hroot : t1.root_page_id_ = t.root_page_id_)
    (hnext : t1.next_page_id_ = t.next_page_id_)
    (hlm : t1.leaf_max_size_ = t.leaf_max_size_)
    (hp1 : t1.pages p = some (.leaf lp1))
    (hP1 : t1.pages P = some (.internal ip1))
    (hoth : ∀ q, q ≠ p → q ≠ P → t1.pages q = t.pages q)
    (a1 : lp1.page_id_ = lp.page_id_) (a2 : lp1.parent_page_id_ = lp.parent_page_id_)
    (a3 : lp1.max_size_ = lp.max_size_) (a4 : lp1.next_page_id_ = lr.next_page_id_)
    (a5 : lp1.array_ = lp.array_ ++ lr.array_)
    (c1 : ip1.page_id_ = ipP.page_id_) (c2 : ip1.parent_page_id_ = ipP.parent_page_id_)
    (c5 : ip1.array_ = A ++ ep :: B) :
    Inv t1 (mergeGhost g p r) := by
  have R := h.ranges
  have nP := h.node P hP
  have K := nP.kids ipP hPpg
  rw [harr] at K
  obtain ⟨k1, k2, k3, k4, k5, k6, k7⟩ := K.neighbours R
  rw [hep] at k1 k3 k5
  rw [her] at k2 k4 k5 k7
  have hpS := k1.1
  have hrS := k2.1
  have npn := h.node p hpS
  have nrn := h.node r hrS
  have op := npn.leaf lp hp
  have orr := nrn.leaf lr hr
  have hpP : p ≠ P := by
    intro hf
    have := k1.2.2
    rw [hf] at this
    omega
  have hrP : r ≠ P := by
    intro hf
    have := k2.2.2
    rw [hf] at this
    omega
  have hidp : ∀ q pg, g.S q → t.pages q = some pg → pg.GetPageId = q := by
    intro q pg hq hpg
    obtain ⟨pg1, q1, q2⟩ := (h.node q hq).page
    rw [hpg] at q1
    injection q1 with q1
    rw [q1]; exact q2
  have ghi : ∀ q, q ≠ p → (mergeGhost g p r).hi q = g.hi q := by
    intro q hq
    show (if q = p then g.hi r else g.hi q) = g.hi q
    rw [if_neg hq]
  have ghip : (mergeGhost g p r).hi p = g.hi r := by
    show (if p = p then g.hi r else g.hi p) = g.hi r
    rw [if_pos rfl]
  have hleaf : ∀ q, g.S q → q ≠ r → (IsLeaf t q ↔ IsLeaf t1 q) := by
    intro q _ _
    by_cases hqp : q = p
    · rw [hqp]; exact ⟨fun _ => ⟨lp1, hp1⟩, fun _ => ⟨lp, hp⟩⟩
    · by_cases hqP : q = P
      · rw [hqP]
        constructor
        · rintro ⟨l, hl⟩
          rw [hPpg] at hl
          cases hl
        · rintro ⟨l, hl⟩
          rw [hP1] at hl
          cases hl
      · unfold IsLeaf
        rw [hoth q hqp hqP]
  have hpar : ∀ q, parentOf t1 q = parentOf t q := by
    intro q
    by_cases hqp : q = p
    · rw [hqp, parentOf_of_pages hp1, parentOf_of_pages hp]; exact a2
    · by_cases hqP : q = P
      · rw [hqP, parentOf_of_pages hP1, parentOf_of_pages hPpg]; exact c2
      · exact parentOf_congr (hoth q hqp hqP)
  have hkv : ∀ q, g.S q → q ≠ p → q ≠ r →
      KidView t g g.hi t1 (mergeGhost g p r) (mergeGhost g p r).hi q :=
    fun q hq hqp hqr => ⟨⟨hq, hqr⟩, hpar q, rfl, rfl, ghi q hqp⟩
  have hnv : ∀ q, g.S q → q ≠ r → NextView t g t1 (mergeGhost g p r) q :=
    fun q hq hqr => ⟨⟨hq, hqr⟩, rfl, (hleaf q hq hqr).1⟩
  have hmemP : ∀ c, c ≠ r → c ∈ ipP.array_.map Prod.snd → c ∈ ip1.array_.map Prod.snd := by
    intro c hcr hc
    rw [c5]
    rw [harr] at hc
    exact mem_map_snd_drop A B ep er hc (by rw [her]; exact hcr)
  have hup : ∀ q, g.S q → q ≠ r → UpOK t1 (mergeGhost g p r) q := by
    intro q hq hqr
    have u := (h.node q hq).up (fun hf => hf)
    refine ⟨?_, ?_⟩
    · rw [hpar, hroot]; exact u.top
    · rw [hpar]
      intro h0
      obtain ⟨u1, ip2, u2, u3⟩ := u.inner h0
      have hq2 : parentOf t q ≠ r := by
        intro hf
        rw [hf, hr] at u2
        cases u2
      refine ⟨⟨u1, hq2⟩, ?_⟩
      by_cases hqP : parentOf t q = P
      · rw [hqP] at u2 ⊢
        rw [hPpg] at u2
        injection u2 with u2
        injection u2 with u2
        subst u2
        exact ⟨ip1, hP1, hmemP _ hqr u3⟩
      · have hq1 : parentOf t q ≠ p := by
          intro hf
          rw [hf, hp] at u2
          cases u2
        exact ⟨ip2, by rw [hoth _ hq1 hqP]; exact u2, u3⟩
  have hlo_p : ∀ a, g.lo p = some a → a < er.1 := fun a ha => npn.range a er.1 ha k3
  have hnext_ne : ∀ b, g.hi r = some b → lr.next_page_id_ ≠ r := by
    intro b hb hf
    obtain ⟨_, _, n3⟩ := orr.next b hb
    rw [hf, k4] at n3
    injection n3 with n3
    have := nrn.range er.1 b k4 hb
    linarith
  refine ⟨by rw [hnext]; exact h.next_nonneg, ?_, ?_, ?_, ?_⟩
  · intro q pg hq
    rw [hnext]
    by_cases hqp : q = p
    · rw [hqp]; exact InvG.lt_next h hpS
    · by_cases hqP : q = P
      · rw [hqP]; exact InvG.lt_next h hP
      · rw [hoth q hqp hqP] at hq
        exact h.store_lt q pg hq
  · intro hne
    have hne0 : t.IsEmpty = false := by
      unfold IsEmpty at hne ⊢
      rw [hroot] at hne
      exact hne
    obtain ⟨r1, r2, r3, r4⟩ := h.root_ok hne0
    rw [hroot]
    have hrr : t.root_page_id_ ≠ r := by
      intro hf
      rw [hf, k4] at r2
      cases r2
    have hrp : t.root_page_id_ ≠ p := by
      intro hf
      rw [hf, k3] at r3
      cases r3
    exact ⟨⟨r1, hrr⟩, r2, (ghi _ hrp).trans r3, (hpar _).trans r4⟩
  · intro q hq
    obtain ⟨hq0, hqr⟩ := hq
    by_cases hqp : q = p
    · -- the leaf that takes the entries
      rw [hqp]
      refine ⟨⟨_, hp1, a1.trans (hidp _ _ hpS hp)⟩, ?_, by rw [hnext]; exact npn.ht_lt, ?_, ?_,
        fun _ => hup p hpS k5⟩
      · show ltRange (g.lo p) ((mergeGhost g p r).hi p)
        rw [ghip]
        intro a b ha hb
        have h1 := hlo_p a ha
        have h2 := nrn.range er.1 b k4 hb
        linarith
      · intro l hl
        rw [hp1] at hl
        injection hl with hl
        injection hl with hl
        subst hl
        refine ⟨(a3.trans op.max_size).trans hlm.symm, ?_, ?_, ?_, ?_⟩
        · rw [a5, List.pairwise_append]
          refine ⟨op.sorted, orr.sorted, ?_⟩
          intro x hx y hy
          have h1 := (op.inside x hx).2 er.1 k3
          have h2 := (orr.inside y hy).1 er.1 k4
          linarith
        · intro x hx
          rw [a5, List.mem_append] at hx
          show geLo (g.lo p) x.1 ∧ ltHi ((mergeGhost g p r).hi p) x.1
          rw [ghip]
          rcases hx with hx | hx
          · refine ⟨(op.inside x hx).1, ?_⟩
            intro b hb
            have h1 := (op.inside x hx).2 er.1 k3
            have h2 := nrn.range er.1 b k4 hb
            linarith
          · refine ⟨?_, (orr.inside x hx).2⟩
            intro a ha
            have h1 := hlo_p a ha
            have h2 := (orr.inside x hx).1 er.1 k4
            linarith
        · rw [ghip, a4]; exact orr.last
        · rw [ghip, a4]
          intro b hb
          obtain ⟨n1, n2, n3⟩ := orr.next b hb
          exact ⟨⟨n1, hnext_ne b hb⟩, (hleaf _ n1 (hnext_ne b hb)).1 n2, n3⟩
      · intro ip2 hip2
        rw [hp1] at hip2
        cases hip2
    · by_cases hqP : q = P
      · -- the parent
        rw [hqP]
        refine ⟨⟨_, hP1, c1.trans (hidp _ _ hP hPpg)⟩, ?_, by rw [hnext]; exact nP.ht_lt, ?_, ?_,
          fun _ => hup P hP (Ne.symm hrP)⟩
        · show ltRange (g.lo P) ((mergeGhost g p r).hi P)
          rw [ghi P (Ne.symm hpP)]; exact nP.range
        · intro l hl
          rw [hP1] at hl
          cases hl
        · intro ip2 hip2
          rw [hP1] at hip2
          injection hip2 with hip2
          injection hip2 with hip2
          subst hip2
          rw [c5]
          refine K.replace_after t1 _ _ rfl rfl (ghi P (Ne.symm hpP)) ?_ ?_ ?_ ?_
          · intro x hx
            have hxS : g.S x.2 := by
              rcases hx with hx | hx
              · exact (K.child_of_mem x (List.mem_append.2 (Or.inl hx))).1
              · exact (K.child_of_mem x (List.mem_append.2
                  (Or.inr (List.mem_cons_of_mem _ (List.mem_cons_of_mem _ hx))))).1
            have := k6 x hx
            rw [hep, her] at this
            exact hkv x.2 hxS this.1 this.2
          · rw [hep]
            exact ⟨⟨hpS, k5⟩, (hpar p).trans k1.2.1, k1.2.2⟩
          · rfl
          · intro hB
            rw [hep, ghip]
            rw [her] at hB
            exact hB
      · -- every other page
        refine InvG.frame h t1 (mergeGhost g p r) (mergeGhost g p r).hi
          (fun _ => False) (fun c => c = p ∨ c = r ∨ c = P) (fun c => c = p ∨ c = r)
          (fun c => c = r) (by rw [hnext]) hlm (Or.inl hroot) ?_ ?_ ?_ ?_ ?_ ?_ ?_ q
          ⟨hq0, hqr⟩ ?_
        · intro c hc hX
          have hcp : c ≠ p := fun hf => hX (Or.inl hf)
          have hcr : c ≠ r := fun hf => hX (Or.inr (Or.inl hf))
          have hcP : c ≠ P := fun hf => hX (Or.inr (Or.inr hf))
          exact ⟨hoth c hcp hcP, ⟨hc, hcr⟩, rfl, rfl, ghi c hcp, ghi c hcp, fun hd => hd⟩
        · intro c hc _; exact hc.1
        · intro c hc _ hV
          exact hkv c hc (fun hf => hV (Or.inl hf)) (fun hf => hV (Or.inr hf))
        · intro c hc _ hV
          exact hnv c hc hV
        · intro q2 ip2 hq2 hX hip2 x hx hV
          have hcx := ((h.node q2 hq2).kids ip2 hip2).child_of_mem x hx
          have : parentOf t x.2 = P := by
            rcases hV with hV | hV
            · rw [hV]; exact k1.2.1
            · rw [hV]; exact k2.2.1
          rw [hcx.2.1] at this
          exact hX (Or.inr (Or.inr this))
        · intro q2 l b hq2 hX hl hb hV
          obtain ⟨n1, n2, n3⟩ := ((h.node q2 hq2).leaf l hl).next b hb
          have hV : l.next_page_id_ = r := hV
          rw [hV, k4] at n3
          injection n3 with n3
          rw [← n3] at hb
          exact hX (Or.inl (h.leaf_of_hi hq2 hpS ⟨l, hl⟩ ⟨lp, hp⟩ hb k3))
        · intro c hc hX _ h0 _
          have hcr : c ≠ r := fun hf => hX (Or.inr (Or.inl hf))
          have hh := (hup c hc hcr).inner (by rw [hpar]; exact h0)
          rw [hpar] at hh
          exact hh
        · intro hX
          rcases hX with hX | hX | hX
          · exact hqp hX
          · exact hqr hX
          · exact hqP hX
  · -- the key ranges of the leaves stay apart
    have key : ∀ q x, g.S q → q ≠ r → IsLeaf t1 q →
        geLo ((mergeGhost g p r).lo q) x →
        ltHi ((mergeGhost g p r).hi q) x →
        (q = p ∧ ((geLo (g.lo p) x ∧ ltHi (g.hi p) x) ∨
          (geLo (g.lo r) x ∧ ltHi (g.hi r) x))) ∨
        (q ≠ p ∧ IsLeaf t q ∧ geLo (g.lo q) x ∧ ltHi (g.hi q) x) := by
      intro q x hq hqr lq h1 h2
      have h1 : geLo (g.lo q) x := h1
      by_cases hqp : q = p
      · rw [hqp] at h1 h2
        rw [ghip] at h2
        refine Or.inl ⟨hqp, ?_⟩
        by_cases hxe : x < er.1
        · left
          refine ⟨h1, ?_⟩
          intro b hb
          rw [k3] at hb
          injection hb with hb
          linarith
        · right
          refine ⟨?_, h2⟩
          intro a ha
          rw [k4] at ha
          injection ha with ha
          linarith
      · rw [ghi q hqp] at h2
        exact Or.inr ⟨hqp, (hleaf q hq hqr).2 lq, h1, h2⟩
    intro c d x hc hd lc ld e1 e2 d1 d2
    rcases key c x hc.1 hc.2 lc e1 e2 with ⟨f1, f3⟩ | ⟨f1, f3, f4, f5⟩
    · rcases key d x hd.1 hd.2 ld d1 d2 with ⟨g1, g3⟩ | ⟨g1, g3, g4, g5⟩
      · rw [f1, g1]
      · rcases f3 with f3 | f3
        · exact absurd (h.disj p d x hpS hd.1 ⟨lp, hp⟩ g3 f3.1 f3.2 g4 g5) (Ne.symm g1)
        · exact absurd (h.disj r d x hrS hd.1 ⟨lr, hr⟩ g3 f3.1 f3.2 g4 g5) (Ne.symm hd.2)
    · rcases key d x hd.1 hd.2 ld d1 d2 with ⟨g1, g3⟩ | ⟨g1, g3, g4, g5⟩
      · rcases g3 with g3 | g3
        · exact absurd (h.disj c p x hc.1 hpS f3 ⟨lp, hp⟩ f4 f5 g3.1 g3.2) f1
        · exact absurd (h.disj c r x hc.1 hrS f3 ⟨lr, hr⟩ f4 f5 g3.1 g3.2) hc.2
      · exact h.disj c d x hc.1 hd.1 f3 g3 f4 f5 g4 g5

theorem IsLeaf.iff_of_internal {t t1 : BPlusTree} {q : page_id_t} {a b : InternalPage}
    (h : t.pages q = some (.internal a)) (h1 : t1.pages q = some (.internal b)) :
    IsLeaf t q ↔ IsLeaf t1 q := by
  constructor
  · rintro ⟨l, hl⟩
    rw [h] at hl
    cases hl
  · rintro ⟨l, hl⟩
    rw [h1] at hl
    cases hl

/-- An internal page takes the first child of its right sibling under the
separator of the parent; the parent gets the key of the sibling's next slot
as the new separator. -/
theorem Inv.borrow_internal {t : BPlusTree} {g : Ghost} (h : Inv t g) {P p r : page_id_t}
    {ipP ip ir : InternalPage} {A B : List (KeyType × page_id_t)}
    {ep er : KeyType × page_id_t}
    (hP : g.S P) (hPpg : t.pages P = some (.internal ipP))
    (harr : ipP.array_ = A ++ ep :: er :: B) (hep : ep.2 = p) (her : er.2 = r)
    (hp : t.pages p = some (.internal ip)) (hr : t.pages r = some (.internal ir))
    {s0 s1 : KeyType × page_id_t} {tl : List (KeyType × page_id_t)}
    (hir : ir.array_ = s0 :: s1 :: tl)
    {pg0 : TreePage} (hc0 : t.pages s0.2 = some pg0)
    (t1 : BPlusTree) (ip1 ir1 ipP1 : InternalPage)
    (hroot : t1.root_page_id_ = t.root_page_id_)
    (hnext : t1.next_page_id_ = t.next_page_id_)
    (hlm : t1.leaf_max_size_ = t.leaf_max_size_)
    (hp1 : t1.pages p = some (.internal ip1)) (hr1 : t1.pages r = some (.internal ir1))
    (hP1 : t1.pages P = some (.internal ipP1))
    (hc1 : t1.pages s0.2 = some (pg0.SetParentPageId p))
    (hoth : ∀ q, q ≠ p → q ≠ r → q ≠ P → q ≠ s0.2 → t1.pages q = t.pages q)
    (a1 : ip1.page_id_ = ip.page_id_) (a2 : ip1.parent_page_id_ = ip.parent_page_id_)
    (a5 : ip1.array_ = ip.array_ ++ [(er.1, s0.2)])
    (b1 : ir1.page_id_ = ir.page_id_) (b2 : ir1.parent_page_id_ = ir.parent_page_id_)
    (b5 : ir1.array_ = (s0.1, s1.2) :: tl)
    (c1 : ipP1.page_id_ = ipP.page_id_) (c2 : ipP1.parent_page_id_ = ipP.parent_page_id_)
    (c5 : ipP1.array_ = A ++ ep :: (s1.1, r) :: B) :
    Inv t1 (borrowGhost g p r s1.1) := by
  have R := h.ranges
  have nP := h.node P hP
  have K := nP.kids ipP hPpg
  rw [harr] at K
  obtain ⟨k1, k2, k3, k4, k5, k6, k7⟩ := K.neighbours R
  rw [hep] at k1 k3 k5
  rw [her] at k2 k4 k5 k7
  have hpS := k1.1
  have hrS := k2.1
  have npn := h.node p hpS
  have nrn := h.node r hrS
  have Kp := npn.kids ip hp
  have Kr := nrn.kids ir hr
  rw [hir] at Kr
  have hndr := Kr.nodup R
  obtain ⟨e0, rest, harr_r, hc0c, hl0, hsr⟩ := Kr
  injection harr_r with q1 q2
  subst q1
  subst q2
  obtain ⟨m1, hc1c, hl1, hst⟩ := hsr
  have hcS := hc0c.1
  have ncn := h.node s0.2 hcS
  have hhp : g.ht p + 1 = g.ht P := k1.2.2
  have hhr : g.ht r + 1 = g.ht P := k2.2.2
  have hhc : g.ht s0.2 + 1 = g.ht r := hc0c.2.2
  have hpP : p ≠ P := by
    intro hf
    rw [hf] at hhp
    omega
  have hrP : r ≠ P := by
    intro hf
    rw [hf] at hhr
    omega
  have hcp : s0.2 ≠ p := by
    intro hf
    rw [hf] at hhc
    omega
  have hcr : s0.2 ≠ r := by
    intro hf
    rw [hf] at hhc
    omega
  have hcP : s0.2 ≠ P := by
    intro hf
    rw [hf] at hhc
    omega
  have hidp : ∀ q pg, g.S q → t.pages q = some pg → pg.GetPageId = q := by
    intro q pg hq hpg
    obtain ⟨pg1, q1, q2⟩ := (h.node q hq).page
    rw [hpg] at q1
    injection q1 with q1
    rw [q1]; exact q2
  -- the bookkeeping
  have glo : ∀ q, q ≠ r → (borrowGhost g p r s1.1).lo q = g.lo q := by
    intro q hq
    show (if q = r then some s1.1 else g.lo q) = g.lo q
    rw [if_neg hq]
  have ghi : ∀ q, q ≠ p → (borrowGhost g p r s1.1).hi q = g.hi q := by
    intro q hq
    show (if q = p then some s1.1 else g.hi q) = g.hi q
    rw [if_neg hq]
  have glor : (borrowGhost g p r s1.1).lo r = some s1.1 := by
    show (if r = r then some s1.1 else g.lo r) = some s1.1
    rw [if_pos rfl]
  have ghip : (borrowGhost g p r s1.1).hi p = some s1.1 := by
    show (if p = p then some s1.1 else g.hi p) = some s1.1
    rw [if_pos rfl]
  have hleaf : ∀ q, IsLeaf t q ↔ IsLeaf t1 q := by
    intro q
    by_cases hqp : q = p
    · rw [hqp]; exact IsLeaf.iff_of_internal hp hp1
    · by_cases hqr : q = r
      · rw [hqr]; exact IsLeaf.iff_of_internal hr hr1
      · by_cases hqP : q = P
        · rw [hqP]; exact IsLeaf.iff_of_internal hPpg hP1
        · by_cases hqc : q = s0.2
          · rw [hqc]; exact IsLeaf.of_setParent p hc0 hc1
          · unfold IsLeaf
            rw [hoth q hqp hqr hqP hqc]
  have hpar : ∀ q, q ≠ s0.2 → parentOf t1 q = parentOf t q := by
    intro q hqc
    by_cases hqp : q = p
    · rw [hqp, parentOf_of_pages hp1, parentOf_of_pages hp]; exact a2
    · by_cases hqr : q = r
      · rw [hqr, parentOf_of_pages hr1, parentOf_of_pages hr]; exact b2
      · by_cases hqP : q = P
        · rw [hqP, parentOf_of_pages hP1, parentOf_of_pages hPpg]; exact c2
        · exact parentOf_congr (hoth q hqp hqr hqP hqc)
  have hparc : parentOf t1 s0.2 = p := parentOf_setParent p hc1
  have hkv : ∀ q, g.S q → q ≠ p → q ≠ r → q ≠ s0.2 →
      KidView t g g.hi t1 (borrowGhost g p r s1.1) (borrowGhost g p r s1.1).hi q :=
    fun q hq hqp hqr hqc => ⟨hq, hpar q hqc, rfl, glo q hqr, ghi q hqp⟩
  have hnv : ∀ q, g.S q → q ≠ r → NextView t g t1 (borrowGhost g p r s1.1) q :=
    fun q hq hqr => ⟨hq, glo q hqr, (hleaf q).1⟩
  have hmemP : ∀ c, c ∈ ipP.array_.map Prod.snd → c ∈ ipP1.array_.map Prod.snd := by
    intro c hc
    rw [c5, ← her, map_snd_replace, ← harr]
    exact hc
  have hc_ne_tl : ∀ x ∈ s1 :: tl, x.2 ≠ s0.2 := by
    intro x hx hf
    rw [List.map_cons, List.nodup_cons] at hndr
    exact hndr.1 (by rw [← hf]; exact List.mem_map.2 ⟨x, hx, rfl⟩)
  have hup : ∀ q, g.S q → UpOK t1 (borrowGhost g p r s1.1) q := by
    intro q hq
    by_cases hqc : q = s0.2
    · rw [hqc]
      refine ⟨?_, ?_⟩
      · rw [hparc]
        intro hf
        exact absurd hf (InvG.ne_invalid h hpS)
      · rw [hparc]
        intro _
        refine ⟨hpS, ip1, hp1, ?_⟩
        rw [a5]
        simp only [List.map_append, List.map_cons, List.map_nil, List.mem_append,
          List.mem_singleton, or_true]
    · have u := (h.node q hq).up (fun hf => hf)
      refine ⟨?_, ?_⟩
      · rw [hpar q hqc, hroot]; exact u.top
      · rw [hpar q hqc]
        intro h0
        obtain ⟨u1, ip2, u2, u3⟩ := u.inner h0
        refine ⟨u1, ?_⟩
        by_cases hqP : parentOf t q = P
        · rw [hqP] at u2 ⊢
          rw [hPpg] at u2
          injection u2 with u2
          injection u2 with u2
          subst u2
          exact ⟨ipP1, hP1, hmemP _ u3⟩
        · by_cases hq1 : parentOf t q = p
          · rw [hq1] at u2 ⊢
            rw [hp] at u2
            injection u2 with u2
            injection u2 with u2
            subst u2
            refine ⟨ip1, hp1, ?_⟩
            rw [a5, List.map_append]
            exact List.mem_append.2 (Or.inl u3)
          · by_cases hq2 : parentOf t q = r
            · rw [hq2] at u2 ⊢
              rw [hr] at u2
              injection u2 with u2
              injection u2 with u2
              subst u2
              refine ⟨ir1, hr1, ?_⟩
              rw [hir] at u3
              rw [b5]
              simp only [List.map_cons, List.mem_cons] at u3 ⊢
              rcases u3 with u3 | u3 | u3
              · exact absurd u3 hqc
              · exact Or.inl u3
              · exact Or.inr u3
            · by_cases hq3 : parentOf t q = s0.2
              · rw [hq3] at u2 ⊢
                rw [hc0] at u2
                injection u2 with u2
                subst u2
                exact ⟨_, hc1, u3⟩
              · exact ⟨ip2, by rw [hoth _ hq1 hq2 hqP hq3]; exact u2, u3⟩
  have hlo_p : ∀ a, g.lo p = some a → a < er.1 := fun a ha => npn.range a er.1 ha k3
  have hlo_c : g.lo s0.2 = some er.1 := hl0.trans k4
  have her_s1 : er.1 < s1.1 := ncn.range er.1 s1.1 hlo_c m1
  have hs1_hi : ltHi (g.hi r) s1.1 := by
    have hs : SlotsK t g g.hi r (g.hi s0.2) (s1 :: tl) (g.hi r) := ⟨m1, hc1c, hl1, hst⟩
    exact (hs.keys R).2.2 s1 (List.mem_cons_self _ _)
  have hkids_r : ∀ x ∈ s1 :: tl,
      KidView t g g.hi t1 (borrowGhost g p r s1.1) (borrowGhost g p r s1.1).hi x.2 := by
    intro x hx
    have hs : SlotsK t g g.hi r (g.hi s0.2) (s1 :: tl) (g.hi r) := ⟨m1, hc1c, hl1, hst⟩
    have hcx := (hs.slot_child_of_mem x hx).1
    have hhx : g.ht x.2 + 1 = g.ht r := hcx.2.2
    refine hkv x.2 hcx.1 ?_ ?_ (hc_ne_tl x hx)
    · intro hf
      rw [hf] at hhx
      omega
    · intro hf
      rw [hf] at hhx
      omega
  have hkids_p : ∀ x ∈ ip.array_,
      KidView t g g.hi t1 (borrowGhost g p r s1.1) (borrowGhost g p r s1.1).hi x.2 := by
    intro x hx
    have hcx := Kp.child_of_mem x hx
    have hhx : g.ht x.2 + 1 = g.ht p := hcx.2.2
    refine hkv x.2 hcx.1 ?_ ?_ ?_
    · intro hf
      rw [hf] at hhx
      omega
    · intro hf
      rw [hf] at hhx
      omega
    · intro hf
      have := hcx.2.1
      rw [hf, hc0c.2.1] at this
      exact k5 this.symm
  refine ⟨by rw [hnext]; exact h.next_nonneg, ?_, ?_, ?_, ?_⟩
  · intro q pg hq
    rw [hnext]
    by_cases hqp : q = p
    · rw [hqp]; exact InvG.lt_next h hpS
    · by_cases hqr : q = r
      · rw [hqr]; exact InvG.lt_next h hrS
      · by_cases hqP : q = P
        · rw [hqP]; exact InvG.lt_next h hP
        · by_cases hqc : q = s0.2
          · rw [hqc]; exact InvG.lt_next h hcS
          · rw [hoth q hqp hqr hqP hqc] at hq
            exact h.store_lt q pg hq
  · intro hne
    have hne0 : t.IsEmpty = false := by
      unfold IsEmpty at hne ⊢
      rw [hroot] at hne
      exact hne
    obtain ⟨r1, r2, r3, r4⟩ := h.root_ok hne0
    rw [hroot]
    have hrr : t.root_page_id_ ≠ r := by
      intro hf
      rw [hf, k4] at r2
      cases r2
    have hrp : t.root_page_id_ ≠ p := by
      intro hf
      rw [hf, k3] at r3
      cases r3
    have hrc : t.root_page_id_ ≠ s0.2 := by
      intro hf
      rw [hf, hlo_c] at r2
      cases r2
    exact ⟨r1, (glo _ hrr).trans r2, (ghi _ hrp).trans r3, (hpar _ hrc).trans r4⟩
  · intro q hq
    have hq0 : g.S q := hq
    by_cases hqp : q = p
    · -- the page that borrows
      rw [hqp]
      refine ⟨⟨_, hp1, a1.trans (hidp _ _ hpS hp)⟩, ?_, by rw [hnext]; exact npn.ht_lt, ?_, ?_,
        fun _ => hup p hpS⟩
      · rw [glo p k5, ghip]
        intro a b ha hb
        injection hb with hb
        have := hlo_p a ha
        linarith
      · intro l hl
        rw [hp1] at hl
        cases hl
      · intro ip2 hip2
        rw [hp1] at hip2
        injection hip2 with hip2
        injection hip2 with hip2
        subst hip2
        rw [a5]
        obtain ⟨f0, frest, hfarr, hf0, hfl, hfs⟩ := Kp
        rw [hfarr] at hkids_p ⊢
        have hv0 := hkids_p f0 (List.mem_cons_self _ _)
        refine ⟨f0, frest ++ [(er.1, s0.2)], rfl, IsChild.transfer_child (show (borrowGhost g p r s1.1).ht p = g.ht p from rfl) hv0 hf0,
          by rw [hv0.lo, glo p k5]; exact hfl, ?_⟩
        rw [hv0.eh]
        refine SlotsK.append.2 ⟨g.hi p, ?_, ?_⟩
        · exact SlotsK.transfer_slots (show (borrowGhost g p r s1.1).ht p = g.ht p from rfl)
            (fun x hx => hkids_p x (List.mem_cons_of_mem _ hx)) hfs
        · have hhh : g.ht s0.2 + 1 = g.ht p := by omega
          refine ⟨k3, ⟨hcS, hparc, hhh⟩, ?_, ?_⟩
          · exact (glo _ hcr).trans hlo_c
          · show (borrowGhost g p r s1.1).hi s0.2 = (borrowGhost g p r s1.1).hi p
            rw [ghi _ hcp, ghip]; exact m1
    · by_cases hqr : q = r
      · -- the sibling
        rw [hqr]
        refine ⟨⟨_, hr1, b1.trans (hidp _ _ hrS hr)⟩, ?_, by rw [hnext]; exact nrn.ht_lt, ?_, ?_,
          fun _ => hup r hrS⟩
        · rw [glor, ghi r (Ne.symm k5)]
          intro a b ha hb
          injection ha with ha
          rw [← ha]
          exact hs1_hi b hb
        · intro l hl
          rw [hr1] at hl
          cases hl
        · intro ip2 hip2
          rw [hr1] at hip2
          injection hip2 with hip2
          injection hip2 with hip2
          subst hip2
          rw [b5]
          have hv1 := hkids_r s1 (List.mem_cons_self _ _)
          refine ⟨(s0.1, s1.2), tl, rfl, IsChild.transfer_child (show (borrowGhost g p r s1.1).ht r = g.ht r from rfl) hv1 hc1c, ?_, ?_⟩
          · show (borrowGhost g p r s1.1).lo s1.2 = (borrowGhost g p r s1.1).lo r
            rw [hv1.lo, glor]; exact hl1
          · show SlotsK _ _ _ _ ((borrowGhost g p r s1.1).hi s1.2) _ _
            rw [hv1.eh, ghi r (Ne.symm k5)]
            exact SlotsK.transfer_slots (show (borrowGhost g p r s1.1).ht r = g.ht r from rfl)
              (fun x hx => hkids_r x (List.mem_cons_of_mem _ hx)) hst
      · by_cases hqP : q = P
        · -- the parent
          rw [hqP]
          refine ⟨⟨_, hP1, c1.trans (hidp _ _ hP hPpg)⟩, ?_, by rw [hnext]; exact nP.ht_lt, ?_, ?_,
            fun _ => hup P hP⟩
          · rw [glo P (Ne.symm hrP), ghi P (Ne.symm hpP)]; exact nP.range
          · intro l hl
            rw [hP1] at hl
            cases hl
          · intro ip2 hip2
            rw [hP1] at hip2
            injection hip2 with hip2
            injection hip2 with hip2
            subst hip2
            rw [c5]
            refine K.replace_after t1 _ _ rfl (glo P (Ne.symm hrP)) (ghi P (Ne.symm hpP)) ?_ ?_
              ?_ ?_
            · intro x hx
              have hcx : IsChild t g P x.2 := by
                rcases hx with hx | hx
                · exact K.child_of_mem x (List.mem_append.2 (Or.inl hx))
                · exact K.child_of_mem x (List.mem_append.2
                    (Or.inr (List.mem_cons_of_mem _ (List.mem_cons_of_mem _ hx))))
              have := k6 x hx
              rw [hep, her] at this
              refine hkv x.2 hcx.1 this.1 this.2 ?_
              intro hf
              have hh := hcx.2.2
              rw [hf] at hh
              omega
            · rw [hep]
              exact ⟨hpS, (hpar p (Ne.symm hcp)).trans k1.2.1, k1.2.2⟩
            · rw [hep]; exact glo p k5
            · intro hB
              rw [hep, ghip]
              refine ⟨rfl, ⟨hrS, (hpar r (Ne.symm hcr)).trans k2.2.1, k2.2.2⟩, glor, ?_⟩
              show SlotsK _ _ _ _ ((borrowGhost g p r s1.1).hi r) _ _
              rw [ghi r (Ne.symm k5)]
              rw [her] at hB
              exact hB
        · by_cases hqc : q = s0.2
          · -- the child that moves
            rw [hqc]
            refine ncn.transfer_node t1 _ _ _ (SameBody.body_of_setParent p hc0 (hidp _ _ hcS hc0) hc1)
              (by rw [hnext]) hlm rfl (glo _ hcr) (ghi _ hcp) ?_ ?_ (fun _ => hup _ hcS)
            · intro ip2 hip2 x hx
              have hcx := (ncn.kids ip2 hip2).child_of_mem x hx
              have hhx : g.ht x.2 + 1 = g.ht s0.2 := hcx.2.2
              refine hkv x.2 hcx.1 ?_ ?_ ?_
              · intro hf
                rw [hf] at hhx
                omega
              · intro hf
                rw [hf] at hhx
                omega
              · intro hf
                rw [hf] at hhx
                omega
            · intro l b hl hb
              obtain ⟨n1, n2, n3⟩ := (ncn.leaf l hl).next b hb
              refine hnv _ n1 ?_
              intro hf
              rw [hf] at n2
              obtain ⟨l2, hl2⟩ := n2
              rw [hr] at hl2
              cases hl2
          · -- every other page
            refine InvG.frame h t1 (borrowGhost g p r s1.1) (borrowGhost g p r s1.1).hi
              (fun _ => False) (fun c => c = p ∨ c = r ∨ c = P ∨ c = s0.2)
              (fun c => c = p ∨ c = r ∨ c = s0.2)
              (fun c => c = r) (by rw [hnext]) hlm (Or.inl hroot) ?_ ?_ ?_ ?_ ?_ ?_ ?_ q hq ?_
            · intro c hc hX
              have hcp : c ≠ p := fun hf => hX (Or.inl hf)
              have hcr : c ≠ r := fun hf => hX (Or.inr (Or.inl hf))
              have hcP : c ≠ P := fun hf => hX (Or.inr (Or.inr (Or.inl hf)))
              have hcc : c ≠ s0.2 := fun hf => hX (Or.inr (Or.inr (Or.inr hf)))
              exact ⟨hoth c hcp hcr hcP hcc, hc, rfl, glo c hcr, ghi c hcp, ghi c hcp,
                fun hd => hd⟩
            · intro c hc _; exact hc
            · intro c hc _ hV
              exact hkv c hc (fun hf => hV (Or.inl hf)) (fun hf => hV (Or.inr (Or.inl hf)))
                (fun hf => hV (Or.inr (Or.inr hf)))
            · intro c hc _ hV
              exact hnv c hc hV
            · intro q2 ip2 hq2 hX hip2 x hx hV
              have hcx := ((h.node q2 hq2).kids ip2 hip2).child_of_mem x hx
              rcases hV with hV | hV | hV
              · have := k1.2.1
                rw [← hV, hcx.2.1] at this
                exact hX (Or.inr (Or.inr (Or.inl this)))
              · have := k2.2.1
                rw [← hV, hcx.2.1] at this
                exact hX (Or.inr (Or.inr (Or.inl this)))
              · have := hc0c.2.1
                rw [← hV, hcx.2.1] at this
                exact hX (Or.inr (Or.inl this))
            · intro q2 l b hq2 hX hl hb hV
              obtain ⟨n1, n2, n3⟩ := ((h.node q2 hq2).leaf l hl).next b hb
              have hV : l.next_page_id_ = r := hV
              rw [hV] at n2
              obtain ⟨l2, hl2⟩ := n2
              rw [hr] at hl2
              cases hl2
            · intro c hc hX _ h0 _
              have hcc : c ≠ s0.2 := fun hf => hX (Or.inr (Or.inr (Or.inr hf)))
              have hh := (hup c hc).inner (by rw [hpar c hcc]; exact h0)
              rw [hpar c hcc] at hh
              exact hh
            · intro hX
              rcases hX with hX | hX | hX | hX
              · exact hqp hX
              · exact hqr hX
              · exact hqP hX
              · exact hqc hX
  · -- the key ranges of the leaves are the same
    intro c d x hc hd lc ld e1 e2 d1 d2
    have hnl : ∀ q, IsLeaf t1 q → q ≠ p ∧ q ≠ r := by
      intro q lq
      constructor
      · intro hf
        rw [hf] at lq
        obtain ⟨l, hl⟩ := lq
        rw [hp1] at hl
        cases hl
      · intro hf
        rw [hf] at lq
        obtain ⟨l, hl⟩ := lq
        rw [hr1] at hl
        cases hl
    have e1 : geLo (g.lo c) x := by rw [← glo c (hnl c lc).2]; exact e1
    have e2 : ltHi (g.hi c) x := by rw [← ghi c (hnl c lc).1]; exact e2
    have d1 : geLo (g.lo d) x := by rw [← glo d (hnl d ld).2]; exact d1
    have d2 : ltHi (g.hi d) x := by rw [← ghi d (hnl d ld).1]; exact d2
    exact h.disj c d x hc hd ((hleaf c).2 lc) ((hleaf d).2 ld) e1 e2 d1 d2

/-- An internal page takes all children of its right sibling, the first of
them under the separator of the parent; the sibling leaves the tree. -/
theorem Inv.merge_internal {t : BPlusTree} {g : Ghost} (h : Inv t g) {P p r : page_id_t}
    {ipP ip ir : InternalPage} {A B : List (KeyType × page_id_t)}
    {ep er : KeyType × page_id_t}
    (hP : g.S P) (hPpg : t.pages P = some (.internal ipP))
    (harr : ipP.array_ = A ++ ep :: er :: B) (hep : ep.2 = p) (her : er.2 = r)
    (hp : t.pages p = some (.internal ip)) (hr : t.pages r = some (.internal ir))
    {s0 : KeyType × page_id_t} {tl : List (KeyType × page_id_t)}
    (hir : ir.array_ = s0 :: tl)
    (t1 : BPlusTree) (ip1 ipP1 : InternalPage)
    (hroot : t1.root_page_id_ = t.root_page_id_)
    (hnext : t1.next_page_id_ = t.next_page_id_)
    (hlm : t1.leaf_max_size_ = t.leaf_max_size_)
    (hp1 : t1.pages p = some (.internal ip1))
    (hP1 : t1.pages P = some (.internal ipP1))
    (hkids : ∀ c, c ∈ (s0 :: tl).map Prod.snd →
      ∃ pg, t.pages c = some pg ∧ t1.pages c = some (pg.SetParentPageId p))
    (hoth : ∀ q, q ≠ p → q ≠ P → q ∉ (s0 :: tl).map Prod.snd → t1.pages q = t.pages q)
    (a1 : ip1.page_id_ = ip.page_id_) (a2 : ip1.parent_page_id_ = ip.parent_page_id_)
    (a5 : ip1.array_ = ip.array_ ++ (er.1, s0.2) :: tl)
    (c1 : ipP1.page_id_ = ipP.page_id_) (c2 : ipP1.parent_page_id_ = ipP.parent_page_id_)
    (c5 : ipP1.array_ = A ++ ep :: B) :
    Inv t1 (mergeGhost g p r) := by
  have R := h.ranges
  have nP := h.node P hP
  have K := nP.kids ipP hPpg
  rw [harr] at K
  obtain ⟨k1, k2, k3, k4, k5, k6, k7⟩ := K.neighbours R
  rw [hep] at k1 k3 k5
  rw [her] at k2 k4 k5 k7
  have hpS := k1.1
  have hrS := k2.1
  have npn := h.node p hpS
  have nrn := h.node r hrS
  have Kp := npn.kids ip hp
  have Kr := nrn.kids ir hr
  rw [hir] at Kr
  have hkidr : ∀ c, c ∈ (s0 :: tl).map Prod.snd → IsChild t g r c := by
    intro c hc
    obtain ⟨x, hx, rfl⟩ := List.mem_map.1 hc
    exact Kr.child_of_mem x hx
  obtain ⟨e0, rest, harr_r, hc0c, hl0, hsr⟩ := Kr
  injection harr_r with q1 q2
  subst q1
  subst q2
  have hhp : g.ht p + 1 = g.ht P := k1.2.2
  have hhr : g.ht r + 1 = g.ht P := k2.2.2
  have hpP : p ≠ P := by
    intro hf
    rw [hf] at hhp
    omega
  have hrP : r ≠ P := by
    intro hf
    rw [hf] at hhr
    omega
  -- a page at least as high as `p` is not a child of `r`
  have hnk : ∀ q, g.ht r ≤ g.ht q → q ∉ (s0 :: tl).map Prod.snd := by
    intro q hq hf
    have := (hkidr q hf).2.2
    omega
  have hpk := hnk p (by omega)
  have hrk := hnk r (le_refl _)
  have hPk := hnk P (by omega)
  have hidp : ∀ q pg, g.S q → t.pages q = some pg → pg.GetPageId = q := by
    intro q pg hq hpg
    obtain ⟨pg1, q1, q2⟩ := (h.node q hq).page
    rw [hpg] at q1
    injection q1 with q1
    rw [q1]; exact q2
  have ghi : ∀ q, q ≠ p → (mergeGhost g p r).hi q = g.hi q := by
    intro q hq
    show (if q = p then g.hi r else g.hi q) = g.hi q
    rw [if_neg hq]
  have ghip : (mergeGhost g p r).hi p = g.hi r := by
    show (if p = p then g.hi r else g.hi p) = g.hi r
    rw [if_pos rfl]
  have hleaf : ∀ q, IsLeaf t q ↔ IsLeaf t1 q := by
    intro q
    by_cases hqp : q = p
    · rw [hqp]; exact IsLeaf.iff_of_internal hp hp1
    · by_cases hqP : q = P
      · rw [hqP]; exact IsLeaf.iff_of_internal hPpg hP1
      · by_cases hqc : q ∈ (s0 :: tl).map Prod.snd
        · obtain ⟨pg, g1, g2⟩ := hkids q hqc
          exact IsLeaf.of_setParent p g1 g2
        · unfold IsLeaf
          rw [hoth q hqp hqP hqc]
  have hpar : ∀ q, q ∉ (s0 :: tl).map Prod.snd → parentOf t1 q = parentOf t q := by
    intro q hqc
    by_cases hqp : q = p
    · rw [hqp, parentOf_of_pages hp1, parentOf_of_pages hp]; exact a2
    · by_cases hqP : q = P
      · rw [hqP, parentOf_of_pages hP1, parentOf_of_pages hPpg]; exact c2
      · exact parentOf_congr (hoth q hqp hqP hqc)
  have hparc : ∀ c, c ∈ (s0 :: tl).map Prod.snd → parentOf t1 c = p := by
    intro c hc
    obtain ⟨pg, _, g2⟩ := hkids c hc
    exact parentOf_setParent p g2
  have hkv : ∀ q, g.S q → q ≠ p → q ≠ r → q ∉ (s0 :: tl).map Prod.snd →
      KidView t g g.hi t1 (mergeGhost g p r) (mergeGhost g p r).hi q :=
    fun q hq hqp hqr hqc => ⟨⟨hq, hqr⟩, hpar q hqc, rfl, rfl, ghi q hqp⟩
  have hnv : ∀ q, g.S q → q ≠ r → NextView t g t1 (mergeGhost g p r) q :=
    fun q hq hqr => ⟨⟨hq, hqr⟩, rfl, (hleaf q).1⟩
  have hmemP : ∀ c, c ≠ r → c ∈ ipP.array_.map Prod.snd → c ∈ ipP1.array_.map Prod.snd := by
    intro c hcr hc
    rw [c5]
    rw [harr] at hc
    exact mem_map_snd_drop A B ep er hc (by rw [her]; exact hcr)
  have hmemp : ∀ c, c ∈ (s0 :: tl).map Prod.snd → c ∈ ip1.array_.map Prod.snd := by
    intro c hc
    rw [a5, List.map_append]
    exact List.mem_append.2 (Or.inr hc)
  have hup : ∀ q, g.S q → q ≠ r → UpOK t1 (mergeGhost g p r) q := by
    intro q hq hqr
    by_cases hqc : q ∈ (s0 :: tl).map Prod.snd
    · refine ⟨?_, ?_⟩
      · rw [hparc q hqc]
        intro hf
        exact absurd hf (InvG.ne_invalid h hpS)
      · rw [hparc q hqc]
        intro _
        exact ⟨⟨hpS, k5⟩, ip1, hp1, hmemp q hqc⟩
    · have u := (h.node q hq).up (fun hf => hf)
      refine ⟨?_, ?_⟩
      · rw [hpar q hqc, hroot]; exact u.top
      · rw [hpar q hqc]
        intro h0
        obtain ⟨u1, ip2, u2, u3⟩ := u.inner h0
        have hq2 : parentOf t q ≠ r := by
          intro hf
          rw [hf, hr] at u2
          injection u2 with u2
          injection u2 with u2
          subst u2
          rw [hir] at u3
          exact hqc u3
        refine ⟨⟨u1, hq2⟩, ?_⟩
        by_cases hqP : parentOf t q = P
        · rw [hqP] at u2 ⊢
          rw [hPpg] at u2
          injection u2 with u2
          injection u2 with u2
          subst u2
          exact ⟨ipP1, hP1, hmemP _ hqr u3⟩
        · by_cases hq1 : parentOf t q = p
          · rw [hq1] at u2 ⊢
            rw [hp] at u2
            injection u2 with u2
            injection u2 with u2
            subst u2
            refine ⟨ip1, hp1, ?_⟩
            rw [a5, List.map_append]
            exact List.mem_append.2 (Or.inl u3)
          · by_cases hq3 : parentOf t q ∈ (s0 :: tl).map Prod.snd
            · obtain ⟨pg, g1, g2⟩ := hkids _ hq3
              rw [g1] at u2
              injection u2 with u2
              subst u2
              exact ⟨_, g2, u3⟩
            · exact ⟨ip2, by rw [hoth _ hq1 hqP hq3]; exact u2, u3⟩
  have hlo_p : ∀ a, g.lo p = some a → a < er.1 := fun a ha => npn.range a er.1 ha k3
  have hlo_c : g.lo s0.2 = some er.1 := hl0.trans k4
  -- the children that move
  have hmove : ∀ c, c ∈ (s0 :: tl).map Prod.snd →
      IsChild t1 (mergeGhost g p r) p c ∧ (mergeGhost g p r).hi c = g.hi c := by
    intro c hc
    have hcc := hkidr c hc
    have hh : g.ht c + 1 = g.ht r := hcc.2.2
    have hcr : c ≠ r := by
      intro hf
      rw [hf] at hh
      omega
    have hcp : c ≠ p := fun hf => hpk (hf ▸ hc)
    have hh2 : g.ht c + 1 = g.ht p := by omega
    exact ⟨⟨⟨hcc.1, hcr⟩, hparc c hc, hh2⟩, ghi c hcp⟩
  have hkids_p : ∀ x ∈ ip.array_,
      KidView t g g.hi t1 (mergeGhost g p r) (mergeGhost g p r).hi x.2 := by
    intro x hx
    have hcx := Kp.child_of_mem x hx
    have hhx : g.ht x.2 + 1 = g.ht p := hcx.2.2
    refine hkv x.2 hcx.1 ?_ ?_ ?_
    · intro hf
      rw [hf] at hhx
      omega
    · intro hf
      rw [hf] at hhx
      omega
    · intro hf
      have := hcx.2.1
      rw [(hkidr _ hf).2.1] at this
      exact k5 this.symm
  refine ⟨by rw [hnext]; exact h.next_nonneg, ?_, ?_, ?_, ?_⟩
  · intro q pg hq
    rw [hnext]
    by_cases hqp : q = p
    · rw [hqp]; exact InvG.lt_next h hpS
    · by_cases hqP : q = P
      · rw [hqP]; exact InvG.lt_next h hP
      · by_cases hqc : q ∈ (s0 :: tl).map Prod.snd
        · exact InvG.lt_next h (hkidr q hqc).1
        · rw [hoth q hqp hqP hqc] at hq
          exact h.store_lt q pg hq
  · intro hne
    have hne0 : t.IsEmpty = false := by
      unfold IsEmpty at hne ⊢
      rw [hroot] at hne
      exact hne
    obtain ⟨r1, r2, r3, r4⟩ := h.root_ok hne0
    rw [hroot]
    have hrr : t.root_page_id_ ≠ r := by
      intro hf
      rw [hf, k4] at r2
      cases r2
    have hrp : t.root_page_id_ ≠ p := by
      intro hf
      rw [hf, k3] at r3
      cases r3
    have hrc : t.root_page_id_ ∉ (s0 :: tl).map Prod.snd := by
      intro hf
      have := (hkidr _ hf).2.1
      rw [r4] at this
      exact InvG.ne_invalid h hrS this.symm
    exact ⟨⟨r1, hrr⟩, r2, (ghi _ hrp).trans r3, (hpar _ hrc).trans r4⟩
  · intro q hq
    obtain ⟨hq0, hqr⟩ := hq
    by_cases hqp : q = p
    · -- the page that takes the children
      rw [hqp]
      refine ⟨⟨_, hp1, a1.trans (hidp _ _ hpS hp)⟩, ?_, by rw [hnext]; exact npn.ht_lt, ?_, ?_,
        fun _ => hup p hpS k5⟩
      · show ltRange (g.lo p) ((mergeGhost g p r).hi p)
        rw [ghip]
        intro a b ha hb
        have h1 := hlo_p a ha
        have h2 := nrn.range er.1 b k4 hb
        linarith
      · intro l hl
        rw [hp1] at hl
        cases hl
      · intro ip2 hip2
        rw [hp1] at hip2
        injection hip2 with hip2
        injection hip2 with hip2
        subst hip2
        rw [a5]
        obtain ⟨f0, frest, hfarr, hf0, hfl, hfs⟩ := Kp
        rw [hfarr] at hkids_p ⊢
        have hv0 := hkids_p f0 (List.mem_cons_self _ _)
        refine ⟨f0, frest ++ (er.1, s0.2) :: tl, rfl,
          IsChild.transfer_child (show (mergeGhost g p r).ht p = g.ht p from rfl) hv0 hf0,
          by rw [hv0.lo]; exact hfl, ?_⟩
        rw [hv0.eh]
        refine SlotsK.append.2 ⟨g.hi p, ?_, ?_⟩
        · exact SlotsK.transfer_slots (show (mergeGhost g p r).ht p = g.ht p from rfl)
            (fun x hx => hkids_p x (List.mem_cons_of_mem _ hx)) hfs
        · have hm0 := hmove s0.2 (List.mem_map.2 ⟨s0, List.mem_cons_self _ _, rfl⟩)
          refine ⟨k3, hm0.1, hlo_c, ?_⟩
          show SlotsK _ _ _ _ ((mergeGhost g p r).hi s0.2) _ ((mergeGhost g p r).hi p)
          rw [hm0.2, ghip]
          refine SlotsK.mono ?_ hsr
          intro e he _ hle
          have hme := hmove e.2 (List.mem_map.2 ⟨e, List.mem_cons_of_mem _ he, rfl⟩)
          exact ⟨hme.1, hle, hme.2⟩
    · by_cases hqP : q = P
      · -- the parent
        rw [hqP]
        refine ⟨⟨_, hP1, c1.trans (hidp _ _ hP hPpg)⟩, ?_, by rw [hnext]; exact nP.ht_lt, ?_, ?_,
          fun _ => hup P hP (Ne.symm hrP)⟩
        · show ltRange (g.lo P) ((mergeGhost g p r).hi P)
          rw [ghi P (Ne.symm hpP)]; exact nP.range
        · intro l hl
          rw [hP1] at hl
          cases hl
        · intro ip2 hip2
          rw [hP1] at hip2
          injection hip2 with hip2
          injection hip2 with hip2
          subst hip2
          rw [c5]
          refine K.replace_after t1 _ _ rfl rfl (ghi P (Ne.symm hpP)) ?_ ?_ ?_ ?_
          · intro x hx
            have hcx : IsChild t g P x.2 := by
              rcases hx with hx | hx
              · exact K.child_of_mem x (List.mem_append.2 (Or.inl hx))
              · exact K.child_of_mem x (List.mem_append.2
                  (Or.inr (List.mem_cons_of_mem _ (List.mem_cons_of_mem _ hx))))
            have := k6 x hx
            rw [hep, her] at this
            refine hkv x.2 hcx.1 this.1 this.2 (hnk _ ?_)
            have := hcx.2.2
            omega
          · rw [hep]
            exact ⟨⟨hpS, k5⟩, (hpar p hpk).trans k1.2.1, k1.2.2⟩
          · rfl
          · intro hB
            rw [hep, ghip]
            rw [her] at hB
            exact hB
      · by_cases hqc : q ∈ (s0 :: tl).map Prod.snd
        · -- a child that moves
          obtain ⟨pg, g1, g2⟩ := hkids q hqc
          have nq := h.node q hq0
          have hhq : g.ht q + 1 = g.ht r := (hkidr q hqc).2.2
          refine nq.transfer_node t1 _ _ _ (SameBody.body_of_setParent p g1 (hidp _ _ hq0 g1) g2)
            (by rw [hnext]) hlm rfl rfl (ghi _ hqp) ?_ ?_ (fun _ => hup _ hq0 hqr)
          · intro ip2 hip2 x hx
            have hcx := (nq.kids ip2 hip2).child_of_mem x hx
            have hhx : g.ht x.2 + 1 = g.ht q := hcx.2.2
            refine hkv x.2 hcx.1 ?_ ?_ ?_
            · intro hf
              rw [hf] at hhx
              omega
            · intro hf
              rw [hf] at hhx
              omega
            · intro hf
              have := (hkidr _ hf).2.2
              omega
          · intro l b hl hb
            obtain ⟨n1, n2, n3⟩ := (nq.leaf l hl).next b hb
            refine hnv _ n1 ?_
            intro hf
            rw [hf] at n2
            obtain ⟨l2, hl2⟩ := n2
            rw [hr] at hl2
            cases hl2
        · -- every other page
          refine InvG.frame h t1 (mergeGhost g p r) (mergeGhost g p r).hi
            (fun _ => False)
            (fun c => c = p ∨ c = r ∨ c = P ∨ c ∈ (s0 :: tl).map Prod.snd)
            (fun c => c = p ∨ c = r ∨ c ∈ (s0 :: tl).map Prod.snd)
            (fun c => c = r) (by rw [hnext]) hlm (Or.inl hroot) ?_ ?_ ?_ ?_ ?_ ?_ ?_ q
            ⟨hq0, hqr⟩ ?_
          · intro c hc hX
            have hcp : c ≠ p := fun hf => hX (Or.inl hf)
            have hcr : c ≠ r := fun hf => hX (Or.inr (Or.inl hf))
            have hcP : c ≠ P := fun hf => hX (Or.inr (Or.inr (Or.inl hf)))
            have hcc : c ∉ (s0 :: tl).map Prod.snd := fun hf => hX (Or.inr (Or.inr (Or.inr hf)))
            exact ⟨hoth c hcp hcP hcc, ⟨hc, hcr⟩, rfl, rfl, ghi c hcp, ghi c hcp,
              fun hd => hd⟩
          · intro c hc _; exact hc.1
          · intro c hc _ hV
            exact hkv c hc (fun hf => hV (Or.inl hf)) (fun hf => hV (Or.inr (Or.inl hf)))
              (fun hf => hV (Or.inr (Or.inr hf)))
          · intro c hc _ hV
            exact hnv c hc hV
          · intro q2 ip2 hq2 hX hip2 x hx hV
            have hcx := ((h.node q2 hq2).kids ip2 hip2).child_of_mem x hx
            rcases hV with hV | hV | hV
            · have := k1.2.1
              rw [← hV, hcx.2.1] at this
              exact hX (Or.inr (Or.inr (Or.inl this)))
            · have := k2.2.1
              rw [← hV, hcx.2.1] at this
              exact hX (Or.inr (Or.inr (Or.inl this)))
            · have := (hkidr _ hV).2.1
              rw [hcx.2.1] at this
              exact hX (Or.inr (Or.inl this))
          · intro q2 l b hq2 hX hl hb hV
            obtain ⟨n1, n2, n3⟩ := ((h.node q2 hq2).leaf l hl).next b hb
            have hV : l.next_page_id_ = r := hV
            rw [hV] at n2
            obtain ⟨l2, hl2⟩ := n2
            rw [hr] at hl2
            cases hl2
          · intro c hc hX _ h0 _
            have hcr : c ≠ r := fun hf => hX (Or.inr (Or.inl hf))
            have hcc : c ∉ (s0 :: tl).map Prod.snd := fun hf => hX (Or.inr (Or.inr (Or.inr hf)))
            have hh := (hup c hc hcr).inner (by rw [hpar c hcc]; exact h0)
            rw [hpar c hcc] at hh
            exact ⟨hh.1, hh.2⟩
          · intro hX
            rcases hX with hX | hX | hX | hX
            · exact hqp hX
            · exact hqr hX
            · exact hqP hX
            · exact hqc hX
  · -- the key ranges of the leaves are the same
    intro c d x hc hd lc ld e1 e2 d1 d2
    have hnl : ∀ q, IsLeaf t1 q → q ≠ p := by
      intro q lq hf
      rw [hf] at lq
      obtain ⟨l, hl⟩ := lq
      rw [hp1] at hl
      cases hl
    have e1 : geLo (g.lo c) x := e1
    have e2 : ltHi (g.hi c) x := by rw [← ghi c (hnl c lc)]; exact e2
    have d1 : geLo (g.lo d) x := d1
    have d2 : ltHi (g.hi d) x := by rw [← ghi d (hnl d ld)]; exact d2
    exact h.disj c d x hc.1 hd.1 ((hleaf c).2 lc) ((hleaf d).2 ld) e1 e2 d1 d2

theorem fetchInternal_of_pages {t : BPlusTree} {p : page_id_t} {ip : InternalPage}
    (h : t.pages p = some (.internal ip)) : t.fetchInternal p = .ok ip := by
  unfold fetchInternal
  simp only [h]

theorem fetch_of_pages {t : BPlusTree} {p : page_id_t} {pg : TreePage}
    (h : t.pages p = some pg) : t.fetch p = .ok pg := by
  unfold fetch
  simp only [h]

/-- In slots with distinct children `findIdx?` finds the slot of a child. -/
theorem findIdx?_nodup {arr : List (KeyType × page_id_t)} (hnd : (arr.map Prod.snd).Nodup)
    {i : Nat} {e : KeyType × page_id_t} (he : arr[i]? = some e) :
    arr.findIdx? (fun x => x.2 == e.2) = some i := by
  cases hf : arr.findIdx? (fun x => x.2 == e.2) with
  | none =>
    have := List.findIdx?_eq_none_iff.1 hf e (List.getElem?_mem he)
    simp at this
  | some j =>
    obtain ⟨e1, h1, h2⟩ := findIdx?_child hf
    have : j = i := by
      refine nodup_index_unique _ hnd j i e.2 ?_ ?_
      · rw [List.getElem?_map, h1, ← h2]; rfl
      · rw [List.getElem?_map, he]; rfl
    rw [this]

theorem FindValue_nodup {ip : InternalPage} (hnd : (ip.array_.map Prod.snd).Nodup)
    {i : Nat} {e : KeyType × page_id_t} (he : ip.array_[i]? = some e) :
    ip.FindValue e.2 = .ok i := by
  unfold InternalPage.FindValue
  rw [findIdx?_nodup hnd he]

/-- A key above all stored keys is appended by the leaf `Insert`. -/
theorem LeafPage.Insert_append_leaf {p l1 : LeafPage} {key : KeyType} {value : ValueType}
    (h : p.Insert key value = .ok l1) (hlt : ∀ e ∈ p.array_, e.1 < key) :
    l1.page_id_ = p.page_id_ ∧ l1.parent_page_id_ = p.parent_page_id_ ∧
    l1.max_size_ = p.max_size_ ∧ l1.next_page_id_ = p.next_page_id_ ∧
    l1.array_ = p.array_ ++ [(key, value)] := by
  obtain ⟨_, h1, h2, h3, h4, _, h6⟩ := LeafPage.Insert_ok h
  refine ⟨h1, h2, h3, h4, ?_⟩
  have hk : LeafPage.hasKey p.array_ key = false :=
    hasKey_false_iff.2 (fun e he => ne_of_lt (hlt e he))
  rw [h6 hk, insertIndex_all_lt key p.array_ hlt, List.take_length, List.drop_length]

/-- What the leaf loop of `MergePage` does when the keys of the right leaf
are sorted and above the keys of the left leaf. -/
theorem mergeLeaf_spec :
    ∀ (rs : List (KeyType × ValueType)) (left l1 : LeafPage),
      mergeLeaf left rs = .ok l1 →
      rs.Pairwise (fun a b => a.1 < b.1) →
      (∀ e ∈ left.array_, ∀ x ∈ rs, e.1 < x.1) →
      l1.page_id_ = left.page_id_ ∧ l1.parent_page_id_ = left.parent_page_id_ ∧
      l1.max_size_ = left.max_size_ ∧ l1.next_page_id_ = left.next_page_id_ ∧
      l1.array_ = left.array_ ++ rs := by
  intro rs
  induction rs with
  | nil =>
    intro left l1 h _ _
    unfold mergeLeaf at h
    injection h with h
    subst h
    exact ⟨rfl, rfl, rfl, rfl, (List.append_nil _).symm⟩
  | cons a rest ih =>
    intro left l1 h hs hlt
    unfold mergeLeaf at h
    split at h
    · exact absurd h (by simp)
    · rename_i left1 hins
      obtain ⟨i1, i2, i3, i4, i5⟩ :=
        LeafPage.Insert_append_leaf hins (fun e he => hlt e he a (List.mem_cons_self _ _))
      rw [List.pairwise_cons] at hs
      obtain ⟨j1, j2, j3, j4, j5⟩ := ih left1 l1 h hs.2 (by
        intro e he x hx
        rw [i5, List.mem_append, List.mem_singleton] at he
        rcases he with he | he
        · exact hlt e he x (List.mem_cons_of_mem _ hx)
        · rw [he]; exact hs.1 x hx)
      refine ⟨j1.trans i1, j2.trans i2, j3.trans i3, j4.trans i4, ?_⟩
      rw [j5, i5, List.append_assoc]
      rfl

theorem insertSlots_append (key : KeyType) (value : page_id_t) :
    ∀ arr : List (KeyType × page_id_t), (∀ e ∈ arr, e.1 < key) →
      InternalPage.insertSlots key value arr = arr ++ [(key, value)] := by
  intro arr
  induction arr with
  | nil => intro _; rfl
  | cons a rest ih =>
    intro h
    unfold InternalPage.insertSlots
    rw [if_pos (comparator_lt.2 (h a (List.mem_cons_self _ _)))]
    rw [ih (fun e he => h e (List.mem_cons_of_mem _ he))]
    rfl

/-- A key above the keys of the slots `1 ..` is appended by the `Insert` of
the internal page. -/
theorem InternalPage.Insert_append_slot (ip : InternalPage) (key : KeyType) (value : page_id_t)
    (hne : ip.array_ ≠ []) (hlt : ∀ e ∈ ip.array_.tail, e.1 < key) :
    (ip.Insert key value).array_ = ip.array_ ++ [(key, value)] := by
  unfold InternalPage.Insert
  cases har : ip.array_ with
  | nil => exact absurd har hne
  | cons a rest =>
    rw [har] at hlt
    show a :: InternalPage.insertSlots key value rest = _
    rw [insertSlots_append key value rest hlt]
    rfl

/-- What the internal loop of `MergePage` does when the keys of the slots
are sorted and above the keys of the left page: the slots are appended and
their children get the left page as parent. -/
theorem mergeInternal_spec (p : page_id_t) :
    ∀ (rs : List (KeyType × page_id_t)) (t t1 : BPlusTree) (ip : InternalPage),
      mergeInternal t p rs = .ok t1 →
      t.pages p = some (.internal ip) → ip.page_id_ = p → ip.array_ ≠ [] →
      (∀ x ∈ rs, x.2 ≠ p) →
      rs.Pairwise (fun a b => a.1 < b.1) →
      (∀ e ∈ ip.array_.tail, ∀ x ∈ rs, e.1 < x.1) →
      t1.root_page_id_ = t.root_page_id_ ∧ t1.next_page_id_ = t.next_page_id_ ∧
      t1.leaf_max_size_ = t.leaf_max_size_ ∧
      t1.internal_max_size_ = t.internal_max_size_ ∧
      (∃ ip1, t1.pages p = some (.internal ip1) ∧ ip1.page_id_ = ip.page_id_ ∧
        ip1.parent_page_id_ = ip.parent_page_id_ ∧ ip1.array_ = ip.array_ ++ rs) ∧
      (∀ q, q ≠ p → q ∉ rs.map Prod.snd → t1.pages q = t.pages q) ∧
      (∀ q, q ∈ rs.map Prod.snd →
        ∃ pg, t.pages q = some pg ∧ t1.pages q = some (pg.SetParentPageId p)) := by
  intro rs
  induction rs with
  | nil =>
    intro t t1 ip h hp _ _ _ _ _
    unfold mergeInternal at h
    injection h with h
    subst h
    exact ⟨rfl, rfl, rfl, rfl, ⟨ip, hp, rfl, rfl, (List.append_nil _).symm⟩,
      fun _ _ _ => rfl, fun q hq => absurd hq (by simp)⟩
  | cons a rest ih =>
    intro t t1 ip h hp hid hne hnp hs hlt
    unfold mergeInternal at h
    rw [fetchInternal_of_pages hp] at h
    simp only [] at h
    split at h
    · exact absurd h (by simp)
    · rename_i t2 hu
      obtain ⟨pg, hpg, rfl⟩ := UpdateParentPageId_ok hu
      have hap : a.2 ≠ p := hnp a (List.mem_cons_self _ _)
      rw [store_pages_ne _ _ _ hap] at hpg
      rw [hid] at h
      have harr := InternalPage.Insert_append_slot ip a.1 a.2 hne
        (fun e he => hlt e he a (List.mem_cons_self _ _))
      obtain ⟨f1, f2⟩ := InternalPage.Insert_fields ip a.1 a.2
      rw [List.pairwise_cons] at hs
      have hp2 : ((t.store p (.internal (ip.Insert a.1 a.2))).store a.2
          (pg.SetParentPageId p)).pages p = some (.internal (ip.Insert a.1 a.2)) := by
        rw [store_pages_ne _ _ _ (Ne.symm hap), store_pages_same]
      obtain ⟨i1, i2, i3, i4, ⟨ip1, i5, i6, i7, i8⟩, i9, i10⟩ := ih _ t1 _ h hp2
        (f1.trans hid) (by rw [harr]; simp)
        (fun x hx => hnp x (List.mem_cons_of_mem _ hx)) hs.2 (by
          intro e he x hx
          rw [harr] at he
          cases har : ip.array_ with
          | nil => exact absurd har hne
          | cons b brest =>
            rw [har] at he hlt
            simp only [List.cons_append, List.tail_cons, List.mem_append,
              List.mem_singleton] at he
            rcases he with he | he
            · exact hlt e he x (List.mem_cons_of_mem _ hx)
            · rw [he]; exact hs.1 x hx)
      refine ⟨i1, i2, i3, i4, ⟨ip1, i5, i6.trans f1, i7.trans f2, ?_⟩, ?_, ?_⟩
      · rw [i8, harr, List.append_assoc]; rfl
      · intro q hqp hq
        simp only [List.map_cons, List.mem_cons, not_or] at hq
        rw [i9 q hqp hq.2, store_pages_ne _ _ _ hq.1, store_pages_ne _ _ _ hqp]
      · intro q hq
        by_cases hqr : q ∈ rest.map Prod.snd
        · obtain ⟨pg1, p1, p2⟩ := i10 q hqr
          by_cases hqa : q = a.2
          · rw [hqa] at p1 p2 ⊢
            rw [store_pages_same] at p1
            injection p1 with p1
            rw [← p1, setParent_idem] at p2
            exact ⟨pg, hpg, p2⟩
          · have hqp : q ≠ p := by
              obtain ⟨x, hx, rfl⟩ := List.mem_map.1 hqr
              exact hnp x (List.mem_cons_of_mem _ hx)
            rw [store_pages_ne _ _ _ hqa, store_pages_ne _ _ _ hqp] at p1
            exact ⟨pg1, p1, p2⟩
        · have hqa : q = a.2 := by
            simp only [List.map_cons, List.mem_cons] at hq
            rcases hq with hq | hq
            · exact hq
            · exact absurd hq hqr
          rw [hqa] at hqr ⊢
          rw [i9 a.2 hap hqr, store_pages_same]
          exact ⟨pg, hpg, rfl⟩

theorem RemoveAt_after {ipP : InternalPage} {A B : List (KeyType × page_id_t)}
    {ep er : KeyType × page_id_t} (harr : ipP.array_ = A ++ ep :: er :: B) :
    ipP.RemoveAt (A.length + 1) = .ok { ipP with array_ := A ++ ep :: B } := by
  unfold InternalPage.RemoveAt
  have hlen : A.length + 1 < ipP.array_.length := by
    rw [harr, List.length_append, List.length_cons, List.length_cons]
    omega
  rw [if_pos hlen, harr, eraseIdx_after]

/-- The function `MergePage` on a page and its right sibling keeps the
invariant. -/
theorem Inv.MergePage_inv {t : BPlusTree} {g : Ghost} (h : Inv t g) {P p r : page_id_t}
    {ipP : InternalPage} {A B : List (KeyType × page_id_t)}
    {ep er : KeyType × page_id_t}
    (hP : g.S P) (hPpg : t.pages P = some (.internal ipP))
    (harr : ipP.array_ = A ++ ep :: er :: B) (hep : ep.2 = p) (her : er.2 = r)
    {t1 : BPlusTree} (hm : t.MergePage p r P = .ok t1) :
    Inv t1 (mergeGhost g p r) := by
  have R := h.ranges
  have nP := h.node P hP
  have K := nP.kids ipP hPpg
  rw [harr] at K
  have hndP := K.nodup R
  obtain ⟨k1, k2, k3, k4, k5, k6, k7⟩ := K.neighbours R
  rw [hep] at k1 k3 k5
  rw [her] at k2 k4 k5 k7
  have hpS := k1.1
  have hrS := k2.1
  have npn := h.node p hpS
  have nrn := h.node r hrS
  have hhp : g.ht p + 1 = g.ht P := k1.2.2
  have hhr : g.ht r + 1 = g.ht P := k2.2.2
  have hpP : p ≠ P := by
    intro hf
    rw [hf] at hhp
    omega
  have hrP : r ≠ P := by
    intro hf
    rw [hf] at hhr
    omega
  have hidp : ∀ q pg, g.S q → t.pages q = some pg → pg.GetPageId = q := by
    intro q pg hq hpg
    obtain ⟨pg1, q1, q2⟩ := (h.node q hq).page
    rw [hpg] at q1
    injection q1 with q1
    rw [q1]; exact q2
  have hfind : ∀ ip2 : InternalPage, ip2.array_ = ipP.array_ →
      ip2.FindValue r = .ok (A.length + 1) := by
    intro ip2 h2
    have := @FindValue_nodup ip2 (by rw [h2, harr]; exact hndP) (A.length + 1) er
      (by rw [h2, harr]; exact (getElem?_after A ep er B).2)
    rw [her] at this
    exact this
  obtain ⟨pgp, hpgp, _⟩ := npn.page
  obtain ⟨pgr, hpgr, _⟩ := nrn.page
  unfold MergePage at hm
  rw [fetch_of_pages hpgp, fetch_of_pages hpgr, fetchInternal_of_pages hPpg] at hm
  simp only [] at hm
  cases pgp with
  | leaf lp =>
    cases pgr with
    | internal ir => exact absurd hm (by simp)
    | leaf lr =>
      simp only [] at hm
      have op := npn.leaf lp hpgp
      have orr := nrn.leaf lr hpgr
      split at hm
      · exact absurd hm (by simp)
      · rename_i left1 hml
        obtain ⟨i1, i2, i3, i4, i5⟩ := mergeLeaf_spec _ _ _ hml orr.sorted (by
          intro e he x hx
          have h1 := (op.inside e he).2 er.1 k3
          have h2 := (orr.inside x hx).1 er.1 k4
          linarith)
        have hPs : (t.store p (.leaf { left1 with next_page_id_ := lr.next_page_id_ })).pages P
            = some (.internal ipP) := by
          rw [store_pages_ne _ _ _ (Ne.symm hpP)]; exact hPpg
        rw [fetchInternal_of_pages hPs] at hm
        simp only [] at hm
        have hrid : lr.page_id_ = r := hidp r _ hrS hpgr
        rw [hrid, hfind ipP rfl] at hm
        simp only [] at hm
        rw [RemoveAt_after harr] at hm
        simp only [] at hm
        injection hm with hm
        subst hm
        refine h.merge_leaf hP hPpg harr hep her hpgp hpgr _
          { left1 with next_page_id_ := lr.next_page_id_ }
          { ipP with array_ := A ++ ep :: B } rfl rfl rfl ?_ ?_ ?_ i1 i2 i3 rfl i5 rfl rfl rfl
        · rw [store_pages_ne _ _ _ hpP, store_pages_same]
        · rw [store_pages_same]
        · intro q hqp hqP
          rw [store_pages_ne _ _ _ hqP, store_pages_ne _ _ _ hqp]
  | internal ip =>
    cases pgr with
    | leaf lr => exact absurd hm (by simp)
    | internal ir =>
      simp only [] at hm
      have hrid : ir.page_id_ = r := hidp r _ hrS hpgr
      have hpid : ip.page_id_ = p := hidp p _ hpS hpgp
      rw [hrid, hfind ipP rfl] at hm
      simp only [] at hm
      have hslot : ipP.slotAt (A.length + 1) = .ok er := by
        unfold InternalPage.slotAt
        rw [harr, (getElem?_after A ep er B).2]
      rw [hslot] at hm
      have Kp := npn.kids ip hpgp
      have Kr := nrn.kids ir hpgr
      obtain ⟨s0, tl, hir, hc0c, hl0, hsr⟩ := Kr
      have hndr : ((s0 :: tl).map Prod.snd).Nodup := by
        have := (nrn.kids ir hpgr).nodup R
        rw [hir] at this
        exact this
      have hkidr : ∀ c, c ∈ (s0 :: tl).map Prod.snd → IsChild t g r c := by
        intro c hc
        obtain ⟨x, hx, rfl⟩ := List.mem_map.1 hc
        exact (nrn.kids ir hpgr).child_of_mem x (by rw [hir]; exact hx)
      have hnk : ∀ q, g.ht r ≤ g.ht q → q ∉ (s0 :: tl).map Prod.snd := by
        intro q hq hf
        have := (hkidr q hf).2.2
        omega
      have hpk := hnk p (by omega)
      have hPk := hnk P (by omega)
      have hslot0 : ir.slotAt 0 = .ok s0 := by
        unfold InternalPage.slotAt
        rw [hir]
        simp only [List.getElem?_cons_zero]
      rw [hslot0] at hm
      simp only [] at hm
      have hcp : s0.2 ≠ p := fun hf => hpk (by rw [← hf]; exact List.mem_cons_self _ _)
      have hcP : s0.2 ≠ P := fun hf => hPk (by rw [← hf]; exact List.mem_cons_self _ _)
      obtain ⟨pg0, hpg0, _⟩ := (h.node s0.2 hc0c.1).page
      split at hm
      · rename_i err hu
        unfold UpdateParentPageId at hu
        rw [store_pages_ne _ _ _ hcp, hpg0] at hu
        cases hu
      · rename_i t2 hu
        obtain ⟨pg0b, hpg0b, rfl⟩ := UpdateParentPageId_ok hu
        rw [store_pages_ne _ _ _ hcp, hpg0] at hpg0b
        injection hpg0b with hpg0b
        subst hpg0b
        rw [hpid] at hm
        have hPs : ((t.store p (.internal (ip.Insert er.1 s0.2))).store s0.2
            (pg0.SetParentPageId p)).pages P = some (.internal ipP) := by
          rw [store_pages_ne _ _ _ (Ne.symm hcP), store_pages_ne _ _ _ (Ne.symm hpP)]
          exact hPpg
        rw [fetchInternal_of_pages hPs] at hm
        simp only [] at hm
        rw [hfind ipP rfl] at hm
        simp only [] at hm
        rw [RemoveAt_after harr] at hm
        simp only [] at hm
        -- the keys
        obtain ⟨f0, frest, hfarr, hf0, hfl, hfs⟩ := Kp
        have hkp := (hfs.keys R).2.2
        have hlo_c : g.lo s0.2 = some er.1 := hl0.trans k4
        have hkr := hsr.keys R
        have hgt : ∀ x ∈ tl, er.1 < x.1 := by
          intro x hx
          cases htl : tl with
          | nil => rw [htl] at hx; exact absurd hx (List.not_mem_nil _)
          | cons y ys =>
            rw [htl] at hsr
            have hm1 : g.hi s0.2 = some y.1 := hsr.1
            have h1 := (h.node s0.2 hc0c.1).range er.1 y.1 hlo_c hm1
            have h2 := hkr.2.1 x hx y.1 hm1
            linarith
        have hins : (ip.Insert er.1 s0.2).array_ = ip.array_ ++ [(er.1, s0.2)] := by
          refine InternalPage.Insert_append_slot ip er.1 s0.2 (by rw [hfarr]; simp) ?_
          intro e he
          rw [hfarr] at he
          exact hkp e he er.1 k3
        obtain ⟨f1, f2⟩ := InternalPage.Insert_fields ip er.1 s0.2
        have hp3 : (((t.store p (.internal (ip.Insert er.1 s0.2))).store s0.2
            (pg0.SetParentPageId p)).store P
              (.internal { ipP with array_ := A ++ ep :: B })).pages p =
            some (.internal (ip.Insert er.1 s0.2)) := by
          rw [store_pages_ne _ _ _ hpP, store_pages_ne _ _ _ (Ne.symm hcp), store_pages_same]
        rw [hir, List.tail_cons] at hm
        obtain ⟨j1, j2, j3, j4, ⟨ip1, j5, j6, j7, j8⟩, j9, j10⟩ :=
          mergeInternal_spec p tl _ t1 _ hm hp3 (f1.trans hpid) (by rw [hins]; simp)
            (fun x hx hf => hpk (hf ▸ List.mem_map.2 ⟨x, List.mem_cons_of_mem _ hx, rfl⟩))
            hkr.1 (by
              intro e he x hx
              rw [hins, hfarr] at he
              simp only [List.cons_append, List.tail_cons, List.mem_append,
                List.mem_singleton] at he
              rcases he with he | he
              · have := hkp e he er.1 k3
                have := hgt x hx
                linarith
              · rw [he]; exact hgt x hx)
        have hc_tl : s0.2 ∉ tl.map Prod.snd := by
          rw [List.map_cons, List.nodup_cons] at hndr
          exact hndr.1
        refine h.merge_internal hP hPpg harr hep her hpgp hpgr hir t1 ip1
          { ipP with array_ := A ++ ep :: B } j1 j2 j3 j5 ?_ ?_ ?_ (j6.trans f1) (j7.trans f2)
          ?_ rfl rfl rfl
        · rw [j9 P (Ne.symm hpP) (fun hf => hPk (List.mem_cons_of_mem _ hf)), store_pages_same]
        · intro c hc
          rw [List.map_cons, List.mem_cons] at hc
          by_cases hct : c ∈ tl.map Prod.snd
          · obtain ⟨pg, g1, g2⟩ := j10 c hct
            have hcc : c ≠ s0.2 := fun hf => hc_tl (hf ▸ hct)
            have hcPn : c ≠ P := fun hf => hPk (hf ▸ List.mem_cons_of_mem _ hct)
            have hcpn : c ≠ p := fun hf => hpk (hf ▸ List.mem_cons_of_mem _ hct)
            rw [store_pages_ne _ _ _ hcPn, store_pages_ne _ _ _ hcc,
              store_pages_ne _ _ _ hcpn] at g1
            exact ⟨pg, g1, g2⟩
          · have hcs : c = s0.2 := by
              rcases hc with hc | hc
              · exact hc
              · exact absurd hc hct
            rw [hcs]
            refine ⟨pg0, hpg0, ?_⟩
            rw [j9 s0.2 hcp hc_tl, store_pages_ne _ _ _ hcP, store_pages_same]
        · intro q hqp hqP hqc
          rw [List.map_cons, List.mem_cons, not_or] at hqc
          rw [j9 q hqp hqc.2, store_pages_ne _ _ _ hqP, store_pages_ne _ _ _ hqc.1,
            store_pages_ne _ _ _ hqp]
        · rw [j8, hins, List.append_assoc]; rfl

theorem SetKeyAt_after {ipP : InternalPage} {A B : List (KeyType × page_id_t)}
    {ep er : KeyType × page_id_t} (harr : ipP.array_ = A ++ ep :: er :: B) (k : KeyType) :
    ipP.SetKeyAt (A.length + 1) k = .ok { ipP with array_ := A ++ ep :: (k, er.2) :: B } := by
  unfold InternalPage.SetKeyAt
  rw [harr, (getElem?_after A ep er B).2]
  simp only []
  rw [set_after]

/-- The function `BorrowKey` on a page and its right sibling keeps the
invariant; when it returns false the tree is as before. -/
theorem Inv.BorrowKey_right {t : BPlusTree} {g : Ghost} (h : Inv t g) {P p r : page_id_t}
    {ipP : InternalPage} {A B : List (KeyType × page_id_t)}
    {ep er : KeyType × page_id_t}
    (hP : g.S P) (hPpg : t.pages P = some (.internal ipP))
    (harr : ipP.array_ = A ++ ep :: er :: B) (hep : ep.2 = p) (her : er.2 = r)
    {t1 : BPlusTree} {b : Bool} (hb : t.BorrowKey p (some r) P false = .ok (t1, b)) :
    (b = false ∧ t1 = t) ∨ (b = true ∧ ∃ k, Inv t1 (borrowGhost g p r k)) := by
  have R := h.ranges
  have nP := h.node P hP
  have K := nP.kids ipP hPpg
  rw [harr] at K
  have hndP := K.nodup R
  obtain ⟨k1, k2, k3, k4, k5, k6, k7⟩ := K.neighbours R
  rw [hep] at k1 k3 k5
  rw [her] at k2 k4 k5 k7
  have hpS := k1.1
  have hrS := k2.1
  have npn := h.node p hpS
  have nrn := h.node r hrS
  have hhp : g.ht p + 1 = g.ht P := k1.2.2
  have hhr : g.ht r + 1 = g.ht P := k2.2.2
  have hpP : p ≠ P := by
    intro hf
    rw [hf] at hhp
    omega
  have hrP : r ≠ P := by
    intro hf
    rw [hf] at hhr
    omega
  have hidp : ∀ q pg, g.S q → t.pages q = some pg → pg.GetPageId = q := by
    intro q pg hq hpg
    obtain ⟨pg1, q1, q2⟩ := (h.node q hq).page
    rw [hpg] at q1
    injection q1 with q1
    rw [q1]; exact q2
  have hfind : ipP.FindValue p = .ok A.length := by
    have := @FindValue_nodup ipP (by rw [harr]; exact hndP) A.length ep
      (by rw [harr]; exact (getElem?_after A ep er B).1)
    rw [hep] at this
    exact this
  obtain ⟨pgp, hpgp, hpid⟩ := npn.page
  obtain ⟨pgr, hpgr, hrid⟩ := nrn.page
  unfold BorrowKey at hb
  simp only [] at hb
  rw [fetch_of_pages hpgp, fetch_of_pages hpgr, fetchInternal_of_pages hPpg] at hb
  simp only [] at hb
  split at hb
  · injection hb with hb
    injection hb with hb1 hb2
    exact Or.inl ⟨hb2.symm, hb1.symm⟩
  · rw [hpid, hfind] at hb
    simp only [Bool.false_eq_true, if_false] at hb
    right
    cases pgp with
    | leaf lp =>
      cases pgr with
      | internal ir => exact absurd hb (by simp)
      | leaf lr =>
        simp only [TreePage.IsLeafPage, if_true] at hb
        have op := npn.leaf lp hpgp
        have orr := nrn.leaf lr hpgr
        cases hlr0 : lr.array_ with
        | nil => rw [hlr0] at hb; exact absurd hb (by simp)
        | cons e rest1 =>
          have hrem : lr.RemoveAt 0 = .ok { lr with array_ := rest1 } := by
            unfold LeafPage.RemoveAt
            rw [hlr0]
            simp
          rw [hrem, hlr0] at hb
          simp only [List.getElem?_cons_zero] at hb
          cases hins : lp.Insert e.1 e.2 with
          | error err => rw [hins] at hb; exact absurd hb (by simp)
          | ok leaf1 =>
            rw [hins] at hb
            simp only [] at hb
            cases rest1 with
            | nil => exact absurd hb (by simp)
            | cons first tl =>
              simp only [List.head?_cons] at hb
              have hPs : ((t.store p (.leaf leaf1)).store r
                  (.leaf { lr with array_ := first :: tl })).pages P = some (.internal ipP) := by
                rw [store_pages_ne _ _ _ (Ne.symm hrP), store_pages_ne _ _ _ (Ne.symm hpP)]
                exact hPpg
              rw [fetchInternal_of_pages hPs] at hb
              simp only [] at hb
              rw [SetKeyAt_after harr] at hb
              simp only [] at hb
              injection hb with hb
              injection hb with hb1 hb2
              subst hb1
              refine ⟨hb2.symm, first.1, ?_⟩
              have he_lo : er.1 ≤ e.1 :=
                (orr.inside e (by rw [hlr0]; exact List.mem_cons_self _ _)).1 er.1 k4
              obtain ⟨i1, i2, i3, i4, i5⟩ := LeafPage.Insert_append_leaf hins (by
                intro x hx
                have := (op.inside x hx).2 er.1 k3
                linarith)
              refine h.borrow_leaf hP hPpg harr hep her hpgp hpgr hlr0 _ leaf1
                { lr with array_ := first :: tl }
                { ipP with array_ := A ++ ep :: (first.1, er.2) :: B } rfl rfl rfl ?_ ?_ ?_ ?_
                i1 i2 i3 i4 i5 rfl rfl rfl rfl rfl rfl rfl (by rw [her])
              · rw [store_pages_ne _ _ _ hpP, store_pages_ne _ _ _ k5, store_pages_same]
              · rw [store_pages_ne _ _ _ hrP, store_pages_same]
              · rw [store_pages_same]
              · intro q hqp hqr hqP
                rw [store_pages_ne _ _ _ hqP, store_pages_ne _ _ _ hqr,
                  store_pages_ne _ _ _ hqp]
    | internal ip =>
      cases pgr with
      | leaf lr => exact absurd hb (by simp)
      | internal ir =>
        simp only [TreePage.IsLeafPage, Bool.false_eq_true, if_false] at hb
        have hpslot : ipP.slotAt (A.length + 1) = .ok er := by
          unfold InternalPage.slotAt
          rw [harr, (getElem?_after A ep er B).2]
        have hpi : ip.page_id_ = p := hpid
        cases hir : ir.array_ with
        | nil =>
          have : ir.slotAt 1 = .error .slotOutOfRange := by
            unfold InternalPage.slotAt
            rw [hir]
            rfl
          rw [this] at hb
          exact absurd hb (by simp)
        | cons s0 rest1 =>
          cases rest1 with
          | nil =>
            have : ir.slotAt 1 = .error .slotOutOfRange := by
              unfold InternalPage.slotAt
              rw [hir]
              rfl
            rw [this] at hb
            exact absurd hb (by simp)
          | cons s1 tl =>
            have e1 : ir.slotAt 1 = .ok s1 := by
              unfold InternalPage.slotAt
              rw [hir]
              simp
            have e0 : ir.slotAt 0 = .ok s0 := by
              unfold InternalPage.slotAt
              rw [hir]
              simp
            have hsv : ir.SetValueAt 0 s1.2 =
                .ok { ir with array_ := (s0.1, s1.2) :: s1 :: tl } := by
              unfold InternalPage.SetValueAt
              rw [hir]
              simp
            have hrem : ({ ir with array_ := (s0.1, s1.2) :: s1 :: tl } : InternalPage).RemoveAt 1
                = .ok { ir with array_ := (s0.1, s1.2) :: tl } := by
              unfold InternalPage.RemoveAt
              simp
            rw [e1, e0, hpslot] at hb
            simp only [] at hb
            rw [hsv] at hb
            simp only [] at hb
            rw [hrem] at hb
            simp only [] at hb
            have Kr := nrn.kids ir hpgr
            rw [hir] at Kr
            have hc0c := Kr.child_of_mem s0 (List.mem_cons_self _ _)
            have hhc : g.ht s0.2 + 1 = g.ht r := hc0c.2.2
            have hcp : s0.2 ≠ p := by
              intro hf
              rw [hf] at hhc
              omega
            have hcr : s0.2 ≠ r := by
              intro hf
              rw [hf] at hhc
              omega
            have hcP : s0.2 ≠ P := by
              intro hf
              rw [hf] at hhc
              omega
            obtain ⟨pg0, hpg0, _⟩ := (h.node s0.2 hc0c.1).page
            split at hb
            · rename_i err hu
              unfold UpdateParentPageId at hu
              rw [store_pages_ne _ _ _ hcr, store_pages_ne _ _ _ hcp, hpg0] at hu
              cases hu
            · rename_i t2 hu
              obtain ⟨pg0b, hpg0b, rfl⟩ := UpdateParentPageId_ok hu
              rw [store_pages_ne _ _ _ hcr, store_pages_ne _ _ _ hcp, hpg0] at hpg0b
              injection hpg0b with hpg0b
              subst hpg0b
              have hPs : (((t.store p (.internal
                  { ip with array_ := ip.array_ ++ [(er.1, s0.2)] })).store r
                  (.internal { ir with array_ := (s0.1, s1.2) :: tl })).store s0.2
                  (pg0.SetParentPageId ip.page_id_)).pages P = some (.internal ipP) := by
                rw [store_pages_ne _ _ _ (Ne.symm hcP), store_pages_ne _ _ _ (Ne.symm hrP),
                  store_pages_ne _ _ _ (Ne.symm hpP)]
                exact hPpg
              rw [fetchInternal_of_pages hPs] at hb
              simp only [] at hb
              rw [SetKeyAt_after harr] at hb
              simp only [] at hb
              injection hb with hb
              injection hb with hb1 hb2
              subst hb1
              refine ⟨hb2.symm, s1.1, ?_⟩
              refine h.borrow_internal hP hPpg harr hep her hpgp hpgr hir hpg0 _
                { ip with array_ := ip.array_ ++ [(er.1, s0.2)] }
                { ir with array_ := (s0.1, s1.2) :: tl }
                { ipP with array_ := A ++ ep :: (s1.1, er.2) :: B } rfl rfl rfl ?_ ?_ ?_ ?_ ?_
                rfl rfl rfl rfl rfl rfl rfl rfl (by rw [her])
              · rw [store_pages_ne _ _ _ hpP, store_pages_ne _ _ _ (Ne.symm hcp),
                  store_pages_ne _ _ _ k5, store_pages_same]
              · rw [store_pages_ne _ _ _ hrP, store_pages_ne _ _ _ (Ne.symm hcr),
                  store_pages_same]
              · rw [store_pages_same]
              · rw [store_pages_ne _ _ _ hcP, store_pages_same, hpi]
              · intro q hqp hqr hqP hqc
                rw [store_pages_ne _ _ _ hqP, store_pages_ne _ _ _ hqc,
                  store_pages_ne _ _ _ hqr, store_pages_ne _ _ _ hqp]

/-- What `GetSiblings` returns as the right sibling of a page of the tree
that is not the root: the child of the next slot of the parent. -/
theorem Inv.GetSiblings_spec {t : BPlusTree} {g : Ghost} (h : Inv t g) {q : page_id_t}
    {pg : TreePage} (hq : g.S q) (hpg : t.pages q = some pg) (hnr : pg.IsRootPage = false)
    {l r : page_id_t} (hgs : t.GetSiblings pg = .ok (l, r)) :
    g.S pg.GetParentPageId ∧ ∃ ipP, t.pages pg.GetParentPageId = some (.internal ipP) ∧
      (r ≠ INVALID_PAGE_ID → ∃ A B ep er, ipP.array_ = A ++ ep :: er :: B ∧ ep.2 = q ∧
        er.2 = r) := by
  have n := h.node q hq
  have hid : pg.GetPageId = q := by
    obtain ⟨pg1, q1, q2⟩ := n.page
    rw [hpg] at q1
    injection q1 with q1
    rw [q1]; exact q2
  have hpar : parentOf t q = pg.GetParentPageId := parentOf_of_pages hpg
  have hne : parentOf t q ≠ INVALID_PAGE_ID := by
    intro hf
    have := (isRootPage_iff hpg).2 hf
    rw [hnr] at this
    cases this
  obtain ⟨u1, ipP, u2, _⟩ := (n.up (fun hf => hf)).inner hne
  rw [hpar] at u1 u2
  refine ⟨u1, ipP, u2, ?_⟩
  intro hr
  unfold GetSiblings at hgs
  rw [hnr, fetchInternal_of_pages u2, hid] at hgs
  simp only [Bool.false_eq_true, if_false] at hgs
  cases hf : ipP.array_.findIdx? (fun e => e.2 == q) with
  | none =>
    rw [hf] at hgs
    cases hgs
  | some index =>
    rw [hf] at hgs
    simp only [] at hgs
    injection hgs with hgs
    injection hgs with _ hgs
    obtain ⟨ep, hep1, hep2⟩ := findIdx?_child hf
    by_cases hlen : index + 1 < ipP.array_.length
    · rw [if_pos hlen] at hgs
      cases her : ipP.array_[index + 1]? with
      | none =>
        rw [her] at hgs
        exact absurd hgs.symm hr
      | some er =>
        rw [her] at hgs
        obtain ⟨A, B, hAB, _⟩ := getElem?_two_split ipP.array_ index ep er hep1 her
        exact ⟨A, B, ep, er, hAB, hep2, hgs⟩
    · rw [if_neg hlen] at hgs
      exact absurd hgs.symm hr

theorem InvG.no_invalid_page {t : BPlusTree} {g : Ghost} {eh : page_id_t → Option KeyType}
    {det : page_id_t → Prop} (h : InvG t g eh det) :
    t.fetch INVALID_PAGE_ID = .error (.fetchNoPage INVALID_PAGE_ID) := by
  unfold fetch
  cases hp : t.pages INVALID_PAGE_ID with
  | none => rfl
  | some pg =>
    have := (h.store_lt _ pg hp).1
    exact absurd this (by decide)

theorem BorrowKey_none (t : BPlusTree) (q P : page_id_t) (b : Bool) :
    t.BorrowKey q none P b = .ok (t, false) := by
  unfold BorrowKey
  rfl

/-- The function `HandleUnderFlow` keeps the invariant. -/
theorem Inv.HandleUnderFlow_inv :
    ∀ (fuel : Nat) (t : BPlusTree) (g : Ghost) (q : page_id_t) (t1 : BPlusTree),
      Inv t g → g.S q → HandleUnderFlow fuel t q = .ok t1 → ∃ g1, Inv t1 g1 := by
  intro fuel
  induction fuel with
  | zero =>
    intro t g q t1 _ _ hh
    unfold HandleUnderFlow at hh
    cases hh
  | succ fuel ih =>
    intro t g q t1 h hq hh
    have n := h.node q hq
    obtain ⟨pg, hpg, hid⟩ := n.page
    unfold HandleUnderFlow at hh
    rw [fetch_of_pages hpg] at hh
    simp only [] at hh
    cases hroot : pg.IsRootPage with
    | true =>
      rw [hroot] at hh
      simp only [if_true] at hh
      split at hh
      · injection hh with hh
        subst hh
        exact ⟨g, h⟩
      · rename_i hcond
        cases pg with
        | leaf l => exact absurd hh (by simp)
        | internal ip =>
          simp only [] at hh
          have hpar0 : parentOf t q = INVALID_PAGE_ID := (isRootPage_iff hpg).1 hroot
          have hqr : q = t.root_page_id_ := (n.up (fun hf => hf)).top hpar0
          have hemp : t.IsEmpty = false := by
            unfold IsEmpty
            rw [← hqr]
            exact beq_false_of_ne (InvG.ne_invalid h hq)
          rw [hqr] at hpg
          cases har : ip.array_ with
          | nil =>
            have : ip.slotAt 0 = .error .slotOutOfRange := by
              unfold InternalPage.slotAt
              rw [har]
              rfl
            rw [this] at hh
            exact absurd hh (by simp)
          | cons e0 rest =>
            have hs0 : ip.slotAt 0 = .ok e0 := by
              unfold InternalPage.slotAt
              rw [har]
              simp
            rw [hs0] at hh
            simp only [] at hh
            have hrest : rest = [] := by
              cases rest with
              | nil => rfl
              | cons a b =>
                exfalso
                apply hcond
                simp [TreePage.GetSize, har]
            subst hrest
            obtain ⟨pgc, hpgc, rfl⟩ := UpdateParentPageId_ok hh
            exact ⟨_, h.collapse_root hemp hpg har _ pgc rfl rfl rfl hpgc
              (store_pages_same _ _ _) (fun c hc => store_pages_ne _ _ _ hc)⟩
    | false =>
      rw [hroot] at hh
      simp only [Bool.false_eq_true, if_false] at hh
      cases hgs : t.GetSiblings pg with
      | error e =>
        rw [hgs] at hh
        exact absurd hh (by simp)
      | ok lr =>
        obtain ⟨l, r⟩ := lr
        rw [hgs] at hh
        simp only [] at hh
        obtain ⟨hP, ipP, hPpg, hsplit⟩ := h.GetSiblings_spec hq hpg hroot hgs
        by_cases hr : r = INVALID_PAGE_ID
        · rw [hr] at hh
          rw [InvG.no_invalid_page h] at hh
          simp only [ne_eq, not_true_eq_false, if_false] at hh
          by_cases hl : l = INVALID_PAGE_ID
          · rw [if_neg (not_not.2 hl)] at hh
            exact absurd hh (by simp)
          · rw [if_pos hl] at hh
            exact absurd hh (by simp)
        · obtain ⟨A, B, ep, er, harr, hep, her⟩ := hsplit hr
          rw [if_pos hr] at hh
          cases hfr : t.fetch r with
          | error e =>
            rw [hfr] at hh
            exact absurd hh (by simp)
          | ok pgr =>
            rw [hfr] at hh
            simp only [] at hh
            rw [BorrowKey_none] at hh
            simp only [] at hh
            cases hbk : t.BorrowKey q (some r) pg.GetParentPageId false with
            | error e =>
              rw [hbk] at hh
              exact absurd hh (by simp)
            | ok res =>
              obtain ⟨t2, b⟩ := res
              rw [hbk] at hh
              rcases h.BorrowKey_right hP hPpg harr hep her hbk with ⟨hb1, hb2⟩ | ⟨hb1, k, hb2⟩
              · subst hb1
                subst hb2
                simp only [] at hh
                cases hmg : t2.MergePage q r pg.GetParentPageId with
                | error e =>
                  rw [hmg] at hh
                  exact absurd hh (by simp)
                | ok t3 =>
                  rw [hmg] at hh
                  simp only [] at hh
                  have h3 := h.MergePage_inv hP hPpg harr hep her hmg
                  split at hh
                  · exact absurd hh (by simp)
                  · split at hh
                    · refine ih t3 _ _ t1 h3 ?_ hh
                      refine ⟨hP, ?_⟩
                      intro hf
                      have K := (h.node _ hP).kids ipP hPpg
                      have hc := K.child_of_mem er (by rw [harr]; simp)
                      have := hc.2.2
                      rw [her, ← hf] at this
                      omega
                    · injection hh with hh
                      subst hh
                      exact ⟨_, h3⟩
              · subst hb1
                simp only [] at hh
                injection hh with hh
                subst hh
                exact ⟨_, hb2⟩

/-- The empty tree satisfies the invariant. -/
theorem Inv.of_new (leaf_max_size internal_max_size : Nat) (first_page_id : page_id_t)
    (h0 : 0 ≤ first_page_id) :
    Inv (BPlusTree.new leaf_max_size internal_max_size first_page_id) emptyGhost := by
  refine ⟨h0, ?_, ?_, ?_, ?_⟩
  · intro p pg hp
    cases hp
  · intro hne
    cases hne
  · intro p hp
    exact False.elim hp
  · intro p q x hp
    exact False.elim hp

/-- The function `Remove` keeps the invariant. -/
theorem Inv.Remove_inv {t : BPlusTree} {g : Ghost} (h : Inv t g) {key : KeyType}
    {t1 : BPlusTree} (hr : t.Remove key = .ok t1) : ∃ g1, Inv t1 g1 := by
  unfold Remove at hr
  cases hemp : t.IsEmpty with
  | true =>
    rw [hemp] at hr
    simp only [if_true] at hr
    injection hr with hr
    subst hr
    exact ⟨g, h⟩
  | false =>
    rw [hemp] at hr
    simp only [Bool.false_eq_true, if_false] at hr
    split at hr
    · exact absurd hr (by simp)
    · rename_i leaf_id hg
      obtain ⟨hS, _, _, _⟩ := h.GetLeafPage_spec hemp hg
      split at hr
      · exact absurd hr (by simp)
      · rename_i leaf hfl
        have hpg := fetchLeaf_ok hfl
        have o := (h.node leaf_id hS).leaf leaf hpg
        have hsub := removeKey_sublist key leaf.array_
        have h1 : Inv (t.store leaf_id (.leaf (leaf.Remove key))) g :=
          h.leaf_update hS hpg rfl rfl rfl rfl (o.sorted.sublist hsub)
            (fun e he => o.inside e (hsub.subset he))
        split at hr
        · injection hr with hr
          subst hr
          exact ⟨g, h1⟩
        · split at hr
          · exact Inv.HandleUnderFlow_inv _ _ g leaf_id t1 h1 hS hr
          · injection hr with hr
            subst hr
            exact ⟨g, h1⟩

/-- Every tree state reached from the empty tree satisfies the invariant. -/
theorem Reachable.tree_inv {leaf_max_size internal_max_size : Nat} {first_page_id : page_id_t}
    (h0 : 0 ≤ first_page_id) {t : BPlusTree}
    (hr : Reachable leaf_max_size internal_max_size first_page_id t) : ∃ g, Inv t g := by
  induction hr with
  | init => exact ⟨_, Inv.of_new _ _ _ h0⟩
  | insert _ hi ih =>
    obtain ⟨g, hg⟩ := ih
    exact hg.Insert_inv hi
  | remove _ hi ih =>
    obtain ⟨g, hg⟩ := ih
    exact hg.Remove_inv hi

/-- A tree state reached by a sequence of calls from a reachable state is
reachable. -/
theorem Reachable.of_runCalls {leaf_max_size internal_max_size : Nat}
    {first_page_id : page_id_t} :
    ∀ (calls : List (KeyType × Option ValueType)) (t t1 : BPlusTree),
      Reachable leaf_max_size internal_max_size first_page_id t →
      t.runCalls calls = .ok t1 →
      Reachable leaf_max_size internal_max_size first_page_id t1 := by
  intro calls
  induction calls with
  | nil =>
    intro t t1 hr h
    unfold runCalls at h
    injection h with h
    subst h
    exact hr
  | cons c rest ih =>
    intro t t1 hr h
    obtain ⟨key, v⟩ := c
    cases v with
    | some value =>
      unfold runCalls at h
      split at h
      · exact absurd h (by simp)
      · rename_i res hi
        exact ih _ _ (Reachable.insert hr hi) h
    | none =>
      unfold runCalls at h
      split at h
      · exact absurd h (by simp)
      · rename_i t2 hi
        exact ih _ _ (Reachable.remove hr hi) h

/-- No page of the tree is higher than the root.  A page not yet entered in
its parent is as high as a page that is. -/
theorem InvG.ht_le_root {t : BPlusTree} {g : Ghost} {eh : page_id_t → Option KeyType}
    {det : page_id_t → Prop} (h : InvG t g eh det)
    (hdet : ∀ d, g.S d → det d → ∃ o, g.S o ∧ ¬ det o ∧ g.ht o = g.ht d) :
    ∀ (n : Nat) (q : page_id_t), g.S q → ¬ det q → t.next_page_id_.toNat - g.ht q ≤ n →
      g.ht q ≤ g.ht t.root_page_id_ := by
  intro n
  induction n with
  | zero =>
    intro q hq _ hn
    have := (h.node q hq).ht_lt
    omega
  | succ n ih =>
    intro q hq hnd hn
    have hlt := (h.node q hq).ht_lt
    have u := (h.node q hq).up hnd
    by_cases hpar : parentOf t q = INVALID_PAGE_ID
    · rw [← u.top hpar]
    · obtain ⟨hSP, ip, hip, hmem⟩ := u.inner hpar
      obtain ⟨e, he, heq⟩ := List.mem_map.1 hmem
      have hc := ((h.node _ hSP).kids ip hip).child_of_mem e he
      rw [heq] at hc
      have hht : g.ht q + 1 = g.ht (parentOf t q) := hc.2.2
      by_cases hdP : det (parentOf t q)
      · obtain ⟨o, ho, hno, hho⟩ := hdet _ hSP hdP
        have := ih o ho hno (by omega)
        omega
      · have := ih _ hSP hdP (by omega)
        omega

theorem Inv.ht_le_root_inv {t : BPlusTree} {g : Ghost} (h : Inv t g) {q : page_id_t}
    (hq : g.S q) : g.ht q ≤ g.ht t.root_page_id_ :=
  InvG.ht_le_root h (fun _ _ hd => False.elim hd) _ q hq (fun hd => hd) (le_refl _)

theorem Pending.ht_le_root_old {t : BPlusTree} {g : Ghost} {old nw : page_id_t} {s : KeyType}
    (h : Pending t g old nw s) : g.ht old ≤ g.ht t.root_page_id_ :=
  InvG.ht_le_root h.inv
    (fun d _ hd => ⟨old, h.S_old, h.ne, by rw [hd]; exact h.ht.symm⟩) _ old h.S_old h.ne
    (le_refl _)

theorem fetch_no_loop (t : BPlusTree) (p : page_id_t) :
    t.fetch p ≠ .error .loopForever := by
  unfold fetch
  split <;> simp

theorem fetchLeaf_no_loop (t : BPlusTree) (p : page_id_t) :
    t.fetchLeaf p ≠ .error .loopForever := by
  unfold fetchLeaf
  split <;> simp

theorem fetchInternal_no_loop (t : BPlusTree) (p : page_id_t) :
    t.fetchInternal p ≠ .error .loopForever := by
  unfold fetchInternal
  split <;> simp

theorem UpdateParentPageId_no_loop (t : BPlusTree) (p P : page_id_t) :
    t.UpdateParentPageId p P ≠ .error .loopForever := by
  unfold UpdateParentPageId
  split <;> simp

theorem reparent_no_loop (N : page_id_t) :
    ∀ (moved : List (KeyType × page_id_t)) (t : BPlusTree),
      reparent t N moved ≠ .error .loopForever := by
  intro moved
  induction moved with
  | nil => intro t; unfold reparent; simp
  | cons a rest ih =>
    intro t
    unfold reparent
    split
    · rename_i err hu
      intro hf
      injection hf with hf
      subst hf
      exact UpdateParentPageId_no_loop _ _ _ hu
    · exact ih _

theorem LeafPage.leaf_Insert_no_loop (p : LeafPage) (key : KeyType) (value : ValueType) :
    p.Insert key value ≠ .error .loopForever := by
  unfold LeafPage.Insert
  split
  · split <;> simp
  · simp

theorem LeafPage.MoveDataTo_no_loop (p q : LeafPage) (a b : Nat) :
    p.MoveDataTo q a b ≠ .error .loopForever := by
  unfold LeafPage.MoveDataTo
  split <;> simp

theorem LeafPage.leaf_RemoveAt_no_loop (p : LeafPage) (i : Nat) :
    p.RemoveAt i ≠ .error .loopForever := by
  unfold LeafPage.RemoveAt
  split
  · simp
  · split <;> simp

theorem InternalPage.FindValue_no_loop (p : InternalPage) (v : page_id_t) :
    p.FindValue v ≠ .error .loopForever := by
  unfold InternalPage.FindValue
  split <;> simp

theorem InternalPage.RemoveAt_no_loop (p : InternalPage) (i : Nat) :
    p.RemoveAt i ≠ .error .loopForever := by
  unfold InternalPage.RemoveAt
  split <;> simp

theorem InternalPage.slotAt_no_loop (p : InternalPage) (i : Nat) :
    p.slotAt i ≠ .error .loopForever := by
  unfold InternalPage.slotAt
  split <;> simp

theorem InternalPage.SetKeyAt_no_loop (p : InternalPage) (i : Nat) (k : KeyType) :
    p.SetKeyAt i k ≠ .error .loopForever := by
  unfold InternalPage.SetKeyAt
  split <;> simp

theorem InternalPage.SetValueAt_no_loop (p : InternalPage) (i : Nat) (v : page_id_t) :
    p.SetValueAt i v ≠ .error .loopForever := by
  unfold InternalPage.SetValueAt
  split <;> simp

/-- The binary search ends within as many rounds as the interval is long. -/
theorem searchLoop_no_loop (arr : List (KeyType × page_id_t)) (key : KeyType) :
    ∀ (fuel l r : Nat), r - l < fuel → searchLoop arr key fuel l r ≠ .error .loopForever := by
  intro fuel
  induction fuel with
  | zero => intro l r h; omega
  | succ fuel ih =>
    intro l r h
    unfold searchLoop
    by_cases hlt : l < r
    · rw [if_pos hlt]
      split
      · simp
      · split
        · exact ih _ _ (by omega)
        · exact ih _ _ (by omega)
    · rw [if_neg hlt]
      simp

theorem childFor_no_loop (p : InternalPage) (key : KeyType) :
    childFor p key ≠ .error .loopForever := by
  unfold childFor
  split
  · rename_i e he
    intro hf
    injection hf with hf
    subst hf
    exact searchLoop_no_loop _ _ _ _ _ (by omega) he
  · split <;> simp

theorem childFor_mem {p : InternalPage} {key : KeyType} {c : page_id_t}
    (h : childFor p key = .ok c) : c ∈ p.array_.map Prod.snd := by
  unfold childFor at h
  split at h
  · exact absurd h (by simp)
  · split at h
    · rename_i e he
      injection h with h
      subst h
      exact List.mem_map.2 ⟨e, List.getElem?_mem he, rfl⟩
    · exact absurd h (by simp)

/-- The loop of `GetLeafPage` ends within as many rounds as the page it
starts from is high. -/
theorem InvG.descend_no_loop {t : BPlusTree} {g : Ghost} {eh : page_id_t → Option KeyType}
    {det : page_id_t → Prop} (h : InvG t g eh det) (key : KeyType) :
    ∀ (f : Nat) (p : page_id_t), g.S p → g.ht p < f →
      descend t key f p ≠ .error .loopForever := by
  intro f
  induction f with
  | zero => intro p _ hf; omega
  | succ f ih =>
    intro p hp hf
    unfold descend
    split
    · simp
    · simp
    · rename_i ip hip
      split
      · rename_i e he
        intro hx
        injection hx with hx
        subst hx
        exact childFor_no_loop _ _ he
      · rename_i c hc
        obtain ⟨e, he, heq⟩ := List.mem_map.1 (childFor_mem hc)
        have hcc := ((h.node p hp).kids ip hip).child_of_mem e he
        rw [heq] at hcc
        have := hcc.2.2
        exact ih c hcc.1 (by omega)

theorem Inv.GetLeafPage_no_loop {t : BPlusTree} {g : Ghost} (h : Inv t g) (key : KeyType)
    (hne : t.IsEmpty = false) : t.GetLeafPage key ≠ .error .loopForever := by
  obtain ⟨h1, _⟩ := h.root_ok hne
  unfold GetLeafPage fuel
  have := (h.node _ h1).ht_lt
  exact InvG.descend_no_loop h key _ _ h1 (by omega)

theorem mergeLeaf_no_loop :
    ∀ (rs : List (KeyType × ValueType)) (left : LeafPage),
      mergeLeaf left rs ≠ .error .loopForever := by
  intro rs
  induction rs with
  | nil => intro left; unfold mergeLeaf; simp
  | cons a rest ih =>
    intro left
    unfold mergeLeaf
    split
    · rename_i e he
      intro hx
      injection hx with hx
      subst hx
      exact LeafPage.leaf_Insert_no_loop _ _ _ he
    · exact ih _

theorem mergeInternal_no_loop (p : page_id_t) :
    ∀ (rs : List (KeyType × page_id_t)) (t : BPlusTree),
      mergeInternal t p rs ≠ .error .loopForever := by
  intro rs
  induction rs with
  | nil => intro t; unfold mergeInternal; simp
  | cons a rest ih =>
    intro t
    unfold mergeInternal
    split
    · rename_i e he
      intro hx
      injection hx with hx
      subst hx
      exact fetchInternal_no_loop _ _ he
    · simp only []
      split
      · rename_i e he
        intro hx
        injection hx with hx
        subst hx
        exact UpdateParentPageId_no_loop _ _ _ he
      · exact ih _

theorem err_no_loop {α β : Type} {x : Except TreeError α} {e : TreeError}
    (hx : x = .error e) (hn : x ≠ .error .loopForever)
    (h : (Except.error e : Except TreeError β) = .error .loopForever) : False := by
  injection h with h
  subst h
  exact hn hx

theorem GetSiblings_no_loop (t : BPlusTree) (pg : TreePage) :
    t.GetSiblings pg ≠ .error .loopForever := by
  unfold GetSiblings
  split
  · simp
  · split
    · rename_i e he
      intro hx
      exact err_no_loop he (fetchInternal_no_loop _ _) hx
    · split <;> simp

theorem MergePage_no_loop (t : BPlusTree) (l r P : page_id_t) :
    t.MergePage l r P ≠ .error .loopForever := by
  intro h
  unfold MergePage at h
  cases h1 : t.fetch l with
  | error e =>
    rw [h1] at h
    simp only [] at h
    exact err_no_loop h1 (fetch_no_loop _ _) h
  | ok left =>
    cases h2 : t.fetch r with
    | error e =>
      rw [h1, h2] at h
      simp only [] at h
      exact err_no_loop h2 (fetch_no_loop _ _) h
    | ok right =>
      cases h3 : t.fetchInternal P with
      | error e =>
        rw [h1, h2, h3] at h
        simp only [] at h
        exact err_no_loop h3 (fetchInternal_no_loop _ _) h
      | ok parent =>
        rw [h1, h2, h3] at h
        simp only [] at h
        cases left with
        | leaf ll =>
          cases right with
          | internal _ => exact absurd h (by simp)
          | leaf rl =>
            simp only [] at h
            split at h
            · rename_i e he
              exact err_no_loop he (mergeLeaf_no_loop _ _) h
            · split at h
              · rename_i e he
                exact err_no_loop he (fetchInternal_no_loop _ _) h
              · split at h
                · rename_i e he
                  exact err_no_loop he (InternalPage.FindValue_no_loop _ _) h
                · split at h
                  · rename_i e he
                    exact err_no_loop he (InternalPage.RemoveAt_no_loop _ _) h
                  · exact absurd h (by simp)
        | internal li =>
          cases right with
          | leaf _ => exact absurd h (by simp)
          | internal ri =>
            simp only [] at h
            split at h
            · rename_i e he
              exact err_no_loop he (InternalPage.FindValue_no_loop _ _) h
            · cases h4 : parent.slotAt ‹Nat› with
              | error e =>
                rw [h4] at h
                simp only [] at h
                exact err_no_loop h4 (InternalPage.slotAt_no_loop _ _) h
              | ok ps =>
                cases h5 : ri.slotAt 0 with
                | error e =>
                  rw [h4, h5] at h
                  simp only [] at h
                  exact err_no_loop h5 (InternalPage.slotAt_no_loop _ _) h
                | ok s0 =>
                  rw [h4, h5] at h
                  simp only [] at h
                  split at h
                  · rename_i e he
                    exact err_no_loop he (UpdateParentPageId_no_loop _ _ _) h
                  · split at h
                    · rename_i e he
                      exact err_no_loop he (fetchInternal_no_loop _ _) h
                    · split at h
                      · rename_i e he
                        exact err_no_loop he (InternalPage.FindValue_no_loop _ _) h
                      · split at h
                        · rename_i e he
                          exact err_no_loop he (InternalPage.RemoveAt_no_loop _ _) h
                        · exact mergeInternal_no_loop _ _ _ h

theorem BorrowKey_no_loop (t : BPlusTree) (q : page_id_t) (sib : Option page_id_t)
    (P : page_id_t) (b : Bool) :
    t.BorrowKey q sib P b ≠ .error .loopForever := by
  intro h
  unfold BorrowKey at h
  cases sib with
  | none => exact absurd h (by simp)
  | some s =>
    simp only [] at h
    cases h1 : t.fetch q with
    | error e =>
      rw [h1] at h
      simp only [] at h
      exact err_no_loop h1 (fetch_no_loop _ _) h
    | ok page =>
      cases h2 : t.fetch s with
      | error e =>
        rw [h1, h2] at h
        simp only [] at h
        exact err_no_loop h2 (fetch_no_loop _ _) h
      | ok sibling =>
        cases h3 : t.fetchInternal P with
        | error e =>
          rw [h1, h2, h3] at h
          simp only [] at h
          exact err_no_loop h3 (fetchInternal_no_loop _ _) h
        | ok parent =>
          rw [h1, h2, h3] at h
          simp only [] at h
          split at h
          · exact absurd h (by simp)
          · split at h
            · rename_i e he
              exact err_no_loop he (InternalPage.FindValue_no_loop _ _) h
            · rename_i found hfound
              cases page with
              | leaf lp =>
                cases sibling with
                | internal _ => exact absurd h (by simp)
                | leaf ls =>
                  simp only [] at h
                  split at h
                  · exact absurd h (by simp)
                  · rename_i e0 he0
                    cases h4 : lp.Insert e0.1 e0.2 with
                    | error e =>
                      rw [h4] at h
                      simp only [] at h
                      exact err_no_loop h4 (LeafPage.leaf_Insert_no_loop _ _ _) h
                    | ok leaf1 =>
                      rw [h4] at h
                      split at h
                      · rename_i e he
                        exact absurd he (by simp)
                      · rename_i e he _
                        exact err_no_loop he (LeafPage.leaf_RemoveAt_no_loop _ _) h
                      · split at h
                        · exact absurd h (by simp)
                        · split at h
                          · rename_i e he
                            exact err_no_loop he (fetchInternal_no_loop _ _) h
                          · split at h
                            · rename_i e he
                              exact err_no_loop he (InternalPage.SetKeyAt_no_loop _ _ _) h
                            · exact absurd h (by simp)
              | internal ipg =>
                cases sibling with
                | leaf _ => exact absurd h (by simp)
                | internal isb =>
                  simp only [] at h
                  split at h
                  · rename_i e he
                    exact err_no_loop he (InternalPage.slotAt_no_loop _ _) h
                  · rename_i e he _
                    exact err_no_loop he (InternalPage.slotAt_no_loop _ _) h
                  · rename_i us ps hus hps
                    cases b with
                    | true =>
                      simp only [if_true] at h
                      cases h4 : ipg.slotAt 0 with
                      | error e =>
                        rw [h4] at h
                        simp only [] at h
                        exact err_no_loop h4 (InternalPage.slotAt_no_loop _ _) h
                      | ok slot0 =>
                        rw [h4] at h
                        simp only [] at h
                        cases h5 : (ipg.Insert ps.1 slot0.2).SetValueAt 0 us.2 with
                        | error e =>
                          rw [h5] at h
                          simp only [] at h
                          exact err_no_loop h5 (InternalPage.SetValueAt_no_loop _ _ _) h
                        | ok page1 =>
                          rw [h5] at h
                          simp only [] at h
                          split at h
                          · rename_i e he
                            exact err_no_loop he (InternalPage.RemoveAt_no_loop _ _) h
                          · split at h
                            · rename_i e he
                              exact err_no_loop he (UpdateParentPageId_no_loop _ _ _) h
                            · split at h
                              · rename_i e he
                                exact err_no_loop he (fetchInternal_no_loop _ _) h
                              · split at h
                                · rename_i e he
                                  exact err_no_loop he (InternalPage.SetKeyAt_no_loop _ _ _) h
                                · exact absurd h (by simp)
                    | false =>
                      simp only [Bool.false_eq_true, if_false] at h
                      cases h4 : isb.slotAt 0 with
                      | error e =>
                        rw [h4] at h
                        simp only [] at h
                        exact err_no_loop h4 (InternalPage.slotAt_no_loop _ _) h
                      | ok s0 =>
                        cases h5 : isb.slotAt 1 with
                        | error e =>
                          rw [h4, h5] at h
                          simp only [] at h
                          exact err_no_loop h5 (InternalPage.slotAt_no_loop _ _) h
                        | ok s1 =>
                          rw [h4, h5] at h
                          simp only [] at h
                          cases h6 : isb.SetValueAt 0 s1.2 with
                          | error e =>
                            rw [h6] at h
                            simp only [] at h
                            exact err_no_loop h6 (InternalPage.SetValueAt_no_loop _ _ _) h
                          | ok sibling1 =>
                            rw [h6] at h
                            simp only [] at h
                            split at h
                            · rename_i e he
                              exact err_no_loop he (InternalPage.RemoveAt_no_loop _ _) h
                            · split at h
                              · rename_i e he
                                exact err_no_loop he (UpdateParentPageId_no_loop _ _ _) h
                              · split at h
                                · rename_i e he
                                  exact err_no_loop he (fetchInternal_no_loop _ _) h
                                · split at h
                                  · rename_i e he
                                    exact err_no_loop he (InternalPage.SetKeyAt_no_loop _ _ _) h
                                  · exact absurd h (by simp)

/-- The loop of `Insert` that enters the new page in the parent ends within
as many rounds as the root is higher than the page that was split. -/
theorem Pending.insertInParent_no_loop :
    ∀ (f : Nat) (t : BPlusTree) (g : Ghost) (old nw : page_id_t) (s : KeyType),
      Pending t g old nw s → g.ht t.root_page_id_ < g.ht old + f →
      insertInParent f t old nw s ≠ .error .loopForever := by
  intro f
  induction f with
  | zero =>
    intro t g old nw s h hb
    have := h.ht_le_root_old
    omega
  | succ f ih =>
    intro t g old nw s h hb hr
    have I := h.inv
    obtain ⟨pgo, ho, hoid⟩ := (I.node old h.S_old).page
    obtain ⟨pgn, hn, hnid⟩ := (I.node nw h.S_new).page
    have hfresh : ∀ q, g.S q → q ≠ t.next_page_id_ := by
      intro q hq hqn
      have := (InvG.lt_next I hq).2
      rw [hqn] at this
      exact lt_irrefl _ this
    have fo : t.fetch old = .ok pgo := by unfold fetch; rw [ho]
    have fn : t.fetch nw = .ok pgn := by unfold fetch; rw [hn]
    unfold insertInParent at hr
    rw [fo, fn] at hr
    simp only [] at hr
    by_cases hroot : pgo.IsRootPage = true
    · -- a new root
      rw [if_pos hroot] at hr
      split at hr
      · rename_i e he
        exact err_no_loop he (UpdateParentPageId_no_loop _ _ _) hr
      · exact UpdateParentPageId_no_loop _ _ _ hr
    · -- the parent gets the new page
      rw [if_neg hroot] at hr
      have hpar : parentOf t old ≠ INVALID_PAGE_ID := fun hf => hroot ((isRootPage_iff ho).2 hf)
      have hpgo : pgo.GetParentPageId = parentOf t old := (parentOf_of_pages ho).symm
      rw [hpgo] at hr
      split at hr
      · rename_i e he
        exact err_no_loop he (fetchInternal_no_loop _ _) hr
      · rename_i parent hfp
        have hip := fetchInternal_ok hfp
        rw [hnid] at hr
        obtain ⟨hf1, hf2⟩ := InternalPage.Insert_fields parent s nw
        generalize hp1 : parent.Insert s nw = p1 at hr hf1 hf2
        have hf3 : p1.array_ = (parent.Insert s nw).array_ := by rw [hp1]
        split at hr
        · rename_i e he
          exact err_no_loop he (UpdateParentPageId_no_loop _ _ _) hr
        · rename_i t2 hu
          obtain ⟨pg2, hpg2, rfl⟩ := UpdateParentPageId_ok hu
          obtain ⟨hSP, ip0, hip0, hmem⟩ := ((I.node old h.S_old).up h.ne).inner hpar
          have hcold : IsChild t g (parentOf t old) old := by
            obtain ⟨e, he, heo⟩ := List.mem_map.1 hmem
            have := ((I.node _ hSP).kids ip0 hip0).child_of_mem e he
            rw [heo] at this
            exact this
          have hPn : parentOf t old ≠ nw := by
            intro hf
            have := hcold.2.2
            rw [hf, h.ht] at this
            omega
          rw [store_pages_ne _ _ _ (Ne.symm hPn), hn] at hpg2
          injection hpg2 with hpg2
          subst hpg2
          have hP2 : ((t.store (parentOf t old) (.internal p1)).store nw
              (pgn.SetParentPageId (parentOf t old))).pages (parentOf t old) =
              some (.internal p1) := by
            rw [store_pages_ne _ _ _ hPn, store_pages_same]
          have hInv2 : Inv ((t.store (parentOf t old) (.internal p1)).store nw
              (pgn.SetParentPageId (parentOf t old))) g := by
            refine h.insert_parent hpar hip _ p1 pgn rfl rfl rfl hP2 hf1 hf2 hf3 hn ?_ ?_
            · rw [store_pages_same]
            · intro q q1 q2
              rw [store_pages_ne _ _ _ q2, store_pages_ne _ _ _ q1]
          by_cases hsize : p1.array_.length ≤ t.internal_max_size_
          · rw [if_pos hsize] at hr
            exact absurd hr (by simp)
          · rw [if_neg hsize] at hr
            simp only [store_next, store_internal_max] at hr
            have hkids2 := (hInv2.node _ hSP).kids _ hP2
            have hpos : 0 < p1.array_.length - (t.internal_max_size_ + 1) / 2 := by omega
            generalize p1.array_.length - (t.internal_max_size_ + 1) / 2 = st at hr hpos
            split at hr
            · rename_i e he
              exact err_no_loop he (reparent_no_loop _ _ _) hr
            · rename_i t4 hrep
              obtain ⟨i1, i2, i3, i4, i5, i6⟩ := reparent_spec _ _ _ _ hrep
              split at hr
              · rename_i e he
                exact err_no_loop he (fetchInternal_no_loop _ _) hr
              · rename_i parent2 hfi2
                have hfi3 := fetchInternal_ok hfi2
                split at hr
                · exact absurd hr (by simp)
                · rename_i e hhead
                  have hPM : parentOf t old ∉ (List.drop st p1.array_).map Prod.snd := by
                    intro hf
                    obtain ⟨x, hx, hxP⟩ := List.mem_map.1 hf
                    have := (hkids2.child_of_mem x (List.mem_of_mem_drop hx)).2.2
                    rw [hxP] at this
                    omega
                  have hNM : t.next_page_id_ ∉ (List.drop st p1.array_).map Prod.snd := by
                    intro hf
                    obtain ⟨x, hx, hxP⟩ := List.mem_map.1 hf
                    have := (hkids2.child_of_mem x (List.mem_of_mem_drop hx)).1
                    rw [hxP] at this
                    exact hfresh _ this rfl
                  have hp2 : parent2 = p1 := by
                    have := i5 _ hPM
                    rw [hfi3] at this
                    simp only [store_pages, if_neg (hfresh _ hSP), if_neg hPn, if_true] at this
                    injection this with this
                    injection this with this
                  subst hp2
                  refine ih _ _ _ _ _ (hInv2.split_internal hSP hP2 hpos hhead _
                    (InternalPage.mk parent2.page_id_ parent2.parent_page_id_ parent2.max_size_
                      (parent2.array_.take st))
                    (InternalPage.mk t.next_page_id_ parent2.page_id_ t.internal_max_size_
                      (parent2.array_.drop st))
                    ?_ ?_ ?_ ?_ ?_ rfl rfl rfl rfl rfl ?_ ?_) ?_ hr
                  · exact i1
                  · simp only [store_next, i2]
                  · exact i3
                  · rw [store_pages_same]
                  · simp only [store_next]
                    rw [store_pages_ne _ _ _ (Ne.symm (hfresh _ hSP)), i5 _ hNM]
                    simp only [store_pages, if_true]
                  · intro x hx
                    have hxm : x.2 ∈ (List.drop st parent2.array_).map Prod.snd :=
                      List.mem_map.2 ⟨x, hx, rfl⟩
                    obtain ⟨pg, q1, q2⟩ := i6 x.2 hxm
                    have hxS := (hkids2.child_of_mem x (List.mem_of_mem_drop hx)).1
                    have hxP : x.2 ≠ parentOf t old := fun hf => hPM (hf ▸ hxm)
                    refine ⟨pg, ?_, ?_⟩
                    · rw [← q1]
                      simp only [store_pages, if_neg (hfresh _ hxS)]
                    · rw [store_pages_ne _ _ _ hxP]
                      exact q2
                  · intro q q1 q2 q3
                    simp only [store_next] at q2
                    rw [store_pages_ne _ _ _ q1, i5 q q3]
                    simp only [store_pages, if_neg q2]
                  · have hrn : t.root_page_id_ ≠ t.next_page_id_ := by
                      cases hemp : t.IsEmpty with
                      | true =>
                        unfold IsEmpty at hemp
                        have hri : t.root_page_id_ = INVALID_PAGE_ID := beq_iff_eq.1 hemp
                        have h0 : (0 : Int) ≤ t.next_page_id_ := I.next_nonneg
                        intro hf
                        rw [← hf, hri] at h0
                        exact absurd h0 (by decide)
                      | false => exact hfresh _ (I.root_ok hemp).1
                    rw [show (t4.store (parentOf t old) (TreePage.internal
                      { page_id_ := parent2.page_id_, parent_page_id_ := parent2.parent_page_id_,
                        max_size_ := parent2.max_size_,
                        array_ := List.take st parent2.array_ })).root_page_id_ =
                        t.root_page_id_ from i1]
                    show (if t.root_page_id_ = t.next_page_id_ then g.ht (parentOf t old)
                        else g.ht t.root_page_id_) <
                      (if parentOf t old = t.next_page_id_ then g.ht (parentOf t old)
                        else g.ht (parentOf t old)) + f
                    rw [if_neg hrn, if_neg (hfresh _ hSP)]
                    have := hcold.2.2
                    omega

/-- On a state with the invariant `Insert` does not end by the bound on the
rounds of its loops. -/
theorem Inv.Insert_no_loop {t : BPlusTree} {g : Ghost} (h : Inv t g) (key : KeyType)
    (value : ValueType) : t.Insert key value ≠ .error .loopForever := by
  intro hr
  unfold Insert at hr
  cases hemp : t.IsEmpty with
  | true =>
    rw [hemp] at hr
    simp only [if_true] at hr
    exact absurd hr (by simp)
  | false =>
    rw [hemp] at hr
    simp only [Bool.false_eq_true, if_false] at hr
    split at hr
    · rename_i e he
      exact err_no_loop he (h.GetLeafPage_no_loop key hemp) hr
    · rename_i leaf_id hg
      obtain ⟨hS, _, hlo, hhi⟩ := h.GetLeafPage_spec hemp hg
      split at hr
      · rename_i e he
        exact err_no_loop he (fetchLeaf_no_loop _ _) hr
      · rename_i leaf hfl
        have hpg := fetchLeaf_ok hfl
        have o := (h.node leaf_id hS).leaf leaf hpg
        by_cases hk : LeafPage.hasKey leaf.array_ key = true
        · rw [if_pos hk] at hr
          exact absurd hr (by simp)
        · rw [if_neg hk] at hr
          split at hr
          · rename_i e he
            exact err_no_loop he (LeafPage.leaf_Insert_no_loop _ _ _) hr
          · rename_i leaf1 hins
            obtain ⟨i0, i1, i2, i3, i4, _, i6⟩ := LeafPage.Insert_ok hins
            have hkf : LeafPage.hasKey leaf.array_ key = false := by
              cases hh : LeafPage.hasKey leaf.array_ key with
              | true => exact absurd hh hk
              | false => rfl
            have harr := i6 hkf
            have hne := hasKey_false_iff.1 hkf
            have hsorted : leaf1.array_.Pairwise (fun a b => a.1 < b.1) := by
              rw [harr]
              exact insertIndex_sorted key value leaf.array_ o.sorted hne
            have hinside : ∀ e ∈ leaf1.array_,
                geLo (g.lo leaf_id) e.1 ∧ ltHi (g.hi leaf_id) e.1 := by
              intro e he
              rw [harr] at he
              rcases (mem_insertAt _ _ _ _).1 he with he | he
              · rw [he]; exact ⟨hlo, hhi⟩
              · exact o.inside e he
            have hA := h.leaf_update hS hpg i1 i2 i3 i4 hsorted hinside
            by_cases hsz : leaf1.array_.length < t.leaf_max_size_
            · rw [if_pos hsz] at hr
              exact absurd hr (by simp)
            · rw [if_neg hsz] at hr
              split at hr
              · rename_i e he
                exact err_no_loop he (LeafPage.MoveDataTo_no_loop _ _ _ _) hr
              · rename_i leaf2 new_leaf2 hmv
                obtain ⟨m1, m2⟩ := LeafPage.MoveDataTo_ok hmv
                split at hr
                · exact absurd hr (by simp)
                · rename_i e hhead
                  split at hr
                  swap
                  · exact absurd hr (by simp)
                  · rename_i err hloop
                    injection hr with hr
                    subst hr
                    -- the leaf is full after the insertion
                    have hlen1 : leaf1.array_.length = leaf.array_.length + 1 := by
                      rw [harr]
                      simp only [List.length_append, List.length_cons, List.length_take,
                        List.length_drop]
                      have := insertIndex_le key leaf.array_
                      omega
                    have hlen : leaf1.array_.length = t.leaf_max_size_ := by
                      have h2 := o.max_size
                      omega
                    have hcut : 0 < (t.leaf_max_size_ + 1) / 2 := by omega
                    have htk : leaf1.array_.length -
                        (t.leaf_max_size_ - 1 + 1 - (t.leaf_max_size_ + 1) / 2) =
                        (t.leaf_max_size_ + 1) / 2 := by omega
                    have hdr : (leaf1.array_.drop ((t.leaf_max_size_ + 1) / 2)).take
                        (t.leaf_max_size_ - 1 + 1 - (t.leaf_max_size_ + 1) / 2) =
                        leaf1.array_.drop ((t.leaf_max_size_ + 1) / 2) := by
                      apply List.take_of_length_le
                      rw [List.length_drop]
                      omega
                    subst m1
                    subst m2
                    simp only [htk, hdr, LeafPage.Init] at hhead hloop
                    have hfresh : leaf_id ≠ t.next_page_id_ := by
                      intro hf
                      have := (InvG.lt_next h hS).2
                      rw [hf] at this
                      exact lt_irrefl _ this
                    refine Pending.insertInParent_no_loop _ _ _ _ _ _
                      (hA.split_leaf hS (store_pages_same _ _ _) hcut hhead _
                        { leaf1 with next_page_id_ := t.next_page_id_,
                                     array_ := leaf1.array_.take ((t.leaf_max_size_ + 1) / 2) }
                        { page_id_ := t.next_page_id_,
                          parent_page_id_ := leaf1.parent_page_id_,
                          max_size_ := t.leaf_max_size_,
                          next_page_id_ := leaf1.next_page_id_,
                          array_ := leaf1.array_.drop ((t.leaf_max_size_ + 1) / 2) }
                        ?_ ?_ ?_ ?_ ?_ ?_ rfl rfl rfl rfl rfl rfl rfl rfl rfl) ?_ hloop
                    · rfl
                    · rfl
                    · rfl
                    · simp only [store_pages, if_neg hfresh, if_true]
                    · simp only [store_pages, store_next, if_true]
                    · intro q q1 q2
                      simp only [store_next] at q2
                      simp only [store_pages, if_neg q1, if_neg q2]
                    · have hrS := (h.root_ok hemp).1
                      have hrn : t.root_page_id_ ≠ t.next_page_id_ := by
                        intro hf
                        have := (InvG.lt_next h hrS).2
                        rw [hf] at this
                        exact lt_irrefl _ this
                      have hlt := (h.node _ hrS).ht_lt
                      show (if t.root_page_id_ = t.next_page_id_ then g.ht leaf_id
                          else g.ht t.root_page_id_) <
                        (if leaf_id = t.next_page_id_ then g.ht leaf_id else g.ht leaf_id) +
                          ((t.next_page_id_ + 1).toNat + 1)
                      rw [if_neg hrn, if_neg hfresh]
                      have h0 : (0 : Int) ≤ t.next_page_id_ := h.next_nonneg
                      have : t.next_page_id_.toNat ≤ (t.next_page_id_ + 1).toNat := by omega
                      omega

theorem mergeInternal_root (p : page_id_t) :
    ∀ (rs : List (KeyType × page_id_t)) (t t1 : BPlusTree),
      mergeInternal t p rs = .ok t1 → t1.root_page_id_ = t.root_page_id_ := by
  intro rs
  induction rs with
  | nil =>
    intro t t1 h
    unfold mergeInternal at h
    injection h with h
    rw [h]
  | cons a rest ih =>
    intro t t1 h
    unfold mergeInternal at h
    split at h
    · exact absurd h (by simp)
    · simp only [] at h
      split at h
      · exact absurd h (by simp)
      · rename_i t2 hu
        obtain ⟨pg, _, rfl⟩ := UpdateParentPageId_ok hu
        have := ih _ _ h
        exact this

theorem MergePage_root {t t1 : BPlusTree} {l r P : page_id_t}
    (h : t.MergePage l r P = .ok t1) : t1.root_page_id_ = t.root_page_id_ := by
  unfold MergePage at h
  cases h1 : t.fetch l with
  | error e =>
    rw [h1] at h
    simp only [] at h
    exact absurd h (by simp)
  | ok left =>
    cases h2 : t.fetch r with
    | error e =>
      rw [h1, h2] at h
      simp only [] at h
      exact absurd h (by simp)
    | ok right =>
      cases h3 : t.fetchInternal P with
      | error e =>
        rw [h1, h2, h3] at h
        simp only [] at h
        exact absurd h (by simp)
      | ok parent =>
        rw [h1, h2, h3] at h
        simp only [] at h
        cases left with
        | leaf ll =>
          cases right with
          | internal _ => exact absurd h (by simp)
          | leaf rl =>
            simp only [] at h
            split at h
            · exact absurd h (by simp)
            · split at h
              · exact absurd h (by simp)
              · split at h
                · exact absurd h (by simp)
                · split at h
                  · exact absurd h (by simp)
                  · injection h with h
                    rw [← h]
                    rfl
        | internal li =>
          cases right with
          | leaf _ => exact absurd h (by simp)
          | internal ri =>
            simp only [] at h
            split at h
            · exact absurd h (by simp)
            · cases h4 : parent.slotAt ‹Nat› with
              | error e =>
                rw [h4] at h
                simp only [] at h
                exact absurd h (by simp)
              | ok ps =>
                cases h5 : ri.slotAt 0 with
                | error e =>
                  rw [h4, h5] at h
                  simp only [] at h
                  exact absurd h (by simp)
                | ok s0 =>
                  rw [h4, h5] at h
                  simp only [] at h
                  split at h
                  · exact absurd h (by simp)
                  · rename_i t2 hu
                    obtain ⟨pg, _, rfl⟩ := UpdateParentPageId_ok hu
                    split at h
                    · exact absurd h (by simp)
                    · split at h
                      · exact absurd h (by simp)
                      · split at h
                        · exact absurd h (by simp)
                        · have := mergeInternal_root _ _ _ _ h
                          exact this

/-- The function `HandleUnderFlow` ends within as many rounds as the root
is higher than the page it starts from. -/
theorem Inv.HandleUnderFlow_no_loop :
    ∀ (fuel : Nat) (t : BPlusTree) (g : Ghost) (q : page_id_t),
      Inv t g → g.S q → g.ht t.root_page_id_ < g.ht q + fuel →
      HandleUnderFlow fuel t q ≠ .error .loopForever := by
  intro fuel
  induction fuel with
  | zero =>
    intro t g q h hq hb
    have := h.ht_le_root_inv hq
    omega
  | succ fuel ih =>
    intro t g q h hq hb hh
    have n := h.node q hq
    obtain ⟨pg, hpg, hid⟩ := n.page
    unfold HandleUnderFlow at hh
    rw [fetch_of_pages hpg] at hh
    simp only [] at hh
    cases hroot : pg.IsRootPage with
    | true =>
      rw [hroot] at hh
      simp only [if_true] at hh
      split at hh
      · exact absurd hh (by simp)
      · cases pg with
        | leaf l => exact absurd hh (by simp)
        | internal ip =>
          simp only [] at hh
          split at hh
          · rename_i e he
            exact err_no_loop he (InternalPage.slotAt_no_loop _ _) hh
          · exact UpdateParentPageId_no_loop _ _ _ hh
    | false =>
      rw [hroot] at hh
      simp only [Bool.false_eq_true, if_false] at hh
      cases hgs : t.GetSiblings pg with
      | error e =>
        rw [hgs] at hh
        exact err_no_loop hgs (GetSiblings_no_loop _ _) hh
      | ok lr =>
        obtain ⟨l, r⟩ := lr
        rw [hgs] at hh
        simp only [] at hh
        obtain ⟨hP, ipP, hPpg, hsplit⟩ := h.GetSiblings_spec hq hpg hroot hgs
        by_cases hr : r = INVALID_PAGE_ID
        · rw [hr] at hh
          rw [InvG.no_invalid_page h] at hh
          simp only [ne_eq, not_true_eq_false, if_false] at hh
          by_cases hl : l = INVALID_PAGE_ID
          · rw [if_neg (not_not.2 hl)] at hh
            exact absurd hh (by simp)
          · rw [if_pos hl] at hh
            exact absurd hh (by simp)
        · obtain ⟨A, B, ep, er, harr, hep, her⟩ := hsplit hr
          rw [if_pos hr] at hh
          cases hfr : t.fetch r with
          | error e =>
            rw [hfr] at hh
            exact err_no_loop hfr (fetch_no_loop _ _) hh
          | ok pgr =>
            rw [hfr] at hh
            simp only [] at hh
            rw [BorrowKey_none] at hh
            simp only [] at hh
            cases hbk : t.BorrowKey q (some r) pg.GetParentPageId false with
            | error e =>
              rw [hbk] at hh
              exact err_no_loop hbk (BorrowKey_no_loop _ _ _ _ _) hh
            | ok res =>
              obtain ⟨t2, b⟩ := res
              rw [hbk] at hh
              rcases h.BorrowKey_right hP hPpg harr hep her hbk with ⟨hb1, hb2⟩ | ⟨hb1, k, hb2⟩
              · subst hb1
                subst hb2
                simp only [] at hh
                cases hmg : t2.MergePage q r pg.GetParentPageId with
                | error e =>
                  rw [hmg] at hh
                  exact err_no_loop hmg (MergePage_no_loop _ _ _ _) hh
                | ok t3 =>
                  rw [hmg] at hh
                  simp only [] at hh
                  have h3 := h.MergePage_inv hP hPpg harr hep her hmg
                  have K := (h.node _ hP).kids ipP hPpg
                  split at hh
                  · rename_i e he
                    exact err_no_loop he (fetch_no_loop _ _) hh
                  · split at hh
                    · refine ih t3 _ _ h3 ?_ ?_ hh
                      · refine ⟨hP, ?_⟩
                        intro hf
                        have hc := K.child_of_mem er (by rw [harr]; simp)
                        have := hc.2.2
                        rw [her, ← hf] at this
                        omega
                      · have hc := K.child_of_mem ep (by rw [harr]; simp)
                        have hht : g.ht q + 1 = g.ht pg.GetParentPageId := by
                          have := hc.2.2
                          rw [hep] at this
                          exact this
                        rw [MergePage_root hmg]
                        show g.ht t2.root_page_id_ < g.ht pg.GetParentPageId + fuel
                        omega
                    · exact absurd hh (by simp)
              · subst hb1
                simp only [] at hh
                exact absurd hh (by simp)

/-- On a state with the invariant `Remove` does not end by the bound on the
rounds of its loops. -/
theorem Inv.Remove_no_loop {t : BPlusTree} {g : Ghost} (h : Inv t g) (key : KeyType) :
    t.Remove key ≠ .error .loopForever := by
  intro hr
  unfold Remove at hr
  cases hemp : t.IsEmpty with
  | true =>
    rw [hemp] at hr
    simp only [if_true] at hr
    exact absurd hr (by simp)
  | false =>
    rw [hemp] at hr
    simp only [Bool.false_eq_true, if_false] at hr
    split at hr
    · rename_i e he
      exact err_no_loop he (h.GetLeafPage_no_loop key hemp) hr
    · rename_i leaf_id hg
      obtain ⟨hS, _, _, _⟩ := h.GetLeafPage_spec hemp hg
      split at hr
      · rename_i e he
        exact err_no_loop he (fetchLeaf_no_loop _ _) hr
      · rename_i leaf hfl
        have hpg := fetchLeaf_ok hfl
        have o := (h.node leaf_id hS).leaf leaf hpg
        have hsub := removeKey_sublist key leaf.array_
        have h1 : Inv (t.store leaf_id (.leaf (leaf.Remove key))) g :=
          h.leaf_update hS hpg rfl rfl rfl rfl (o.sorted.sublist hsub)
            (fun e he => o.inside e (hsub.subset he))
        split at hr
        · exact absurd hr (by simp)
        · split at hr
          · refine Inv.HandleUnderFlow_no_loop _ _ g leaf_id h1 hS ?_ hr
            have hrS := (h.root_ok hemp).1
            have hlt := (h.node _ hrS).ht_lt
            show g.ht t.root_page_id_ < g.ht leaf_id + (t.next_page_id_.toNat + 1)
            omega
          · exact absurd hr (by simp)

/-- No call of `Insert` or `Remove` on a tree state reached from the empty
tree ends by the bound on the rounds of a loop: the loops of the program end
by themselves. -/
theorem Reachable.calls_end {leaf_max_size internal_max_size : Nat}
    {first_page_id : page_id_t} (h0 : 0 ≤ first_page_id) {t : BPlusTree}
    (hr : Reachable leaf_max_size internal_max_size first_page_id t) (key : KeyType)
    (value : ValueType) :
    t.Insert key value ≠ .error .loopForever ∧ t.Remove key ≠ .error .loopForever := by
  obtain ⟨g, hg⟩ := Reachable.tree_inv h0 hr
  exact ⟨hg.Insert_no_loop key value, hg.Remove_no_loop key⟩

/-- The leaf chain in the states of `Reachable`: in every tree state reached
from the empty tree by calls of `Insert` and `Remove` that return without
fetching a page id that is no page of the tree, following `next_page_id_`
from the leftmost leaf ends, meets no leaf twice, meets exactly the leaf
pages of the tree, and the keys of the leaves along the chain, put one after
the other, are strictly ascending.  The states after `HandleUnderFlow` has
fetched `INVALID_PAGE_ID` are not covered. -/
theorem reachable_leaf_chain_sorted (leaf_max_size internal_max_size : Nat)
    (first_page_id : page_id_t) (h0 : 0 ≤ first_page_id) (t : BPlusTree)
    (hr : Reachable leaf_max_size internal_max_size first_page_id t) :
    ∃ ls, t.chainLeaves = .ok ls ∧
      (ls.map (fun l => l.page_id_)).Nodup ∧
      (∀ p, (TreeNode t p ∧ IsLeaf t p) ↔ p ∈ ls.map (fun l => l.page_id_)) ∧
      (∀ l ∈ ls, t.pages l.page_id_ = some (.leaf l)) ∧
      (ls.map (fun l => l.array_)).flatten.Pairwise (fun a b => a.1 < b.1) := by
  obtain ⟨g, hg⟩ := Reachable.tree_inv h0 hr
  exact hg.leaf_chain

/-- The tree `tree33c`, reached by five inserts and two removes (the first
of which merges two leaves), has a sorted leaf chain over its leaves. -/
theorem reachable_leaf_chain_sorted_witness :
    (0 : page_id_t) ≤ 1 ∧ Reachable 3 3 1 tree33c ∧
    ∃ ls, tree33c.chainLeaves = .ok ls ∧
      (ls.map (fun l => l.page_id_)).Nodup ∧
      (∀ p, (TreeNode tree33c p ∧ IsLeaf tree33c p) ↔ p ∈ ls.map (fun l => l.page_id_)) ∧
      (∀ l ∈ ls, tree33c.pages l.page_id_ = some (.leaf l)) ∧
      (ls.map (fun l => l.array_)).flatten.Pairwise (fun a b => a.1 < b.1) :=
  have hr : Reachable 3 3 1 tree33c :=
    Reachable.remove (Reachable.remove
      (Reachable.of_runCalls insert1to5 tree33 tree33a Reachable.init rfl)
      (rfl : tree33a.Remove 2 = .ok tree33b)) (rfl : tree33b.Remove 1 = .ok tree33c)
  ⟨by decide, hr, reachable_leaf_chain_sorted 3 3 1 (by decide) tree33c hr⟩

end BPlusTree

/-! ### Frame classes and the page table of a reachable pool -/

namespace BufferPoolManagerInstance

variable {D : Type}


/-- Frame `f` is held as evictable by the replacer: it is tracked and its
flag is set. -/
def HeldEvictable (s : BufferPoolManagerInstance D) (f : frame_id_t) : Prop :=
  s.replacer_.tracked f = true ∧ s.replacer_.is_evictable_ f = true

/-- Frame `f` hosts a resident page: the page table maps the page id stored
in the frame to `f`. -/
def Resident (s : BufferPoolManagerInstance D) (f : frame_id_t) : Prop :=
  ∃ pg, s.pages_[f]? = some pg ∧ s.page_table_ pg.page_id_ = some f

/-- The class "free list" of a frame: in the free list and not held as
evictable by the replacer. -/
def FreeClass (s : BufferPoolManagerInstance D) (f : frame_id_t) : Prop :=
  f ∈ s.free_list_ ∧ ¬ HeldEvictable s f

/-- The class "pinned" of a frame: positive pin count and not evictable. -/
def PinnedClass (s : BufferPoolManagerInstance D) (f : frame_id_t) : Prop :=
  (∃ pg, s.pages_[f]? = some pg ∧ 0 < pg.pin_count_) ∧ ¬ HeldEvictable s f

/-- The class "evictable" of a frame: pin count 0, resident, and held as
evictable by the replacer. -/
def EvictableClass (s : BufferPoolManagerInstance D) (f : frame_id_t) : Prop :=
  (∃ pg, s.pages_[f]? = some pg ∧ pg.pin_count_ = 0) ∧ Resident s f ∧ HeldEvictable s f

/-- The pool `pool1` after `NewPage`, `UnpinPage(0, false)` and
`DeletePage(0)`: frame 0 is back in the free list and the replacer still
holds it as evictable. -/
def pool1h : BufferPoolManagerInstance Nat :=
  (runOps pool1 [.newPage, .unpinPage 0 false, .deletePage 0]).getD pool1

/-- The frame is in the free list, has pin count 0 and hosts no resident
page. -/
def FreeFrame (s : BufferPoolManagerInstance D) (f : frame_id_t) : Prop :=
  f ∈ s.free_list_ ∧ (∃ pg, s.pages_[f]? = some pg ∧ pg.pin_count_ = 0) ∧
    ∀ p, s.page_table_ p ≠ some f

/-- The frame is outside the free list, has a positive pin count, and the
replacer tracks it with the flag cleared. -/
def PinnedFrame (s : BufferPoolManagerInstance D) (f : frame_id_t) : Prop :=
  f ∉ s.free_list_ ∧ (∃ pg, s.pages_[f]? = some pg ∧ 0 < pg.pin_count_) ∧
    s.replacer_.tracked f = true ∧ s.replacer_.is_evictable_ f = false

/-- The frame is outside the free list, has pin count 0, and the replacer
holds it as evictable. -/
def EvictableFrame (s : BufferPoolManagerInstance D) (f : frame_id_t) : Prop :=
  f ∉ s.free_list_ ∧ (∃ pg, s.pages_[f]? = some pg ∧ pg.pin_count_ = 0) ∧ HeldEvictable s f

/-- C11 as stated fails in two ways. After `NewPage`, `UnpinPage(0, false)`
and `DeletePage(0)` in a pool of one frame, frame 0 is in the free list and
still held as evictable by the replacer (`DeletePage` sets the flag and never
removes the frame from the replacer), so it is in none of the three classes.
In `pool2a`, reached through a `FetchPage` of a page id that had not been
allocated, frame 0 has pin count 0 and is held as evictable but hosts no
resident page, so it is in none of the three classes either. -/
theorem frame_classes_fail_after_delete :
    (Reachable 1 2 (fun _ => 0) pool1h ∧ 0 ∈ pool1h.free_list_ ∧ HeldEvictable pool1h 0 ∧
      ¬ FreeClass pool1h 0 ∧ ¬ PinnedClass pool1h 0 ∧ ¬ EvictableClass pool1h 0) ∧
    (Reachable 2 2 (fun _ => 0) pool2a ∧
      ¬ FreeClass pool2a 0 ∧ ¬ PinnedClass pool2a 0 ∧ ¬ EvictableClass pool2a 0) := by
  have hr1 : Reachable 1 2 (fun _ => 0) pool1h :=
    Reachable.run [.newPage, .unpinPage 0 false, .deletePage 0] (Reachable.init (by decide)) rfl
  have hr2 : Reachable 2 2 (fun _ => 0) pool2a :=
    Reachable.run [.fetchPage 0, .fetchPage 0, .write 0 7, .unpinPage 0 true,
      .unpinPage 0 false, .newPage, .write 1 42] (Reachable.init (by decide)) rfl
  have he1 : HeldEvictable pool1h 0 := ⟨by decide, by decide⟩
  have he2 : HeldEvictable pool2a 0 := ⟨by decide, by decide⟩
  refine ⟨⟨hr1, by decide, he1, fun h => h.2 he1, fun h => h.2 he1, ?_⟩,
    ⟨hr2, fun h => h.2 he2, fun h => h.2 he2, ?_⟩⟩
  · rintro ⟨_, ⟨pg, h1, h2⟩, _⟩
    have h0 : pool1h.pages_[0]? =
        some { data_ := 0, page_id_ := 0, pin_count_ := 0, is_dirty_ := false } := rfl
    rw [h0] at h1
    injection h1 with h1
    rw [← h1] at h2
    exact absurd h2 (by decide)
  · rintro ⟨_, ⟨pg, h1, h2⟩, _⟩
    have h0 : pool2a.pages_[0]? =
        some { data_ := 7, page_id_ := 0, pin_count_ := 0, is_dirty_ := true } := rfl
    rw [h0] at h1
    injection h1 with h1
    rw [← h1] at h2
    exact absurd h2 (by decide)

/-- C11, amended: in every reachable pool each frame is in exactly one of
three classes: in the free list (pin count 0, not resident), pinned (outside
the free list, pin count positive, tracked by the replacer and not evictable),
or evictable (outside the free list, pin count 0, held as evictable by the
replacer); and when every `FetchPage` was on a page id that `NewPage` had
handed out, every frame outside the free list hosts a resident page. -/
theorem frame_in_exactly_one_class [Zero D] {n k : Nat} {d : page_id_t → D}
    {s : BufferPoolManagerInstance D} (hr : Reachable n k d s) (f : frame_id_t)
    (hf : f < s.pool_size_) :
    ((FreeFrame s f ∧ ¬ PinnedFrame s f ∧ ¬ EvictableFrame s f) ∨
      (¬ FreeFrame s f ∧ PinnedFrame s f ∧ ¬ EvictableFrame s f) ∨
      (¬ FreeFrame s f ∧ ¬ PinnedFrame s f ∧ EvictableFrame s f)) ∧
    (ReachableAlloc n k d s → f ∉ s.free_list_ → Resident s f) := by
  have hi := hr.inv
  have hlt : f < s.pages_.length := by rw [hi.len]; exact hf
  have hpg : s.pages_[f]? = some s.pages_[f] := List.getElem?_eq_getElem hlt
  constructor
  · by_cases hfree : f ∈ s.free_list_
    · left
      refine ⟨⟨hfree, ?_, ?_⟩, fun h => h.1 hfree, fun h => h.1 hfree⟩
      · obtain ⟨pg, h1, h2⟩ := hi.free f hfree
        exact ⟨pg, h1, h2⟩
      · intro p hp
        exact (hi.pt p f hp).1 hfree
    · obtain ⟨h1, h2⟩ := hi.nonfree f _ hpg hfree
      have ht : s.replacer_.tracked f = true := (LRUKReplacer.tracked_iff _ _).2 h1
      by_cases h0 : (s.pages_[f]).pin_count_ = 0
      · right; right
        refine ⟨fun h => hfree h.1, ?_, hfree, ⟨_, hpg, h0⟩, ht, h2.2 h0⟩
        rintro ⟨_, ⟨pg, e1, e2⟩, _⟩
        rw [hpg] at e1
        injection e1 with e1
        rw [← e1] at e2
        omega
      · right; left
        have hne : s.replacer_.is_evictable_ f = false := by
          cases he : s.replacer_.is_evictable_ f
          · rfl
          · exact absurd (h2.1 he) h0
        refine ⟨fun h => hfree h.1, ⟨hfree, ⟨_, hpg, by omega⟩, ht, hne⟩, ?_⟩
        rintro ⟨_, _, _, e⟩
        rw [hne] at e
        exact absurd e (by decide)
  · intro ha hfree
    exact ⟨_, hpg, ha.sole.2 _ f _ hpg hfree rfl⟩

theorem frame_in_exactly_one_class_witness :
    0 < pool1h.pool_size_ ∧
    (((FreeFrame pool1h 0 ∧ ¬ PinnedFrame pool1h 0 ∧ ¬ EvictableFrame pool1h 0) ∨
      (¬ FreeFrame pool1h 0 ∧ PinnedFrame pool1h 0 ∧ ¬ EvictableFrame pool1h 0) ∨
      (¬ FreeFrame pool1h 0 ∧ ¬ PinnedFrame pool1h 0 ∧ EvictableFrame pool1h 0)) ∧
    (ReachableAlloc 1 2 (fun _ => 0) pool1h → 0 ∉ pool1h.free_list_ → Resident pool1h 0)) :=
  have hr : Reachable 1 2 (fun _ => 0) pool1h :=
    Reachable.run [.newPage, .unpinPage 0 false, .deletePage 0] (Reachable.init (by decide)) rfl
  ⟨by decide, frame_in_exactly_one_class hr 0 (by decide)⟩


/-- C13: in every reachable pool, a page id that the page table maps to a
frame is the page id stored in that frame, no two page ids are mapped to the
same frame, and no frame of the free list is the image of a page id. -/
theorem page_table_points_at_own_frame [Zero D] {n k : Nat} {d : page_id_t → D}
    {s : BufferPoolManagerInstance D} (hr : Reachable n k d s) :
    (∀ p f, s.page_table_ p = some f → ∃ pg, s.pages_[f]? = some pg ∧ pg.page_id_ = p) ∧
    (∀ p q f, s.page_table_ p = some f → s.page_table_ q = some f → p = q) ∧
    (∀ p f, s.page_table_ p = some f → f ∉ s.free_list_) := by
  have hi := hr.inv
  refine ⟨fun p f h => (hi.pt p f h).2, ?_, fun p f h => (hi.pt p f h).1⟩
  intro p q f hp hq
  obtain ⟨pg, h1, h2⟩ := (hi.pt p f hp).2
  obtain ⟨pg1, h3, h4⟩ := (hi.pt q f hq).2
  rw [h1] at h3
  injection h3 with h3
  rw [← h2, ← h4, h3]

/-- The pool `pool2` after two `NewPage` calls and `DeletePage(0)`: page 1 is
resident in frame 1, frame 0 is back in the free list. -/
def pool2e : BufferPoolManagerInstance Nat :=
  (runOps pool2 [.newPage, .newPage, .unpinPage 0 false, .deletePage 0]).getD pool2

theorem page_table_points_at_own_frame_witness :
    Reachable 2 2 (fun _ => 0) pool2e ∧
    (∀ p f, pool2e.page_table_ p = some f →
      ∃ pg, pool2e.pages_[f]? = some pg ∧ pg.page_id_ = p) ∧
    (∀ p q f, pool2e.page_table_ p = some f → pool2e.page_table_ q = some f → p = q) ∧
    (∀ p f, pool2e.page_table_ p = some f → f ∉ pool2e.free_list_) :=
  have hr : Reachable 2 2 (fun _ => 0) pool2e :=
    Reachable.run [.newPage, .newPage, .unpinPage 0 false, .deletePage 0]
      (Reachable.init (by decide)) rfl
  ⟨hr, page_table_points_at_own_frame hr⟩

/-- C12: in every reachable pool, the frame of a resident page has a positive
pin count exactly when the replacer does not hold it as evictable; the
replacer tracks it in both cases, and a victim of `Evict` has pin count 0. -/
theorem resident_pinned_iff_not_evictable [Zero D] {n k : Nat} {d : page_id_t → D}
    {s : BufferPoolManagerInstance D} (hr : Reachable n k d s) :
    (∀ p f pg, s.page_table_ p = some f → s.pages_[f]? = some pg →
      f ∈ s.replacer_.keys ∧
      (0 < pg.pin_count_ ↔ ¬ (s.replacer_.tracked f = true ∧ s.replacer_.is_evictable_ f = true))) ∧
    (∀ r f pg, s.replacer_.Evict = (r, some f) → s.pages_[f]? = some pg →
      pg.pin_count_ = 0) := by
  have hi := hr.inv
  constructor
  · intro p f pg hp hpg
    obtain ⟨h1, h2⟩ := hi.nonfree f pg hpg (hi.pt p f hp).1
    refine ⟨h1, ?_⟩
    rw [LRUKReplacer.tracked_iff]
    constructor
    · intro hpos hev
      have := h2.1 hev.2
      omega
    · intro hne
      by_contra h0
      exact hne ⟨h1, h2.2 (by omega)⟩
  · intro r f pg he hpg
    obtain ⟨_, h2, _⟩ := LRUKReplacer.Evict_some he
    by_cases hf : f ∈ s.free_list_
    · obtain ⟨pg1, h3, h4⟩ := hi.free f hf
      rw [hpg] at h3
      injection h3 with h3
      rw [h3]; exact h4
    · exact (hi.nonfree f pg hpg hf).2.1 h2

theorem resident_pinned_iff_not_evictable_witness :
    Reachable 2 2 (fun _ => 0) pool2e ∧
    (∀ p f pg, pool2e.page_table_ p = some f → pool2e.pages_[f]? = some pg →
      f ∈ pool2e.replacer_.keys ∧
      (0 < pg.pin_count_ ↔
        ¬ (pool2e.replacer_.tracked f = true ∧ pool2e.replacer_.is_evictable_ f = true))) ∧
    (∀ r f pg, pool2e.replacer_.Evict = (r, some f) → pool2e.pages_[f]? = some pg →
      pg.pin_count_ = 0) :=
  have hr : Reachable 2 2 (fun _ => 0) pool2e :=
    Reachable.run [.newPage, .newPage, .unpinPage 0 false, .deletePage 0]
      (Reachable.init (by decide)) rfl
  ⟨hr, resident_pinned_iff_not_evictable hr⟩

end BufferPoolManagerInstance

/-! ### The LRU-K replacer on its own: Size, Remove, histories and the victim of Evict -/

namespace LRUKReplacer

theorem Remove_untracked (r : LRUKReplacer) (f : frame_id_t) (h : r.tracked f = false) :
    r.Remove f = some r := by
  simp [Remove, h]

theorem Remove_pinned (r : LRUKReplacer) (f : frame_id_t) (h : r.tracked f = true)
    (he : r.is_evictable_ f = false) : r.Remove f = none := by
  simp [Remove, h, he]

theorem Remove_evictable (r : LRUKReplacer) (f : frame_id_t) (h : r.tracked f = true)
    (he : r.is_evictable_ f = true) : r.Remove f = some (r.dropFrame f) := by
  simp [Remove, h, he]

theorem Remove_keeps_inv {r r' : LRUKReplacer} {f : frame_id_t} (hi : r.Inv)
    (h : r.Remove f = some r') : r'.Inv := by
  cases ht : r.tracked f
  · rw [Remove_untracked r f ht] at h
    injection h with h
    exact h ▸ hi
  · cases he : r.is_evictable_ f
    · rw [Remove_pinned r f ht he] at h
      exact absurd h (by simp)
    · rw [Remove_evictable r f ht he] at h
      injection h with h
      exact h ▸ (dropFrame_inv hi ((tracked_iff _ _).1 ht) he).1

theorem Evict_inv {r : LRUKReplacer} (hi : r.Inv) : r.Evict.1.Inv := by
  cases h : r.Evict with
  | mk r' o =>
    cases o with
    | none => exact (Evict_none h).1 ▸ hi
    | some f =>
      obtain ⟨h1, h2, h3⟩ := Evict_some h
      exact h3 ▸ (dropFrame_inv hi h1 h2).1

theorem applyCall_inv {r r' : LRUKReplacer} (hi : r.Inv) (c : Call)
    (h : applyCall r c = some r') : r'.Inv := by
  cases c with
  | recordAccess f => exact RecordAccess_inv hi h
  | setEvictable f b =>
    simp only [applyCall] at h
    injection h with h
    exact h ▸ SetEvictable_inv hi f b
  | remove f => exact Remove_keeps_inv hi h
  | evict =>
    simp only [applyCall] at h
    injection h with h
    exact h ▸ Evict_inv hi

theorem Reachable.replacer_inv {n k : Nat} {r : LRUKReplacer} (h : Reachable n k r) : r.Inv := by
  induction h with
  | init _ => exact inv_new n k
  | step c _ hs ih => exact applyCall_inv ih c hs

theorem Reachable.run_calls {n k : Nat} :
    ∀ (cs : List Call) {r r' : LRUKReplacer}, Reachable n k r →
      runCalls r cs = some r' → Reachable n k r' := by
  intro cs
  induction cs with
  | nil => intro r r' hr h; simp only [runCalls] at h; injection h with h; exact h ▸ hr
  | cons c rest ih =>
    intro r r' hr h
    simp only [runCalls] at h
    split at h
    · exact absurd h (by simp)
    · rename_i r1 h1
      exact ih (Reachable.step c hr h1) h

theorem SetEvictable_twice (r : LRUKReplacer) (f : frame_id_t) (b : Bool) :
    (r.SetEvictable f b).SetEvictable f b = r.SetEvictable f b := by
  by_cases ht : f ∈ r.keys
  · have ht1 : r.tracked f = true := (tracked_iff _ _).2 ht
    have ht2 : (r.SetEvictable f b).tracked f = true :=
      (tracked_iff _ _).2 (by rw [SetEvictable_keys]; exact ht)
    have hfl := SetEvictable_flag r f b ht
    unfold SetEvictable at ht2 hfl ⊢
    simp only [ht1, Bool.not_true, Bool.false_eq_true, if_false] at ht2 hfl ⊢
    simp only [ht2, Bool.not_true, Bool.false_eq_true, if_false]
    simp only [Function.update_same, Function.update_idem]
    cases b <;> simp
  · rw [SetEvictable_untracked r f b ht, SetEvictable_untracked r f b ht]

/-- The replacer `LRUKReplacer(7, 2)` after accesses to the frames 1, 2, 3
and with the frames 1 and 2 set evictable. -/
def rep7 : LRUKReplacer :=
  (runCalls (LRUKReplacer.new 7 2) [.recordAccess 1, .recordAccess 2, .recordAccess 3,
    .recordAccess 1, .setEvictable 1 true, .setEvictable 2 true]).getD (LRUKReplacer.new 7 2)

theorem rep7_reachable : Reachable 7 2 rep7 :=
  Reachable.run_calls [.recordAccess 1, .recordAccess 2, .recordAccess 3,
    .recordAccess 1, .setEvictable 1 true, .setEvictable 2 true] (Reachable.init (by decide)) rfl

/-- C15: in every reachable replacer `Size()` is the number of tracked
frames whose evictable flag is set; `SetEvictable` on an untracked frame
changes nothing; `SetEvictable(f, b)` twice is `SetEvictable(f, b)` once. -/
theorem Size_counts_evictable {n k : Nat} {r : LRUKReplacer} (hr : Reachable n k r) :
    r.Size = (r.keys.filter (fun f => r.is_evictable_ f)).length ∧
    r.keys.Nodup ∧
    (∀ f b, r.tracked f = false → r.SetEvictable f b = r) ∧
    (∀ f b, (r.SetEvictable f b).SetEvictable f b = r.SetEvictable f b) := by
  have hi := hr.replacer_inv
  refine ⟨?_, hi.nodup, ?_, fun f b => SetEvictable_twice r f b⟩
  · rw [← List.countP_eq_length_filter]; exact hi.size_eq
  · intro f b ht
    exact SetEvictable_untracked r f b
      (fun h => by rw [(tracked_iff _ _).2 h] at ht; exact absurd ht (by decide))

theorem Size_counts_evictable_witness :
    Reachable 7 2 rep7 ∧ rep7.Size = 2 ∧
    rep7.Size = (rep7.keys.filter (fun f => rep7.is_evictable_ f)).length ∧
    rep7.keys.Nodup ∧
    (∀ f b, rep7.tracked f = false → rep7.SetEvictable f b = rep7) ∧
    (∀ f b, (rep7.SetEvictable f b).SetEvictable f b = rep7.SetEvictable f b) :=
  ⟨rep7_reachable, rfl, Size_counts_evictable rep7_reachable⟩

/-- The history after `push_back(ts)` and the `pop_front` that keeps at most
`k` timestamps. -/
def trimK (k : Nat) (h : List Nat) : List Nat := if k < h.length then h.tail else h

theorem lookup_pushAccess (k ts : Nat) (f g : frame_id_t) (l : List (frame_id_t × List Nat)) :
    (pushAccess k ts f l).lookup g =
      if g = f then some (trimK k ((l.lookup f).getD [] ++ [ts])) else l.lookup g := by
  induction l with
  | nil =>
    by_cases hg : g = f
    · subst hg
      by_cases hk : k < 1 <;> simp [pushAccess, trimK, List.lookup, hk]
    · have : (g == f) = false := by simpa using hg
      simp [pushAccess, List.lookup, hg, this]
  | cons e rest ih =>
    obtain ⟨a, h⟩ := e
    by_cases haf : a = f
    · subst haf
      by_cases hg : g = a
      · subst hg
        simp [pushAccess, List.lookup, trimK]
      · have : (g == a) = false := by simpa using hg
        simp [pushAccess, List.lookup, hg, this]
    · by_cases hg : g = f
      · subst hg
        have h1 : (g == a) = false := by simpa using fun h => haf h.symm
        simp only [pushAccess, haf, if_false, List.lookup, h1, ih, if_true]
      · by_cases hga : g = a
        · subst hga
          simp [pushAccess, haf, List.lookup, hg]
        · have h1 : (g == a) = false := by simpa using hga
          simp only [pushAccess, haf, if_false, List.lookup, h1, ih, hg]

theorem lookup_eraseRef (f g : frame_id_t) (l : List (frame_id_t × List Nat)) :
    (eraseRef l f).lookup g = if g = f then none else l.lookup g := by
  induction l with
  | nil => simp [eraseRef]
  | cons e rest ih =>
    obtain ⟨a, h⟩ := e
    unfold eraseRef at ih ⊢
    by_cases haf : a = f
    · subst haf
      by_cases hg : g = a
      · subst hg; simpa using ih
      · have h1 : (g == a) = false := by simpa using hg
        simpa [List.lookup, h1, hg] using ih
    · have h0 : List.filter (fun e => e.1 != f) ((a, h) :: rest) =
          (a, h) :: List.filter (fun e => e.1 != f) rest :=
        List.filter_cons_of_pos (by simpa using haf)
      rw [h0]
      by_cases hga : g = a
      · subst hga
        simp [List.lookup, haf]
      · have h1 : (g == a) = false := by simpa using hga
        simp only [List.lookup, h1, ih]

theorem lookup_eq_none_iff (f : frame_id_t) (l : List (frame_id_t × List Nat)) :
    l.lookup f = none ↔ f ∉ l.map Prod.fst := by
  induction l with
  | nil => simp
  | cons e rest ih =>
    obtain ⟨a, h⟩ := e
    by_cases hfa : f = a
    · subst hfa; simp [List.lookup]
    · have h1 : (f == a) = false := by simpa using hfa
      simp [List.lookup, h1, ih, hfa]

theorem mem_of_lookup {f : frame_id_t} {h : List Nat} {l : List (frame_id_t × List Nat)}
    (e : l.lookup f = some h) : (f, h) ∈ l := by
  induction l with
  | nil => simp at e
  | cons x rest ih =>
    obtain ⟨a, h0⟩ := x
    by_cases hfa : f = a
    · subst hfa
      simp [List.lookup] at e
      simp [e]
    · have h1 : (f == a) = false := by simpa using hfa
      simp only [List.lookup, h1] at e
      exact List.mem_cons_of_mem _ (ih e)

theorem lookup_of_mem {f : frame_id_t} {h : List Nat} {l : List (frame_id_t × List Nat)}
    (hn : (l.map Prod.fst).Nodup) (e : (f, h) ∈ l) : l.lookup f = some h := by
  induction l with
  | nil => simp at e
  | cons x rest ih =>
    obtain ⟨a, h0⟩ := x
    simp only [List.map_cons, List.nodup_cons] at hn
    rcases List.mem_cons.1 e with e1 | e1
    · injection e1 with e2 e3
      subst e2; subst e3
      simp [List.lookup]
    · have hfa : f ≠ a := by
        intro hfa
        subst hfa
        exact hn.1 (List.mem_map.2 ⟨(f, h), e1, rfl⟩)
      have h1 : (f == a) = false := by simpa using hfa
      simp only [List.lookup, h1]
      exact ih hn.2 e1

theorem history_none_iff (r : LRUKReplacer) (f : frame_id_t) :
    r.history f = none ↔ r.tracked f = false := by
  unfold history
  rw [lookup_eq_none_iff]
  have := tracked_iff r f
  unfold keys at this
  cases ht : r.tracked f
  · simp only [iff_true]
    intro h
    rw [this.2 h] at ht
    exact absurd ht (by decide)
  · simp only [Bool.true_eq_false, iff_false, not_not]
    exact this.1 ht

theorem history_dropFrame (r : LRUKReplacer) (f g : frame_id_t) :
    (r.dropFrame f).history g = if g = f then none else r.history g := by
  simp only [history, dropFrame, lookup_eraseRef]

theorem history_RecordAccess {r r' : LRUKReplacer} {f : frame_id_t}
    (h : r.RecordAccess f = some r') (g : frame_id_t) :
    r'.history g = if g = f then
        some (trimK r.k_ ((r.history f).getD [] ++ [r.current_timestamp_ + 1]))
      else r.history g := by
  unfold RecordAccess at h
  split at h
  · exact absurd h (by simp)
  · injection h with h
    subst h
    simp only [history, lookup_pushAccess]

theorem history_SetEvictable (r : LRUKReplacer) (f : frame_id_t) (b : Bool) (g : frame_id_t) :
    (r.SetEvictable f b).history g = r.history g := by
  unfold SetEvictable history
  split <;> rfl

/-- C16: `Remove(f)` on a tracked evictable frame returns with the history
and the flag of `f` deleted and `Size()` one less, every other frame keeping
its history and flag; on an untracked frame it returns with the state
unchanged; on a tracked frame that is not evictable its assertion fails. -/
theorem Remove_contract {n k : Nat} {r : LRUKReplacer} (hr : Reachable n k r) (f : frame_id_t) :
    (r.tracked f = true → r.is_evictable_ f = true →
      ∃ r', r.Remove f = some r' ∧ r'.tracked f = false ∧ r'.history f = none ∧
        r'.is_evictable_ f = false ∧ r'.Size + 1 = r.Size ∧
        (∀ g, g ≠ f → r'.history g = r.history g ∧ r'.tracked g = r.tracked g ∧
          r'.is_evictable_ g = r.is_evictable_ g) ∧
        r'.current_timestamp_ = r.current_timestamp_) ∧
    (r.tracked f = false → r.Remove f = some r) ∧
    (r.tracked f = true → r.is_evictable_ f = false → r.Remove f = none) := by
  have hi := hr.replacer_inv
  refine ⟨?_, fun ht => Remove_untracked r f ht, fun ht he => Remove_pinned r f ht he⟩
  intro ht he
  refine ⟨r.dropFrame f, Remove_evictable r f ht he, ?_, ?_, ?_, ?_, ?_, rfl⟩
  · rw [← history_none_iff, history_dropFrame, if_pos rfl]
  · rw [history_dropFrame, if_pos rfl]
  · simp [dropFrame]
  · exact (dropFrame_inv hi ((tracked_iff _ _).1 ht) he).2
  · intro g hg
    have h1 : (r.dropFrame f).history g = r.history g := by rw [history_dropFrame, if_neg hg]
    refine ⟨h1, ?_, ?_⟩
    · cases h2 : r.tracked g
      · rw [← history_none_iff, h1, history_none_iff]; exact h2
      · cases h3 : (r.dropFrame f).tracked g
        · rw [← history_none_iff, h1, history_none_iff] at h3
          rw [h3] at h2; exact absurd h2 (by decide)
        · rfl
    · simp [dropFrame, Function.update_noteq hg]



theorem Remove_contract_witness :
    Reachable 7 2 rep7 ∧
    (rep7.tracked 1 = true → rep7.is_evictable_ 1 = true →
      ∃ r', rep7.Remove 1 = some r' ∧ r'.tracked 1 = false ∧ r'.history 1 = none ∧
        r'.is_evictable_ 1 = false ∧ r'.Size + 1 = rep7.Size ∧
        (∀ g, g ≠ 1 → r'.history g = rep7.history g ∧ r'.tracked g = rep7.tracked g ∧
          r'.is_evictable_ g = rep7.is_evictable_ g) ∧
        r'.current_timestamp_ = rep7.current_timestamp_) ∧
    (rep7.tracked 1 = false → rep7.Remove 1 = some rep7) ∧
    (rep7.tracked 1 = true → rep7.is_evictable_ 1 = false → rep7.Remove 1 = none) :=
  ⟨rep7_reachable, Remove_contract rep7_reachable 1⟩

/-- The replacer `LRUKReplacer(1, 2)`. -/
def rep1 : LRUKReplacer := LRUKReplacer.new 1 2

/-- The replacer `rep1` after `RecordAccess(0)`. -/
def rep1a : LRUKReplacer := (rep1.RecordAccess 0).getD rep1

/-- The replacer `rep1a` after `RecordAccess(1)`. -/
def rep1b : LRUKReplacer := (rep1a.RecordAccess 1).getD rep1

/-- C18 fails on the code: the assertion of `RecordAccess` compares the
number of evictable frames `curr_size_`, not the number of tracked frames,
with the capacity. In `LRUKReplacer(1, 2)` after `RecordAccess(0)` one frame
is tracked, which is the capacity, frame 1 is untracked, and `RecordAccess(1)`
returns; the replacer then tracks two frames. -/
theorem RecordAccess_past_capacity :
    Reachable 1 2 rep1a ∧ rep1a.replacer_size_ = 1 ∧ rep1a.numTracked = 1 ∧
    rep1a.tracked 1 = false ∧ rep1a.RecordAccess 1 = some rep1b ∧
    Reachable 1 2 rep1b ∧ rep1b.numTracked = 2 ∧ rep1b.replacer_size_ = 1 ∧
    rep1b.keys = [0, 1] :=
  have h1 : Reachable 1 2 rep1a := Reachable.step (.recordAccess 0) (Reachable.init (by decide)) rfl
  ⟨h1, rfl, rfl, rfl, rfl, Reachable.step (.recordAccess 1) h1 rfl, rfl, rfl, rfl⟩

end LRUKReplacer

namespace LRUKReplacer

/-- The last `k` entries of a log (the whole log when it has fewer). -/
def lastK (k : Nat) (l : List Nat) : List Nat := l.drop (l.length - k)

theorem trimK_lastK {k : Nat} (hk : 0 < k) (l : List Nat) (t : Nat) :
    trimK k (lastK k l ++ [t]) = lastK k (l ++ [t]) := by
  unfold trimK lastK
  by_cases h : l.length < k
  · have h1 : l.length - k = 0 := by omega
    have h2 : (l ++ [t]).length - k = 0 := by simp; omega
    rw [h1, h2]
    simp only [List.drop_zero]
    rw [if_neg (by simp; omega)]
  · have h1 : (List.drop (l.length - k) l ++ [t]).length = k + 1 := by
      simp; omega
    rw [if_pos (by omega)]
    have h2 : (l ++ [t]).length - k = (l.length - k) + 1 := by simp; omega
    rw [h2, ← List.drop_drop, List.drop_one]
    congr 1
    rw [List.drop_append_of_le_length (by omega)]

/-- The link between a reachable replacer and the access log. -/
structure LogInv (k : Nat) (r : LRUKReplacer) (log : frame_id_t → List Nat) : Prop where
  kpos : 0 < k
  k_eq : r.k_ = k
  hist : ∀ f, r.history f = if log f = [] then none else some (lastK k (log f))
  sorted : ∀ f, (log f).Pairwise (· < ·)
  le : ∀ f, ∀ t ∈ log f, t ≤ r.current_timestamp_
  disj : ∀ f g t, t ∈ log f → t ∈ log g → f = g

theorem LogInv.drop {k : Nat} {r : LRUKReplacer} {log : frame_id_t → List Nat}
    (h : LogInv k r log) (f : frame_id_t) :
    LogInv k (r.dropFrame f) (Function.update log f []) := by
  refine ⟨h.kpos, h.k_eq, ?_, ?_, ?_, ?_⟩
  · intro g
    rw [history_dropFrame]
    by_cases hg : g = f
    · subst hg; simp
    · rw [if_neg hg, Function.update_noteq hg]; exact h.hist g
  · intro g
    by_cases hg : g = f
    · subst hg; simp
    · rw [Function.update_noteq hg]; exact h.sorted g
  · intro g t ht
    by_cases hg : g = f
    · subst hg; simp at ht
    · rw [Function.update_noteq hg] at ht; exact h.le g t ht
  · intro g1 g2 t h1 h2
    by_cases hg1 : g1 = f
    · subst hg1; simp at h1
    · by_cases hg2 : g2 = f
      · subst hg2; simp at h2
      · rw [Function.update_noteq hg1] at h1
        rw [Function.update_noteq hg2] at h2
        exact h.disj g1 g2 t h1 h2

theorem LogInv.record {k : Nat} {r r' : LRUKReplacer} {log : frame_id_t → List Nat}
    (h : LogInv k r log) {f : frame_id_t} (e : r.RecordAccess f = some r') :
    LogInv k r' (Function.update log f (log f ++ [r.current_timestamp_ + 1])) := by
  have hts : r'.current_timestamp_ = r.current_timestamp_ + 1 := by
    unfold RecordAccess at e
    split at e
    · exact absurd e (by simp)
    · injection e with e; subst e; rfl
  refine ⟨h.kpos, (RecordAccess_eq e).2.2.2.1.trans h.k_eq, ?_, ?_, ?_, ?_⟩
  · intro g
    rw [history_RecordAccess e]
    by_cases hg : g = f
    · subst hg
      rw [if_pos rfl, Function.update_same, if_neg (by simp), h.k_eq, h.hist g]
      by_cases hl : log g = []
      · rw [if_pos hl, hl]
        have := trimK_lastK h.kpos [] (r.current_timestamp_ + 1)
        simpa [lastK] using this
      · rw [if_neg hl]
        simp only [Option.getD_some]
        rw [trimK_lastK h.kpos]
    · rw [if_neg hg, Function.update_noteq hg]; exact h.hist g
  · intro g
    by_cases hg : g = f
    · subst hg
      rw [Function.update_same, List.pairwise_append]
      refine ⟨h.sorted g, List.pairwise_singleton _ _, ?_⟩
      intro a ha b hb
      rw [List.mem_singleton] at hb
      have := h.le g a ha
      omega
    · rw [Function.update_noteq hg]; exact h.sorted g
  · intro g t ht
    rw [hts]
    by_cases hg : g = f
    · subst hg
      rw [Function.update_same, List.mem_append, List.mem_singleton] at ht
      rcases ht with ht | ht
      · have := h.le g t ht; omega
      · omega
    · rw [Function.update_noteq hg] at ht
      have := h.le g t ht; omega
  · intro g1 g2 t h1 h2
    by_cases hg1 : g1 = f
    · by_cases hg2 : g2 = f
      · rw [hg1, hg2]
      · subst hg1
        rw [Function.update_noteq hg2] at h2
        rw [Function.update_same, List.mem_append, List.mem_singleton] at h1
        rcases h1 with h1 | h1
        · exact h.disj g1 g2 t h1 h2
        · have := h.le g2 t h2; omega
    · rw [Function.update_noteq hg1] at h1
      by_cases hg2 : g2 = f
      · subst hg2
        rw [Function.update_same, List.mem_append, List.mem_singleton] at h2
        rcases h2 with h2 | h2
        · exact h.disj g1 g2 t h1 h2
        · have := h.le g1 t h1; omega
      · rw [Function.update_noteq hg2] at h2
        exact h.disj g1 g2 t h1 h2

theorem LogInv.set_evictable {k : Nat} {r : LRUKReplacer} {log : frame_id_t → List Nat}
    (h : LogInv k r log) (f : frame_id_t) (b : Bool) : LogInv k (r.SetEvictable f b) log := by
  have hm := SetEvictable_misc r f b
  have hts : (r.SetEvictable f b).current_timestamp_ = r.current_timestamp_ := by
    unfold SetEvictable; split <;> rfl
  have hk : (r.SetEvictable f b).k_ = r.k_ := by
    unfold SetEvictable; split <;> rfl
  refine ⟨h.kpos, hk.trans h.k_eq, ?_, h.sorted, ?_, h.disj⟩
  · intro g; rw [history_SetEvictable]; exact h.hist g
  · intro g t ht; rw [hts]; exact h.le g t ht

theorem LogInv.call {k : Nat} {r r' : LRUKReplacer} {log : frame_id_t → List Nat}
    (h : LogInv k r log) (c : Call) (e : applyCall r c = some r') :
    LogInv k r' (logCall r log c) := by
  cases c with
  | recordAccess f => exact h.record e
  | setEvictable f b =>
    simp only [applyCall] at e
    injection e with e
    exact e ▸ h.set_evictable f b
  | remove f =>
    simp only [applyCall] at e
    simp only [logCall]
    cases ht : r.tracked f
    · rw [Remove_untracked r f ht] at e
      injection e with e
      subst e
      simpa using h
    · cases he : r.is_evictable_ f
      · rw [Remove_pinned r f ht he] at e
        exact absurd e (by simp)
      · rw [Remove_evictable r f ht he] at e
        injection e with e
        subst e
        simpa using h.drop f
  | evict =>
    simp only [applyCall] at e
    injection e with e
    simp only [logCall]
    cases hE : r.Evict with
    | mk r1 o =>
      rw [hE] at e
      simp only at e
      subst e
      cases o with
      | none => simp only; exact (Evict_none hE).1 ▸ h
      | some f => simp only; exact (Evict_some hE).2.2 ▸ h.drop f

theorem Logged.log_inv {n k : Nat} {r : LRUKReplacer} {log : frame_id_t → List Nat}
    (h : Logged n k r log) : LogInv k r log := by
  induction h with
  | init hk =>
    exact ⟨hk, rfl, fun f => by simp [history, LRUKReplacer.new], fun f => List.Pairwise.nil,
      fun f t ht => by simp at ht, fun f g t ht => by simp at ht⟩
  | step c _ hs ih => exact ih.call c hs

theorem Logged.reachable {n k : Nat} {r : LRUKReplacer} {log : frame_id_t → List Nat}
    (h : Logged n k r log) : Reachable n k r := by
  induction h with
  | init hk => exact Reachable.init hk
  | step c _ hs ih => exact Reachable.step c ih hs

theorem Reachable.logged {n k : Nat} {r : LRUKReplacer} (h : Reachable n k r) :
    ∃ log, Logged n k r log := by
  induction h with
  | init hk => exact ⟨_, Logged.init hk⟩
  | step c _ hs ih =>
    obtain ⟨log, hl⟩ := ih
    exact ⟨_, Logged.step c hl hs⟩

theorem lastK_facts {k : Nat} (hk : 0 < k) {l : List Nat} (hl : l ≠ []) :
    lastK k l ≠ [] ∧ (lastK k l).length = min l.length k ∧ ∀ t ∈ lastK k l, t ∈ l := by
  have hpos : 0 < l.length := List.length_pos.2 hl
  have hlen : (lastK k l).length = min l.length k := by
    unfold lastK; rw [List.length_drop]; omega
  refine ⟨?_, hlen, fun t ht => List.mem_of_mem_drop ht⟩
  intro h
  rw [h] at hlen
  simp at hlen
  omega

theorem Logged.entry {n k : Nat} {r : LRUKReplacer} {log : frame_id_t → List Nat}
    (h : Logged n k r log) {f : frame_id_t} {hist : List Nat} (hm : (f, hist) ∈ r.frame_ref_) :
    log f ≠ [] ∧ hist = lastK k (log f) := by
  have hi := h.log_inv
  have hl : r.history f = some hist := lookup_of_mem h.reachable.replacer_inv.nodup hm
  rw [hi.hist f] at hl
  by_cases he : log f = []
  · rw [if_pos he] at hl; exact absurd hl (by simp)
  · rw [if_neg he] at hl
    injection hl with hl
    exact ⟨he, hl.symm⟩

/-- The replacer after a sequence of calls, with the access log. -/
def runLog (r : LRUKReplacer) (log : frame_id_t → List Nat) :
    List Call → Option (LRUKReplacer × (frame_id_t → List Nat))
  | [] => some (r, log)
  | c :: rest =>
    match applyCall r c with
    | none => none
    | some r1 => runLog r1 (logCall r log c) rest

theorem Logged.run_log {n k : Nat} :
    ∀ (cs : List Call) {r r' : LRUKReplacer} {log log' : frame_id_t → List Nat},
      Logged n k r log → runLog r log cs = some (r', log') → Logged n k r' log' := by
  intro cs
  induction cs with
  | nil =>
    intro r r' log log' hr h
    simp only [runLog] at h
    injection h with h
    injection h with h1 h2
    exact h1 ▸ h2 ▸ hr
  | cons c rest ih =>
    intro r r' log log' hr h
    simp only [runLog] at h
    split at h
    · exact absurd h (by simp)
    · rename_i r1 h1
      exact ih (Logged.step c hr h1) h

/-- The calls of the scenario with K = 2 and the frames 1 to 6: the accesses
1,2,3,4,5,6,1,2,3,1,2,3,4,5,6, then every frame is set evictable. -/
def sixFrames : List Call :=
  [.recordAccess 1, .recordAccess 2, .recordAccess 3, .recordAccess 4, .recordAccess 5,
   .recordAccess 6, .recordAccess 1, .recordAccess 2, .recordAccess 3, .recordAccess 1,
   .recordAccess 2, .recordAccess 3, .recordAccess 4, .recordAccess 5, .recordAccess 6,
   .setEvictable 1 true, .setEvictable 2 true, .setEvictable 3 true, .setEvictable 4 true,
   .setEvictable 5 true, .setEvictable 6 true]

/-- The replacer `LRUKReplacer(7, 2)` after the calls `sixFrames`. -/
def rep6 : LRUKReplacer :=
  ((runLog (LRUKReplacer.new 7 2) (fun _ => []) sixFrames).getD
    (LRUKReplacer.new 7 2, fun _ => [])).1

/-- The access log after the calls `sixFrames`. -/
def rep6log : frame_id_t → List Nat :=
  ((runLog (LRUKReplacer.new 7 2) (fun _ => []) sixFrames).getD
    (LRUKReplacer.new 7 2, fun _ => [])).2

theorem rep6_logged : Logged 7 2 rep6 rep6log :=
  Logged.run_log sixFrames (Logged.init (by decide)) rfl

/-- C17: with K ≥ 1, after any sequence of calls the history of a tracked
frame is non-empty, has at most K entries, is strictly increasing and is the
last min(n, K) entries of the frame's log of `RecordAccess` timestamps since
it was last (re)tracked; every logged timestamp is at most the current one,
each `RecordAccess` hands out the current timestamp plus one, and no
timestamp is recorded twice, neither for one frame nor for two. -/
theorem history_holds_last_accesses {n k : Nat} {r : LRUKReplacer}
    {log : frame_id_t → List Nat} (h : Logged n k r log) :
    0 < k ∧
    (∀ f hist, (f, hist) ∈ r.frame_ref_ →
      hist ≠ [] ∧ hist.length ≤ k ∧ hist.Pairwise (fun a b => a < b) ∧
      hist = (log f).drop ((log f).length - k) ∧ hist.length = min (log f).length k) ∧
    (∀ f, (log f).Pairwise (fun a b => a < b) ∧ ∀ t ∈ log f, t ≤ r.current_timestamp_) ∧
    (∀ f g t, t ∈ log f → t ∈ log g → f = g) ∧
    (∀ f g hf hg t, (f, hf) ∈ r.frame_ref_ → (g, hg) ∈ r.frame_ref_ → t ∈ hf → t ∈ hg →
      f = g) ∧
    (∀ f r', r.RecordAccess f = some r' → r'.current_timestamp_ = r.current_timestamp_ + 1) := by
  have hi := h.log_inv
  refine ⟨hi.kpos, ?_, fun f => ⟨hi.sorted f, hi.le f⟩, hi.disj, ?_, ?_⟩
  · intro f hist hm
    obtain ⟨h1, h2⟩ := h.entry hm
    obtain ⟨a, b, c⟩ := lastK_facts hi.kpos h1
    subst h2
    refine ⟨a, by rw [b]; omega, ?_, rfl, b⟩
    exact (hi.sorted f).sublist (List.drop_sublist _ _)
  · intro f g hf hg t h1 h2 h3 h4
    obtain ⟨a1, b1⟩ := h.entry h1
    obtain ⟨a2, b2⟩ := h.entry h2
    subst b1; subst b2
    exact hi.disj f g t (List.mem_of_mem_drop h3) (List.mem_of_mem_drop h4)
  · intro f r' e
    unfold RecordAccess at e
    split at e
    · exact absurd e (by simp)
    · injection e with e; subst e; rfl

theorem history_holds_last_accesses_witness :
    Logged 7 2 rep6 rep6log ∧ rep6.frame_ref_ = [(1, [7, 10]), (2, [8, 11]), (3, [9, 12]),
      (4, [4, 13]), (5, [5, 14]), (6, [6, 15])] ∧ rep6log 1 = [1, 7, 10] ∧
    0 < 2 ∧
    (∀ f hist, (f, hist) ∈ rep6.frame_ref_ →
      hist ≠ [] ∧ hist.length ≤ 2 ∧ hist.Pairwise (fun a b => a < b) ∧
      hist = (rep6log f).drop ((rep6log f).length - 2) ∧
      hist.length = min (rep6log f).length 2) ∧
    (∀ f, (rep6log f).Pairwise (fun a b => a < b) ∧
      ∀ t ∈ rep6log f, t ≤ rep6.current_timestamp_) ∧
    (∀ f g t, t ∈ rep6log f → t ∈ rep6log g → f = g) ∧
    (∀ f g hf hg t, (f, hf) ∈ rep6.frame_ref_ → (g, hg) ∈ rep6.frame_ref_ → t ∈ hf →
      t ∈ hg → f = g) ∧
    (∀ f r', rep6.RecordAccess f = some r' →
      r'.current_timestamp_ = rep6.current_timestamp_ + 1) :=
  ⟨rep6_logged, rfl, rfl, history_holds_last_accesses rep6_logged⟩

end LRUKReplacer

namespace LRUKReplacer

/-- The backward distance `current_timestamp_ - it.second.front()` that a
loop of `Evict` computes for an entry. -/
def evictDist (r : LRUKReplacer) (it : frame_id_t × List Nat) : Nat :=
  sizeSub r.current_timestamp_ (it.2.headD 0)

theorem evictLoop_max (r : LRUKReplacer) (u : Bool) :
    ∀ (l : List (frame_id_t × List Nat)) (st : EvictScan),
      ((evictLoop r u st l).frame_id = st.frame_id ∧ (evictLoop r u st l).max_dst = st.max_dst ∧
        ∀ e ∈ l, evictCond r u e = true → evictDist r e < st.max_dst) ∨
      (∃ e ∈ l, evictCond r u e = true ∧ (evictLoop r u st l).frame_id = e.1 ∧
        (evictLoop r u st l).max_dst = evictDist r e ∧ st.max_dst ≤ evictDist r e ∧
        ∀ e1 ∈ l, evictCond r u e1 = true → evictDist r e1 ≤ evictDist r e) := by
  intro l
  induction l with
  | nil => intro st; left; exact ⟨rfl, rfl, fun e he => absurd he (List.not_mem_nil _)⟩
  | cons e rest ih =>
    intro st
    simp only [evictLoop]
    by_cases hc : evictCond r u e = true
    · have hc1 : (r.is_evictable_ e.1 && (!u || decide (e.2.length < r.k_))) = true := hc
      by_cases hm : st.max_dst ≤ sizeSub r.current_timestamp_ (e.2.headD 0)
      · have hv : evictVisit r u st e =
            { flag := true, max_dst := evictDist r e, frame_id := e.1 } := by
          unfold evictVisit evictDist; rw [if_pos hc1, if_pos hm]
        rw [hv]
        rcases ih { flag := true, max_dst := evictDist r e, frame_id := e.1 } with
          ⟨a, b, c⟩ | ⟨e2, he2, c2, a, b, c, d⟩
        · right
          refine ⟨e, List.mem_cons_self _ _, hc, a, b, hm, ?_⟩
          intro e1 he1 hc1
          rcases List.mem_cons.1 he1 with h | h
          · rw [h]
          · exact Nat.le_of_lt (c e1 h hc1)
        · right
          have c1 : evictDist r e ≤ evictDist r e2 := c
          refine ⟨e2, List.mem_cons_of_mem _ he2, c2, a, b, le_trans hm c1, ?_⟩
          intro e1 he1 hc1
          rcases List.mem_cons.1 he1 with h | h
          · rw [h]; exact c1
          · exact d e1 h hc1
      · have hv : evictVisit r u st e = { st with flag := true } := by
          unfold evictVisit; rw [if_pos hc1, if_neg hm]
        rw [hv]
        have hm1 : evictDist r e < st.max_dst := Nat.lt_of_not_le hm
        rcases ih { st with flag := true } with ⟨a, b, c⟩ | ⟨e2, he2, c2, a, b, c, d⟩
        · left
          refine ⟨a, b, ?_⟩
          intro e1 he1 hc1
          rcases List.mem_cons.1 he1 with h | h
          · rw [h]; exact hm1
          · exact c e1 h hc1
        · right
          have c1 : st.max_dst ≤ evictDist r e2 := c
          refine ⟨e2, List.mem_cons_of_mem _ he2, c2, a, b, c1, ?_⟩
          intro e1 he1 hc1
          rcases List.mem_cons.1 he1 with h | h
          · rw [h]; omega
          · exact d e1 h hc1
    · have hc1 : ¬ (r.is_evictable_ e.1 && (!u || decide (e.2.length < r.k_))) = true := hc
      have hv : evictVisit r u st e = st := by
        unfold evictVisit; rw [if_neg hc1]
      rw [hv]
      rcases ih st with ⟨a, b, c⟩ | ⟨e2, he2, c2, a, b, c, d⟩
      · left
        refine ⟨a, b, ?_⟩
        intro e1 he1 hc1
        rcases List.mem_cons.1 he1 with h | h
        · rw [h] at hc1; exact absurd hc1 hc
        · exact c e1 h hc1
      · right
        refine ⟨e2, List.mem_cons_of_mem _ he2, c2, a, b, c, ?_⟩
        intro e1 he1 hc1
        rcases List.mem_cons.1 he1 with h | h
        · rw [h] at hc1; exact absurd hc1 hc
        · exact d e1 h hc1

/-- What a loop of `Evict` that starts with `max_dst = 0` ends with: either
no entry qualifies, or the flag is set and the chosen entry qualifies and has
the largest distance among those that do. -/
theorem evictLoop_from_zero (r : LRUKReplacer) (u : Bool) (st : EvictScan)
    (h0 : st.flag = false) (hm : st.max_dst = 0) :
    ((evictLoop r u st r.frame_ref_).flag = false ∧
      ∀ e ∈ r.frame_ref_, evictCond r u e = false) ∨
    ((evictLoop r u st r.frame_ref_).flag = true ∧
      ∃ e ∈ r.frame_ref_, evictCond r u e = true ∧
        (evictLoop r u st r.frame_ref_).frame_id = e.1 ∧
        ∀ e1 ∈ r.frame_ref_, evictCond r u e1 = true → evictDist r e1 ≤ evictDist r e) := by
  obtain ⟨_, _, c⟩ := evictLoop_spec r u (fun _ => True) r.frame_ref_ st (fun _ => hm)
    (fun _ => trivial) (fun _ _ _ => trivial)
  rw [h0, Bool.false_or] at c
  cases ha : r.frame_ref_.any (evictCond r u)
  · left
    rw [ha] at c
    refine ⟨c, ?_⟩
    intro e he
    exact List.any_eq_false.1 ha e he |> fun h => by simpa using h
  · right
    rw [ha] at c
    refine ⟨c, ?_⟩
    obtain ⟨x, hx, hcx⟩ := List.any_eq_true.1 ha
    rcases evictLoop_max r u r.frame_ref_ st with ⟨_, _, h3⟩ | ⟨e, he, h1, h2, _, _, h5⟩
    · have := h3 x hx hcx
      omega
    · exact ⟨e, he, h1, h2, h5⟩

/-- The three ways `Evict` ends: no entry is evictable; an under-K evictable
entry of largest distance is dropped; no evictable entry is under-K and an
evictable entry of largest distance is dropped. -/
theorem Evict_cases (r : LRUKReplacer) :
    (r.Evict = (r, none) ∧ ∀ e ∈ r.frame_ref_, evictCond r false e = false) ∨
    (∃ e ∈ r.frame_ref_, evictCond r true e = true ∧
      r.Evict = (r.dropFrame e.1, some e.1) ∧
      ∀ e1 ∈ r.frame_ref_, evictCond r true e1 = true → evictDist r e1 ≤ evictDist r e) ∨
    (∃ e ∈ r.frame_ref_, (∀ e1 ∈ r.frame_ref_, evictCond r true e1 = false) ∧
      evictCond r false e = true ∧ r.Evict = (r.dropFrame e.1, some e.1) ∧
      ∀ e1 ∈ r.frame_ref_, evictCond r false e1 = true → evictDist r e1 ≤ evictDist r e) := by
  have hE : r.Evict =
      (if (evictLoop r true ⟨false, 0, 0⟩ r.frame_ref_).flag then
        (r.dropFrame (evictLoop r true ⟨false, 0, 0⟩ r.frame_ref_).frame_id,
          some (evictLoop r true ⟨false, 0, 0⟩ r.frame_ref_).frame_id)
      else if (evictLoop r false (evictLoop r true ⟨false, 0, 0⟩ r.frame_ref_) r.frame_ref_).flag
        then (r.dropFrame
          (evictLoop r false (evictLoop r true ⟨false, 0, 0⟩ r.frame_ref_) r.frame_ref_).frame_id,
          some
          (evictLoop r false (evictLoop r true ⟨false, 0, 0⟩ r.frame_ref_) r.frame_ref_).frame_id)
      else (r, none)) := rfl
  rcases evictLoop_from_zero r true ⟨false, 0, 0⟩ rfl rfl with ⟨hf1, hn1⟩ | ⟨hf1, e, he, hc, hid, hmax⟩
  · obtain ⟨a1, _, _⟩ := evictLoop_spec r true (fun _ => True) r.frame_ref_ ⟨false, 0, 0⟩
      (fun _ => rfl) (fun _ => trivial) (fun _ _ _ => trivial)
    rcases evictLoop_from_zero r false _ hf1 (a1 hf1) with
      ⟨hf2, hn2⟩ | ⟨hf2, e, he, hc, hid, hmax⟩
    · left
      rw [hE, hf1, hf2]
      exact ⟨rfl, hn2⟩
    · right; right
      refine ⟨e, he, hn1, hc, ?_, hmax⟩
      rw [hE, hf1, hf2, hid]
      rfl
  · right; left
    refine ⟨e, he, hc, ?_, hmax⟩
    rw [hE, hf1, hid]
    rfl

theorem Logged.head_le {n k : Nat} {r : LRUKReplacer} {log : frame_id_t → List Nat}
    (h : Logged n k r log) {f : frame_id_t} {hist : List Nat} (hm : (f, hist) ∈ r.frame_ref_) :
    hist ≠ [] ∧ hist.headD 0 ∈ log f ∧ hist.headD 0 ≤ r.current_timestamp_ := by
  have hi := h.log_inv
  obtain ⟨h1, h2⟩ := h.entry hm
  obtain ⟨a, _, c⟩ := lastK_facts hi.kpos h1
  rw [← h2] at a c
  have hh : hist.headD 0 ∈ hist := by
    cases hist with
    | nil => exact absurd rfl a
    | cons x xs => simp
  exact ⟨a, c _ hh, hi.le f _ (c _ hh)⟩

theorem Logged.dist_lt {n k : Nat} {r : LRUKReplacer} {log : frame_id_t → List Nat}
    (h : Logged n k r log) {e e1 : frame_id_t × List Nat} (he : e ∈ r.frame_ref_)
    (he1 : e1 ∈ r.frame_ref_) (hd : evictDist r e1 ≤ evictDist r e) (hne : e1.1 ≠ e.1) :
    e.2.headD 0 < e1.2.headD 0 := by
  obtain ⟨_, a1, a2⟩ := h.head_le (show (e.1, e.2) ∈ r.frame_ref_ from he)
  obtain ⟨_, b1, b2⟩ := h.head_le (show (e1.1, e1.2) ∈ r.frame_ref_ from he1)
  have hne2 : e.2.headD 0 ≠ e1.2.headD 0 := by
    intro heq
    rw [heq] at a1
    exact hne (h.log_inv.disj _ _ _ b1 a1)
  unfold evictDist sizeSub at hd
  rw [if_pos a2, if_pos b2] at hd
  omega

/-- C14: in every replacer state reachable with K ≥ 1, `Evict` returns no
frame exactly when no tracked frame is evictable, and then changes nothing;
otherwise the victim is a tracked evictable frame that either has fewer than
K recorded accesses and the smallest oldest timestamp among the evictable
frames with fewer than K accesses, or, when no evictable frame has fewer than
K accesses, the smallest oldest timestamp among all evictable frames; the
victim's history and flag are dropped, `Size()` goes down by one and every
other frame keeps its history and flag. -/
theorem Evict_picks_oldest {n k : Nat} {r : LRUKReplacer} (hr : Reachable n k r) :
    (r.Evict.2 = none ↔ ∀ f, r.tracked f = true → r.is_evictable_ f = false) ∧
    (r.Evict.2 = none → r.Evict.1 = r) ∧
    (∀ v, r.Evict.2 = some v →
      ∃ hv, (v, hv) ∈ r.frame_ref_ ∧ hv ≠ [] ∧ r.is_evictable_ v = true ∧
        ((hv.length < k ∧
            ∀ g hg, (g, hg) ∈ r.frame_ref_ → r.is_evictable_ g = true → hg.length < k →
              g ≠ v → hv.headD 0 < hg.headD 0) ∨
          ((∀ g hg, (g, hg) ∈ r.frame_ref_ → r.is_evictable_ g = true → k ≤ hg.length) ∧
            ∀ g hg, (g, hg) ∈ r.frame_ref_ → r.is_evictable_ g = true →
              g ≠ v → hv.headD 0 < hg.headD 0)) ∧
        r.Evict.1.tracked v = false ∧ r.Evict.1.history v = none ∧
        r.Evict.1.is_evictable_ v = false ∧ r.Evict.1.Size + 1 = r.Size ∧
        ∀ g, g ≠ v → r.Evict.1.history g = r.history g ∧
          r.Evict.1.is_evictable_ g = r.is_evictable_ g) := by
  obtain ⟨log, hl⟩ := hr.logged
  have hi := hl.log_inv
  have hinv := hr.replacer_inv
  have hk : r.k_ = k := hi.k_eq
  have hdrop : ∀ e ∈ r.frame_ref_, r.is_evictable_ e.1 = true →
      (r.dropFrame e.1).tracked e.1 = false ∧ (r.dropFrame e.1).history e.1 = none ∧
      (r.dropFrame e.1).is_evictable_ e.1 = false ∧ (r.dropFrame e.1).Size + 1 = r.Size ∧
      ∀ g, g ≠ e.1 → (r.dropFrame e.1).history g = r.history g ∧
        (r.dropFrame e.1).is_evictable_ g = r.is_evictable_ g := by
    intro e he hev
    have hn : (r.dropFrame e.1).history e.1 = none := by rw [history_dropFrame, if_pos rfl]
    refine ⟨(history_none_iff _ _).1 hn, hn, by simp [dropFrame], ?_, ?_⟩
    · exact (dropFrame_inv hinv (List.mem_map.2 ⟨e, he, rfl⟩) hev).2
    · intro g hg
      exact ⟨by rw [history_dropFrame, if_neg hg], by simp [dropFrame, Function.update_noteq hg]⟩
  have hcond : ∀ (u : Bool) (e : frame_id_t × List Nat), evictCond r u e = true ↔
      (r.is_evictable_ e.1 = true ∧ (u = true → e.2.length < k)) := by
    intro u e
    unfold evictCond
    rw [hk]
    cases u <;> simp
  rcases Evict_cases r with ⟨hE, hn⟩ | ⟨e, he, hc, hE, hmax⟩ | ⟨e, he, hnone, hc, hE, hmax⟩
  · rw [hE]
    refine ⟨⟨fun _ => ?_, fun _ => rfl⟩, fun _ => rfl, fun v hv => absurd hv (by simp)⟩
    intro f hf
    obtain ⟨x, hx, rfl⟩ := List.mem_map.1 ((tracked_iff _ _).1 hf)
    have := hn x hx
    cases hev : r.is_evictable_ x.1
    · rfl
    · exact absurd ((hcond false x).2 ⟨hev, fun h => absurd h (by decide)⟩) (by simp [this])
  · rw [hE]
    have hce := (hcond true e).1 hc
    refine ⟨⟨fun h => absurd h (by simp), fun h => ?_⟩, fun h => absurd h (by simp), ?_⟩
    · have h1 := h e.1 ((tracked_iff _ _).2 (List.mem_map.2 ⟨e, he, rfl⟩))
      rw [hce.1] at h1
      exact absurd h1 (by decide)
    · intro v hv
      injection hv with hv
      subst hv
      refine ⟨e.2, he, (hl.head_le he).1, hce.1, Or.inl ⟨hce.2 rfl, ?_⟩, hdrop e he hce.1⟩
      intro g hg hm hev hlen hne
      exact hl.dist_lt he hm (hmax (g, hg) hm ((hcond true (g, hg)).2 ⟨hev, fun _ => hlen⟩)) hne
  · rw [hE]
    have hce := (hcond false e).1 hc
    refine ⟨⟨fun h => absurd h (by simp), fun h => ?_⟩, fun h => absurd h (by simp), ?_⟩
    · have h1 := h e.1 ((tracked_iff _ _).2 (List.mem_map.2 ⟨e, he, rfl⟩))
      rw [hce.1] at h1
      exact absurd h1 (by decide)
    · intro v hv
      injection hv with hv
      subst hv
      refine ⟨e.2, he, (hl.head_le he).1, hce.1, Or.inr ⟨?_, ?_⟩, hdrop e he hce.1⟩
      · intro g hg hm hev
        by_contra hlt
        have := hnone (g, hg) hm
        rw [(hcond true (g, hg)).2 ⟨hev, fun _ => Nat.lt_of_not_le hlt⟩] at this
        exact absurd this (by decide)
      · intro g hg hm hev hne
        exact hl.dist_lt he hm
          (hmax (g, hg) hm ((hcond false (g, hg)).2 ⟨hev, fun h => absurd h (by decide)⟩)) hne

/-- The victims of `m` calls of `Evict` in a row, with the replacer after
them. -/
def evictTimes : Nat → LRUKReplacer → List (Option frame_id_t) × LRUKReplacer
  | 0, r => ([], r)
  | m + 1, r => ((r.Evict.2 :: (evictTimes m r.Evict.1).1), (evictTimes m r.Evict.1).2)

theorem Evict_picks_oldest_witness :
    Reachable 7 2 rep6 ∧
    (evictTimes 6 rep6).1 = [some 4, some 5, some 6, some 1, some 2, some 3] ∧
    (evictTimes 6 rep6).2.Size = 0 ∧
    (rep6.Evict.2 = none ↔ ∀ f, rep6.tracked f = true → rep6.is_evictable_ f = false) ∧
    (rep6.Evict.2 = none → rep6.Evict.1 = rep6) ∧
    (∀ v, rep6.Evict.2 = some v →
      ∃ hv, (v, hv) ∈ rep6.frame_ref_ ∧ hv ≠ [] ∧ rep6.is_evictable_ v = true ∧
        ((hv.length < 2 ∧
            ∀ g hg, (g, hg) ∈ rep6.frame_ref_ → rep6.is_evictable_ g = true → hg.length < 2 →
              g ≠ v → hv.headD 0 < hg.headD 0) ∨
          ((∀ g hg, (g, hg) ∈ rep6.frame_ref_ → rep6.is_evictable_ g = true → 2 ≤ hg.length) ∧
            ∀ g hg, (g, hg) ∈ rep6.frame_ref_ → rep6.is_evictable_ g = true →
              g ≠ v → hv.headD 0 < hg.headD 0)) ∧
        rep6.Evict.1.tracked v = false ∧ rep6.Evict.1.history v = none ∧
        rep6.Evict.1.is_evictable_ v = false ∧ rep6.Evict.1.Size + 1 = rep6.Size ∧
        ∀ g, g ≠ v → rep6.Evict.1.history g = rep6.history g ∧
          rep6.Evict.1.is_evictable_ g = rep6.is_evictable_ g) :=
  ⟨rep6_logged.reachable, rfl, rfl, Evict_picks_oldest rep6_logged.reachable⟩

end LRUKReplacer

/-! ### The extendible hash table: Insert, Find and Remove

The invariant of the table, the invariant that holds while a split bucket is
redistributed, and the contracts of `Insert` and `Remove` on the tables that
calls lead to.
-/

namespace Bucket

variable {K V : Type} [DecidableEq K]

theorem assignIn_none_iff (l : List (K × V)) (k : K) (v : V) :
    assignIn l k v = none ↔ k ∉ l.map Prod.fst := by
  induction l with
  | nil => simp [assignIn]
  | cons e rest ih =>
    by_cases h : e.1 = k
    · simp [assignIn, h]
    · simp only [assignIn, h, if_false, List.map_cons, List.mem_cons, not_or]
      cases ha : assignIn rest k v
      · simp only [true_iff]
        exact ⟨fun hk => h hk.symm, ih.1 ha⟩
      · constructor
        · intro hx; exact absurd hx (by simp)
        · intro hn
          rw [ih.2 hn.2] at ha
          exact absurd ha (by simp)

theorem assignIn_some {l l1 : List (K × V)} {k : K} {v : V} (h : assignIn l k v = some l1) :
    l1.map Prod.fst = l.map Prod.fst ∧ l1.length = l.length ∧ (k, v) ∈ l1 ∧
    (∀ e, e ∈ l → e.1 ≠ k → e ∈ l1) ∧
    ((l.map Prod.fst).Nodup → ∀ e, e ∈ l1 → e = (k, v) ∨ (e ∈ l ∧ e.1 ≠ k)) := by
  induction l generalizing l1 with
  | nil => simp [assignIn] at h
  | cons e rest ih =>
    by_cases hk : e.1 = k
    · simp only [assignIn, hk, if_true] at h
      injection h with h
      subst h
      refine ⟨by simp [hk], by simp, by simp, ?_, ?_⟩
      · intro x hx hne
        rcases List.mem_cons.1 hx with hx | hx
        · rw [hx] at hne; exact absurd hk hne
        · exact List.mem_cons_of_mem _ hx
      · intro hn x hx
        simp only [List.map_cons, List.nodup_cons] at hn
        rcases List.mem_cons.1 hx with hx | hx
        · left; exact hx
        · right
          refine ⟨List.mem_cons_of_mem _ hx, ?_⟩
          intro hxk
          apply hn.1
          rw [hk, ← hxk]
          exact List.mem_map.2 ⟨x, hx, rfl⟩
    · simp only [assignIn, hk, if_false] at h
      cases ha : assignIn rest k v with
      | none => rw [ha] at h; exact absurd h (by simp)
      | some r1 =>
        rw [ha] at h
        simp only at h
        injection h with h
        subst h
        obtain ⟨a, b, c, d, e1⟩ := ih ha
        refine ⟨by simp [a], by simp [b], List.mem_cons_of_mem _ c, ?_, ?_⟩
        · intro x hx hne
          rcases List.mem_cons.1 hx with hx | hx
          · rw [hx]; exact List.mem_cons_self _ _
          · exact List.mem_cons_of_mem _ (d x hx hne)
        · intro hn x hx
          simp only [List.map_cons, List.nodup_cons] at hn
          rcases List.mem_cons.1 hx with hx | hx
          · right; rw [hx]; exact ⟨List.mem_cons_self _ _, hk⟩
          · rcases e1 hn.2 x hx with h1 | ⟨h1, h2⟩
            · left; exact h1
            · right; exact ⟨List.mem_cons_of_mem _ h1, h2⟩

theorem findIn_eq_none_iff (l : List (K × V)) (k : K) :
    findIn l k = none ↔ k ∉ l.map Prod.fst := by
  induction l with
  | nil => simp [findIn]
  | cons e rest ih =>
    by_cases h : e.1 = k
    · simp [findIn, h]
    · simp only [findIn, h, if_false, ih, List.map_cons, List.mem_cons, not_or]
      exact ⟨fun hn => ⟨fun hk => h hk.symm, hn⟩, fun hn => hn.2⟩

theorem findIn_eq_some_iff {l : List (K × V)} (hn : (l.map Prod.fst).Nodup) (k : K) (v : V) :
    findIn l k = some v ↔ (k, v) ∈ l := by
  induction l with
  | nil => simp [findIn]
  | cons e rest ih =>
    simp only [List.map_cons, List.nodup_cons] at hn
    by_cases h : e.1 = k
    · simp only [findIn, h, if_true, List.mem_cons]
      constructor
      · intro hv
        injection hv with hv
        left
        rw [← h, ← hv]
      · rintro (hv | hv)
        · rw [← hv]
        · exfalso
          apply hn.1
          rw [h]
          exact List.mem_map.2 ⟨(k, v), hv, rfl⟩
    · simp only [findIn, h, if_false, ih hn.2, List.mem_cons]
      constructor
      · exact fun hv => Or.inr hv
      · rintro (hv | hv)
        · rw [← hv] at h; exact absurd rfl h
        · exact hv

theorem removeIn_eq_none_iff (l : List (K × V)) (k : K) :
    removeIn l k = none ↔ k ∉ l.map Prod.fst := by
  induction l with
  | nil => simp [removeIn]
  | cons e rest ih =>
    by_cases h : e.1 = k
    · simp [removeIn, h]
    · simp only [removeIn, h, if_false, List.map_cons, List.mem_cons, not_or]
      cases ha : removeIn rest k
      · simp only [true_iff]
        exact ⟨fun hk => h hk.symm, ih.1 ha⟩
      · constructor
        · intro hx; exact absurd hx (by simp)
        · intro hn
          rw [ih.2 hn.2] at ha
          exact absurd ha (by simp)

theorem removeIn_some {l l1 : List (K × V)} {k : K} (h : removeIn l k = some l1) :
    l1.Sublist l ∧ ((l.map Prod.fst).Nodup → ∀ e, e ∈ l1 ↔ (e ∈ l ∧ e.1 ≠ k)) := by
  induction l generalizing l1 with
  | nil => simp [removeIn] at h
  | cons e rest ih =>
    by_cases hk : e.1 = k
    · simp only [removeIn, hk, if_true] at h
      injection h with h
      subst h
      refine ⟨List.sublist_cons_self _ _, ?_⟩
      intro hn x
      simp only [List.map_cons, List.nodup_cons] at hn
      constructor
      · intro hx
        refine ⟨List.mem_cons_of_mem _ hx, ?_⟩
        intro hxk
        apply hn.1
        rw [hk, ← hxk]
        exact List.mem_map.2 ⟨x, hx, rfl⟩
      · rintro ⟨hx, hne⟩
        rcases List.mem_cons.1 hx with hx | hx
        · rw [hx] at hne; exact absurd hk hne
        · exact hx
    · simp only [removeIn, hk, if_false] at h
      cases ha : removeIn rest k with
      | none => rw [ha] at h; exact absurd h (by simp)
      | some r1 =>
        rw [ha] at h
        simp only at h
        injection h with h
        subst h
        obtain ⟨a, b⟩ := ih ha
        refine ⟨a.cons₂ _, ?_⟩
        intro hn x
        simp only [List.map_cons, List.nodup_cons] at hn
        simp only [List.mem_cons, b hn.2]
        constructor
        · rintro (hx | hx)
          · rw [hx]; exact ⟨Or.inl rfl, hk⟩
          · exact ⟨Or.inr hx.1, hx.2⟩
        · rintro ⟨hx | hx, hne⟩
          · exact Or.inl hx
          · exact Or.inr ⟨hx, hne⟩

end Bucket

namespace ExtendibleHashTable

variable {K V : Type} [DecidableEq K]

theorem InsertInternal_succ (hash : K → Nat) (fuel : Nat) (t : ExtendibleHashTable K V)
    (key : K) (value : V) :
    InsertInternal hash (fuel + 1) t key value =
      match t.bucketAt (IndexOf hash t key) with
      | none => none
      | some (p, b) =>
        if !b.IsFull then some (t.setBucket p (b.Insert key value).1)
        else splitLoop hash fuel t (IndexOf hash t key) key value := by
  rfl

theorem splitLoop_succ (hash : K → Nat) (fuel : Nat) (t : ExtendibleHashTable K V)
    (idx : Nat) (key : K) (value : V) :
    splitLoop hash (fuel + 1) t idx key value =
      match t.bucketAt idx with
      | none => none
      | some (p, b) =>
        match (if b.GetDepth = t.global_depth_ then t.splitDouble idx p b
          else t.splitLocal idx p b) with
        | none => none
        | some t1 =>
          match t1.buckets[p]? with
          | none => none
          | some b1 =>
            match RedistributeBucket hash fuel t1 p b1.list_.length with
            | none => none
            | some t2 =>
              match t2.bucketAt (IndexOf hash t2 key) with
              | none => none
              | some (p2, b2) =>
                if b2.IsFull then splitLoop hash fuel t2 (IndexOf hash t2 key) key value
                else some (t2.setBucket p2 (b2.Insert key value).1) := by
  rfl

theorem RedistributeBucket_succ (hash : K → Nat) (fuel : Nat) (t : ExtendibleHashTable K V)
    (p sz : Nat) :
    RedistributeBucket hash (fuel + 1) t p sz =
      if sz = 0 then some t
      else
        match t.buckets[p]? with
        | none => none
        | some b =>
          match b.list_ with
          | [] => none
          | (key, value) :: rest =>
            match InsertInternal hash fuel (t.setBucket p { b with list_ := rest }) key value with
            | none => none
            | some t1 => RedistributeBucket hash fuel t1 p (sz - 1) := by
  rfl

theorem RedistributeBucket_zero (hash : K → Nat) (t : ExtendibleHashTable K V) (p sz : Nat) :
    RedistributeBucket hash 0 t p sz = if sz = 0 then some t else none := by
  rfl

end ExtendibleHashTable

namespace Bucket

variable {K V : Type} [DecidableEq K]

/-- What `Bucket::Insert` does to a bucket that is not full and holds no key
twice: the result is `true`, only the list changes, its keys stay distinct,
and it holds the new pair and the old pairs with other keys. -/
theorem Insert_not_full {b : Bucket K V} (hf : b.IsFull = false)
    (hn : (b.list_.map Prod.fst).Nodup) (key : K) (value : V) :
    ∃ L, (b.Insert key value).1 = { b with list_ := L } ∧ (b.Insert key value).2 = true ∧
      (L.map Prod.fst).Nodup ∧ L.length ≤ b.list_.length + 1 ∧
      (∀ e, e ∈ L ↔ e = (key, value) ∨ (e ∈ b.list_ ∧ e.1 ≠ key)) ∧
      (key ∉ b.list_.map Prod.fst → L = b.list_ ++ [(key, value)]) := by
  unfold Insert
  rw [hf]
  simp only [Bool.false_eq_true, if_false]
  cases ha : assignIn b.list_ key value with
  | none =>
    have hk := (assignIn_none_iff _ _ _).1 ha
    refine ⟨b.list_ ++ [(key, value)], rfl, rfl, ?_, by simp, ?_, fun _ => rfl⟩
    · rw [List.map_append, List.nodup_append]
      refine ⟨hn, by simp, ?_⟩
      intro x hx hx1
      simp only [List.map_cons, List.map_nil, List.mem_singleton] at hx1
      rw [hx1] at hx
      exact hk hx
    · intro e
      simp only [List.mem_append, List.mem_singleton]
      constructor
      · rintro (he | he)
        · right
          refine ⟨he, fun hek => hk ?_⟩
          rw [← hek]
          exact List.mem_map.2 ⟨e, he, rfl⟩
        · left; exact he
      · rintro (he | he)
        · right; exact he
        · left; exact he.1
  | some L =>
    obtain ⟨a, b1, c, d, e1⟩ := assignIn_some ha
    refine ⟨L, rfl, rfl, by rw [a]; exact hn, by omega, ?_, ?_⟩
    · intro e
      constructor
      · exact e1 hn e
      · rintro (he | he)
        · rw [he]; exact c
        · exact d e he.1 he.2
    · intro hk
      rw [(assignIn_none_iff _ _ _).2 hk] at ha
      exact absurd ha (by simp)

end Bucket

namespace ExtendibleHashTable

variable {K V : Type}

/-- The pair `(k, v)` is stored in a bucket of the table. -/
def Has (t : ExtendibleHashTable K V) (k : K) (v : V) : Prop :=
  ∃ (r : Nat) (b : Bucket K V), t.buckets[r]? = some b ∧ (k, v) ∈ b.list_

/-- The shape of the directory: its length is `2 ^ global_depth_`, its
entries point into the store, no local depth is above the global depth, and
two slots that agree on the low `depth_` bits of a bucket they point to share
that bucket. -/
structure Shape (t : ExtendibleHashTable K V) : Prop where
  gd_le : t.global_depth_ ≤ MAX_DEPTH
  dir_len : t.dir_.length = 2 ^ t.global_depth_
  ptr : ∀ (i r : Nat), t.dir_[i]? = some r → r < t.buckets.length
  depth_le : ∀ (r : Nat) (b : Bucket K V), t.buckets[r]? = some b → b.depth_ ≤ t.global_depth_
  size_eq : ∀ (r : Nat) (b : Bucket K V), t.buckets[r]? = some b → b.size_ = t.bucket_size_
  cong : ∀ (i j r : Nat) (b : Bucket K V), t.dir_[i]? = some r → t.buckets[r]? = some b → j < 2 ^ t.global_depth_ →
    j % 2 ^ b.depth_ = i % 2 ^ b.depth_ → t.dir_[j]? = some r

/-- The table invariant while the first `m` pairs of the bucket at position
`p` wait for their redistribution: no bucket holds a key twice or more pairs
than `bucket_size_`, and every other pair sits in the bucket that the slot of
its key points to. -/
structure Core (hash : K → Nat) (t : ExtendibleHashTable K V) (p m : Nat) : Prop where
  shape : Shape t
  nodup : ∀ (r : Nat) (b : Bucket K V), t.buckets[r]? = some b → (b.list_.map Prod.fst).Nodup
  cap : ∀ (r : Nat) (b : Bucket K V), t.buckets[r]? = some b → b.list_.length ≤ t.bucket_size_
  placed : ∀ (r : Nat) (b : Bucket K V), t.buckets[r]? = some b → r ≠ p → ∀ e ∈ b.list_,
    t.dir_[IndexOf hash t e.1]? = some r
  placed_p : ∀ (b : Bucket K V), t.buckets[p]? = some b → ∀ e ∈ b.list_.drop m,
    t.dir_[IndexOf hash t e.1]? = some p

/-- The table invariant between calls: `Core` with nothing waiting. -/
def WF (hash : K → Nat) (t : ExtendibleHashTable K V) : Prop := Core hash t 0 0

/-- The table invariant during `RedistributeBucket` of the bucket at `p`
after a split that made the bucket at `q`: the first `m` pairs of `p` wait,
each of them belongs to `p` or to `q` and its key is not in `q`, and the two
buckets together hold at most `bucket_size_` pairs. -/
structure Mid (hash : K → Nat) (t : ExtendibleHashTable K V) (p q m : Nat) : Prop where
  core : Core hash t p m
  ne : p ≠ q
  room : ∃ (bp bq : Bucket K V), t.buckets[p]? = some bp ∧ t.buckets[q]? = some bq ∧
    bp.list_.length + bq.list_.length ≤ t.bucket_size_ ∧ m ≤ bp.list_.length ∧
    ∀ e ∈ bp.list_.take m,
      (t.dir_[IndexOf hash t e.1]? = some p ∨ t.dir_[IndexOf hash t e.1]? = some q) ∧
      e.1 ∉ bq.list_.map Prod.fst

theorem Core.placed_all {hash : K → Nat} {t : ExtendibleHashTable K V} {p : Nat}
    (h : Core hash t p 0) (r : Nat) (b : Bucket K V) (hb : t.buckets[r]? = some b)
    (e : K × V) (he : e ∈ b.list_) : t.dir_[IndexOf hash t e.1]? = some r := by
  by_cases hr : r = p
  · subst hr
    exact h.placed_p b hb e (by simpa using he)
  · exact h.placed r b hb hr e he

theorem Core.to_wf {hash : K → Nat} {t : ExtendibleHashTable K V} {p : Nat}
    (h : Core hash t p 0) : WF hash t :=
  ⟨h.shape, h.nodup, h.cap, fun r b hb _ e he => h.placed_all r b hb e he,
    fun b hb e he => h.placed_all 0 b hb e (by simpa using he)⟩

theorem WF.to_core {hash : K → Nat} {t : ExtendibleHashTable K V} (h : WF hash t) (p : Nat) :
    Core hash t p 0 :=
  ⟨h.shape, h.nodup, h.cap, fun r b hb _ e he => Core.placed_all h r b hb e he,
    fun b hb e he => Core.placed_all h p b hb e (by simpa using he)⟩

theorem IndexOf_lt (hash : K → Nat) (t : ExtendibleHashTable K V) (key : K) :
    IndexOf hash t key < 2 ^ t.global_depth_ :=
  Nat.mod_lt _ (Nat.two_pow_pos _)

/-- In a table with the shape invariant every slot leads to a bucket. -/
theorem Shape.bucketAt_some {t : ExtendibleHashTable K V} (h : Shape t) {i : Nat}
    (hi : i < 2 ^ t.global_depth_) :
    ∃ r b, t.dir_[i]? = some r ∧ t.buckets[r]? = some b ∧ t.bucketAt i = some (r, b) := by
  have h1 : i < t.dir_.length := by rw [h.dir_len]; exact hi
  have h2 : t.dir_[i]? = some t.dir_[i] := List.getElem?_eq_getElem h1
  have h3 := h.ptr i _ h2
  have h4 : t.buckets[t.dir_[i]]? = some t.buckets[t.dir_[i]] := List.getElem?_eq_getElem h3
  refine ⟨_, _, h2, h4, ?_⟩
  unfold bucketAt
  rw [h2]
  simp only
  rw [h4]

theorem bucketAt_eq_some {t : ExtendibleHashTable K V} {i r : Nat} {b : Bucket K V}
    (h : t.bucketAt i = some (r, b)) : t.dir_[i]? = some r ∧ t.buckets[r]? = some b := by
  unfold bucketAt at h
  split at h
  · exact absurd h (by simp)
  · rename_i p hp
    split at h
    · exact absurd h (by simp)
    · rename_i b1 hb1
      injection h with h
      injection h with h1 h2
      subst h1; subst h2
      exact ⟨hp, hb1⟩

theorem bucketAt_of {t : ExtendibleHashTable K V} {i r : Nat} {b : Bucket K V}
    (h1 : t.dir_[i]? = some r) (h2 : t.buckets[r]? = some b) : t.bucketAt i = some (r, b) := by
  unfold bucketAt
  rw [h1]
  simp only
  rw [h2]

/-- In a table with the invariant `Find` returns, and it returns the value
`v` exactly when the pair `(k, v)` is stored. -/
theorem WF.Find_spec [DecidableEq K] {hash : K → Nat} {t : ExtendibleHashTable K V} (h : WF hash t) (k : K) :
    ∃ o, Find hash t k = some o ∧ ∀ v, o = some v ↔ Has t k v := by
  obtain ⟨r, b, h1, h2, h3⟩ := h.shape.bucketAt_some (IndexOf_lt hash t k)
  refine ⟨b.Find k, by unfold Find; rw [h3], ?_⟩
  intro v
  unfold Bucket.Find
  rw [Bucket.findIn_eq_some_iff (h.nodup r b h2)]
  constructor
  · exact fun hm => ⟨r, b, h2, hm⟩
  · rintro ⟨r1, b1, hb1, hm⟩
    have := Core.placed_all h r1 b1 hb1 (k, v) hm
    simp only at this
    rw [h1] at this
    injection this with this
    subst this
    rw [h2] at hb1
    injection hb1 with hb1
    subst hb1
    exact hm

theorem buckets_setBucket (t : ExtendibleHashTable K V) (r : Nat) (b1 : Bucket K V) (x : Nat) :
    (t.setBucket r b1).buckets[x]? =
      if x = r then (if r < t.buckets.length then some b1 else none) else t.buckets[x]? := by
  unfold setBucket
  simp only [List.getElem?_set]
  by_cases hx : x = r
  · subst hx; simp
  · have : ¬ r = x := fun h => hx h.symm
    simp [hx, this]

end ExtendibleHashTable

namespace ExtendibleHashTable

variable {K V : Type}

theorem InsertInternal_not_full [DecidableEq K] (hash : K → Nat) (fuel : Nat)
    {t : ExtendibleHashTable K V} {key : K} (value : V) {p : Nat} {b : Bucket K V}
    (h1 : t.bucketAt (IndexOf hash t key) = some (p, b)) (h2 : b.IsFull = false) :
    InsertInternal hash (fuel + 1) t key value = some (t.setBucket p (b.Insert key value).1) := by
  rw [InsertInternal_succ, h1]
  simp only [h2, Bool.not_false, if_true]

theorem InsertInternal_full [DecidableEq K] (hash : K → Nat) (fuel : Nat)
    {t : ExtendibleHashTable K V} {key : K} (value : V) {p : Nat} {b : Bucket K V}
    (h1 : t.bucketAt (IndexOf hash t key) = some (p, b)) (h2 : b.IsFull = true) :
    InsertInternal hash (fuel + 1) t key value =
      splitLoop hash fuel t (IndexOf hash t key) key value := by
  rw [InsertInternal_succ, h1]
  simp only [h2, Bool.not_true, Bool.false_eq_true, if_false]

theorem setBucket_get {t : ExtendibleHashTable K V} {r : Nat} {b : Bucket K V}
    (hb : t.buckets[r]? = some b) (b1 : Bucket K V) :
    (t.setBucket r b1).buckets[r]? = some b1 := by
  rw [buckets_setBucket, if_pos rfl, if_pos (List.getElem?_eq_some.1 hb).1]

theorem setBucket_other (t : ExtendibleHashTable K V) {r x : Nat} (b1 : Bucket K V)
    (hx : x ≠ r) : (t.setBucket r b1).buckets[x]? = t.buckets[x]? := by
  rw [buckets_setBucket, if_neg hx]

/-- A store into a bucket that keeps its depth and capacity keeps the shape
of the directory. -/
theorem Shape.setBucket_shape {t : ExtendibleHashTable K V} (h : Shape t) {r : Nat}
    {b b1 : Bucket K V} (hb : t.buckets[r]? = some b) (hd : b1.depth_ = b.depth_)
    (hs : b1.size_ = b.size_) : Shape (t.setBucket r b1) := by
  have key : ∀ (x : Nat) (bx : Bucket K V), (t.setBucket r b1).buckets[x]? = some bx →
      ∃ b0, t.buckets[x]? = some b0 ∧ bx.depth_ = b0.depth_ ∧ bx.size_ = b0.size_ := by
    intro x bx hx
    by_cases hxr : x = r
    · subst hxr
      rw [setBucket_get hb] at hx
      injection hx with hx
      subst hx
      exact ⟨b, hb, hd, hs⟩
    · rw [setBucket_other t b1 hxr] at hx
      exact ⟨bx, hx, rfl, rfl⟩
  refine ⟨h.gd_le, h.dir_len, ?_, ?_, ?_, ?_⟩
  · intro i x hi
    have : (t.setBucket r b1).buckets.length = t.buckets.length := by simp [setBucket]
    rw [this]
    exact h.ptr i x hi
  · intro x bx hx
    obtain ⟨b0, h0, h1, _⟩ := key x bx hx
    rw [h1]; exact h.depth_le x b0 h0
  · intro x bx hx
    obtain ⟨b0, h0, _, h2⟩ := key x bx hx
    rw [h2]; exact h.size_eq x b0 h0
  · intro i j x bx hi hx hj hc
    obtain ⟨b0, h0, h1, _⟩ := key x bx hx
    rw [h1] at hc
    exact h.cong i j x b0 hi h0 hj hc

theorem IsFull_false_lt {b : Bucket K V} (hf : b.IsFull = false) (hc : b.list_.length ≤ b.size_) :
    b.list_.length < b.size_ := by
  unfold Bucket.IsFull at hf
  have : b.list_.length ≠ b.size_ := by simpa using hf
  omega

/-- The `Insert` into the bucket that the slot of the key points to, when
the bucket is not full, keeps the invariant. -/
theorem Core.insert_bucket [DecidableEq K] {hash : K → Nat} {t : ExtendibleHashTable K V}
    {p m : Nat} (h : Core hash t p m) {key : K} (value : V) {r : Nat} {b : Bucket K V}
    (hd : t.dir_[IndexOf hash t key]? = some r) (hb : t.buckets[r]? = some b)
    (hf : b.IsFull = false)
    (hp : r = p → m = 0 ∨ (key ∉ b.list_.map Prod.fst ∧ m ≤ b.list_.length)) :
    Core hash (t.setBucket r (b.Insert key value).1) p m := by
  obtain ⟨L, hL, _, hLn, hLl, hLm, hLa⟩ := Bucket.Insert_not_full hf (h.nodup r b hb) key value
  rw [hL]
  have hget := setBucket_get hb { b with list_ := L }
  refine ⟨h.shape.setBucket_shape hb rfl rfl, ?_, ?_, ?_, ?_⟩
  · intro x bx hx
    by_cases hxr : x = r
    · subst hxr
      rw [hget] at hx
      injection hx with hx
      subst hx
      exact hLn
    · rw [setBucket_other t _ hxr] at hx
      exact h.nodup x bx hx
  · intro x bx hx
    by_cases hxr : x = r
    · subst hxr
      rw [hget] at hx
      injection hx with hx
      subst hx
      have h1 := IsFull_false_lt hf (by rw [h.shape.size_eq x b hb]; exact h.cap x b hb)
      rw [h.shape.size_eq x b hb] at h1
      have h2 : L.length ≤ t.bucket_size_ := by omega
      exact h2
    · rw [setBucket_other t _ hxr] at hx
      exact h.cap x bx hx
  · intro x bx hx hxp e he
    by_cases hxr : x = r
    · subst hxr
      rw [hget] at hx
      injection hx with hx
      subst hx
      rcases (hLm e).1 he with h1 | h1
      · rw [h1]; exact hd
      · exact h.placed x b hb hxp e h1.1
    · rw [setBucket_other t _ hxr] at hx
      exact h.placed x bx hx hxp e he
  · intro bx hx e he
    by_cases hpr : p = r
    · subst hpr
      rw [hget] at hx
      injection hx with hx
      subst hx
      rcases hp rfl with h0 | ⟨h1, h2⟩
      · subst h0
        simp only [List.drop_zero] at he
        rcases (hLm e).1 he with h1 | h1
        · rw [h1]; exact hd
        · exact h.placed_p b hb e (by simpa using h1.1)
      · simp only at he
        rw [hLa h1, List.drop_append_of_le_length h2, List.mem_append, List.mem_singleton] at he
        rcases he with he | he
        · exact h.placed_p b hb e he
        · rw [he]; exact hd
    · rw [setBucket_other t _ hpr] at hx
      exact h.placed_p bx hx e he

/-- The pairs stored after the `Insert` into the bucket at `r`, when no other
bucket holds the key. -/
theorem Has_insert_bucket [DecidableEq K] {t : ExtendibleHashTable K V} {key : K} (value : V)
    {r : Nat} {b : Bucket K V} (hb : t.buckets[r]? = some b) (hf : b.IsFull = false)
    (hn : (b.list_.map Prod.fst).Nodup)
    (hkey : ∀ (x : Nat) (b0 : Bucket K V) (v1 : V), t.buckets[x]? = some b0 →
      (key, v1) ∈ b0.list_ → x = r) (k : K) (v : V) :
    Has (t.setBucket r (b.Insert key value).1) k v ↔
      (k = key ∧ v = value) ∨ (k ≠ key ∧ Has t k v) := by
  obtain ⟨L, hL, _, _, _, hLm, _⟩ := Bucket.Insert_not_full hf hn key value
  rw [hL]
  have hget := setBucket_get hb { b with list_ := L }
  constructor
  · rintro ⟨x, bx, hx, hm⟩
    by_cases hxr : x = r
    · subst hxr
      rw [hget] at hx
      injection hx with hx
      subst hx
      rcases (hLm (k, v)).1 hm with h1 | h1
      · injection h1 with h1 h2
        exact Or.inl ⟨h1, h2⟩
      · exact Or.inr ⟨h1.2, x, b, hb, h1.1⟩
    · rw [setBucket_other t _ hxr] at hx
      right
      refine ⟨?_, x, bx, hx, hm⟩
      intro hk
      subst hk
      exact hxr (hkey x bx v hx hm)
  · rintro (⟨h1, h2⟩ | ⟨h1, x, bx, hx, hm⟩)
    · subst h1; subst h2
      exact ⟨r, _, hget, (hLm _).2 (Or.inl rfl)⟩
    · by_cases hxr : x = r
      · subst hxr
        rw [hb] at hx
        injection hx with hx
        subst hx
        exact ⟨x, _, hget, (hLm _).2 (Or.inr ⟨hm, h1⟩)⟩
      · exact ⟨x, bx, by rw [setBucket_other t _ hxr]; exact hx, hm⟩

end ExtendibleHashTable

namespace ExtendibleHashTable

variable {K V : Type}

/-- One round of `RedistributeBucket`: the first waiting pair of the bucket
at `p` is popped and `InsertInternal` puts it, without a split, into the
bucket that the slot of its key points to. -/
theorem Mid.round [DecidableEq K] {hash : K → Nat} {t : ExtendibleHashTable K V}
    {p q m : Nat} (h : Mid hash t p q (m + 1)) (fuel : Nat) :
    ∃ (b : Bucket K V) (key : K) (value : V) (rest : List (K × V)) (t1 : ExtendibleHashTable K V),
      t.buckets[p]? = some b ∧ b.list_ = (key, value) :: rest ∧
      InsertInternal hash (fuel + 1) (t.setBucket p { b with list_ := rest }) key value =
        some t1 ∧
      Mid hash t1 p q m ∧ (∀ k v, Has t1 k v ↔ Has t k v) ∧
      t1.dir_ = t.dir_ ∧ t1.global_depth_ = t.global_depth_ ∧
      t1.num_buckets_ = t.num_buckets_ ∧ t1.bucket_size_ = t.bucket_size_ := by
  obtain ⟨bp, bq, hbp, hbq, hroom, hm, hpend⟩ := h.room
  have hc := h.core
  cases hl : bp.list_ with
  | nil => rw [hl] at hm; simp at hm
  | cons e0 rest =>
    obtain ⟨key, value⟩ := e0
    have hnd := hc.nodup p bp hbp
    rw [hl] at hnd hm hroom hpend
    simp only [List.map_cons, List.nodup_cons] at hnd
    simp only [List.length_cons] at hm hroom
    have he0 := hpend (key, value) (by simp)
    simp only at he0
    -- the table after the pop
    have hget := setBucket_get hbp { bp with list_ := rest }
    have hq1 : (t.setBucket p { bp with list_ := rest }).buckets[q]? = some bq := by
      rw [setBucket_other t _ (fun hqp => h.ne hqp.symm)]; exact hbq
    have hcore : Core hash (t.setBucket p { bp with list_ := rest }) p m := by
      refine ⟨hc.shape.setBucket_shape hbp rfl rfl, ?_, ?_, ?_, ?_⟩
      · intro x bx hx
        by_cases hxp : x = p
        · subst hxp
          rw [hget] at hx
          injection hx with hx
          subst hx
          exact hnd.2
        · rw [setBucket_other t _ hxp] at hx
          exact hc.nodup x bx hx
      · intro x bx hx
        by_cases hxp : x = p
        · subst hxp
          rw [hget] at hx
          injection hx with hx
          subst hx
          have h2 : rest.length ≤ t.bucket_size_ := by omega
          exact h2
        · rw [setBucket_other t _ hxp] at hx
          exact hc.cap x bx hx
      · intro x bx hx hxp e he
        rw [setBucket_other t _ hxp] at hx
        exact hc.placed x bx hx hxp e he
      · intro bx hx e he
        rw [hget] at hx
        injection hx with hx
        subst hx
        exact hc.placed_p bp hbp e (by rw [hl]; simpa using he)
    -- no bucket holds the key after the pop
    have habs : ∀ (x : Nat) (b0 : Bucket K V) (v1 : V),
        (t.setBucket p { bp with list_ := rest }).buckets[x]? = some b0 →
        (key, v1) ∉ b0.list_ := by
      intro x b0 v1 hx hmem
      by_cases hxp : x = p
      · subst hxp
        rw [hget] at hx
        injection hx with hx
        subst hx
        exact hnd.1 (List.mem_map.2 ⟨(key, v1), hmem, rfl⟩)
      · rw [setBucket_other t _ hxp] at hx
        have h1 := hc.placed x b0 hx hxp (key, v1) hmem
        simp only at h1
        rcases he0.1 with h2 | h2
        · rw [h2] at h1
          injection h1 with h1
          exact hxp h1.symm
        · rw [h2] at h1
          injection h1 with h1
          subst h1
          rw [hbq] at hx
          injection hx with hx
          subst hx
          exact he0.2 (List.mem_map.2 ⟨(key, v1), hmem, rfl⟩)
    have hHas0 : ∀ k v, Has t k v ↔
        ((k = key ∧ v = value) ∨ Has (t.setBucket p { bp with list_ := rest }) k v) := by
      intro k v
      constructor
      · rintro ⟨x, bx, hx, hmem⟩
        by_cases hxp : x = p
        · subst hxp
          rw [hbp] at hx
          injection hx with hx
          subst hx
          rw [hl] at hmem
          rcases List.mem_cons.1 hmem with h1 | h1
          · injection h1 with h1 h2
            exact Or.inl ⟨h1, h2⟩
          · exact Or.inr ⟨x, _, hget, h1⟩
        · exact Or.inr ⟨x, bx, by rw [setBucket_other t _ hxp]; exact hx, hmem⟩
      · rintro (⟨h1, h2⟩ | ⟨x, bx, hx, hmem⟩)
        · subst h1; subst h2
          exact ⟨p, bp, hbp, by rw [hl]; exact List.mem_cons_self _ _⟩
        · by_cases hxp : x = p
          · subst hxp
            rw [hget] at hx
            injection hx with hx
            subst hx
            exact ⟨x, bp, hbp, by rw [hl]; exact List.mem_cons_of_mem _ hmem⟩
          · rw [setBucket_other t _ hxp] at hx
            exact ⟨x, bx, hx, hmem⟩
    have hsz := hc.shape.size_eq
    rcases he0.1 with htgt | htgt
    · -- the pair goes back to the bucket at p
      have hnf : ({ bp with list_ := rest } : Bucket K V).IsFull = false := by
        unfold Bucket.IsFull
        have := hsz p bp hbp
        simp only [beq_eq_false_iff_ne, ne_eq]
        omega
      have hins := InsertInternal_not_full hash fuel value
        (bucketAt_of (t := t.setBucket p { bp with list_ := rest }) htgt hget) hnf
      have hkn : key ∉ rest.map Prod.fst := hnd.1
      obtain ⟨L, hL, _, _, _, hLm, hLa⟩ :=
        Bucket.Insert_not_full hnf (hcore.nodup p _ hget) key value
      have hLe : L = rest ++ [(key, value)] := hLa hkn
      have hcore1 := hcore.insert_bucket value (r := p) htgt hget hnf
        (fun _ => Or.inr ⟨hkn, by simp only; omega⟩)
      have hget1 := setBucket_get hget (({ bp with list_ := rest } : Bucket K V).Insert key value).1
      refine ⟨bp, key, value, rest, _, hbp, hl, hins, ⟨hcore1, h.ne, ?_⟩, ?_, rfl, rfl, rfl, rfl⟩
      · refine ⟨_, bq, hget1, ?_, ?_, ?_, ?_⟩
        · rw [setBucket_other _ _ (fun hqp => h.ne hqp.symm)]; exact hq1
        · rw [hL, hLe]
          simp only [List.length_append, List.length_singleton]
          show (_ : Nat) ≤ t.bucket_size_
          omega
        · rw [hL, hLe]
          simp only [List.length_append, List.length_singleton]
          omega
        · intro e he
          rw [hL, hLe] at he
          simp only at he
          rw [List.take_append_of_le_length (by omega)] at he
          have he1 : e ∈ List.take (m + 1) ((key, value) :: rest) := by
            rw [List.take_succ_cons]
            exact List.mem_cons_of_mem _ he
          exact hpend e he1
      · intro k v
        rw [Has_insert_bucket value hget hnf (hcore.nodup p _ hget)
          (fun x b0 v1 hx hmem => absurd hmem (habs x b0 v1 hx)), hHas0]
        constructor
        · rintro (h1 | ⟨_, h2⟩)
          · exact Or.inl h1
          · exact Or.inr h2
        · rintro (h1 | h2)
          · exact Or.inl h1
          · by_cases hk : k = key
            · subst hk
              obtain ⟨x, bx, hx, hmem⟩ := h2
              exact absurd hmem (habs x bx v hx)
            · exact Or.inr ⟨hk, h2⟩
    · -- the pair goes to the bucket at q
      have hnf : bq.IsFull = false := by
        unfold Bucket.IsFull
        have := hsz q bq hbq
        simp only [beq_eq_false_iff_ne, ne_eq]
        omega
      have hins := InsertInternal_not_full hash fuel value
        (bucketAt_of (t := t.setBucket p { bp with list_ := rest }) htgt hq1) hnf
      obtain ⟨L, hL, _, _, _, hLm, hLa⟩ :=
        Bucket.Insert_not_full hnf (hcore.nodup q _ hq1) key value
      have hLe : L = bq.list_ ++ [(key, value)] := hLa he0.2
      have hcore1 := hcore.insert_bucket value (r := q) htgt hq1 hnf
        (fun hqp => absurd hqp.symm h.ne)
      have hget1 := setBucket_get hq1 (bq.Insert key value).1
      refine ⟨bp, key, value, rest, _, hbp, hl, hins, ⟨hcore1, h.ne, ?_⟩, ?_, rfl, rfl, rfl, rfl⟩
      · refine ⟨{ bp with list_ := rest }, _, ?_, hget1, ?_, ?_, ?_⟩
        · rw [setBucket_other _ _ h.ne]; exact hget
        · rw [hL, hLe]
          simp only [List.length_append, List.length_singleton]
          show (_ : Nat) ≤ t.bucket_size_
          omega
        · simp only; omega
        · intro e he
          simp only at he
          have he1 : e ∈ List.take (m + 1) ((key, value) :: rest) := by
            rw [List.take_succ_cons]
            exact List.mem_cons_of_mem _ he
          refine ⟨(hpend e he1).1, ?_⟩
          rw [hL, hLe]
          simp only [List.map_append, List.map_cons, List.map_nil, List.mem_append,
            List.mem_singleton, not_or]
          refine ⟨(hpend e he1).2, ?_⟩
          intro hek
          apply hnd.1
          rw [← hek]
          exact List.mem_map.2 ⟨e, List.mem_of_mem_take he, rfl⟩
      · intro k v
        rw [Has_insert_bucket value hq1 hnf (hcore.nodup q _ hq1)
          (fun x b0 v1 hx hmem => absurd hmem (habs x b0 v1 hx)), hHas0]
        constructor
        · rintro (h1 | ⟨_, h2⟩)
          · exact Or.inl h1
          · exact Or.inr h2
        · rintro (h1 | h2)
          · exact Or.inl h1
          · by_cases hk : k = key
            · subst hk
              obtain ⟨x, bx, hx, hmem⟩ := h2
              exact absurd hmem (habs x bx v hx)
            · exact Or.inr ⟨hk, h2⟩

end ExtendibleHashTable

namespace ExtendibleHashTable

variable {K V : Type}

/-- `RedistributeBucket` after a split: when it returns, the invariant holds
again, the same pairs are stored, and the directory and the counters are as
before. -/
theorem Mid.redistribute [DecidableEq K] {hash : K → Nat} {p q : Nat} :
    ∀ (fuel m : Nat) (t t2 : ExtendibleHashTable K V), Mid hash t p q m →
      RedistributeBucket hash fuel t p m = some t2 →
      WF hash t2 ∧ (∀ k v, Has t2 k v ↔ Has t k v) ∧ t2.dir_ = t.dir_ ∧
      t2.global_depth_ = t.global_depth_ ∧ t2.num_buckets_ = t.num_buckets_ ∧
      t2.bucket_size_ = t.bucket_size_ := by
  intro fuel
  induction fuel with
  | zero =>
    intro m t t2 h e
    rw [RedistributeBucket_zero] at e
    split at e
    · rename_i hm
      injection e with e
      subst e; subst hm
      exact ⟨h.core.to_wf, fun _ _ => Iff.rfl, rfl, rfl, rfl, rfl⟩
    · exact absurd e (by simp)
  | succ fuel ih =>
    intro m t t2 h e
    rw [RedistributeBucket_succ] at e
    cases m with
    | zero =>
      simp only [if_true] at e
      injection e with e
      subst e
      exact ⟨h.core.to_wf, fun _ _ => Iff.rfl, rfl, rfl, rfl, rfl⟩
    | succ m =>
      simp only [Nat.succ_ne_zero, if_false, Nat.add_sub_cancel] at e
      cases fuel with
      | zero =>
        obtain ⟨b, key, value, rest, t1, hb, hl, _⟩ := h.round 0
        rw [hb] at e
        simp only [hl] at e
        exact absurd e (by simp [InsertInternal])
      | succ f =>
        obtain ⟨b, key, value, rest, t1, hb, hl, hins, hmid, hhas, hd, hg, hnb, hbs⟩ := h.round f
        rw [hb] at e
        simp only [hl] at e
        rw [hins] at e
        simp only at e
        obtain ⟨a1, a2, a3, a4, a5, a6⟩ := ih m t1 t2 hmid e
        exact ⟨a1, fun k v => (a2 k v).trans (hhas k v), a3.trans hd, a4.trans hg,
          a5.trans hnb, a6.trans hbs⟩

end ExtendibleHashTable

namespace ExtendibleHashTable

variable {K V : Type}

/-- The store after a split of the bucket `b` at position `p`: the bucket
with its depth incremented, and one more bucket, empty, of the same depth. -/
def splitStore (t : ExtendibleHashTable K V) (p : Nat) (b : Bucket K V) : List (Bucket K V) :=
  t.buckets.set p b.IncrementDepth ++
    [{ size_ := t.bucket_size_, depth_ := b.IncrementDepth.GetDepth, list_ := [] }]

theorem splitStore_get {t : ExtendibleHashTable K V} {p : Nat} {b : Bucket K V}
    (hb : t.buckets[p]? = some b) (x : Nat) :
    (splitStore t p b)[x]? =
      if x = t.buckets.length then
        some { size_ := t.bucket_size_, depth_ := b.depth_ + 1, list_ := [] }
      else if x = p then some b.IncrementDepth else t.buckets[x]? := by
  have hp : p < t.buckets.length := (List.getElem?_eq_some.1 hb).1
  unfold splitStore
  by_cases hx : x < t.buckets.length
  · rw [List.getElem?_append_left (by simpa using hx), if_neg (by omega), List.getElem?_set]
    by_cases hxp : x = p
    · subst hxp; simp [hx]
    · have : ¬ p = x := fun h => hxp h.symm
      simp [hxp, this]
  · rw [List.getElem?_append_right (by simpa using hx)]
    simp only [List.length_set]
    by_cases hxe : x = t.buckets.length
    · subst hxe; simp [Bucket.IncrementDepth, Bucket.GetDepth]
    · rw [if_neg hxe, if_neg (by omega)]
      have h1 : t.buckets[x]? = none := List.getElem?_eq_none (by omega)
      rw [h1]
      have h2 : 0 < x - t.buckets.length := by omega
      cases hk : x - t.buckets.length with
      | zero => omega
      | succ n => simp

/-- After a split, before the redistribution: when the new table has the
shape invariant and every key is led to the bucket that held it or, for the
keys of the split bucket, to the new bucket, all pairs of the split bucket
wait and the invariant of `RedistributeBucket` holds. -/
theorem WF.split_mid {hash : K → Nat} {t t1 : ExtendibleHashTable K V} (h : WF hash t)
    {p : Nat} {b : Bucket K V} (hb : t.buckets[p]? = some b)
    (hbk : t1.buckets = splitStore t p b) (hbs : t1.bucket_size_ = t.bucket_size_)
    (hshape : Shape t1)
    (hdir : ∀ (k : K) (r : Nat), t.dir_[IndexOf hash t k]? = some r →
      t1.dir_[IndexOf hash t1 k]? = some r ∨
        (r = p ∧ t1.dir_[IndexOf hash t1 k]? = some t.buckets.length)) :
    Mid hash t1 p t.buckets.length b.list_.length ∧
    t1.buckets[p]? = some b.IncrementDepth ∧ (∀ k v, Has t1 k v ↔ Has t k v) := by
  have hp : p < t.buckets.length := (List.getElem?_eq_some.1 hb).1
  have hget : ∀ x, t1.buckets[x]? =
      if x = t.buckets.length then
        some { size_ := t.bucket_size_, depth_ := b.depth_ + 1, list_ := [] }
      else if x = p then some b.IncrementDepth else t.buckets[x]? := by
    intro x; rw [hbk]; exact splitStore_get hb x
  have hgp : t1.buckets[p]? = some b.IncrementDepth := by
    rw [hget, if_neg (by omega), if_pos rfl]
  have hgq : t1.buckets[t.buckets.length]? =
      some { size_ := t.bucket_size_, depth_ := b.depth_ + 1, list_ := [] } := by
    rw [hget, if_pos rfl]
  -- every bucket of the new store has the list of a bucket of the old store, or is empty
  have hold : ∀ (x : Nat) (bx : Bucket K V), t1.buckets[x]? = some bx →
      (x = t.buckets.length ∧ bx.list_ = []) ∨
      (x ≠ t.buckets.length ∧ ∃ b0, t.buckets[x]? = some b0 ∧ bx.list_ = b0.list_) := by
    intro x bx hx
    rw [hget] at hx
    by_cases h1 : x = t.buckets.length
    · rw [if_pos h1] at hx
      injection hx with hx
      subst hx
      exact Or.inl ⟨h1, rfl⟩
    · rw [if_neg h1] at hx
      by_cases h2 : x = p
      · rw [if_pos h2] at hx
        injection hx with hx
        subst hx; subst h2
        exact Or.inr ⟨h1, b, hb, rfl⟩
      · rw [if_neg h2] at hx
        exact Or.inr ⟨h1, bx, hx, rfl⟩
  refine ⟨⟨⟨hshape, ?_, ?_, ?_, ?_⟩, by omega, ?_⟩, hgp, ?_⟩
  · intro x bx hx
    rcases hold x bx hx with ⟨_, h2⟩ | ⟨_, b0, h2, h3⟩
    · rw [h2]; exact List.nodup_nil
    · rw [h3]; exact h.nodup x b0 h2
  · intro x bx hx
    rw [hbs]
    rcases hold x bx hx with ⟨_, h2⟩ | ⟨_, b0, h2, h3⟩
    · rw [h2]; exact Nat.zero_le _
    · rw [h3]; exact h.cap x b0 h2
  · intro x bx hx hxp e he
    rcases hold x bx hx with ⟨_, h2⟩ | ⟨_, b0, h2, h3⟩
    · rw [h2] at he; exact absurd he (List.not_mem_nil _)
    · rw [h3] at he
      rcases hdir e.1 x (Core.placed_all h x b0 h2 e he) with h4 | ⟨h4, _⟩
      · exact h4
      · exact absurd h4 hxp
  · intro bx hx e he
    rw [hgp] at hx
    injection hx with hx
    subst hx
    have : (b.IncrementDepth).list_ = b.list_ := rfl
    rw [this, List.drop_length] at he
    exact absurd he (List.not_mem_nil _)
  · refine ⟨_, _, hgp, hgq, ?_, Nat.le_refl _, ?_⟩
    · rw [hbs]
      have := h.cap p b hb
      simpa [Bucket.IncrementDepth] using this
    · intro e he
      have he1 : e ∈ b.list_ := List.mem_of_mem_take he
      refine ⟨?_, by simp⟩
      rcases hdir e.1 p (Core.placed_all h p b hb e he1) with h4 | ⟨_, h4⟩
      · exact Or.inl h4
      · exact Or.inr h4
  · intro k v
    constructor
    · rintro ⟨x, bx, hx, hm⟩
      rcases hold x bx hx with ⟨_, h2⟩ | ⟨_, b0, h2, h3⟩
      · rw [h2] at hm; exact absurd hm (List.not_mem_nil _)
      · exact ⟨x, b0, h2, h3 ▸ hm⟩
    · rintro ⟨x, bx, hx, hm⟩
      have hx1 : x < t.buckets.length := (List.getElem?_eq_some.1 hx).1
      by_cases h2 : x = p
      · subst h2
        rw [hb] at hx
        injection hx with hx
        subst hx
        exact ⟨x, _, hgp, hm⟩
      · exact ⟨x, bx, by rw [hget, if_neg (by omega), if_neg h2]; exact hx, hm⟩

end ExtendibleHashTable

namespace ExtendibleHashTable

variable {K V : Type}

theorem double_get (dir : List Nat) (n idx q j : Nat) (hlen : dir.length = n) (hidx : idx < n)
    (hj : j < 2 * n) :
    ((dir ++ dir).set (n + idx) q)[j]? = if j = n + idx then some q else dir[j % n]? := by
  rw [List.getElem?_set]
  by_cases h : j = n + idx
  · subst h
    simp [hlen, hidx]
  · have h1 : ¬ n + idx = j := fun e => h e.symm
    rw [if_neg h1, if_neg h]
    by_cases hjn : j < n
    · rw [List.getElem?_append_left (by omega), Nat.mod_eq_of_lt hjn]
    · rw [List.getElem?_append_right (by omega), hlen]
      have : j % n = j - n := by
        rw [Nat.mod_eq_sub_mod (by omega), Nat.mod_eq_of_lt (by omega)]
      rw [this]

theorem mod_pow_mod (a : Nat) {d e : Nat} (h : d ≤ e) : a % 2 ^ e % 2 ^ d = a % 2 ^ d :=
  Nat.mod_mod_of_dvd a (Nat.pow_dvd_pow 2 h)

theorem split_store_length (t : ExtendibleHashTable K V) (p : Nat) (b : Bucket K V) :
    (splitStore t p b).length = t.buckets.length + 1 := by
  simp [splitStore]

/-- Case 1 of a split leads from the invariant to the invariant of
`RedistributeBucket` with all pairs of the split bucket waiting. -/
theorem WF.splitDouble_mid {hash : K → Nat} {t t1 : ExtendibleHashTable K V} (h : WF hash t)
    {idx p : Nat} {b : Bucket K V} (hidx : t.dir_[idx]? = some p) (hb : t.buckets[p]? = some b)
    (hdep : b.depth_ = t.global_depth_) (e : t.splitDouble idx p b = some t1) :
    Mid hash t1 p t.buckets.length b.list_.length ∧
    t1.buckets[p]? = some b.IncrementDepth ∧ (∀ k v, Has t1 k v ↔ Has t k v) ∧
    t1.bucket_size_ = t.bucket_size_ := by
  have hsh := h.shape
  have hil : idx < 2 ^ t.global_depth_ := by
    rw [← hsh.dir_len]; exact (List.getElem?_eq_some.1 hidx).1
  have hp : p < t.buckets.length := (List.getElem?_eq_some.1 hb).1
  unfold splitDouble at e
  split at e
  · exact absurd e (by simp)
  · rename_i hgd
    split at e
    · injection e with e
      have hgd1 : t1.global_depth_ = t.global_depth_ + 1 := by rw [← e]
      have hdir1 : t1.dir_ = (t.dir_ ++ t.dir_).set (2 ^ t.global_depth_ + idx) t.buckets.length := by
        rw [← e]
      have hbk : t1.buckets = splitStore t p b := by rw [← e]; rfl
      have hbs : t1.bucket_size_ = t.bucket_size_ := by rw [← e]
      have hpow : 2 ^ t1.global_depth_ = 2 * 2 ^ t.global_depth_ := by rw [hgd1, Nat.pow_succ]; omega
      have hget : ∀ j, j < 2 * 2 ^ t.global_depth_ → t1.dir_[j]? =
          if j = 2 ^ t.global_depth_ + idx then some t.buckets.length
          else t.dir_[j % 2 ^ t.global_depth_]? := by
        intro j hj
        rw [hdir1]
        exact double_get t.dir_ _ idx _ j hsh.dir_len hil hj
      have hlen1 : t1.dir_.length = 2 * 2 ^ t.global_depth_ := by
        rw [hdir1, List.length_set, List.length_append, hsh.dir_len]; omega
      have hbget := fun x => splitStore_get (t := t) hb x
      have hshape : Shape t1 := by
        refine ⟨?_, ?_, ?_, ?_, ?_, ?_⟩
        · rw [hgd1]; unfold MAX_DEPTH at hgd ⊢; omega
        · rw [hlen1, hpow]
        · intro i r hi
          have hi1 : i < 2 * 2 ^ t.global_depth_ := by
            rw [← hlen1]; exact (List.getElem?_eq_some.1 hi).1
          rw [hbk, split_store_length]
          rw [hget i hi1] at hi
          split at hi
          · injection hi with hi; omega
          · have := hsh.ptr _ r hi; omega
        · intro x bx hx
          rw [hbk, hbget] at hx
          rw [hgd1]
          split at hx
          · injection hx with hx; subst hx; simp only; omega
          · split at hx
            · injection hx with hx; subst hx; simp only [Bucket.IncrementDepth]; omega
            · have := hsh.depth_le x bx hx; omega
        · intro x bx hx
          rw [hbk, hbget] at hx
          rw [hbs]
          split at hx
          · injection hx with hx; subst hx; rfl
          · split at hx
            · injection hx with hx; subst hx; exact hsh.size_eq p b hb
            · exact hsh.size_eq x bx hx
        · intro i j r bx hi hx hj hc
          have hi1 : i < 2 * 2 ^ t.global_depth_ := by
            rw [← hlen1]; exact (List.getElem?_eq_some.1 hi).1
          rw [hpow] at hj
          have hsame : bx.depth_ = t.global_depth_ + 1 → t1.dir_[j]? = some r := by
            intro hd
            rw [hd, Nat.pow_succ, Nat.mod_eq_of_lt (by omega), Nat.mod_eq_of_lt (by omega)] at hc
            rw [hc]; exact hi
          rw [hbk, hbget] at hx
          split at hx
          · injection hx with hx; subst hx
            exact hsame (by simp only; omega)
          · rename_i hrq
            split at hx
            · injection hx with hx; subst hx
              exact hsame (by simp only [Bucket.IncrementDepth]; omega)
            · rename_i hrp
              have hdr := hsh.depth_le r bx hx
              rw [hget i hi1] at hi
              split at hi
              · injection hi with hi; exact absurd hi.symm hrq
              · have hc1 : j % 2 ^ t.global_depth_ % 2 ^ bx.depth_ =
                    i % 2 ^ t.global_depth_ % 2 ^ bx.depth_ := by
                  rw [mod_pow_mod j hdr, mod_pow_mod i hdr]; exact hc
                have h2 := hsh.cong _ (j % 2 ^ t.global_depth_) r bx hi hx
                  (Nat.mod_lt _ (Nat.two_pow_pos _)) hc1
                rw [hget j hj]
                split
                · rename_i hje
                  rw [hje, Nat.add_mod_left, Nat.mod_eq_of_lt hil, hidx] at h2
                  injection h2 with h2
                  exact absurd h2.symm hrp
                · exact h2
      have hdir : ∀ (k : K) (r : Nat), t.dir_[IndexOf hash t k]? = some r →
          t1.dir_[IndexOf hash t1 k]? = some r ∨
            (r = p ∧ t1.dir_[IndexOf hash t1 k]? = some t.buckets.length) := by
        intro k r hk
        unfold IndexOf at hk ⊢
        have hj : hash k % 2 ^ t1.global_depth_ < 2 * 2 ^ t.global_depth_ := by
          rw [← hpow]; exact Nat.mod_lt _ (Nat.two_pow_pos _)
        have hm : hash k % 2 ^ t1.global_depth_ % 2 ^ t.global_depth_ =
            hash k % 2 ^ t.global_depth_ := by
          rw [hgd1]; exact mod_pow_mod _ (Nat.le_succ _)
        rw [hget _ hj]
        split
        · rename_i hje
          right
          rw [hje, Nat.add_mod_left, Nat.mod_eq_of_lt hil] at hm
          rw [← hm, hidx] at hk
          injection hk with hk
          exact ⟨hk.symm, rfl⟩
        · left
          rw [hm]; exact hk
      obtain ⟨a1, a2, a3⟩ := h.split_mid hb hbk hbs hshape hdir
      exact ⟨a1, a2, a3, hbs⟩
    · exact absurd e (by simp)

end ExtendibleHashTable

namespace ExtendibleHashTable

variable {K V : Type}

theorem slot_eq_iff (D c i j : Nat) (hc : c < 2 ^ D) :
    i * 2 ^ D + c = j ↔ (j % 2 ^ D = c ∧ j / 2 ^ D = i) := by
  have hpos : 0 < 2 ^ D := Nat.two_pow_pos D
  constructor
  · intro h
    subst h
    constructor
    · rw [Nat.add_comm, Nat.add_mul_mod_self_right, Nat.mod_eq_of_lt hc]
    · rw [Nat.add_comm, Nat.add_mul_div_right _ _ hpos, Nat.div_eq_of_lt hc, Nat.zero_add]
  · rintro ⟨h1, h2⟩
    have := Nat.div_add_mod j (2 ^ D)
    rw [h1, h2, Nat.mul_comm] at this
    exact this

/-- The loop of case 2 returns and redirects exactly the slots with the low
bits of `idx` and a quotient in the rounds that are left. -/
theorem pointSlots_spec (D idx q : Nat) :
    ∀ (n i : Nat) (dir : List Nat), (i + n) * 2 ^ D ≤ dir.length →
      ∃ dir1, pointSlots D idx q n i dir = some dir1 ∧ dir1.length = dir.length ∧
        ∀ j, dir1[j]? =
          if j < dir.length ∧ j % 2 ^ D = idx % 2 ^ D ∧ i ≤ j / 2 ^ D ∧ j / 2 ^ D < i + n
          then some q else dir[j]? := by
  have hpos : 0 < 2 ^ D := Nat.two_pow_pos D
  have hc : idx % 2 ^ D < 2 ^ D := Nat.mod_lt _ hpos
  intro n
  induction n with
  | zero =>
    intro i dir _
    refine ⟨dir, rfl, rfl, ?_⟩
    intro j
    rw [if_neg (by omega)]
  | succ n ih =>
    intro i dir hlen
    have hs : i * 2 ^ D + idx % 2 ^ D < dir.length := by
      have h1 : (i + 1) * 2 ^ D ≤ (i + (n + 1)) * 2 ^ D := Nat.mul_le_mul_right _ (by omega)
      rw [Nat.add_mul, Nat.one_mul] at h1
      omega
    obtain ⟨dir1, h1, h2, h3⟩ := ih (i + 1) (dir.set (i * 2 ^ D + idx % 2 ^ D) q)
      (by rw [List.length_set]; rw [show i + 1 + n = i + (n + 1) by omega]; exact hlen)
    refine ⟨dir1, ?_, by rw [h2, List.length_set], ?_⟩
    · simp only [pointSlots, hs, if_true]
      exact h1
    · intro j
      rw [h3 j, List.length_set, List.getElem?_set]
      by_cases hj : j < dir.length
      · by_cases hm : j % 2 ^ D = idx % 2 ^ D
        · by_cases hq : j / 2 ^ D = i
          · have hsj : i * 2 ^ D + idx % 2 ^ D = j := (slot_eq_iff D _ i j hc).2 ⟨hm, hq⟩
            rw [if_neg (by omega), if_pos hsj, if_pos hs, if_pos ⟨hj, hm, by omega, by omega⟩]
          · have hsj : ¬ i * 2 ^ D + idx % 2 ^ D = j :=
              fun h => hq ((slot_eq_iff D _ i j hc).1 h).2
            rw [if_neg hsj]
            by_cases hr : i + 1 ≤ j / 2 ^ D ∧ j / 2 ^ D < i + 1 + n
            · rw [if_pos ⟨hj, hm, hr⟩, if_pos ⟨hj, hm, by omega, by omega⟩]
            · rw [if_neg (fun h => hr h.2.2), if_neg (fun h => hr ⟨by omega, by omega⟩)]
        · have hsj : ¬ i * 2 ^ D + idx % 2 ^ D = j :=
            fun h => hm ((slot_eq_iff D _ i j hc).1 h).1
          rw [if_neg (fun h => hm h.2.1), if_neg hsj, if_neg (fun h => hm h.2.1)]
      · have hsj : ¬ i * 2 ^ D + idx % 2 ^ D = j := by omega
        rw [if_neg (fun h => hj h.1), if_neg hsj, if_neg (fun h => hj h.1)]

/-- Case 2 of a split leads from the invariant to the invariant of
`RedistributeBucket` with all pairs of the split bucket waiting. -/
theorem WF.splitLocal_mid {hash : K → Nat} {t t1 : ExtendibleHashTable K V} (h : WF hash t)
    {idx p : Nat} {b : Bucket K V} (hidx : t.dir_[idx]? = some p) (hb : t.buckets[p]? = some b)
    (hdep : b.depth_ ≠ t.global_depth_) (e : t.splitLocal idx p b = some t1) :
    Mid hash t1 p t.buckets.length b.list_.length ∧
    t1.buckets[p]? = some b.IncrementDepth ∧ (∀ k v, Has t1 k v ↔ Has t k v) ∧
    t1.bucket_size_ = t.bucket_size_ := by
  have hsh := h.shape
  have hil : idx < 2 ^ t.global_depth_ := by
    rw [← hsh.dir_len]; exact (List.getElem?_eq_some.1 hidx).1
  have hp : p < t.buckets.length := (List.getElem?_eq_some.1 hb).1
  have hd1 : b.depth_ + 1 ≤ t.global_depth_ := by
    have := hsh.depth_le p b hb; omega
  have hpw : 2 ^ (t.global_depth_ - (b.depth_ + 1)) * 2 ^ (b.depth_ + 1) = 2 ^ t.global_depth_ := by
    rw [← Nat.pow_add]; congr 1; omega
  obtain ⟨dir1, hps, hlen1, hget0⟩ := pointSlots_spec (b.depth_ + 1) idx t.buckets.length
    (2 ^ (t.global_depth_ - (b.depth_ + 1))) 0 t.dir_
    (by rw [Nat.zero_add, hpw, hsh.dir_len])
  unfold splitLocal at e
  have hD : b.IncrementDepth.GetDepth = b.depth_ + 1 := rfl
  rw [hD, hps] at e
  simp only at e
  injection e with e
  have hgd1 : t1.global_depth_ = t.global_depth_ := by rw [← e]
  have hdir1 : t1.dir_ = dir1 := by rw [← e]
  have hbk : t1.buckets = splitStore t p b := by rw [← e]; rfl
  have hbs : t1.bucket_size_ = t.bucket_size_ := by rw [← e]
  have hget : ∀ j, j < 2 ^ t.global_depth_ → t1.dir_[j]? =
      if j % 2 ^ (b.depth_ + 1) = idx % 2 ^ (b.depth_ + 1) then some t.buckets.length
      else t.dir_[j]? := by
    intro j hj
    rw [hdir1, hget0 j]
    have hq : j / 2 ^ (b.depth_ + 1) < 0 + 2 ^ (t.global_depth_ - (b.depth_ + 1)) := by
      rw [Nat.zero_add, Nat.div_lt_iff_lt_mul (Nat.two_pow_pos _), hpw]; exact hj
    by_cases hm : j % 2 ^ (b.depth_ + 1) = idx % 2 ^ (b.depth_ + 1)
    · rw [if_pos ⟨by rw [hsh.dir_len]; exact hj, hm, Nat.zero_le _, hq⟩, if_pos hm]
    · rw [if_neg (fun hx => hm hx.2.1), if_neg hm]
  -- a slot with the low bits of idx pointed to the split bucket
  have hwas : ∀ j, j < 2 ^ t.global_depth_ →
      j % 2 ^ (b.depth_ + 1) = idx % 2 ^ (b.depth_ + 1) → t.dir_[j]? = some p := by
    intro j hj hm
    refine hsh.cong idx j p b hidx hb hj ?_
    rw [← mod_pow_mod j (Nat.le_succ b.depth_), hm, mod_pow_mod idx (Nat.le_succ b.depth_)]
  have hbget := fun x => splitStore_get (t := t) hb x
  have hlt : ∀ {i r : Nat}, t1.dir_[i]? = some r → i < 2 ^ t.global_depth_ := by
    intro i r hi
    have := (List.getElem?_eq_some.1 hi).1
    rw [hdir1, hlen1, hsh.dir_len] at this
    exact this
  have hshape : Shape t1 := by
    refine ⟨?_, ?_, ?_, ?_, ?_, ?_⟩
    · rw [hgd1]; exact hsh.gd_le
    · rw [hdir1, hlen1, hgd1]; exact hsh.dir_len
    · intro i r hi
      rw [hbk, split_store_length]
      rw [hget i (hlt hi)] at hi
      split at hi
      · injection hi with hi; omega
      · have := hsh.ptr _ r hi; omega
    · intro x bx hx
      rw [hbk, hbget] at hx
      rw [hgd1]
      split at hx
      · injection hx with hx; subst hx; exact hd1
      · split at hx
        · injection hx with hx; subst hx; exact hd1
        · exact hsh.depth_le x bx hx
    · intro x bx hx
      rw [hbk, hbget] at hx
      rw [hbs]
      split at hx
      · injection hx with hx; subst hx; rfl
      · split at hx
        · injection hx with hx; subst hx; exact hsh.size_eq p b hb
        · exact hsh.size_eq x bx hx
    · intro i j r bx hi hx hj hc
      rw [hgd1] at hj
      have hi1 := hlt hi
      rw [hget i hi1] at hi
      rw [hget j hj]
      rw [hbk, hbget] at hx
      split at hx
      · rename_i hrq
        injection hx with hx; subst hx
        simp only at hc
        split at hi
        · rename_i hic
          rw [if_pos (hc.trans hic), hrq]
        · have := hsh.ptr _ r hi; omega
      · rename_i hrq
        split at hi
        · injection hi with hi; exact absurd hi.symm hrq
        · rename_i hic
          split at hx
          · rename_i hrp
            injection hx with hx; subst hx
            have hc1 : j % 2 ^ (b.depth_ + 1) = i % 2 ^ (b.depth_ + 1) := hc
            rw [if_neg (by rw [hc1]; exact hic)]
            refine hsh.cong i j r b hi (hrp ▸ hb) hj ?_
            rw [← mod_pow_mod j (Nat.le_succ b.depth_), hc1,
              mod_pow_mod i (Nat.le_succ b.depth_)]
          · rename_i hrp
            have h2 := hsh.cong i j r bx hi hx hj hc
            split
            · rename_i hjc
              rw [hwas j hj hjc] at h2
              injection h2 with h2
              exact absurd h2.symm hrp
            · exact h2
  have hdir : ∀ (k : K) (r : Nat), t.dir_[IndexOf hash t k]? = some r →
      t1.dir_[IndexOf hash t1 k]? = some r ∨
        (r = p ∧ t1.dir_[IndexOf hash t1 k]? = some t.buckets.length) := by
    intro k r hk
    have hI : IndexOf hash t1 k = IndexOf hash t k := by unfold IndexOf; rw [hgd1]
    rw [hI, hget _ (IndexOf_lt hash t k)]
    split
    · rename_i hm
      right
      rw [hwas _ (IndexOf_lt hash t k) hm] at hk
      injection hk with hk
      exact ⟨hk.symm, rfl⟩
    · left; exact hk
  obtain ⟨a1, a2, a3⟩ := h.split_mid hb hbk hbs hshape hdir
  exact ⟨a1, a2, a3, hbs⟩

end ExtendibleHashTable

namespace ExtendibleHashTable

variable {K V : Type}

/-- The `Insert` into the bucket of the key, when it is not full, in a table
with the invariant: the invariant holds afterwards, the pair is stored, and
the pairs with other keys are the ones stored before. -/
theorem WF.insert_bucket_wf [DecidableEq K] {hash : K → Nat} {t : ExtendibleHashTable K V}
    (h : WF hash t) {key : K} (value : V) {r : Nat} {b : Bucket K V}
    (hat : t.bucketAt (IndexOf hash t key) = some (r, b)) (hf : b.IsFull = false) :
    WF hash (t.setBucket r (b.Insert key value).1) ∧
    (∀ k v, Has (t.setBucket r (b.Insert key value).1) k v ↔
      (k = key ∧ v = value) ∨ (k ≠ key ∧ Has t k v)) := by
  obtain ⟨hd, hb⟩ := bucketAt_eq_some hat
  refine ⟨Core.insert_bucket h value hd hb hf (fun _ => Or.inl rfl), ?_⟩
  intro k v
  refine Has_insert_bucket value hb hf (h.nodup r b hb) ?_ k v
  intro x b0 v1 hx hm
  have := Core.placed_all h x b0 hx (key, v1) hm
  simp only at this
  rw [hd] at this
  injection this with this
  exact this.symm

theorem splitLoop_zero [DecidableEq K] (hash : K → Nat) (t : ExtendibleHashTable K V)
    (idx : Nat) (key : K) (value : V) : splitLoop hash 0 t idx key value = none := by
  rfl

theorem InsertInternal_zero [DecidableEq K] (hash : K → Nat) (t : ExtendibleHashTable K V)
    (key : K) (value : V) : InsertInternal hash 0 t key value = none := by
  rfl

/-- The split loop of `InsertInternal`, when it returns, has stored the pair
and kept the invariant and the pairs with other keys. -/
theorem WF.splitLoop_spec [DecidableEq K] {hash : K → Nat} :
    ∀ (fuel : Nat) (t t1 : ExtendibleHashTable K V) (idx : Nat) (key : K) (value : V),
      WF hash t → idx < 2 ^ t.global_depth_ → splitLoop hash fuel t idx key value = some t1 →
      WF hash t1 ∧ (∀ k v, Has t1 k v ↔ (k = key ∧ v = value) ∨ (k ≠ key ∧ Has t k v)) ∧
      t1.bucket_size_ = t.bucket_size_ := by
  intro fuel
  induction fuel with
  | zero =>
    intro t t1 idx key value _ _ e
    rw [splitLoop_zero] at e
    exact absurd e (by simp)
  | succ fuel ih =>
    intro t t1 idx key value h hidx e
    obtain ⟨p, b, hd, hb, hat⟩ := h.shape.bucketAt_some hidx
    rw [splitLoop_succ, hat] at e
    simp only at e
    have hsplit : ∀ ts, (if b.GetDepth = t.global_depth_ then t.splitDouble idx p b
        else t.splitLocal idx p b) = some ts →
        Mid hash ts p t.buckets.length b.list_.length ∧
        ts.buckets[p]? = some b.IncrementDepth ∧ (∀ k v, Has ts k v ↔ Has t k v) ∧
        ts.bucket_size_ = t.bucket_size_ := by
      intro ts hs
      by_cases hdep : b.GetDepth = t.global_depth_
      · rw [if_pos hdep] at hs
        exact h.splitDouble_mid hd hb hdep hs
      · rw [if_neg hdep] at hs
        exact h.splitLocal_mid hd hb hdep hs
    cases hs : (if b.GetDepth = t.global_depth_ then t.splitDouble idx p b
        else t.splitLocal idx p b) with
    | none => rw [hs] at e; exact absurd e (by simp)
    | some ts =>
      rw [hs] at e
      simp only at e
      obtain ⟨hmid, hbp, hhas, hbs⟩ := hsplit ts hs
      rw [hbp] at e
      simp only at e
      have hlen : b.IncrementDepth.list_.length = b.list_.length := rfl
      rw [hlen] at e
      cases hr : RedistributeBucket hash fuel ts p b.list_.length with
      | none => rw [hr] at e; exact absurd e (by simp)
      | some t2 =>
        rw [hr] at e
        simp only at e
        obtain ⟨hwf2, hhas2, _, _, _, hbs2⟩ := hmid.redistribute fuel _ ts t2 hr
        obtain ⟨p2, b2, _, _, hat2⟩ := hwf2.shape.bucketAt_some (IndexOf_lt hash t2 key)
        rw [hat2] at e
        simp only at e
        have hback : ∀ k v, Has t2 k v ↔ Has t k v :=
          fun k v => (hhas2 k v).trans (hhas k v)
        cases hf : b2.IsFull with
        | true =>
          rw [hf] at e
          simp only [if_true] at e
          obtain ⟨a1, a2, a3⟩ := ih t2 t1 _ key value hwf2 (IndexOf_lt hash t2 key) e
          refine ⟨a1, ?_, a3.trans (hbs2.trans hbs)⟩
          intro k v
          rw [a2 k v, hback k v]
        | false =>
          rw [hf] at e
          simp only [Bool.false_eq_true, if_false] at e
          injection e with e
          subst e
          obtain ⟨a1, a2⟩ := hwf2.insert_bucket_wf value hat2 hf
          refine ⟨a1, ?_, hbs2.trans hbs⟩
          intro k v
          rw [a2 k v, hback k v]

/-- `InsertInternal` on a table with the invariant, when it returns: the
invariant holds afterwards, the pair is stored, and the pairs with other keys
are the ones stored before. -/
theorem WF.InsertInternal_spec [DecidableEq K] {hash : K → Nat} {fuel : Nat}
    {t t1 : ExtendibleHashTable K V} {key : K} {value : V} (h : WF hash t)
    (e : InsertInternal hash fuel t key value = some t1) :
    WF hash t1 ∧ (∀ k v, Has t1 k v ↔ (k = key ∧ v = value) ∨ (k ≠ key ∧ Has t k v)) ∧
    t1.bucket_size_ = t.bucket_size_ := by
  cases fuel with
  | zero => rw [InsertInternal_zero] at e; exact absurd e (by simp)
  | succ fuel =>
    obtain ⟨p, b, _, _, hat⟩ := h.shape.bucketAt_some (IndexOf_lt hash t key)
    cases hf : b.IsFull with
    | true =>
      rw [InsertInternal_full hash fuel value hat hf] at e
      exact WF.splitLoop_spec fuel t t1 _ key value h (IndexOf_lt hash t key) e
    | false =>
      rw [InsertInternal_not_full hash fuel value hat hf] at e
      injection e with e
      subst e
      obtain ⟨a1, a2⟩ := h.insert_bucket_wf value hat hf
      exact ⟨a1, a2, rfl⟩

end ExtendibleHashTable

namespace ExtendibleHashTable

variable {K V : Type}

theorem Insert_eq [DecidableEq K] (hash : K → Nat) (fuel : Nat) (t : ExtendibleHashTable K V)
    (key : K) (value : V) : Insert hash fuel t key value = InsertInternal hash fuel t key value :=
  rfl

/-- One pass through the body of the split loop that ends with a full
bucket for the key: the loop goes on. -/
theorem splitLoop_again [DecidableEq K] (hash : K → Nat) (fuel : Nat)
    (t ts t2 : ExtendibleHashTable K V) (idx : Nat) (key : K) (value : V) (p p2 : Nat)
    (b b1 b2 : Bucket K V) (hat : t.bucketAt idx = some (p, b))
    (hs : (if b.GetDepth = t.global_depth_ then t.splitDouble idx p b
      else t.splitLocal idx p b) = some ts)
    (hbp : ts.buckets[p]? = some b1)
    (hr : RedistributeBucket hash fuel ts p b1.list_.length = some t2)
    (hat2 : t2.bucketAt (IndexOf hash t2 key) = some (p2, b2)) (hf : b2.IsFull = true) :
    splitLoop hash (fuel + 1) t idx key value =
      splitLoop hash fuel t2 (IndexOf hash t2 key) key value := by
  rw [splitLoop_succ, hat]
  simp only
  rw [hs]
  simp only
  rw [hbp]
  simp only
  rw [hr]
  simp only
  rw [hat2]
  simp only [hf, if_true]

/-- One pass through the body of the split loop that ends with room in the
bucket for the key: the pair goes there. -/
theorem splitLoop_done [DecidableEq K] (hash : K → Nat) (fuel : Nat)
    (t ts t2 : ExtendibleHashTable K V) (idx : Nat) (key : K) (value : V) (p p2 : Nat)
    (b b1 b2 : Bucket K V) (hat : t.bucketAt idx = some (p, b))
    (hs : (if b.GetDepth = t.global_depth_ then t.splitDouble idx p b
      else t.splitLocal idx p b) = some ts)
    (hbp : ts.buckets[p]? = some b1)
    (hr : RedistributeBucket hash fuel ts p b1.list_.length = some t2)
    (hat2 : t2.bucketAt (IndexOf hash t2 key) = some (p2, b2)) (hf : b2.IsFull = false) :
    splitLoop hash (fuel + 1) t idx key value =
      some (t2.setBucket p2 (b2.Insert key value).1) := by
  rw [splitLoop_succ, hat]
  simp only
  rw [hs]
  simp only
  rw [hbp]
  simp only
  rw [hr]
  simp only
  rw [hat2]
  simp only [hf, Bool.false_eq_true, if_false]

end ExtendibleHashTable

namespace ExtendibleHashTable

variable {K V : Type}

theorem wf_new (hash : K → Nat) (bucket_size : Nat) :
    WF hash (new bucket_size : ExtendibleHashTable K V) := by
  have hb : ∀ (r : Nat) (b : Bucket K V),
      (new bucket_size : ExtendibleHashTable K V).buckets[r]? = some b →
      r = 0 ∧ b = { size_ := bucket_size, depth_ := 0, list_ := [] } := by
    intro r b h
    cases r with
    | zero => simp [new] at h; exact ⟨rfl, h.symm⟩
    | succ n => simp [new] at h
  have hd : ∀ (i r : Nat), (new bucket_size : ExtendibleHashTable K V).dir_[i]? = some r →
      i = 0 ∧ r = 0 := by
    intro i r h
    cases i with
    | zero => simp [new] at h; exact ⟨rfl, h.symm⟩
    | succ n => simp [new] at h
  refine ⟨⟨by simp [new, MAX_DEPTH], rfl, ?_, ?_, ?_, ?_⟩, ?_, ?_, ?_, ?_⟩
  · intro i r h
    rw [(hd i r h).2]; simp [new]
  · intro r b h
    rw [(hb r b h).2]; exact Nat.le_refl _
  · intro r b h
    rw [(hb r b h).2]; rfl
  · intro i j r b hi _ hj _
    have hj0 : j = 0 := by
      have : (new bucket_size : ExtendibleHashTable K V).global_depth_ = 0 := rfl
      rw [this] at hj
      omega
    rw [hj0, (hd i r hi).2]
    rfl
  · intro r b h
    rw [(hb r b h).2]; exact List.nodup_nil
  · intro r b h
    rw [(hb r b h).2]; exact Nat.zero_le _
  · intro r b h _ e he
    rw [(hb r b h).2] at he; exact absurd he (List.not_mem_nil _)
  · intro b h e he
    rw [(hb 0 b h).2] at he; exact absurd he (List.not_mem_nil _)

/-- What `Bucket::Remove` does to a bucket that holds no key twice. -/
theorem bucket_Remove_spec [DecidableEq K] {b : Bucket K V} (hn : (b.list_.map Prod.fst).Nodup)
    (key : K) :
    (b.Remove key).1.depth_ = b.depth_ ∧ (b.Remove key).1.size_ = b.size_ ∧
    (b.Remove key).1.list_.Sublist b.list_ ∧
    (∀ e, e ∈ (b.Remove key).1.list_ ↔ (e ∈ b.list_ ∧ e.1 ≠ key)) ∧
    ((b.Remove key).2 = true ↔ key ∈ b.list_.map Prod.fst) := by
  unfold Bucket.Remove
  cases h : Bucket.removeIn b.list_ key with
  | none =>
    have hk := (Bucket.removeIn_eq_none_iff _ _).1 h
    refine ⟨rfl, rfl, List.Sublist.refl _, ?_, ?_⟩
    · intro e
      constructor
      · intro he
        refine ⟨he, fun hek => hk ?_⟩
        rw [← hek]
        exact List.mem_map.2 ⟨e, he, rfl⟩
      · exact fun he => he.1
    · simp only [Bool.false_eq_true, false_iff]
      exact hk
  | some l =>
    obtain ⟨a, c⟩ := Bucket.removeIn_some h
    refine ⟨rfl, rfl, a, c hn, ?_⟩
    simp only [true_iff]
    by_contra hk
    rw [(Bucket.removeIn_eq_none_iff _ _).2 hk] at h
    exact absurd h (by simp)

/-- `Remove` on a table with the invariant returns; the invariant holds
afterwards, the pairs with other keys stay, no pair with the key is left,
and only the list of one bucket has changed. -/
theorem WF.Remove_spec [DecidableEq K] {hash : K → Nat} {t : ExtendibleHashTable K V}
    (h : WF hash t) (key : K) :
    ∃ t1 ret, Remove hash t key = some (t1, ret) ∧ WF hash t1 ∧
      (ret = true ↔ ∃ v, Has t key v) ∧
      (∀ k v, Has t1 k v ↔ (k ≠ key ∧ Has t k v)) ∧
      t1.dir_ = t.dir_ ∧ t1.global_depth_ = t.global_depth_ ∧
      t1.num_buckets_ = t.num_buckets_ ∧ t1.bucket_size_ = t.bucket_size_ ∧
      t1.buckets.map (fun b => b.depth_) = t.buckets.map (fun b => b.depth_) := by
  obtain ⟨p, b, hd, hb, hat⟩ := h.shape.bucketAt_some (IndexOf_lt hash t key)
  obtain ⟨r1, r2, r3, r4, r5⟩ := bucket_Remove_spec (h.nodup p b hb) key
  have hget := setBucket_get hb (b.Remove key).1
  refine ⟨t.setBucket p (b.Remove key).1, (b.Remove key).2, by unfold Remove; rw [hat], ?_, ?_,
    ?_, rfl, rfl, rfl, rfl, ?_⟩
  · refine ⟨h.shape.setBucket_shape hb r1 r2, ?_, ?_, ?_, ?_⟩
    · intro x bx hx
      by_cases hxp : x = p
      · subst hxp
        rw [hget] at hx
        injection hx with hx
        subst hx
        exact (h.nodup x b hb).sublist (r3.map _)
      · rw [setBucket_other t _ hxp] at hx
        exact h.nodup x bx hx
    · intro x bx hx
      by_cases hxp : x = p
      · subst hxp
        rw [hget] at hx
        injection hx with hx
        subst hx
        exact le_trans r3.length_le (h.cap x b hb)
      · rw [setBucket_other t _ hxp] at hx
        exact h.cap x bx hx
    · intro x bx hx _ e he
      by_cases hxp : x = p
      · subst hxp
        rw [hget] at hx
        injection hx with hx
        subst hx
        exact Core.placed_all h x b hb e ((r4 e).1 he).1
      · rw [setBucket_other t _ hxp] at hx
        exact Core.placed_all h x bx hx e he
    · intro bx hx e he
      simp only [List.drop_zero] at he
      by_cases hxp : 0 = p
      · subst hxp
        rw [hget] at hx
        injection hx with hx
        subst hx
        exact Core.placed_all h 0 b hb e ((r4 e).1 he).1
      · rw [setBucket_other t _ hxp] at hx
        exact Core.placed_all h 0 bx hx e he
  · rw [r5]
    constructor
    · intro hk
      obtain ⟨e, he, hek⟩ := List.mem_map.1 hk
      exact ⟨e.2, p, b, hb, by rw [← hek]; exact he⟩
    · rintro ⟨v, x, bx, hx, hm⟩
      have := Core.placed_all h x bx hx (key, v) hm
      simp only at this
      rw [hd] at this
      injection this with this
      subst this
      rw [hb] at hx
      injection hx with hx
      subst hx
      exact List.mem_map.2 ⟨(key, v), hm, rfl⟩
  · intro k v
    constructor
    · rintro ⟨x, bx, hx, hm⟩
      by_cases hxp : x = p
      · subst hxp
        rw [hget] at hx
        injection hx with hx
        subst hx
        exact ⟨((r4 _).1 hm).2, x, b, hb, ((r4 _).1 hm).1⟩
      · rw [setBucket_other t _ hxp] at hx
        refine ⟨?_, x, bx, hx, hm⟩
        intro hk
        subst hk
        have := Core.placed_all h x bx hx (k, v) hm
        simp only at this
        rw [hd] at this
        injection this with this
        exact hxp this.symm
    · rintro ⟨hk, x, bx, hx, hm⟩
      by_cases hxp : x = p
      · subst hxp
        rw [hb] at hx
        injection hx with hx
        subst hx
        exact ⟨x, _, hget, (r4 _).2 ⟨hm, hk⟩⟩
      · exact ⟨x, bx, by rw [setBucket_other t _ hxp]; exact hx, hm⟩
  · show (t.buckets.set p (b.Remove key).1).map (fun b => b.depth_) = _
    rw [List.map_set, r1]
    apply List.ext_getElem?
    intro i
    rw [List.getElem?_set]
    by_cases hip : p = i
    · subst hip
      simp only [List.length_map, List.getElem?_map, hb, Option.map_some', if_true]
      rw [if_pos (List.getElem?_eq_some.1 hb).1]
    · rw [if_neg hip]

/-- Every reachable table has the invariant. -/
theorem Reachable.wf [DecidableEq K] {hash : K → Nat} {bucket_size : Nat}
    {t : ExtendibleHashTable K V} (h : Reachable hash bucket_size t) : WF hash t := by
  induction h with
  | init => exact wf_new hash bucket_size
  | insert fuel key value _ e ih => exact (ih.InsertInternal_spec e).1
  | remove key ret _ e ih =>
    obtain ⟨t1, r1, h1, h2, _⟩ := ih.Remove_spec key
    rw [h1] at e
    injection e with e
    injection e with e1 e2
    exact e1 ▸ h2

/-- Two results of `Find` are equal when they give the same values. -/
theorem option_eq_of_iff {o1 o2 : Option V} (h : ∀ v, o1 = some v ↔ o2 = some v) : o1 = o2 := by
  cases o1 with
  | none =>
    cases o2 with
    | none => rfl
    | some v => exact absurd ((h v).2 rfl) (by simp)
  | some v => exact ((h v).1 rfl).symm

end ExtendibleHashTable

namespace ExtendibleHashTable

variable {K V : Type}

/-- `Insert` returns, without a split, when the bucket of the key has
room. -/
theorem Insert_returns_of_room [DecidableEq K] (hash : K → Nat) (fuel : Nat)
    {t : ExtendibleHashTable K V} {key : K} (value : V) {p : Nat} {b : Bucket K V}
    (h1 : t.bucketAt (IndexOf hash t key) = some (p, b)) (h2 : b.IsFull = false) :
    Insert hash (fuel + 1) t key value = some (t.setBucket p (b.Insert key value).1) :=
  InsertInternal_not_full hash fuel value h1 h2

theorem GetLocalDepth_congr {t t1 : ExtendibleHashTable K V} (hd : t1.dir_ = t.dir_)
    (hb : t1.buckets.map (fun (b : Bucket K V) => b.depth_) =
      t.buckets.map (fun (b : Bucket K V) => b.depth_)) (i : Nat) :
    GetLocalDepth t1 i = GetLocalDepth t i := by
  have hx : ∀ (r : Nat), (t1.buckets[r]?).map (fun (b : Bucket K V) => b.depth_) =
      (t.buckets[r]?).map (fun (b : Bucket K V) => b.depth_) := by
    intro r
    rw [← List.getElem?_map, ← List.getElem?_map, hb]
  unfold GetLocalDepth bucketAt
  rw [hd]
  cases t.dir_[i]? with
  | none => rfl
  | some r =>
    have := hx r
    simp only []
    cases h1 : t1.buckets[r]? with
    | none =>
      cases h2 : t.buckets[r]? with
      | none => rfl
      | some b2 => rw [h1, h2] at this; exact absurd this (by simp)
    | some b1 =>
      cases h2 : t.buckets[r]? with
      | none => rw [h1, h2] at this; exact absurd this (by simp)
      | some b2 =>
        rw [h1, h2] at this
        simp only [Option.map_some', Option.some.injEq] at this
        simp only [Option.map_some', Bucket.GetDepth, this]

/-- The table `ExtendibleHashTable<int, int>(2)` after `Insert(4, 40)`. -/
def tab1 : ExtendibleHashTable Nat Nat :=
  { global_depth_ := 0, bucket_size_ := 2, num_buckets_ := 1, dir_ := [0],
    buckets := [{ size_ := 2, depth_ := 0, list_ := [(4, 40)] }] }

/-- The table `ExtendibleHashTable<int, int>(2)` after `Insert(4, 40)` and
`Insert(12, 120)`; the hash of a key is the key. -/
def tab2 : ExtendibleHashTable Nat Nat :=
  { global_depth_ := 0, bucket_size_ := 2, num_buckets_ := 1, dir_ := [0],
    buckets := [{ size_ := 2, depth_ := 0, list_ := [(4, 40), (12, 120)] }] }

/-- The table `tab2` during `Insert(16, 160)`, after the first round of the
split loop. -/
def tab2a : ExtendibleHashTable Nat Nat :=
  { global_depth_ := 1, bucket_size_ := 2, num_buckets_ := 2, dir_ := [0, 1],
    buckets := [{ size_ := 2, depth_ := 1, list_ := [(4, 40), (12, 120)] },
      { size_ := 2, depth_ := 1, list_ := [] }] }

/-- The table `tab2` during `Insert(16, 160)`, after the second round of the
split loop. -/
def tab2b : ExtendibleHashTable Nat Nat :=
  { global_depth_ := 2, bucket_size_ := 2, num_buckets_ := 3, dir_ := [0, 1, 2, 1],
    buckets := [{ size_ := 2, depth_ := 2, list_ := [(4, 40), (12, 120)] },
      { size_ := 2, depth_ := 1, list_ := [] }, { size_ := 2, depth_ := 2, list_ := [] }] }

/-- The table `tab2` during `Insert(16, 160)`, after the third round of the
split loop. -/
def tab2c : ExtendibleHashTable Nat Nat :=
  { global_depth_ := 3, bucket_size_ := 2, num_buckets_ := 4,
    dir_ := [0, 1, 2, 1, 3, 1, 2, 1],
    buckets := [{ size_ := 2, depth_ := 3, list_ := [] },
      { size_ := 2, depth_ := 1, list_ := [] }, { size_ := 2, depth_ := 2, list_ := [] },
      { size_ := 2, depth_ := 3, list_ := [(4, 40), (12, 120)] }] }

/-- The table after `Insert(4, 40)`, `Insert(12, 120)` and `Insert(16, 160)`:
the directory has grown from 1 to 8 slots. -/
def tab3 : ExtendibleHashTable Nat Nat :=
  { global_depth_ := 3, bucket_size_ := 2, num_buckets_ := 4,
    dir_ := [0, 1, 2, 1, 3, 1, 2, 1],
    buckets := [{ size_ := 2, depth_ := 3, list_ := [(16, 160)] },
      { size_ := 2, depth_ := 1, list_ := [] }, { size_ := 2, depth_ := 2, list_ := [] },
      { size_ := 2, depth_ := 3, list_ := [(4, 40), (12, 120)] }] }

/-- The table after the inserts of the keys 4, 12, 16, 64 and 31. -/
def tab5 : ExtendibleHashTable Nat Nat :=
  { global_depth_ := 3, bucket_size_ := 2, num_buckets_ := 4,
    dir_ := [0, 1, 2, 1, 3, 1, 2, 1],
    buckets := [{ size_ := 2, depth_ := 3, list_ := [(16, 160), (64, 640)] },
      { size_ := 2, depth_ := 1, list_ := [(31, 310)] },
      { size_ := 2, depth_ := 2, list_ := [] },
      { size_ := 2, depth_ := 3, list_ := [(4, 40), (12, 120)] }] }

/-- The table after the inserts of the keys 4, 12, 16 and 64. -/
def tab4 : ExtendibleHashTable Nat Nat :=
  { global_depth_ := 3, bucket_size_ := 2, num_buckets_ := 4,
    dir_ := [0, 1, 2, 1, 3, 1, 2, 1],
    buckets := [{ size_ := 2, depth_ := 3, list_ := [(16, 160), (64, 640)] },
      { size_ := 2, depth_ := 1, list_ := [] }, { size_ := 2, depth_ := 2, list_ := [] },
      { size_ := 2, depth_ := 3, list_ := [(4, 40), (12, 120)] }] }

/-- The table `tab5` after `Remove(4)`. -/
def tab6 : ExtendibleHashTable Nat Nat :=
  { global_depth_ := 3, bucket_size_ := 2, num_buckets_ := 4,
    dir_ := [0, 1, 2, 1, 3, 1, 2, 1],
    buckets := [{ size_ := 2, depth_ := 3, list_ := [(16, 160), (64, 640)] },
      { size_ := 2, depth_ := 1, list_ := [(31, 310)] },
      { size_ := 2, depth_ := 2, list_ := [] },
      { size_ := 2, depth_ := 3, list_ := [(12, 120)] }] }

/-- The table after the split of the third round, before the
redistribution. -/
def tab2s : ExtendibleHashTable Nat Nat :=
  { global_depth_ := 3, bucket_size_ := 2, num_buckets_ := 4,
    dir_ := [0, 1, 2, 1, 3, 1, 2, 1],
    buckets := [{ size_ := 2, depth_ := 3, list_ := [(4, 40), (12, 120)] },
      { size_ := 2, depth_ := 1, list_ := [] }, { size_ := 2, depth_ := 2, list_ := [] },
      { size_ := 2, depth_ := 3, list_ := [] }] }

theorem tab2_round1 :
    splitLoop id 6 tab2 (IndexOf id tab2 16) 16 160 =
      splitLoop id 5 tab2a (IndexOf id tab2a 16) 16 160 :=
  splitLoop_again id 5 tab2 tab2a tab2a (IndexOf id tab2 16) 16 160 0 0
    { size_ := 2, depth_ := 0, list_ := [(4, 40), (12, 120)] }
    { size_ := 2, depth_ := 1, list_ := [(4, 40), (12, 120)] }
    { size_ := 2, depth_ := 1, list_ := [(4, 40), (12, 120)] } rfl rfl rfl rfl rfl rfl

theorem tab2_round2 :
    splitLoop id 5 tab2a (IndexOf id tab2a 16) 16 160 =
      splitLoop id 4 tab2b (IndexOf id tab2b 16) 16 160 :=
  splitLoop_again id 4 tab2a tab2b tab2b (IndexOf id tab2a 16) 16 160 0 0
    { size_ := 2, depth_ := 1, list_ := [(4, 40), (12, 120)] }
    { size_ := 2, depth_ := 2, list_ := [(4, 40), (12, 120)] }
    { size_ := 2, depth_ := 2, list_ := [(4, 40), (12, 120)] } rfl rfl rfl rfl rfl rfl

theorem tab2_round3 :
    splitLoop id 4 tab2b (IndexOf id tab2b 16) 16 160 =
      some (tab2c.setBucket 0
        ((({ size_ := 2, depth_ := 3, list_ := [] } : Bucket Nat Nat).Insert 16 160).1)) :=
  splitLoop_done id 3 tab2b tab2s tab2c (IndexOf id tab2b 16) 16 160 0 0
    { size_ := 2, depth_ := 2, list_ := [(4, 40), (12, 120)] }
    { size_ := 2, depth_ := 3, list_ := [(4, 40), (12, 120)] }
    { size_ := 2, depth_ := 3, list_ := [] } rfl rfl rfl rfl rfl rfl

/-- The run of `Insert(16, 160)` on `tab2`: three rounds of the split loop,
each doubling the directory, then the pair goes to the emptied bucket. -/
theorem tab3_eq : Insert id 7 tab2 16 160 = some tab3 :=
  (InsertInternal_full id 6 160
    (show tab2.bucketAt (IndexOf id tab2 16) =
      some (0, { size_ := 2, depth_ := 0, list_ := [(4, 40), (12, 120)] }) from rfl) rfl).trans
    (tab2_round1.trans (tab2_round2.trans tab2_round3))

theorem tab2_reachable : Reachable id 2 tab2 :=
  Reachable.insert 1 12 120
    (Reachable.insert 1 4 40 Reachable.init (show Insert id 1 (new 2) 4 40 = some tab1 from rfl))
    (show Insert id 1 tab1 12 120 = some tab2 from rfl)

theorem tab5_reachable : Reachable id 2 tab5 :=
  Reachable.insert 1 31 310
    (Reachable.insert 1 64 640 (Reachable.insert 7 16 160 tab2_reachable tab3_eq)
      (show Insert id 1 tab3 64 640 = some tab4 from rfl))
    (show Insert id 1 tab4 31 310 = some tab5 from rfl)

/-- C19: for every reachable table, when `Insert(k, v)` returns, `Find(k)`
returns `true` with the value `v` and `Find` of every other key returns what
it returned before the call. -/
theorem Insert_then_Find [DecidableEq K] {hash : K → Nat} {bucket_size fuel : Nat}
    {t t1 : ExtendibleHashTable K V} {key : K} {value : V}
    (hr : Reachable hash bucket_size t) (e : Insert hash fuel t key value = some t1) :
    Find hash t1 key = some (some value) ∧
    ∀ k, k ≠ key → Find hash t1 k = Find hash t k := by
  have hwf := hr.wf
  obtain ⟨hwf1, hhas, _⟩ := hwf.InsertInternal_spec e
  constructor
  · obtain ⟨o, ho, hov⟩ := hwf1.Find_spec key
    rw [ho, (hov value).2 ((hhas key value).2 (Or.inl ⟨rfl, rfl⟩))]
  · intro k hk
    obtain ⟨o1, ho1, hov1⟩ := hwf1.Find_spec k
    obtain ⟨o, ho, hov⟩ := hwf.Find_spec k
    rw [ho1, ho]
    congr 1
    apply option_eq_of_iff
    intro v
    rw [hov1 v, hov v, hhas k v]
    constructor
    · rintro (⟨h1, _⟩ | ⟨_, h2⟩)
      · exact absurd h1 hk
      · exact h2
    · exact fun h => Or.inr ⟨hk, h⟩

theorem Insert_then_Find_witness :
    Reachable id 2 tab2 ∧ Insert id 7 tab2 16 160 = some tab3 ∧
    (Find id tab3 16 = some (some 160) ∧ ∀ k, k ≠ 16 → Find id tab3 k = Find id tab2 k) ∧
    Reachable id 2 tab5 ∧ Find id tab5 4 = some (some 40) ∧ Find id tab5 5 = some none ∧
    [(new 2 : ExtendibleHashTable Nat Nat).dir_.length, tab2a.dir_.length, tab2b.dir_.length,
      tab5.dir_.length] = [1, 2, 4, 8] :=
  ⟨tab2_reachable, tab3_eq, Insert_then_Find tab2_reachable tab3_eq, tab5_reachable, rfl, rfl,
    rfl⟩

/-- C20: for every reachable table and key, `Remove(k)` returns `true`
exactly when `Find(k)` returned `true` before; afterwards `Find(k)` returns
`false`, `Find` of every other key returns what it returned before, and the
directory, the global depth, the local depths and the bucket count are as
before. -/
theorem Remove_then_Find [DecidableEq K] {hash : K → Nat} {bucket_size : Nat}
    {t : ExtendibleHashTable K V} (hr : Reachable hash bucket_size t) (key : K) :
    ∃ t1 ret, Remove hash t key = some (t1, ret) ∧
      (ret = true ↔ ∃ v, Find hash t key = some (some v)) ∧
      Find hash t1 key = some none ∧
      (∀ k, k ≠ key → Find hash t1 k = Find hash t k) ∧
      t1.dir_ = t.dir_ ∧ GetGlobalDepth t1 = GetGlobalDepth t ∧
      (∀ i, GetLocalDepth t1 i = GetLocalDepth t i) ∧
      GetNumBuckets t1 = GetNumBuckets t := by
  have hwf := hr.wf
  obtain ⟨t1, ret, h1, hwf1, h3, h4, h5, h6, h7, _, h9⟩ := hwf.Remove_spec key
  refine ⟨t1, ret, h1, ?_, ?_, ?_, h5, h6, GetLocalDepth_congr h5 h9, h7⟩
  · obtain ⟨o, ho, hov⟩ := hwf.Find_spec key
    rw [h3, ho]
    constructor
    · rintro ⟨v, hv⟩
      exact ⟨v, by rw [(hov v).2 hv]⟩
    · rintro ⟨v, hv⟩
      injection hv with hv
      exact ⟨v, (hov v).1 hv⟩
  · obtain ⟨o1, ho1, hov1⟩ := hwf1.Find_spec key
    rw [ho1]
    congr 1
    cases o1 with
    | none => rfl
    | some v => exact absurd ((h4 key v).1 ((hov1 v).1 rfl)).1 (fun h => h rfl)
  · intro k hk
    obtain ⟨o1, ho1, hov1⟩ := hwf1.Find_spec k
    obtain ⟨o, ho, hov⟩ := hwf.Find_spec k
    rw [ho1, ho]
    congr 1
    apply option_eq_of_iff
    intro v
    rw [hov1 v, hov v, h4 k v]
    exact ⟨fun h => h.2, fun h => ⟨hk, h⟩⟩

theorem Remove_then_Find_witness :
    Reachable id 2 tab5 ∧ Remove id tab5 4 = some (tab6, true) ∧
    Find id tab6 4 = some none ∧
    ∃ t1 ret, Remove id tab5 4 = some (t1, ret) ∧
      (ret = true ↔ ∃ v, Find id tab5 4 = some (some v)) ∧
      Find id t1 4 = some none ∧
      (∀ k, k ≠ 4 → Find id t1 k = Find id tab5 k) ∧
      t1.dir_ = tab5.dir_ ∧ GetGlobalDepth t1 = GetGlobalDepth tab5 ∧
      (∀ i, GetLocalDepth t1 i = GetLocalDepth tab5 i) ∧
      GetNumBuckets t1 = GetNumBuckets tab5 :=
  ⟨tab5_reachable, rfl, rfl, Remove_then_Find tab5_reachable 4⟩

end ExtendibleHashTable

/-! ### The directory of the extendible hash table

Everything `Insert` and `Remove` do to the table is a sequence of bucket
stores and splits, and each of them keeps the directory invariant.
-/

namespace ExtendibleHashTable

variable {K V : Type}

/-- One change of the table inside `Insert` or `Remove`: a store into a
bucket that keeps its depth and capacity, or a split of case 1 or case 2. -/
inductive Step : ExtendibleHashTable K V → ExtendibleHashTable K V → Prop where
  | set {t : ExtendibleHashTable K V} {r : Nat} {b b1 : Bucket K V} :
      t.buckets[r]? = some b → b1.depth_ = b.depth_ → b1.size_ = b.size_ →
      Step t (t.setBucket r b1)
  | double {t t1 : ExtendibleHashTable K V} {idx p : Nat} {b : Bucket K V} :
      t.bucketAt idx = some (p, b) → b.depth_ = t.global_depth_ →
      t.splitDouble idx p b = some t1 → Step t t1
  | loc {t t1 : ExtendibleHashTable K V} {idx p : Nat} {b : Bucket K V} :
      t.bucketAt idx = some (p, b) → b.depth_ ≠ t.global_depth_ →
      t.splitLocal idx p b = some t1 → Step t t1

/-- A sequence of changes. -/
def Steps (t t1 : ExtendibleHashTable K V) : Prop := Relation.ReflTransGen Step t t1

theorem Bucket_Insert_keeps [DecidableEq K] (b : Bucket K V) (key : K) (value : V) :
    (b.Insert key value).1.depth_ = b.depth_ ∧ (b.Insert key value).1.size_ = b.size_ := by
  unfold Bucket.Insert
  split
  · exact ⟨rfl, rfl⟩
  · split <;> exact ⟨rfl, rfl⟩

/-- Everything `InsertInternal`, its split loop and `RedistributeBucket` do
to the table is a sequence of bucket stores and splits. -/
theorem insert_steps [DecidableEq K] (hash : K → Nat) :
    ∀ (fuel : Nat),
      (∀ (t t1 : ExtendibleHashTable K V) (key : K) (value : V),
        InsertInternal hash fuel t key value = some t1 → Steps t t1) ∧
      (∀ (t t1 : ExtendibleHashTable K V) (idx : Nat) (key : K) (value : V),
        splitLoop hash fuel t idx key value = some t1 → Steps t t1) ∧
      (∀ (t t1 : ExtendibleHashTable K V) (p sz : Nat),
        RedistributeBucket hash fuel t p sz = some t1 → Steps t t1) := by
  intro fuel
  induction fuel with
  | zero =>
    refine ⟨?_, ?_, ?_⟩
    · intro t t1 key value e
      rw [InsertInternal_zero] at e
      exact absurd e (by simp)
    · intro t t1 idx key value e
      rw [splitLoop_zero] at e
      exact absurd e (by simp)
    · intro t t1 p sz e
      rw [RedistributeBucket_zero] at e
      split at e
      · injection e with e
        subst e
        exact Relation.ReflTransGen.refl
      · exact absurd e (by simp)
  | succ fuel ih =>
    obtain ⟨ihI, ihS, ihR⟩ := ih
    refine ⟨?_, ?_, ?_⟩
    · intro t t1 key value e
      rw [InsertInternal_succ] at e
      cases hat : t.bucketAt (IndexOf hash t key) with
      | none => rw [hat] at e; exact absurd e (by simp)
      | some pb =>
        obtain ⟨p, b⟩ := pb
        rw [hat] at e
        simp only at e
        cases hf : b.IsFull with
        | true =>
          simp only [hf, Bool.not_true, Bool.false_eq_true, if_false] at e
          exact ihS t t1 _ key value e
        | false =>
          simp only [hf, Bool.not_false, if_true] at e
          injection e with e
          subst e
          obtain ⟨h1, h2⟩ := Bucket_Insert_keeps b key value
          exact Relation.ReflTransGen.single (Step.set (bucketAt_eq_some hat).2 h1 h2)
    · intro t t1 idx key value e
      rw [splitLoop_succ] at e
      cases hat : t.bucketAt idx with
      | none => rw [hat] at e; exact absurd e (by simp)
      | some pb =>
        obtain ⟨p, b⟩ := pb
        rw [hat] at e
        simp only at e
        cases hs : (if b.GetDepth = t.global_depth_ then t.splitDouble idx p b
            else t.splitLocal idx p b) with
        | none => rw [hs] at e; exact absurd e (by simp)
        | some ts =>
          rw [hs] at e
          simp only at e
          have hstep : Step t ts := by
            by_cases hdep : b.GetDepth = t.global_depth_
            · rw [if_pos hdep] at hs
              exact Step.double hat hdep hs
            · rw [if_neg hdep] at hs
              exact Step.loc hat hdep hs
          cases hbp : ts.buckets[p]? with
          | none => rw [hbp] at e; exact absurd e (by simp)
          | some b1 =>
            rw [hbp] at e
            simp only at e
            cases hr : RedistributeBucket hash fuel ts p b1.list_.length with
            | none => rw [hr] at e; exact absurd e (by simp)
            | some t2 =>
              rw [hr] at e
              simp only at e
              have h12 : Steps t t2 := Relation.ReflTransGen.head hstep (ihR ts t2 p _ hr)
              cases hat2 : t2.bucketAt (IndexOf hash t2 key) with
              | none => rw [hat2] at e; exact absurd e (by simp)
              | some pb2 =>
                obtain ⟨p2, b2⟩ := pb2
                rw [hat2] at e
                simp only at e
                cases hf : b2.IsFull with
                | true =>
                  simp only [hf, if_true] at e
                  exact Relation.ReflTransGen.trans h12 (ihS t2 t1 _ key value e)
                | false =>
                  simp only [hf, Bool.false_eq_true, if_false] at e
                  injection e with e
                  subst e
                  obtain ⟨h1, h2⟩ := Bucket_Insert_keeps b2 key value
                  exact Relation.ReflTransGen.tail h12 (Step.set (bucketAt_eq_some hat2).2 h1 h2)
    · intro t t1 p sz e
      rw [RedistributeBucket_succ] at e
      by_cases hsz : sz = 0
      · rw [if_pos hsz] at e
        injection e with e
        subst e
        exact Relation.ReflTransGen.refl
      · rw [if_neg hsz] at e
        cases hbp : t.buckets[p]? with
        | none => rw [hbp] at e; exact absurd e (by simp)
        | some b =>
          rw [hbp] at e
          simp only at e
          cases hl : b.list_ with
          | nil => simp only [hl] at e; exact absurd e (by simp)
          | cons e0 rest =>
            obtain ⟨key, value⟩ := e0
            simp only [hl] at e
            cases hi : InsertInternal hash fuel (t.setBucket p { b with list_ := rest }) key value with
            | none => rw [hi] at e; exact absurd e (by simp)
            | some t2 =>
              rw [hi] at e
              simp only at e
              have hst : Step t (t.setBucket p { b with list_ := rest }) :=
                Step.set hbp rfl rfl
              exact Relation.ReflTransGen.head hst
                (Relation.ReflTransGen.trans (ihI _ t2 key value hi) (ihR t2 t1 p _ e))

end ExtendibleHashTable

namespace ExtendibleHashTable

variable {K V : Type}

/-- The residue modulo `2 ^ (d + 1)` is the residue modulo `2 ^ d`, with bit
`d` on top when it is set. -/
theorem mod_succ_cases (x d : Nat) :
    x % 2 ^ (d + 1) = x % 2 ^ d ∨ x % 2 ^ (d + 1) = x % 2 ^ d + 2 ^ d := by
  have hpos : 0 < 2 ^ d := Nat.two_pow_pos d
  have h1 : x % 2 ^ (d + 1) < 2 * 2 ^ d := by
    have := Nat.mod_lt x (Nat.two_pow_pos (d + 1))
    rw [Nat.pow_succ] at this
    omega
  have h2 : x % 2 ^ (d + 1) % 2 ^ d = x % 2 ^ d := mod_pow_mod x (Nat.le_succ d)
  have h3 := Nat.div_add_mod (x % 2 ^ (d + 1)) (2 ^ d)
  have h4 : x % 2 ^ (d + 1) / 2 ^ d < 2 := by
    rw [Nat.div_lt_iff_lt_mul hpos]; exact h1
  rw [h2] at h3
  generalize x % 2 ^ (d + 1) / 2 ^ d = q at h3 h4
  have h5 : q = 0 ∨ q = 1 := by omega
  rcases h5 with h5 | h5
  · subst h5; left; omega
  · subst h5; right; omega

theorem mod_of_lt_two_mul {i n : Nat} (h : i < 2 * n) :
    (i < n ∧ i % n = i) ∨ (n ≤ i ∧ i % n + n = i) := by
  by_cases hn : i < n
  · left; exact ⟨hn, Nat.mod_eq_of_lt hn⟩
  · right
    refine ⟨by omega, ?_⟩
    rw [Nat.mod_eq_sub_mod (by omega), Nat.mod_eq_of_lt (by omega)]
    omega

/-- What case 1 of a split does to the table, when it returns. -/
theorem splitDouble_desc {t t1 : ExtendibleHashTable K V} {idx p : Nat} {b : Bucket K V}
    (hlen : t.dir_.length = 2 ^ t.global_depth_) (hil : idx < 2 ^ t.global_depth_)
    (e : t.splitDouble idx p b = some t1) :
    t.global_depth_ < MAX_DEPTH ∧ t1.global_depth_ = t.global_depth_ + 1 ∧
    t1.num_buckets_ = t.num_buckets_ + 1 ∧ t1.bucket_size_ = t.bucket_size_ ∧
    t1.buckets = splitStore t p b ∧ t1.dir_.length = 2 * 2 ^ t.global_depth_ ∧
    ∀ j, j < 2 * 2 ^ t.global_depth_ → t1.dir_[j]? =
      if j = 2 ^ t.global_depth_ + idx then some t.buckets.length
      else t.dir_[j % 2 ^ t.global_depth_]? := by
  unfold splitDouble at e
  split at e
  · exact absurd e (by simp)
  · rename_i hgd
    split at e
    · injection e with e
      have hdir1 : t1.dir_ = (t.dir_ ++ t.dir_).set (2 ^ t.global_depth_ + idx) t.buckets.length := by
        rw [← e]
      refine ⟨by omega, by rw [← e], by rw [← e], by rw [← e], by rw [← e]; rfl, ?_, ?_⟩
      · rw [hdir1, List.length_set, List.length_append, hlen]; omega
      · intro j hj
        rw [hdir1]
        exact double_get t.dir_ _ idx _ j hlen hil hj
    · exact absurd e (by simp)

/-- Case 1 of a split returns while the global depth is below the largest
depth. -/
theorem splitDouble_some (t : ExtendibleHashTable K V) {idx : Nat} (p : Nat) (b : Bucket K V)
    (hlen : t.dir_.length = 2 ^ t.global_depth_) (hil : idx < 2 ^ t.global_depth_)
    (hgd : t.global_depth_ < MAX_DEPTH) : ∃ t1, t.splitDouble idx p b = some t1 := by
  unfold splitDouble
  rw [if_neg (by omega), if_pos (by rw [List.length_append, hlen]; omega)]
  exact ⟨_, rfl⟩

/-- Case 2 of a split returns, and what it does to the table. -/
theorem splitLocal_desc (t : ExtendibleHashTable K V) (idx p : Nat) (b : Bucket K V)
    (hlen : t.dir_.length = 2 ^ t.global_depth_) (hd1 : b.depth_ + 1 ≤ t.global_depth_) :
    ∃ t1, t.splitLocal idx p b = some t1 ∧ t1.global_depth_ = t.global_depth_ ∧
    t1.num_buckets_ = t.num_buckets_ + 1 ∧ t1.bucket_size_ = t.bucket_size_ ∧
    t1.buckets = splitStore t p b ∧ t1.dir_.length = 2 ^ t.global_depth_ ∧
    ∀ j, j < 2 ^ t.global_depth_ → t1.dir_[j]? =
      if j % 2 ^ (b.depth_ + 1) = idx % 2 ^ (b.depth_ + 1) then some t.buckets.length
      else t.dir_[j]? := by
  have hpw : 2 ^ (t.global_depth_ - (b.depth_ + 1)) * 2 ^ (b.depth_ + 1) = 2 ^ t.global_depth_ := by
    rw [← Nat.pow_add]; congr 1; omega
  obtain ⟨dir1, hps, hlen1, hget0⟩ := pointSlots_spec (b.depth_ + 1) idx t.buckets.length
    (2 ^ (t.global_depth_ - (b.depth_ + 1))) 0 t.dir_
    (by rw [Nat.zero_add, hpw, hlen])
  have hD : b.IncrementDepth.GetDepth = b.depth_ + 1 := rfl
  refine ⟨{ t with
      dir_ := dir1,
      buckets := t.buckets.set p b.IncrementDepth ++
        [{ size_ := t.bucket_size_, depth_ := b.IncrementDepth.GetDepth, list_ := [] }],
      num_buckets_ := t.num_buckets_ + 1 }, ?_, rfl, rfl, rfl, rfl, ?_, ?_⟩
  · unfold splitLocal
    rw [hD, hps]
  · show dir1.length = _
    rw [hlen1, hlen]
  · intro j hj
    show dir1[j]? = _
    rw [hget0 j]
    have hq : j / 2 ^ (b.depth_ + 1) < 0 + 2 ^ (t.global_depth_ - (b.depth_ + 1)) := by
      rw [Nat.zero_add, Nat.div_lt_iff_lt_mul (Nat.two_pow_pos _), hpw]; exact hj
    by_cases hm : j % 2 ^ (b.depth_ + 1) = idx % 2 ^ (b.depth_ + 1)
    · rw [if_pos ⟨by rw [hlen]; exact hj, hm, Nat.zero_le _, hq⟩, if_pos hm]
    · rw [if_neg (fun hx => hm hx.2.1), if_neg hm]

/-- The directory invariant: the shape of the directory, every bucket of the
store is pointed to by a slot, two slots that share a bucket agree on its low
`depth_` bits, and `num_buckets_` counts the buckets of the store. -/
structure Dir (t : ExtendibleHashTable K V) : Prop where
  shape : Shape t
  live : ∀ (r : Nat), r < t.buckets.length → ∃ (i : Nat), t.dir_[i]? = some r
  conv : ∀ (i j r : Nat) (b : Bucket K V), t.dir_[i]? = some r → t.buckets[r]? = some b →
    t.dir_[j]? = some r → j % 2 ^ b.depth_ = i % 2 ^ b.depth_
  count : t.num_buckets_ = t.buckets.length

theorem Dir.lt {t : ExtendibleHashTable K V} (h : Dir t) {i r : Nat}
    (hi : t.dir_[i]? = some r) : i < 2 ^ t.global_depth_ := by
  rw [← h.shape.dir_len]; exact (List.getElem?_eq_some.1 hi).1

/-- Two slots point to the same bucket exactly when they agree on its low
`depth_` bits. -/
theorem Dir.iff {t : ExtendibleHashTable K V} (h : Dir t) {i j r : Nat} {b : Bucket K V}
    (hi : t.dir_[i]? = some r) (hb : t.buckets[r]? = some b) (hj : j < 2 ^ t.global_depth_) :
    t.dir_[j]? = some r ↔ j % 2 ^ b.depth_ = i % 2 ^ b.depth_ :=
  ⟨fun hjr => h.conv i j r b hi hb hjr, fun hc => h.shape.cong i j r b hi hb hj hc⟩

theorem Dir.of_iff {t : ExtendibleHashTable K V}
    (gd_le : t.global_depth_ ≤ MAX_DEPTH)
    (dir_len : t.dir_.length = 2 ^ t.global_depth_)
    (ptr : ∀ (i r : Nat), t.dir_[i]? = some r → r < t.buckets.length)
    (depth_le : ∀ (r : Nat) (b : Bucket K V), t.buckets[r]? = some b →
      b.depth_ ≤ t.global_depth_)
    (size_eq : ∀ (r : Nat) (b : Bucket K V), t.buckets[r]? = some b → b.size_ = t.bucket_size_)
    (iff : ∀ (i j r : Nat) (b : Bucket K V), t.dir_[i]? = some r → t.buckets[r]? = some b →
      j < 2 ^ t.global_depth_ → (t.dir_[j]? = some r ↔ j % 2 ^ b.depth_ = i % 2 ^ b.depth_))
    (live : ∀ (r : Nat), r < t.buckets.length → ∃ (i : Nat), t.dir_[i]? = some r)
    (count : t.num_buckets_ = t.buckets.length) : Dir t :=
  ⟨⟨gd_le, dir_len, ptr, depth_le, size_eq, fun i j r b hi hb hj hc => (iff i j r b hi hb hj).2 hc⟩,
    live, fun i j r b hi hb hj => (iff i j r b hi hb (by
      rw [← dir_len]; exact (List.getElem?_eq_some.1 hj).1)).1 hj, count⟩

/-- A store into a bucket that keeps its depth and capacity keeps the
directory invariant. -/
theorem Dir.set {t : ExtendibleHashTable K V} (h : Dir t) {r : Nat} {b b1 : Bucket K V}
    (hb : t.buckets[r]? = some b) (hd : b1.depth_ = b.depth_) (hs : b1.size_ = b.size_) :
    Dir (t.setBucket r b1) := by
  have hl : (t.setBucket r b1).buckets.length = t.buckets.length := by simp [setBucket]
  refine ⟨h.shape.setBucket_shape hb hd hs, ?_, ?_, ?_⟩
  · intro x hx
    rw [hl] at hx
    exact h.live x hx
  · intro i j x bx hi hx hj
    by_cases hxr : x = r
    · subst hxr
      rw [setBucket_get hb] at hx
      injection hx with hx
      subst hx
      rw [hd]
      exact h.conv i j x b hi hb hj
    · rw [setBucket_other t b1 hxr] at hx
      exact h.conv i j x bx hi hx hj
  · rw [hl]; exact h.count

end ExtendibleHashTable

namespace ExtendibleHashTable

variable {K V : Type}

/-- Case 1 of a split keeps the directory invariant. -/
theorem Dir.double {t t1 : ExtendibleHashTable K V} (h : Dir t) {idx p : Nat} {b : Bucket K V}
    (hat : t.bucketAt idx = some (p, b)) (hdep : b.depth_ = t.global_depth_)
    (e : t.splitDouble idx p b = some t1) : Dir t1 := by
  obtain ⟨hidx, hb⟩ := bucketAt_eq_some hat
  have hsh := h.shape
  have hil : idx < 2 ^ t.global_depth_ := h.lt hidx
  have hp : p < t.buckets.length := (List.getElem?_eq_some.1 hb).1
  obtain ⟨hgd, hgd1, hnum, hbs, hbk, hlen1, hget⟩ := splitDouble_desc hsh.dir_len hil e
  have hpow : 2 ^ t1.global_depth_ = 2 * 2 ^ t.global_depth_ := by
    rw [hgd1, Nat.pow_succ]; omega
  have hbget := fun x => splitStore_get (t := t) hb x
  have hlt : ∀ {i r : Nat}, t1.dir_[i]? = some r → i < 2 * 2 ^ t.global_depth_ := by
    intro i r hi
    rw [← hlen1]; exact (List.getElem?_eq_some.1 hi).1
  -- the split bucket had the slot idx alone
  have hone : ∀ x, x < 2 ^ t.global_depth_ → (t.dir_[x]? = some p ↔ x = idx) := by
    intro x hx
    rw [h.iff hidx hb hx, hdep, Nat.mod_eq_of_lt hx, Nat.mod_eq_of_lt hil]
  have hmodi : (2 ^ t.global_depth_ + idx) % 2 ^ t.global_depth_ = idx := by
    rw [Nat.add_mod_left, Nat.mod_eq_of_lt hil]
  refine Dir.of_iff ?_ ?_ ?_ ?_ ?_ ?_ ?_ ?_
  · rw [hgd1]; omega
  · rw [hlen1, hpow]
  · intro i r hi
    rw [hbk, split_store_length]
    rw [hget i (hlt hi)] at hi
    split at hi
    · injection hi with hi; omega
    · have := hsh.ptr _ r hi; omega
  · intro x bx hx
    rw [hbk, hbget] at hx
    rw [hgd1]
    split at hx
    · injection hx with hx; subst hx; simp only; omega
    · split at hx
      · injection hx with hx; subst hx; simp only [Bucket.IncrementDepth]; omega
      · have := hsh.depth_le x bx hx; omega
  · intro x bx hx
    rw [hbk, hbget] at hx
    rw [hbs]
    split at hx
    · injection hx with hx; subst hx; rfl
    · split at hx
      · injection hx with hx; subst hx; exact hsh.size_eq p b hb
      · exact hsh.size_eq x bx hx
  · intro i j r bx hi hx hj
    rw [hpow] at hj
    have hi1 := hlt hi
    rw [hget i hi1] at hi
    rw [hget j hj]
    have hjn : j % 2 ^ t.global_depth_ < 2 ^ t.global_depth_ := Nat.mod_lt _ (Nat.two_pow_pos _)
    by_cases hin : i = 2 ^ t.global_depth_ + idx
    · rw [if_pos hin] at hi
      injection hi with hi
      subst hi
      rw [hbk, hbget, if_pos rfl] at hx
      injection hx with hx
      subst hx
      simp only
      rw [hdep, ← hgd1, hpow, Nat.mod_eq_of_lt hj, Nat.mod_eq_of_lt hi1, hin]
      by_cases hjn1 : j = 2 ^ t.global_depth_ + idx
      · rw [if_pos hjn1]; simp [hjn1]
      · rw [if_neg hjn1]
        constructor
        · intro hjr
          have := hsh.ptr _ _ hjr
          omega
        · intro hx; exact absurd hx hjn1
    · rw [if_neg hin] at hi
      have hr : r < t.buckets.length := hsh.ptr _ _ hi
      rw [hbk, hbget, if_neg (by omega)] at hx
      by_cases hrp : r = p
      · subst hrp
        rw [if_pos rfl] at hx
        injection hx with hx
        subst hx
        have hi2 : i % 2 ^ t.global_depth_ = idx :=
          (hone _ (Nat.mod_lt _ (Nat.two_pow_pos _))).1 hi
        have hii : i = idx := by
          rcases mod_of_lt_two_mul hi1 with ⟨_, h2⟩ | ⟨_, h2⟩ <;> omega
        simp only [Bucket.IncrementDepth]
        rw [hdep, ← hgd1, hpow, Nat.mod_eq_of_lt hj, Nat.mod_eq_of_lt hi1, hii]
        by_cases hjn1 : j = 2 ^ t.global_depth_ + idx
        · rw [if_pos hjn1]
          constructor
          · intro hjr; injection hjr with hjr; omega
          · intro hx; omega
        · rw [if_neg hjn1, hone _ hjn]
          rcases mod_of_lt_two_mul hj with ⟨_, h2⟩ | ⟨_, h2⟩ <;> constructor <;> intro hx <;> omega
      · rw [if_neg hrp] at hx
        have hdr := hsh.depth_le r bx hx
        have hold := fun x (hx1 : x < 2 ^ t.global_depth_) => h.iff (j := x) hi hx hx1
        rw [mod_pow_mod i hdr] at hold
        by_cases hjn1 : j = 2 ^ t.global_depth_ + idx
        · rw [if_pos hjn1]
          constructor
          · intro hjr; injection hjr with hjr; omega
          · intro hc
            exfalso
            have h1 := (hold idx hil).2 (by
              rw [← hc, hjn1, ← mod_pow_mod (2 ^ t.global_depth_ + idx) hdr, hmodi])
            rw [hidx] at h1
            injection h1 with h1
            exact hrp h1.symm
        · rw [if_neg hjn1, hold _ hjn, mod_pow_mod j hdr]
  · intro r hr
    rw [hbk, split_store_length] at hr
    by_cases hrl : r = t.buckets.length
    · refine ⟨2 ^ t.global_depth_ + idx, ?_⟩
      rw [hget _ (by omega), if_pos rfl, hrl]
    · obtain ⟨i, hi⟩ := h.live r (by omega)
      have hi1 := h.lt hi
      refine ⟨i, ?_⟩
      rw [hget i (by omega), if_neg (by omega), Nat.mod_eq_of_lt hi1]
      exact hi
  · rw [hnum, hbk, split_store_length, h.count]

end ExtendibleHashTable

namespace ExtendibleHashTable

variable {K V : Type}

/-- Case 2 of a split keeps the directory invariant. -/
theorem Dir.loc {t t1 : ExtendibleHashTable K V} (h : Dir t) {idx p : Nat} {b : Bucket K V}
    (hat : t.bucketAt idx = some (p, b)) (hdep : b.depth_ ≠ t.global_depth_)
    (e : t.splitLocal idx p b = some t1) : Dir t1 := by
  obtain ⟨hidx, hb⟩ := bucketAt_eq_some hat
  have hsh := h.shape
  have hil : idx < 2 ^ t.global_depth_ := h.lt hidx
  have hp : p < t.buckets.length := (List.getElem?_eq_some.1 hb).1
  have hd1 : b.depth_ + 1 ≤ t.global_depth_ := by
    have := hsh.depth_le p b hb; omega
  obtain ⟨t2, e2, hgd1, hnum, hbs, hbk, hlen1, hget⟩ :=
    splitLocal_desc t idx p b hsh.dir_len hd1
  rw [e] at e2
  injection e2 with e2
  subst e2
  have hbget := fun x => splitStore_get (t := t) hb x
  have hlt : ∀ {i r : Nat}, t1.dir_[i]? = some r → i < 2 ^ t.global_depth_ := by
    intro i r hi
    rw [← hlen1]; exact (List.getElem?_eq_some.1 hi).1
  have hm := Nat.two_pow_pos b.depth_
  have hwas : ∀ j, j < 2 ^ t.global_depth_ →
      j % 2 ^ (b.depth_ + 1) = idx % 2 ^ (b.depth_ + 1) → t.dir_[j]? = some p := by
    intro j hj hc
    refine (h.iff hidx hb hj).2 ?_
    rw [← mod_pow_mod j (Nat.le_succ b.depth_), hc, mod_pow_mod idx (Nat.le_succ b.depth_)]
  have hidxlt : idx % 2 ^ b.depth_ < 2 ^ b.depth_ := Nat.mod_lt _ hm
  refine Dir.of_iff ?_ ?_ ?_ ?_ ?_ ?_ ?_ ?_
  · rw [hgd1]; exact hsh.gd_le
  · rw [hlen1, hgd1]
  · intro i r hi
    rw [hbk, split_store_length]
    rw [hget i (hlt hi)] at hi
    split at hi
    · injection hi with hi; omega
    · have := hsh.ptr _ r hi; omega
  · intro x bx hx
    rw [hbk, hbget] at hx
    rw [hgd1]
    split at hx
    · injection hx with hx; subst hx; simp only; omega
    · split at hx
      · injection hx with hx; subst hx; simp only [Bucket.IncrementDepth]; omega
      · exact hsh.depth_le x bx hx
  · intro x bx hx
    rw [hbk, hbget] at hx
    rw [hbs]
    split at hx
    · injection hx with hx; subst hx; rfl
    · split at hx
      · injection hx with hx; subst hx; exact hsh.size_eq p b hb
      · exact hsh.size_eq x bx hx
  · intro i j r bx hi hx hj
    rw [hgd1] at hj
    have hi1 := hlt hi
    rw [hget i hi1] at hi
    rw [hget j hj]
    by_cases hic : i % 2 ^ (b.depth_ + 1) = idx % 2 ^ (b.depth_ + 1)
    · rw [if_pos hic] at hi
      injection hi with hi
      subst hi
      rw [hbk, hbget, if_pos rfl] at hx
      injection hx with hx
      subst hx
      simp only
      rw [hic]
      by_cases hjc : j % 2 ^ (b.depth_ + 1) = idx % 2 ^ (b.depth_ + 1)
      · rw [if_pos hjc]; simp [hjc]
      · rw [if_neg hjc]
        constructor
        · intro hjr
          have := hsh.ptr _ _ hjr
          omega
        · intro hx; exact absurd hx hjc
    · rw [if_neg hic] at hi
      have hr : r < t.buckets.length := hsh.ptr _ _ hi
      rw [hbk, hbget, if_neg (by omega)] at hx
      by_cases hrp : r = p
      · subst hrp
        rw [if_pos rfl] at hx
        injection hx with hx
        subst hx
        simp only [Bucket.IncrementDepth]
        have hi2 : i % 2 ^ b.depth_ = idx % 2 ^ b.depth_ := (h.iff hidx hb hi1).1 hi
        have c1 := mod_succ_cases i b.depth_
        have c2 := mod_succ_cases j b.depth_
        have c3 := mod_succ_cases idx b.depth_
        by_cases hjc : j % 2 ^ (b.depth_ + 1) = idx % 2 ^ (b.depth_ + 1)
        · rw [if_pos hjc]
          constructor
          · intro hjr; injection hjr with hjr; omega
          · intro hx; rw [hjc] at hx; exact absurd hx.symm hic
        · rw [if_neg hjc, h.iff hidx hb hj]
          constructor
          · intro hx; omega
          · intro hx
            rw [← mod_pow_mod j (Nat.le_succ b.depth_), hx,
              mod_pow_mod i (Nat.le_succ b.depth_), hi2]
      · rw [if_neg hrp] at hx
        by_cases hjc : j % 2 ^ (b.depth_ + 1) = idx % 2 ^ (b.depth_ + 1)
        · rw [if_pos hjc]
          constructor
          · intro hjr; injection hjr with hjr; omega
          · intro hc
            exfalso
            have h1 := (h.iff hi hx hj).2 hc
            rw [hwas j hj hjc] at h1
            injection h1 with h1
            exact hrp h1.symm
        · rw [if_neg hjc]
          exact h.iff hi hx hj
  · intro r hr
    rw [hbk, split_store_length] at hr
    by_cases hrl : r = t.buckets.length
    · refine ⟨idx, ?_⟩
      rw [hget _ hil, if_pos rfl, hrl]
    · by_cases hrp : r = p
      · subst hrp
        have c3 := mod_succ_cases idx b.depth_
        have hpw : 2 ^ (b.depth_ + 1) = 2 * 2 ^ b.depth_ := by rw [Nat.pow_succ]; omega
        have hle : 2 ^ (b.depth_ + 1) ≤ 2 ^ t.global_depth_ :=
          Nat.pow_le_pow_right (by omega) hd1
        rcases c3 with c3 | c3
        · -- bit d of idx is 0: the slot with bit d set
          have hj0 : idx % 2 ^ b.depth_ + 2 ^ b.depth_ < 2 ^ (b.depth_ + 1) := by omega
          refine ⟨idx % 2 ^ b.depth_ + 2 ^ b.depth_, ?_⟩
          rw [hget _ (by omega), if_neg (by rw [Nat.mod_eq_of_lt hj0]; omega)]
          refine (h.iff hidx hb (by omega)).2 ?_
          rw [Nat.add_mod_right, Nat.mod_mod]
        · have hj0 : idx % 2 ^ b.depth_ < 2 ^ (b.depth_ + 1) := by omega
          refine ⟨idx % 2 ^ b.depth_, ?_⟩
          rw [hget _ (by omega), if_neg (by rw [Nat.mod_eq_of_lt hj0]; omega)]
          refine (h.iff hidx hb (by omega)).2 ?_
          rw [Nat.mod_mod]
      · obtain ⟨i, hi⟩ := h.live r (by omega)
        have hi1 := h.lt hi
        refine ⟨i, ?_⟩
        rw [hget i hi1, if_neg ?_]
        · exact hi
        · intro hc
          rw [hwas i hi1 hc] at hi
          injection hi with hi
          exact hrp hi.symm
  · rw [hnum, hbk, split_store_length, h.count]

end ExtendibleHashTable

namespace ExtendibleHashTable

variable {K V : Type}

/-- Every change of the table inside `Insert` or `Remove` keeps the
directory invariant. -/
theorem Dir.step {t t1 : ExtendibleHashTable K V} (h : Dir t) (s : Step t t1) : Dir t1 := by
  cases s with
  | set hb hd hs => exact h.set hb hd hs
  | double hat hdep e => exact h.double hat hdep e
  | loc hat hdep e => exact h.loc hat hdep e

theorem Dir.steps {t t1 : ExtendibleHashTable K V} (h : Dir t) (s : Steps t t1) : Dir t1 := by
  induction s with
  | refl => exact h
  | tail _ s1 ih => exact ih.step s1

theorem dir_new (bucket_size : Nat) : Dir (new bucket_size : ExtendibleHashTable K V) := by
  refine Dir.of_iff (by simp [new, MAX_DEPTH]) rfl ?_ ?_ ?_ ?_ ?_ rfl
  · intro i r hi
    have hi0 : i < 1 := (List.getElem?_eq_some.1 hi).1
    have : i = 0 := by omega
    subst this
    simp [new] at hi ⊢
    omega
  · intro r b hb
    have hr0 : r < 1 := (List.getElem?_eq_some.1 hb).1
    have : r = 0 := by omega
    subst this
    simp [new] at hb
    subst hb
    exact Nat.le_refl _
  · intro r b hb
    have hr0 : r < 1 := (List.getElem?_eq_some.1 hb).1
    have : r = 0 := by omega
    subst this
    simp [new] at hb
    subst hb
    rfl
  · intro i j r b hi hb hj
    have hi0 : i < 1 := (List.getElem?_eq_some.1 hi).1
    have hj0 : j < 1 := hj
    have h1 : i = 0 := by omega
    have h2 : j = 0 := by omega
    subst h1; subst h2
    simp [hi]
  · intro r hr
    have hr0 : r < 1 := hr
    have : r = 0 := by omega
    subst this
    exact ⟨0, rfl⟩

/-- The tables that calls lead to have the directory invariant. -/
theorem Reachable.dir [DecidableEq K] {hash : K → Nat} {bucket_size : Nat}
    {t : ExtendibleHashTable K V} (h : Reachable hash bucket_size t) : Dir t := by
  induction h with
  | init => exact dir_new bucket_size
  | insert fuel key value _ e ih => exact ih.steps ((insert_steps hash fuel).1 _ _ key value e)
  | @remove t0 t1 key ret _ e ih =>
    unfold Remove at e
    cases hat : t0.bucketAt (IndexOf hash t0 key) with
    | none => rw [hat] at e; exact absurd e (by simp)
    | some pb =>
      obtain ⟨p, b⟩ := pb
      rw [hat] at e
      simp only [Option.some.injEq, Prod.mk.injEq] at e
      rw [← e.1]
      refine ih.set (bucketAt_eq_some hat).2 ?_ ?_
      · unfold Bucket.Remove; split <;> rfl
      · unfold Bucket.Remove; split <;> rfl

end ExtendibleHashTable

namespace ExtendibleHashTable

variable {K V : Type}

theorem Step.keeps_bucket_size {t t1 : ExtendibleHashTable K V} (s : Step t t1) :
    t1.bucket_size_ = t.bucket_size_ := by
  cases s with
  | set hb hd hs => rfl
  | double hat hdep e =>
    unfold splitDouble at e
    split at e
    · exact absurd e (by simp)
    · split at e
      · injection e with e; rw [← e]
      · exact absurd e (by simp)
  | loc hat hdep e =>
    unfold splitLocal at e
    split at e
    · exact absurd e (by simp)
    · injection e with e; rw [← e]

theorem Steps.keep_bucket_size {t t1 : ExtendibleHashTable K V} (s : Steps t t1) :
    t1.bucket_size_ = t.bucket_size_ := by
  induction s with
  | refl => rfl
  | tail _ s1 ih => rw [s1.keeps_bucket_size, ih]

/-- The tables that calls lead to keep the bucket size of the constructor. -/
theorem Reachable.bucket_size_eq [DecidableEq K] {hash : K → Nat} {bucket_size : Nat}
    {t : ExtendibleHashTable K V} (h : Reachable hash bucket_size t) :
    t.bucket_size_ = bucket_size := by
  induction h with
  | init => rfl
  | insert fuel key value _ e ih =>
    rw [((insert_steps hash fuel).1 _ _ key value e).keep_bucket_size, ih]
  | @remove t0 t1 key ret _ e ih =>
    unfold Remove at e
    cases hat : t0.bucketAt (IndexOf hash t0 key) with
    | none => rw [hat] at e; exact absurd e (by simp)
    | some pb =>
      obtain ⟨p, b⟩ := pb
      rw [hat] at e
      simp only [Option.some.injEq, Prod.mk.injEq] at e
      rw [← e.1]
      exact ih

/-- In a table with the directory invariant the directory names every
bucket of the store once or more, and no other position. -/
theorem Dir.dedup_length {t : ExtendibleHashTable K V} (h : Dir t) :
    t.dir_.dedup.length = t.buckets.length := by
  have h1 : t.dir_.dedup.toFinset = Finset.range t.buckets.length := by
    ext r
    rw [List.mem_toFinset, List.mem_dedup, Finset.mem_range, List.mem_iff_getElem?]
    constructor
    · rintro ⟨i, hi⟩
      exact h.shape.ptr i r hi
    · intro hr
      exact h.live r hr
  rw [← List.toFinset_card_of_nodup (List.nodup_dedup t.dir_), h1, Finset.card_range]

/-- C21: in every table that `Insert` and `Remove` calls lead to from the
initial one, the directory has `2 ^ global_depth_` slots, every slot leads to
a bucket whose local depth is at most the global depth and that holds at most
`bucket_size` pairs, two slots point to the same bucket exactly when their
indices agree on the low `depth_` bits of that bucket, and `num_buckets_` is
the number of distinct buckets in the directory. -/
theorem directory_invariant [DecidableEq K] {hash : K → Nat} {bucket_size : Nat}
    {t : ExtendibleHashTable K V} (hr : Reachable hash bucket_size t) :
    t.dir_.length = 2 ^ t.GetGlobalDepth ∧
    (∀ (i : Nat), i < t.dir_.length → ∃ (r : Nat) (b : Bucket K V),
      t.bucketAt i = some (r, b) ∧ t.GetLocalDepth i = some b.GetDepth ∧
      b.GetDepth ≤ t.GetGlobalDepth ∧ b.list_.length ≤ bucket_size) ∧
    (∀ (i j r s : Nat) (b c : Bucket K V), t.bucketAt i = some (r, b) →
      t.bucketAt j = some (s, c) → (r = s ↔ i % 2 ^ b.GetDepth = j % 2 ^ b.GetDepth)) ∧
    t.GetNumBuckets = t.dir_.dedup.length := by
  have hd := hr.dir
  have hwf := hr.wf
  have hbs := hr.bucket_size_eq
  refine ⟨hd.shape.dir_len, ?_, ?_, ?_⟩
  · intro i hi
    rw [hd.shape.dir_len] at hi
    obtain ⟨r, b, h1, h2, h3⟩ := hd.shape.bucketAt_some hi
    refine ⟨r, b, h3, ?_, hd.shape.depth_le r b h2, ?_⟩
    · unfold GetLocalDepth
      rw [h3]
      rfl
    · rw [← hbs]
      exact hwf.cap r b h2
  · intro i j r s b c hi hj
    obtain ⟨hi1, hi2⟩ := bucketAt_eq_some hi
    obtain ⟨hj1, hj2⟩ := bucketAt_eq_some hj
    have hjl := hd.lt hj1
    have := hd.iff hi1 hi2 hjl
    rw [hj1] at this
    unfold Bucket.GetDepth
    constructor
    · intro hrs
      exact (this.1 (by rw [hrs])).symm
    · intro hc
      have h1 := this.2 hc.symm
      injection h1 with h1
      exact h1.symm
  · unfold GetNumBuckets
    rw [hd.count, hd.dedup_length]

theorem directory_invariant_witness :
    Reachable id 2 tab5 ∧
    (new 2 : ExtendibleHashTable Nat Nat).dir_.length = 1 ∧ tab2a.dir_.length = 2 ∧
    tab2b.dir_.length = 4 ∧ tab3.dir_.length = 8 ∧
    tab5.dir_.length = 2 ^ tab5.GetGlobalDepth ∧
    (∀ (i : Nat), i < tab5.dir_.length → ∃ (r : Nat) (b : Bucket Nat Nat),
      tab5.bucketAt i = some (r, b) ∧ tab5.GetLocalDepth i = some b.GetDepth ∧
      b.GetDepth ≤ tab5.GetGlobalDepth ∧ b.list_.length ≤ 2) ∧
    (∀ (i j r s : Nat) (b c : Bucket Nat Nat), tab5.bucketAt i = some (r, b) →
      tab5.bucketAt j = some (s, c) → (r = s ↔ i % 2 ^ b.GetDepth = j % 2 ^ b.GetDepth)) ∧
    tab5.GetNumBuckets = tab5.dir_.dedup.length :=
  ⟨tab5_reachable, rfl, rfl, rfl, rfl, directory_invariant tab5_reachable⟩

end ExtendibleHashTable

/-! ### The split of a bucket below the global depth -/

namespace ExtendibleHashTable

variable {K V : Type}

/-- The table `ExtendibleHashTable<int, int>(1)` after `Insert(0, 0)`. -/
def tabA1 : ExtendibleHashTable Nat Nat :=
  { global_depth_ := 0, bucket_size_ := 1, num_buckets_ := 1, dir_ := [0],
    buckets := [{ size_ := 1, depth_ := 0, list_ := [(0, 0)] }] }

/-- The table `tabA1` after `Insert(1, 10)`. -/
def tabA2 : ExtendibleHashTable Nat Nat :=
  { global_depth_ := 1, bucket_size_ := 1, num_buckets_ := 2, dir_ := [0, 1],
    buckets := [{ size_ := 1, depth_ := 1, list_ := [(0, 0)] },
      { size_ := 1, depth_ := 1, list_ := [(1, 10)] }] }

/-- The table `tabA2` after `Insert(3, 30)`: the bucket at position 0 has
local depth 1 and the slots 0 and 2. -/
def tabA3 : ExtendibleHashTable Nat Nat :=
  { global_depth_ := 2, bucket_size_ := 1, num_buckets_ := 3, dir_ := [0, 1, 0, 2],
    buckets := [{ size_ := 1, depth_ := 1, list_ := [(0, 0)] },
      { size_ := 1, depth_ := 2, list_ := [(1, 10)] },
      { size_ := 1, depth_ := 2, list_ := [(3, 30)] }] }

/-- The table `tabA3` after the split step of `Insert(4, 40)`. -/
def tabA3s : ExtendibleHashTable Nat Nat :=
  { global_depth_ := 2, bucket_size_ := 1, num_buckets_ := 4, dir_ := [3, 1, 0, 2],
    buckets := [{ size_ := 1, depth_ := 2, list_ := [(0, 0)] },
      { size_ := 1, depth_ := 2, list_ := [(1, 10)] },
      { size_ := 1, depth_ := 2, list_ := [(3, 30)] },
      { size_ := 1, depth_ := 2, list_ := [] }] }

theorem tabA2_eq : Insert id 4 tabA1 1 10 = some tabA2 := by
  rfl

theorem tabA3_eq : Insert id 4 tabA2 3 30 = some tabA3 := by
  rfl

theorem tabA3_reachable : Reachable id 1 tabA3 :=
  Reachable.insert 4 3 30
    (Reachable.insert 4 1 10
      (Reachable.insert 1 0 0 Reachable.init (show Insert id 1 (new 1) 0 0 = some tabA1 from rfl))
      tabA2_eq)
    tabA3_eq

end ExtendibleHashTable

namespace ExtendibleHashTable

variable {K V : Type}

/-- C30, as the code has it: when `Insert` hits a full bucket whose local
depth `d` is below the global depth, the split step returns; afterwards the
old bucket and the new bucket both have local depth `d + 1`, the new bucket
is pointed to by exactly the slots whose low `d + 1` bits are those of the
slot of the key, the old bucket keeps exactly the slots with its suffix and
the other value of bit `d`, all other slots are unchanged, `num_buckets_`
has grown by one and the global depth is unchanged. -/
theorem split_below_global_depth [DecidableEq K] {hash : K → Nat} {bucket_size : Nat}
    {t : ExtendibleHashTable K V} (hr : Reachable hash bucket_size t) (key : K) {p : Nat}
    {b : Bucket K V} (hat : t.bucketAt (IndexOf hash t key) = some (p, b))
    (_hf : b.IsFull = true) (hd : b.GetDepth < t.GetGlobalDepth) :
    ∃ t1, t.splitLocal (IndexOf hash t key) p b = some t1 ∧
      (∃ b1, t1.buckets[p]? = some b1 ∧ b1.GetDepth = b.GetDepth + 1) ∧
      (∃ b2, t1.buckets[t.buckets.length]? = some b2 ∧ b2.GetDepth = b.GetDepth + 1) ∧
      (∀ (j : Nat), j < t.dir_.length → (t1.dir_[j]? = some t.buckets.length ↔
        j % 2 ^ (b.GetDepth + 1) = IndexOf hash t key % 2 ^ (b.GetDepth + 1))) ∧
      (∀ (j : Nat), j < t.dir_.length → (t1.dir_[j]? = some p ↔
        j % 2 ^ b.GetDepth = IndexOf hash t key % 2 ^ b.GetDepth ∧
        j % 2 ^ (b.GetDepth + 1) ≠ IndexOf hash t key % 2 ^ (b.GetDepth + 1))) ∧
      (∀ (j : Nat), j % 2 ^ b.GetDepth ≠ IndexOf hash t key % 2 ^ b.GetDepth →
        t1.dir_[j]? = t.dir_[j]?) ∧
      t1.GetNumBuckets = t.GetNumBuckets + 1 ∧ t1.GetGlobalDepth = t.GetGlobalDepth := by
  have h := hr.dir
  have hsh := h.shape
  obtain ⟨hidx, hb⟩ := bucketAt_eq_some hat
  have hil := IndexOf_lt hash t key
  have hp : p < t.buckets.length := (List.getElem?_eq_some.1 hb).1
  unfold Bucket.GetDepth GetGlobalDepth at hd
  obtain ⟨t1, e, hgd1, hnum, _, hbk, hlen1, hget⟩ :=
    splitLocal_desc t (IndexOf hash t key) p b hsh.dir_len (by omega)
  have hbget := fun x => splitStore_get (t := t) hb x
  refine ⟨t1, e, ⟨b.IncrementDepth, ?_, rfl⟩,
    ⟨{ size_ := t.bucket_size_, depth_ := b.depth_ + 1, list_ := [] }, ?_, rfl⟩,
    ?_, ?_, ?_, ?_, hgd1⟩
  · rw [hbk, hbget, if_neg (by omega), if_pos rfl]
  · rw [hbk, hbget, if_pos rfl]
  · intro j hj
    rw [hsh.dir_len] at hj
    rw [hget j hj]
    unfold Bucket.GetDepth
    by_cases hc : j % 2 ^ (b.depth_ + 1) = IndexOf hash t key % 2 ^ (b.depth_ + 1)
    · rw [if_pos hc]; simp [hc]
    · rw [if_neg hc]
      constructor
      · intro hjr
        have := hsh.ptr _ _ hjr
        omega
      · intro hx; exact absurd hx hc
  · intro j hj
    rw [hsh.dir_len] at hj
    rw [hget j hj]
    unfold Bucket.GetDepth
    by_cases hc : j % 2 ^ (b.depth_ + 1) = IndexOf hash t key % 2 ^ (b.depth_ + 1)
    · rw [if_pos hc]
      constructor
      · intro hjr; injection hjr with hjr; omega
      · intro hx; exact absurd hc hx.2
    · rw [if_neg hc, h.iff hidx hb hj]
      exact ⟨fun hx => ⟨hx, hc⟩, fun hx => hx.1⟩
  · intro j hj
    unfold Bucket.GetDepth at hj
    by_cases hjl : j < 2 ^ t.global_depth_
    · rw [hget j hjl, if_neg]
      intro hc
      apply hj
      rw [← mod_pow_mod j (Nat.le_succ b.depth_), hc, mod_pow_mod _ (Nat.le_succ b.depth_)]
    · rw [List.getElem?_eq_none (by omega), List.getElem?_eq_none (by rw [hsh.dir_len]; omega)]
  · exact hnum

theorem split_below_global_depth_witness :
    ∃ t1, tabA3.splitLocal (IndexOf id tabA3 4) 0 { size_ := 1, depth_ := 1, list_ := [(0, 0)] }
        = some t1 ∧
      (∃ b1, t1.buckets[0]? = some b1 ∧ b1.GetDepth = 1 + 1) ∧
      (∃ b2, t1.buckets[tabA3.buckets.length]? = some b2 ∧ b2.GetDepth = 1 + 1) ∧
      (∀ (j : Nat), j < tabA3.dir_.length → (t1.dir_[j]? = some tabA3.buckets.length ↔
        j % 2 ^ (1 + 1) = IndexOf id tabA3 4 % 2 ^ (1 + 1))) ∧
      (∀ (j : Nat), j < tabA3.dir_.length → (t1.dir_[j]? = some 0 ↔
        j % 2 ^ 1 = IndexOf id tabA3 4 % 2 ^ 1 ∧
        j % 2 ^ (1 + 1) ≠ IndexOf id tabA3 4 % 2 ^ (1 + 1))) ∧
      (∀ (j : Nat), j % 2 ^ 1 ≠ IndexOf id tabA3 4 % 2 ^ 1 →
        t1.dir_[j]? = tabA3.dir_[j]?) ∧
      t1.GetNumBuckets = tabA3.GetNumBuckets + 1 ∧ t1.GetGlobalDepth = tabA3.GetGlobalDepth :=
  split_below_global_depth tabA3_reachable 4
    (show tabA3.bucketAt (IndexOf id tabA3 4) =
      some (0, { size_ := 1, depth_ := 1, list_ := [(0, 0)] }) from rfl) rfl (by decide)

/-- In the table after `Insert` of the keys 0, 1 and 3 with `bucket_size` 1,
`Insert(4, 40)` hits the full bucket of slot 0, whose local depth 1 is below
the global depth 2 and whose slots are 0 and 2.  The split step gives the new
bucket, at position 3, the slot 0, whose bit 1 is 0, and the old bucket keeps
the slot 2, whose bit 1 is 1. -/
theorem split_gives_new_bucket_slot_of_key :
    Reachable id 1 tabA3 ∧
    tabA3.bucketAt (IndexOf id tabA3 4) =
      some (0, { size_ := 1, depth_ := 1, list_ := [(0, 0)] }) ∧
    ({ size_ := 1, depth_ := 1, list_ := [(0, 0)] } : Bucket Nat Nat).IsFull = true ∧
    tabA3.GetGlobalDepth = 2 ∧ tabA3.dir_ = [0, 1, 0, 2] ∧
    tabA3.splitLocal (IndexOf id tabA3 4) 0 { size_ := 1, depth_ := 1, list_ := [(0, 0)] } =
      some tabA3s ∧
    tabA3s.dir_ = [3, 1, 0, 2] ∧ tabA3.buckets.length = 3 ∧
    ¬ (∀ (j : Nat), j < tabA3.dir_.length →
        (tabA3s.dir_[j]? = some tabA3.buckets.length ↔ j % 2 ^ 1 = 0 % 2 ^ 1 ∧ j / 2 ^ 1 % 2 = 1)) ∧
    ¬ (∀ (j : Nat), j < tabA3.dir_.length →
        (tabA3s.dir_[j]? = some 0 ↔ j % 2 ^ 1 = 0 % 2 ^ 1 ∧ j / 2 ^ 1 % 2 = 0)) := by
  refine ⟨tabA3_reachable, rfl, rfl, rfl, rfl, rfl, rfl, rfl, ?_, ?_⟩
  · intro h
    have := (h 0 (by decide)).1 rfl
    exact absurd this.2 (by decide)
  · intro h
    have := (h 2 (by decide)).1 rfl
    exact absurd this.2 (by decide)

end ExtendibleHashTable

/-! ### Termination of Insert on the extendible hash table -/

namespace ExtendibleHashTable

variable {K V : Type}

theorem Step.frame_one {t t1 : ExtendibleHashTable K V} (s : Step t t1) :
    t.num_buckets_ ≤ t1.num_buckets_ ∧
    (t1.num_buckets_ = t.num_buckets_ → t1.dir_ = t.dir_ ∧
      t1.global_depth_ = t.global_depth_ ∧
      t1.buckets.map (fun (b : Bucket K V) => b.depth_) =
        t.buckets.map (fun (b : Bucket K V) => b.depth_)) := by
  cases s with
  | @set r b b1 hb hd hs =>
    refine ⟨Nat.le_refl _, fun _ => ⟨rfl, rfl, ?_⟩⟩
    show (t.buckets.set r b1).map _ = _
    rw [List.map_set]
    apply List.ext_getElem?
    intro x
    rw [List.getElem?_set]
    split
    · rename_i hrx
      subst hrx
      rw [List.getElem?_map, hb]
      simp [hd, (List.getElem?_eq_some.1 hb).1]
    · rfl
  | double hat hdep e =>
    unfold splitDouble at e
    split at e
    · exact absurd e (by simp)
    · split at e
      · injection e with e
        have : t1.num_buckets_ = t.num_buckets_ + 1 := by rw [← e]
        exact ⟨by omega, fun h => by omega⟩
      · exact absurd e (by simp)
  | loc hat hdep e =>
    unfold splitLocal at e
    split at e
    · exact absurd e (by simp)
    · injection e with e
      have : t1.num_buckets_ = t.num_buckets_ + 1 := by rw [← e]
      exact ⟨by omega, fun h => by omega⟩

/-- A sequence of changes that keeps the bucket count has made no split: the
directory and the depths are as before. -/
theorem Steps.frame_all {t t1 : ExtendibleHashTable K V} (s : Steps t t1) :
    t.num_buckets_ ≤ t1.num_buckets_ ∧
    (t1.num_buckets_ = t.num_buckets_ → t1.dir_ = t.dir_ ∧
      t1.global_depth_ = t.global_depth_ ∧
      t1.buckets.map (fun (b : Bucket K V) => b.depth_) =
        t.buckets.map (fun (b : Bucket K V) => b.depth_)) := by
  induction s with
  | refl => exact ⟨Nat.le_refl _, fun _ => ⟨rfl, rfl, rfl⟩⟩
  | tail _ s1 ih =>
    obtain ⟨a1, a2⟩ := s1.frame_one
    obtain ⟨b1, b2⟩ := ih
    refine ⟨by omega, fun h => ?_⟩
    obtain ⟨c1, c2, c3⟩ := a2 (by omega)
    obtain ⟨d1, d2, d3⟩ := b2 (by omega)
    exact ⟨c1.trans d1, c2.trans d2, c3.trans d3⟩

/-- `RedistributeBucket` after a split returns when the fuel is above the
number of waiting pairs. -/
theorem Mid.redistribute_returns [DecidableEq K] {hash : K → Nat} {p q : Nat} :
    ∀ (m fuel : Nat) (t : ExtendibleHashTable K V), m < fuel → Mid hash t p q m →
      ∃ t2, RedistributeBucket hash fuel t p m = some t2 := by
  intro m
  induction m with
  | zero =>
    intro fuel t hf _
    cases fuel with
    | zero => omega
    | succ f =>
      rw [RedistributeBucket_succ, if_pos rfl]
      exact ⟨t, rfl⟩
  | succ m ih =>
    intro fuel t hf h
    cases fuel with
    | zero => omega
    | succ f =>
      cases f with
      | zero => omega
      | succ g =>
        obtain ⟨b, key, value, rest, t1, hb, hl, hins, hmid, _⟩ := h.round g
        obtain ⟨t2, h2⟩ := ih (g + 1) t1 (by omega) hmid
        refine ⟨t2, ?_⟩
        rw [RedistributeBucket_succ, if_neg (by omega), hb]
        simp only [hl]
        rw [hins]
        simp only [Nat.add_sub_cancel]
        exact h2

end ExtendibleHashTable

namespace ExtendibleHashTable

variable {K V : Type}

/-- The split step for the bucket of a key returns while the local depth is
below the largest depth; afterwards the slot of the key points to the split
bucket or to the new bucket, which both have the incremented depth. -/
theorem Dir.split_returns {hash : K → Nat} {t : ExtendibleHashTable K V} (h : Dir t) (key : K)
    {p : Nat} {b : Bucket K V} (hat : t.bucketAt (IndexOf hash t key) = some (p, b))
    (hd : b.depth_ < MAX_DEPTH) :
    ∃ ts, (if b.GetDepth = t.global_depth_ then t.splitDouble (IndexOf hash t key) p b
        else t.splitLocal (IndexOf hash t key) p b) = some ts ∧ Step t ts ∧
      ts.buckets = splitStore t p b ∧
      (ts.dir_[IndexOf hash ts key]? = some p ∨
        ts.dir_[IndexOf hash ts key]? = some t.buckets.length) := by
  obtain ⟨hidx, hb⟩ := bucketAt_eq_some hat
  have hsh := h.shape
  have hil := IndexOf_lt hash t key
  by_cases hdep : b.GetDepth = t.global_depth_
  · rw [if_pos hdep]
    have hdep1 : b.depth_ = t.global_depth_ := hdep
    obtain ⟨ts, e⟩ := splitDouble_some t p b hsh.dir_len hil (by rw [← hdep1]; exact hd)
    obtain ⟨_, hgd1, _, _, hbk, _, hget⟩ := splitDouble_desc hsh.dir_len hil e
    refine ⟨ts, e, Step.double hat hdep1 e, hbk, ?_⟩
    have hj : IndexOf hash ts key < 2 * 2 ^ t.global_depth_ := by
      have := IndexOf_lt hash ts key
      rw [hgd1, Nat.pow_succ] at this
      omega
    rw [hget _ hj]
    by_cases hc : IndexOf hash ts key = 2 ^ t.global_depth_ + IndexOf hash t key
    · right; rw [if_pos hc]
    · left
      rw [if_neg hc]
      have : IndexOf hash ts key % 2 ^ t.global_depth_ = IndexOf hash t key := by
        unfold IndexOf
        rw [hgd1]
        exact mod_pow_mod _ (Nat.le_succ _)
      rw [this]
      exact hidx
  · rw [if_neg hdep]
    have hdep1 : b.depth_ ≠ t.global_depth_ := hdep
    have hd1 : b.depth_ + 1 ≤ t.global_depth_ := by
      have := hsh.depth_le p b hb; omega
    obtain ⟨ts, e, hgd1, _, _, hbk, _, hget⟩ :=
      splitLocal_desc t (IndexOf hash t key) p b hsh.dir_len hd1
    refine ⟨ts, e, Step.loc hat hdep1 e, hbk, Or.inr ?_⟩
    have : IndexOf hash ts key = IndexOf hash t key := by
      unfold IndexOf
      rw [hgd1]
    rw [this, hget _ hil, if_pos rfl]

/-- One round of the split loop for the bucket of a key whose local depth is
below the largest depth: the split and the redistribution return, the
invariants hold afterwards, the same pairs are stored, and the bucket of the
key has a local depth one above that of the split bucket. -/
theorem WF.split_round [DecidableEq K] {hash : K → Nat} {t : ExtendibleHashTable K V}
    (hwf : WF hash t) (hdr : Dir t) (key : K) {p : Nat} {b : Bucket K V}
    (hat : t.bucketAt (IndexOf hash t key) = some (p, b)) (hd : b.depth_ < MAX_DEPTH)
    {fuel : Nat} (hfuel : b.list_.length < fuel) :
    ∃ ts t2, (if b.GetDepth = t.global_depth_ then t.splitDouble (IndexOf hash t key) p b
        else t.splitLocal (IndexOf hash t key) p b) = some ts ∧
      ts.buckets[p]? = some b.IncrementDepth ∧
      RedistributeBucket hash fuel ts p b.list_.length = some t2 ∧
      WF hash t2 ∧ Dir t2 ∧ (∀ k v, Has t2 k v ↔ Has t k v) ∧
      t2.bucket_size_ = t.bucket_size_ ∧
      ∃ p2 b2, t2.bucketAt (IndexOf hash t2 key) = some (p2, b2) ∧
        b2.depth_ = b.depth_ + 1 := by
  obtain ⟨hidx, hb⟩ := bucketAt_eq_some hat
  have hp : p < t.buckets.length := (List.getElem?_eq_some.1 hb).1
  obtain ⟨ts, hs, hstep, hbk, hslot⟩ := hdr.split_returns key hat hd
  have hmid : Mid hash ts p t.buckets.length b.list_.length ∧
      ts.buckets[p]? = some b.IncrementDepth ∧ (∀ k v, Has ts k v ↔ Has t k v) ∧
      ts.bucket_size_ = t.bucket_size_ := by
    by_cases hdep : b.GetDepth = t.global_depth_
    · rw [if_pos hdep] at hs
      exact hwf.splitDouble_mid hidx hb hdep hs
    · rw [if_neg hdep] at hs
      exact hwf.splitLocal_mid hidx hb hdep hs
  obtain ⟨hm, hbp, hhas, hbs⟩ := hmid
  obtain ⟨t2, hr⟩ := Mid.redistribute_returns _ fuel ts hfuel hm
  obtain ⟨hwf2, hhas2, hdir2, hgd2, hnum2, hbs2⟩ := hm.redistribute fuel _ ts t2 hr
  have hsteps : Steps ts t2 := (insert_steps hash fuel).2.2 ts t2 p _ hr
  have hdr2 : Dir t2 := (hdr.step hstep).steps hsteps
  obtain ⟨_, _, hdep2⟩ := hsteps.frame_all.2 hnum2
  have hx : ∀ (r : Nat), (t2.buckets[r]?).map (fun (b : Bucket K V) => b.depth_) =
      (ts.buckets[r]?).map (fun (b : Bucket K V) => b.depth_) := by
    intro r
    rw [← List.getElem?_map, ← List.getElem?_map, hdep2]
  have hidx2 : IndexOf hash t2 key = IndexOf hash ts key := by
    unfold IndexOf
    rw [hgd2]
  have hfin : ∀ (r : Nat) (br : Bucket K V), ts.dir_[IndexOf hash ts key]? = some r →
      ts.buckets[r]? = some br → br.depth_ = b.depth_ + 1 →
      ∃ p2 b2, t2.bucketAt (IndexOf hash t2 key) = some (p2, b2) ∧
        b2.depth_ = b.depth_ + 1 := by
    intro r br h1 h2 h3
    have h4 := hx r
    rw [h2] at h4
    cases h5 : t2.buckets[r]? with
    | none => rw [h5] at h4; exact absurd h4 (by simp)
    | some b2 =>
      rw [h5] at h4
      simp only [Option.map_some', Option.some.injEq] at h4
      refine ⟨r, b2, bucketAt_of (by rw [hidx2, hdir2]; exact h1) h5, ?_⟩
      rw [h4, h3]
  refine ⟨ts, t2, hs, hbp, hr, hwf2, hdr2, fun k v => (hhas2 k v).trans (hhas k v),
    hbs2.trans hbs, ?_⟩
  rcases hslot with h1 | h1
  · exact hfin p _ h1 hbp rfl
  · refine hfin _ { size_ := t.bucket_size_, depth_ := b.depth_ + 1, list_ := [] } h1 ?_ rfl
    rw [hbk, splitStore_get hb, if_pos rfl]

end ExtendibleHashTable

namespace ExtendibleHashTable

variable {K V : Type}

/-- The keys that `Insert` can place: the capacity of a bucket is positive,
every other stored key has a hash that differs from the hash of the key in
the low `MAX_DEPTH` bits, and the key is not stored or a bucket holds two
pairs or more. -/
structure Apart (hash : K → Nat) (t : ExtendibleHashTable K V) (key : K) : Prop where
  size_pos : 1 ≤ t.bucket_size_
  other : ∀ (k : K) (v : V), Has t k v → k ≠ key →
    hash k % 2 ^ MAX_DEPTH ≠ hash key % 2 ^ MAX_DEPTH
  fresh : (∀ (v : V), ¬ Has t key v) ∨ 2 ≤ t.bucket_size_

theorem IsFull_true_eq {b : Bucket K V} (hf : b.IsFull = true) : b.list_.length = b.size_ := by
  unfold Bucket.IsFull at hf
  simpa using hf

/-- A full bucket of a key that `Insert` can place holds another key, so its
local depth is below the largest depth. -/
theorem Apart.full_depth_lt {hash : K → Nat} {t : ExtendibleHashTable K V} {key : K}
    (ha : Apart hash t key) (hwf : WF hash t) (hdr : Dir t) {p : Nat} {b : Bucket K V}
    (hat : t.bucketAt (IndexOf hash t key) = some (p, b)) (hf : b.IsFull = true) :
    b.depth_ < MAX_DEPTH := by
  obtain ⟨hidx, hb⟩ := bucketAt_eq_some hat
  have hlen := IsFull_true_eq hf
  rw [hwf.shape.size_eq p b hb] at hlen
  have hnd := hwf.nodup p b hb
  have hex : ∃ e, e ∈ b.list_ ∧ e.1 ≠ key := by
    rcases ha.fresh with hn | h2
    · cases hl : b.list_ with
      | nil => rw [hl] at hlen; have := ha.size_pos; simp at hlen; omega
      | cons e rest =>
        refine ⟨e, List.mem_cons_self _ _, ?_⟩
        intro hk
        apply hn e.2
        refine ⟨p, b, hb, ?_⟩
        rw [hl, ← hk]
        exact List.mem_cons_self _ _
    · cases hl : b.list_ with
      | nil => rw [hl] at hlen; simp at hlen; omega
      | cons e1 rest =>
        cases rest with
        | nil => rw [hl] at hlen; simp at hlen; omega
        | cons e2 rest2 =>
          rw [hl] at hnd
          simp only [List.map_cons, List.nodup_cons, List.mem_cons, not_or] at hnd
          by_cases hk : e1.1 = key
          · refine ⟨e2, by simp, ?_⟩
            intro hk2
            exact hnd.1.1 (hk.trans hk2.symm)
          · exact ⟨e1, by simp, hk⟩
  obtain ⟨e, he, hne⟩ := hex
  have hpl := Core.placed_all hwf p b hb e he
  have hc := hdr.conv _ _ p b hidx hb hpl
  have hdg := hwf.shape.depth_le p b hb
  have hgd := hwf.shape.gd_le
  unfold IndexOf at hc
  rw [mod_pow_mod _ hdg, mod_pow_mod _ hdg] at hc
  by_contra hlt
  have : b.depth_ = MAX_DEPTH := by omega
  rw [this] at hc
  exact ha.other e.1 e.2 ⟨p, b, hb, he⟩ hne hc

theorem Apart.of_same {hash : K → Nat} {t t2 : ExtendibleHashTable K V} {key : K}
    (ha : Apart hash t key) (hhas : ∀ k v, Has t2 k v ↔ Has t k v)
    (hbs : t2.bucket_size_ = t.bucket_size_) : Apart hash t2 key := by
  refine ⟨by rw [hbs]; exact ha.size_pos, ?_, ?_⟩
  · intro k v hk
    exact ha.other k v ((hhas k v).1 hk)
  · rcases ha.fresh with hn | h2
    · left
      intro v hv
      exact hn v ((hhas key v).1 hv)
    · right; rw [hbs]; exact h2

/-- The split loop returns for a key that `Insert` can place: each round
raises the local depth of the bucket of the key, which is full only below the
largest depth. -/
theorem WF.splitLoop_returns [DecidableEq K] {hash : K → Nat} (key : K) (value : V) :
    ∀ (n fuel : Nat) (t : ExtendibleHashTable K V), WF hash t → Dir t → Apart hash t key →
      ∀ (p : Nat) (b : Bucket K V), t.bucketAt (IndexOf hash t key) = some (p, b) →
      b.IsFull = true → MAX_DEPTH ≤ b.depth_ + n → n + t.bucket_size_ + 1 ≤ fuel →
      ∃ t1, splitLoop hash fuel t (IndexOf hash t key) key value = some t1 := by
  intro n
  induction n with
  | zero =>
    intro fuel t hwf hdr ha p b hat hf hn _
    have := ha.full_depth_lt hwf hdr hat hf
    omega
  | succ n ih =>
    intro fuel t hwf hdr ha p b hat hf hn hfuel
    have hd := ha.full_depth_lt hwf hdr hat hf
    cases fuel with
    | zero => omega
    | succ f =>
      have hcap := hwf.cap p b (bucketAt_eq_some hat).2
      obtain ⟨ts, t2, hs, hbp, hr, hwf2, hdr2, hhas, hbs, p2, b2, hat2, hd2⟩ :=
        hwf.split_round hdr key hat hd (show b.list_.length < f by omega)
      cases hf2 : b2.IsFull with
      | true =>
        rw [splitLoop_again hash f t ts t2 _ key value p p2 b b.IncrementDepth b2 hat hs hbp
          hr hat2 hf2]
        exact ih f t2 hwf2 hdr2 (ha.of_same hhas hbs) p2 b2 hat2 hf2 (by omega)
          (by rw [hbs]; omega)
      | false =>
        rw [splitLoop_done hash f t ts t2 _ key value p p2 b b.IncrementDepth b2 hat hs hbp
          hr hat2 hf2]
        exact ⟨_, rfl⟩

/-- C22, as the code has it: for every `bucket_size` of 1 or more, every
table that calls lead to and every key `k` whose hash differs in the low
`MAX_DEPTH` bits from the hash of every other stored key, and that is not
stored already unless a bucket holds two pairs or more, `Insert(k, v)`
returns, with any fuel from `bucket_size + 32` on, and the pair is in the
table afterwards. -/
theorem Insert_returns [DecidableEq K] {hash : K → Nat} {bucket_size : Nat}
    {t : ExtendibleHashTable K V} (hr : Reachable hash bucket_size t) (hbs : 1 ≤ bucket_size)
    (key : K) (value : V)
    (hother : ∀ (k : K) (v : V), Has t k v → k ≠ key →
      hash k % 2 ^ MAX_DEPTH ≠ hash key % 2 ^ MAX_DEPTH)
    (hfresh : (∀ (v : V), ¬ Has t key v) ∨ 2 ≤ bucket_size)
    (fuel : Nat) (hfuel : bucket_size + 32 ≤ fuel) :
    ∃ t1, Insert hash fuel t key value = some t1 ∧ Has t1 key value ∧
      Find hash t1 key = some (some value) := by
  have hwf := hr.wf
  have hdr := hr.dir
  have hsz := hr.bucket_size_eq
  have ha : Apart hash t key := ⟨by rw [hsz]; exact hbs, hother, by rw [hsz]; exact hfresh⟩
  have hret : ∃ t1, InsertInternal hash fuel t key value = some t1 := by
    cases fuel with
    | zero => omega
    | succ f =>
      obtain ⟨p, b, _, _, hat⟩ := hwf.shape.bucketAt_some (IndexOf_lt hash t key)
      cases hf : b.IsFull with
      | true =>
        rw [InsertInternal_full hash f value hat hf]
        refine WF.splitLoop_returns key value MAX_DEPTH f t hwf hdr ha p b hat hf (by omega) ?_
        rw [hsz]
        unfold MAX_DEPTH
        omega
      | false =>
        rw [InsertInternal_not_full hash f value hat hf]
        exact ⟨_, rfl⟩
  obtain ⟨t1, e⟩ := hret
  obtain ⟨hwf1, hhas, _⟩ := hwf.InsertInternal_spec e
  have hin : Has t1 key value := (hhas key value).2 (Or.inl ⟨rfl, rfl⟩)
  refine ⟨t1, e, hin, ?_⟩
  obtain ⟨o, ho, hov⟩ := hwf1.Find_spec key
  rw [ho, (hov value).2 hin]

end ExtendibleHashTable

namespace ExtendibleHashTable

variable {K V : Type}

/-- With `bucket_size` 1 the bucket of a stored key is full. -/
theorem WF.stored_full {hash : K → Nat} {t : ExtendibleHashTable K V} (hwf : WF hash t)
    (hbs : t.bucket_size_ = 1) {key : K} {v0 : V} (hk : Has t key v0) {p : Nat} {b : Bucket K V}
    (hat : t.bucketAt (IndexOf hash t key) = some (p, b)) : b.IsFull = true := by
  obtain ⟨hidx, hb⟩ := bucketAt_eq_some hat
  obtain ⟨r, b0, hb0, hm⟩ := hk
  have hpl := Core.placed_all hwf r b0 hb0 (key, v0) hm
  simp only at hpl
  rw [hidx] at hpl
  injection hpl with hpl
  subst hpl
  rw [hb] at hb0
  injection hb0 with hb0
  subst hb0
  have hcap := hwf.cap p b hb
  have hsz := hwf.shape.size_eq p b hb
  have hpos : 0 < b.list_.length := List.length_pos_of_mem hm
  unfold Bucket.IsFull
  simp only [beq_iff_eq]
  omega

/-- With `bucket_size` 1, `Insert` of a stored key never returns: its bucket
is full after every round of the split loop. -/
theorem WF.stored_never_returns [DecidableEq K] {hash : K → Nat} (key : K) (value v0 : V) :
    ∀ (fuel : Nat) (t : ExtendibleHashTable K V), WF hash t → t.bucket_size_ = 1 →
      Has t key v0 → splitLoop hash fuel t (IndexOf hash t key) key value = none := by
  intro fuel
  induction fuel with
  | zero => intro t _ _ _; rfl
  | succ fuel ih =>
    intro t h hbs1 hk
    obtain ⟨p, b, hd, hb, hat⟩ := h.shape.bucketAt_some (IndexOf_lt hash t key)
    rw [splitLoop_succ, hat]
    simp only
    cases hs : (if b.GetDepth = t.global_depth_ then t.splitDouble (IndexOf hash t key) p b
        else t.splitLocal (IndexOf hash t key) p b) with
    | none => rfl
    | some ts =>
      simp only
      have hmid : Mid hash ts p t.buckets.length b.list_.length ∧
          ts.buckets[p]? = some b.IncrementDepth ∧ (∀ k v, Has ts k v ↔ Has t k v) ∧
          ts.bucket_size_ = t.bucket_size_ := by
        by_cases hdep : b.GetDepth = t.global_depth_
        · rw [if_pos hdep] at hs
          exact h.splitDouble_mid hd hb hdep hs
        · rw [if_neg hdep] at hs
          exact h.splitLocal_mid hd hb hdep hs
      obtain ⟨hm, hbp, hhas, hbs⟩ := hmid
      rw [hbp]
      simp only
      have hlen : b.IncrementDepth.list_.length = b.list_.length := rfl
      rw [hlen]
      cases hr : RedistributeBucket hash fuel ts p b.list_.length with
      | none => rfl
      | some t2 =>
        simp only
        obtain ⟨hwf2, hhas2, _, _, _, hbs2⟩ := hm.redistribute fuel _ ts t2 hr
        obtain ⟨p2, b2, _, _, hat2⟩ := hwf2.shape.bucketAt_some (IndexOf_lt hash t2 key)
        rw [hat2]
        simp only
        have hk2 : Has t2 key v0 := (hhas2 key v0).2 ((hhas key v0).2 hk)
        have hbs3 : t2.bucket_size_ = 1 := by rw [hbs2, hbs, hbs1]
        rw [hwf2.stored_full hbs3 hk2 hat2]
        simp only [if_true]
        exact ih t2 hwf2 hbs3 hk2

/-- With `bucket_size` 1 and the key 0 stored, with no other key in the
table, `Insert(0, 5)` does not return, whatever the fuel: the bucket of the
key is full, and it is full again after every split. -/
theorem Insert_of_stored_key_never_returns :
    Reachable id 1 tabA1 ∧ Has tabA1 0 0 ∧ (∀ (k v : Nat), Has tabA1 k v → k = 0) ∧
    ¬ ∃ (fuel : Nat) (t1 : ExtendibleHashTable Nat Nat), Insert id fuel tabA1 0 5 = some t1 := by
  have hreach : Reachable id 1 tabA1 :=
    Reachable.insert 1 0 0 Reachable.init (show Insert id 1 (new 1) 0 0 = some tabA1 from rfl)
  have hhas : Has tabA1 0 0 := ⟨0, { size_ := 1, depth_ := 0, list_ := [(0, 0)] }, rfl, by simp⟩
  refine ⟨hreach, hhas, ?_, ?_⟩
  · rintro k v ⟨r, b, hb, hm⟩
    have hr : r < 1 := (List.getElem?_eq_some.1 hb).1
    have hr0 : r = 0 := by omega
    subst hr0
    simp only [tabA1, List.getElem?_cons_zero, Option.some.injEq] at hb
    subst hb
    simp only [List.mem_singleton, Prod.mk.injEq] at hm
    exact hm.1
  · rintro ⟨fuel, t1, e⟩
    cases fuel with
    | zero => exact absurd e (by simp [Insert, InsertInternal])
    | succ f =>
      have hat : tabA1.bucketAt (IndexOf id tabA1 0) =
          some (0, { size_ := 1, depth_ := 0, list_ := [(0, 0)] }) := rfl
      rw [Insert_eq, InsertInternal_full id f 5 hat rfl,
        WF.stored_never_returns 0 5 0 f tabA1 hreach.wf rfl hhas] at e
      exact absurd e (by simp)

theorem Insert_returns_witness :
    Reachable id 1 tabA3 ∧
    ∃ t1, Insert id 33 tabA3 4 40 = some t1 ∧ Has t1 4 40 ∧
      Find id t1 4 = some (some 40) := by
  have hall : ∀ (k v : Nat), Has tabA3 k v → k = 0 ∨ k = 1 ∨ k = 3 := by
    rintro k v ⟨r, b, hb, hm⟩
    have hr : r < 3 := (List.getElem?_eq_some.1 hb).1
    have hr0 : r = 0 ∨ r = 1 ∨ r = 2 := by omega
    rcases hr0 with h | h | h <;> subst h <;>
      simp only [tabA3, List.getElem?_cons_zero, List.getElem?_cons_succ,
        Option.some.injEq] at hb <;>
      subst hb <;> simp only [List.mem_singleton, Prod.mk.injEq] at hm <;> omega
  refine ⟨tabA3_reachable, Insert_returns tabA3_reachable (Nat.le_refl 1) 4 40 ?_ ?_ 33
    (Nat.le_refl 33)⟩
  · intro k v hk _
    rcases hall k v hk with h | h | h <;> subst h <;> simp [MAX_DEPTH]
  · left
    intro v hv
    rcases hall 4 v hv with h | h | h <;> omega

end ExtendibleHashTable

/-! ### The keys of an internal page and the subtrees of its children -/

namespace BPlusTree

/-- The key `x` is stored in the subtree of the page `c`: in a leaf found
from `c` through child pointers, or as the key of a slot above slot 0 of an
internal page found so. -/
inductive SubtreeKey (t : BPlusTree) : page_id_t → KeyType → Prop
  | leaf {c : page_id_t} {l : LeafPage} {e : KeyType × ValueType} :
      t.pages c = some (.leaf l) → e ∈ l.array_ → SubtreeKey t c e.1
  | slot {c : page_id_t} {ip : InternalPage} {e : KeyType × page_id_t} :
      t.pages c = some (.internal ip) → e ∈ ip.array_.tail → SubtreeKey t c e.1
  | child {c : page_id_t} {ip : InternalPage} {e : KeyType × page_id_t} {x : KeyType} :
      t.pages c = some (.internal ip) → e ∈ ip.array_ → SubtreeKey t e.2 x →
      SubtreeKey t c x

/-- The keys of the slots above slot 0 of an internal page of the tree ascend
strictly and lie in the range of the page. -/
theorem Inv.slot_keys {t : BPlusTree} {g : Ghost} (h : Inv t g) {p : page_id_t}
    (hp : g.S p) {ip : InternalPage} (hip : t.pages p = some (.internal ip)) :
    ip.array_.tail.Pairwise (fun a b => a.1 < b.1) ∧
    ∀ e ∈ ip.array_.tail, geLo (g.lo p) e.1 ∧ ltHi (g.hi p) e.1 := by
  obtain ⟨e0, rest, harr, hc0, hlo0, hs⟩ := (h.node p hp).kids ip hip
  obtain ⟨k1, k2, k3⟩ := SlotsK.keys h.ranges hs
  rw [harr]
  refine ⟨k1, ?_⟩
  intro e he
  refine ⟨?_, k3 e he⟩
  intro a ha
  cases hm : g.hi e0.2 with
  | none =>
    -- the slots after a child without upper bound: there are none
    cases rest with
    | nil => simp at he
    | cons e1 rest1 =>
      have := hs.1
      rw [hm] at this
      cases this
  | some k =>
    have h1 := k2 e he k hm
    have h2 := (h.node e0.2 hc0.1).range a k (by rw [hlo0]; exact ha) hm
    exact le_of_lt (lt_of_lt_of_le h2 h1)

/-- Every key stored in the subtree of a page of the tree lies in the range
of the page. -/
theorem Inv.subtree_range {t : BPlusTree} {g : Ghost} (h : Inv t g) {c : page_id_t}
    {x : KeyType} (hx : SubtreeKey t c x) (hc : g.S c) :
    geLo (g.lo c) x ∧ ltHi (g.hi c) x := by
  induction hx with
  | leaf hl he => exact ((h.node _ hc).leaf _ hl).inside _ he
  | slot hip he => exact (h.slot_keys hc hip).2 _ he
  | @child c ip e x hip he _ ih =>
    have hk := (h.node c hc).kids ip hip
    obtain ⟨i, hi⟩ := List.getElem?_of_mem he
    obtain ⟨hch, hz, hpos, hnext, hlast⟩ := hk.get_kid i e hi
    obtain ⟨ih1, ih2⟩ := ih hch.1
    have hsl := (h.slot_keys hc hip).2
    have htail : ∀ (j : Nat) (e1 : KeyType × page_id_t), ip.array_[j + 1]? = some e1 →
        e1 ∈ ip.array_.tail := by
      intro j e1 hj
      have : ip.array_.tail[j]? = some e1 := by
        rw [List.getElem?_tail]
        exact hj
      exact List.getElem?_mem this
    constructor
    · cases i with
      | zero =>
        rw [← hz rfl]
        exact ih1
      | succ j =>
        intro a ha
        have h1 := (hsl e (htail j e hi)).1 a ha
        have h2 := ih1 e.1 (hpos (Nat.succ_pos j))
        exact le_trans h1 h2
    · cases hn : ip.array_[i + 1]? with
      | none =>
        rw [← hlast hn]
        exact ih2
      | some e1 =>
        intro b hb
        have h1 := (hsl e1 (htail i e1 hn)).2 b hb
        have h2 := ih2 e1.1 (hnext e1 hn)
        exact lt_trans h2 h1

/-- The keys of the internal pages in the states of `Reachable`: in every
tree state reached from the empty tree by calls of `Insert` and `Remove`
that return without fetching a page id that is no page of the tree, for
every internal page of the tree the keys of the slots from 1 on ascend
strictly, and every key stored in the subtree of the child of slot `i` is at
least the key of slot `i`, for `i ≥ 1`, and below the key of slot `i + 1`,
when there is such a slot.  The states after `HandleUnderFlow` has fetched
`INVALID_PAGE_ID` are not covered. -/
theorem internal_keys_bound_subtrees (leaf_max_size internal_max_size : Nat)
    (first_page_id : page_id_t) (h0 : 0 ≤ first_page_id) (t : BPlusTree)
    (hr : Reachable leaf_max_size internal_max_size first_page_id t)
    (p : page_id_t) (ip : InternalPage) (hp : TreeNode t p)
    (hip : t.pages p = some (.internal ip)) :
    ip.array_.tail.Pairwise (fun a b => a.1 < b.1) ∧
    ∀ (i : Nat) (e : KeyType × page_id_t) (x : KeyType), ip.array_[i]? = some e →
      SubtreeKey t e.2 x →
      (0 < i → e.1 ≤ x) ∧ (∀ e1, ip.array_[i + 1]? = some e1 → x < e1.1) := by
  obtain ⟨g, hg⟩ := Reachable.tree_inv h0 hr
  have hS := hg.S_of_treeNode hp
  refine ⟨(hg.slot_keys hS hip).1, ?_⟩
  intro i e x hi hx
  obtain ⟨hch, _, hpos, hnext, _⟩ := ((hg.node p hS).kids ip hip).get_kid i e hi
  obtain ⟨h1, h2⟩ := hg.subtree_range hx hch.1
  exact ⟨fun h => h1 e.1 (hpos h), fun e1 he1 => h2 e1.1 (hnext e1 he1)⟩

end BPlusTree

namespace BPlusTree

/-- The bounds of the keys at the root page of the tree `tree33a`, with the
slots `(3, 1), (3, 2), (5, 4)` above the leaves `[1, 2]`, `[3, 4]` and
`[5]`. -/
theorem internal_keys_bound_subtrees_witness :
    (0 : page_id_t) ≤ 1 ∧ Reachable 3 3 1 tree33a ∧ TreeNode tree33a 3 ∧
    tree33a.pages 3 = some (.internal ⟨3, -1, 3, [(3, 1), (3, 2), (5, 4)]⟩) ∧
    (([(3, 1), (3, 2), (5, 4)] : List (KeyType × page_id_t)).tail.Pairwise
        (fun a b => a.1 < b.1) ∧
      ∀ (i : Nat) (e : KeyType × page_id_t) (x : KeyType),
        ([(3, 1), (3, 2), (5, 4)] : List (KeyType × page_id_t))[i]? = some e →
        SubtreeKey tree33a e.2 x →
        (0 < i → e.1 ≤ x) ∧
        (∀ e1, ([(3, 1), (3, 2), (5, 4)] : List (KeyType × page_id_t))[i + 1]? = some e1 →
          x < e1.1)) :=
  have hr : Reachable 3 3 1 tree33a :=
    Reachable.of_runCalls insert1to5 tree33 tree33a Reachable.init rfl
  have hn : TreeNode tree33a 3 := TreeNode.root (t := tree33a) rfl
  ⟨by decide, hr, hn, rfl,
    internal_keys_bound_subtrees 3 3 1 (by decide) tree33a hr 3
      ⟨3, -1, 3, [(3, 1), (3, 2), (5, 4)]⟩ hn rfl⟩

end BPlusTree

/-! ### Remove of a key that is not in the tree -/

namespace BPlusTree

end BPlusTree

/-! ### The index iterator over the leaf chain -/

namespace BPlusTree

/-- The iterator that `operator++` leaves when it moves off a leaf with the
next page id `p`. -/
def afterLeaf (p : page_id_t) : IndexIterator :=
  if p = INVALID_PAGE_ID then
    { page_id_ := INVALID_PAGE_ID, index_in_leaf_ := 0, page_null := true }
  else { page_id_ := p, index_in_leaf_ := 0, page_null := false }

theorem iterate_succ (t : BPlusTree) (fuel : Nat) (it : IndexIterator) :
    iterate t (fuel + 1) it =
      if it.equals t.End then .ok ([], it)
      else
        match it.deref t with
        | .error e => .error e
        | .ok kv =>
          match it.advance t with
          | .error e => .error e
          | .ok it1 =>
            match iterate t fuel it1 with
            | .error e => .error e
            | .ok (rest, last) => .ok (kv :: rest, last) := by
  rfl

/-- The loop of the client over the entries of one leaf, from the index `i`
on: it reads them in order and goes on with the next leaf. -/
theorem iterate_leaf {t : BPlusTree} {p : page_id_t} {l : LeafPage}
    (hp : p ≠ INVALID_PAGE_ID) (hl : t.pages p = some (.leaf l)) {f : Nat}
    {rest : List (KeyType × ValueType)} {last : IndexIterator}
    (hrest : iterate t f (afterLeaf l.next_page_id_) = .ok (rest, last)) :
    ∀ (n i : Nat), i + (n + 1) = l.array_.length →
      iterate t (n + 1 + f) { page_id_ := p, index_in_leaf_ := (i : Int), page_null := false } =
        .ok (l.array_.drop i ++ rest, last) := by
  have hfl : t.fetchLeaf p = .ok l := fetchLeaf_of_pages hl
  have hne : (IndexIterator.equals
      { page_id_ := p, index_in_leaf_ := 0, page_null := false } t.End) = false := by
    unfold IndexIterator.equals End IndexIterator.new
    exact beq_false_of_ne hp
  intro n
  induction n with
  | zero =>
    intro i hi
    have hlt : i < l.array_.length := by omega
    have hget : l.array_[i]? = some l.array_[i] := List.getElem?_eq_getElem hlt
    have hdrop : l.array_.drop i = [l.array_[i]] := by
      rw [List.drop_eq_getElem_cons hlt, List.drop_of_length_le (by omega)]
    have hd : IndexIterator.deref t
        { page_id_ := p, index_in_leaf_ := (i : Int), page_null := false } =
        .ok l.array_[i] := by
      unfold IndexIterator.deref
      simp only [Bool.false_eq_true, if_false, hfl]
      rw [if_neg (by omega)]
      simp only [Int.toNat_ofNat, hget]
    have ha : IndexIterator.advance t
        { page_id_ := p, index_in_leaf_ := (i : Int), page_null := false } =
        .ok (afterLeaf l.next_page_id_) := by
      unfold IndexIterator.advance afterLeaf
      simp only [Bool.false_eq_true, if_false, hfl]
      rw [if_neg (by omega)]
      split <;> rfl
    have he : (IndexIterator.equals
        { page_id_ := p, index_in_leaf_ := (i : Int), page_null := false } t.End) = false := hne
    rw [show 0 + 1 + f = f + 1 by omega, iterate_succ, he]
    simp only [Bool.false_eq_true, if_false, hd, ha, hrest, hdrop, List.singleton_append]
  | succ n ih =>
    intro i hi
    have hlt : i < l.array_.length := by omega
    have hget : l.array_[i]? = some l.array_[i] := List.getElem?_eq_getElem hlt
    have hdrop : l.array_.drop i = l.array_[i] :: l.array_.drop (i + 1) :=
      List.drop_eq_getElem_cons hlt
    have hd : IndexIterator.deref t
        { page_id_ := p, index_in_leaf_ := (i : Int), page_null := false } =
        .ok l.array_[i] := by
      unfold IndexIterator.deref
      simp only [Bool.false_eq_true, if_false, hfl]
      rw [if_neg (by omega)]
      simp only [Int.toNat_ofNat, hget]
    have ha : IndexIterator.advance t
        { page_id_ := p, index_in_leaf_ := (i : Int), page_null := false } =
        .ok { page_id_ := p, index_in_leaf_ := ((i + 1 : Nat) : Int), page_null := false } := by
      unfold IndexIterator.advance
      simp only [Bool.false_eq_true, if_false, hfl]
      rw [if_pos (by omega)]
      simp only [Nat.cast_add, Nat.cast_one]
    have he : (IndexIterator.equals
        { page_id_ := p, index_in_leaf_ := (i : Int), page_null := false } t.End) = false := hne
    rw [show n + 1 + 1 + f = (n + 1 + f) + 1 by omega, iterate_succ, he]
    simp only [Bool.false_eq_true, if_false, hd, ha, ih (i + 1) (by omega), hdrop,
      List.cons_append]

/-- The loop of the client along the chain of leaves, none of them empty: it
reads their entries in order and ends at the iterator with the page id
`INVALID_PAGE_ID`. -/
theorem iterate_chain {t : BPlusTree} {p : page_id_t} {ls : List LeafPage}
    (hc : ChainFrom t p ls) (hfull : ∀ l ∈ ls, l.array_ ≠ []) :
    ∀ (fuel : Nat), (ls.map (fun l => l.array_)).flatten.length < fuel →
      iterate t fuel (afterLeaf p) =
        .ok ((ls.map (fun l => l.array_)).flatten,
          { page_id_ := INVALID_PAGE_ID, index_in_leaf_ := 0, page_null := true }) := by
  induction hc with
  | nil =>
    intro fuel hf
    cases fuel with
    | zero => omega
    | succ f => rfl
  | @cons p l rest hp hl _ ih =>
    intro fuel hf
    simp only [List.map_cons, List.flatten_cons, List.length_append] at hf ⊢
    have hpos : 0 < l.array_.length :=
      List.length_pos.2 (hfull l (List.mem_cons_self _ _))
    obtain ⟨n, hn⟩ : ∃ n, l.array_.length = n + 1 := ⟨l.array_.length - 1, by omega⟩
    obtain ⟨f, hfe⟩ : ∃ f, fuel = n + 1 + f := ⟨fuel - (n + 1), by omega⟩
    have hrest := ih (fun x hx => hfull x (List.mem_cons_of_mem _ hx)) f (by omega)
    have := iterate_leaf hp hl hrest n 0 (by omega)
    rw [hfe]
    have hstart : afterLeaf p = IndexIterator.mk p ((0 : Nat) : Int) false := by
      unfold afterLeaf
      rw [if_neg hp]
      rfl
    rw [hstart, this, List.drop_zero]

end BPlusTree

namespace BPlusTree

/-- In a tree with the invariant that is not empty, `Begin()` returns the
iterator at index 0 of the leaf where the chain of leaves starts. -/
theorem Inv.Begin_spec {t : BPlusTree} {g : Ghost} (h : Inv t g) (hne : t.IsEmpty = false)
    {ls : List LeafPage} (hls : t.chainLeaves = .ok ls) :
    ∃ q, q ≠ INVALID_PAGE_ID ∧ ChainFrom t q ls ∧
      t.Begin = .ok { page_id_ := q, index_in_leaf_ := 0, page_null := false } := by
  obtain ⟨hSr, _, _, _⟩ := h.root_ok hne
  obtain ⟨q, hq, hSq, hLq, _⟩ := InvG.leftmost_ok h t.fuel t.root_page_id_ hSr (by
    have := (h.node _ hSr).ht_lt
    unfold fuel; omega)
  unfold chainLeaves at hls
  simp only [hne, hq, Bool.false_eq_true, if_false] at hls
  obtain ⟨pg, hpg, hid⟩ := (h.node q hSq).page
  refine ⟨q, InvG.ne_invalid h hSq, leafChain_chain t _ _ _ hls, ?_⟩
  unfold Begin fetch
  simp only [hq, hpg, hid]
  rfl

/-- The scan of a tree that is not empty: for every tree state reached from
the empty tree by calls of `Insert` and `Remove` that return without fetching
a page id that is no page of the tree, not empty and with no empty leaf:
`Begin()` returns an iterator, and the loop that reads `*it` and advances with `++` until the
iterator compares equal to `End()` yields exactly the entries of the leaves
in the order of the `next_page_id_` chain from the leftmost leaf, each entry
once; the iterator it ends with satisfies `IsEnd()` and compares equal to
`End()`. -/
theorem Begin_scan_yields_leaf_entries (leaf_max_size internal_max_size : Nat)
    (first_page_id : page_id_t) (h0 : 0 ≤ first_page_id) (t : BPlusTree)
    (hr : Reachable leaf_max_size internal_max_size first_page_id t)
    (hne : t.IsEmpty = false) (ls : List LeafPage) (hls : t.chainLeaves = .ok ls)
    (hfull : ∀ l ∈ ls, l.array_ ≠ []) :
    ∃ it last, t.Begin = .ok it ∧
      (∀ fuel, (ls.map (fun l => l.array_)).flatten.length < fuel →
        t.iterate fuel it = .ok ((ls.map (fun l => l.array_)).flatten, last)) ∧
      last.IsEnd = true ∧ last.equals t.End = true := by
  obtain ⟨g, hg⟩ := Reachable.tree_inv h0 hr
  obtain ⟨q, hq, hch, hb⟩ := hg.Begin_spec hne hls
  refine ⟨_, { page_id_ := INVALID_PAGE_ID, index_in_leaf_ := 0, page_null := true }, hb,
    ?_, rfl, rfl⟩
  intro fuel hf
  have := iterate_chain hch hfull fuel hf
  unfold afterLeaf at this
  rw [if_neg hq] at this
  exact this

/-- The scan of the tree `tree33a`, which holds the keys 1 to 5 in the leaves
`[1, 2]`, `[3, 4]` and `[5]`, yields the entries with the keys 1, 2, 3, 4, 5. -/
theorem Begin_scan_yields_leaf_entries_witness :
    (0 : page_id_t) ≤ 1 ∧ Reachable 3 3 1 tree33a ∧
    tree33a.chainLeaves = .ok [⟨1, 3, 3, 2, [(1, 10), (2, 20)]⟩,
      ⟨2, 3, 3, 4, [(3, 30), (4, 40)]⟩, ⟨4, 3, 3, -1, [(5, 50)]⟩] ∧
    ∃ it last, tree33a.Begin = .ok it ∧
      (∀ fuel, 5 < fuel →
        tree33a.iterate fuel it =
          .ok ([(1, 10), (2, 20), (3, 30), (4, 40), (5, 50)], last)) ∧
      last.IsEnd = true ∧ last.equals tree33a.End = true :=
  have hr : Reachable 3 3 1 tree33a :=
    Reachable.of_runCalls insert1to5 tree33 tree33a Reachable.init rfl
  ⟨by decide, hr, rfl,
    Begin_scan_yields_leaf_entries 3 3 1 (by decide) tree33a hr rfl
      [⟨1, 3, 3, 2, [(1, 10), (2, 20)]⟩, ⟨2, 3, 3, 4, [(3, 30), (4, 40)]⟩,
        ⟨4, 3, 3, -1, [(5, 50)]⟩] rfl (by
        intro l hl
        simp only [List.mem_cons, List.mem_singleton, List.not_mem_nil, or_false] at hl
        rcases hl with h | h | h <;> subst h <;> simp)⟩

end BPlusTree

namespace BPlusTree

/-- The tree `tree33` after `Insert(10, 100)` and `Insert(20, 200)`: the root
is the leaf page 1 with the keys 10 and 20. -/
def tree33g : BPlusTree :=
  match tree33.runCalls [(10, some 100), (20, some 200)] with
  | .ok t => t
  | .error _ => tree33

/-- C29, the code at the failing input.  In the tree with the one leaf
`[10, 20]`, `Begin(20)` is positioned at the entry with the key 20, but
`Begin(15)`, for the absent key 15, is positioned at index 0 of the leaf: the
iterator reads the key 10, which is below 15, and the scan from it to `End()`
yields the keys 10 and 20. -/
theorem BeginAt_absent_key_starts_at_front :
    Reachable 3 3 1 tree33g ∧ tree33g.IsEmpty = false ∧
    tree33g.pages 1 = some (.leaf ⟨1, -1, 3, -1, [(10, 100), (20, 200)]⟩) ∧
    tree33g.BeginAt 20 = .ok ⟨1, 1, false⟩ ∧
    IndexIterator.deref tree33g ⟨1, 1, false⟩ = .ok (20, 200) ∧
    tree33g.BeginAt 15 = .ok ⟨1, 0, false⟩ ∧
    IndexIterator.deref tree33g ⟨1, 0, false⟩ = .ok (10, 100) ∧
    tree33g.iterate 3 ⟨1, 0, false⟩ = .ok ([(10, 100), (20, 200)], ⟨-1, 0, true⟩) :=
  ⟨Reachable.of_runCalls [(10, some 100), (20, some 200)] tree33 tree33g Reachable.init rfl,
    rfl, rfl, rfl, rfl, rfl, rfl, rfl⟩

end BPlusTree

/-! ### The pins that Insert and the index iterator take and give back -/

namespace BPlusTree
/-- The tree `tree33` after `Insert(1, 10)`: the root is the leaf page 1 with
the key 1. -/
def tree33h : BPlusTree :=
  match tree33.Insert 1 10 with
  | .ok (t, _) => t
  | .error _ => tree33
end BPlusTree

namespace BPlusTree

/-- A pool of eight frames with an LRU-2 replacer over an all-zero disk, after
the client has allocated the header page, page 0, and unpinned it. -/
def pool8 : BufferPoolManagerInstance Nat :=
  ((BufferPoolManagerInstance.new 8 2 (fun _ => 0)).runOps
    [.newPage, .unpinPage HEADER_PAGE_ID true]).getD (BufferPoolManagerInstance.new 8 2 (fun _ => 0))

/-- The pin count of a page after a sequence of calls of the tree on the pool
`pool8`. -/
def pinAfter (calls : Except TreeError (List (BufferPoolManagerInstance.Op Nat)))
    (page_id : page_id_t) : Option Nat :=
  match calls with
  | .error _ => none
  | .ok l =>
    match pool8.runOps l with
    | none => none
    | some s => pinCountOf s page_id

end BPlusTree

namespace BPlusTree

/-- C23, the code at two failing inputs.  In the tree with the root leaf
`[1]`, on a pool where another holder has the leaf page 1 pinned once,
`Insert(2, 20)` fetches the leaf once and unpins it twice, first by
`UnpinPage` and then in `ReleaseWLatches`: the pin count of page 1 is 1
before the call and 0 after it.  In the tree with the keys 1 to 6,
`Insert(7, 70)` splits the leaf page 4 and the root page 3: page 3 is fetched
by `GetLeafPage` and again by the loop of `Insert` and is unpinned once, in
`ReleaseWLatches`, so its pin count is 0 before the call and 1 after it. -/
theorem Insert_changes_pin_counts :
    tree33.Insert 1 10 = .ok (tree33h, true) ∧
    (InsertsCalls tree33 [(1, 10)] : Except TreeError (List (BufferPoolManagerInstance.Op Nat))) =
      .ok [.newPage, .fetchPage 0, .unpinPage 0 true, .unpinPage 1 true] ∧
    (InsertCalls tree33h 2 20 : Except TreeError (List (BufferPoolManagerInstance.Op Nat))) =
      .ok [.fetchPage 1, .unpinPage 1 true, .unpinPage 1 true] ∧
    pinAfter (.ok [.newPage, .fetchPage 0, .unpinPage 0 true, .unpinPage 1 true,
      .fetchPage 1]) 1 = some 1 ∧
    pinAfter (.ok [.newPage, .fetchPage 0, .unpinPage 0 true, .unpinPage 1 true,
      .fetchPage 1, .fetchPage 1, .unpinPage 1 true, .unpinPage 1 true]) 1 = some 0 ∧
    tree33.runCalls (insert1to5 ++ [(6, some 60)]) = .ok tree33d ∧
    (InsertCalls tree33d 7 70 : Except TreeError (List (BufferPoolManagerInstance.Op Nat))) =
      .ok [.fetchPage 3, .fetchPage 4, .newPage, .fetchPage 3, .newPage, .fetchPage 4,
        .unpinPage 4 true, .fetchPage 5, .unpinPage 5 true, .unpinPage 5 true, .newPage,
        .fetchPage 0, .unpinPage 0 true, .unpinPage 7 true, .unpinPage 6 true,
        .unpinPage 3 true, .unpinPage 4 true] ∧
    pinAfter (InsertsCalls tree33 [(1, 10), (2, 20), (3, 30), (4, 40), (5, 50), (6, 60)]) 3
      = some 0 ∧
    pinAfter (InsertsCalls tree33
      [(1, 10), (2, 20), (3, 30), (4, 40), (5, 50), (6, 60), (7, 70)]) 3 = some 1 :=
  ⟨rfl, rfl, rfl, rfl, rfl, rfl, rfl, rfl, rfl⟩

/-- C28, the code at the failing input.  In the tree with the root leaf `[1]`
on a pool where no page is pinned: `Begin()` fetches the leaf page 1 twice,
in its loop and in the constructor of the iterator, so the iterator stands
for two pins; `++` from the last entry unpins the leaf once, so the iterator
past the last entry leaves the leaf pinned; and `End()` fetches
`INVALID_PAGE_ID`, which takes a frame of the pool and pins it.  In the tree
with the keys 1 to 5, `++` from the last entry of the leaf page 1 fetches the
next leaf, page 2, and unpins page 1, which stays pinned once. -/
theorem Begin_pins_leaf_twice :
    (BeginCalls tree33h tree33h.fuel tree33h.root_page_id_ :
      Except TreeError (List (BufferPoolManagerInstance.Op Nat))) =
      .ok [.fetchPage 1, .fetchPage 1] ∧
    tree33h.Begin = .ok ⟨1, 0, false⟩ ∧
    pinAfter (.ok [.newPage, .fetchPage 0, .unpinPage 0 true, .unpinPage 1 true]) 1 = some 0 ∧
    pinAfter (.ok [.newPage, .fetchPage 0, .unpinPage 0 true, .unpinPage 1 true,
      .fetchPage 1, .fetchPage 1]) 1 = some 2 ∧
    IndexIterator.advance tree33h ⟨1, 0, false⟩ = .ok ⟨-1, 0, true⟩ ∧
    (IndexIterator.advanceCalls tree33h ⟨1, 0, false⟩ :
      Except TreeError (List (BufferPoolManagerInstance.Op Nat))) = .ok [.unpinPage 1 false] ∧
    pinAfter (.ok [.newPage, .fetchPage 0, .unpinPage 0 true, .unpinPage 1 true,
      .fetchPage 1, .fetchPage 1, .unpinPage 1 false]) 1 = some 1 ∧
    (EndCalls : List (BufferPoolManagerInstance.Op Nat)) = [.fetchPage INVALID_PAGE_ID] ∧
    pinAfter (.ok [.newPage, .fetchPage 0, .unpinPage 0 true, .unpinPage 1 true])
      INVALID_PAGE_ID = none ∧
    pinAfter (.ok [.newPage, .fetchPage 0, .unpinPage 0 true, .unpinPage 1 true,
      .fetchPage INVALID_PAGE_ID]) INVALID_PAGE_ID = some 1 ∧
    (BeginCalls tree33a tree33a.fuel tree33a.root_page_id_ :
      Except TreeError (List (BufferPoolManagerInstance.Op Nat))) =
      .ok [.fetchPage 3, .unpinPage 3 false, .fetchPage 1, .fetchPage 1] ∧
    (IndexIterator.advanceCalls tree33a ⟨1, 1, false⟩ :
      Except TreeError (List (BufferPoolManagerInstance.Op Nat))) =
      .ok [.fetchPage 2, .unpinPage 1 false] ∧
    pinAfter ((InsertsCalls tree33 [(1, 10), (2, 20), (3, 30), (4, 40), (5, 50)]).map
      (fun calls => calls ++ [.fetchPage 3, .unpinPage 3 false, .fetchPage 1, .fetchPage 1,
        .fetchPage 2, .unpinPage 1 false])) 1 = some 1 :=
  ⟨rfl, rfl, rfl, rfl, rfl, rfl, rfl, rfl, rfl, rfl, rfl, rfl, rfl⟩

end BPlusTree

/-! ### The sizes of the pages of the B+ tree -/

namespace BPlusTree

end BPlusTree

/-! ### The test `IsSafePage` -/

namespace BPlusTree

/-- C33, the code at the failing input.  For `Operation::Insert` the test is
as stated: a leaf is safe when `size < max_size - 1`, an internal page when
`size < max_size`; and for `Operation::Delete` on the root page a leaf is safe
when `size > 1`, an internal page when `size > 2`.  For `Operation::Delete` on
a page that is not the root the function returns `GetMinSize()` as a `bool`:
the size of the page is not looked at.  In the tree reached with
`leaf_max_size = 3` by the inserts of 1 .. 5 the leaf page 4 is not the root
and holds 1 entry, fewer than `GetMinSize()`, and `IsSafePage` returns true
for it. -/
theorem IsSafePage_Delete_ignores_size :
    (∀ page : TreePage, IsSafePage page .Insert = true ↔
      (page.IsLeafPage = true ∧ (page.GetSize : Int) < (page.GetMaxSize : Int) - 1) ∨
      (page.IsLeafPage = false ∧ page.GetSize < page.GetMaxSize)) ∧
    (∀ page : TreePage, page.IsRootPage = true → (IsSafePage page .Delete = true ↔
      (page.IsLeafPage = true ∧ 1 < page.GetSize) ∨
      (page.IsLeafPage = false ∧ 2 < page.GetSize))) ∧
    (∀ page : TreePage, page.IsRootPage = false →
      IsSafePage page .Delete = decide (page.GetMinSize ≠ 0)) ∧
    Reachable 3 3 1 tree33a ∧
    tree33a.pages 4 = some (.leaf ⟨4, 3, 3, -1, [(5, 50)]⟩) ∧
    (TreePage.leaf ⟨4, 3, 3, -1, [(5, 50)]⟩).IsRootPage = false ∧
    (TreePage.leaf ⟨4, 3, 3, -1, [(5, 50)]⟩).GetSize = 1 ∧
    (TreePage.leaf ⟨4, 3, 3, -1, [(5, 50)]⟩).GetMinSize = 2 ∧
    IsSafePage (TreePage.leaf ⟨4, 3, 3, -1, [(5, 50)]⟩) .Delete = true := by
  refine ⟨?_, ?_, ?_,
    Reachable.of_runCalls insert1to5 tree33 tree33a Reachable.init rfl, rfl, rfl, rfl, rfl, rfl⟩
  · intro page
    unfold IsSafePage
    cases hl : page.IsLeafPage
    · simp
    · simp
  · intro page hr
    unfold IsSafePage
    rw [hr]
    cases hl : page.IsLeafPage
    · simp
    · simp
  · intro page hr
    unfold IsSafePage
    rw [hr]
    simp

end BPlusTree

/-! ### Equality of index iterators -/

namespace BPlusTree

/-- C38, as the code has it: two index iterators compare equal under `==` if
and only if they have the same leaf page id; the index within the leaf is not
compared.  The operator `!=` is the negation of `==`. -/
theorem iterator_equality_compares_page_ids (it itr : IndexIterator) :
    (it.equals itr = true ↔ it.page_id_ = itr.page_id_) ∧
    it.notEquals itr = !it.equals itr := by
  unfold IndexIterator.equals IndexIterator.notEquals
  exact ⟨beq_iff_eq, rfl⟩

/-- C38 as stated fails.  In the tree with the one leaf `[10, 20]`, `Begin()`
is the iterator at index 0 of the leaf page 1 and reads the key 10; `++` takes
it to index 1 of the same leaf, where it reads the key 20.  The two iterators
are at different entries of one leaf, and `==` returns true for them, `!=`
false. -/
theorem iterators_at_different_entries_compare_equal :
    Reachable 3 3 1 tree33g ∧
    tree33g.Begin = .ok ⟨1, 0, false⟩ ∧
    IndexIterator.advance tree33g ⟨1, 0, false⟩ = .ok ⟨1, 1, false⟩ ∧
    IndexIterator.deref tree33g ⟨1, 0, false⟩ = .ok (10, 100) ∧
    IndexIterator.deref tree33g ⟨1, 1, false⟩ = .ok (20, 200) ∧
    (⟨1, 0, false⟩ : IndexIterator).index_in_leaf_ ≠ (⟨1, 1, false⟩ : IndexIterator).index_in_leaf_ ∧
    IndexIterator.equals ⟨1, 0, false⟩ ⟨1, 1, false⟩ = true ∧
    IndexIterator.notEquals ⟨1, 0, false⟩ ⟨1, 1, false⟩ = false :=
  ⟨Reachable.of_runCalls [(10, some 100), (20, some 200)] tree33 tree33g Reachable.init rfl,
    rfl, rfl, rfl, rfl, by decide, rfl, rfl⟩

end BPlusTree

/-! ### The root latch in `GetValue` -/

namespace BPlusTree

/-- C35, the code at the failing input.  `GetValue` calls `RLock` on
`root_latch_` twice.  On a tree that is not empty, where `GetLeafPage`
returns, the latch is released twice, once by `GetLeafPage` and once before
`return ret`, and the reader count is what it was.  On the empty tree the only
release is the `RUnlock` before `return false`: the reader count is one above
what it was, for every latch that no writer holds; from the free latch it is
1 after `GetValue(1)` on the empty tree `tree33`, and the `WLock` that a
following `Insert` or `Remove` starts with cannot go through. -/
theorem GetValue_on_empty_tree_keeps_root_latch :
    (∀ (t : BPlusTree) (key : KeyType) (ops : List LatchOp) (l : RootLatch),
      t.IsEmpty = false → t.GetValueLatchOps key = .ok ops → l.writer = false →
      l.run ops = some l) ∧
    (∀ (t : BPlusTree) (key : KeyType) (l : RootLatch), t.IsEmpty = true → l.writer = false →
      ∃ ops, t.GetValueLatchOps key = .ok ops ∧
        l.run ops = some { l with readers := l.readers + 1 }) ∧
    tree33.IsEmpty = true ∧
    tree33.GetValue 1 = .ok (false, []) ∧
    tree33.GetValueLatchOps 1 = .ok [.rLock, .rLock, .rUnlock] ∧
    RootLatch.run ⟨0, false⟩ [.rLock, .rLock, .rUnlock] = some ⟨1, false⟩ ∧
    RootLatch.apply ⟨1, false⟩ .wLock = none := by
  refine ⟨?_, ?_, rfl, rfl, rfl, rfl, rfl⟩
  · intro t key ops l hne hops hw
    unfold GetValueLatchOps at hops
    rw [hne] at hops
    simp only [Bool.false_eq_true, if_false] at hops
    unfold GetLeafPageReadLatchOps at hops
    split at hops
    · exact absurd hops (by simp)
    · rename_i ops1 h1
      split at h1
      · exact absurd h1 (by simp)
      · injection h1 with h1
        injection hops with hops
        subst h1
        subst hops
        obtain ⟨n, w⟩ := l
        have hw : w = false := hw
        subst hw
        simp [RootLatch.run, RootLatch.apply]
  · intro t key l he hw
    refine ⟨[.rLock, .rLock, .rUnlock], ?_, ?_⟩
    · unfold GetValueLatchOps
      rw [he]
      rfl
    · obtain ⟨n, w⟩ := l
      have hw : w = false := hw
      subst hw
      simp [RootLatch.run, RootLatch.apply]

end BPlusTree

/-! ### The assertion of the leaf `Insert` -/

namespace BPlusTree

/-- C39, the code at the failing input.  With `leaf_max_size = 3` and
`internal_max_size = 3` the inserts of 1 .. 5 return and `Remove(2)` returns:
it merges the leaf `[1]` with its right sibling `[3, 4]`.  The leaf page 1 of
the tree then holds 3 entries, as many as `leaf_max_size`, so the leaf
`Insert` called on it fails the assertion "leaf page is out of size", and
`Insert(0, 7)` of the tree, which reaches that leaf, ends in the failed
assertion. -/
theorem merged_leaf_fills_to_max_size :
    Reachable 3 3 1 tree33b ∧
    tree33a.Remove 2 = .ok tree33b ∧
    tree33b.leaf_max_size_ = 3 ∧
    TreeNode tree33b 1 ∧
    tree33b.pages 1 = some (.leaf ⟨1, 3, 3, 4, [(1, 10), (3, 30), (4, 40)]⟩) ∧
    ¬ ((TreePage.leaf ⟨1, 3, 3, 4, [(1, 10), (3, 30), (4, 40)]⟩).GetSize <
      tree33b.leaf_max_size_) ∧
    tree33b.GetLeafPage 0 = .ok 1 ∧
    LeafPage.Insert ⟨1, 3, 3, 4, [(1, 10), (3, 30), (4, 40)]⟩ 0 7 = .error .leafOutOfSize ∧
    tree33b.Insert 0 7 = .error .leafOutOfSize :=
  have hra : Reachable 3 3 1 tree33a :=
    Reachable.of_runCalls insert1to5 tree33 tree33a Reachable.init rfl
  have hrm : tree33a.Remove 2 = .ok tree33b := rfl
  have hroot : TreeNode tree33b 3 := TreeNode.root (t := tree33b) rfl
  have hpg : tree33b.pages 3 = some (.internal ⟨3, -1, 3, [(3, 1), (5, 4)]⟩) := rfl
  ⟨Reachable.remove hra hrm, hrm, rfl,
    TreeNode.child (e := ((3 : KeyType), (1 : page_id_t))) hroot hpg (List.mem_cons_self _ _),
    rfl, by decide, rfl, rfl, rfl⟩

end BPlusTree

/-! ### The slots that the leaf `Insert` reads and writes -/

namespace BPlusTree

/-- The tree `tree33` after `Insert(5, 50)`: the root is the leaf page 1 with
the one key 5. -/
def tree33i : BPlusTree :=
  match tree33.Insert 5 50 with
  | .ok (t, _) => t
  | .error _ => tree33

/-- The shifting loop of the leaf `Insert`, run with `index = 0`, reads the
slot `-1` in its last round. -/
theorem shiftLoop_zero_reads_before (n : Nat) :
    ((-1 : Int), (0 : Int)) ∈ LeafPage.shiftLoop 0 (n + 1) (n : Int) := by
  induction n with
  | zero =>
    unfold LeafPage.shiftLoop
    simp
  | succ k ih =>
    unfold LeafPage.shiftLoop
    have h0 : (0 : Int) ≤ ((k + 1 : Nat) : Int) := Int.ofNat_nonneg _
    rw [if_pos h0]
    have hk : ((k + 1 : Nat) : Int) - 1 = (k : Int) := by
      push_cast
      ring
    rw [hk]
    exact List.mem_cons_of_mem _ ih

/-- The leaf `Insert` of a key that is not stored and goes to the front reads
the slot `-1`. -/
theorem InsertAccess_front (p : LeafPage) (key : KeyType) (hlt : p.array_.length < p.max_size_)
    (hk : LeafPage.hasKey p.array_ key = false) (hi : LeafPage.insertIndex key p.array_ = 0) :
    ∃ reads writes, p.InsertAccess key = .ok (reads, writes) ∧ (-1 : Int) ∈ reads := by
  have h : p.InsertAccess key = .ok
      (LeafPage.eqScanReads key p.array_ 0 ++ LeafPage.ltScanReads key p.array_ 0 ++
        (LeafPage.shiftLoop (LeafPage.insertIndex key p.array_) (p.array_.length + 1)
          p.array_.length).map Prod.fst,
       (LeafPage.shiftLoop (LeafPage.insertIndex key p.array_) (p.array_.length + 1)
          p.array_.length).map Prod.snd ++ [(LeafPage.insertIndex key p.array_ : Int)]) := by
    unfold LeafPage.InsertAccess
    rw [if_pos hlt, hk]
    rfl
  refine ⟨_, _, h, ?_⟩
  rw [hi]
  refine List.mem_append_right _ (List.mem_map.2 ⟨(-1, 0), ?_, rfl⟩)
  exact shiftLoop_zero_reads_before p.array_.length

/-- C40, the code at the failing input.  The leaf `[5]` with `max_size = 3`
is sorted, has no key twice and has room.  The leaf `Insert` of the key 1,
which is below every stored key, puts the entry at the front and gives the
sorted leaf `[1, 5]`; its shifting loop
`for (int i = GetSize(); i >= index; i--) array_[i] = array_[i - 1];` runs
with `index = 0` down to `i = 0`, and the last round reads `array_[-1]`: the
slots read are 0, 0, 0 and -1.  The slots written are 1, 0 and 0, all in
`[0, size]`.  The insertion of the key 7 at the end of the same leaf reads
the slot 0 only.  For every leaf with room, the insertion of a key that is
not stored and goes to the front reads the slot -1. -/
theorem leaf_Insert_at_front_reads_slot_before_array :
    (∀ (p : LeafPage) (key : KeyType), p.array_.length < p.max_size_ →
      LeafPage.hasKey p.array_ key = false → LeafPage.insertIndex key p.array_ = 0 →
      ∃ reads writes, p.InsertAccess key = .ok (reads, writes) ∧ (-1 : Int) ∈ reads) ∧
    Reachable 3 3 1 tree33i ∧
    tree33i.pages 1 = some (.leaf ⟨1, -1, 3, -1, [(5, 50)]⟩) ∧
    tree33i.GetLeafPage 1 = .ok 1 ∧
    LeafPage.Insert ⟨1, -1, 3, -1, [(5, 50)]⟩ 1 10 = .ok ⟨1, -1, 3, -1, [(1, 10), (5, 50)]⟩ ∧
    LeafPage.InsertAccess ⟨1, -1, 3, -1, [(5, 50)]⟩ 1 = .ok ([0, 0, 0, -1], [1, 0, 0]) ∧
    (-1 : Int) ∈ ([0, 0, 0, -1] : List Int) ∧ ¬ ((0 : Int) ≤ -1) ∧
    LeafPage.InsertAccess ⟨1, -1, 3, -1, [(5, 50)]⟩ 7 = .ok ([0, 0, 0], [1, 1]) :=
  ⟨InsertAccess_front,
    Reachable.insert Reachable.init (rfl : tree33.Insert 5 50 = .ok (tree33i, true)),
    rfl, rfl, rfl, rfl, by decide, by decide, rfl⟩

end BPlusTree

/-! ### `NewPage` and `FetchPage` that return null -/

namespace BufferPoolManagerInstance

variable {D : Type}

theorem acquireFrame_next_id (s s1 : BufferPoolManagerInstance D) (o : Option frame_id_t)
    (h : acquireFrame s = some (s1, o)) : s1.next_page_id_ = s.next_page_id_ := by
  unfold acquireFrame at h
  split at h
  · injection h with h
    injection h with h _
    rw [← h]
  · split at h
    · rename_i r f _
      unfold evictFrame at h
      split at h
      · simp at h
      · simp only [Option.map_some', Option.some.injEq, Prod.mk.injEq] at h
        rw [← h.1]
    · injection h with h
      injection h with h _
      rw [← h]

/-- A `NewPage` that returns null leaves the pool as it was. -/
theorem NewPgImp_null_same [Zero D] (s s1 : BufferPoolManagerInstance D)
    (h : NewPgImp s = some (s1, none)) : s1 = s := by
  unfold NewPgImp at h
  split at h
  · simp at h
  · injection h with h
    injection h with h _
    exact h.symm
  · split at h
    · split at h
      · simp at h
      · simp at h
    · simp at h

/-- A `FetchPage` that returns null leaves the pool as it was. -/
theorem FetchPgImp_null_same [Zero D] (s s1 : BufferPoolManagerInstance D) (p : page_id_t)
    (h : FetchPgImp s p = some (s1, none)) : s1 = s := by
  unfold FetchPgImp at h
  split at h
  · split at h
    · simp at h
    · split at h
      · simp at h
      · simp at h
  · split at h
    · simp at h
    · injection h with h
      injection h with h _
      exact h.symm
    · split at h
      · split at h
        · simp at h
        · simp at h
      · simp at h

/-- A `NewPage` that returns a page hands out the next page id and moves the
counter on by one. -/
theorem NewPgImp_some_id [Zero D] (s s1 : BufferPoolManagerInstance D) (pid : page_id_t)
    (f : frame_id_t) (h : NewPgImp s = some (s1, some (pid, f))) :
    pid = s.next_page_id_ ∧ s1.next_page_id_ = s.next_page_id_ + 1 := by
  unfold NewPgImp at h
  split at h
  · simp at h
  · simp at h
  · rename_i s2 f2 hacq
    have hn := acquireFrame_next_id s s2 _ hacq
    split at h
    · split at h
      · simp at h
      · simp only [Option.some.injEq, Prod.mk.injEq] at h
        obtain ⟨h1, h2, _⟩ := h
        rw [← h1, ← h2]
        exact ⟨hn, by rw [hn]⟩
    · simp at h

theorem flushFrom_next_id (n : Nat) :
    ∀ (s s1 : BufferPoolManagerInstance D) (i : Nat), flushFrom s i n = some s1 →
      s1.next_page_id_ = s.next_page_id_ := by
  induction n with
  | zero =>
    intro s s1 i h
    unfold flushFrom at h
    injection h with h
    rw [← h]
  | succ n ih =>
    intro s s1 i h
    unfold flushFrom at h
    split at h
    · simp at h
    · split at h
      · simp at h
      · rename_i s2 b hf
        rw [ih s2 s1 (i + 1) h]
        unfold FlushPgImp at hf
        split at hf
        · injection hf with hf
          injection hf with hf _
          rw [← hf]
        · split at hf
          · simp at hf
          · injection hf with hf
            injection hf with hf _
            rw [← hf]

/-- Every call other than `NewPage` leaves the page-id counter as it was. -/
theorem applyOp_next_id [Zero D] (s s1 : BufferPoolManagerInstance D) (op : Op D)
    (hop : op ≠ .newPage) (h : applyOp s op = some s1) :
    s1.next_page_id_ = s.next_page_id_ := by
  cases op with
  | newPage => exact absurd rfl hop
  | fetchPage p =>
    simp only [applyOp, Option.map_eq_some', Prod.exists, exists_and_right, exists_eq_right] at h
    obtain ⟨o, h⟩ := h
    unfold FetchPgImp at h
    split at h
    · split at h
      · simp at h
      · split at h
        · simp at h
        · injection h with h
          injection h with h _
          rw [← h]
    · split at h
      · simp at h
      · injection h with h
        injection h with h _
        rw [← h]
      · rename_i s2 f2 hacq
        have hn := acquireFrame_next_id s s2 _ hacq
        split at h
        · split at h
          · simp at h
          · injection h with h
            injection h with h _
            rw [← h]
            exact hn
        · simp at h
  | unpinPage p d =>
    simp only [applyOp, Option.map_eq_some', Prod.exists, exists_and_right, exists_eq_right] at h
    obtain ⟨o, h⟩ := h
    unfold UnpinPgImp at h
    split at h
    · injection h with h
      injection h with h _
      rw [← h]
    · split at h
      · simp at h
      · split at h
        · injection h with h
          injection h with h _
          rw [← h]
        · injection h with h
          injection h with h _
          rw [← h]
  | flushPage p =>
    simp only [applyOp, Option.map_eq_some', Prod.exists, exists_and_right, exists_eq_right] at h
    obtain ⟨o, h⟩ := h
    unfold FlushPgImp at h
    split at h
    · injection h with h
      injection h with h _
      rw [← h]
    · split at h
      · simp at h
      · injection h with h
        injection h with h _
        rw [← h]
  | flushAllPages =>
    exact flushFrom_next_id _ s s1 0 h
  | deletePage p =>
    simp only [applyOp, Option.map_eq_some', Prod.exists, exists_and_right, exists_eq_right] at h
    obtain ⟨o, h⟩ := h
    unfold DeletePgImp at h
    split at h
    · injection h with h
      injection h with h _
      rw [← h]
    · split at h
      · simp at h
      · split at h
        · injection h with h
          injection h with h _
          rw [← h]
        · injection h with h
          injection h with h _
          rw [← h]
  | write f d =>
    simp only [applyOp] at h
    unfold writeData at h
    split at h
    · simp at h
    · injection h with h
      rw [← h]

/-- The page ids handed out in a sequence of calls are the ids from the
counter on, without gaps. -/
theorem newPageIds_consecutive [Zero D] :
    ∀ (ops : List (Op D)) (s : BufferPoolManagerInstance D),
      newPageIds s ops =
        (List.range (newPageIds s ops).length).map (fun (i : Nat) => s.next_page_id_ + (i : Int)) := by
  intro ops
  induction ops with
  | nil => intro s; rfl
  | cons op rest ih =>
    intro s
    by_cases hop : op = .newPage
    · subst hop
      unfold newPageIds
      split
      · rfl
      · rename_i s1 h
        have := NewPgImp_null_same s s1 h
        subst this
        exact ih s1
      · rename_i s1 pid f h
        obtain ⟨h1, h2⟩ := NewPgImp_some_id s s1 pid f h
        rw [List.length_cons, List.range_succ_eq_map, List.map_cons, List.map_map]
        have := ih s1
        rw [h2] at this
        rw [h1]
        congr 1
        · simp
        · rw [this]
          simp only [List.length_map, List.length_range]
          apply List.map_congr_left
          intro i _
          simp only [Function.comp_apply, Nat.succ_eq_add_one, Nat.cast_add, Nat.cast_one]
          ring
    · have hun : newPageIds s (op :: rest) =
          match applyOp s op with
          | none => []
          | some s1 => newPageIds s1 rest := by
        cases op with
        | newPage => exact absurd rfl hop
        | fetchPage p => rfl
        | unpinPage p d => rfl
        | flushPage p => rfl
        | flushAllPages => rfl
        | deletePage p => rfl
        | write f d => rfl
      rw [hun]
      split
      · rfl
      · rename_i s1 h
        have := applyOp_next_id s s1 op hop h
        rw [← this]
        exact ih s1

/-- C36: whenever `NewPage` or `FetchPage` returns null, the whole pool state
is exactly what it was before the call: page table, free list, frames,
replacer, disk and the next page id to allocate.  So a failed `NewPage` does
not consume a page id: in every run of calls the successful `NewPage` calls
hand out the ids from the counter on without gaps, and from the new pool
these are 0, 1, 2, ...; this is stated for the runs whose ids stay within
the 32-bit `page_id_t` of the source (the counter starts at `-2^31` or above
and does not pass `2^31`), beyond which the counter of the source wraps. -/
theorem null_return_keeps_pool_state [Zero D] (s s1 : BufferPoolManagerInstance D)
    (p : page_id_t)
    (h : NewPgImp s = some (s1, none) ∨ FetchPgImp s p = some (s1, none)) :
    s1 = s ∧
    (∀ ops : List (Op D), -2147483648 ≤ s.next_page_id_ →
      s.next_page_id_ + ((newPageIds s1 ops).length : Int) ≤ 2147483648 →
      newPageIds s1 ops =
        (List.range (newPageIds s1 ops).length).map
          (fun (i : Nat) => s.next_page_id_ + (i : Int))) ∧
    (∀ (n k : Nat) (d : page_id_t → D) (ops : List (Op D)),
      ((newPageIds (BufferPoolManagerInstance.new n k d) ops).length : Int) ≤ 2147483648 →
      newPageIds (BufferPoolManagerInstance.new n k d) ops =
        (List.range (newPageIds (BufferPoolManagerInstance.new n k d) ops).length).map
          (fun (i : Nat) => (i : Int))) := by
  have hs : s1 = s := by
    rcases h with h | h
    · exact NewPgImp_null_same s s1 h
    · exact FetchPgImp_null_same s s1 p h
  subst hs
  refine ⟨rfl, fun ops _ _ => newPageIds_consecutive ops s1, ?_⟩
  intro n k d ops _
  have := newPageIds_consecutive ops (BufferPoolManagerInstance.new n k d)
  rw [this]
  simp only [List.length_map, List.length_range]
  apply List.map_congr_left
  intro i _
  show (0 : Int) + (i : Int) = (i : Int)
  exact zero_add _

/-- In the pool `pool1a` of one frame with page 0 pinned, `NewPage` returns null, and
so does `FetchPage(5)`; the pool stays as it is. -/
theorem null_return_keeps_pool_state_witness :
    NewPgImp pool1a = some (pool1a, none) ∧ FetchPgImp pool1a 5 = some (pool1a, none) ∧
    (pool1a = pool1a ∧
    (∀ ops : List (Op Nat), -2147483648 ≤ pool1a.next_page_id_ →
      pool1a.next_page_id_ + ((newPageIds pool1a ops).length : Int) ≤ 2147483648 →
      newPageIds pool1a ops =
        (List.range (newPageIds pool1a ops).length).map
          (fun (i : Nat) => pool1a.next_page_id_ + (i : Int))) ∧
    (∀ (n k : Nat) (d : page_id_t → Nat) (ops : List (Op Nat)),
      ((newPageIds (BufferPoolManagerInstance.new n k d) ops).length : Int) ≤ 2147483648 →
      newPageIds (BufferPoolManagerInstance.new n k d) ops =
        (List.range (newPageIds (BufferPoolManagerInstance.new n k d) ops).length).map
          (fun (i : Nat) => (i : Int)))) :=
  ⟨rfl, rfl, null_return_keeps_pool_state pool1a pool1a 5 (Or.inr rfl)⟩

end BufferPoolManagerInstance

/-! ### The binary search of `GetLeafPage` -/

namespace BPlusTree

/-- The binary search of `GetLeafPage` ends within `r - l + 1` rounds and
reads slots below `r` only. -/
theorem searchLoop_returns (arr : List (KeyType × page_id_t)) (key : KeyType) :
    ∀ (fuel l r : Nat), r ≤ arr.length → r - l < fuel →
      ∃ res, searchLoop arr key fuel l r = .ok res := by
  intro fuel
  induction fuel with
  | zero => intro l r _ h; exact absurd h (Nat.not_lt_zero _)
  | succ fuel ih =>
    intro l r hr hf
    unfold searchLoop
    by_cases hlt : l < r
    · rw [if_pos hlt]
      have hmid : (l + r) / 2 < arr.length := by omega
      have hget : arr[(l + r) / 2]? = some (arr.get ⟨(l + r) / 2, hmid⟩) :=
        List.getElem?_eq_getElem hmid
      rw [hget]
      simp only []
      by_cases hc : (comparator_ (arr.get ⟨(l + r) / 2, hmid⟩).1 key == 1) = true
      · rw [if_pos hc]
        exact ih l ((l + r) / 2) (by omega) (by omega)
      · rw [if_neg hc]
        exact ih ((l + r) / 2 + 1) r hr (by omega)
    · rw [if_neg hlt]
      exact ⟨l, rfl⟩

/-- C34: for every internal page of size `n ≥ 1` whose keys at the slots
`1 .. n - 1` are ascending and every search key, the binary search of
`GetLeafPage` ends (within the `n + 1` rounds given to it) and the descent
follows the child of the slot `i` that is the largest slot in `[1, n)` with
`keys[i] ≤ key`, or of the slot 0 when there is no such slot: the key of the
slot `i` is not above `key` unless `i = 0`, and the key of every later slot
is above `key`. -/
theorem binary_search_follows_last_slot_not_above (p : InternalPage) (key : KeyType)
    (hn : 1 ≤ p.array_.length)
    (hs : p.array_.tail.Pairwise (fun a b => a.1 ≤ b.1)) :
    ∃ (l i : Nat) (e : KeyType × page_id_t),
      searchLoop p.array_ key (p.array_.length + 1) 1 p.array_.length = .ok l ∧
      i = l - 1 ∧ i < p.array_.length ∧ p.array_[i]? = some e ∧
      childFor p key = .ok e.2 ∧
      (0 < i → e.1 ≤ key) ∧
      (∀ (j : Nat) (e1 : KeyType × page_id_t), i < j → p.array_[j]? = some e1 →
        key < e1.1) := by
  obtain ⟨res, hres⟩ := searchLoop_returns p.array_ key (p.array_.length + 1) 1 p.array_.length
    (le_refl _) (by omega)
  obtain ⟨r1, r2, r3, r4⟩ := searchLoop_spec p.array_ key _ 1 p.array_.length res hres
    (le_refl _) hn (le_refl _) (Or.inl rfl) (Or.inl rfl)
  have hlt : res - 1 < p.array_.length := by omega
  have hget : p.array_[res - 1]? = some (p.array_.get ⟨res - 1, hlt⟩) :=
    List.getElem?_eq_getElem hlt
  refine ⟨res, res - 1, p.array_.get ⟨res - 1, hlt⟩, hres, rfl, hlt, hget, ?_, ?_, ?_⟩
  · unfold childFor
    rw [hres]
    simp only []
    rw [hget]
  · intro hpos
    rcases r3 with r3 | ⟨e, he, hle⟩
    · omega
    · rw [hget] at he
      injection he with he
      rw [he]
      exact hle
  · intro j e1 hj hj1
    rcases r4 with r4 | ⟨e, he, hlt1⟩
    · have := (List.getElem?_eq_some.1 hj1).1
      omega
    · by_cases hjr : j = res
      · rw [hjr, he] at hj1
        injection hj1 with hj1
        rw [← hj1]
        exact hlt1
      · -- both slots are in the tail
        cases harr : p.array_ with
        | nil => rw [harr] at hn; simp at hn
        | cons a0 tl =>
          rw [harr] at hs he hj1
          simp only [List.tail_cons] at hs
          have hres1 : res = (res - 1) + 1 := by omega
          have hj0 : j = (j - 1) + 1 := by omega
          rw [hres1, List.getElem?_cons_succ] at he
          rw [hj0, List.getElem?_cons_succ] at hj1
          obtain ⟨h1, h1e⟩ := List.getElem?_eq_some.1 he
          obtain ⟨h2, h2e⟩ := List.getElem?_eq_some.1 hj1
          have := (List.pairwise_iff_getElem.1 hs) (res - 1) (j - 1) h1 h2 (by omega)
          rw [h1e, h2e] at this
          exact lt_of_lt_of_le hlt1 this

/-- The internal page with the slots `(_, 1), (3, 2), (5, 4)` of the tree
`tree33a`: the search for 4 follows slot 1, the search for 2 slot 0, the search
for 5 slot 2. -/
theorem binary_search_follows_last_slot_not_above_witness :
    1 ≤ ([(3, 1), (3, 2), (5, 4)] : List (KeyType × page_id_t)).length ∧
    ([(3, 1), (3, 2), (5, 4)] : List (KeyType × page_id_t)).tail.Pairwise
      (fun a b => a.1 ≤ b.1) ∧
    childFor ⟨3, -1, 3, [(3, 1), (3, 2), (5, 4)]⟩ 4 = .ok 2 ∧
    childFor ⟨3, -1, 3, [(3, 1), (3, 2), (5, 4)]⟩ 2 = .ok 1 ∧
    childFor ⟨3, -1, 3, [(3, 1), (3, 2), (5, 4)]⟩ 5 = .ok 4 ∧
    ∃ (l i : Nat) (e : KeyType × page_id_t),
      searchLoop [(3, 1), (3, 2), (5, 4)] 4 (3 + 1) 1 3 = .ok l ∧
      i = l - 1 ∧ i < 3 ∧
      ([(3, 1), (3, 2), (5, 4)] : List (KeyType × page_id_t))[i]? = some e ∧
      childFor ⟨3, -1, 3, [(3, 1), (3, 2), (5, 4)]⟩ 4 = .ok e.2 ∧
      (0 < i → e.1 ≤ 4) ∧
      (∀ (j : Nat) (e1 : KeyType × page_id_t), i < j →
        ([(3, 1), (3, 2), (5, 4)] : List (KeyType × page_id_t))[j]? = some e1 → 4 < e1.1) :=
  have hs : ([(3, 1), (3, 2), (5, 4)] : List (KeyType × page_id_t)).tail.Pairwise
      (fun a b => a.1 ≤ b.1) := by decide
  ⟨by decide, hs, rfl, rfl, rfl,
    binary_search_follows_last_slot_not_above ⟨3, -1, 3, [(3, 1), (3, 2), (5, 4)]⟩ 4
      (by decide) hs⟩

end BPlusTree

/-! ### The split of a leaf -/

namespace BPlusTree

/-- The page `q` is a leaf with the page id, the maximum size, the next
pointer and the entries of `l`; the parent pointer may differ. -/
def LeafAt (t : BPlusTree) (q : page_id_t) (l : LeafPage) : Prop :=
  ∃ l1, t.pages q = some (.leaf l1) ∧ l1.page_id_ = l.page_id_ ∧
    l1.max_size_ = l.max_size_ ∧ l1.next_page_id_ = l.next_page_id_ ∧ l1.array_ = l.array_

theorem LeafAt.of_pages {t : BPlusTree} {q : page_id_t} {l : LeafPage}
    (h : t.pages q = some (.leaf l)) : LeafAt t q l :=
  ⟨l, h, rfl, rfl, rfl, rfl⟩

theorem LeafAt.same_pages {t t1 : BPlusTree} {q : page_id_t} {l : LeafPage} (h : LeafAt t q l)
    (hp : t1.pages = t.pages) : LeafAt t1 q l := by
  obtain ⟨l1, h1, h2⟩ := h
  exact ⟨l1, by rw [hp]; exact h1, h2⟩

theorem LeafAt.store_other {t : BPlusTree} {q p : page_id_t} {l : LeafPage} (h : LeafAt t q l)
    (hne : q ≠ p) (pg : TreePage) : LeafAt (t.store p pg) q l := by
  obtain ⟨l1, h1, h2⟩ := h
  exact ⟨l1, by rw [store_pages_ne _ _ _ hne]; exact h1, h2⟩

theorem LeafAt.store_over_internal {t : BPlusTree} {q p : page_id_t} {l : LeafPage}
    (h : LeafAt t q l) {ip : InternalPage} (hp : t.pages p = some (.internal ip))
    (pg : TreePage) : LeafAt (t.store p pg) q l := by
  refine h.store_other ?_ pg
  intro hf
  obtain ⟨l1, h1, _⟩ := h
  rw [hf, hp] at h1
  cases h1

theorem LeafAt.set_parent {t : BPlusTree} {q c : page_id_t} {l : LeafPage} (h : LeafAt t q l)
    {pg : TreePage} (hc : t.pages c = some pg) (P : page_id_t) :
    LeafAt (t.store c (pg.SetParentPageId P)) q l := by
  by_cases hqc : q = c
  · obtain ⟨l1, h1, h2⟩ := h
    rw [hqc, hc] at h1
    injection h1 with h1
    subst h1
    refine ⟨{ l1 with parent_page_id_ := P }, ?_, h2⟩
    rw [hqc, store_pages_same]
    rfl
  · exact h.store_other hqc _

theorem LeafAt.update_parent {t t1 : BPlusTree} {q c P : page_id_t} {l : LeafPage}
    (h : LeafAt t q l) (hu : t.UpdateParentPageId c P = .ok t1) :
    LeafAt t1 q l ∧ t1.next_page_id_ = t.next_page_id_ := by
  obtain ⟨pg, hpg, rfl⟩ := UpdateParentPageId_ok hu
  exact ⟨h.set_parent hpg P, rfl⟩

theorem LeafAt.after_reparent {t3 t4 : BPlusTree} {q N : page_id_t} {l : LeafPage}
    {moved : List (KeyType × page_id_t)} (hr : reparent t3 N moved = .ok t4)
    (h : LeafAt t3 q l) : LeafAt t4 q l := by
  obtain ⟨_, _, _, _, i5, i6⟩ := reparent_spec N moved t3 t4 hr
  obtain ⟨l1, h1, h2⟩ := h
  by_cases hm : q ∈ moved.map Prod.snd
  · obtain ⟨pg, g1, g2⟩ := i6 q hm
    rw [h1] at g1
    injection g1 with g1
    subst g1
    exact ⟨{ l1 with parent_page_id_ := N }, g2, h2⟩
  · exact ⟨l1, by rw [i5 q hm]; exact h1, h2⟩

/-- The loop of `Insert` that enters the new page in the parent leaves every
leaf with its entries and its next pointer. -/
theorem insertInParent_keeps_leaf :
    ∀ (f : Nat) (t : BPlusTree) (old nw : page_id_t) (s : KeyType) (t1 : BPlusTree)
      (q : page_id_t) (l : LeafPage),
      insertInParent f t old nw s = .ok t1 → LeafAt t q l → q < t.next_page_id_ →
      LeafAt t1 q l := by
  intro f
  induction f with
  | zero =>
    intro t old nw s t1 q l hr _ _
    unfold insertInParent at hr
    exact absurd hr (by simp)
  | succ f ih =>
    intro t old nw s t1 q l hr hL hq
    unfold insertInParent at hr
    split at hr
    · exact absurd hr (by simp)
    · exact absurd hr (by simp)
    · rename_i pgo pgn _ _
      simp only [] at hr
      split at hr
      · -- a new root
        split at hr
        · exact absurd hr (by simp)
        · rename_i t2 hu
          have h1 : LeafAt ({ t.store t.next_page_id_ (.internal
              { page_id_ := t.next_page_id_, parent_page_id_ := INVALID_PAGE_ID,
                max_size_ := t.internal_max_size_,
                array_ := [(s, pgo.GetPageId), (s, pgn.GetPageId)] }) with
              root_page_id_ := t.next_page_id_,
              next_page_id_ := t.next_page_id_ + 1 } : BPlusTree) q l :=
            hL.store_other (ne_of_lt hq) _
          exact ((h1.update_parent hu).1.update_parent hr).1
      · split at hr
        · exact absurd hr (by simp)
        · rename_i parent hfp
          have hip := fetchInternal_ok hfp
          split at hr
          · exact absurd hr (by simp)
          · rename_i t2 hu
            have h1 := hL.store_over_internal hip
              (.internal (parent.Insert s pgn.GetPageId))
            obtain ⟨h2, hn2⟩ := h1.update_parent hu
            have hn2 : t2.next_page_id_ = t.next_page_id_ := hn2
            split at hr
            · injection hr with hr
              subst hr
              exact h2
            · split at hr
              · exact absurd hr (by simp)
              · rename_i t4 hrep
                obtain ⟨_, i2, _⟩ := reparent_spec _ _ _ _ hrep
                have i2 : t4.next_page_id_ = t2.next_page_id_ + 1 := i2
                have hne2 : q ≠ t2.next_page_id_ := by rw [hn2]; exact ne_of_lt hq
                have h3 := LeafAt.after_reparent hrep ((h2.store_other hne2 _).same_pages rfl)
                split at hr
                · exact absurd hr (by simp)
                · rename_i parent2 hfi2
                  have hip2 := fetchInternal_ok hfi2
                  split at hr
                  · exact absurd hr (by simp)
                  · rename_i e hhead
                    refine ih _ _ _ _ _ q l hr (h3.store_over_internal hip2 _) ?_
                    show q < t4.next_page_id_
                    rw [i2, hn2]
                    exact lt_trans hq (lt_add_one _)

/-- An empty tree with `leaf_max_size = 4` and `internal_max_size = 4`, in a
pool that has handed out page 0 (the header page). -/
def tree44 : BPlusTree := BPlusTree.new 4 4 1

/-- The tree `tree44` after the inserts of the keys 1 to 4. -/
def tree44a : BPlusTree :=
  match tree44.runCalls [(1, some 10), (2, some 20), (3, some 30), (4, some 40)] with
  | .ok t => t
  | .error _ => tree44

/-- C31, as the code has it: for every `leaf_max_size ≥ 2` (even or odd), when
the leaf that `Insert` reaches holds `leaf_max_size` entries after the
insertion, the entries at the indices `(leaf_max_size + 1) / 2` (rounded down)
to `leaf_max_size - 1` move, in order, to the page with the next page id of
the pool, and the entries below stay; there is an entry at least that moves;
the next pointer of the leaf becomes the new page and that of the new page
what the next pointer of the leaf was; and the loop that enters the new page
in the parent is started with the first key of the new page.  That loop leaves
the two leaves with these entries and next pointers. -/
theorem leaf_split_moves_upper_half (t : BPlusTree) (key : KeyType) (value : ValueType)
    (leaf_id : page_id_t) (leaf leaf1 : LeafPage)
    (hlm : 2 ≤ t.leaf_max_size_) (hne : t.IsEmpty = false)
    (hg : t.GetLeafPage key = .ok leaf_id) (hf : t.fetchLeaf leaf_id = .ok leaf)
    (hk : LeafPage.hasKey leaf.array_ key = false)
    (hins : leaf.Insert key value = .ok leaf1)
    (hfull : leaf1.array_.length = t.leaf_max_size_)
    (hid : leaf_id < t.next_page_id_) :
    ∃ e : KeyType × ValueType,
      (leaf1.array_.drop ((t.leaf_max_size_ + 1) / 2)).head? = some e ∧
      t.Insert key value =
        (match insertInParent (t.next_page_id_ + 1).toNat.succ
            { (t.store leaf_id (.leaf { leaf1 with
                  next_page_id_ := t.next_page_id_,
                  array_ := leaf1.array_.take ((t.leaf_max_size_ + 1) / 2) })).store
                t.next_page_id_ (.leaf
                  { page_id_ := t.next_page_id_, parent_page_id_ := leaf1.parent_page_id_,
                    max_size_ := t.leaf_max_size_, next_page_id_ := leaf1.next_page_id_,
                    array_ := leaf1.array_.drop ((t.leaf_max_size_ + 1) / 2) }) with
              next_page_id_ := t.next_page_id_ + 1 }
            leaf_id t.next_page_id_ e.1 with
         | .error err => .error err
         | .ok t2 => .ok (t2, true)) ∧
      leaf1.next_page_id_ = leaf.next_page_id_ ∧
      (leaf1.array_.take ((t.leaf_max_size_ + 1) / 2)).length = (t.leaf_max_size_ + 1) / 2 ∧
      (leaf1.array_.drop ((t.leaf_max_size_ + 1) / 2)).length =
        t.leaf_max_size_ - (t.leaf_max_size_ + 1) / 2 ∧
      (t.leaf_max_size_ + 1) / 2 ≤ t.leaf_max_size_ - 1 ∧
      (∀ i, i < (t.leaf_max_size_ + 1) / 2 →
        (leaf1.array_.take ((t.leaf_max_size_ + 1) / 2))[i]? = leaf1.array_[i]?) ∧
      (∀ j, (leaf1.array_.drop ((t.leaf_max_size_ + 1) / 2))[j]? =
        leaf1.array_[(t.leaf_max_size_ + 1) / 2 + j]?) ∧
      (∀ (t1 : BPlusTree) (b : Bool), t.Insert key value = .ok (t1, b) →
        b = true ∧
        LeafAt t1 leaf_id { leaf1 with
          next_page_id_ := t.next_page_id_,
          array_ := leaf1.array_.take ((t.leaf_max_size_ + 1) / 2) } ∧
        LeafAt t1 t.next_page_id_
          { page_id_ := t.next_page_id_, parent_page_id_ := leaf1.parent_page_id_,
            max_size_ := t.leaf_max_size_, next_page_id_ := leaf.next_page_id_,
            array_ := leaf1.array_.drop ((t.leaf_max_size_ + 1) / 2) }) := by
  obtain ⟨_, _, _, _, i4, _, _⟩ := LeafPage.Insert_ok hins
  have hdl : (leaf1.array_.drop ((t.leaf_max_size_ + 1) / 2)).length =
      t.leaf_max_size_ - (t.leaf_max_size_ + 1) / 2 := by
    rw [List.length_drop, hfull]
  cases hhead : (leaf1.array_.drop ((t.leaf_max_size_ + 1) / 2)).head? with
  | none =>
    rw [List.head?_eq_none_iff] at hhead
    rw [hhead] at hdl
    simp only [List.length_nil] at hdl
    omega
  | some e =>
    have htk : leaf1.array_.length -
        (t.leaf_max_size_ - 1 + 1 - (t.leaf_max_size_ + 1) / 2) =
        (t.leaf_max_size_ + 1) / 2 := by omega
    have hdr : (leaf1.array_.drop ((t.leaf_max_size_ + 1) / 2)).take
        (t.leaf_max_size_ - 1 + 1 - (t.leaf_max_size_ + 1) / 2) =
        leaf1.array_.drop ((t.leaf_max_size_ + 1) / 2) := by
      apply List.take_of_length_le
      rw [List.length_drop]
      omega
    have hmv : LeafPage.MoveDataTo { leaf1 with next_page_id_ := t.next_page_id_ }
        (LeafPage.Init t.next_page_id_ leaf1.parent_page_id_ t.leaf_max_size_
          leaf1.next_page_id_) ((t.leaf_max_size_ + 1) / 2) (t.leaf_max_size_ - 1) =
        .ok ({ leaf1 with next_page_id_ := t.next_page_id_,
                          array_ := leaf1.array_.take ((t.leaf_max_size_ + 1) / 2) },
             { page_id_ := t.next_page_id_, parent_page_id_ := leaf1.parent_page_id_,
               max_size_ := t.leaf_max_size_, next_page_id_ := leaf1.next_page_id_,
               array_ := leaf1.array_.drop ((t.leaf_max_size_ + 1) / 2) }) := by
      unfold LeafPage.MoveDataTo
      have hc : (t.leaf_max_size_ + 1) / 2 ≤ t.leaf_max_size_ - 1 + 1 ∧
          (LeafPage.Init t.next_page_id_ leaf1.parent_page_id_ t.leaf_max_size_
            leaf1.next_page_id_).array_ = [] ∧
          (t.leaf_max_size_ - 1 <
              ({ leaf1 with next_page_id_ := t.next_page_id_ } : LeafPage).array_.length ∨
            (t.leaf_max_size_ + 1) / 2 = t.leaf_max_size_ - 1 + 1) := by
        refine ⟨by omega, rfl, Or.inl ?_⟩
        show t.leaf_max_size_ - 1 < leaf1.array_.length
        omega
      rw [if_pos hc]
      simp only [htk, hdr, LeafPage.Init]
    have heq : t.Insert key value =
        (match insertInParent (t.next_page_id_ + 1).toNat.succ
            { (t.store leaf_id (.leaf { leaf1 with
                  next_page_id_ := t.next_page_id_,
                  array_ := leaf1.array_.take ((t.leaf_max_size_ + 1) / 2) })).store
                t.next_page_id_ (.leaf
                  { page_id_ := t.next_page_id_, parent_page_id_ := leaf1.parent_page_id_,
                    max_size_ := t.leaf_max_size_, next_page_id_ := leaf1.next_page_id_,
                    array_ := leaf1.array_.drop ((t.leaf_max_size_ + 1) / 2) }) with
              next_page_id_ := t.next_page_id_ + 1 }
            leaf_id t.next_page_id_ e.1 with
         | .error err => .error err
         | .ok t2 => .ok (t2, true)) := by
      unfold Insert
      rw [hne]
      simp only [Bool.false_eq_true, if_false]
      rw [hg]
      simp only []
      rw [hf]
      simp only []
      rw [hk]
      simp only [Bool.false_eq_true, if_false]
      rw [hins]
      simp only []
      rw [if_neg (by omega), hmv]
      simp only []
      rw [hhead]
      rfl
    refine ⟨e, rfl, heq, i4, ?_, hdl, by omega, ?_, ?_, ?_⟩
    · rw [List.length_take, hfull]
      omega
    · intro i hi
      rw [List.getElem?_take, if_pos hi]
    · intro j
      exact List.getElem?_drop _ _ _
    · intro t1 b hr
      rw [heq] at hr
      split at hr
      · exact absurd hr (by simp)
      · rename_i t2 hloop
        injection hr with hr
        injection hr with hr1 hr2
        subst hr1
        refine ⟨hr2.symm, ?_, ?_⟩
        · refine insertInParent_keeps_leaf _ _ _ _ _ _ leaf_id _ hloop ?_ ?_
          · refine LeafAt.of_pages ?_
            have hfresh : leaf_id ≠ t.next_page_id_ := ne_of_lt hid
            simp only [store_pages, if_neg hfresh, if_true]
          · exact lt_trans hid (lt_add_one _)
        · have h1 := insertInParent_keeps_leaf _ _ _ _ _ _ t.next_page_id_
            { page_id_ := t.next_page_id_, parent_page_id_ := leaf1.parent_page_id_,
              max_size_ := t.leaf_max_size_, next_page_id_ := leaf1.next_page_id_,
              array_ := leaf1.array_.drop ((t.leaf_max_size_ + 1) / 2) } hloop
            (LeafAt.of_pages (by simp only [store_pages, if_true])) (lt_add_one _)
          obtain ⟨l1, q1, q2, q3, q4, q5⟩ := h1
          exact ⟨l1, q1, q2, q3, q4.trans i4, q5⟩

/-- In the tree `tree33g`, whose one leaf holds the keys 10 and 20 with
`leaf_max_size = 3`, the insert of the key 30 fills the leaf: the entry at the
index 2 moves to the new page 2, the entries at the indices 0 and 1 stay. -/
theorem leaf_split_moves_upper_half_witness :
    2 ≤ tree33g.leaf_max_size_ ∧ tree33g.IsEmpty = false ∧
    tree33g.GetLeafPage 30 = .ok 1 ∧ tree33g.fetchLeaf 1 = .ok (⟨1, -1, 3, -1, [(10, 100), (20, 200)]⟩ : LeafPage) ∧
    LeafPage.hasKey (⟨1, -1, 3, -1, [(10, 100), (20, 200)]⟩ : LeafPage).array_ 30 = false ∧
    (⟨1, -1, 3, -1, [(10, 100), (20, 200)]⟩ : LeafPage).Insert 30 300 = .ok (⟨1, -1, 3, -1, [(10, 100), (20, 200), (30, 300)]⟩ : LeafPage) ∧
    (⟨1, -1, 3, -1, [(10, 100), (20, 200), (30, 300)]⟩ : LeafPage).array_.length = tree33g.leaf_max_size_ ∧
    (1 : page_id_t) < tree33g.next_page_id_ ∧
    (tree33g.Insert 30 300).toOption.map (fun r => (r.1.pages 1, r.1.pages 2)) =
      some (some (.leaf ⟨1, 3, 3, 2, [(10, 100), (20, 200)]⟩),
            some (.leaf ⟨2, 3, 3, -1, [(30, 300)]⟩)) ∧
    ∃ e : KeyType × ValueType,
      ((⟨1, -1, 3, -1, [(10, 100), (20, 200), (30, 300)]⟩ : LeafPage).array_.drop ((tree33g.leaf_max_size_ + 1) / 2)).head? = some e ∧
      tree33g.Insert 30 300 =
        (match insertInParent (tree33g.next_page_id_ + 1).toNat.succ
            { (tree33g.store (1 : page_id_t) (.leaf { (⟨1, -1, 3, -1, [(10, 100), (20, 200), (30, 300)]⟩ : LeafPage) with
                  next_page_id_ := tree33g.next_page_id_,
                  array_ := (⟨1, -1, 3, -1, [(10, 100), (20, 200), (30, 300)]⟩ : LeafPage).array_.take ((tree33g.leaf_max_size_ + 1) / 2) })).store
                tree33g.next_page_id_ (.leaf
                  { page_id_ := tree33g.next_page_id_, parent_page_id_ := (⟨1, -1, 3, -1, [(10, 100), (20, 200), (30, 300)]⟩ : LeafPage).parent_page_id_,
                    max_size_ := tree33g.leaf_max_size_, next_page_id_ := (⟨1, -1, 3, -1, [(10, 100), (20, 200), (30, 300)]⟩ : LeafPage).next_page_id_,
                    array_ := (⟨1, -1, 3, -1, [(10, 100), (20, 200), (30, 300)]⟩ : LeafPage).array_.drop ((tree33g.leaf_max_size_ + 1) / 2) }) with
              next_page_id_ := tree33g.next_page_id_ + 1 }
            (1 : page_id_t) tree33g.next_page_id_ e.1 with
         | .error err => .error err
         | .ok t2 => .ok (t2, true)) ∧
      (⟨1, -1, 3, -1, [(10, 100), (20, 200), (30, 300)]⟩ : LeafPage).next_page_id_ = (⟨1, -1, 3, -1, [(10, 100), (20, 200)]⟩ : LeafPage).next_page_id_ ∧
      ((⟨1, -1, 3, -1, [(10, 100), (20, 200), (30, 300)]⟩ : LeafPage).array_.take ((tree33g.leaf_max_size_ + 1) / 2)).length = (tree33g.leaf_max_size_ + 1) / 2 ∧
      ((⟨1, -1, 3, -1, [(10, 100), (20, 200), (30, 300)]⟩ : LeafPage).array_.drop ((tree33g.leaf_max_size_ + 1) / 2)).length =
        tree33g.leaf_max_size_ - (tree33g.leaf_max_size_ + 1) / 2 ∧
      (tree33g.leaf_max_size_ + 1) / 2 ≤ tree33g.leaf_max_size_ - 1 ∧
      (∀ i, i < (tree33g.leaf_max_size_ + 1) / 2 →
        ((⟨1, -1, 3, -1, [(10, 100), (20, 200), (30, 300)]⟩ : LeafPage).array_.take ((tree33g.leaf_max_size_ + 1) / 2))[i]? = (⟨1, -1, 3, -1, [(10, 100), (20, 200), (30, 300)]⟩ : LeafPage).array_[i]?) ∧
      (∀ j, ((⟨1, -1, 3, -1, [(10, 100), (20, 200), (30, 300)]⟩ : LeafPage).array_.drop ((tree33g.leaf_max_size_ + 1) / 2))[j]? =
        (⟨1, -1, 3, -1, [(10, 100), (20, 200), (30, 300)]⟩ : LeafPage).array_[(tree33g.leaf_max_size_ + 1) / 2 + j]?) ∧
      (∀ (t1 : BPlusTree) (b : Bool), tree33g.Insert 30 300 = .ok (t1, b) →
        b = true ∧
        LeafAt t1 (1 : page_id_t) { (⟨1, -1, 3, -1, [(10, 100), (20, 200), (30, 300)]⟩ : LeafPage) with
          next_page_id_ := tree33g.next_page_id_,
          array_ := (⟨1, -1, 3, -1, [(10, 100), (20, 200), (30, 300)]⟩ : LeafPage).array_.take ((tree33g.leaf_max_size_ + 1) / 2) } ∧
        LeafAt t1 tree33g.next_page_id_
          { page_id_ := tree33g.next_page_id_, parent_page_id_ := (⟨1, -1, 3, -1, [(10, 100), (20, 200), (30, 300)]⟩ : LeafPage).parent_page_id_,
            max_size_ := tree33g.leaf_max_size_, next_page_id_ := (⟨1, -1, 3, -1, [(10, 100), (20, 200)]⟩ : LeafPage).next_page_id_,
            array_ := (⟨1, -1, 3, -1, [(10, 100), (20, 200), (30, 300)]⟩ : LeafPage).array_.drop ((tree33g.leaf_max_size_ + 1) / 2) }) :=
  ⟨by decide, rfl, rfl, rfl, rfl, rfl, rfl, by decide, rfl,
    leaf_split_moves_upper_half tree33g 30 300 1 (⟨1, -1, 3, -1, [(10, 100), (20, 200)]⟩ : LeafPage) (⟨1, -1, 3, -1, [(10, 100), (20, 200), (30, 300)]⟩ : LeafPage)
      (by decide) rfl rfl rfl rfl rfl rfl (by decide)⟩

/-- C31 as stated fails for an even `leaf_max_size`.  With
`leaf_max_size = 4` the leaf `[1, 2, 3]` holds 4 entries after the insert of
the key 4, and `⌈(4 + 1) / 2⌉ = 3`: as stated, the entry at the index 3 alone
would move.  The split moves the entries at the indices 2 and 3, the keys 3
and 4, to the new leaf page 2 and leaves the keys 1 and 2 in the leaf page 1;
the key handed to the parent, the new root page 3, is 3. -/
theorem split_of_even_leaf_moves_from_the_middle :
    Reachable 4 4 1 tree44a ∧
    tree44.runCalls [(1, some 10), (2, some 20), (3, some 30), (4, some 40)] = .ok tree44a ∧
    (4 + 1 + 1) / 2 = 3 ∧
    ([(1, 10), (2, 20), (3, 30), (4, 40)] : List (KeyType × ValueType))[2]? = some (3, 30) ∧
    tree44a.pages 1 = some (.leaf ⟨1, 3, 4, 2, [(1, 10), (2, 20)]⟩) ∧
    tree44a.pages 2 = some (.leaf ⟨2, 3, 4, -1, [(3, 30), (4, 40)]⟩) ∧
    tree44a.pages 3 = some (.internal ⟨3, -1, 4, [(3, 1), (3, 2)]⟩) ∧
    tree44a.pages 1 ≠ some (.leaf ⟨1, 3, 4, 2, [(1, 10), (2, 20), (3, 30)]⟩) :=
  ⟨Reachable.of_runCalls [(1, some 10), (2, some 20), (3, some 30), (4, some 40)] tree44 tree44a
      Reachable.init rfl,
    rfl, rfl, rfl, rfl, rfl, rfl, by decide⟩

end BPlusTree

/-! ### The sibling that `HandleUnderFlow` uses -/

namespace BPlusTree

/-- A `BorrowKey` that gets past its first test returns true. -/
theorem BorrowKey_past_test {t t1 : BPlusTree} {q r P : page_id_t} {is_left b : Bool}
    {pgr : TreePage} (hr : t.pages r = some pgr) (hgt : ¬ pgr.GetSize ≤ pgr.GetMinSize)
    (h : t.BorrowKey q (some r) P is_left = .ok (t1, b)) : b = true := by
  unfold BorrowKey at h
  simp only [] at h
  rw [fetch_of_pages hr] at h
  split at h
  · exact absurd h (by simp)
  · exact absurd h (by simp)
  · exact absurd h (by simp)
  · rename_i page sibling parent _ hs _
    injection hs with hs
    subst hs
    rw [if_neg hgt] at h
    repeat' split at h
    all_goals first
      | (simp at h; done)
      | (injection h with h; injection h with _ h; exact h.symm)

/-- A `BorrowKey` from a sibling with `GetMinSize()` entries or fewer returns
false and changes nothing. -/
theorem BorrowKey_at_min {t : BPlusTree} {q r P : page_id_t} {is_left : Bool}
    {pg pgr : TreePage} {parent : InternalPage} (hq : t.pages q = some pg)
    (hr : t.pages r = some pgr) (hP : t.fetchInternal P = .ok parent)
    (hle : pgr.GetSize ≤ pgr.GetMinSize) :
    t.BorrowKey q (some r) P is_left = .ok (t, false) := by
  unfold BorrowKey
  simp only []
  rw [fetch_of_pages hq, fetch_of_pages hr, hP]
  simp only []
  rw [if_pos hle]

/-- C32, as the code has it: when `HandleUnderFlow` is called on a page that is
not the root and has a right sibling under its parent, it fetches the right
sibling only; the left sibling, whichever page it is, is not looked at.  If
the right sibling has more than `GetMinSize()` entries the call is
`BorrowKey(page, right_page, parent_page, 0)` and nothing else; else the page
is merged with its right sibling by `MergePage(page, right_page, parent_page)`
and the parent is handled in turn when it has fewer than `GetMinSize()`
entries. -/
theorem HandleUnderFlow_uses_right_sibling (fuel : Nat) (t : BPlusTree) (q l r : page_id_t)
    (pg pgr : TreePage) (hpg : t.pages q = some pg) (hnr : pg.IsRootPage = false)
    (hgs : t.GetSiblings pg = .ok (l, r)) (hr : r ≠ INVALID_PAGE_ID)
    (hpr : t.pages r = some pgr) :
    HandleUnderFlow (fuel + 1) t q =
      if pgr.GetSize ≤ pgr.GetMinSize then
        (match t.MergePage q r pg.GetParentPageId with
         | .error e => .error e
         | .ok t3 =>
           match t3.fetch pg.GetParentPageId with
           | .error e => .error e
           | .ok parent =>
             if parent.GetSize < parent.GetMinSize then
               HandleUnderFlow fuel t3 pg.GetParentPageId
             else .ok t3)
      else
        (match t.BorrowKey q (some r) pg.GetParentPageId false with
         | .error e => .error e
         | .ok (t1, _) => .ok t1) := by
  have hP : ∃ parent, t.fetchInternal pg.GetParentPageId = .ok parent := by
    unfold GetSiblings at hgs
    rw [hnr] at hgs
    simp only [Bool.false_eq_true, if_false] at hgs
    split at hgs
    · exact absurd hgs (by simp)
    · rename_i parent hp
      exact ⟨parent, hp⟩
  obtain ⟨parent, hP⟩ := hP
  conv =>
    lhs
    unfold HandleUnderFlow
  rw [fetch_of_pages hpg]
  simp only []
  rw [hnr]
  simp only [Bool.false_eq_true, if_false]
  rw [hgs]
  simp only []
  rw [if_pos hr, fetch_of_pages hpr]
  simp only []
  rw [BorrowKey_none]
  simp only []
  by_cases hle : pgr.GetSize ≤ pgr.GetMinSize
  · rw [if_pos hle, BorrowKey_at_min hpg hpr hP hle]
  · rw [if_neg hle]
    cases hb : t.BorrowKey q (some r) pg.GetParentPageId false with
    | error e => rfl
    | ok res =>
      obtain ⟨t1, b⟩ := res
      have := BorrowKey_past_test hpr hle hb
      subst this
      rfl

/-- The tree `tree44` after the inserts of the keys 1 to 6 and then 0: the
leaves `[0, 1, 2]`, `[3, 4]` and `[5, 6]`, pages 1, 2 and 4, under the root
page 3. -/
def tree44b : BPlusTree :=
  match tree44.runCalls [(1, some 10), (2, some 20), (3, some 30), (4, some 40), (5, some 50),
      (6, some 60), (0, some 0)] with
  | .ok t => t
  | .error _ => tree44

/-- The tree `tree44b` after `Insert(7, 70)`: the leaves `[0, 1, 2]`, `[3, 4]`
and `[5, 6, 7]`. -/
def tree44c : BPlusTree :=
  match tree44b.Insert 7 70 with
  | .ok (t, _) => t
  | .error _ => tree44

/-- The tree `tree44b` after `Remove(3)`. -/
def tree44d : BPlusTree :=
  match tree44b.Remove 3 with
  | .ok t => t
  | .error _ => tree44

/-- The tree `tree44c` after `Remove(3)`. -/
def tree44e : BPlusTree :=
  match tree44c.Remove 3 with
  | .ok t => t
  | .error _ => tree44

/-- The state in which `Remove(3)` on `tree44b` calls `HandleUnderFlow` for
the leaf page 2, which holds the key 4 alone: its right sibling, page 4, holds
2 entries, as many as `GetMinSize()`, and the two are merged; the result is
what `Remove(3)` returns. -/
theorem HandleUnderFlow_uses_right_sibling_witness :
    (tree44b.store 2 (.leaf ⟨2, 3, 4, 4, [(4, 40)]⟩)).pages 2 =
      some (.leaf ⟨2, 3, 4, 4, [(4, 40)]⟩) ∧
    (TreePage.leaf ⟨2, 3, 4, 4, [(4, 40)]⟩).IsRootPage = false ∧
    (tree44b.store 2 (.leaf ⟨2, 3, 4, 4, [(4, 40)]⟩)).GetSiblings
      (.leaf ⟨2, 3, 4, 4, [(4, 40)]⟩) = .ok (1, 4) ∧
    (4 : page_id_t) ≠ INVALID_PAGE_ID ∧
    (tree44b.store 2 (.leaf ⟨2, 3, 4, 4, [(4, 40)]⟩)).pages 4 =
      some (.leaf ⟨4, 3, 4, -1, [(5, 50), (6, 60)]⟩) ∧
    HandleUnderFlow (5 + 1) (tree44b.store 2 (.leaf ⟨2, 3, 4, 4, [(4, 40)]⟩)) 2 =
      .ok tree44d ∧
    HandleUnderFlow (5 + 1) (tree44b.store 2 (.leaf ⟨2, 3, 4, 4, [(4, 40)]⟩)) 2 =
      if (TreePage.leaf ⟨4, 3, 4, -1, [(5, 50), (6, 60)]⟩).GetSize ≤
          (TreePage.leaf ⟨4, 3, 4, -1, [(5, 50), (6, 60)]⟩).GetMinSize then
        (match (tree44b.store 2 (.leaf ⟨2, 3, 4, 4, [(4, 40)]⟩)).MergePage 2 4
            (TreePage.leaf ⟨2, 3, 4, 4, [(4, 40)]⟩).GetParentPageId with
         | .error e => .error e
         | .ok t3 =>
           match t3.fetch (TreePage.leaf ⟨2, 3, 4, 4, [(4, 40)]⟩).GetParentPageId with
           | .error e => .error e
           | .ok parent =>
             if parent.GetSize < parent.GetMinSize then
               HandleUnderFlow 5 t3 (TreePage.leaf ⟨2, 3, 4, 4, [(4, 40)]⟩).GetParentPageId
             else .ok t3)
      else
        (match (tree44b.store 2 (.leaf ⟨2, 3, 4, 4, [(4, 40)]⟩)).BorrowKey 2 (some 4)
            (TreePage.leaf ⟨2, 3, 4, 4, [(4, 40)]⟩).GetParentPageId false with
         | .error e => .error e
         | .ok (t1, _) => .ok t1) :=
  ⟨rfl, rfl, rfl, by decide, rfl, rfl,
    HandleUnderFlow_uses_right_sibling 5 (tree44b.store 2 (.leaf ⟨2, 3, 4, 4, [(4, 40)]⟩))
      2 1 4 (.leaf ⟨2, 3, 4, 4, [(4, 40)]⟩) (.leaf ⟨4, 3, 4, -1, [(5, 50), (6, 60)]⟩)
      rfl rfl rfl (by decide) rfl⟩

/-- C32 as stated fails for a page with two siblings.  In the tree `tree44b`
(`leaf_max_size = 4`, so `GetMinSize()` is 2) the leaf page 2 has the left
sibling page 1 with the 3 keys 0, 1, 2, more than the minimum, and the right
sibling page 4 with the keys 5 and 6.  `Remove(3)` leaves the key 4 alone in
page 2; as stated, an entry would be borrowed from the left sibling.  The
code leaves the left sibling as it is and merges page 2 with its right
sibling into `[4, 5, 6]`.  In `tree44c`, where the right sibling holds 5, 6
and 7, `Remove(3)` borrows the key 5 from the right sibling, and the left
sibling with its 3 keys is again as before. -/
theorem underflow_with_two_siblings_ignores_left :
    Reachable 4 4 1 tree44b ∧ Reachable 4 4 1 tree44c ∧
    tree44b.pages 1 = some (.leaf ⟨1, 3, 4, 2, [(0, 0), (1, 10), (2, 20)]⟩) ∧
    tree44b.pages 2 = some (.leaf ⟨2, 3, 4, 4, [(3, 30), (4, 40)]⟩) ∧
    tree44b.pages 4 = some (.leaf ⟨4, 3, 4, -1, [(5, 50), (6, 60)]⟩) ∧
    tree44b.pages 3 = some (.internal ⟨3, -1, 4, [(3, 1), (3, 2), (5, 4)]⟩) ∧
    tree44b.GetSiblings (.leaf ⟨2, 3, 4, 4, [(3, 30), (4, 40)]⟩) = .ok (1, 4) ∧
    (TreePage.leaf ⟨1, 3, 4, 2, [(0, 0), (1, 10), (2, 20)]⟩).GetMinSize <
      (TreePage.leaf ⟨1, 3, 4, 2, [(0, 0), (1, 10), (2, 20)]⟩).GetSize ∧
    tree44b.Remove 3 = .ok tree44d ∧
    tree44d.pages 1 = some (.leaf ⟨1, 3, 4, 2, [(0, 0), (1, 10), (2, 20)]⟩) ∧
    tree44d.pages 2 = some (.leaf ⟨2, 3, 4, -1, [(4, 40), (5, 50), (6, 60)]⟩) ∧
    tree44d.pages 3 = some (.internal ⟨3, -1, 4, [(3, 1), (3, 2)]⟩) ∧
    tree44c.pages 1 = some (.leaf ⟨1, 3, 4, 2, [(0, 0), (1, 10), (2, 20)]⟩) ∧
    tree44c.pages 4 = some (.leaf ⟨4, 3, 4, -1, [(5, 50), (6, 60), (7, 70)]⟩) ∧
    tree44c.Remove 3 = .ok tree44e ∧
    tree44e.pages 1 = some (.leaf ⟨1, 3, 4, 2, [(0, 0), (1, 10), (2, 20)]⟩) ∧
    tree44e.pages 2 = some (.leaf ⟨2, 3, 4, 4, [(4, 40), (5, 50)]⟩) ∧
    tree44e.pages 4 = some (.leaf ⟨4, 3, 4, -1, [(6, 60), (7, 70)]⟩) :=
  have hb : Reachable 4 4 1 tree44b :=
    Reachable.of_runCalls [(1, some 10), (2, some 20), (3, some 30), (4, some 40),
      (5, some 50), (6, some 60), (0, some 0)] tree44 tree44b Reachable.init rfl
  ⟨hb, Reachable.insert hb (rfl : tree44b.Insert 7 70 = .ok (tree44c, true)),
    rfl, rfl, rfl, rfl, rfl, by decide, rfl, rfl, rfl, rfl, rfl, rfl, rfl, rfl, rfl, rfl⟩

end BPlusTree

/-! ### The test `IsEmpty` -/

namespace BPlusTree

end BPlusTree

/-! ### The states after `HandleUnderFlow` has fetched `INVALID_PAGE_ID` -/

namespace BPlusTree

/-- A run that ends in a state with a decidable property, read off the
evaluation of the run. -/
theorem holds_after {r : Except TreeError BPlusTree} {P : BPlusTree → Prop} [DecidablePred P]
    (h : (match r with | .ok t => decide (P t) | .error _ => false) = true) :
    ∃ t, r = .ok t ∧ P t := by
  cases r with
  | error e => exact absurd h (by simp)
  | ok t => exact ⟨t, rfl, of_decide_eq_true h⟩

/-- The empty tree with `leaf_max_size = 3` and `internal_max_size = 4` in a
pool that has handed out page 0 (the header page). -/
def tree34 : BPlusTree := BPlusTree.new 3 4 1

/-- The inserts of the keys 1 to 9, in order, with values 10 to 90. -/
def insert1to9 : List (KeyType × Option ValueType) :=
  [(1, some 10), (2, some 20), (3, some 30), (4, some 40), (5, some 50), (6, some 60),
    (7, some 70), (8, some 80), (9, some 90)]

/-- C4, the code at the failing input.  With `leaf_max_size = 3` and
`internal_max_size = 4` the inserts of 1 .. 9 return and give a tree of three
levels: the root page 8 over the internal pages 3 and 7, page 7 over the
leaves `[7, 8]` (page 5) and `[9]` (page 6).  `Remove(7)` merges these two
leaves into page 5; page 7 is left with one child, and `HandleUnderFlow` on
page 7, which has a left sibling only, fetches `INVALID_PAGE_ID` (where the
definition `Remove` ends the call).  The code goes on with the zeroed frame:
`MergePage` takes page 7 out of the root and gives page 5 the parent page id
0, and the root collapses to page 3.  `Remove(7)` returns, and the leaf page
5 with the keys 8 and 9 is no page of the tree any more, though the leaf
page 4 still has it as its next leaf: the chain from the leftmost leaf meets
a leaf that is no leaf of the tree.  `Insert(8, 88)` then returns and puts the
new leaf page 9 between the pages 4 and 5 of the chain: the keys along the
chain are 1, 2, 3, 4, 5, 6, 8, 8, 9, not strictly ascending. -/
theorem leaf_chain_keeps_leaf_cut_from_tree :
    (∃ t, tree34.runCalls insert1to9 = .ok t ∧
      (t.root_page_id_ = 8 ∧
        t.pages 8 = some (.internal ⟨8, -1, 4, [(7, 3), (7, 7)]⟩) ∧
        t.pages 3 = some (.internal ⟨3, 8, 4, [(3, 1), (3, 2), (5, 4)]⟩) ∧
        t.pages 7 = some (.internal ⟨7, 8, 4, [(7, 5), (9, 6)]⟩) ∧
        t.chainLeaves = .ok [⟨1, 3, 3, 2, [(1, 10), (2, 20)]⟩, ⟨2, 3, 3, 4, [(3, 30), (4, 40)]⟩,
          ⟨4, 3, 3, 5, [(5, 50), (6, 60)]⟩, ⟨5, 7, 3, 6, [(7, 70), (8, 80)]⟩,
          ⟨6, 7, 3, -1, [(9, 90)]⟩] ∧
        errorOf (t.Remove 7) = some (.fetchNoPage INVALID_PAGE_ID))) ∧
    (∃ t, Frames.runCalls tree34 (insert1to9 ++ [(7, none)]) = .ok t ∧
      (t.IsEmpty = false ∧ t.root_page_id_ = 3 ∧
        t.pages 3 = some (.internal ⟨3, -1, 4, [(3, 1), (3, 2), (5, 4)]⟩) ∧
        t.chainLeaves = .ok [⟨1, 3, 3, 2, [(1, 10), (2, 20)]⟩, ⟨2, 3, 3, 4, [(3, 30), (4, 40)]⟩,
          ⟨4, 3, 3, 5, [(5, 50), (6, 60)]⟩, ⟨5, 0, 3, -1, [(8, 80), (9, 90)]⟩] ∧
        t.pages 1 = some (.leaf ⟨1, 3, 3, 2, [(1, 10), (2, 20)]⟩) ∧
        t.pages 2 = some (.leaf ⟨2, 3, 3, 4, [(3, 30), (4, 40)]⟩) ∧
        t.pages 4 = some (.leaf ⟨4, 3, 3, 5, [(5, 50), (6, 60)]⟩) ∧
        t.pages 5 = some (.leaf ⟨5, 0, 3, -1, [(8, 80), (9, 90)]⟩) ∧
        t.pages INVALID_PAGE_ID = some (.internal ⟨0, 0, 0, [(7, 5)]⟩)) ∧
      ¬ TreeNode t 5) ∧
    (∃ t, Frames.runCalls tree34 (insert1to9 ++ [(7, none), (8, some 88)]) = .ok t ∧
      (t.chainLeaves = .ok [⟨1, 3, 3, 2, [(1, 10), (2, 20)]⟩, ⟨2, 3, 3, 4, [(3, 30), (4, 40)]⟩,
          ⟨4, 3, 3, 9, [(5, 50), (6, 60)]⟩, ⟨9, 3, 3, 5, [(8, 88)]⟩,
          ⟨5, 0, 3, -1, [(8, 80), (9, 90)]⟩] ∧
        t.scan = .ok [(1, 10), (2, 20), (3, 30), (4, 40), (5, 50), (6, 60), (8, 88), (8, 80),
          (9, 90)])) ∧
    ¬ ([(1, 10), (2, 20), (3, 30), (4, 40), (5, 50), (6, 60), (8, 88), (8, 80),
        (9, 90)] : List (KeyType × ValueType)).Pairwise (fun a b => a.1 < b.1) := by
  refine ⟨holds_after (by decide!), ?_, holds_after (by decide!), by decide⟩
  obtain ⟨t, hrun, hP⟩ := holds_after
    (r := Frames.runCalls tree34 (insert1to9 ++ [(7, none)]))
    (P := fun t => t.IsEmpty = false ∧ t.root_page_id_ = 3 ∧
        t.pages 3 = some (.internal ⟨3, -1, 4, [(3, 1), (3, 2), (5, 4)]⟩) ∧
        t.chainLeaves = .ok [⟨1, 3, 3, 2, [(1, 10), (2, 20)]⟩, ⟨2, 3, 3, 4, [(3, 30), (4, 40)]⟩,
          ⟨4, 3, 3, 5, [(5, 50), (6, 60)]⟩, ⟨5, 0, 3, -1, [(8, 80), (9, 90)]⟩] ∧
        t.pages 1 = some (.leaf ⟨1, 3, 3, 2, [(1, 10), (2, 20)]⟩) ∧
        t.pages 2 = some (.leaf ⟨2, 3, 3, 4, [(3, 30), (4, 40)]⟩) ∧
        t.pages 4 = some (.leaf ⟨4, 3, 3, 5, [(5, 50), (6, 60)]⟩) ∧
        t.pages 5 = some (.leaf ⟨5, 0, 3, -1, [(8, 80), (9, 90)]⟩) ∧
        t.pages INVALID_PAGE_ID = some (.internal ⟨0, 0, 0, [(7, 5)]⟩)) (by decide!)
  refine ⟨t, hrun, hP, ?_⟩
  obtain ⟨_, hroot, h3, _, h1, h2, h4, _, _⟩ := hP
  -- the pages of the tree are the root page 3 and its children 1, 2 and 4
  have hnodes : ∀ p, TreeNode t p → p = 3 ∨ p = 1 ∨ p = 2 ∨ p = 4 := by
    intro p hp
    induction hp with
    | root _ => exact Or.inl hroot
    | child hq hpg he ih =>
      rename_i q ip e
      rcases ih with h | h | h | h
      · rw [h, h3] at hpg
        injection hpg with hpg
        injection hpg with hpg
        rw [← hpg] at he
        simp only [List.mem_cons, List.mem_singleton, List.not_mem_nil, or_false] at he
        rcases he with he | he | he
        · rw [he]; exact Or.inr (Or.inl rfl)
        · rw [he]; exact Or.inr (Or.inr (Or.inl rfl))
        · rw [he]; exact Or.inr (Or.inr (Or.inr rfl))
      · rw [h, h1] at hpg
        injection hpg with hpg
        cases hpg
      · rw [h, h2] at hpg
        injection hpg with hpg
        cases hpg
      · rw [h, h4] at hpg
        injection hpg with hpg
        cases hpg
  intro h5
  rcases hnodes 5 h5 with h | h | h | h <;> exact absurd h (by decide)

/-- In a state reached from the empty tree by calls that return, an `Insert`
that returns gives false exactly when the key is stored in a leaf of the
tree, and then leaves the state as it is. -/
theorem Reachable.Insert_false_iff_stored {leaf_max_size internal_max_size : Nat}
    {first_page_id : page_id_t} (h0 : 0 ≤ first_page_id) {t : BPlusTree}
    (hr : Reachable leaf_max_size internal_max_size first_page_id t)
    (key : KeyType) (value : ValueType) (t1 : BPlusTree) (b : Bool)
    (hi : t.Insert key value = .ok (t1, b)) :
    (b = false ↔ ∃ (p : page_id_t) (l : LeafPage) (e : KeyType × ValueType),
      TreeNode t p ∧ t.pages p = some (.leaf l) ∧ e ∈ l.array_ ∧ e.1 = key) ∧
    (b = false → t1 = t) := by
  obtain ⟨g, hg⟩ := Reachable.tree_inv h0 hr
  obtain ⟨i1, i2⟩ := Insert_false_iff t key value (t1, b) hi
  refine ⟨?_, i1⟩
  rw [show (b = false) = ((t1, b).2 = false) from rfl, i2]
  constructor
  · rintro ⟨vs, hv⟩
    unfold GetValue at hv
    cases he : t.IsEmpty with
    | true =>
      rw [he] at hv
      simp only [if_true] at hv
      injection hv with hv
      injection hv with hv _
      cases hv
    | false =>
      rw [he] at hv
      simp only [Bool.false_eq_true, if_false] at hv
      cases hgl : t.GetLeafPage key with
      | error e => rw [hgl] at hv; exact absurd hv (by simp)
      | ok leaf_id =>
        rw [hgl] at hv
        simp only [] at hv
        cases hf : t.fetchLeaf leaf_id with
        | error e => rw [hf] at hv; exact absurd hv (by simp)
        | ok leaf =>
          rw [hf] at hv
          simp only [] at hv
          injection hv with hv
          injection hv with hv _
          obtain ⟨e, hm, hk⟩ := hasKey_true_iff.1 hv
          obtain ⟨hS, _, _, _⟩ := hg.GetLeafPage_spec he hgl
          exact ⟨leaf_id, leaf, e, hg.treeNode_of_S _ leaf_id hS (Nat.le_add_right _ _),
            fetchLeaf_ok hf, hm, hk⟩
  · rintro ⟨p, l, e, hp, hl, hm, hk⟩
    have he : t.IsEmpty = false := by
      cases he : t.IsEmpty with
      | true => exact absurd hp (fun h => TreeNode.not_of_empty he h)
      | false => rfl
    have hS := InvG.S_of_treeNode hg hp
    have hin := ((hg.node p hS).leaf l hl).inside e hm
    rw [hk] at hin
    -- the search ends at the leaf whose range holds the key
    unfold Insert at hi
    rw [he] at hi
    simp only [Bool.false_eq_true, if_false] at hi
    unfold GetValue
    rw [he]
    simp only [Bool.false_eq_true, if_false]
    cases hgl : t.GetLeafPage key with
    | error err => rw [hgl] at hi; exact absurd hi (by simp)
    | ok leaf_id =>
      obtain ⟨hS1, hL1, hlo1, hhi1⟩ := hg.GetLeafPage_spec he hgl
      have heq : p = leaf_id := hg.disj p leaf_id key hS hS1 ⟨l, hl⟩ hL1 hin.1 hin.2 hlo1 hhi1
      subst heq
      have hf : t.fetchLeaf p = .ok l := by
        unfold fetchLeaf
        rw [hl]
      simp only [hf]
      exact ⟨_, by rw [hasKey_true_iff.2 ⟨e, hm, hk⟩]⟩

/-- C3, the code at the failing input.  With `leaf_max_size = 3` and
`internal_max_size = 4`, `Insert(8, 80)` returns true in the run of the
inserts of 1 .. 9, and `GetValue(8)` then yields 80.  After `Remove(7)`, in
which `HandleUnderFlow` fetches `INVALID_PAGE_ID` and the code goes on with
the zeroed frame, the key 8 has not been removed: the entry `(8, 80)` is
still in the leaf page 5, the next leaf of page 4, and the loop of a client
from `Begin()` to `End()` yields it.  But `GetValue(8)` finds nothing, and
`Insert(8, 88)` returns true and changes the tree; the loop of a client then
yields the key 8 twice. -/
theorem Insert_accepts_key_inserted_before :
    (∃ t, tree34.runCalls [(1, some 10), (2, some 20), (3, some 30), (4, some 40), (5, some 50),
        (6, some 60), (7, some 70)] = .ok t ∧
      (t.Insert 8 80).toOption.map Prod.snd = some true) ∧
    (∃ t, tree34.runCalls insert1to9 = .ok t ∧ t.GetValue 8 = .ok (true, [80])) ∧
    (∃ t, Frames.runCalls tree34 (insert1to9 ++ [(7, none)]) = .ok t ∧
      (t.pages 5 = some (.leaf ⟨5, 0, 3, -1, [(8, 80), (9, 90)]⟩) ∧
        t.pages 4 = some (.leaf ⟨4, 3, 3, 5, [(5, 50), (6, 60)]⟩) ∧
        (match t.Begin with
          | .ok it => (t.iterate 9 it).toOption.map Prod.fst
          | .error _ => none) =
          some [(1, 10), (2, 20), (3, 30), (4, 40), (5, 50), (6, 60), (8, 80), (9, 90)] ∧
        t.GetValue 8 = .ok (false, []) ∧
        (t.Insert 8 88).toOption.map Prod.snd = some true ∧
        (t.Insert 8 88).toOption.map (fun r => r.1.GetValue 8) = some (.ok (true, [88])) ∧
        (t.Insert 8 88).toOption.map (fun r =>
          match r.1.Begin with
          | .ok it => (r.1.iterate 10 it).toOption.map Prod.fst
          | .error _ => none) =
          some (some [(1, 10), (2, 20), (3, 30), (4, 40), (5, 50), (6, 60), (8, 88), (8, 80),
            (9, 90)]))) :=
  ⟨holds_after (by decide!), holds_after (by decide!), holds_after (by decide!)⟩

/-- C25, the code at the failing input.  With `leaf_max_size = 3` and
`internal_max_size = 4`: after the inserts of 1 .. 9, `Remove(7)` makes
`HandleUnderFlow` fetch `INVALID_PAGE_ID` for the last child of the root; the
code merges that page into the zeroed frame, which then holds the slot
`(7, 5)` with the leaf page 5 (keys 8, 9) as child.  `Insert(8, 88)`,
`Insert(10, 100)` and `Insert(11, 110)` return and give a tree of three levels
again, with the internal page 11 over the leaves `[8, 10]` and `[11]` as the
last child of the root page 12.  `Remove(10)` merges these two leaves; page
11 is left with one child and has a left sibling only, so `HandleUnderFlow`
fetches `INVALID_PAGE_ID` again and finds the frame with one slot, which is
more than its minimum size 0: `BorrowKey` takes that slot.  The call returns
with page 11, a page of the tree, holding the slots `(8, 5), (8, 9)`: the
subtree of its child of slot 0, the leaf page 5, stores the keys 8 and 9,
which are not below the key 8 of slot 1; and the key 8 is stored under both
children. -/
theorem borrow_from_frame_breaks_key_order :
    (∃ t, Frames.runCalls tree34 (insert1to9 ++
        [(7, none), (8, some 88), (10, some 100), (11, some 110)]) = .ok t ∧
      (t.root_page_id_ = 12 ∧
        t.pages 12 = some (.internal ⟨12, -1, 4, [(8, 3), (8, 11)]⟩) ∧
        t.pages 11 = some (.internal ⟨11, 12, 4, [(8, 9), (11, 10)]⟩) ∧
        t.pages 9 = some (.leaf ⟨9, 11, 3, 10, [(8, 88), (10, 100)]⟩) ∧
        t.pages 10 = some (.leaf ⟨10, 11, 3, 5, [(11, 110)]⟩) ∧
        t.pages 5 = some (.leaf ⟨5, 0, 3, -1, [(8, 80), (9, 90)]⟩) ∧
        t.pages INVALID_PAGE_ID = some (.internal ⟨0, 0, 0, [(7, 5)]⟩))) ∧
    (∃ t, Frames.runCalls tree34 (insert1to9 ++
        [(7, none), (8, some 88), (10, some 100), (11, some 110), (10, none)]) = .ok t ∧
      (t.IsEmpty = false ∧ t.root_page_id_ = 12 ∧
        t.pages 12 = some (.internal ⟨12, -1, 4, [(8, 3), (7, 11)]⟩) ∧
        t.pages 11 = some (.internal ⟨11, 12, 4, [(8, 5), (8, 9)]⟩) ∧
        t.pages 5 = some (.leaf ⟨5, 11, 3, -1, [(8, 80), (9, 90)]⟩) ∧
        t.pages 9 = some (.leaf ⟨9, 11, 3, 5, [(8, 88), (11, 110)]⟩) ∧
        t.pages INVALID_PAGE_ID = some (.internal ⟨0, 0, 0, []⟩) ∧
        t.GetValue 9 = .ok (false, [])) ∧
      TreeNode t 11 ∧
      (∃ ip : InternalPage, t.pages 11 = some (.internal ip) ∧
        ip.array_[0]? = some (8, 5) ∧ ip.array_[1]? = some (8, 9) ∧
        SubtreeKey t 5 8 ∧ SubtreeKey t 5 9 ∧ SubtreeKey t 9 8 ∧
        ¬ ((8 : KeyType) < 8) ∧ ¬ ((9 : KeyType) < 8))) := by
  refine ⟨holds_after (by decide!), ?_⟩
  obtain ⟨t, hrun, hP⟩ := holds_after
    (r := Frames.runCalls tree34 (insert1to9 ++
        [(7, none), (8, some 88), (10, some 100), (11, some 110), (10, none)]))
    (P := fun t => t.IsEmpty = false ∧ t.root_page_id_ = 12 ∧
        t.pages 12 = some (.internal ⟨12, -1, 4, [(8, 3), (7, 11)]⟩) ∧
        t.pages 11 = some (.internal ⟨11, 12, 4, [(8, 5), (8, 9)]⟩) ∧
        t.pages 5 = some (.leaf ⟨5, 11, 3, -1, [(8, 80), (9, 90)]⟩) ∧
        t.pages 9 = some (.leaf ⟨9, 11, 3, 5, [(8, 88), (11, 110)]⟩) ∧
        t.pages INVALID_PAGE_ID = some (.internal ⟨0, 0, 0, []⟩) ∧
        t.GetValue 9 = .ok (false, [])) (by decide!)
  refine ⟨t, hrun, hP, ?_, ?_⟩
  · obtain ⟨he, hroot, h12, _⟩ := hP
    have hr : TreeNode t 12 := by
      rw [← hroot]
      exact TreeNode.root he
    exact TreeNode.child (e := ((7 : KeyType), (11 : page_id_t))) hr h12 (by simp)
  · obtain ⟨_, _, _, h11, h5, h9, _⟩ := hP
    refine ⟨_, h11, rfl, rfl, ?_, ?_, ?_, by decide, by decide⟩
    · exact SubtreeKey.leaf (e := ((8 : KeyType), (80 : ValueType))) h5 (by simp)
    · exact SubtreeKey.leaf (e := ((9 : KeyType), (90 : ValueType))) h5 (by simp)
    · exact SubtreeKey.leaf (e := ((8 : KeyType), (88 : ValueType))) h9 (by simp)

end BPlusTree

/-! ### `Begin()` on the empty tree -/

namespace BPlusTree

/-- C27, the code at the failing input: the empty tree, as the constructor
leaves it, for every `leaf_max_size` and `internal_max_size`.  It has no leaf,
so a scan has nothing to yield and `Begin()` should compare equal to `End()`,
the iterator with `INVALID_PAGE_ID`.  But `Begin()` has no test of
`IsEmpty()`: it calls `FetchPage(root_page_id_)` with `INVALID_PAGE_ID`, under
which there is no page of the tree, and does not return the iterator with
`INVALID_PAGE_ID`. -/
theorem Begin_on_empty_tree_fetches_invalid_page (leaf_max_size internal_max_size : Nat)
    (first_page_id : page_id_t) :
    (BPlusTree.new leaf_max_size internal_max_size first_page_id).IsEmpty = true ∧
    (BPlusTree.new leaf_max_size internal_max_size first_page_id).root_page_id_ =
      INVALID_PAGE_ID ∧
    (∀ p, (BPlusTree.new leaf_max_size internal_max_size first_page_id).pages p = none) ∧
    (BPlusTree.new leaf_max_size internal_max_size first_page_id).Begin =
      .error (.fetchNoPage INVALID_PAGE_ID) ∧
    (BPlusTree.new leaf_max_size internal_max_size first_page_id).End =
      IndexIterator.new INVALID_PAGE_ID 0 ∧
    (BPlusTree.new leaf_max_size internal_max_size first_page_id).chainLeaves = .ok [] := by
  have hl : leftmostLeaf (BPlusTree.new leaf_max_size internal_max_size first_page_id)
      (BPlusTree.new leaf_max_size internal_max_size first_page_id).fuel INVALID_PAGE_ID =
      .error (.fetchNoPage INVALID_PAGE_ID) := by
    unfold fuel
    simp only [leftmostLeaf, BPlusTree.new]
  refine ⟨rfl, rfl, fun _ => rfl, ?_, rfl, rfl⟩
  have hb : (BPlusTree.new leaf_max_size internal_max_size first_page_id).root_page_id_ =
      INVALID_PAGE_ID := rfl
  unfold Begin
  rw [hb]
  rw [hl]

end BPlusTree

/-! ### Sizes of the pages that are not the root -/

namespace BPlusTree

end BPlusTree

end bustub
